import Mathlib

/-!
# DAN3 codec (`dan3final.c`): shallow embedding and verification

The C program keeps all of its state in globals.  The embedding passes that
state explicitly:

* `Buffers`  : `data_src`, `index_src`, `data_dest`, `index_dest`, `bit_mask`, `bit_index`;
* `Parse`    : `optimals`, `BIT_OFFSET3`, `MAX_OFFSET3`;
* `Globals`  : the two records above, the option flags and the match table.

C `int` values are `Int`; bytes, bit masks and values that are built only by
shifting and or-ing bits are `Nat`.  Arrays are functions of the index.  A call
of `abort()` is the result `none`.  `bVerbose` only guards `printf` and is left
out.  `malloc` in `insert_match` is taken to succeed.
-/

namespace DAN3

/-! ## Constants (the `#define`s, macro-expanded at their use sites) -/

/-- `MAX` is `1024*1024`. -/
def MAX : Int := 1024 * 1024
/-- `BIT_GOLOMG_MAX`. -/
def BIT_GOLOMG_MAX : Int := 7
/-- `MAX_GAMMA` is `(1<<(BIT_GOLOMG_MAX+1)) - 2`. -/
def MAX_GAMMA : Int := 256 - 2
/-- `BIT_OFFSET00`. -/
def BIT_OFFSET00 : Int := 0
/-- `BIT_OFFSET0`. -/
def BIT_OFFSET0 : Int := 1
/-- `BIT_OFFSET1`. -/
def BIT_OFFSET1 : Int := 5
/-- `BIT_OFFSET2`. -/
def BIT_OFFSET2 : Int := 8
/-- `BIT_OFFSET_MIN`. -/
def BIT_OFFSET_MIN : Int := 9
/-- `BIT_OFFSET_MAX`. -/
def BIT_OFFSET_MAX : Int := 16
/-- `BIT_OFFSET_NBR` is `BIT_OFFSET_MAX - BIT_OFFSET_MIN + 1`. -/
def BIT_OFFSET_NBR : Int := 16 - 9 + 1
/-- `MAX_OFFSET00` is `(1<<BIT_OFFSET00)`. -/
def MAX_OFFSET00 : Int := 1
/-- `MAX_OFFSET0` is `(1<<BIT_OFFSET0) + MAX_OFFSET00`. -/
def MAX_OFFSET0 : Int := 2 + 1
/-- `MAX_OFFSET1` is `(1<<BIT_OFFSET1)`. -/
def MAX_OFFSET1 : Int := 32
/-- `MAX_OFFSET2` is `(1<<BIT_OFFSET2) + MAX_OFFSET1`. -/
def MAX_OFFSET2 : Int := 256 + 32
/-- `MAX_OFFSET` is `(1<<BIT_OFFSET_MAX) + MAX_OFFSET2`. -/
def MAX_OFFSET : Int := 65536 + (256 + 32)
/-- `RAW_MIN`. -/
def RAW_MIN : Int := 1
/-- `RAW_MAX` is `RAW_MIN + RAW_RANGE - 1` with `RAW_RANGE = (1<<8)`. -/
def RAW_MAX : Int := 1 + 256 - 1
/-- `TRUE` is `-1` in this program. -/
def TRUE : Int := -1
/-- The value `0x7FFFFFFF` that marks an unreachable cost. -/
def INF : Int := 0x7FFFFFFF

/-! ## State -/

/-- Assignment `a[i] = v` on an array modelled as a function. -/
def setAt {α : Type} (a : Int → α) (i : Int) (v : α) : Int → α :=
  fun j => if j = i then v else a j

/-- The buffer globals and the bit cursor. -/
structure Buffers where
  data_src : Int → Nat
  index_src : Int
  data_dest : Int → Nat
  index_dest : Int
  bit_mask : Nat
  bit_index : Int

/-- One `struct t_optimal`: cost, offset and length per subset. -/
structure t_optimal where
  bits : Int → Int
  offset : Int → Int
  len : Int → Int

/-- The globals of the optimal parser. -/
structure Parse where
  BIT_OFFSET3 : Int
  MAX_OFFSET3 : Int
  optimals : Int → t_optimal

/-- All globals.  `matches_` is the array `matches` (a reserved word here); `matches_ k` is the chain of `index` fields of the list that
starts at the head node `matches[k]`, head first. -/
structure Globals where
  BIT_OFFSET_MAX_ALLOWED : Int
  BIT_OFFSET_NBR_ALLOWED : Int
  bFAST : Int
  bRLE : Int
  buf : Buffers
  parse : Parse
  matches_ : Int → List Int

/-- Result of a loop body that may leave the enclosing function with `return v`. -/
inductive Flow (α : Type) where
  | cont : α → Flow α
  | stop : α → Flow α
  | leave : Int → α → Flow α

/-- Result of a function whose main loop is run with a budget of iterations:
`ret v a` is `return v` in state `a`; `nofuel` says that the budget was used up. -/
inductive Outcome (α : Type) where
  | ret : Int → α → Outcome α
  | nofuel : Outcome α

/-- State of the scan of `lzss_slow`: the parser globals, the match table and the
local `prev_match_index`. -/
structure ScanState where
  parse : Parse
  matches_ : Int → List Int
  prev_match_index : Int

/-! ## Match table -/

/-- `insert_match(&matches[k], index)` on the chain of bucket `k`. -/
def insert_match (chain : List Int) (index : Int) : List Int :=
  index :: chain

/-- `reset_matches`: every head node gets `index = -1` and no successor. -/
def reset_matches (_ : Int → List Int) : Int → List Int :=
  fun _ => [-1]

/-! ## Bit and byte input -/

/-- `read_byte`. -/
def read_byte (b : Buffers) : Option (Nat × Buffers) :=
  if b.index_src < 0 ∨ b.index_src ≥ MAX then none
  else some (b.data_src b.index_src, { b with index_src := b.index_src + 1 })

/-- `read_bit`. -/
def read_bit (b : Buffers) : Option (Nat × Buffers) :=
  let r : Option Buffers :=
    if b.bit_mask = 0 then
      if b.index_src < 0 ∨ b.index_src ≥ MAX then none
      else some { b with bit_mask := 128, bit_index := b.index_src, index_src := b.index_src + 1 }
    else some b
  match r with
  | none => none
  | some b1 =>
    if b1.bit_index < 0 ∨ b1.bit_index ≥ MAX then none
    else
      some (if b1.data_src b1.bit_index &&& b1.bit_mask ≠ 0 then 1 else 0,
            { b1 with bit_mask := b1.bit_mask >>> 1 })

/-- The loop `while (j < BIT_GOLOMG_MAX && read_bit() == 0) j++;` with `k`
iterations left before `j` reaches `BIT_GOLOMG_MAX`. -/
def read_golomb_zeros : Nat → Nat → Buffers → Option (Nat × Buffers)
  | 0, j, b => some (j, b)
  | k + 1, j, b =>
    match read_bit b with
    | none => none
    | some (bit, b1) => if bit = 0 then read_golomb_zeros k (j + 1) b1 else some (j, b1)

/-- The loop `for (i = 0; i <= j; i++) { value <<= 1; value |= read_bit(); }`
with `k` iterations left. -/
def read_golomb_value : Nat → Nat → Buffers → Option (Nat × Buffers)
  | 0, value, b => some (value, b)
  | k + 1, value, b =>
    match read_bit b with
    | none => none
    | some (bit, b1) => read_golomb_value k ((value <<< 1) ||| bit) b1

/-- `read_golomb_gamma`. -/
def read_golomb_gamma (b : Buffers) : Option (Int × Buffers) :=
  match read_golomb_zeros 7 0 b with
  | none => none
  | some (j, b1) =>
    if j < 7 then
      match read_golomb_value (j + 1) 1 b1 with
      | none => none
      | some (value, b2) => some ((value : Int) - 1, b2)
    else some (0 - 1, b1)

/-! ## Bit and byte output -/

/-- `write_byte`; the argument is converted to `unsigned char`. -/
def write_byte (value : Nat) (b : Buffers) : Option Buffers :=
  if b.index_dest < 0 ∨ b.index_dest ≥ MAX then none
  else some { b with data_dest := setAt b.data_dest b.index_dest (value % 256),
                     index_dest := b.index_dest + 1 }

/-- `write_bit`. -/
def write_bit (value : Int) (b : Buffers) : Option Buffers :=
  let r : Option Buffers :=
    if b.bit_mask = 0 then
      if b.index_dest < 0 ∨ b.index_dest ≥ MAX then none
      else write_byte 0 { b with bit_mask := 128, bit_index := b.index_dest }
    else some b
  match r with
  | none => none
  | some b1 =>
    if b1.bit_index < 0 ∨ b1.bit_index ≥ MAX then none
    else
      some { b1 with
        data_dest :=
          if value ≠ 0 then
            setAt b1.data_dest b1.bit_index ((b1.data_dest b1.bit_index ||| b1.bit_mask) % 256)
          else b1.data_dest,
        bit_mask := b1.bit_mask >>> 1 }

/-- The loop `while (mask > 1) { mask >>= 1; write_bit(value & mask); }` of
`write_bits`, entered with `mask = 2^k`. -/
def write_bits_loop (value : Int) : Nat → Buffers → Option Buffers
  | 0, b => some b
  | k + 1, b =>
    match write_bit (Int.land value (2 ^ k)) b with
    | none => none
    | some b1 => write_bits_loop value k b1

/-- `write_bits(value, size)`: the first loop leaves `mask = 2^size`. -/
def write_bits (value size : Int) (b : Buffers) : Option Buffers :=
  write_bits_loop value size.toNat b

/-- First loop of `write_golomb_gamma`: `for (i = 4; i <= value; i <<= 1) write_bit(0);`.
An `int` allows fewer than 32 doublings. -/
def write_golomb_zeros (value : Int) : Nat → Int → Buffers → Option (Int × Buffers)
  | 0, i, b => some (i, b)
  | f + 1, i, b =>
    if i ≤ value then
      match write_bit 0 b with
      | none => none
      | some b1 => write_golomb_zeros value f (i * 2) b1
    else some (i, b)

/-- Second loop of `write_golomb_gamma`: `while ((i >>= 1) > 0) write_bit(value & i);`. -/
def write_golomb_digits (value : Int) : Nat → Int → Buffers → Option Buffers
  | 0, _, b => some b
  | f + 1, i, b =>
    if i / 2 > 0 then
      match write_bit (Int.land value (i / 2)) b with
      | none => none
      | some b1 => write_golomb_digits value f (i / 2) b1
    else some b

/-- `write_golomb_gamma`. -/
def write_golomb_gamma (value : Int) (b : Buffers) : Option Buffers :=
  match write_golomb_zeros (value + 1) 32 4 b with
  | none => none
  | some (i, b1) => write_golomb_digits (value + 1) 32 i b1

/-- `write_offset(value, option)`; reads the global `BIT_OFFSET3`. -/
def write_offset (bitOffset3 : Int) (value option : Int) (b : Buffers) : Option Buffers :=
  let value := value - 1
  if option = 1 then
    if value ≥ MAX_OFFSET00 then
      (write_bit 1 b).bind (write_bits (value - MAX_OFFSET00) BIT_OFFSET0)
    else
      (write_bit 0 b).bind (write_bits value BIT_OFFSET00)
  else
    if value ≥ MAX_OFFSET2 then
      (((write_bit 1 b).bind (write_bit 1)).bind
        (write_bits ((value - MAX_OFFSET2) / 256) (bitOffset3 - BIT_OFFSET2))).bind
        (write_byte ((value - MAX_OFFSET2) % 256).toNat)
    else if value ≥ MAX_OFFSET1 then
      (write_bit 0 b).bind (write_byte ((value - MAX_OFFSET1) % 256).toNat)
    else
      ((write_bit 1 b).bind (write_bit 0)).bind (write_bits value BIT_OFFSET1)

/-- `write_doublet`. -/
def write_doublet (bitOffset3 : Int) (length offset : Int) (b : Buffers) : Option Buffers :=
  ((write_bit 0 b).bind (write_golomb_gamma length)).bind (write_offset bitOffset3 offset length)

/-- `write_end`. -/
def write_end (b : Buffers) : Option Buffers :=
  ((write_bit 0 b).bind (write_bits 0 BIT_GOLOMG_MAX)).bind (write_bit 0)

/-- `write_literals_length`. -/
def write_literals_length (length : Int) (b : Buffers) : Option Buffers :=
  (((write_bit 0 b).bind (write_bits 0 BIT_GOLOMG_MAX)).bind (write_bit 1)).bind
    (write_byte ((length - RAW_MIN) % 256).toNat)

/-- `write_literal`. -/
def write_literal (c : Nat) (b : Buffers) : Option Buffers :=
  (write_bit 1 b).bind (write_byte c)

/-! ## Cost model -/

/-- The loop of `golomb_gamma_bits`: `while (value > 1) { bits += 2; value >>= 1; }`.
An `int` allows fewer than 32 halvings. -/
def golomb_gamma_bits_loop : Nat → Int → Int → Int
  | 0, _, bits => bits
  | f + 1, value, bits =>
    if value > 1 then golomb_gamma_bits_loop f (value / 2) (bits + 2) else bits

/-- `golomb_gamma_bits`. -/
def golomb_gamma_bits (value : Int) : Int :=
  golomb_gamma_bits_loop 32 (value + 1) 0

/-- `count_bits(offset, len)`; reads the global `BIT_OFFSET3`.  The branch
`BIT_OFFSET00 == -1` is dead because `BIT_OFFSET00` is `0`. -/
def count_bits (bitOffset3 : Int) (offset len : Int) : Int :=
  let bits := 1 + golomb_gamma_bits len
  if len = 1 then
    bits + 1 + (if offset > MAX_OFFSET00 then BIT_OFFSET0 else BIT_OFFSET00)
  else
    let offset_cost :=
      if offset > MAX_OFFSET2 then 1 + bitOffset3
      else if offset > MAX_OFFSET1 then BIT_OFFSET2
      else 1 + BIT_OFFSET1
    bits + 1 + offset_cost

/-- `set_BIT_OFFSET3`. -/
def set_BIT_OFFSET3 (i : Int) (p : Parse) : Parse :=
  { p with BIT_OFFSET3 := BIT_OFFSET_MIN + i,
           MAX_OFFSET3 := 2 ^ (BIT_OFFSET_MIN + i).toNat + MAX_OFFSET2 }

/-- The three assignments `optimals[index].bits[i] = cost; .offset[i] = offset; .len[i] = len`. -/
def store (p : Parse) (index i cost offset len : Int) : Parse :=
  let o := p.optimals index
  let o1 := t_optimal.mk (setAt o.bits i cost) (setAt o.offset i offset) (setAt o.len i len)
  { p with optimals := setAt p.optimals index o1 }

/-- Body of the `while (i >= 0)` loop of `update_optimal` for subset `i`
(every path ends with `i--`).  Costs stay far below `2^31`, so `int`
arithmetic does not wrap. -/
def update_optimal_step (index len offset i : Int) (p : Parse) : Option Parse :=
  if index < 0 ∨ index ≥ MAX then none
  else if offset = 0 then
    if index > 0 then
      if index - 1 < 0 ∨ index - 1 ≥ MAX then none
      else if (p.optimals (index - 1)).bits i = INF then some p
      else if len = 1 then
        let cost := (p.optimals (index - 1)).bits i + 1 + 8
        if (p.optimals index).bits i > cost then some (store p index i cost 0 1) else some p
      else
        if index - len < 0 ∨ index - len ≥ MAX then none
        else if (p.optimals (index - len)).bits i = INF then some p
        else
          let cost := (p.optimals (index - len)).bits i + 1 + BIT_GOLOMG_MAX + 1 + 8 + len * 8
          if (p.optimals index).bits i > cost then some (store p index i cost 0 len) else some p
    else some (store p index i 8 0 1)
  else
    if offset > index then some p
    else if index - len < 0 ∨ index - len ≥ MAX then none
    else if (p.optimals (index - len)).bits i = INF then some p
    else
      let p1 := if offset > MAX_OFFSET1 then set_BIT_OFFSET3 i p else p
      if offset > MAX_OFFSET1 ∧ offset > p1.MAX_OFFSET3 then some p1
      else
        let cost := (p1.optimals (index - len)).bits i + count_bits p1.BIT_OFFSET3 offset len
        if (p1.optimals index).bits i > cost then some (store p1 index i cost offset len)
        else some p1

/-- The loop of `update_optimal`, with `k` subsets left: `i = k - 1` down to `0`. -/
def update_optimal_loop (index len offset : Int) : Nat → Parse → Option Parse
  | 0, p => some p
  | k + 1, p =>
    match update_optimal_step index len offset (k : Int) p with
    | none => none
    | some p1 => update_optimal_loop index len offset k p1

/-- `update_optimal(index, len, offset)`; `nbr` is the global `BIT_OFFSET_NBR_ALLOWED`. -/
def update_optimal (nbr : Int) (index len offset : Int) (p : Parse) : Option Parse :=
  update_optimal_loop index len offset nbr.toNat p

/-! ## Trim pass -/

/-- The inner loop of `cleanup_optimals`: `for (j = i - 1; j > i - len; j--)`,
with `k` iterations left. -/
def cleanup_inner (subset : Int) : Nat → Int → (Int → t_optimal) → (Int → t_optimal)
  | 0, _, o => o
  | k + 1, j, o =>
    if j < 0 ∨ j ≥ MAX then o
    else
      cleanup_inner subset k (j - 1)
        (setAt o j (t_optimal.mk (o j).bits (setAt (o j).offset subset 0)
          (setAt (o j).len subset 0)))

/-- The loop `while (i > 1)` of `cleanup_optimals`; `i` decreases in every
iteration, so `index_src` iterations are enough. -/
def cleanup_loop (subset : Int) : Nat → Int → (Int → t_optimal) → (Int → t_optimal)
  | 0, _, o => o
  | f + 1, i, o =>
    if i > 1 then
      if i < 0 ∨ i ≥ MAX then o
      else if subset < 0 ∨ subset ≥ BIT_OFFSET_NBR then o
      else
        let len := (o i).len subset
        if len ≤ 0 then cleanup_loop subset f (i - 1) o
        else cleanup_loop subset f (i - len) (cleanup_inner subset (len - 1).toNat (i - 1) o)
    else o

/-- `cleanup_optimals(subset)`. -/
def cleanup_optimals (subset : Int) (index_src : Int) (o : Int → t_optimal) : Int → t_optimal :=
  cleanup_loop subset index_src.toNat (index_src - 1) o

/-! ## Emission -/

/-- The loop `for (j = 0; j < len; j++)` that writes the bytes of a literal run,
with `k` iterations left. -/
def write_raw_loop (index : Int) : Nat → Int → Buffers → Option (Flow Buffers)
  | 0, _, b => some (Flow.cont b)
  | k + 1, j, b =>
    if index + j ≥ MAX then some (Flow.leave (-1) b)
    else
      match write_byte (b.data_src (index + j)) b with
      | none => none
      | some b1 => write_raw_loop index k (j + 1) b1

/-- Body of the loop of `write_lz` at position `i`. -/
def write_lz_step (subset : Int) (p : Parse) (i : Int) (b : Buffers) : Option (Flow Buffers) :=
  if i < 0 ∨ i ≥ MAX then some (Flow.leave (-1) b)
  else if (p.optimals i).len subset > 0 then
    let index := i - (p.optimals i).len subset + 1
    if index < 0 ∨ index ≥ MAX then some (Flow.leave (-1) b)
    else if (p.optimals i).offset subset = 0 then
      if (p.optimals i).len subset = 1 then
        (write_literal (b.data_src index) b).map Flow.cont
      else
        match write_literals_length ((p.optimals i).len subset) b with
        | none => none
        | some b1 => write_raw_loop index ((p.optimals i).len subset).toNat 0 b1
    else
      (write_doublet p.BIT_OFFSET3 ((p.optimals i).len subset) ((p.optimals i).offset subset) b).map
        Flow.cont
  else some (Flow.cont b)

/-- The loop `for (i = 1; i < index_src; i++)` of `write_lz`, with `k` iterations left. -/
def write_lz_loop (subset : Int) (p : Parse) : Nat → Int → Buffers → Option (Flow Buffers)
  | 0, _, b => some (Flow.cont b)
  | k + 1, i, b =>
    match write_lz_step subset p i b with
    | none => none
    | some (Flow.cont b1) => write_lz_loop subset p k (i + 1) b1
    | some r => some r

/-- `write_lz(subset)`: returns the compressed size, or `-1`. -/
def write_lz (subset : Int) (p : Parse) (b : Buffers) : Option (Int × Buffers) :=
  let b0 := { b with index_dest := 0, bit_mask := 0, bit_index := 0 }
  match (write_bits 0xFE (subset + 1) b0).bind (write_byte (b0.data_src 0)) with
  | none => none
  | some b1 =>
    match write_lz_loop subset p (b1.index_src - 1).toNat 1 b1 with
    | none => none
    | some (Flow.cont b2) => (write_end b2).map (fun b3 => (b3.index_dest, b3))
    | some (Flow.stop b2) => (write_end b2).map (fun b3 => (b3.index_dest, b3))
    | some (Flow.leave v b2) => some (v, b2)

/-! ## Optimal parser -/

/-- The loop `for (k = j; k > RAW_MIN; k--) update_optimal(i, k, 0);` (the case
`RAW_MIN == 1`), with `c` iterations left. -/
def rle_loop (nbr i : Int) : Nat → Int → Parse → Option Parse
  | 0, _, p => some p
  | c + 1, k, p =>
    match update_optimal nbr i k 0 p with
    | none => none
    | some p1 => rle_loop nbr i c (k - 1) p1

/-- The loop `for (k = 1; k <= j; k++)` of "LZ MATCH OF 1", with `c` iterations left. -/
def len1_loop (data_src : Int → Nat) (nbr i : Int) : Nat → Int → Parse → Option Parse
  | 0, _, p => some p
  | c + 1, k, p =>
    if i < 0 ∨ i ≥ MAX ∨ i - k < 0 ∨ i - k ≥ MAX then none
    else if data_src i = data_src (i - k) then
      match update_optimal nbr i 1 k p with
      | none => none
      | some p1 => len1_loop data_src nbr i c (k + 1) p1
    else len1_loop data_src nbr i c (k + 1) p

/-- The loop `for (len = 2; len <= MAX_GAMMA; len++)` of "LZ MATCH OF 2+" for one
candidate `offset`; returns the local `best_len` with the parser globals.  With
`f` iterations left, `len = MAX_GAMMA + 1 - f`. -/
def match_len_loop (data_src : Int → Nat) (nbr i offset : Int) :
    Nat → Int → Int → Parse → Option (Int × Parse)
  | 0, _, best_len, p => some (best_len, p)
  | f + 1, len, best_len, p =>
    if len ≤ MAX_GAMMA then
      if i - len < 0 ∨ i - len - offset < 0 ∨ i - len ≥ MAX ∨ i - len - offset ≥ MAX then
        some (best_len, p)
      else
        match update_optimal nbr i len offset p with
        | none => none
        | some p1 =>
          if i < offset + len ∨ data_src (i - len) ≠ data_src (i - len - offset) then
            some (len, p1)
          else match_len_loop data_src nbr i offset f (len + 1) len p1
    else some (best_len, p)

/-- The loop `for (; match->next != NULL; match = match->next)` over the chain of
one bucket.  Returns the chain as `flush_match` leaves it, with the parser
globals.  The last node of a chain has no successor and is not visited. -/
def match_walk (data_src : Int → Nat) (nbr bFAST i : Int) :
    List Int → Int → Parse → Option (List Int × Parse)
  | [], _, p => some ([], p)
  | [a], _, p => some ([a], p)
  | a :: b :: rest, best_len, p =>
    let offset := i - a
    if offset > MAX_OFFSET then some ([a], p)
    else if offset ≤ 0 ∨ i - offset < 0 then
      (match_walk data_src nbr bFAST i (b :: rest) best_len p).map (fun r => (a :: r.1, r.2))
    else
      match match_len_loop data_src nbr i offset 253 2 best_len p with
      | none => none
      | some (best_len1, p1) =>
        if bFAST ≠ 0 ∧ best_len1 > 255 then some (a :: b :: rest, p1)
        else
          (match_walk data_src nbr bFAST i (b :: rest) best_len1 p1).map
            (fun r => (a :: r.1, r.2))

/-- Body of the scan loop `while (i < index_src)` of `lzss_slow` at position `i`. -/
def scan_step (data_src : Int → Nat) (nbr bRLE bFAST : Int) (i : Int) (s : ScanState) :
    Option ScanState :=
  match update_optimal nbr i 1 0 s.parse with
  | none => none
  | some p1 =>
    let j : Int := if RAW_MAX > i then i else RAW_MAX
    match (if bRLE ≠ 0 ∧ i ≥ RAW_MIN then rle_loop nbr i (j - RAW_MIN).toNat j p1 else some p1) with
    | none => none
    | some p2 =>
      let j1 : Int := if MAX_OFFSET0 > i then i else MAX_OFFSET0
      match len1_loop data_src nbr i j1.toNat 1 p2 with
      | none => none
      | some p3 =>
        if i - 1 < 0 ∨ i ≥ MAX then
          some { parse := p3, matches_ := s.matches_, prev_match_index := -1 }
        else
          let match_index : Int := (((data_src (i - 1) <<< 8) ||| (data_src i &&& 255) : Nat) : Int)
          if s.prev_match_index = match_index ∧ bFAST = TRUE ∧
              (p3.optimals (i - 1)).offset 0 = 1 ∧ (p3.optimals (i - 1)).len 0 > 2 then
            let len := (p3.optimals (i - 1)).len 0
            match (if len < MAX_GAMMA ∧ (i ≥ len ∧ i - len ≥ 0 ∧ i - len < MAX)
                   then update_optimal nbr i (len + 1) 1 p3 else some p3) with
            | none => none
            | some p4 =>
              some { parse := p4,
                     matches_ := setAt s.matches_ match_index
                       (insert_match (s.matches_ match_index) i),
                     prev_match_index := match_index }
          else
            match match_walk data_src nbr bFAST i (s.matches_ match_index) 1 p3 with
            | none => none
            | some (chain, p4) =>
              some { parse := p4,
                     matches_ := setAt s.matches_ match_index (insert_match chain i),
                     prev_match_index := match_index }

/-- The scan loop `while (i < index_src)` of `lzss_slow`, with `c` iterations left. -/
def scan_loop (data_src : Int → Nat) (nbr bRLE bFAST : Int) :
    Nat → Int → ScanState → Option ScanState
  | 0, _, s => some s
  | c + 1, i, s =>
    match scan_step data_src nbr bRLE bFAST i s with
    | none => none
    | some s1 => scan_loop data_src nbr bRLE bFAST c (i + 1) s1

/-- The loop `for (i = 0; i < BIT_OFFSET_NBR_ALLOWED; i++)` that selects the best
subset, with `c` iterations left; the state is `(bits_minimum, j)`. -/
def select_loop (last : t_optimal) : Nat → Int → Int × Int → Int × Int
  | 0, _, r => r
  | c + 1, i, r =>
    if last.bits i = INF then select_loop last c (i + 1) r
    else if last.bits i < r.1 then select_loop last c (i + 1) (last.bits i, i)
    else select_loop last c (i + 1) r

/-- The table after the initialisation loops of `lzss_slow`, which assign all
`MAX` entries and all `BIT_OFFSET_NBR` subsets of the array `optimals`. -/
def init_optimals (_ : Int → t_optimal) : Int → t_optimal :=
  fun _ => { bits := fun _ => INF, offset := fun _ => 0, len := fun _ => 0 }

/-- The scan of `lzss_slow`: everything between the initialisation and the
selection of the subset, for `index_src > 0`. -/
def lzss_scan (g : Globals) : Option ScanState :=
  match update_optimal g.BIT_OFFSET_NBR_ALLOWED 0 1 0
      { g.parse with optimals := init_optimals g.parse.optimals } with
  | none => none
  | some p0 =>
    scan_loop g.buf.data_src g.BIT_OFFSET_NBR_ALLOWED g.bRLE g.bFAST
      (g.buf.index_src - 1).toNat 1
      { parse := p0, matches_ := reset_matches g.matches_, prev_match_index := -1 }

/-- The selection of the best subset in `lzss_slow`: the pair `(bits_minimum, j)`
after the loop over the allowed subsets. -/
def select_best (nbr index_src : Int) (p : Parse) : Int × Int :=
  select_loop (p.optimals (index_src - 1)) nbr.toNat 0
    ((p.optimals (index_src - 1)).bits 0, 0)

/-- The two calls `set_BIT_OFFSET3(j); cleanup_optimals(j);` of `lzss_slow`. -/
def trim (j index_src : Int) (p : Parse) : Parse :=
  { set_BIT_OFFSET3 j p with optimals := cleanup_optimals j index_src p.optimals }

/-- `lzss_slow`: returns the compressed size, `0` for empty input, or `-1`.  The
second test `index_src <= 0` after the scan cannot hold on the path that reaches it. -/
def lzss_slow (g : Globals) : Option (Int × Globals) :=
  if g.buf.index_src > 0 then
    match lzss_scan g with
    | none => none
    | some s =>
      let sel := select_best g.BIT_OFFSET_NBR_ALLOWED g.buf.index_src s.parse
      if sel.1 = INF then
        some (-1, { g with parse := s.parse, matches_ := s.matches_ })
      else
        let p2 := trim sel.2 g.buf.index_src s.parse
        match write_lz sel.2 p2 g.buf with
        | none => none
        | some (r, b) => some (r, { g with parse := p2, matches_ := s.matches_, buf := b })
  else
    some (0, { g with parse := { g.parse with optimals := init_optimals g.parse.optimals },
                      matches_ := reset_matches g.matches_ })

/-! ## Decoder -/

/-- The loop `while (read_bit() != 0)` that reads the subset header, with `f`
reads left (nine one-bits always leave the function).  `ret (-1)` is the
`return -1` inside the loop, `ret 0` the normal end of the loop; both carry
`subset` and the buffers. -/
def read_subset (old_index_src : Int) : Nat → Int → Buffers → Option (Outcome (Int × Buffers))
  | 0, _, _ => some Outcome.nofuel
  | f + 1, subset, b =>
    match read_bit b with
    | none => none
    | some (bit, b1) =>
      if bit ≠ 0 then
        if subset + 1 > BIT_OFFSET_NBR ∨ b1.index_src ≥ old_index_src then
          some (Outcome.ret (-1) (subset + 1, b1))
        else read_subset old_index_src f (subset + 1) b1
      else some (Outcome.ret 0 (subset, b1))

/-- The loop `for (i = 0; i < len; i++)` of a literal run: `write_byte(read_byte())`
after the check of the byte cursor, with `k` iterations left. -/
def copy_raw_loop (old_index_src : Int) : Nat → Buffers → Option (Flow Buffers)
  | 0, b => some (Flow.cont b)
  | k + 1, b =>
    if b.index_src ≥ old_index_src then some (Flow.leave (-1) b)
    else
      match read_byte b with
      | none => none
      | some (c, b1) =>
        match write_byte c b1 with
        | none => none
        | some b2 => copy_raw_loop old_index_src k b2

/-- The loops that read the bits of an offset, one checked `read_bit` per
iteration: `offset <<= 1; offset |= read_bit();`, with `k` iterations left. -/
def read_offset_bits (old_index_src : Int) : Nat → Nat → Buffers → Option (Flow (Nat × Buffers))
  | 0, offset, b => some (Flow.cont (offset, b))
  | k + 1, offset, b =>
    if b.index_src ≥ old_index_src then some (Flow.leave (-1) (offset, b))
    else
      match read_bit b with
      | none => none
      | some (bit, b1) => read_offset_bits old_index_src k ((offset <<< 1) ||| bit) b1

/-- The offset of a match as `delzss` reads it (the value on the wire, one less
than the distance). -/
def read_offset (subset old_index_src len : Int) (b : Buffers) : Option (Flow (Nat × Buffers)) :=
  if len = 1 then
    if b.index_src ≥ old_index_src then some (Flow.leave (-1) (0, b))
    else
      match read_bit b with
      | none => none
      | some (bit, b1) =>
        if bit ≠ 0 then
          match read_bit b1 with
          | none => none
          | some (bit2, b2) => some (Flow.cont (bit2 + 1, b2))
        else some (Flow.cont (0, b1))
  else
    if b.index_src ≥ old_index_src then some (Flow.leave (-1) (0, b))
    else
      match read_bit b with
      | none => none
      | some (bit, b1) =>
        if bit = 0 then
          if b1.index_src ≥ old_index_src then some (Flow.leave (-1) (0, b1))
          else
            match read_byte b1 with
            | none => none
            | some (c, b2) => some (Flow.cont (c + 32, b2))
        else
          if b1.index_src ≥ old_index_src then some (Flow.leave (-1) (0, b1))
          else
            match read_bit b1 with
            | none => none
            | some (bit2, b2) =>
              if bit2 ≠ 0 then
                match read_offset_bits old_index_src (subset + BIT_OFFSET_MIN - 8).toNat 0 b2 with
                | none => none
                | some (Flow.cont (offset, b3)) =>
                  if b3.index_src ≥ old_index_src then some (Flow.leave (-1) (offset, b3))
                  else
                    match read_byte b3 with
                    | none => none
                    | some (c, b4) => some (Flow.cont (((offset <<< 8) ||| c) + (256 + 32), b4))
                | some r => some r
              else read_offset_bits old_index_src 5 0 b2

/-- The copy loop of a match: `data_dest[index_dest + i] = data_dest[source_start_index + i]`
for `i` from the given value, with `k` iterations left. -/
def copy_match_loop (source_start_index index_dest : Int) :
    Nat → Int → (Int → Nat) → (Int → Nat)
  | 0, _, d => d
  | k + 1, i, d =>
    copy_match_loop source_start_index index_dest k (i + 1)
      (setAt d (index_dest + i) (d (source_start_index + i)))

/-- Body of the main loop of `delzss`: one token. -/
def delzss_token (subset old_index_src : Int) (b : Buffers) : Option (Flow Buffers) :=
  if b.index_src ≥ old_index_src then some (Flow.stop b)
  else
    match read_bit b with
    | none => none
    | some (bit, b1) =>
      if bit ≠ 0 then
        if b1.index_src ≥ old_index_src then some (Flow.leave (-1) b1)
        else
          match read_byte b1 with
          | none => none
          | some (c, b2) => (write_byte c b2).map Flow.cont
      else
        match read_golomb_gamma b1 with
        | none => none
        | some (len, b2) =>
          if len = -1 then
            if b2.index_src ≥ old_index_src then some (Flow.leave (-1) b2)
            else
              match read_bit b2 with
              | none => none
              | some (bit2, b3) =>
                if bit2 = 0 then some (Flow.stop b3)
                else
                  if b3.index_src ≥ old_index_src then some (Flow.leave (-1) b3)
                  else
                    match read_byte b3 with
                    | none => none
                    | some (c, b4) => copy_raw_loop old_index_src (c + 1) b4
          else
            match read_offset subset old_index_src len b2 with
            | none => none
            | some (Flow.cont (offset, b3)) =>
              let source_start_index := b3.index_dest - (offset : Int) - 1
              if source_start_index < 0 ∨ source_start_index + len > b3.index_dest then none
              else if b3.index_dest + len > MAX then none
              else
                some (Flow.cont { b3 with
                  data_dest := copy_match_loop source_start_index b3.index_dest len.toNat 0
                    b3.data_dest,
                  index_dest := b3.index_dest + len })
            | some (Flow.stop (_, b3)) => some (Flow.stop b3)
            | some (Flow.leave v (_, b3)) => some (Flow.leave v b3)

/-- The main loop `while (index_src < old_index_src)` of `delzss`, with a budget of
`f` tokens. -/
def delzss_loop (subset old_index_src : Int) : Nat → Buffers → Option (Outcome Buffers)
  | 0, b =>
    if b.index_src < old_index_src then some Outcome.nofuel
    else some (Outcome.ret b.index_dest b)
  | f + 1, b =>
    if b.index_src < old_index_src then
      match delzss_token subset old_index_src b with
      | none => none
      | some (Flow.cont b1) => delzss_loop subset old_index_src f b1
      | some (Flow.stop b1) => some (Outcome.ret b1.index_dest b1)
      | some (Flow.leave v b1) => some (Outcome.ret v b1)
    else some (Outcome.ret b.index_dest b)

/-- `delzss`: returns the decompressed size or `-1`.  Every token reads at least
one bit, so `8 * old_index_src` tokens are a sufficient budget. -/
def delzss (b : Buffers) : Option (Outcome Buffers) :=
  let old_index_src := b.index_src
  let b0 := { b with index_src := 0, bit_mask := 0, bit_index := 0 }
  if old_index_src ≤ 0 then some (Outcome.ret 0 b0)
  else if b0.index_src ≥ old_index_src then some (Outcome.ret (-1) b0)
  else
    match read_subset old_index_src 9 0 b0 with
    | none => none
    | some Outcome.nofuel => some Outcome.nofuel
    | some (Outcome.ret v (subset, b1)) =>
      if v ≠ 0 then some (Outcome.ret (-1) b1)
      else
        let b2 := { b1 with index_dest := 0 }
        if b2.index_src ≥ old_index_src then some (Outcome.ret (-1) b2)
        else
          match read_byte b2 with
          | none => none
          | some (first_byte, b3) =>
            match write_byte first_byte b3 with
            | none => none
            | some b4 => delzss_loop subset old_index_src (8 * old_index_src.toNat) b4

/-! ## Entry points -/

/-- `memcpy(dst, src, n)` on arrays modelled as functions. -/
def memcpy (dst src : Int → Nat) (n : Int) : Int → Nat :=
  fun i => if 0 ≤ i ∧ i < n then src i else dst i

/-- A caller's buffer of bytes, as an array. -/
def bufferOf (l : List Nat) : Int → Nat :=
  fun i => l.getD i.toNat 0

/-- The first `n` bytes of an array. -/
def bytesOf (a : Int → Nat) (n : Int) : List Nat :=
  (List.range n.toNat).map (fun (k : Nat) => a (k : Int))

/-- The start of both wrappers: `memcpy(data_src, input_buf, input_len)`,
`index_src = input_len`, `bit_mask = 0`, `bit_index = 0`. -/
def load_src (input_buf : List Nat) (b : Buffers) : Buffers :=
  { b with data_src := memcpy b.data_src (bufferOf input_buf) input_buf.length,
           index_src := input_buf.length, bit_mask := 0, bit_index := 0 }

/-- `set_dan3_options`. -/
def set_dan3_options (max_bits rle_enabled fast_mode : Int) (g : Globals) : Globals :=
  let max_bits1 := if max_bits > BIT_OFFSET_MAX then BIT_OFFSET_MAX else max_bits
  let max_bits2 := if max_bits1 < BIT_OFFSET_MIN then BIT_OFFSET_MIN else max_bits1
  { g with BIT_OFFSET_MAX_ALLOWED := max_bits2,
           BIT_OFFSET_NBR_ALLOWED := max_bits2 - BIT_OFFSET_MIN + 1,
           bRLE := rle_enabled,
           bFAST := fast_mode }

/-- `dan3_encode(input_buf, input_len, output_buf)`; the input buffer is given as
the list of its `input_len` bytes.  Returns the `int` result, the caller's
output buffer and the globals. -/
def dan3_encode (input_buf : List Nat) (output_buf : Int → Nat) (g : Globals) :
    Option (Int × (Int → Nat) × Globals) :=
  let input_len : Int := input_buf.length
  if input_len > MAX then some (-1, output_buf, g)
  else
    match lzss_slow { g with buf := load_src input_buf g.buf } with
    | none => none
    | some (compressed_len, g2) =>
      if compressed_len ≥ 0 then
        if compressed_len > MAX then some (-1, output_buf, g2)
        else some (compressed_len, memcpy output_buf g2.buf.data_dest compressed_len, g2)
      else some (compressed_len, output_buf, g2)

/-- `dan3_decode(input_buf, input_len, output_buf)`. -/
def dan3_decode (input_buf : List Nat) (output_buf : Int → Nat) (g : Globals) :
    Option (Outcome ((Int → Nat) × Globals)) :=
  let input_len : Int := input_buf.length
  if input_len > MAX then some (Outcome.ret (-1) (output_buf, g))
  else
    match delzss (load_src input_buf g.buf) with
    | none => none
    | some Outcome.nofuel => some Outcome.nofuel
    | some (Outcome.ret decompressed_len b2) =>
      if decompressed_len ≥ 0 then
        if decompressed_len > MAX then some (Outcome.ret (-1) (output_buf, { g with buf := b2 }))
        else
          some (Outcome.ret decompressed_len
            (memcpy output_buf b2.data_dest decompressed_len, { g with buf := b2 }))
      else some (Outcome.ret decompressed_len (output_buf, { g with buf := b2 }))

/-- What a caller sees of a codec call: `returned v bytes` is the `int` result
with the first `v` bytes of the output buffer (none when `v` is negative),
`aborted` is a run that reached `abort()`, `nofuel` an exhausted loop budget. -/
inductive Seen where
  | returned : Int → List Nat → Seen
  | aborted : Seen
  | nofuel : Seen
deriving DecidableEq

/-- The spec's `encode`: `set_dan3_options` followed by `dan3_encode`. -/
def encode (src : List Nat) (max_bits rle_enabled fast_mode : Int) (output_buf : Int → Nat)
    (g : Globals) : Seen :=
  match dan3_encode src output_buf (set_dan3_options max_bits rle_enabled fast_mode g) with
  | none => Seen.aborted
  | some (v, out, _) => Seen.returned v (bytesOf out v)

/-- The spec's `decode`: `dan3_decode`. -/
def decode (stream : List Nat) (output_buf : Int → Nat) (g : Globals) : Seen :=
  match dan3_decode stream output_buf g with
  | none => Seen.aborted
  | some Outcome.nofuel => Seen.nofuel
  | some (Outcome.ret v (out, _)) => Seen.returned v (bytesOf out v)

/-! ## Auxiliary definitions for the statements

The calls of `write_bit` and `write_byte` that a writer function makes, as a
list, and the size of such a list in bits. -/

/-- One call of `write_bit` or `write_byte`. -/
inductive WOp where
  | bit : Int → WOp
  | byte : Nat → WOp

/-- Run one call. -/
def runOp : WOp → Buffers → Option Buffers
  | WOp.bit v, b => write_bit v b
  | WOp.byte v, b => write_byte v b

/-- Run a sequence of calls, in order. -/
def runOps : List WOp → Buffers → Option Buffers
  | [], b => some b
  | op :: ops, b =>
    match runOp op b with
    | none => none
    | some b1 => runOps ops b1

/-- Size of a call in the stream: 1 bit for `write_bit`, 8 for `write_byte`. -/
def opBits : WOp → Int
  | WOp.bit _ => 1
  | WOp.byte _ => 8

/-- Size of a sequence of calls in bits. -/
def opsBits : List WOp → Int
  | [] => 0
  | op :: ops => opBits op + opsBits ops

/-- The calls of `write_bits_loop`. -/
def bits_ops (value : Int) : Nat → List WOp
  | 0 => []
  | k + 1 => WOp.bit (Int.land value (2 ^ k)) :: bits_ops value k

/-- The calls of `write_golomb_zeros`. -/
def golomb_zeros_ops (value : Int) : Nat → Int → List WOp
  | 0, _ => []
  | f + 1, i => if i ≤ value then WOp.bit 0 :: golomb_zeros_ops value f (i * 2) else []

/-- The value of `i` when `write_golomb_zeros` ends. -/
def golomb_zeros_end (value : Int) : Nat → Int → Int
  | 0, i => i
  | f + 1, i => if i ≤ value then golomb_zeros_end value f (i * 2) else i

/-- The calls of `write_golomb_digits`. -/
def golomb_digits_ops (value : Int) : Nat → Int → List WOp
  | 0, _ => []
  | f + 1, i =>
    if i / 2 > 0 then WOp.bit (Int.land value (i / 2)) :: golomb_digits_ops value f (i / 2)
    else []

/-- The calls of `write_golomb_gamma`. -/
def golomb_gamma_ops (value : Int) : List WOp :=
  golomb_zeros_ops (value + 1) 32 4 ++
    golomb_digits_ops (value + 1) 32 (golomb_zeros_end (value + 1) 32 4)

/-- The calls of `write_offset`. -/
def offset_ops (bitOffset3 : Int) (value option : Int) : List WOp :=
  let value := value - 1
  if option = 1 then
    if value ≥ MAX_OFFSET00 then
      WOp.bit 1 :: bits_ops (value - MAX_OFFSET00) BIT_OFFSET0.toNat
    else WOp.bit 0 :: bits_ops value BIT_OFFSET00.toNat
  else
    if value ≥ MAX_OFFSET2 then
      WOp.bit 1 :: WOp.bit 1 ::
        (bits_ops ((value - MAX_OFFSET2) / 256) (bitOffset3 - BIT_OFFSET2).toNat ++
          [WOp.byte ((value - MAX_OFFSET2) % 256).toNat])
    else if value ≥ MAX_OFFSET1 then
      [WOp.bit 0, WOp.byte ((value - MAX_OFFSET1) % 256).toNat]
    else WOp.bit 1 :: WOp.bit 0 :: bits_ops value BIT_OFFSET1.toNat

/-- The calls of `write_doublet`. -/
def doublet_ops (bitOffset3 : Int) (length offset : Int) : List WOp :=
  WOp.bit 0 :: (golomb_gamma_ops length ++ offset_ops bitOffset3 offset length)

/-- The calls of `write_end`. -/
def end_ops : List WOp :=
  WOp.bit 0 :: (bits_ops 0 BIT_GOLOMG_MAX.toNat ++ [WOp.bit 0])

/-- The calls of `write_literals_length`. -/
def literals_length_ops (length : Int) : List WOp :=
  WOp.bit 0 :: (bits_ops 0 BIT_GOLOMG_MAX.toNat ++
    [WOp.bit 1, WOp.byte ((length - RAW_MIN) % 256).toNat])

/-- The calls of `write_raw_loop` when no index leaves the array. -/
def raw_ops (data_src : Int → Nat) (index : Int) : Nat → Int → List WOp
  | 0, _ => []
  | k + 1, j => WOp.byte (data_src (index + j)) :: raw_ops data_src index k (j + 1)

/-- The calls of `write_lz_step` for the token recorded at position `i` (none when
`len` is not positive). -/
def token_ops (data_src : Int → Nat) (subset : Int) (p : Parse) (i : Int) : List WOp :=
  if (p.optimals i).len subset > 0 then
    if (p.optimals i).offset subset = 0 then
      if (p.optimals i).len subset = 1 then
        [WOp.bit 1, WOp.byte (data_src (i - (p.optimals i).len subset + 1))]
      else
        literals_length_ops ((p.optimals i).len subset) ++
          raw_ops data_src (i - (p.optimals i).len subset + 1) ((p.optimals i).len subset).toNat 0
    else doublet_ops p.BIT_OFFSET3 ((p.optimals i).len subset) ((p.optimals i).offset subset)
  else []

/-- The calls of `write_lz_loop`: the tokens of `k` positions from `i` on. -/
def lz_ops (data_src : Int → Nat) (subset : Int) (p : Parse) : Nat → Int → List WOp
  | 0, _ => []
  | k + 1, i => token_ops data_src subset p i ++ lz_ops data_src subset p k (i + 1)

/-- Cost of a token in the cost model of `update_optimal` for subset `r`. -/
def tokenCost (r len offset : Int) : Int :=
  if offset = 0 then
    if len = 1 then 1 + 8 else 1 + BIT_GOLOMG_MAX + 1 + 8 + len * 8
  else count_bits (BIT_OFFSET_MIN + r) offset len

/-- The globals on entry of `lzss_slow` when `encode` is called on `src`. -/
def encode_entry (src : List Nat) (max_bits rle_enabled fast_mode : Int) (g : Globals) : Globals :=
  let g1 := set_dan3_options max_bits rle_enabled fast_mode g
  { g1 with buf := load_src src g1.buf }

/-! ## Relations between two runs, used to compare runs from different globals -/

/-- Both results are `abort()`, or both are values related by `R`. -/
def OptRel {α : Type} (R : α → α → Prop) : Option α → Option α → Prop
  | none, none => True
  | some a, some b => R a b
  | _, _ => False

/-- Both loop bodies end the same way, in states related by `R`. -/
def FlowRel {α : Type} (R : α → α → Prop) : Flow α → Flow α → Prop
  | Flow.cont a, Flow.cont b => R a b
  | Flow.stop a, Flow.stop b => R a b
  | Flow.leave v a, Flow.leave w b => v = w ∧ R a b
  | _, _ => False

/-- Two source arrays agree on the `n` bytes of the input. -/
def SrcEq (n : Int) (s t : Int → Nat) : Prop :=
  ∀ x, 0 ≤ x → x < n → s x = t x

/-- Two output states agree on the cursor and on the bytes written so far. -/
def WRel (b c : Buffers) : Prop :=
  b.index_dest = c.index_dest ∧ b.bit_mask = c.bit_mask ∧
  (b.bit_mask ≠ 0 → b.bit_index = c.bit_index ∧ b.bit_index < b.index_dest) ∧
  ∀ x, 0 ≤ x → x < b.index_dest → b.data_dest x = c.data_dest x

/-- Two buffer states agree on the input and on the output written so far. -/
def BufRel (b c : Buffers) : Prop :=
  WRel b c ∧ b.index_src = c.index_src ∧ SrcEq b.index_src b.data_src c.data_src

/-- Two parser states hold the same table. -/
def PEq (p q : Parse) : Prop :=
  p.optimals = q.optimals

/-- Two scan states agree on everything but `BIT_OFFSET3` and `MAX_OFFSET3`. -/
def ScanEq (s t : ScanState) : Prop :=
  PEq s.parse t.parse ∧ s.matches_ = t.matches_ ∧ s.prev_match_index = t.prev_match_index

/-! ## Invariant of the scan -/

/-- Two tables hold the same entry for position `j` and subset `r`. -/
def SameCell (p q : Parse) (j r : Int) : Prop :=
  (q.optimals j).bits r = (p.optimals j).bits r ∧
  (q.optimals j).offset r = (p.optimals j).offset r ∧
  (q.optimals j).len r = (p.optimals j).len r

/-- The entry for position `j` and subset `r` records a token that ends at `j`:
its length fits, a match is no longer than `MAX_GAMMA`, its cost is the cost of
the position before the token plus the cost of the token, and the cost is at
most that of `j` literals after the first byte. -/
def CellOK (p : Parse) (r j : Int) : Prop :=
  1 ≤ (p.optimals j).len r ∧ (p.optimals j).len r ≤ j ∧ 0 ≤ (p.optimals j).offset r ∧
  ((p.optimals j).offset r > 0 → (p.optimals j).len r ≤ MAX_GAMMA) ∧
  (p.optimals j).bits r =
    (p.optimals (j - (p.optimals j).len r)).bits r +
      tokenCost r ((p.optimals j).len r) ((p.optimals j).offset r) ∧
  (p.optimals j).bits r ≤ 8 + 9 * j

/-- State of subset `r` of the table when the scan has handled the positions
below `i`: position 0 costs 8, every position from 1 to `i - 1` records a token,
and the positions from `i` on are still unreachable. -/
def ScanInv (p : Parse) (i r : Int) : Prop :=
  ((p.optimals 0).bits r = 8 ∧ (p.optimals 0).offset r = 0 ∧ (p.optimals 0).len r = 1) ∧
  (∀ j, 1 ≤ j → j < i → CellOK p r j) ∧
  (∀ j, i ≤ j → (p.optimals j).bits r = INF)

/-- `ScanInv` for every allowed subset. -/
def ScanInvAll (nbr : Int) (p : Parse) (i : Int) : Prop :=
  ∀ r, 0 ≤ r → r < nbr → ScanInv p i r

/-- The subset that `lzss_slow` selects after the scan that ended in state `s`. -/
def chosen_subset (g : Globals) (s : ScanState) : Int :=
  (select_best g.BIT_OFFSET_NBR_ALLOWED g.buf.index_src s.parse).2

/-- The parser globals that `lzss_slow` passes to `write_lz`. -/
def trimmed (g : Globals) (s : ScanState) : Parse :=
  trim (chosen_subset g s) g.buf.index_src s.parse

/-- The calls that the loop of `write_lz` makes for the tokens of the input. -/
def emitted_tokens (g : Globals) (s : ScanState) : List WOp :=
  lz_ops g.buf.data_src (chosen_subset g s) (trimmed g s) (g.buf.index_src - 1).toNat 1

/-- The entry for `(index, r)` of `q` is the token `(len, offset)` with its cost,
and it is cheaper than the entry of `p`. -/
def Stored (p q : Parse) (index r len offset : Int) : Prop :=
  (q.optimals index).len r = len ∧ (q.optimals index).offset r = offset ∧
  (q.optimals index).bits r = (p.optimals (index - len)).bits r + tokenCost r len offset ∧
  (p.optimals (index - len)).bits r ≠ INF ∧
  (q.optimals index).bits r < (p.optimals index).bits r

/-- The globals as the program starts: zero-initialised, with `bRLE = TRUE`. -/
def initial : Globals :=
  { BIT_OFFSET_MAX_ALLOWED := 0, BIT_OFFSET_NBR_ALLOWED := 0, bFAST := 0, bRLE := TRUE,
    buf := { data_src := fun _ => 0, index_src := 0, data_dest := fun _ => 0, index_dest := 0,
             bit_mask := 0, bit_index := 0 },
    parse := { BIT_OFFSET3 := 0, MAX_OFFSET3 := 0,
               optimals := fun _ => { bits := fun _ => 0, offset := fun _ => 0, len := fun _ => 0 } },
    matches_ := fun _ => [0] }

/-! ## An input with one distant repeated pair -/

/-- The bucket of position `i` in the scan of `lzss_slow`:
`(data_src[i-1] << 8) | (data_src[i] & 255)`. -/
def key_of (src : Int → Nat) (i : Int) : Int :=
  (((src (i - 1) <<< 8) ||| (src i &&& 255) : Nat) : Int)

/-- Every subset below `nbr` prices the positions below `i` as literals after the
first byte, and the positions from `i` on are still unreachable. -/
def LitInv (nbr : Int) (p : Parse) (i : Int) : Prop :=
  (∀ j r, 0 ≤ j → j < i → 0 ≤ r → r < nbr → (p.optimals j).bits r = 8 + 9 * j) ∧
  (∀ j r, i ≤ j → (p.optimals j).bits r = INF)

/-- Every bucket is the end node alone, when no position below `i` has this
bucket, or holds the one position below `i` that has it. -/
def ChainInv (src : Int → Nat) (m : Int → List Int) (i : Int) : Prop :=
  ∀ key : Int, (m key = [-1] ∧ ∀ a, 1 ≤ a → a < i → key_of src a ≠ key) ∨
    (∃ a, 1 ≤ a ∧ a < i ∧ key_of src a = key ∧ m key = [a, -1])

/-- Bits that `write_bit` can still put into the byte it has open. -/
def bitsLeft (mask : Nat) : Int :=
  if mask = 0 then 0 else if mask = 1 then 1 else if mask = 2 then 2 else if mask = 4 then 3
  else if mask = 8 then 4 else if mask = 16 then 5 else if mask = 32 then 6 else 7

/-- The bit cursor of a buffer between two writes. -/
def BitCursorOK (b : Buffers) : Prop :=
  0 ≤ b.index_dest ∧
  (b.bit_mask = 0 ∨ ((b.bit_mask = 1 ∨ b.bit_mask = 2 ∨ b.bit_mask = 4 ∨ b.bit_mask = 8 ∨
    b.bit_mask = 16 ∨ b.bit_mask = 32 ∨ b.bit_mask = 64) ∧
    0 ≤ b.bit_index ∧ b.bit_index < b.index_dest))

/-- Byte `k` of an input of 2559 bytes: one byte 128, ten rounds `0, q, 2q, ...`
modulo 256 with `q = 1, 3, ..., 19` (the last round cut short), and the two
bytes `0, 1`.  The pair `0, 1` at the end is the only pair of neighbours that
occurs twice; its first occurrence is 2556 positions earlier. -/
def far_src_at (k : Nat) : Nat :=
  if k = 0 then 128
  else if k ≤ 2556 then ((2 * ((k - 1) / 256) + 1) * (k - 1)) % 256
  else k - 2557

/-- The input of 2559 bytes. -/
def far_src : List Nat := (List.range 2559).map far_src_at

/-- The bucket of position `k` of `far_src`. -/
def far_key (k : Nat) : Nat :=
  (far_src_at (k - 1) <<< 8) ||| (far_src_at k &&& 255)

/-- The position below 2558 whose bucket is `key`. -/
def far_pos (key : Nat) : Nat :=
  let u := key / 256
  let v := key % 256
  let s := (v + 256 - u) % 256
  if s = 128 then 1
  else if s = 95 then 2557
  else
    let b := (s - 1) / 2
    256 * b + (u * [1, 171, 205, 183, 57, 163, 197, 239, 241, 27].getD b 0) % 256 + 2

/-- No byte of `far_src` at position `i` equals one of the three bytes before it. -/
def far_near_ok (i : Nat) : Bool :=
  (decide (i < 1) || far_src_at i != far_src_at (i - 1)) &&
  ((decide (i < 2) || far_src_at i != far_src_at (i - 2)) &&
  (decide (i < 3) || far_src_at i != far_src_at (i - 3)))

/-- Two tables hold the same entries in every subset below `K`. -/
def ColsEq (K : Int) (p q : Parse) : Prop :=
  ∀ r, 0 ≤ r → r < K → ∀ j, SameCell p q j r

/-- Two scan states agree on the subsets below `K`, on the buckets and on the
last bucket. -/
def ScanCols (K : Int) (s t : ScanState) : Prop :=
  ColsEq K s.parse t.parse ∧ s.matches_ = t.matches_ ∧
    s.prev_match_index = t.prev_match_index

/-! ## Bits on the wire -/

/-- The results of `k` successive calls of `read_bit`, with the buffers after the
last call. -/
def read_bits : Nat → Buffers → Option (List Nat × Buffers)
  | 0, b => some ([], b)
  | k + 1, b =>
    match read_bit b with
    | none => none
    | some (bit, b1) =>
      match read_bits k b1 with
      | none => none
      | some (l, b2) => some (bit :: l, b2)

/-- The bit that a call `write_bit(value)` puts on the wire. -/
def wire_bit (value : Int) : Nat := if value ≠ 0 then 1 else 0

/-- The bits that a sequence of calls puts on the wire (a `write_byte` puts none). -/
def wire_bits : List WOp → List Nat
  | [] => []
  | WOp.bit v :: ops => wire_bit v :: wire_bits ops
  | WOp.byte _ :: ops => wire_bits ops

/-- The first loop of `read_golomb_gamma` on a list of bits: the count of zeros
and the bits that remain. -/
def bits_zeros : Nat → Nat → List Nat → Option (Nat × List Nat)
  | 0, j, l => some (j, l)
  | _ + 1, _, [] => none
  | k + 1, j, bit :: l => if bit = 0 then bits_zeros k (j + 1) l else some (j, l)

/-- The second loop of `read_golomb_gamma` on a list of bits. -/
def bits_value : Nat → Nat → List Nat → Option (Nat × List Nat)
  | 0, value, l => some (value, l)
  | _ + 1, _, [] => none
  | k + 1, value, bit :: l => bits_value k ((value <<< 1) ||| bit) l

/-- The result of `read_golomb_gamma` on a list of bits, with the bits that remain. -/
def gamma_of_bits (l : List Nat) : Option (Int × List Nat) :=
  match bits_zeros 7 0 l with
  | none => none
  | some (j, l1) =>
    if j < 7 then
      match bits_value (j + 1) 1 l1 with
      | none => none
      | some (value, l2) => some ((value : Int) - 1, l2)
    else some (0 - 1, l1)

/-! ## Token sequences of the wire format -/

/-- The token sequences of the spec: `SpecParse src rle r i c` holds when some
sequence of tokens reproduces `src[0..=i]` at a total cost of `c` bits in regime
`r`.  The sequence starts with the raw first byte (8 bits) and goes on with
literals, literal runs of 2 to 256 bytes (when `rle` holds), back-references of
length 1 at a distance of 1 to 3, and back-references of length 2 to 254 at a
distance of at most `MAX_OFFSET3(r)`, whose source ends before the token starts. -/
inductive SpecParse (src : Int → Nat) (rle : Prop) (r : Int) : Int → Int → Prop where
  | first : SpecParse src rle r 0 8
  | literal (i c : Int) : SpecParse src rle r i c → SpecParse src rle r (i + 1) (c + tokenCost r 1 0)
  | run (i c len : Int) : rle → 2 ≤ len → len ≤ 256 → SpecParse src rle r i c →
      SpecParse src rle r (i + len) (c + tokenCost r len 0)
  | ref1 (i c offset : Int) : 1 ≤ offset → offset ≤ 3 → offset ≤ i + 1 →
      src (i + 1) = src (i + 1 - offset) → SpecParse src rle r i c →
      SpecParse src rle r (i + 1) (c + tokenCost r 1 offset)
  | ref (i c len offset : Int) : 2 ≤ len → len ≤ 254 → len ≤ offset → offset ≤ i + 1 →
      offset ≤ 2 ^ (BIT_OFFSET_MIN + r).toNat + MAX_OFFSET2 →
      (∀ k, 0 ≤ k → k < len → src (i + 1 + k) = src (i + 1 + k - offset)) →
      SpecParse src rle r i c → SpecParse src rle r (i + len) (c + tokenCost r len offset)

/-! ## Invariants for the claims on the stream -/

/-- No recorded offset of subset `r` exceeds `MAX_OFFSET3(r)`. -/
def OffsetInv (p : Parse) : Prop :=
  ∀ j r, (p.optimals j).offset r ≤ 2 ^ (BIT_OFFSET_MIN + r).toNat + MAX_OFFSET2

/-- The state of the output once the selector of subset `r` and the first byte
`c` are written: byte 0 starts with the selector, byte 1 is `c`, and a later
`write_bit` can only change the bits of byte 0 below the selector. -/
def HeaderInv (r : Nat) (c : Nat) (b : Buffers) : Prop :=
  2 ≤ b.index_dest ∧ b.data_dest 0 < 256 ∧ b.data_dest 0 >>> (7 - r) = 2 ^ (r + 1) - 2 ∧
  b.data_dest 1 = c ∧
  (b.bit_mask = 0 ∨ (b.bit_index = 0 ∧ b.bit_mask < 2 ^ (7 - r)) ∨ 2 ≤ b.bit_index)

/-- The state after `n` iterations of the main loop of `delzss`, each of which
decodes a token and goes on with the loop. -/
def delzss_tokens (subset old_index_src : Int) : Nat → Buffers → Option Buffers
  | 0, b => some b
  | n + 1, b =>
    if b.index_src < old_index_src then
      match delzss_token subset old_index_src b with
      | some (Flow.cont b1) => delzss_tokens subset old_index_src n b1
      | _ => none
    else none

/-- The buffers of the decoder in the middle of a stream: the byte cursor
`index_src`, the bit cursor, and the bytes `out` produced so far. -/
def decoder_at (stream out : List Nat) (index_src : Int) (bit_mask : Nat) (bit_index : Int) :
    Buffers :=
  { data_src := bufferOf stream, index_src := index_src, data_dest := bufferOf out,
    index_dest := out.length, bit_mask := bit_mask, bit_index := bit_index }

/-! ## Reading back what was written -/

/-- The value that a reader gets back for one writer call: the bit of a
`write_bit`, the `unsigned char` of a `write_byte`. -/
def wireVal : WOp → Nat
  | WOp.bit v => wire_bit v
  | WOp.byte v => v % 256

/-- The sequence of calls of `read_bit` and `read_byte` that mirrors a sequence of
writer calls, with the values read. -/
def readOps : List WOp → Buffers → Option (List Nat × Buffers)
  | [], b => some ([], b)
  | WOp.bit _ :: ops, b =>
    match read_bit b with
    | none => none
    | some (x, b1) =>
      match readOps ops b1 with
      | none => none
      | some (l, b2) => some (x :: l, b2)
  | WOp.byte _ :: ops, b =>
    match read_byte b with
    | none => none
    | some (x, b1) =>
      match readOps ops b1 with
      | none => none
      | some (l, b2) => some (x :: l, b2)

/-- A sequence of writer calls that holds calls of `write_bit` only. -/
def all_bits : List WOp → Bool
  | [] => true
  | WOp.bit _ :: ops => all_bits ops
  | WOp.byte _ :: _ => false

/-- The cursor of the writer between two calls, for output that starts at `lo`:
the byte of bits, when one is open, lies in the output and its bits from the
mask downwards are still zero. -/
def WriterOK (lo : Int) (b : Buffers) : Prop :=
  0 ≤ lo ∧ lo ≤ b.index_dest ∧
  (b.bit_mask = 0 ∨ ∃ k, k ≤ 6 ∧ b.bit_mask = 2 ^ k ∧ lo ≤ b.bit_index ∧
    b.bit_index < b.index_dest ∧ ∀ j, j ≤ k → (b.data_dest b.bit_index).testBit j = false)

/-- The reader `R` is at the position of the stream at which the writer `b` is. -/
def InSync (b R : Buffers) : Prop :=
  R.index_src = b.index_dest ∧ R.bit_mask = b.bit_mask ∧
  (b.bit_mask ≠ 0 → R.bit_index = b.bit_index)

/-- Byte `x` of the output is complete: it is not the open byte of bits. -/
def ByteDone (b : Buffers) (x : Int) : Prop :=
  x < b.index_dest ∧ (b.bit_mask ≠ 0 → x ≠ b.bit_index)

/-- Bit `j` of byte `x` of the output is written: it lies above the mask when `x`
is the open byte of bits. -/
def BitDone (b : Buffers) (x : Int) (j : Nat) : Prop :=
  x < b.index_dest ∧ j < 8 ∧ (b.bit_mask ≠ 0 → x = b.bit_index → b.bit_mask < 2 ^ j)

/-! ## The offset on the wire, in the words of the specification -/

/-- The calls of `write_bit` for "`x` in `k` bits": the `k` low binary digits of
`x`, most significant first. -/
def in_bits (x : Int) : Nat → List WOp
  | 0 => []
  | k + 1 => WOp.bit (x / 2 ^ k % 2) :: in_bits x k

/-- The offset of a token of length `len` on the wire as the specification words
it, for regime `r` and `v = offset - 1`: for a length-1 token bit 0 when `v = 0`
and bit 1 followed by `v - 1` in 1 bit otherwise; for a longer token bits 1,0
followed by `v` in 5 bits when `v < 32`, bit 0 followed by the byte
`(v - 32) & 0xFF` when `v < 288`, and bits 1,1 followed by `(v - 288) >> 8` in
`BIT_OFFSET3 - 8` bits and the byte `(v - 288) & 0xFF` otherwise. -/
def offset_format (r v len : Int) : List WOp :=
  if len = 1 then
    if v = 0 then [WOp.bit 0] else WOp.bit 1 :: in_bits (v - 1) 1
  else if v < 32 then WOp.bit 1 :: WOp.bit 0 :: in_bits v 5
  else if v < 288 then [WOp.bit 0, WOp.byte (Int.land (v - 32) 0xFF).toNat]
  else
    WOp.bit 1 :: WOp.bit 1 ::
      (in_bits ((v - 288) >>> (8 : Nat)) (BIT_OFFSET_MIN + r - 8).toNat ++
        [WOp.byte (Int.land (v - 288) 0xFF).toNat])

/-! ## What one call of the body of `update_optimal` does -/

/-- The effect of one pass of the loop of `update_optimal` for subset `i` that
does not abort: `index` is in range, every other entry of the table is kept, and
the entry `(index, i)` is kept, or is the first byte, or is the offered token,
which is then cheaper than the entry before; and the new entry costs no more
than the offered token whenever the token is admissible. -/
def StepPost (index len offset i : Int) (p q : Parse) : Prop :=
  0 ≤ index ∧ index < MAX ∧
  (∀ j r, (j ≠ index ∨ r ≠ i) → SameCell p q j r) ∧
  (SameCell p q index i ∨
    (index = 0 ∧ offset = 0 ∧ (q.optimals index).bits i = 8 ∧
      (q.optimals index).offset i = 0 ∧ (q.optimals index).len i = 1) ∨
    (Stored p q index i len offset ∧ 0 ≤ index - len ∧
      (offset = 0 → 0 < index ∧ (p.optimals (index - 1)).bits i ≠ INF) ∧
      (offset ≠ 0 → offset ≤ index ∧
        offset ≤ 2 ^ (BIT_OFFSET_MIN + i).toNat + MAX_OFFSET2))) ∧
  (0 < index → (p.optimals (index - len)).bits i ≠ INF →
    (offset = 0 → (p.optimals (index - 1)).bits i ≠ INF) →
    (offset ≠ 0 → offset ≤ index ∧ offset ≤ 2 ^ (BIT_OFFSET_MIN + i).toNat + MAX_OFFSET2) →
    (q.optimals index).bits i ≤ (p.optimals (index - len)).bits i + tokenCost i len offset)

/-- Every recorded back-reference starts inside the input, no cost exceeds the
value for "unreachable", and an unreachable entry records no offset. -/
def LegalInv (p : Parse) : Prop :=
  ∀ j r, ((p.optimals j).offset r > 0 → (p.optimals j).offset r ≤ j) ∧
    (p.optimals j).bits r ≤ INF ∧
    ((p.optimals j).bits r = INF → (p.optimals j).offset r = 0)

/-! ## The scan with and without the fast path -/

/-- Every cost in the table `q` is at most the cost of the same entry in `p`, and
no cost in `p` exceeds the marker `INF`. -/
def Dom (p q : Parse) : Prop :=
  ∀ j r, (q.optimals j).bits r ≤ (p.optimals j).bits r ∧ (p.optimals j).bits r ≤ INF

/-- The token `(len, offset)` ending at `index` can be decoded: a literal run has
at most `RAW_MAX` bytes; a match of one byte has an offset of at most
`MAX_OFFSET0`, the source of a longer match starts after position 0 of the
input, and each of the `len` bytes of a match equals the byte `offset` positions
earlier. -/
def RealCand (src : Int → Nat) (index len offset : Int) : Prop :=
  (offset = 0 → len ≤ RAW_MAX) ∧
  (offset > 0 →
    (len = 1 → offset ≤ MAX_OFFSET0) ∧ (len ≥ 2 → 0 ≤ index - len - offset) ∧
    ∀ t, 0 ≤ t → t < len → src (index - t) = src (index - t - offset))

/-- Every token recorded in the table can be decoded: see `RealCand`. -/
def RealInv (src : Int → Nat) (p : Parse) : Prop :=
  ∀ j r, RealCand src j ((p.optimals j).len r) ((p.optimals j).offset r)

/-- The nodes of the chain of bucket `k` that the walk can visit (all but the
last) hold positions from 1 to `i - 1` whose bucket is `k`. -/
def ChainOK (src : Int → Nat) (k i : Int) : List Int → Prop
  | [] => True
  | [_] => True
  | a :: b :: rest => (key_of src a = k ∧ 1 ≤ a ∧ a < i) ∧ ChainOK src k i (b :: rest)

/-- Two chains of the same bucket agree up to a node that is more than
`MAX_OFFSET` behind position `i`, where the walk stops, or they are equal. -/
def ChainSim (i : Int) : List Int → List Int → Prop
  | a :: tF, b :: tS => a = b ∧ (i - a > MAX_OFFSET ∨ ChainSim i tF tS)
  | [], [] => True
  | _ :: _, [] => False
  | [], _ :: _ => False

/-- The local `prev_match_index` is `-1`, or it is the bucket of position `i - 1`
and the chain of that bucket starts with the node of `i - 1` followed by at least
one more node. -/
def HeadInv (src : Int → Nat) (i : Int) (s : ScanState) : Prop :=
  s.prev_match_index = -1 ∨
    (s.prev_match_index = key_of src (i - 1) ∧
      ∃ b rest, s.matches_ (key_of src (i - 1)) = (i - 1) :: b :: rest)

/-- Relation between the state `sF` of a scan with any setting of `bFAST` and the state `sS` of
the scan of the same input with `bFAST = 0`, both about to handle position `i`. -/
def FastSim (src : Int → Nat) (i : Int) (sF sS : ScanState) : Prop :=
  Dom sF.parse sS.parse ∧ RealInv src sF.parse ∧
  (∀ k, ChainOK src k i (sF.matches_ k)) ∧
  (∀ k, ChainSim i (sF.matches_ k) (sS.matches_ k)) ∧
  (∀ k, sS.matches_ k ≠ []) ∧
  sF.prev_match_index = sS.prev_match_index ∧ HeadInv src i sS

/-! ## The decoder on the output of the encoder -/

/-- The tokens that the table `o` records for subset `r` tile the positions from
1 to `i`: the token that ends at `i` has `len` bytes, no token ends inside it, and
the tokens before it tile the positions up to `i - len`. -/
inductive Tiled (o : Int → t_optimal) (r : Int) : Int → Prop where
  | zero : Tiled o r 0
  | tok (i : Int) : 0 < i → 1 ≤ (o i).len r → (o i).len r ≤ i →
      (∀ x, i - (o i).len r < x → x < i → (o x).len r = 0) →
      Tiled o r (i - (o i).len r) → Tiled o r i

/-- The token that the table `T` records for subset `r` at position `i` can be
decoded: a literal run has at most `RAW_MAX` bytes, a match has at most
`MAX_GAMMA` bytes, an offset in the range of its length, and repeats bytes of
the input `src`. -/
def CellDec (src : Int → Nat) (T : Parse) (r i : Int) : Prop :=
  0 ≤ (T.optimals i).offset r ∧
  ((T.optimals i).offset r = 0 → (T.optimals i).len r ≤ RAW_MAX) ∧
  ((T.optimals i).offset r > 0 →
    (T.optimals i).len r ≤ MAX_GAMMA ∧
    ((T.optimals i).len r = 1 → (T.optimals i).offset r ≤ MAX_OFFSET0) ∧
    (T.optimals i).offset r ≤ 2 ^ (BIT_OFFSET_MIN + r).toNat + MAX_OFFSET2 ∧
    ∀ t, 0 ≤ t → t < (T.optimals i).len r →
      src (i - t) = src (i - t - (T.optimals i).offset r))

/-- The decoder in the middle of the stream of the encoder: the writer `W` has
written the tokens up to position `i` and goes on to the final state `W3`; the
reader `R` is at the same place of the stream, has produced the bytes of `src`
up to position `i`, and the main loop of `delzss` run from `R` with a budget of
`f` tokens ends with `o`. -/
def DecAt (src : Int → Nat) (r : Int) (T : Parse) (n : Int) (W3 : Buffers)
    (o : Outcome Buffers) (i : Int) (W R : Buffers) (f : Nat) : Prop :=
  WriterOK 0 W ∧ InSync W R ∧
  runOps (lz_ops src r T (n - 1 - i).toNat (i + 1) ++ end_ops) W = some W3 ∧
  (∀ x, 0 ≤ x → x < W3.index_dest → R.data_src x = W3.data_dest x) ∧
  R.index_dest = i + 1 ∧ (∀ x, 0 ≤ x → x ≤ i → R.data_dest x = src x) ∧
  opsBits (lz_ops src r T (n - 1 - i).toNat (i + 1) ++ end_ops) ≤ f ∧
  delzss_loop r W3.index_dest f R = some o

/-! ## The positions at which tokens end -/

/-- The buffers `R` with the input array `data_src` replaced by `D`. -/
def withSrc (D : Int → Nat) (R : Buffers) : Buffers :=
  { R with data_src := D }

/-- The reader `R` of a stream that is cut after `k` bytes has read no byte from
position `k` on: its byte cursor is at most `k`, the byte of its bit cursor lies
below `k`, and below `k` its input holds the bytes of the whole stream `D`. -/
def Live (k : Int) (D : Int → Nat) (R : Buffers) : Prop :=
  R.index_src ≤ k ∧ (R.bit_mask ≠ 0 → R.bit_index < k) ∧
  ∀ x, 0 ≤ x → x < k → R.data_src x = D x

/-- The decoder of the first `k` bytes of the stream of the encoder between two
tokens: the writer `W` has written the tokens up to position `i` and goes on to
the final state `W3`; the reader `R` is at the same place of the stream, has read
no byte from position `k` on, has produced the bytes of `src` up to position `i`,
and the main loop of `delzss` run from `R` with a budget of `f` tokens, which
covers the bits that are left of the `k` bytes, ends with `o`. -/
def TruncAt (src : Int → Nat) (r : Int) (T : Parse) (n : Int) (W3 : Buffers) (k : Int)
    (o : Outcome Buffers) (i : Int) (W R : Buffers) (f : Nat) : Prop :=
  WriterOK 0 W ∧ InSync W R ∧
  runOps (lz_ops src r T (n - 1 - i).toNat (i + 1) ++ end_ops) W = some W3 ∧
  Live k W3.data_dest R ∧
  R.index_dest = i + 1 ∧ (∀ x, 0 ≤ x → x ≤ i → R.data_dest x = src x) ∧
  8 * k ≤ 8 * W.index_dest - bitsLeft W.bit_mask + f ∧
  delzss_loop r k f R = some o

/-- The results of `delzss` on a stream of the encoder that is cut short which
do no harm: `-1`, or a number `m` of bytes of the input with these bytes in the
output. -/
def TruncGood (src : Int → Nat) (n : Int) (o : Outcome Buffers) : Prop :=
  (∃ Rf, o = Outcome.ret (-1) Rf) ∨
  ∃ m Rf, o = Outcome.ret m Rf ∧ 0 ≤ m ∧ m ≤ n ∧ ∀ x, 0 ≤ x → x < m → Rf.data_dest x = src x

/-! ## The token sequences that the scan compares -/

/-- The token sequences among which the scan of `lzss_slow` looks for the
cheapest: `ScanParse src rle r i c` holds when some sequence of tokens reproduces
`src[0..=i]` at a total cost of `c` bits in regime `r`.  It differs from
`SpecParse` in the back-references of 2 to 254 bytes: the source may overlap the
bytes that the token produces, and it starts at position 1 or later (the test
`i - len - offset < 0` of the scan, for a token that ends at `i`). -/
inductive ScanParse (src : Int → Nat) (rle : Prop) (r : Int) : Int → Int → Prop where
  | first : ScanParse src rle r 0 8
  | literal (i c : Int) : ScanParse src rle r i c → ScanParse src rle r (i + 1) (c + tokenCost r 1 0)
  | run (i c len : Int) : rle → 2 ≤ len → len ≤ 256 → ScanParse src rle r i c →
      ScanParse src rle r (i + len) (c + tokenCost r len 0)
  | ref1 (i c offset : Int) : 1 ≤ offset → offset ≤ 3 → offset ≤ i + 1 →
      src (i + 1) = src (i + 1 - offset) → ScanParse src rle r i c →
      ScanParse src rle r (i + 1) (c + tokenCost r 1 offset)
  | ref (i c len offset : Int) : 2 ≤ len → len ≤ 254 → 1 ≤ offset → offset ≤ i →
      offset ≤ 2 ^ (BIT_OFFSET_MIN + r).toNat + MAX_OFFSET2 →
      (∀ k, 0 ≤ k → k < len → src (i + 1 + k) = src (i + 1 + k - offset)) →
      ScanParse src rle r i c → ScanParse src rle r (i + len) (c + tokenCost r len offset)

/-- The tables `p0` and `p` hold the same costs at every position but `i`. -/
def FrameAt (i : Int) (p0 p : Parse) : Prop :=
  ∀ j r, j ≠ i → (p.optimals j).bits r = (p0.optimals j).bits r

/-- In the table `q` position `i` costs at most as much as the token
`(len, offset)` after position `i - len` of the table `p0`, in every allowed
subset whose offsets reach `offset`. -/
def Covered (nbr i : Int) (p0 q : Parse) (len offset : Int) : Prop :=
  ∀ r, 0 ≤ r → r < nbr → offset ≤ 2 ^ (BIT_OFFSET_MIN + r).toNat + MAX_OFFSET2 →
    (q.optimals i).bits r ≤ (p0.optimals (i - len)).bits r + tokenCost r len offset

/-- The chain of bucket `k` when the scan is about to handle position `i`: the
positions decrease along the chain, all lie below `i`, and every position from 1
on with this bucket that is at most `MAX_OFFSET` behind `i` is a node that the
walk visits (a node other than the last). -/
def ChainFull (src : Int → Nat) (k i : Int) (L : List Int) : Prop :=
  L ≠ [] ∧ List.Pairwise (fun a b => b < a) L ∧ (∀ a ∈ L, a < i) ∧
  ∀ a, 1 ≤ a → a < i → key_of src a = k → i - a ≤ MAX_OFFSET → a ∈ L.dropLast

/-- No token sequence for a position below `i` is cheaper than the cost in the
table. -/
def LowerInv (src : Int → Nat) (rle : Prop) (nbr i : Int) (p : Parse) : Prop :=
  ∀ j r c, 0 ≤ j → j < i → 0 ≤ r → r < nbr → ScanParse src rle r j c →
    (p.optimals j).bits r ≤ c

/-- Every literal run in the table is allowed by the option `bRLE`. -/
def RunInv (bRLE : Int) (p : Parse) : Prop :=
  ∀ j r, (p.optimals j).offset r = 0 → 2 ≤ (p.optimals j).len r → bRLE ≠ 0

/-! ### Writer functions as sequences of calls -/

theorem runOps_append (a c : List WOp) (b : Buffers) :
    runOps (a ++ c) b = (runOps a b).bind (runOps c) := by
  induction a generalizing b with
  | nil => simp [runOps]
  | cons op ops ih =>
    simp only [List.cons_append, runOps]
    cases runOp op b with
    | none => simp
    | some b1 => simpa using ih b1

theorem runOps_cons (op : WOp) (ops : List WOp) (b : Buffers) :
    runOps (op :: ops) b = (runOp op b).bind (runOps ops) := by
  simp only [runOps]
  cases runOp op b <;> rfl

theorem runOps_bit (v : Int) (ops : List WOp) (b : Buffers) :
    runOps (WOp.bit v :: ops) b = (write_bit v b).bind (runOps ops) :=
  runOps_cons _ _ _

theorem runOps_byte (v : Nat) (ops : List WOp) (b : Buffers) :
    runOps (WOp.byte v :: ops) b = (write_byte v b).bind (runOps ops) :=
  runOps_cons _ _ _

theorem runOps_nil (b : Buffers) : runOps [] b = some b := rfl

theorem opsBits_append (a c : List WOp) : opsBits (a ++ c) = opsBits a + opsBits c := by
  induction a with
  | nil => simp [opsBits]
  | cons op ops ih =>
    show opBits op + opsBits (ops ++ c) = opBits op + opsBits ops + opsBits c
    rw [ih]; ring

theorem write_bits_loop_eq (value : Int) (k : Nat) (b : Buffers) :
    write_bits_loop value k b = runOps (bits_ops value k) b := by
  induction k generalizing b with
  | zero => rfl
  | succ k ih =>
    simp only [write_bits_loop, bits_ops, runOps_bit]
    cases write_bit (Int.land value (2 ^ k)) b with
    | none => rfl
    | some b1 => simpa using ih b1

theorem write_bits_eq (value size : Int) (b : Buffers) :
    write_bits value size b = runOps (bits_ops value size.toNat) b :=
  write_bits_loop_eq _ _ _

theorem write_golomb_zeros_eq (value : Int) (f : Nat) (i : Int) (b : Buffers) :
    write_golomb_zeros value f i b =
      (runOps (golomb_zeros_ops value f i) b).map (fun b1 => (golomb_zeros_end value f i, b1)) := by
  induction f generalizing i b with
  | zero => rfl
  | succ f ih =>
    simp only [write_golomb_zeros, golomb_zeros_ops, golomb_zeros_end]
    split
    · simp only [runOps_bit]
      cases write_bit 0 b with
      | none => rfl
      | some b1 => simpa using ih (i * 2) b1
    · rfl

theorem write_golomb_digits_eq (value : Int) (f : Nat) (i : Int) (b : Buffers) :
    write_golomb_digits value f i b = runOps (golomb_digits_ops value f i) b := by
  induction f generalizing i b with
  | zero => rfl
  | succ f ih =>
    simp only [write_golomb_digits, golomb_digits_ops]
    split
    · simp only [runOps_bit]
      cases write_bit (Int.land value (i / 2)) b with
      | none => rfl
      | some b1 => simpa using ih (i / 2) b1
    · rfl

theorem write_golomb_gamma_eq (value : Int) (b : Buffers) :
    write_golomb_gamma value b = runOps (golomb_gamma_ops value) b := by
  simp only [write_golomb_gamma, golomb_gamma_ops, runOps_append, write_golomb_zeros_eq]
  cases runOps (golomb_zeros_ops (value + 1) 32 4) b with
  | none => rfl
  | some b1 => simp [write_golomb_digits_eq]

theorem write_offset_eq (b3 value option : Int) (b : Buffers) :
    write_offset b3 value option b = runOps (offset_ops b3 value option) b := by
  simp only [write_offset, offset_ops]
  split_ifs <;>
    simp [runOps_cons, runOp, runOps_append, write_bits_eq, runOps_nil, Option.bind_assoc]

theorem write_doublet_eq (b3 length offset : Int) (b : Buffers) :
    write_doublet b3 length offset b = runOps (doublet_ops b3 length offset) b := by
  unfold write_doublet doublet_ops
  simp [runOps_cons, runOp, runOps_append, write_golomb_gamma_eq, write_offset_eq,
    Option.bind_assoc]

theorem write_end_eq (b : Buffers) : write_end b = runOps end_ops b := by
  unfold write_end end_ops
  simp [runOps_cons, runOp, runOps_append, write_bits_eq, runOps_nil, Option.bind_assoc]

theorem write_literals_length_eq (length : Int) (b : Buffers) :
    write_literals_length length b = runOps (literals_length_ops length) b := by
  unfold write_literals_length literals_length_ops
  simp [runOps_cons, runOp, runOps_append, write_bits_eq, runOps_nil, Option.bind_assoc]

theorem write_literal_eq (c : Nat) (b : Buffers) :
    write_literal c b = runOps [WOp.bit 1, WOp.byte c] b := by
  unfold write_literal
  simp [runOps_cons, runOp, runOps_nil]

/-! ### The writer does not touch the source -/

theorem write_byte_src {v : Nat} {b b1 : Buffers} (h : write_byte v b = some b1) :
    b1.data_src = b.data_src ∧ b1.index_src = b.index_src := by
  unfold write_byte at h
  split at h
  · simp at h
  · simp only [Option.some.injEq] at h
    subst h
    exact ⟨rfl, rfl⟩

theorem write_bit_src {v : Int} {b b1 : Buffers} (h : write_bit v b = some b1) :
    b1.data_src = b.data_src ∧ b1.index_src = b.index_src := by
  unfold write_bit at h
  by_cases hm : b.bit_mask = 0
  · simp only [hm, if_true] at h
    split at h
    · simp at h
    · rename_i b2 hb2
      split at hb2
      · simp at hb2
      · have := write_byte_src hb2
        split at h
        · simp at h
        · simp only [Option.some.injEq] at h
          subst h
          exact this
  · simp only [hm, if_false] at h
    split at h
    · simp at h
    · simp only [Option.some.injEq] at h
      subst h
      exact ⟨rfl, rfl⟩

theorem runOp_src {op : WOp} {b b1 : Buffers} (h : runOp op b = some b1) :
    b1.data_src = b.data_src ∧ b1.index_src = b.index_src := by
  cases op with
  | bit v => exact write_bit_src h
  | byte v => exact write_byte_src h

theorem runOps_src {ops : List WOp} {b b1 : Buffers} (h : runOps ops b = some b1) :
    b1.data_src = b.data_src ∧ b1.index_src = b.index_src := by
  induction ops generalizing b with
  | nil => simp only [runOps, Option.some.injEq] at h; subst h; exact ⟨rfl, rfl⟩
  | cons op ops ih =>
    rw [runOps_cons] at h
    cases hop : runOp op b with
    | none => simp [hop] at h
    | some b2 =>
      rw [hop] at h
      have h1 := runOp_src hop
      have h2 := ih h
      exact ⟨h2.1.trans h1.1, h2.2.trans h1.2⟩

/-! ### Two runs of the writer from states that agree on what was written -/

theorem OptRel.bind {α β : Type} {R : α → α → Prop} {S : β → β → Prop}
    {x y : Option α} {f g : α → Option β} (h : OptRel R x y)
    (hf : ∀ a b, R a b → OptRel S (f a) (g b)) : OptRel S (x.bind f) (y.bind g) := by
  cases x <;> cases y <;> simp_all [OptRel]

theorem OptRel.map {α β : Type} {R : α → α → Prop} {S : β → β → Prop}
    {x y : Option α} {f g : α → β} (h : OptRel R x y)
    (hf : ∀ a b, R a b → S (f a) (g b)) : OptRel S (x.map f) (y.map g) := by
  cases x <;> cases y <;> simp_all [OptRel]

theorem setAt_agree {n i : Int} {v : Nat} {d e : Int → Nat}
    (h : ∀ x, 0 ≤ x → x < n → d x = e x) :
    ∀ x, 0 ≤ x → x < n → setAt d i v x = setAt e i v x := by
  intro x hx0 hx1
  simp only [setAt]
  split
  · rfl
  · exact h x hx0 hx1

theorem setAt_agree_succ {n : Int} {v : Nat} {d e : Int → Nat}
    (h : ∀ x, 0 ≤ x → x < n → d x = e x) :
    ∀ x, 0 ≤ x → x < n + 1 → setAt d n v x = setAt e n v x := by
  intro x hx0 hx1
  simp only [setAt]
  split
  · rfl
  · exact h x hx0 (by omega)

theorem write_byte_rel (v : Nat) {b c : Buffers} (h : WRel b c) :
    OptRel WRel (write_byte v b) (write_byte v c) := by
  obtain ⟨h1, h2, h3, h4⟩ := h
  unfold write_byte
  rw [← h1]
  split
  · trivial
  · exact ⟨rfl, h2,
      fun hm => ⟨(h3 hm).1, by have := (h3 hm).2; show b.bit_index < b.index_dest + 1; omega⟩,
      setAt_agree_succ h4⟩

theorem write_bit_rel (v : Int) {b c : Buffers} (h : WRel b c) :
    OptRel WRel (write_bit v b) (write_bit v c) := by
  obtain ⟨h1, h2, h3, h4⟩ := h
  unfold write_bit
  by_cases hm : b.bit_mask = 0
  · have hm2 : c.bit_mask = 0 := by rw [← h2]; exact hm
    simp only [hm, hm2, if_true]
    rw [← h1]
    by_cases hr : b.index_dest < 0 ∨ b.index_dest ≥ MAX
    · simp only [hr, if_true]; trivial
    · simp only [hr, if_false, write_byte]
      have h7 := setAt_agree_succ (v := 0 % 256) h4
      by_cases hv : v = 0
      · simp only [hv, ne_eq, not_true_eq_false, if_false]
        exact ⟨rfl, rfl, fun _ => ⟨rfl, by show b.index_dest < b.index_dest + 1; omega⟩, h7⟩
      · simp only [hv, ne_eq, not_false_eq_true, if_true]
        refine ⟨rfl, rfl, fun _ => ⟨rfl, by show b.index_dest < b.index_dest + 1; omega⟩, ?_⟩
        have h8 : setAt b.data_dest b.index_dest (0 % 256) b.index_dest
            = setAt c.data_dest b.index_dest (0 % 256) b.index_dest := by simp [setAt]
        show ∀ x, 0 ≤ x → x < b.index_dest + 1 → _
        rw [h8]
        exact setAt_agree h7
  · have hm2 : ¬ c.bit_mask = 0 := by rw [← h2]; exact hm
    simp only [hm, hm2, if_false]
    obtain ⟨h5, h6⟩ := h3 hm
    rw [← h5]
    by_cases hr : b.bit_index < 0 ∨ b.bit_index ≥ MAX
    · simp only [hr, if_true]; trivial
    · simp only [hr, if_false]
      by_cases hv : v = 0
      · simp only [hv, ne_eq, not_true_eq_false, if_false]
        exact ⟨h1, by show b.bit_mask >>> 1 = c.bit_mask >>> 1; rw [h2], fun _ => ⟨rfl, h6⟩, h4⟩
      · simp only [hv, ne_eq, not_false_eq_true, if_true]
        refine ⟨h1, by show b.bit_mask >>> 1 = c.bit_mask >>> 1; rw [h2], fun _ => ⟨rfl, h6⟩, ?_⟩
        show ∀ x, 0 ≤ x → x < b.index_dest → _
        rw [← h2, ← h4 b.bit_index (by omega) h6]
        exact setAt_agree h4

theorem runOp_rel (op : WOp) {b c : Buffers} (h : WRel b c) :
    OptRel WRel (runOp op b) (runOp op c) := by
  cases op with
  | bit v => exact write_bit_rel v h
  | byte v => exact write_byte_rel v h

theorem runOps_rel (ops : List WOp) {b c : Buffers} (h : WRel b c) :
    OptRel WRel (runOps ops b) (runOps ops c) := by
  induction ops generalizing b c with
  | nil => exact h
  | cons op ops ih =>
    rw [runOps_cons, runOps_cons]
    exact OptRel.bind (runOp_rel op h) (fun _ _ hr => ih hr)

theorem runOps_bufRel (ops : List WOp) {b c : Buffers} (h : BufRel b c) :
    OptRel BufRel (runOps ops b) (runOps ops c) := by
  have hw := runOps_rel ops h.1
  cases hb : runOps ops b with
  | none =>
    cases hc : runOps ops c with
    | none => trivial
    | some c1 => rw [hb, hc] at hw; exact hw
  | some b1 =>
    cases hc : runOps ops c with
    | none => rw [hb, hc] at hw; exact hw
    | some c1 =>
      rw [hb, hc] at hw
      have sb := runOps_src hb
      have sc := runOps_src hc
      refine ⟨hw, ?_, ?_⟩
      · rw [sb.2, sc.2]; exact h.2.1
      · rw [sb.1, sc.1, sb.2]; exact h.2.2

theorem write_byte_bufRel (v : Nat) {b c : Buffers} (h : BufRel b c) :
    OptRel BufRel (write_byte v b) (write_byte v c) := by
  have := runOps_bufRel [WOp.byte v] h
  simpa [runOps_cons, runOp, runOps_nil] using this

theorem bytesOf_congr {a c : Int → Nat} {n : Int}
    (h : ∀ x, 0 ≤ x → x < n → a x = c x) : bytesOf a n = bytesOf c n := by
  unfold bytesOf
  apply List.map_congr_left
  intro k hk
  rw [List.mem_range] at hk
  exact h k (by omega) (by omega)

theorem bytesOf_memcpy (out d : Int → Nat) (n : Int) :
    bytesOf (memcpy out d n) n = bytesOf d n := by
  apply bytesOf_congr
  intro x hx0 hx1
  simp [memcpy, hx0, hx1]

theorem write_raw_loop_rel (index : Int) :
    ∀ (k : Nat) (j : Int) (b c : Buffers), BufRel b c → 0 ≤ index + j →
      index + j + k ≤ b.index_src →
      OptRel (FlowRel BufRel) (write_raw_loop index k j b) (write_raw_loop index k j c) := by
  intro k
  induction k with
  | zero => intro j b c h _ _; exact h
  | succ k ih =>
    intro j b c h h0 h1
    unfold write_raw_loop
    by_cases hm : index + j ≥ MAX
    · simp only [hm, if_true]; exact ⟨rfl, h⟩
    · simp only [hm, if_false]
      have hs : b.data_src (index + j) = c.data_src (index + j) :=
        h.2.2 _ h0 (by push_cast at h1; omega)
      rw [← hs]
      have hw := write_byte_bufRel (b.data_src (index + j)) h
      cases hb : write_byte (b.data_src (index + j)) b with
      | none =>
        cases hc : write_byte (b.data_src (index + j)) c with
        | none => trivial
        | some c1 => rw [hb, hc] at hw; exact False.elim hw
      | some b1 =>
        cases hc : write_byte (b.data_src (index + j)) c with
        | none => rw [hb, hc] at hw; exact False.elim hw
        | some c1 =>
          rw [hb, hc] at hw
          have := (write_byte_src hb).2
          exact ih (j + 1) b1 c1 hw (by omega) (by push_cast at h1; rw [this]; omega)

theorem OptRel.mapFlow {b c : Option Buffers} (h : OptRel BufRel b c) :
    OptRel (FlowRel BufRel) (b.map Flow.cont) (c.map Flow.cont) := by
  cases b <;> cases c <;> simp_all [OptRel, FlowRel]

theorem write_lz_step_rel (subset : Int) (p : Parse) (i : Int) {b c : Buffers}
    (h : BufRel b c) (h0 : 0 ≤ i) (h1 : i < b.index_src) :
    OptRel (FlowRel BufRel) (write_lz_step subset p i b) (write_lz_step subset p i c) := by
  unfold write_lz_step
  by_cases hi : i < 0 ∨ i ≥ MAX
  · simp only [hi, if_true]; exact ⟨rfl, h⟩
  · simp only [hi, if_false]
    by_cases hl : (p.optimals i).len subset > 0
    · simp only [hl, if_true]
      by_cases hx : i - (p.optimals i).len subset + 1 < 0 ∨ i - (p.optimals i).len subset + 1 ≥ MAX
      · simp only [hx, if_true]; exact ⟨rfl, h⟩
      · simp only [hx, if_false]
        by_cases ho : (p.optimals i).offset subset = 0
        · simp only [ho, if_true]
          by_cases h1l : (p.optimals i).len subset = 1
          · simp only [h1l, if_true]
            have hs : b.data_src (i - 1 + 1) = c.data_src (i - 1 + 1) :=
              h.2.2 _ (by omega) (by omega)
            rw [← hs, write_literal_eq, write_literal_eq]
            exact OptRel.mapFlow (runOps_bufRel _ h)
          · simp only [h1l, if_false]
            rw [write_literals_length_eq, write_literals_length_eq]
            have hw := runOps_bufRel (literals_length_ops ((p.optimals i).len subset)) h
            cases hb : runOps (literals_length_ops ((p.optimals i).len subset)) b with
            | none =>
              cases hc : runOps (literals_length_ops ((p.optimals i).len subset)) c with
              | none => trivial
              | some c1 => rw [hb, hc] at hw; exact False.elim hw
            | some b1 =>
              cases hc : runOps (literals_length_ops ((p.optimals i).len subset)) c with
              | none => rw [hb, hc] at hw; exact False.elim hw
              | some c1 =>
                rw [hb, hc] at hw
                have := (runOps_src hb).2
                exact write_raw_loop_rel _ _ 0 b1 c1 hw (by omega)
                  (by rw [this]; have : (((p.optimals i).len subset).toNat : Int)
                        = (p.optimals i).len subset := Int.toNat_of_nonneg (by omega)
                      omega)
        · simp only [ho, if_false]
          rw [write_doublet_eq, write_doublet_eq]
          exact OptRel.mapFlow (runOps_bufRel _ h)
    · simp only [hl, if_false]; exact h

theorem write_raw_loop_src (index : Int) :
    ∀ (k : Nat) (j : Int) (b : Buffers) (r : Flow Buffers),
      write_raw_loop index k j b = some r →
      ∀ b1, (r = Flow.cont b1 ∨ r = Flow.stop b1 ∨ ∃ v, r = Flow.leave v b1) →
        b1.data_src = b.data_src ∧ b1.index_src = b.index_src := by
  intro k
  induction k with
  | zero =>
    intro j b r h b1 hr
    simp only [write_raw_loop, Option.some.injEq] at h
    subst h
    rcases hr with hr | hr | ⟨v, hr⟩ <;> simp at hr
    subst hr; exact ⟨rfl, rfl⟩
  | succ k ih =>
    intro j b r h b1 hr
    unfold write_raw_loop at h
    split at h
    · simp only [Option.some.injEq] at h
      subst h
      rcases hr with hr | hr | ⟨v, hr⟩ <;> simp at hr
      rw [← hr.2]; exact ⟨rfl, rfl⟩
    · split at h
      · simp at h
      · rename_i b2 hb2
        have h1 := write_byte_src hb2
        have h2 := ih (j + 1) b2 r h b1 hr
        exact ⟨h2.1.trans h1.1, h2.2.trans h1.2⟩

theorem flow_map_cont {x : Option Buffers} {r : Flow Buffers}
    (h : x.map Flow.cont = some r) : ∃ b1, x = some b1 ∧ r = Flow.cont b1 := by
  cases x with
  | none => simp at h
  | some b1 => simp at h; exact ⟨b1, rfl, h.symm⟩

theorem write_lz_step_src {subset : Int} {p : Parse} {i : Int} {b : Buffers} {r : Flow Buffers}
    (h : write_lz_step subset p i b = some r) :
    ∀ b1, (r = Flow.cont b1 ∨ r = Flow.stop b1 ∨ ∃ v, r = Flow.leave v b1) →
      b1.data_src = b.data_src ∧ b1.index_src = b.index_src := by
  intro b1 hr
  simp only [write_lz_step] at h
  have triv : ∀ {r : Flow Buffers} {v : Int}, some (Flow.leave v b) = some r →
      (r = Flow.cont b1 ∨ r = Flow.stop b1 ∨ ∃ v, r = Flow.leave v b1) → b1 = b := by
    intro r v h1 h2
    simp only [Option.some.injEq] at h1
    subst h1
    rcases h2 with h2 | h2 | ⟨w, h2⟩ <;> simp at h2
    exact h2.2.symm
  have viaOps : ∀ {ops : List WOp}, Option.map Flow.cont (runOps ops b) = some r →
      b1.data_src = b.data_src ∧ b1.index_src = b.index_src := by
    intro ops h1
    obtain ⟨b2, hb2, hrr⟩ := flow_map_cont h1
    have := runOps_src hb2
    subst hrr
    rcases hr with hr | hr | ⟨w, hr⟩ <;> simp at hr
    subst hr; exact this
  by_cases hi : i < 0 ∨ i ≥ MAX
  · simp only [hi, if_true] at h
    rw [triv h hr]; exact ⟨rfl, rfl⟩
  · simp only [hi, if_false] at h
    by_cases hl : (p.optimals i).len subset > 0
    · simp only [hl, if_true] at h
      by_cases hx : i - (p.optimals i).len subset + 1 < 0 ∨ i - (p.optimals i).len subset + 1 ≥ MAX
      · simp only [hx, if_true] at h
        rw [triv h hr]; exact ⟨rfl, rfl⟩
      · simp only [hx, if_false] at h
        by_cases ho : (p.optimals i).offset subset = 0
        · simp only [ho, if_true] at h
          by_cases h1l : (p.optimals i).len subset = 1
          · simp only [h1l, if_true, write_literal_eq] at h
            exact viaOps h
          · simp only [h1l, if_false, write_literals_length_eq] at h
            cases hb2 : runOps (literals_length_ops ((p.optimals i).len subset)) b with
            | none => rw [hb2] at h; simp at h
            | some b2 =>
              rw [hb2] at h
              have h1 := runOps_src hb2
              have h2 := write_raw_loop_src _ _ _ _ _ h b1 hr
              exact ⟨h2.1.trans h1.1, h2.2.trans h1.2⟩
        · simp only [ho, if_false, write_doublet_eq] at h
          exact viaOps h
    · simp only [hl, if_false] at h
      simp only [Option.some.injEq] at h
      subst h
      rcases hr with hr | hr | ⟨w, hr⟩ <;> simp at hr
      subst hr; exact ⟨rfl, rfl⟩

theorem write_lz_loop_rel (subset : Int) (p : Parse) :
    ∀ (k : Nat) (i : Int) (b c : Buffers), BufRel b c → 0 ≤ i → i + k ≤ b.index_src →
      OptRel (FlowRel BufRel) (write_lz_loop subset p k i b) (write_lz_loop subset p k i c) := by
  intro k
  induction k with
  | zero => intro i b c h _ _; exact h
  | succ k ih =>
    intro i b c h h0 h1
    unfold write_lz_loop
    have hw := write_lz_step_rel subset p i h h0 (by push_cast at h1; omega)
    cases hb : write_lz_step subset p i b with
    | none =>
      cases hc : write_lz_step subset p i c with
      | none => trivial
      | some rc => rw [hb, hc] at hw; exact False.elim hw
    | some rb =>
      cases hc : write_lz_step subset p i c with
      | none => rw [hb, hc] at hw; exact False.elim hw
      | some rc =>
        rw [hb, hc] at hw
        cases rb with
        | cont b1 =>
          cases rc with
          | cont c1 =>
            have := (write_lz_step_src hb b1 (Or.inl rfl)).2
            exact ih (i + 1) b1 c1 hw (by omega) (by push_cast at h1; rw [this]; omega)
          | stop c1 => exact False.elim hw
          | leave w c1 => exact False.elim hw
        | stop b1 =>
          cases rc with
          | cont c1 => exact False.elim hw
          | stop c1 => exact hw
          | leave w c1 => exact False.elim hw
        | leave v b1 =>
          cases rc with
          | cont c1 => exact False.elim hw
          | stop c1 => exact False.elim hw
          | leave w c1 => exact hw

/-! ### Two runs of the parser from states that hold the same table -/

theorem optRel_match {α β : Type} {R : α → α → Prop} {S : β → β → Prop}
    {x y : Option α} {f g : α → Option β} :
    OptRel R x y → (∀ a b, R a b → OptRel S (f a) (g b)) →
    OptRel S (match x with | none => none | some a => f a)
      (match y with | none => none | some a => g a) := by
  intro h hf
  cases x with
  | none =>
    cases y with
    | none => trivial
    | some b => exact False.elim h
  | some a =>
    cases y with
    | none => exact False.elim h
    | some b => exact hf a b h

theorem count_bits_small (b c offset len : Int) (h : offset ≤ MAX_OFFSET2) :
    count_bits b offset len = count_bits c offset len := by
  unfold count_bits
  have : ¬ offset > MAX_OFFSET2 := by omega
  simp only [this, if_false]

theorem update_optimal_step_rel (index len offset i : Int) {p q : Parse} (h : PEq p q) :
    OptRel PEq (update_optimal_step index len offset i p)
      (update_optimal_step index len offset i q) := by
  obtain ⟨pb, pm, po⟩ := p
  obtain ⟨qb, qm, qo⟩ := q
  simp only [PEq] at h
  subst h
  unfold update_optimal_step
  by_cases c0 : index < 0 ∨ index ≥ MAX
  · simp only [c0, if_true]; trivial
  simp only [c0, if_false]
  by_cases c1 : offset = 0
  · simp only [c1, if_true]
    by_cases c2 : index > 0
    · simp only [c2, if_true]
      by_cases c3 : index - 1 < 0 ∨ index - 1 ≥ MAX
      · simp only [c3, if_true]; trivial
      simp only [c3, if_false]
      by_cases c4 : (po (index - 1)).bits i = INF
      · simp only [c4, if_true]; exact rfl
      simp only [c4, if_false]
      by_cases c5 : len = 1
      · simp only [c5, if_true]
        by_cases c6 : (po index).bits i > (po (index - 1)).bits i + 1 + 8
        · simp only [c6, if_true]; exact rfl
        · simp only [c6, if_false]; exact rfl
      simp only [c5, if_false]
      by_cases c7 : index - len < 0 ∨ index - len ≥ MAX
      · simp only [c7, if_true]; trivial
      simp only [c7, if_false]
      by_cases c8 : (po (index - len)).bits i = INF
      · simp only [c8, if_true]; exact rfl
      simp only [c8, if_false]
      by_cases c9 : (po index).bits i > (po (index - len)).bits i + 1 + BIT_GOLOMG_MAX + 1 + 8 + len * 8
      · simp only [c9, if_true]; exact rfl
      · simp only [c9, if_false]; exact rfl
    · simp only [c2, if_false]; exact rfl
  simp only [c1, if_false]
  by_cases d1 : offset > index
  · simp only [d1, if_true]; exact rfl
  simp only [d1, if_false]
  by_cases d2 : index - len < 0 ∨ index - len ≥ MAX
  · simp only [d2, if_true]; trivial
  simp only [d2, if_false]
  by_cases d3 : (po (index - len)).bits i = INF
  · simp only [d3, if_true]; exact rfl
  simp only [d3, if_false]
  by_cases h32 : offset > MAX_OFFSET1
  · simp only [h32, if_true, true_and, set_BIT_OFFSET3]
    by_cases d4 : offset > 2 ^ (BIT_OFFSET_MIN + i).toNat + MAX_OFFSET2
    · simp only [d4, if_true]; exact rfl
    simp only [d4, if_false]
    by_cases d5 : (po index).bits i >
        (po (index - len)).bits i + count_bits (BIT_OFFSET_MIN + i) offset len
    · simp only [d5, if_true]; exact rfl
    · simp only [d5, if_false]; exact rfl
  · have hc : count_bits pb offset len = count_bits qb offset len :=
      count_bits_small _ _ _ _ (by simp only [MAX_OFFSET1, MAX_OFFSET2] at *; omega)
    simp only [h32, if_false, false_and]
    rw [hc]
    by_cases d5 : (po index).bits i > (po (index - len)).bits i + count_bits qb offset len
    · simp only [d5, if_true]; exact rfl
    · simp only [d5, if_false]; exact rfl

theorem update_optimal_loop_rel (index len offset : Int) :
    ∀ (k : Nat) (p q : Parse), PEq p q →
      OptRel PEq (update_optimal_loop index len offset k p)
        (update_optimal_loop index len offset k q) := by
  intro k
  induction k with
  | zero => intro p q h; exact h
  | succ k ih =>
    intro p q h
    unfold update_optimal_loop
    have hw := update_optimal_step_rel index len offset k h
    revert hw
    cases update_optimal_step index len offset k p <;>
      cases update_optimal_step index len offset k q <;> intro hw
    · trivial
    · exact False.elim hw
    · exact False.elim hw
    · exact ih _ _ hw

theorem update_optimal_rel (nbr index len offset : Int) {p q : Parse} (h : PEq p q) :
    OptRel PEq (update_optimal nbr index len offset p) (update_optimal nbr index len offset q) :=
  update_optimal_loop_rel index len offset _ p q h

theorem rle_loop_rel (nbr i : Int) :
    ∀ (c : Nat) (k : Int) (p q : Parse), PEq p q →
      OptRel PEq (rle_loop nbr i c k p) (rle_loop nbr i c k q) := by
  intro c
  induction c with
  | zero => intro k p q h; exact h
  | succ c ih =>
    intro k p q h
    unfold rle_loop
    have hw := update_optimal_rel nbr i k 0 h
    revert hw
    cases update_optimal nbr i k 0 p <;> cases update_optimal nbr i k 0 q <;> intro hw
    · trivial
    · exact False.elim hw
    · exact False.elim hw
    · exact ih _ _ _ hw

theorem len1_loop_rel (data_src : Int → Nat) (nbr i : Int) :
    ∀ (c : Nat) (k : Int) (p q : Parse), PEq p q →
      OptRel PEq (len1_loop data_src nbr i c k p) (len1_loop data_src nbr i c k q) := by
  intro c
  induction c with
  | zero => intro k p q h; exact h
  | succ c ih =>
    intro k p q h
    unfold len1_loop
    split_ifs
    · trivial
    · have hw := update_optimal_rel nbr i 1 k h
      revert hw
      cases update_optimal nbr i 1 k p <;> cases update_optimal nbr i 1 k q <;> intro hw
      · trivial
      · exact False.elim hw
      · exact False.elim hw
      · exact ih _ _ _ hw
    · exact ih (k + 1) p q h

theorem match_len_loop_rel (data_src : Int → Nat) (nbr i offset : Int) :
    ∀ (f : Nat) (len best : Int) (p q : Parse), PEq p q →
      OptRel (fun r s => r.1 = s.1 ∧ PEq r.2 s.2)
        (match_len_loop data_src nbr i offset f len best p)
        (match_len_loop data_src nbr i offset f len best q) := by
  intro f
  induction f with
  | zero => intro len best p q h; exact ⟨rfl, h⟩
  | succ f ih =>
    intro len best p q h
    unfold match_len_loop
    by_cases h1 : len ≤ MAX_GAMMA
    · simp only [h1, if_true]
      by_cases h2 : i - len < 0 ∨ i - len - offset < 0 ∨ i - len ≥ MAX ∨ i - len - offset ≥ MAX
      · simp only [h2, if_true]; exact ⟨rfl, h⟩
      · simp only [h2, if_false]
        have hw := update_optimal_rel nbr i len offset h
        revert hw
        cases update_optimal nbr i len offset p <;> cases update_optimal nbr i len offset q <;>
          intro hw
        · trivial
        · exact False.elim hw
        · exact False.elim hw
        · simp only
          by_cases h3 : i < offset + len ∨ data_src (i - len) ≠ data_src (i - len - offset)
          · simp only [h3, if_true]; exact ⟨rfl, hw⟩
          · simp only [h3, if_false]; exact ih _ _ _ _ hw
    · simp only [h1, if_false]; exact ⟨rfl, h⟩

theorem match_walk_rel (data_src : Int → Nat) (nbr bFAST i : Int) :
    ∀ (chain : List Int) (best : Int) (p q : Parse), PEq p q →
      OptRel (fun r s => r.1 = s.1 ∧ PEq r.2 s.2)
        (match_walk data_src nbr bFAST i chain best p)
        (match_walk data_src nbr bFAST i chain best q) := by
  intro chain
  induction chain with
  | nil => intro best p q h; exact ⟨rfl, h⟩
  | cons a rest ih =>
    intro best p q h
    cases rest with
    | nil => exact ⟨rfl, h⟩
    | cons b rest =>
      unfold match_walk
      simp only
      split_ifs with h1 h2
      · exact ⟨rfl, h⟩
      · exact OptRel.map (ih best p q h) (fun r s hr => ⟨by rw [hr.1], hr.2⟩)
      · have hw := match_len_loop_rel data_src nbr i (i - a) 253 2 best p q h
        revert hw
        cases match_len_loop data_src nbr i (i - a) 253 2 best p <;>
          cases match_len_loop data_src nbr i (i - a) 253 2 best q <;> intro hw
        · trivial
        · exact False.elim hw
        · exact False.elim hw
        · rename_i r1 r2
          obtain ⟨bl, p1⟩ := r1
          obtain ⟨bl2, q1⟩ := r2
          obtain ⟨hb, hp⟩ := hw
          simp only at hb
          subst hb
          simp only
          split_ifs
          · exact ⟨rfl, hp⟩
          · exact OptRel.map (ih bl p1 q1 hp) (fun r s hr => ⟨by rw [hr.1], hr.2⟩)

/-! ### The scan reads the source only below `index_src` -/

theorem len1_loop_src {n : Int} {s t : Int → Nat} (hs : SrcEq n s t) (nbr i : Int)
    (hi : i < n) :
    ∀ (c : Nat) (k : Int) (p : Parse), 0 ≤ k →
      len1_loop s nbr i c k p = len1_loop t nbr i c k p := by
  intro c
  induction c with
  | zero => intro k p _; rfl
  | succ c ih =>
    intro k p hk
    unfold len1_loop
    by_cases h1 : i < 0 ∨ i ≥ MAX ∨ i - k < 0 ∨ i - k ≥ MAX
    · simp only [h1, if_true]
    · simp only [h1, if_false]
      have e1 : s i = t i := hs i (by omega) hi
      have e2 : s (i - k) = t (i - k) := hs (i - k) (by omega) (by omega)
      rw [e1, e2]
      by_cases h2 : t i = t (i - k)
      · simp only [h2, if_true]
        cases update_optimal nbr i 1 k p with
        | none => rfl
        | some p1 => exact ih (k + 1) p1 (by omega)
      · simp only [h2, if_false]
        exact ih (k + 1) p (by omega)

theorem match_len_loop_src {n : Int} {s t : Int → Nat} (hs : SrcEq n s t) (nbr i offset : Int)
    (hi : i < n) (ho : 0 ≤ offset) :
    ∀ (f : Nat) (len best : Int) (p : Parse), 0 ≤ len →
      match_len_loop s nbr i offset f len best p = match_len_loop t nbr i offset f len best p := by
  intro f
  induction f with
  | zero => intro len best p _; rfl
  | succ f ih =>
    intro len best p hl
    unfold match_len_loop
    by_cases h1 : len ≤ MAX_GAMMA
    · simp only [h1, if_true]
      by_cases h2 : i - len < 0 ∨ i - len - offset < 0 ∨ i - len ≥ MAX ∨ i - len - offset ≥ MAX
      · simp only [h2, if_true]
      · simp only [h2, if_false]
        have e1 : s (i - len) = t (i - len) := hs _ (by omega) (by omega)
        have e2 : s (i - len - offset) = t (i - len - offset) := hs _ (by omega) (by omega)
        rw [e1, e2]
        cases update_optimal nbr i len offset p with
        | none => rfl
        | some p1 =>
          simp only
          by_cases h3 : i < offset + len ∨ t (i - len) ≠ t (i - len - offset)
          · simp only [h3, if_true]
          · simp only [h3, if_false]
            exact ih (len + 1) len p1 (by omega)
    · simp only [h1, if_false]

theorem match_walk_src {n : Int} {s t : Int → Nat} (hs : SrcEq n s t) (nbr bFAST i : Int)
    (hi : i < n) :
    ∀ (chain : List Int) (best : Int) (p : Parse),
      match_walk s nbr bFAST i chain best p = match_walk t nbr bFAST i chain best p := by
  intro chain
  induction chain with
  | nil => intro best p; rfl
  | cons a rest ih =>
    intro best p
    cases rest with
    | nil => rfl
    | cons b rest =>
      unfold match_walk
      simp only
      by_cases h1 : i - a > MAX_OFFSET
      · simp only [h1, if_true]
      · simp only [h1, if_false]
        by_cases h2 : i - a ≤ 0 ∨ i - (i - a) < 0
        · simp only [h2, if_true, ih]
        · simp only [h2, if_false]
          rw [match_len_loop_src hs nbr i (i - a) hi (by omega) 253 2 best p (by omega)]
          cases match_len_loop t nbr i (i - a) 253 2 best p with
          | none => rfl
          | some r => simp only [ih]

theorem scan_step_src {n : Int} {s t : Int → Nat} (hs : SrcEq n s t) (nbr bRLE bFAST i : Int)
    (hi : i < n) (st : ScanState) :
    scan_step s nbr bRLE bFAST i st = scan_step t nbr bRLE bFAST i st := by
  unfold scan_step
  cases update_optimal nbr i 1 0 st.parse with
  | none => rfl
  | some p1 =>
    simp only
    cases (if bRLE ≠ 0 ∧ i ≥ RAW_MIN then
        rle_loop nbr i ((if RAW_MAX > i then i else RAW_MAX) - RAW_MIN).toNat
          (if RAW_MAX > i then i else RAW_MAX) p1 else some p1) with
    | none => rfl
    | some p2 =>
      simp only
      rw [len1_loop_src hs nbr i hi _ 1 p2 (by omega)]
      cases len1_loop t nbr i (if MAX_OFFSET0 > i then i else MAX_OFFSET0).toNat 1 p2 with
      | none => rfl
      | some p3 =>
        simp only
        by_cases h1 : i - 1 < 0 ∨ i ≥ MAX
        · simp only [h1, if_true]
        · simp only [h1, if_false]
          have e1 : s (i - 1) = t (i - 1) := hs _ (by omega) (by omega)
          have e2 : s i = t i := hs _ (by omega) hi
          rw [e1, e2]
          simp only [match_walk_src hs nbr bFAST i hi]

theorem scan_loop_src {n : Int} {s t : Int → Nat} (hs : SrcEq n s t) (nbr bRLE bFAST : Int) :
    ∀ (c : Nat) (i : Int) (st : ScanState), i + c ≤ n →
      scan_loop s nbr bRLE bFAST c i st = scan_loop t nbr bRLE bFAST c i st := by
  intro c
  induction c with
  | zero => intro i st _; rfl
  | succ c ih =>
    intro i st h
    unfold scan_loop
    rw [scan_step_src hs nbr bRLE bFAST i (by push_cast at h; omega) st]
    cases scan_step t nbr bRLE bFAST i st with
    | none => rfl
    | some s1 => exact ih (i + 1) s1 (by push_cast at h; omega)

/-! ### Two scans from states that hold the same table -/

theorem scan_step_rel (src : Int → Nat) (nbr bRLE bFAST i : Int) {s t : ScanState}
    (h : ScanEq s t) :
    OptRel ScanEq (scan_step src nbr bRLE bFAST i s) (scan_step src nbr bRLE bFAST i t) := by
  obtain ⟨sp, sm, spi⟩ := s
  obtain ⟨tp, tm, tpi⟩ := t
  obtain ⟨hp, hm, hpi⟩ := h
  simp only at hp hm hpi
  subst hm hpi
  unfold scan_step
  simp only
  have hw := update_optimal_rel nbr i 1 0 hp
  revert hw
  cases update_optimal nbr i 1 0 sp <;> cases update_optimal nbr i 1 0 tp <;> intro hw
  · trivial
  · exact False.elim hw
  · exact False.elim hw
  rename_i p1 q1
  simp only
  have hw2 : OptRel PEq
      (if bRLE ≠ 0 ∧ i ≥ RAW_MIN then
        rle_loop nbr i ((if RAW_MAX > i then i else RAW_MAX) - RAW_MIN).toNat
          (if RAW_MAX > i then i else RAW_MAX) p1 else some p1)
      (if bRLE ≠ 0 ∧ i ≥ RAW_MIN then
        rle_loop nbr i ((if RAW_MAX > i then i else RAW_MAX) - RAW_MIN).toNat
          (if RAW_MAX > i then i else RAW_MAX) q1 else some q1) := by
    by_cases hr : bRLE ≠ 0 ∧ i ≥ RAW_MIN
    · simp only [if_pos hr]; exact rle_loop_rel nbr i _ _ p1 q1 hw
    · simp only [if_neg hr]; exact hw
  revert hw2
  cases (if bRLE ≠ 0 ∧ i ≥ RAW_MIN then
        rle_loop nbr i ((if RAW_MAX > i then i else RAW_MAX) - RAW_MIN).toNat
          (if RAW_MAX > i then i else RAW_MAX) p1 else some p1) <;>
    cases (if bRLE ≠ 0 ∧ i ≥ RAW_MIN then
        rle_loop nbr i ((if RAW_MAX > i then i else RAW_MAX) - RAW_MIN).toNat
          (if RAW_MAX > i then i else RAW_MAX) q1 else some q1) <;> intro hw2
  · trivial
  · exact False.elim hw2
  · exact False.elim hw2
  rename_i p2 q2
  simp only
  have hw3 := len1_loop_rel src nbr i (if MAX_OFFSET0 > i then i else MAX_OFFSET0).toNat 1 p2 q2 hw2
  revert hw3
  cases len1_loop src nbr i (if MAX_OFFSET0 > i then i else MAX_OFFSET0).toNat 1 p2 <;>
    cases len1_loop src nbr i (if MAX_OFFSET0 > i then i else MAX_OFFSET0).toNat 1 q2 <;>
    intro hw3
  · trivial
  · exact False.elim hw3
  · exact False.elim hw3
  rename_i p3 q3
  simp only
  by_cases h1 : i - 1 < 0 ∨ i ≥ MAX
  · simp only [h1, if_true]; exact ⟨hw3, rfl, rfl⟩
  · simp only [h1, if_false]
    have e : q3.optimals = p3.optimals := hw3.symm
    rw [e]
    by_cases hf : spi = (((src (i - 1) <<< 8 ||| src i &&& 255 : Nat) : Int)) ∧ bFAST = TRUE ∧
        (p3.optimals (i - 1)).offset 0 = 1 ∧ (p3.optimals (i - 1)).len 0 > 2
    · simp only [if_pos hf]
      have hw4 : OptRel PEq
          (if (p3.optimals (i - 1)).len 0 < MAX_GAMMA ∧ (i ≥ (p3.optimals (i - 1)).len 0 ∧
              i - (p3.optimals (i - 1)).len 0 ≥ 0 ∧ i - (p3.optimals (i - 1)).len 0 < MAX)
            then update_optimal nbr i ((p3.optimals (i - 1)).len 0 + 1) 1 p3 else some p3)
          (if (p3.optimals (i - 1)).len 0 < MAX_GAMMA ∧ (i ≥ (p3.optimals (i - 1)).len 0 ∧
              i - (p3.optimals (i - 1)).len 0 ≥ 0 ∧ i - (p3.optimals (i - 1)).len 0 < MAX)
            then update_optimal nbr i ((p3.optimals (i - 1)).len 0 + 1) 1 q3 else some q3) := by
        by_cases hc : (p3.optimals (i - 1)).len 0 < MAX_GAMMA ∧ (i ≥ (p3.optimals (i - 1)).len 0 ∧
              i - (p3.optimals (i - 1)).len 0 ≥ 0 ∧ i - (p3.optimals (i - 1)).len 0 < MAX)
        · simp only [if_pos hc]; exact update_optimal_rel nbr i _ 1 hw3
        · simp only [if_neg hc]; exact hw3
      revert hw4
      cases (if (p3.optimals (i - 1)).len 0 < MAX_GAMMA ∧ (i ≥ (p3.optimals (i - 1)).len 0 ∧
              i - (p3.optimals (i - 1)).len 0 ≥ 0 ∧ i - (p3.optimals (i - 1)).len 0 < MAX)
            then update_optimal nbr i ((p3.optimals (i - 1)).len 0 + 1) 1 p3 else some p3) <;>
        cases (if (p3.optimals (i - 1)).len 0 < MAX_GAMMA ∧ (i ≥ (p3.optimals (i - 1)).len 0 ∧
              i - (p3.optimals (i - 1)).len 0 ≥ 0 ∧ i - (p3.optimals (i - 1)).len 0 < MAX)
            then update_optimal nbr i ((p3.optimals (i - 1)).len 0 + 1) 1 q3 else some q3) <;>
        intro hw4
      · trivial
      · exact False.elim hw4
      · exact False.elim hw4
      · exact ⟨hw4, rfl, rfl⟩
    · simp only [if_neg hf]
      have hw4 := match_walk_rel src nbr bFAST i
        (sm (((src (i - 1) <<< 8 ||| src i &&& 255 : Nat) : Int))) 1 p3 q3 hw3
      revert hw4
      cases match_walk src nbr bFAST i (sm (((src (i - 1) <<< 8 ||| src i &&& 255 : Nat) : Int)))
          1 p3 <;>
        cases match_walk src nbr bFAST i (sm (((src (i - 1) <<< 8 ||| src i &&& 255 : Nat) : Int)))
          1 q3 <;> intro hw4
      · trivial
      · exact False.elim hw4
      · exact False.elim hw4
      · rename_i r1 r2
        obtain ⟨c1, p4⟩ := r1
        obtain ⟨c2, q4⟩ := r2
        obtain ⟨hc, hp4⟩ := hw4
        simp only at hc hp4
        subst hc
        exact ⟨hp4, rfl, rfl⟩

theorem scan_loop_rel (src : Int → Nat) (nbr bRLE bFAST : Int) :
    ∀ (c : Nat) (i : Int) (s t : ScanState), ScanEq s t →
      OptRel ScanEq (scan_loop src nbr bRLE bFAST c i s) (scan_loop src nbr bRLE bFAST c i t) := by
  intro c
  induction c with
  | zero => intro i s t h; exact h
  | succ c ih =>
    intro i s t h
    unfold scan_loop
    have hw := scan_step_rel src nbr bRLE bFAST i h
    revert hw
    cases scan_step src nbr bRLE bFAST i s <;> cases scan_step src nbr bRLE bFAST i t <;>
      intro hw
    · trivial
    · exact False.elim hw
    · exact False.elim hw
    · exact ih _ _ _ hw

/-- Two states on entry of `lzss_slow` that differ only in what the run overwrites. -/
theorem lzss_scan_rel {g h : Globals}
    (h1 : g.BIT_OFFSET_NBR_ALLOWED = h.BIT_OFFSET_NBR_ALLOWED) (h2 : g.bRLE = h.bRLE)
    (h3 : g.bFAST = h.bFAST) (h4 : g.buf.index_src = h.buf.index_src)
    (h5 : SrcEq g.buf.index_src g.buf.data_src h.buf.data_src) :
    OptRel ScanEq (lzss_scan g) (lzss_scan h) := by
  unfold lzss_scan
  rw [← h1, ← h2, ← h3, ← h4]
  have hw := update_optimal_rel g.BIT_OFFSET_NBR_ALLOWED 0 1 0
    (p := { g.parse with optimals := init_optimals g.parse.optimals })
    (q := { h.parse with optimals := init_optimals h.parse.optimals }) rfl
  revert hw
  cases update_optimal g.BIT_OFFSET_NBR_ALLOWED 0 1 0
      { g.parse with optimals := init_optimals g.parse.optimals } <;>
    cases update_optimal g.BIT_OFFSET_NBR_ALLOWED 0 1 0
      { h.parse with optimals := init_optimals h.parse.optimals } <;> intro hw
  · trivial
  · exact False.elim hw
  · exact False.elim hw
  · rename_i p0 q0
    simp only
    by_cases hn : 1 ≤ g.buf.index_src
    · rw [← scan_loop_src h5 g.BIT_OFFSET_NBR_ALLOWED g.bRLE g.bFAST _ 1 _ (by omega)]
      exact scan_loop_rel _ _ _ _ _ _ _ _ ⟨hw, rfl, rfl⟩
    · have e : (g.buf.index_src - 1).toNat = 0 := by omega
      rw [e]
      exact ⟨hw, rfl, rfl⟩


/-! ### Determinism of the encoder -/

theorem write_raw_loop_leave (index : Int) :
    ∀ (k : Nat) (j : Int) (b : Buffers) (v : Int) (b1 : Buffers),
      write_raw_loop index k j b = some (Flow.leave v b1) → v = -1 := by
  intro k
  induction k with
  | zero => intro j b v b1 h; simp [write_raw_loop] at h
  | succ k ih =>
    intro j b v b1 h
    unfold write_raw_loop at h
    by_cases hm : index + j ≥ MAX
    · simp only [if_pos hm, Option.some.injEq, Flow.leave.injEq] at h
      exact h.1.symm
    · simp only [if_neg hm] at h
      cases hb : write_byte (b.data_src (index + j)) b with
      | none => rw [hb] at h; simp at h
      | some b2 => rw [hb] at h; exact ih _ _ _ _ h

theorem write_lz_step_leave {subset : Int} {p : Parse} {i : Int} {b : Buffers} {v : Int}
    {b1 : Buffers} (h : write_lz_step subset p i b = some (Flow.leave v b1)) : v = -1 := by
  simp only [write_lz_step] at h
  have viaOps : ∀ {x : Option Buffers}, Option.map Flow.cont x = some (Flow.leave v b1) →
      v = -1 := by
    intro x h1
    obtain ⟨b2, _, hrr⟩ := flow_map_cont h1
    simp at hrr
  by_cases hi : i < 0 ∨ i ≥ MAX
  · simp only [if_pos hi, Option.some.injEq, Flow.leave.injEq] at h
    exact h.1.symm
  · simp only [if_neg hi] at h
    by_cases hl : (p.optimals i).len subset > 0
    · simp only [if_pos hl] at h
      by_cases hx : i - (p.optimals i).len subset + 1 < 0 ∨ i - (p.optimals i).len subset + 1 ≥ MAX
      · simp only [if_pos hx, Option.some.injEq, Flow.leave.injEq] at h
        exact h.1.symm
      · simp only [if_neg hx] at h
        by_cases ho : (p.optimals i).offset subset = 0
        · simp only [if_pos ho] at h
          by_cases h1l : (p.optimals i).len subset = 1
          · simp only [if_pos h1l] at h
            exact viaOps h
          · simp only [if_neg h1l] at h
            cases hb2 : write_literals_length ((p.optimals i).len subset) b with
            | none => rw [hb2] at h; simp at h
            | some b2 =>
              rw [hb2] at h
              exact write_raw_loop_leave _ _ _ _ _ _ h
        · simp only [if_neg ho] at h
          exact viaOps h
    · simp only [if_neg hl] at h
      simp at h

theorem write_lz_loop_leave (subset : Int) (p : Parse) :
    ∀ (k : Nat) (i : Int) (b : Buffers) (v : Int) (b1 : Buffers),
      write_lz_loop subset p k i b = some (Flow.leave v b1) → v = -1 := by
  intro k
  induction k with
  | zero => intro i b v b1 h; simp [write_lz_loop] at h
  | succ k ih =>
    intro i b v b1 h
    unfold write_lz_loop at h
    cases hs : write_lz_step subset p i b with
    | none => rw [hs] at h; simp at h
    | some r =>
      rw [hs] at h
      cases r with
      | cont b2 => exact ih _ _ _ _ h
      | stop b2 => simp at h
      | leave w b2 =>
        simp only [Option.some.injEq, Flow.leave.injEq] at h
        rw [← h.1]
        exact write_lz_step_leave hs

theorem write_lz_rel (subset : Int) (p : Parse) {b c : Buffers}
    (h1 : b.index_src = c.index_src) (h2 : SrcEq b.index_src b.data_src c.data_src)
    (h3 : 0 < b.index_src) :
    OptRel (fun x y => x.1 = y.1 ∧ BufRel x.2 y.2 ∧ (x.1 < 0 ∨ x.1 = x.2.index_dest))
      (write_lz subset p b) (write_lz subset p c) := by
  unfold write_lz
  simp only
  have h0 : BufRel { b with index_dest := 0, bit_mask := 0, bit_index := 0 }
      { c with index_dest := 0, bit_mask := 0, bit_index := 0 } := by
    refine ⟨⟨rfl, rfl, fun hm => absurd rfl hm, ?_⟩, h1, h2⟩
    intro x hx0 hx1
    exact absurd hx1 (by show ¬ x < 0; omega)
  have e0 : b.data_src 0 = c.data_src 0 := h2 0 (by omega) h3
  rw [← e0, write_bits_eq, write_bits_eq]
  have hw : OptRel BufRel
      ((runOps (bits_ops 254 (subset + 1).toNat)
        { b with index_dest := 0, bit_mask := 0, bit_index := 0 }).bind
        (write_byte (b.data_src 0)))
      ((runOps (bits_ops 254 (subset + 1).toNat)
        { c with index_dest := 0, bit_mask := 0, bit_index := 0 }).bind
        (write_byte (b.data_src 0))) :=
    OptRel.bind (runOps_bufRel _ h0) (fun _ _ hr => write_byte_bufRel _ hr)
  revert hw
  cases hb : ((runOps (bits_ops 254 (subset + 1).toNat)
        { b with index_dest := 0, bit_mask := 0, bit_index := 0 }).bind
        (write_byte (b.data_src 0))) <;>
    cases ((runOps (bits_ops 254 (subset + 1).toNat)
        { c with index_dest := 0, bit_mask := 0, bit_index := 0 }).bind
        (write_byte (b.data_src 0))) <;> intro hw
  · trivial
  · exact False.elim hw
  · exact False.elim hw
  rename_i b1 c1
  simp only
  have hb1 : b1.index_src = b.index_src := by
    cases hx : runOps (bits_ops 254 (subset + 1).toNat)
        { b with index_dest := 0, bit_mask := 0, bit_index := 0 } with
    | none => rw [hx] at hb; simp at hb
    | some bx =>
      rw [hx] at hb
      simp only [Option.some_bind] at hb
      rw [(write_byte_src hb).2, (runOps_src hx).2]
  rw [← hw.2.1]
  have hl := write_lz_loop_rel subset p (b1.index_src - 1).toNat 1 b1 c1 hw (by omega)
    (by rw [hb1]; omega)
  revert hl
  cases hloop : write_lz_loop subset p (b1.index_src - 1).toNat 1 b1 <;>
    cases write_lz_loop subset p (b1.index_src - 1).toNat 1 c1 <;> intro hl
  · trivial
  · exact False.elim hl
  · exact False.elim hl
  rename_i r1 r2
  have fin : ∀ b2 c2, BufRel b2 c2 →
      OptRel (fun x y => x.1 = y.1 ∧ BufRel x.2 y.2 ∧ (x.1 < 0 ∨ x.1 = x.2.index_dest))
        ((write_end b2).map (fun b3 => (b3.index_dest, b3)))
        ((write_end c2).map (fun b3 => (b3.index_dest, b3))) := by
    intro b2 c2 hr
    rw [write_end_eq, write_end_eq]
    exact OptRel.map (runOps_bufRel _ hr) (fun x y hxy => ⟨hxy.1.1, hxy, Or.inr rfl⟩)
  cases r1 with
  | cont b2 =>
    cases r2 with
    | cont c2 => exact fin b2 c2 hl
    | stop c2 => exact False.elim hl
    | leave w c2 => exact False.elim hl
  | stop b2 =>
    cases r2 with
    | cont c2 => exact False.elim hl
    | stop c2 => exact fin b2 c2 hl
    | leave w c2 => exact False.elim hl
  | leave v b2 =>
    cases r2 with
    | cont c2 => exact False.elim hl
    | stop c2 => exact False.elim hl
    | leave w c2 =>
      exact ⟨hl.1, hl.2, Or.inl (by
        have := write_lz_loop_leave subset p _ _ _ _ _ hloop
        show v < 0
        omega)⟩


theorem lzss_slow_rel {g h : Globals}
    (h1 : g.BIT_OFFSET_NBR_ALLOWED = h.BIT_OFFSET_NBR_ALLOWED) (h2 : g.bRLE = h.bRLE)
    (h3 : g.bFAST = h.bFAST) (h4 : g.buf.index_src = h.buf.index_src)
    (h5 : SrcEq g.buf.index_src g.buf.data_src h.buf.data_src) :
    OptRel (fun x y => x.1 = y.1 ∧ (x.1 ≤ 0 ∨
        (x.1 = x.2.buf.index_dest ∧ WRel x.2.buf y.2.buf)))
      (lzss_slow g) (lzss_slow h) := by
  unfold lzss_slow
  rw [← h1, ← h4]
  by_cases hn : g.buf.index_src > 0
  · simp only [if_pos hn]
    have hw := lzss_scan_rel h1 h2 h3 h4 h5
    revert hw
    cases lzss_scan g <;> cases lzss_scan h <;> intro hw
    · trivial
    · exact False.elim hw
    · exact False.elim hw
    rename_i s t
    simp only
    have es : select_best g.BIT_OFFSET_NBR_ALLOWED g.buf.index_src t.parse
        = select_best g.BIT_OFFSET_NBR_ALLOWED g.buf.index_src s.parse := by
      unfold select_best
      rw [show t.parse.optimals = s.parse.optimals from hw.1.symm]
    have et : ∀ j, trim j g.buf.index_src t.parse = trim j g.buf.index_src s.parse := by
      intro j
      unfold trim set_BIT_OFFSET3
      rw [show t.parse.optimals = s.parse.optimals from hw.1.symm]
    rw [es, et]
    by_cases hinf : (select_best g.BIT_OFFSET_NBR_ALLOWED g.buf.index_src s.parse).1 = INF
    · simp only [if_pos hinf]
      exact ⟨rfl, Or.inl (by show (-1 : Int) ≤ 0; omega)⟩
    · simp only [if_neg hinf]
      have hl := write_lz_rel (select_best g.BIT_OFFSET_NBR_ALLOWED g.buf.index_src s.parse).2
        (trim (select_best g.BIT_OFFSET_NBR_ALLOWED g.buf.index_src s.parse).2
          g.buf.index_src s.parse) h4 h5 hn
      revert hl
      cases write_lz (select_best g.BIT_OFFSET_NBR_ALLOWED g.buf.index_src s.parse).2
        (trim (select_best g.BIT_OFFSET_NBR_ALLOWED g.buf.index_src s.parse).2
          g.buf.index_src s.parse) g.buf <;>
      cases write_lz (select_best g.BIT_OFFSET_NBR_ALLOWED g.buf.index_src s.parse).2
        (trim (select_best g.BIT_OFFSET_NBR_ALLOWED g.buf.index_src s.parse).2
          g.buf.index_src s.parse) h.buf <;> intro hl
      · trivial
      · exact False.elim hl
      · exact False.elim hl
      · rename_i x y
        obtain ⟨r, b⟩ := x
        obtain ⟨r2, c⟩ := y
        obtain ⟨e1, e2, e3⟩ := hl
        simp only at e1 e2 e3
        refine ⟨e1, ?_⟩
        rcases e3 with e3 | e3
        · exact Or.inl (by show r ≤ 0; omega)
        · exact Or.inr ⟨e3, e2.1⟩
  · simp only [if_neg hn]
    exact ⟨rfl, Or.inl (by show (0 : Int) ≤ 0; omega)⟩

theorem bytesOf_nonpos (a : Int → Nat) {n : Int} (h : n ≤ 0) : bytesOf a n = [] := by
  have : n.toNat = 0 := by omega
  simp [bytesOf, this]

/-- The result of `encode` does not depend on the globals it starts from, nor on
the previous contents of the output buffer. -/
theorem encode_indep (src : List Nat) (max_bits rle_enabled fast_mode : Int)
    (out1 out2 : Int → Nat) (g1 g2 : Globals) :
    encode src max_bits rle_enabled fast_mode out1 g1 =
      encode src max_bits rle_enabled fast_mode out2 g2 := by
  unfold encode dan3_encode
  by_cases hlen : (src.length : Int) > MAX
  · simp only [if_pos hlen, bytesOf_nonpos _ (show (-1 : Int) ≤ 0 by omega)]
  · simp only [if_neg hlen]
    have hw := lzss_slow_rel
      (g := { set_dan3_options max_bits rle_enabled fast_mode g1 with
        buf := load_src src (set_dan3_options max_bits rle_enabled fast_mode g1).buf })
      (h := { set_dan3_options max_bits rle_enabled fast_mode g2 with
        buf := load_src src (set_dan3_options max_bits rle_enabled fast_mode g2).buf })
      rfl rfl rfl rfl (by
        intro x hx0 hx1
        simp only [load_src, memcpy] at hx1 ⊢
        simp only [hx0, hx1, and_self, if_true])
    revert hw
    cases lzss_slow { set_dan3_options max_bits rle_enabled fast_mode g1 with
        buf := load_src src (set_dan3_options max_bits rle_enabled fast_mode g1).buf } <;>
      cases lzss_slow { set_dan3_options max_bits rle_enabled fast_mode g2 with
        buf := load_src src (set_dan3_options max_bits rle_enabled fast_mode g2).buf } <;>
      intro hw
    · rfl
    · exact False.elim hw
    · exact False.elim hw
    · rename_i x y
      obtain ⟨r, ga⟩ := x
      obtain ⟨r2, gb⟩ := y
      obtain ⟨e1, e2⟩ := hw
      simp only at e1 e2
      subst e1
      simp only
      by_cases hr : r ≥ 0
      · simp only [if_pos hr]
        by_cases hr2 : r > MAX
        · simp only [if_pos hr2, bytesOf_nonpos _ (show (-1 : Int) ≤ 0 by omega)]
        · simp only [if_neg hr2, bytesOf_memcpy]
          rcases e2 with e2 | e2
          · have : r = 0 := by omega
            subst this
            simp only [bytesOf_nonpos _ (le_refl (0 : Int))]
          · congr 1
            apply bytesOf_congr
            intro x hx0 hx1
            exact e2.2.2.2.2 x hx0 (by rw [← e2.1]; exact hx1)
      · simp only [if_neg hr]
        rw [bytesOf_nonpos _ (by omega), bytesOf_nonpos _ (by omega)]

/-! ### What one call of `update_optimal` does to the table -/

theorem SameCell.rfl_ (p : Parse) (j r : Int) : SameCell p p j r := ⟨rfl, rfl, rfl⟩

theorem SameCell.trans_ {p q s : Parse} {j r : Int} (h1 : SameCell p q j r)
    (h2 : SameCell q s j r) : SameCell p s j r :=
  ⟨h2.1.trans h1.1, h2.2.1.trans h1.2.1, h2.2.2.trans h1.2.2⟩

theorem store_same (b m : Int) (o : Int → t_optimal) (index r cost offset len : Int)
    (b2 m2 : Int) (j r2 : Int) (h : j ≠ index ∨ r2 ≠ r) :
    SameCell ⟨b, m, o⟩ (store ⟨b2, m2, o⟩ index r cost offset len) j r2 := by
  by_cases hj : j = index
  · have hr : r2 ≠ r := by
      rcases h with h | h
      · exact absurd hj h
      · exact h
    simp [SameCell, store, setAt, hj, hr]
  · simp [SameCell, store, setAt, hj]

theorem store_at (b m : Int) (o : Int → t_optimal) (index r cost offset len : Int) :
    ((store ⟨b, m, o⟩ index r cost offset len).optimals index).bits r = cost ∧
    ((store ⟨b, m, o⟩ index r cost offset len).optimals index).offset r = offset ∧
    ((store ⟨b, m, o⟩ index r cost offset len).optimals index).len r = len := by
  simp only [store, setAt, if_true, and_self]

theorem tokenCost_lit (r : Int) : tokenCost r 1 0 = 9 := by
  simp [tokenCost]

theorem tokenCost_rle (r len : Int) (h : len ≠ 1) :
    tokenCost r len 0 = 1 + BIT_GOLOMG_MAX + 1 + 8 + len * 8 := by
  simp [tokenCost, h]

theorem tokenCost_match (r len offset : Int) (h : offset ≠ 0) :
    tokenCost r len offset = count_bits (BIT_OFFSET_MIN + r) offset len := by
  simp [tokenCost, h]

theorem update_optimal_step_spec (index len offset r : Int) (p : Parse)
    (h0 : 0 < index) (h1 : index < MAX) (hl1 : 1 ≤ len) (hl2 : len ≤ index) :
    ∃ q, update_optimal_step index len offset r p = some q ∧
      (∀ j r2, (j ≠ index ∨ r2 ≠ r) → SameCell p q j r2) ∧
      (SameCell p q index r ∨ Stored p q index r len offset) ∧
      (offset = 0 → len = 1 → (p.optimals (index - 1)).bits r ≠ INF →
        (q.optimals index).bits r ≤ (p.optimals (index - 1)).bits r + 9) := by
  obtain ⟨pb, pm, po⟩ := p
  have hM : MAX = 1048576 := by decide
  have keep : ∀ b m, (∀ j r2, (j ≠ index ∨ r2 ≠ r) → SameCell ⟨pb, pm, po⟩ ⟨b, m, po⟩ j r2) ∧
      (SameCell ⟨pb, pm, po⟩ ⟨b, m, po⟩ index r ∨
        Stored ⟨pb, pm, po⟩ ⟨b, m, po⟩ index r len offset) :=
    fun b m => ⟨fun j r2 _ => ⟨rfl, rfl, rfl⟩, Or.inl ⟨rfl, rfl, rfl⟩⟩
  unfold update_optimal_step
  have c0 : ¬ (index < 0 ∨ index ≥ MAX) := by omega
  simp only [if_neg c0]
  by_cases c1 : offset = 0
  · simp only [if_pos c1]
    have c2 : index > 0 := h0
    simp only [if_pos c2]
    have c3 : ¬ (index - 1 < 0 ∨ index - 1 ≥ MAX) := by omega
    simp only [if_neg c3]
    by_cases c4 : (po (index - 1)).bits r = INF
    · simp only [if_pos c4]
      exact ⟨_, rfl, (keep pb pm).1, (keep pb pm).2, fun _ _ h => absurd c4 h⟩
    simp only [if_neg c4]
    by_cases c5 : len = 1
    · simp only [if_pos c5]
      by_cases c6 : (po index).bits r > (po (index - 1)).bits r + 1 + 8
      · simp only [if_pos c6]
        refine ⟨_, rfl, fun j r2 h => store_same _ _ _ _ _ _ _ _ _ _ j r2 h, Or.inr ?_, ?_⟩
        · obtain ⟨e1, e2, e3⟩ := store_at pb pm po index r ((po (index - 1)).bits r + 1 + 8) 0 1
          refine ⟨by rw [e3, c5], by rw [e2, c1], ?_, ?_, ?_⟩
          · rw [e1, c5, c1, tokenCost_lit]; ring
          · rw [c5]; exact c4
          · rw [e1]; exact c6
        · intro _ _ _
          rw [(store_at pb pm po index r ((po (index - 1)).bits r + 1 + 8) 0 1).1]
          show (po (index - 1)).bits r + 1 + 8 ≤ (po (index - 1)).bits r + 9
          omega
      · simp only [if_neg c6]
        refine ⟨_, rfl, (keep pb pm).1, (keep pb pm).2, ?_⟩
        intro _ _ _
        show (po index).bits r ≤ (po (index - 1)).bits r + 9
        omega
    simp only [if_neg c5]
    have c7 : ¬ (index - len < 0 ∨ index - len ≥ MAX) := by omega
    simp only [if_neg c7]
    by_cases c8 : (po (index - len)).bits r = INF
    · simp only [if_pos c8]
      exact ⟨_, rfl, (keep pb pm).1, (keep pb pm).2, fun _ h => absurd h c5⟩
    simp only [if_neg c8]
    by_cases c9 : (po index).bits r >
        (po (index - len)).bits r + 1 + BIT_GOLOMG_MAX + 1 + 8 + len * 8
    · simp only [if_pos c9]
      refine ⟨_, rfl, fun j r2 h => store_same _ _ _ _ _ _ _ _ _ _ j r2 h, Or.inr ?_,
        fun _ h => absurd h c5⟩
      obtain ⟨e1, e2, e3⟩ := store_at pb pm po index r
        ((po (index - len)).bits r + 1 + BIT_GOLOMG_MAX + 1 + 8 + len * 8) 0 len
      refine ⟨e3, by rw [e2, c1], ?_, c8, ?_⟩
      · rw [e1, c1, tokenCost_rle r len c5]; ring
      · rw [e1]; exact c9
    · simp only [if_neg c9]
      exact ⟨_, rfl, (keep pb pm).1, (keep pb pm).2, fun _ h => absurd h c5⟩
  simp only [if_neg c1]
  by_cases d1 : offset > index
  · simp only [if_pos d1]
    exact ⟨_, rfl, (keep pb pm).1, (keep pb pm).2, fun h => absurd h c1⟩
  simp only [if_neg d1]
  have d2 : ¬ (index - len < 0 ∨ index - len ≥ MAX) := by omega
  simp only [if_neg d2]
  by_cases d3 : (po (index - len)).bits r = INF
  · simp only [if_pos d3]
    exact ⟨_, rfl, (keep pb pm).1, (keep pb pm).2, fun h => absurd h c1⟩
  simp only [if_neg d3]
  by_cases h32 : offset > MAX_OFFSET1
  · simp only [h32, if_true, true_and, set_BIT_OFFSET3]
    by_cases d4 : offset > 2 ^ (BIT_OFFSET_MIN + r).toNat + MAX_OFFSET2
    · simp only [if_pos d4]
      exact ⟨_, rfl, (keep _ _).1, (keep _ _).2, fun h => absurd h c1⟩
    simp only [if_neg d4]
    by_cases d5 : (po index).bits r >
        (po (index - len)).bits r + count_bits (BIT_OFFSET_MIN + r) offset len
    · simp only [if_pos d5]
      refine ⟨_, rfl, fun j r2 h => store_same _ _ _ _ _ _ _ _ _ _ j r2 h, Or.inr ?_,
        fun h => absurd h c1⟩
      obtain ⟨e1, e2, e3⟩ := store_at (BIT_OFFSET_MIN + r)
        (2 ^ (BIT_OFFSET_MIN + r).toNat + MAX_OFFSET2) po index r
        ((po (index - len)).bits r + count_bits (BIT_OFFSET_MIN + r) offset len) offset len
      refine ⟨e3, e2, ?_, d3, ?_⟩
      · rw [e1, tokenCost_match r len offset c1]
      · rw [e1]; exact d5
    · simp only [if_neg d5]
      exact ⟨_, rfl, (keep _ _).1, (keep _ _).2, fun h => absurd h c1⟩
  · have hc : count_bits pb offset len = count_bits (BIT_OFFSET_MIN + r) offset len :=
      count_bits_small _ _ _ _ (by simp only [MAX_OFFSET1, MAX_OFFSET2] at *; omega)
    simp only [h32, if_false, false_and]
    rw [hc]
    by_cases d5 : (po index).bits r >
        (po (index - len)).bits r + count_bits (BIT_OFFSET_MIN + r) offset len
    · simp only [if_pos d5]
      refine ⟨_, rfl, fun j r2 h => store_same _ _ _ _ _ _ _ _ _ _ j r2 h, Or.inr ?_,
        fun h => absurd h c1⟩
      obtain ⟨e1, e2, e3⟩ := store_at pb pm po index r
        ((po (index - len)).bits r + count_bits (BIT_OFFSET_MIN + r) offset len) offset len
      refine ⟨e3, e2, ?_, d3, ?_⟩
      · rw [e1, tokenCost_match r len offset c1]
      · rw [e1]; exact d5
    · simp only [if_neg d5]
      exact ⟨_, rfl, (keep pb pm).1, (keep pb pm).2, fun h => absurd h c1⟩

/-! ### The invariant of the scan is kept by every call of `update_optimal` -/

theorem INF_eq : INF = 2147483647 := by decide
theorem MAX_eq : MAX = 1048576 := by decide

theorem CellOK.transport {p q : Parse} {r j : Int} (h : CellOK p r j)
    (h1 : SameCell p q j r) (h2 : SameCell p q (j - (p.optimals j).len r) r) : CellOK q r j := by
  obtain ⟨a1, a2, a3, a4, a5, a6⟩ := h
  obtain ⟨e1, e2, e3⟩ := h1
  unfold CellOK
  rw [e1, e2, e3, h2.1]
  exact ⟨a1, a2, a3, a4, a5, a6⟩

theorem ScanInv.congr {p q : Parse} {i r : Int} (hs : ∀ j, SameCell p q j r)
    (h : ScanInv p i r) : ScanInv q i r := by
  obtain ⟨⟨a1, a2, a3⟩, b, c⟩ := h
  refine ⟨⟨by rw [(hs 0).1, a1], by rw [(hs 0).2.1, a2], by rw [(hs 0).2.2, a3]⟩, ?_, ?_⟩
  · intro j hj1 hj2
    exact (b j hj1 hj2).transport (hs j) (hs _)
  · intro j hj
    rw [(hs j).1]
    exact c j hj

theorem ScanInv.bits_ne_INF {p : Parse} {i r j : Int} (h : ScanInv p i r) (hj0 : 0 ≤ j)
    (hj : j < i) (hi : i ≤ MAX) : (p.optimals j).bits r ≠ INF := by
  rw [INF_eq]
  rw [MAX_eq] at hi
  by_cases h0 : j = 0
  · rw [h0, h.1.1]; omega
  · have := (h.2.1 j (by omega) hj).2.2.2.2.2
    omega

theorem step_lit_inv (i r : Int) (p : Parse) (h : ScanInv p i r) (hi1 : 1 ≤ i) (hi2 : i < MAX) :
    ∃ q, update_optimal_step i 1 0 r p = some q ∧ ScanInv q (i + 1) r ∧
      ∀ j r2, r2 ≠ r → SameCell p q j r2 := by
  obtain ⟨q, hq, hframe, hcell, hlit⟩ := update_optimal_step_spec i 1 0 r p (by omega) hi2
    (by omega) hi1
  refine ⟨q, hq, ?_, fun j r2 hr => hframe j r2 (Or.inr hr)⟩
  have hprev : (p.optimals (i - 1)).bits r ≠ INF :=
    h.bits_ne_INF (by omega) (by omega) (by omega)
  have hcur : (p.optimals i).bits r = INF := h.2.2 i (le_refl i)
  have hbound := hlit rfl rfl hprev
  have hst : Stored p q i r 1 0 := by
    rcases hcell with hc | hc
    · exfalso
      rw [hc.1, hcur] at hbound
      have hp : (p.optimals (i - 1)).bits r ≤ 8 + 9 * (i - 1) := by
        by_cases h0 : i - 1 = 0
        · rw [h0, h.1.1]; omega
        · exact (h.2.1 (i - 1) (by omega) (by omega)).2.2.2.2.2
      rw [INF_eq] at hbound
      rw [MAX_eq] at hi2
      omega
    · exact hc
  have hpb : (p.optimals (i - 1)).bits r ≤ 8 + 9 * (i - 1) := by
    by_cases h0 : i - 1 = 0
    · rw [h0, h.1.1]; omega
    · exact (h.2.1 (i - 1) (by omega) (by omega)).2.2.2.2.2
  obtain ⟨⟨a1, a2, a3⟩, b, c⟩ := h
  have s0 := hframe 0 r (Or.inl (by omega))
  refine ⟨⟨by rw [s0.1, a1], by rw [s0.2.1, a2], by rw [s0.2.2, a3]⟩, ?_, ?_⟩
  · intro j hj1 hj2
    by_cases hji : j = i
    · subst hji
      obtain ⟨t1, t2, t3, t4, t5⟩ := hst
      have sp := hframe (j - 1) r (Or.inl (by omega))
      unfold CellOK
      rw [t1, t2, t3, sp.1]
      refine ⟨le_refl 1, hi1, le_refl 0, fun h0 => absurd h0 (by omega), rfl, ?_⟩
      rw [tokenCost_lit]
      omega
    · have hb := b j hj1 (by omega)
      exact hb.transport (hframe j r (Or.inl hji))
        (hframe _ r (Or.inl (by have := hb.1; omega)))
  · intro j hj
    rw [(hframe j r (Or.inl (by omega))).1]
    exact c j (by omega)

theorem step_gen_inv (i len offset r : Int) (p : Parse) (h : ScanInv p (i + 1) r)
    (hi1 : 1 ≤ i) (hi2 : i < MAX) (hl1 : 1 ≤ len) (hl2 : len ≤ i) (ho : 0 ≤ offset)
    (hg : offset > 0 → len ≤ MAX_GAMMA) :
    ∃ q, update_optimal_step i len offset r p = some q ∧ ScanInv q (i + 1) r ∧
      ∀ j r2, r2 ≠ r → SameCell p q j r2 := by
  obtain ⟨q, hq, hframe, hcell, _⟩ := update_optimal_step_spec i len offset r p (by omega) hi2
    hl1 hl2
  refine ⟨q, hq, ?_, fun j r2 hr => hframe j r2 (Or.inr hr)⟩
  rcases hcell with hc | hst
  · apply h.congr
    intro j
    by_cases hji : j = i
    · rw [hji]; exact hc
    · exact hframe j r (Or.inl hji)
  · obtain ⟨⟨a1, a2, a3⟩, b, c⟩ := h
    have s0 := hframe 0 r (Or.inl (by omega))
    refine ⟨⟨by rw [s0.1, a1], by rw [s0.2.1, a2], by rw [s0.2.2, a3]⟩, ?_, ?_⟩
    · intro j hj1 hj2
      by_cases hji : j = i
      · subst hji
        obtain ⟨t1, t2, t3, t4, t5⟩ := hst
        have sp := hframe (j - len) r (Or.inl (by omega))
        have old := (b j hj1 hj2).2.2.2.2.2
        unfold CellOK
        rw [t1, t2, sp.1]
        exact ⟨hl1, hl2, ho, hg, t3, by omega⟩
      · have hb := b j hj1 (by omega)
        exact hb.transport (hframe j r (Or.inl hji))
          (hframe _ r (Or.inl (by have := hb.1; omega)))
    · intro j hj
      rw [(hframe j r (Or.inl (by omega))).1]
      exact c j (by omega)

theorem update_optimal_loop_spec (index len offset : Int) (A B : Int → Parse → Prop)
    (hA : ∀ r p q, (∀ j, SameCell p q j r) → A r p → A r q)
    (hB : ∀ r p q, (∀ j, SameCell p q j r) → B r p → B r q)
    (hstep : ∀ r p, 0 ≤ r → A r p →
      ∃ q, update_optimal_step index len offset r p = some q ∧ B r q ∧
        ∀ j r2, r2 ≠ r → SameCell p q j r2) :
    ∀ (k : Nat) (p : Parse), (∀ r, 0 ≤ r → r < (k : Int) → A r p) →
      ∃ q, update_optimal_loop index len offset k p = some q ∧
        (∀ r, 0 ≤ r → r < (k : Int) → B r q) ∧
        (∀ j r, ((k : Int) ≤ r ∨ r < 0) → SameCell p q j r) := by
  intro k
  induction k with
  | zero =>
    intro p _
    exact ⟨p, rfl, fun r h0 h1 => absurd h1 (by push_cast; omega), fun j r _ => ⟨rfl, rfl, rfl⟩⟩
  | succ k ih =>
    intro p hp
    obtain ⟨q1, hq1, hb1, hf1⟩ := hstep (k : Int) p (by omega) (hp k (by omega) (by push_cast; omega))
    have hp1 : ∀ r, 0 ≤ r → r < (k : Int) → A r q1 := by
      intro r h0 h1
      exact hA r p q1 (fun j => hf1 j r (by omega)) (hp r h0 (by push_cast; omega))
    obtain ⟨q, hq, hb, hf⟩ := ih q1 hp1
    refine ⟨q, ?_, ?_, ?_⟩
    · unfold update_optimal_loop
      rw [hq1]
      exact hq
    · intro r h0 h1
      by_cases hr : r < (k : Int)
      · exact hb r h0 hr
      · have e : r = (k : Int) := by push_cast at h1; omega
        rw [e]
        exact hB _ q1 q (fun j => hf j _ (Or.inl (le_refl _))) hb1
    · intro j r hr
      have s1 : SameCell p q1 j r := hf1 j r (by push_cast at hr; omega)
      have s2 : SameCell q1 q j r := hf j r (by push_cast at hr; omega)
      exact s1.trans_ s2

theorem update_optimal_lit_inv (nbr i : Int) (p : Parse) (h : ScanInvAll nbr p i)
    (hi1 : 1 ≤ i) (hi2 : i < MAX) :
    ∃ q, update_optimal nbr i 1 0 p = some q ∧ ScanInvAll nbr q (i + 1) := by
  obtain ⟨q, hq, hb, _⟩ := update_optimal_loop_spec i 1 0
    (fun r p => ScanInv p i r) (fun r p => ScanInv p (i + 1) r)
    (fun r p q hs => ScanInv.congr hs) (fun r p q hs => ScanInv.congr hs)
    (fun r p _ hA => step_lit_inv i r p hA hi1 hi2) nbr.toNat p
    (fun r h0 h1 => h r h0 (by omega))
  exact ⟨q, hq, fun r h0 h1 => hb r h0 (by omega)⟩

theorem update_optimal_gen_inv (nbr i len offset : Int) (p : Parse)
    (h : ScanInvAll nbr p (i + 1))
    (hi1 : 1 ≤ i) (hi2 : i < MAX) (hl1 : 1 ≤ len) (hl2 : len ≤ i) (ho : 0 ≤ offset)
    (hg : offset > 0 → len ≤ MAX_GAMMA) :
    ∃ q, update_optimal nbr i len offset p = some q ∧ ScanInvAll nbr q (i + 1) := by
  obtain ⟨q, hq, hb, _⟩ := update_optimal_loop_spec i len offset
    (fun r p => ScanInv p (i + 1) r) (fun r p => ScanInv p (i + 1) r)
    (fun r p q hs => ScanInv.congr hs) (fun r p q hs => ScanInv.congr hs)
    (fun r p _ hA => step_gen_inv i len offset r p hA hi1 hi2 hl1 hl2 ho hg) nbr.toNat p
    (fun r h0 h1 => h r h0 (by omega))
  exact ⟨q, hq, fun r h0 h1 => hb r h0 (by omega)⟩

/-! ### The scan keeps the invariant and never reaches `abort()` -/

theorem rle_loop_inv (nbr i : Int) (hi1 : 1 ≤ i) (hi2 : i < MAX) :
    ∀ (c : Nat) (k : Int) (p : Parse), ScanInvAll nbr p (i + 1) → k ≤ i → (c : Int) < k →
      ∃ q, rle_loop nbr i c k p = some q ∧ ScanInvAll nbr q (i + 1) := by
  intro c
  induction c with
  | zero => intro k p h _ _; exact ⟨p, rfl, h⟩
  | succ c ih =>
    intro k p h hk hc
    obtain ⟨q1, hq1, hi⟩ := update_optimal_gen_inv nbr i k 0 p h hi1 hi2
      (by push_cast at hc; omega) hk (le_refl 0) (fun h0 => absurd h0 (by omega))
    obtain ⟨q, hq, hinv⟩ := ih (k - 1) q1 hi (by omega) (by push_cast at hc; omega)
    refine ⟨q, ?_, hinv⟩
    unfold rle_loop
    rw [hq1]
    exact hq

theorem len1_loop_inv (data_src : Int → Nat) (nbr i : Int) (hi1 : 1 ≤ i) (hi2 : i < MAX) :
    ∀ (c : Nat) (k : Int) (p : Parse), ScanInvAll nbr p (i + 1) → 1 ≤ k → k + c ≤ i + 1 →
      ∃ q, len1_loop data_src nbr i c k p = some q ∧ ScanInvAll nbr q (i + 1) := by
  intro c
  induction c with
  | zero => intro k p h _ _; exact ⟨p, rfl, h⟩
  | succ c ih =>
    intro k p h hk hc
    unfold len1_loop
    have g1 : ¬ (i < 0 ∨ i ≥ MAX ∨ i - k < 0 ∨ i - k ≥ MAX) := by
      push_cast at hc
      omega
    simp only [if_neg g1]
    by_cases hd : data_src i = data_src (i - k)
    · simp only [if_pos hd]
      obtain ⟨q1, hq1, hi⟩ := update_optimal_gen_inv nbr i 1 k p h hi1 hi2 (le_refl 1) hi1
        (by omega) (fun _ => by decide)
      rw [hq1]
      exact ih (k + 1) q1 hi (by omega) (by push_cast at hc; omega)
    · simp only [if_neg hd]
      exact ih (k + 1) p h (by omega) (by push_cast at hc; omega)

theorem match_len_loop_inv (data_src : Int → Nat) (nbr i offset : Int) (hi1 : 1 ≤ i)
    (hi2 : i < MAX) (ho : 0 < offset) :
    ∀ (f : Nat) (len best : Int) (p : Parse), ScanInvAll nbr p (i + 1) → 1 ≤ len →
      ∃ r, match_len_loop data_src nbr i offset f len best p = some r ∧
        ScanInvAll nbr r.2 (i + 1) := by
  intro f
  induction f with
  | zero => intro len best p h _; exact ⟨(best, p), rfl, h⟩
  | succ f ih =>
    intro len best p h hl
    unfold match_len_loop
    by_cases h1 : len ≤ MAX_GAMMA
    · simp only [if_pos h1]
      by_cases h2 : i - len < 0 ∨ i - len - offset < 0 ∨ i - len ≥ MAX ∨ i - len - offset ≥ MAX
      · simp only [if_pos h2]; exact ⟨(best, p), rfl, h⟩
      · simp only [if_neg h2]
        obtain ⟨q1, hq1, hi⟩ := update_optimal_gen_inv nbr i len offset p h hi1 hi2 hl
          (by omega) (by omega) (fun _ => h1)
        rw [hq1]
        simp only
        by_cases h3 : i < offset + len ∨ data_src (i - len) ≠ data_src (i - len - offset)
        · simp only [if_pos h3]; exact ⟨(len, q1), rfl, hi⟩
        · simp only [if_neg h3]; exact ih (len + 1) len q1 hi (by omega)
    · simp only [if_neg h1]; exact ⟨(best, p), rfl, h⟩

theorem match_walk_inv (data_src : Int → Nat) (nbr bFAST i : Int) (hi1 : 1 ≤ i)
    (hi2 : i < MAX) :
    ∀ (chain : List Int) (best : Int) (p : Parse), ScanInvAll nbr p (i + 1) →
      ∃ r, match_walk data_src nbr bFAST i chain best p = some r ∧
        ScanInvAll nbr r.2 (i + 1) := by
  intro chain
  induction chain with
  | nil => intro best p h; exact ⟨([], p), rfl, h⟩
  | cons a rest ih =>
    intro best p h
    cases rest with
    | nil => exact ⟨([a], p), rfl, h⟩
    | cons b rest =>
      unfold match_walk
      simp only
      by_cases h1 : i - a > MAX_OFFSET
      · simp only [if_pos h1]; exact ⟨([a], p), rfl, h⟩
      · simp only [if_neg h1]
        by_cases h2 : i - a ≤ 0 ∨ i - (i - a) < 0
        · simp only [if_pos h2]
          obtain ⟨r, hr, hinv⟩ := ih best p h
          rw [hr]
          exact ⟨_, rfl, hinv⟩
        · simp only [if_neg h2]
          obtain ⟨r1, hr1, hinv1⟩ := match_len_loop_inv data_src nbr i (i - a) hi1 hi2
            (by omega) 253 2 best p h (by omega)
          rw [hr1]
          simp only
          by_cases h3 : bFAST ≠ 0 ∧ r1.1 > 255
          · simp only [if_pos h3]; exact ⟨_, rfl, hinv1⟩
          · simp only [if_neg h3]
            obtain ⟨r, hr, hinv⟩ := ih r1.1 r1.2 hinv1
            rw [hr]
            exact ⟨_, rfl, hinv⟩

theorem scan_step_inv (data_src : Int → Nat) (nbr bRLE bFAST i : Int) (s : ScanState)
    (hn : 0 < nbr) (hi1 : 1 ≤ i) (hi2 : i < MAX) (h : ScanInvAll nbr s.parse i) :
    ∃ t, scan_step data_src nbr bRLE bFAST i s = some t ∧ ScanInvAll nbr t.parse (i + 1) := by
  unfold scan_step
  obtain ⟨p1, hp1, hinv1⟩ := update_optimal_lit_inv nbr i s.parse h hi1 hi2
  rw [hp1]
  simp only
  have hR : ∃ p2, (if bRLE ≠ 0 ∧ i ≥ RAW_MIN then
        rle_loop nbr i ((if RAW_MAX > i then i else RAW_MAX) - RAW_MIN).toNat
          (if RAW_MAX > i then i else RAW_MAX) p1 else some p1) = some p2 ∧
      ScanInvAll nbr p2 (i + 1) := by
    by_cases hr : bRLE ≠ 0 ∧ i ≥ RAW_MIN
    · simp only [if_pos hr]
      have hRM : RAW_MAX = 256 := by decide
      have hRm : RAW_MIN = 1 := by decide
      apply rle_loop_inv nbr i hi1 hi2 _ _ p1 hinv1
      · split <;> omega
      · rw [hRm]; split <;> omega
    · simp only [if_neg hr]; exact ⟨p1, rfl, hinv1⟩
  obtain ⟨p2, hp2, hinv2⟩ := hR
  rw [hp2]
  simp only
  have hO : MAX_OFFSET0 = 3 := by decide
  obtain ⟨p3, hp3, hinv3⟩ := len1_loop_inv data_src nbr i hi1 hi2
    (if MAX_OFFSET0 > i then i else MAX_OFFSET0).toNat 1 p2 hinv2 (le_refl 1)
    (by rw [hO]; split <;> omega)
  rw [hp3]
  simp only
  have g1 : ¬ (i - 1 < 0 ∨ i ≥ MAX) := by omega
  simp only [if_neg g1]
  by_cases hf : s.prev_match_index = (((data_src (i - 1) <<< 8 ||| data_src i &&& 255 : Nat) : Int))
      ∧ bFAST = TRUE ∧ (p3.optimals (i - 1)).offset 0 = 1 ∧ (p3.optimals (i - 1)).len 0 > 2
  · simp only [if_pos hf]
    have hU : ∃ p4, (if (p3.optimals (i - 1)).len 0 < MAX_GAMMA ∧
          (i ≥ (p3.optimals (i - 1)).len 0 ∧ i - (p3.optimals (i - 1)).len 0 ≥ 0 ∧
            i - (p3.optimals (i - 1)).len 0 < MAX)
          then update_optimal nbr i ((p3.optimals (i - 1)).len 0 + 1) 1 p3 else some p3)
          = some p4 ∧ ScanInvAll nbr p4 (i + 1) := by
      by_cases hc : (p3.optimals (i - 1)).len 0 < MAX_GAMMA ∧
          (i ≥ (p3.optimals (i - 1)).len 0 ∧ i - (p3.optimals (i - 1)).len 0 ≥ 0 ∧
            i - (p3.optimals (i - 1)).len 0 < MAX)
      · simp only [if_pos hc]
        have hG : MAX_GAMMA = 254 := by decide
        have hcell : (p3.optimals (i - 1)).len 0 ≤ i - 1 := by
          by_cases h1 : i - 1 = 0
          · have := (hinv3 0 (le_refl 0) hn).1.2.1
            rw [h1] at hf
            rw [this] at hf
            exact absurd hf.2.2.1 (by decide)
          · exact ((hinv3 0 (le_refl 0) hn).2.1 (i - 1) (by omega) (by omega)).2.1
        exact update_optimal_gen_inv nbr i _ 1 p3 hinv3 hi1 hi2 (by omega) (by omega)
          (by omega) (fun _ => by omega)
      · simp only [if_neg hc]; exact ⟨p3, rfl, hinv3⟩
    obtain ⟨p4, hp4, hinv4⟩ := hU
    rw [hp4]
    exact ⟨_, rfl, hinv4⟩
  · simp only [if_neg hf]
    obtain ⟨r, hr, hinv⟩ := match_walk_inv data_src nbr bFAST i hi1 hi2
      (s.matches_ (((data_src (i - 1) <<< 8 ||| data_src i &&& 255 : Nat) : Int))) 1 p3 hinv3
    rw [hr]
    exact ⟨_, rfl, hinv⟩

theorem scan_loop_inv (data_src : Int → Nat) (nbr bRLE bFAST : Int) (hn : 0 < nbr) :
    ∀ (c : Nat) (i : Int) (s : ScanState), 1 ≤ i → i + c ≤ MAX → ScanInvAll nbr s.parse i →
      ∃ t, scan_loop data_src nbr bRLE bFAST c i s = some t ∧
        ScanInvAll nbr t.parse (i + c) := by
  intro c
  induction c with
  | zero =>
    intro i s _ _ h
    exact ⟨s, rfl, by simpa using h⟩
  | succ c ih =>
    intro i s hi1 hi2 h
    obtain ⟨s1, hs1, hinv1⟩ := scan_step_inv data_src nbr bRLE bFAST i s hn hi1
      (by push_cast at hi2; omega) h
    obtain ⟨t, ht, hinv⟩ := ih (i + 1) s1 (by omega) (by push_cast at hi2 ⊢; omega) hinv1
    refine ⟨t, ?_, ?_⟩
    · unfold scan_loop
      rw [hs1]
      exact ht
    · have e : i + ((c + 1 : Nat) : Int) = i + 1 + (c : Int) := by push_cast; ring
      rw [e]
      exact hinv

theorem update_optimal_step_zero (r : Int) (p : Parse) :
    update_optimal_step 0 1 0 r p = some (store p 0 r 8 0 1) := by
  unfold update_optimal_step
  have c0 : ¬ ((0 : Int) < 0 ∨ (0 : Int) ≥ MAX) := by rw [MAX_eq]; omega
  have c2 : ¬ ((0 : Int) > 0) := by omega
  simp only [if_neg c0, if_true, if_neg c2]

theorem update_optimal_first (nbr : Int) (p : Parse)
    (h : ∀ j r, 1 ≤ j → (p.optimals j).bits r = INF) :
    ∃ q, update_optimal nbr 0 1 0 p = some q ∧ ScanInvAll nbr q 1 := by
  obtain ⟨q, hq, hb, _⟩ := update_optimal_loop_spec 0 1 0
    (fun r p => ∀ j, 1 ≤ j → (p.optimals j).bits r = INF)
    (fun r p => ScanInv p 1 r)
    (fun r p q hs hA j hj => by rw [(hs j).1]; exact hA j hj)
    (fun r p q hs => ScanInv.congr hs)
    (fun r p _ hA => by
      obtain ⟨pb, pm, po⟩ := p
      refine ⟨_, update_optimal_step_zero r _, ?_, ?_⟩
      · obtain ⟨e1, e2, e3⟩ := store_at pb pm po 0 r 8 0 1
        refine ⟨⟨e1, e2, e3⟩, fun j h1 h2 => absurd h2 (by omega), ?_⟩
        intro j hj
        rw [(store_same pb pm po 0 r 8 0 1 pb pm j r (Or.inl (by omega))).1]
        exact hA j hj
      · intro j r2 hr
        exact store_same pb pm po 0 r 8 0 1 pb pm j r2 (Or.inr hr))
    nbr.toNat p (fun r _ _ j hj => h j r hj)
  exact ⟨q, hq, fun r h0 h1 => hb r h0 (by omega)⟩

/-- The scan of a non-empty input of at most `MAX` bytes never reaches `abort()`
and leaves the table in the state described by `ScanInvAll`. -/
theorem lzss_scan_inv (g : Globals) (hn : 0 < g.BIT_OFFSET_NBR_ALLOWED)
    (h1 : 1 ≤ g.buf.index_src) (h2 : g.buf.index_src ≤ MAX) :
    ∃ s, lzss_scan g = some s ∧
      ScanInvAll g.BIT_OFFSET_NBR_ALLOWED s.parse g.buf.index_src := by
  unfold lzss_scan
  obtain ⟨p0, hp0, hinv0⟩ := update_optimal_first g.BIT_OFFSET_NBR_ALLOWED
    { g.parse with optimals := init_optimals g.parse.optimals } (fun j r _ => rfl)
  rw [hp0]
  simp only
  obtain ⟨t, ht, hinv⟩ := scan_loop_inv g.buf.data_src g.BIT_OFFSET_NBR_ALLOWED g.bRLE g.bFAST hn
    (g.buf.index_src - 1).toNat 1
    { parse := p0, matches_ := reset_matches g.matches_, prev_match_index := -1 }
    (le_refl 1) (by omega) hinv0
  refine ⟨t, ht, ?_⟩
  have e : (1 : Int) + ((g.buf.index_src - 1).toNat : Int) = g.buf.index_src := by omega
  rw [e] at hinv
  exact hinv

/-! ### Selection of the subset -/

theorem select_loop_spec (last : t_optimal) :
    ∀ (c : Nat) (i : Int) (r : Int × Int), r.1 = last.bits r.2 →
      (select_loop last c i r).1 = last.bits (select_loop last c i r).2 ∧
      ((select_loop last c i r).2 = r.2 ∨
        (i ≤ (select_loop last c i r).2 ∧ (select_loop last c i r).2 < i + c)) := by
  intro c
  induction c with
  | zero => intro i r h; exact ⟨h, Or.inl rfl⟩
  | succ c ih =>
    intro i r h
    unfold select_loop
    by_cases h1 : last.bits i = INF
    · simp only [if_pos h1]
      obtain ⟨a, b⟩ := ih (i + 1) r h
      refine ⟨a, ?_⟩
      rcases b with b | b
      · exact Or.inl b
      · exact Or.inr ⟨by omega, by push_cast; omega⟩
    · simp only [if_neg h1]
      by_cases h2 : last.bits i < r.1
      · simp only [if_pos h2]
        obtain ⟨a, b⟩ := ih (i + 1) (last.bits i, i) rfl
        refine ⟨a, Or.inr ?_⟩
        rcases b with b | b
        · simp only at b
          rw [b]
          exact ⟨le_refl i, by push_cast; omega⟩
        · exact ⟨by omega, by push_cast; omega⟩
      · simp only [if_neg h2]
        obtain ⟨a, b⟩ := ih (i + 1) r h
        refine ⟨a, ?_⟩
        rcases b with b | b
        · exact Or.inl b
        · exact Or.inr ⟨by omega, by push_cast; omega⟩

theorem select_best_spec (nbr n : Int) (p : Parse) (hn : 0 < nbr) :
    (select_best nbr n p).1 = (p.optimals (n - 1)).bits (select_best nbr n p).2 ∧
    0 ≤ (select_best nbr n p).2 ∧ (select_best nbr n p).2 < nbr := by
  unfold select_best
  obtain ⟨a, b⟩ := select_loop_spec (p.optimals (n - 1)) nbr.toNat 0
    ((p.optimals (n - 1)).bits 0, 0) rfl
  refine ⟨a, ?_⟩
  rcases b with b | b
  · rw [b]; exact ⟨le_refl 0, hn⟩
  · exact ⟨b.1, by omega⟩

/-! ### Size of the calls of the writer functions -/

theorem opsBits_bits_ops (value : Int) (k : Nat) : opsBits (bits_ops value k) = k := by
  induction k with
  | zero => rfl
  | succ k ih => simp only [bits_ops, opsBits, opBits, ih]; push_cast; ring

theorem opsBits_raw_ops (src : Int → Nat) (index : Int) (k : Nat) (j : Int) :
    opsBits (raw_ops src index k j) = 8 * k := by
  induction k generalizing j with
  | zero => rfl
  | succ k ih => simp only [raw_ops, opsBits, opBits, ih]; push_cast; ring

set_option maxRecDepth 1000000 in
theorem opsBits_golomb_gamma :
    ∀ n : Nat, n < 254 →
      opsBits (golomb_gamma_ops ((n : Int) + 1)) = golomb_gamma_bits ((n : Int) + 1) := by
  decide

theorem opsBits_offset_ops (b3 offset len : Int) (hb : 8 ≤ b3) :
    1 + golomb_gamma_bits len + opsBits (offset_ops b3 offset len) = count_bits b3 offset len := by
  simp only [offset_ops, count_bits, MAX_OFFSET00, MAX_OFFSET1, MAX_OFFSET2, BIT_OFFSET0,
    BIT_OFFSET00, BIT_OFFSET1, BIT_OFFSET2]
  by_cases h1 : len = 1
  · simp only [if_pos h1]
    by_cases h2 : offset - 1 ≥ 1
    · have h3 : offset > 1 := by omega
      simp only [if_pos h2, if_pos h3, opsBits, opBits, opsBits_bits_ops]
      norm_num
      ring
    · have h3 : ¬ offset > 1 := by omega
      simp only [if_neg h2, if_neg h3, opsBits, opBits, opsBits_bits_ops]
      norm_num
  · simp only [if_neg h1]
    by_cases h2 : offset - 1 ≥ 256 + 32
    · have h3 : offset > 256 + 32 := by omega
      simp only [if_pos h2, if_pos h3, opsBits, opBits, opsBits_append, opsBits_bits_ops]
      have : (((b3 - 8).toNat : Nat) : Int) = b3 - 8 := Int.toNat_of_nonneg (by omega)
      rw [this]
      ring
    · have h3 : ¬ offset > 256 + 32 := by omega
      simp only [if_neg h2, if_neg h3]
      by_cases h4 : offset - 1 ≥ 32
      · have h5 : offset > 32 := by omega
        simp only [if_pos h4, if_pos h5, opsBits, opBits]
        ring
      · have h5 : ¬ offset > 32 := by omega
        simp only [if_neg h4, if_neg h5, opsBits, opBits, opsBits_bits_ops]
        norm_num
        ring

theorem opsBits_doublet_ops (b3 len offset : Int) (hb : 8 ≤ b3) (hl1 : 1 ≤ len)
    (hl2 : len ≤ MAX_GAMMA) :
    opsBits (doublet_ops b3 len offset) = count_bits b3 offset len := by
  have hG : MAX_GAMMA = 254 := by decide
  have hg := opsBits_golomb_gamma (len - 1).toNat (by omega)
  have e : (((len - 1).toNat : Nat) : Int) + 1 = len := by omega
  rw [e] at hg
  rw [← opsBits_offset_ops b3 offset len hb]
  simp only [doublet_ops, opsBits, opBits, opsBits_append, hg]
  ring

theorem opsBits_token_ops (src : Int → Nat) (r : Int) (p : Parse) (j : Int) (hr : 0 ≤ r)
    (hb : p.BIT_OFFSET3 = BIT_OFFSET_MIN + r)
    (hl : 1 ≤ (p.optimals j).len r) (ho : 0 ≤ (p.optimals j).offset r)
    (hg : (p.optimals j).offset r > 0 → (p.optimals j).len r ≤ MAX_GAMMA) :
    opsBits (token_ops src r p j) =
      tokenCost r ((p.optimals j).len r) ((p.optimals j).offset r) := by
  unfold token_ops tokenCost
  have h0 : (p.optimals j).len r > 0 := by omega
  simp only [if_pos h0]
  by_cases h1 : (p.optimals j).offset r = 0
  · simp only [if_pos h1]
    by_cases h2 : (p.optimals j).len r = 1
    · simp only [if_pos h2, opsBits, opBits]
      norm_num
    · simp only [if_neg h2, opsBits_append, literals_length_ops, opsBits, opBits,
        opsBits_bits_ops, opsBits_raw_ops, BIT_GOLOMG_MAX]
      have : ((((p.optimals j).len r).toNat : Nat) : Int) = (p.optimals j).len r :=
        Int.toNat_of_nonneg (by omega)
      rw [this]
      norm_num
      ring
  · simp only [if_neg h1]
    rw [hb]
    exact opsBits_doublet_ops _ _ _ (by simp only [BIT_OFFSET_MIN]; omega) hl (hg (by omega))

/-! ### The trim pass -/

theorem cleanup_inner_above (r : Int) :
    ∀ (k : Nat) (j : Int) (o : Int → t_optimal) (x : Int), j < x →
      cleanup_inner r k j o x = o x := by
  intro k
  induction k with
  | zero => intro j o x _; rfl
  | succ k ih =>
    intro j o x hx
    unfold cleanup_inner
    by_cases h1 : j < 0 ∨ j ≥ MAX
    · simp only [if_pos h1]
    · simp only [if_neg h1]
      rw [ih (j - 1) _ x (by omega)]
      simp only [setAt, if_neg (show ¬ x = j by omega)]

theorem cleanup_inner_below (r : Int) :
    ∀ (k : Nat) (j : Int) (o : Int → t_optimal) (x : Int), x ≤ j - k →
      cleanup_inner r k j o x = o x := by
  intro k
  induction k with
  | zero => intro j o x _; rfl
  | succ k ih =>
    intro j o x hx
    unfold cleanup_inner
    by_cases h1 : j < 0 ∨ j ≥ MAX
    · simp only [if_pos h1]
    · simp only [if_neg h1]
      rw [ih (j - 1) _ x (by push_cast at hx; omega)]
      simp only [setAt, if_neg (show ¬ x = j by push_cast at hx; omega)]

theorem cleanup_inner_clear (r : Int) :
    ∀ (k : Nat) (j : Int) (o : Int → t_optimal) (x : Int), j < MAX → 0 ≤ x → j - k < x →
      x ≤ j → (cleanup_inner r k j o x).len r = 0 := by
  intro k
  induction k with
  | zero => intro j o x _ _ h1 h2; exact absurd h2 (by push_cast at h1; omega)
  | succ k ih =>
    intro j o x hj hx0 hx1 hx2
    unfold cleanup_inner
    have h1 : ¬ (j < 0 ∨ j ≥ MAX) := by omega
    simp only [if_neg h1]
    by_cases hxj : x = j
    · rw [cleanup_inner_above r k (j - 1) _ x (by omega)]
      simp only [setAt, if_pos hxj, if_true]
    · exact ih (j - 1) _ x (by omega) hx0 (by push_cast at hx1; omega) (by omega)

theorem cleanup_inner_cells (r : Int) :
    ∀ (k : Nat) (j : Int) (o : Int → t_optimal) (x : Int),
      (cleanup_inner r k j o x).len r = 0 ∨ cleanup_inner r k j o x = o x := by
  intro k
  induction k with
  | zero => intro j o x; exact Or.inr rfl
  | succ k ih =>
    intro j o x
    unfold cleanup_inner
    by_cases h1 : j < 0 ∨ j ≥ MAX
    · rw [if_pos h1]; exact Or.inr rfl
    · simp only [if_neg h1]
      rcases ih (j - 1) (setAt o j (t_optimal.mk (o j).bits (setAt (o j).offset r 0)
          (setAt (o j).len r 0))) x with h | h
      · exact Or.inl h
      · rw [h]
        by_cases hxj : x = j
        · left; simp only [setAt, if_pos hxj, if_true]
        · right; simp only [setAt, if_neg hxj]

theorem cleanup_loop_frame (r : Int) :
    ∀ (f : Nat) (i : Int) (o : Int → t_optimal) (x : Int), i ≤ x →
      cleanup_loop r f i o x = o x := by
  intro f
  induction f with
  | zero => intro i o x _; rfl
  | succ f ih =>
    intro i o x hx
    unfold cleanup_loop
    by_cases h1 : i > 1
    · simp only [if_pos h1]
      by_cases h2 : i < 0 ∨ i ≥ MAX
      · simp only [if_pos h2]
      · simp only [if_neg h2]
        by_cases h3 : r < 0 ∨ r ≥ BIT_OFFSET_NBR
        · simp only [if_pos h3]
        · simp only [if_neg h3]
          by_cases h4 : (o i).len r ≤ 0
          · simp only [if_pos h4]; exact ih (i - 1) o x (by omega)
          · simp only [if_neg h4]
            rw [ih _ _ x (by omega)]
            exact cleanup_inner_above r _ _ o x (by omega)
    · simp only [if_neg h1]

theorem cleanup_loop_cells (r : Int) :
    ∀ (f : Nat) (i : Int) (o : Int → t_optimal) (x : Int),
      (cleanup_loop r f i o x).len r = 0 ∨ cleanup_loop r f i o x = o x := by
  intro f
  induction f with
  | zero => intro i o x; exact Or.inr rfl
  | succ f ih =>
    intro i o x
    unfold cleanup_loop
    by_cases h1 : i > 1
    · simp only [if_pos h1]
      by_cases h2 : i < 0 ∨ i ≥ MAX
      · rw [if_pos h2]; exact Or.inr rfl
      · simp only [if_neg h2]
        by_cases h3 : r < 0 ∨ r ≥ BIT_OFFSET_NBR
        · rw [if_pos h3]; exact Or.inr rfl
        · simp only [if_neg h3]
          by_cases h4 : (o i).len r ≤ 0
          · simp only [if_pos h4]; exact ih (i - 1) o x
          · simp only [if_neg h4]
            rcases ih (i - (o i).len r)
              (cleanup_inner r ((o i).len r - 1).toNat (i - 1) o) x with h | h
            · exact Or.inl h
            · rw [h]
              exact cleanup_inner_cells r _ _ o x
    · rw [if_neg h1]; exact Or.inr rfl

/-! ### The calls of the emission loop -/

theorem token_ops_congr (src : Int → Nat) (r : Int) (p q : Parse) (i : Int)
    (hb : q.BIT_OFFSET3 = p.BIT_OFFSET3) (hl : (q.optimals i).len r = (p.optimals i).len r)
    (ho : (q.optimals i).offset r = (p.optimals i).offset r) :
    token_ops src r q i = token_ops src r p i := by
  unfold token_ops
  rw [hb, hl, ho]

theorem token_ops_zero (src : Int → Nat) (r : Int) (p : Parse) (i : Int)
    (hl : (p.optimals i).len r = 0) : token_ops src r p i = [] := by
  unfold token_ops
  rw [hl]
  simp

theorem lz_ops_append (src : Int → Nat) (r : Int) (p : Parse) :
    ∀ (a c : Nat) (i : Int),
      lz_ops src r p (a + c) i = lz_ops src r p a i ++ lz_ops src r p c (i + a) := by
  intro a
  induction a with
  | zero => intro c i; simp [lz_ops]
  | succ a ih =>
    intro c i
    have e : a + 1 + c = (a + c) + 1 := by omega
    rw [e]
    simp only [lz_ops, ih c (i + 1), List.append_assoc]
    have e2 : i + 1 + (a : Int) = i + ((a + 1 : Nat) : Int) := by push_cast; ring
    rw [e2]

theorem lz_ops_zero (src : Int → Nat) (r : Int) (p : Parse) :
    ∀ (k : Nat) (i : Int), (∀ x, i ≤ x → x < i + k → (p.optimals x).len r = 0) →
      lz_ops src r p k i = [] := by
  intro k
  induction k with
  | zero => intro i _; rfl
  | succ k ih =>
    intro i h
    simp only [lz_ops]
    rw [token_ops_zero src r p i (h i (le_refl i) (by push_cast; omega)),
      ih (i + 1) (fun x h1 h2 => h x (by omega) (by push_cast; omega))]
    rfl

theorem lz_ops_congr (src : Int → Nat) (r : Int) (p q : Parse)
    (hb : q.BIT_OFFSET3 = p.BIT_OFFSET3) :
    ∀ (k : Nat) (i : Int),
      (∀ x, i ≤ x → x < i + k → (q.optimals x).len r = (p.optimals x).len r ∧
        (q.optimals x).offset r = (p.optimals x).offset r) →
      lz_ops src r q k i = lz_ops src r p k i := by
  intro k
  induction k with
  | zero => intro i _; rfl
  | succ k ih =>
    intro i h
    simp only [lz_ops]
    have h0 := h i (le_refl i) (by push_cast; omega)
    rw [token_ops_congr src r p q i hb h0.1 h0.2,
      ih (i + 1) (fun x h1 h2 => h x (by omega) (by push_cast; omega))]

/-! ### The emission loop as a sequence of calls -/

theorem write_raw_loop_eq (index : Int) :
    ∀ (k : Nat) (j : Int) (b : Buffers), index + j + k ≤ MAX →
      write_raw_loop index k j b = (runOps (raw_ops b.data_src index k j) b).map Flow.cont := by
  intro k
  induction k with
  | zero => intro j b _; rfl
  | succ k ih =>
    intro j b h
    unfold write_raw_loop
    have h1 : ¬ index + j ≥ MAX := by push_cast at h; omega
    simp only [if_neg h1, raw_ops, runOps_byte]
    cases hb : write_byte (b.data_src (index + j)) b with
    | none => rfl
    | some b1 =>
      simp only [Option.some_bind]
      rw [ih (j + 1) b1 (by push_cast at h; omega), (write_byte_src hb).1]

theorem write_lz_step_eq (r : Int) (p : Parse) (i : Int) (b : Buffers) (h0 : 0 ≤ i)
    (h1 : i < MAX) (h2 : (p.optimals i).len r > 0 → (p.optimals i).len r ≤ i + 1) :
    write_lz_step r p i b = (runOps (token_ops b.data_src r p i) b).map Flow.cont := by
  unfold write_lz_step token_ops
  have c0 : ¬ (i < 0 ∨ i ≥ MAX) := by omega
  simp only [if_neg c0]
  by_cases hl : (p.optimals i).len r > 0
  · have h3 := h2 hl
    have c1 : ¬ (i - (p.optimals i).len r + 1 < 0 ∨ i - (p.optimals i).len r + 1 ≥ MAX) := by
      omega
    simp only [if_pos hl, if_neg c1]
    by_cases ho : (p.optimals i).offset r = 0
    · simp only [if_pos ho]
      by_cases h1l : (p.optimals i).len r = 1
      · simp only [if_pos h1l, write_literal_eq]
      · simp only [if_neg h1l, write_literals_length_eq, runOps_append]
        cases hb : runOps (literals_length_ops ((p.optimals i).len r)) b with
        | none => rfl
        | some b1 =>
          simp only [Option.some_bind]
          rw [write_raw_loop_eq _ _ 0 b1 (by omega), (runOps_src hb).1]
    · simp only [if_neg ho, write_doublet_eq]
  · simp only [if_neg hl, runOps_nil, Option.map_some']

theorem write_lz_loop_eq (r : Int) (p : Parse) :
    ∀ (k : Nat) (i : Int) (b : Buffers), 0 ≤ i → i + k ≤ MAX →
      (∀ x, i ≤ x → x < i + k → (p.optimals x).len r > 0 → (p.optimals x).len r ≤ x + 1) →
      write_lz_loop r p k i b = (runOps (lz_ops b.data_src r p k i) b).map Flow.cont := by
  intro k
  induction k with
  | zero => intro i b _ _ _; rfl
  | succ k ih =>
    intro i b h0 h1 h2
    unfold write_lz_loop
    rw [write_lz_step_eq r p i b h0 (by push_cast at h1; omega)
      (h2 i (le_refl i) (by push_cast; omega))]
    simp only [lz_ops, runOps_append]
    cases hb : runOps (token_ops b.data_src r p i) b with
    | none => rfl
    | some b1 =>
      simp only [Option.map_some', Option.some_bind]
      rw [ih (i + 1) b1 (by omega) (by push_cast at h1 ⊢; omega)
        (fun x hx1 hx2 => h2 x (by omega) (by push_cast at hx2 ⊢; omega)), (runOps_src hb).1]

theorem write_lz_eq (r : Int) (p : Parse) (b : Buffers) (hn : b.index_src ≤ MAX)
    (h2 : ∀ x, 1 ≤ x → x < b.index_src → (p.optimals x).len r > 0 →
      (p.optimals x).len r ≤ x + 1) :
    write_lz r p b =
      (runOps (bits_ops 254 (r + 1).toNat ++
          (WOp.byte (b.data_src 0) :: lz_ops b.data_src r p (b.index_src - 1).toNat 1) ++ end_ops)
        { b with index_dest := 0, bit_mask := 0, bit_index := 0 }).map
        (fun b3 => (b3.index_dest, b3)) := by
  unfold write_lz
  simp only [write_bits_eq, runOps_append, runOps_byte, List.append_assoc, List.cons_append]
  cases hb1 : runOps (bits_ops 254 (r + 1).toNat)
      { b with index_dest := 0, bit_mask := 0, bit_index := 0 } with
  | none => rfl
  | some b1 =>
    simp only [Option.some_bind]
    cases hb2 : write_byte (b.data_src 0) b1 with
    | none => rfl
    | some b2 =>
      simp only [Option.some_bind]
      have e1 : b2.index_src = b.index_src := by
        rw [(write_byte_src hb2).2, (runOps_src hb1).2]
      have e2 : b2.data_src = b.data_src := by
        rw [(write_byte_src hb2).1, (runOps_src hb1).1]
      rw [e1, write_lz_loop_eq r p _ 1 b2 (by omega) (by have := MAX_eq; omega)
        (fun x hx1 hx2 => h2 x hx1 (by omega)), e2]
      cases hb3 : runOps (lz_ops b.data_src r p (b.index_src - 1).toNat 1) b2 with
      | none => rfl
      | some b3 =>
        simp only [Option.map_some', Option.some_bind, write_end_eq]

/-! ### The cost of the emitted tokens -/

theorem cleanup_loop_small (r : Int) (f : Nat) (i : Int) (o : Int → t_optimal) (h : i ≤ 1) :
    cleanup_loop r f i o = o := by
  cases f with
  | zero => rfl
  | succ f =>
    unfold cleanup_loop
    simp only [if_neg (show ¬ i > 1 by omega)]

theorem emit_cost (src : Int → Nat) (r n : Int) (T : Parse) (m3 : Int) (hr0 : 0 ≤ r)
    (hr8 : r < 8) (hn : n ≤ MAX) (hT : ScanInv T n r) :
    ∀ (M : Nat) (m : Int), 0 ≤ m → m ≤ M → m < n → ∀ (f : Nat) (o : Int → t_optimal),
      m ≤ f + 1 →
      (∀ x, 1 ≤ x → x ≤ m → (o x).len r = (T.optimals x).len r ∧
        (o x).offset r = (T.optimals x).offset r) →
      opsBits (lz_ops src r ⟨BIT_OFFSET_MIN + r, m3, cleanup_loop r f m o⟩ m.toNat 1) =
        (T.optimals m).bits r - 8 := by
  intro M
  induction M with
  | zero =>
    intro m h0 h1 _ f o _ _
    have e : m = 0 := by push_cast at h1; omega
    subst e
    simp only [Int.toNat_zero, lz_ops, opsBits, hT.1.1]
    norm_num
  | succ M ih =>
    intro m h0 h1 h2 f o hf ho
    by_cases hm0 : m = 0
    · subst hm0
      simp only [Int.toNat_zero, lz_ops, opsBits, hT.1.1]
      norm_num
    have hcell := hT.2.1 m (by omega) h2
    obtain ⟨c1, c2, c3, c4, c5, _⟩ := hcell
    have hom := ho m (by omega) (le_refl m)
    -- the token at position `m` itself
    have htok : ∀ (o2 : Int → t_optimal), o2 m = o m →
        opsBits (token_ops src r ⟨BIT_OFFSET_MIN + r, m3, o2⟩ m) =
          tokenCost r ((T.optimals m).len r) ((T.optimals m).offset r) := by
      intro o2 e
      have := opsBits_token_ops src r ⟨BIT_OFFSET_MIN + r, m3, o2⟩ m hr0 rfl
        (by show 1 ≤ (o2 m).len r; rw [e, hom.1]; exact c1)
        (by show 0 ≤ (o2 m).offset r; rw [e, hom.2]; exact c3)
        (by show (o2 m).offset r > 0 → (o2 m).len r ≤ MAX_GAMMA; rw [e, hom.1, hom.2]; exact c4)
      rw [this]
      show tokenCost r ((o2 m).len r) ((o2 m).offset r) = _
      rw [e, hom.1, hom.2]
    by_cases hm1 : m = 1
    · subst hm1
      rw [cleanup_loop_small r f 1 o (le_refl 1)]
      have e1 : (1 : Int).toNat = 0 + 1 := rfl
      rw [e1]
      simp only [lz_ops, List.append_nil]
      rw [htok o rfl, c5]
      have : (T.optimals 1).len r = 1 := by omega
      rw [this]
      show _ = (T.optimals (1 - 1)).bits r + _ - 8
      have e0 : (1 : Int) - 1 = 0 := by norm_num
      rw [e0, hT.1.1]
      ring
    · -- `m ≥ 2`: one iteration of the trim loop
      obtain ⟨f1, rfl⟩ : ∃ f1, f = f1 + 1 := ⟨f - 1, by omega⟩
      have hM : MAX = 1048576 := MAX_eq
      have hN : BIT_OFFSET_NBR = 8 := by decide
      have step : cleanup_loop r (f1 + 1) m o =
          cleanup_loop r f1 (m - (T.optimals m).len r)
            (cleanup_inner r ((T.optimals m).len r - 1).toNat (m - 1) o) := by
        conv_lhs => unfold cleanup_loop
        simp only [if_pos (show m > 1 by omega), if_neg (show ¬ (m < 0 ∨ m ≥ MAX) by omega),
          if_neg (show ¬ (r < 0 ∨ r ≥ BIT_OFFSET_NBR) by omega), hom.1,
          if_neg (show ¬ (T.optimals m).len r ≤ 0 by omega)]
      rw [step]
      generalize hL : (T.optimals m).len r = L at *
      generalize ho1 : cleanup_inner r (L - 1).toNat (m - 1) o = o1
      have ho1_below : ∀ x, x ≤ m - L → o1 x = o x := by
        intro x hx
        rw [← ho1]
        exact cleanup_inner_below r _ _ o x (by omega)
      have ho1_m : o1 m = o m := by
        rw [← ho1]
        exact cleanup_inner_above r _ _ o m (by omega)
      have ho1_clear : ∀ x, m - L < x → x ≤ m - 1 → (o1 x).len r = 0 := by
        intro x hx1 hx2
        rw [← ho1]
        exact cleanup_inner_clear r _ _ o x (by omega) (by omega) (by omega) hx2
      generalize ho2 : cleanup_loop r f1 (m - L) o1 = o2
      have ho2_frame : ∀ x, m - L ≤ x → o2 x = o1 x := by
        intro x hx
        rw [← ho2]
        exact cleanup_loop_frame r f1 (m - L) o1 x hx
      have hrec := ih (m - L) (by omega) (by push_cast at h1; omega) (by omega) f1 o1 (by omega)
        (fun x hx1 hx2 => by rw [ho1_below x hx2]; exact ho x hx1 (by omega))
      rw [ho2] at hrec
      have esplit : m.toNat = (m - L).toNat + ((L - 1).toNat + 1) := by omega
      rw [esplit, lz_ops_append, lz_ops_append, opsBits_append, opsBits_append, hrec]
      have e1 : (1 : Int) + ((m - L).toNat : Int) = m - L + 1 := by omega
      have e2 : m - L + 1 + (((L - 1).toNat : Nat) : Int) = m := by omega
      rw [e1, e2]
      rw [lz_ops_zero src r _ (L - 1).toNat (m - L + 1) (fun x hx1 hx2 => by
        show (o2 x).len r = 0
        rw [ho2_frame x (by omega)]
        exact ho1_clear x (by omega) (by omega))]
      simp only [lz_ops, List.append_nil, opsBits]
      rw [htok o2 (by rw [ho2_frame m (by omega), ho1_m]), c5]
      ring

/-! ### The encoder as a whole -/

theorem options_nbr (max_bits rle_enabled fast_mode : Int) (g : Globals) :
    1 ≤ (set_dan3_options max_bits rle_enabled fast_mode g).BIT_OFFSET_NBR_ALLOWED ∧
    (set_dan3_options max_bits rle_enabled fast_mode g).BIT_OFFSET_NBR_ALLOWED ≤ 8 := by
  simp only [set_dan3_options, BIT_OFFSET_MAX, BIT_OFFSET_MIN]
  constructor <;> split <;> split <;> omega

theorem trimmed_cells (g : Globals) (s : ScanState) (x : Int) :
    ((trimmed g s).optimals x).len (chosen_subset g s) = 0 ∨
      (trimmed g s).optimals x = s.parse.optimals x :=
  cleanup_loop_cells _ _ _ _ x

/-- The scan succeeds, a reachable subset is selected, `write_lz` makes exactly
the calls for the selector, the first byte, the tokens and the end marker, and
the first byte with the tokens has the size that the parser computed. -/
theorem lzss_slow_spec (g : Globals) (hn1 : 1 ≤ g.BIT_OFFSET_NBR_ALLOWED)
    (hn8 : g.BIT_OFFSET_NBR_ALLOWED ≤ 8) (h1 : 1 ≤ g.buf.index_src)
    (h2 : g.buf.index_src ≤ MAX) :
    ∃ s, lzss_scan g = some s ∧
      ScanInvAll g.BIT_OFFSET_NBR_ALLOWED s.parse g.buf.index_src ∧
      (0 ≤ chosen_subset g s ∧ chosen_subset g s < g.BIT_OFFSET_NBR_ALLOWED) ∧
      (select_best g.BIT_OFFSET_NBR_ALLOWED g.buf.index_src s.parse).1 ≠ INF ∧
      (select_best g.BIT_OFFSET_NBR_ALLOWED g.buf.index_src s.parse).1 =
        (s.parse.optimals (g.buf.index_src - 1)).bits (chosen_subset g s) ∧
      write_lz (chosen_subset g s) (trimmed g s) g.buf =
        (runOps (bits_ops 254 (chosen_subset g s + 1).toNat ++
            (WOp.byte (g.buf.data_src 0) :: emitted_tokens g s) ++ end_ops)
          { g.buf with index_dest := 0, bit_mask := 0, bit_index := 0 }).map
          (fun b3 => (b3.index_dest, b3)) ∧
      opsBits (WOp.byte (g.buf.data_src 0) :: emitted_tokens g s) =
        (s.parse.optimals (g.buf.index_src - 1)).bits (chosen_subset g s) := by
  obtain ⟨s, hs, hinv⟩ := lzss_scan_inv g (by omega) h1 h2
  obtain ⟨e1, e2, e3⟩ := select_best_spec g.BIT_OFFSET_NBR_ALLOWED g.buf.index_src s.parse
    (by omega)
  have hsub : ScanInv s.parse g.buf.index_src (chosen_subset g s) := hinv _ e2 e3
  refine ⟨s, hs, hinv, ⟨e2, e3⟩, ?_, e1, ?_, ?_⟩
  · rw [e1]
    exact hsub.bits_ne_INF (by omega) (by omega) h2
  · apply write_lz_eq _ _ _ h2
    intro x hx1 hx2 hpos
    rcases trimmed_cells g s x with h | h
    · rw [h] at hpos; exact absurd hpos (by omega)
    · rw [h]
      have := (hsub.2.1 x hx1 hx2).2.1
      omega
  · have hc := emit_cost g.buf.data_src (chosen_subset g s) g.buf.index_src s.parse
      (2 ^ (BIT_OFFSET_MIN + chosen_subset g s).toNat + MAX_OFFSET2) e2
      (by have e4 : chosen_subset g s < g.BIT_OFFSET_NBR_ALLOWED := e3; omega) h2 hsub
      (g.buf.index_src - 1).toNat (g.buf.index_src - 1) (by omega) (by omega) (by omega)
      g.buf.index_src.toNat s.parse.optimals (by omega) (fun x _ _ => ⟨rfl, rfl⟩)
    have e : (⟨BIT_OFFSET_MIN + chosen_subset g s,
        2 ^ (BIT_OFFSET_MIN + chosen_subset g s).toNat + MAX_OFFSET2,
        cleanup_loop (chosen_subset g s) g.buf.index_src.toNat (g.buf.index_src - 1)
          s.parse.optimals⟩ : Parse) = trimmed g s := rfl
    rw [e] at hc
    simp only [opsBits, opBits, emitted_tokens]
    rw [hc]
    ring

theorem lzss_slow_eq (g : Globals) (s : ScanState) (hs : lzss_scan g = some s)
    (h1 : 1 ≤ g.buf.index_src)
    (hsel : (select_best g.BIT_OFFSET_NBR_ALLOWED g.buf.index_src s.parse).1 ≠ INF) :
    lzss_slow g =
      (write_lz (chosen_subset g s) (trimmed g s) g.buf).map
        (fun rb => (rb.1, { g with parse := trimmed g s, matches_ := s.matches_, buf := rb.2 })) := by
  unfold lzss_slow
  simp only [if_pos (show g.buf.index_src > 0 by omega), hs, if_neg hsel]
  show (match write_lz (chosen_subset g s) (trimmed g s) g.buf with
    | none => none
    | some (r, b) => some (r, { g with parse := trimmed g s, matches_ := s.matches_, buf := b }))
    = _
  cases write_lz (chosen_subset g s) (trimmed g s) g.buf with
  | none => rfl
  | some rb => rfl

theorem select_loop_const (last : t_optimal) :
    ∀ (c : Nat) (i : Int) (r : Int × Int),
      (∀ x, i ≤ x → x < i + c → last.bits x = INF ∨ ¬ last.bits x < r.1) →
      select_loop last c i r = r := by
  intro c
  induction c with
  | zero => intro i r _; rfl
  | succ c ih =>
    intro i r h
    unfold select_loop
    have ih1 := ih (i + 1) r (fun x h1 h2 => h x (by omega) (by push_cast; omega))
    by_cases h1 : last.bits i = INF
    · simp only [if_pos h1]; exact ih1
    · simp only [if_neg h1]
      have h2 : ¬ last.bits i < r.1 := by
        rcases h i (le_refl i) (by push_cast; omega) with h3 | h3
        · exact absurd h3 h1
        · exact h3
      simp only [if_neg h2]; exact ih1

theorem chosen_single (g : Globals) (s : ScanState) (hn1 : 1 ≤ g.BIT_OFFSET_NBR_ALLOWED)
    (h1 : g.buf.index_src = 1) (hinv : ScanInvAll g.BIT_OFFSET_NBR_ALLOWED s.parse 1) :
    chosen_subset g s = 0 := by
  unfold chosen_subset select_best
  rw [h1]
  have e0 : (1 : Int) - 1 = 0 := by norm_num
  rw [e0, select_loop_const]
  intro x hx0 hx1
  right
  have hx := (hinv x hx0 (by omega)).1.1
  have h0 := (hinv 0 (le_refl 0) (by omega)).1.1
  show ¬ (s.parse.optimals 0).bits x < (s.parse.optimals 0).bits 0
  rw [hx, h0]
  omega

set_option maxRecDepth 100000 in
theorem run_single_41 :
    (runOps (bits_ops 254 ((0 : Int) + 1).toNat ++ (WOp.byte 0x41 :: []) ++ end_ops)
      { load_src [0x41] initial.buf with index_dest := 0, bit_mask := 0, bit_index := 0 }).map
      (fun b3 => (b3.index_dest, bytesOf b3.data_dest b3.index_dest)) =
      some (3, [0x00, 0x41, 0x00]) := by
  decide

/-- For the one-byte input `[0x41]`, every option setting and every starting
state, `encode` returns the three bytes `0x00 0x41 0x00`. -/
theorem encode_single_41 (max_bits rle_enabled fast_mode : Int) (out : Int → Nat)
    (g : Globals) :
    encode [0x41] max_bits rle_enabled fast_mode out g = Seen.returned 3 [0x00, 0x41, 0x00] := by
  rw [encode_indep [0x41] max_bits rle_enabled fast_mode out (fun _ => 0) g initial]
  have hG : dan3_encode [0x41] (fun _ => 0)
      (set_dan3_options max_bits rle_enabled fast_mode initial) =
      (lzss_slow (encode_entry [0x41] max_bits rle_enabled fast_mode initial)).bind
        (fun r => if r.1 ≥ 0 then
            (if r.1 > MAX then some (-1, fun _ => 0, r.2)
             else some (r.1, memcpy (fun _ => 0) r.2.buf.data_dest r.1, r.2))
          else some (r.1, fun _ => 0, r.2)) := by
    unfold dan3_encode encode_entry
    simp only [List.length_singleton, Nat.cast_one,
      if_neg (show ¬ ((1 : Int) > MAX) by rw [MAX_eq]; omega)]
    cases lzss_slow _ with
    | none => rfl
    | some r => rfl
  obtain ⟨hn1, hn8⟩ := options_nbr max_bits rle_enabled fast_mode initial
  obtain ⟨s, hs, hinv, _, hsel, _, hw, _⟩ := lzss_slow_spec
    (encode_entry [0x41] max_bits rle_enabled fast_mode initial) hn1 hn8 (le_refl 1)
    (by show (1 : Int) ≤ MAX; rw [MAX_eq]; omega)
  have hch := chosen_single (encode_entry [0x41] max_bits rle_enabled fast_mode initial) s hn1 rfl
    hinv
  have hle := lzss_slow_eq _ s hs (le_refl 1) hsel
  rw [hw, hch] at hle
  have hrun := run_single_41
  have etok : emitted_tokens (encode_entry [0x41] max_bits rle_enabled fast_mode initial) s
      = [] := rfl
  have ebuf : (encode_entry [0x41] max_bits rle_enabled fast_mode initial).buf
      = load_src [0x41] initial.buf := rfl
  have esrc : (encode_entry [0x41] max_bits rle_enabled fast_mode initial).buf.data_src 0
      = 0x41 := rfl
  rw [etok, ebuf] at hle
  rw [ebuf] at esrc
  rw [esrc] at hle
  unfold encode
  rw [hG, hle]
  revert hrun
  cases runOps (bits_ops 254 ((0 : Int) + 1).toNat ++ (WOp.byte 0x41 :: []) ++ end_ops)
      { load_src [0x41] initial.buf with index_dest := 0, bit_mask := 0, bit_index := 0 } with
  | none => intro hrun; simp at hrun
  | some b3 =>
    intro hrun
    simp only [Option.map_some', Option.some.injEq, Prod.mk.injEq] at hrun
    obtain ⟨e1, e2⟩ := hrun
    simp only [Option.map_some', Option.some_bind, e1]
    simp only [show ((3 : Int) ≥ 0) from by omega, if_true,
      if_neg (show ¬ ((3 : Int) > MAX) by rw [MAX_eq]; omega), bytesOf_memcpy]
    rw [e1] at e2
    rw [e2]

/-! ### Exact costs on an input without matches -/

theorem update_optimal_lit_exact (nbr i : Int) (p : Parse) (h : LitInv nbr p i)
    (hi1 : 1 ≤ i) (hi2 : i < MAX) :
    ∃ q, update_optimal nbr i 1 0 p = some q ∧ LitInv nbr q (i + 1) := by
  have hM := MAX_eq
  have hI := INF_eq
  obtain ⟨q, hq, hb, hf⟩ := update_optimal_loop_spec i 1 0
    (fun r p1 => ∀ j, (p1.optimals j).bits r = (p.optimals j).bits r)
    (fun r q1 => (∀ j, j ≠ i → (q1.optimals j).bits r = (p.optimals j).bits r) ∧
      ((p.optimals (i - 1)).bits r = 8 + 9 * (i - 1) → (q1.optimals i).bits r = 8 + 9 * i))
    (fun r p1 q1 hs hA j => by rw [(hs j).1]; exact hA j)
    (fun r p1 q1 hs hB => ⟨fun j hj => by rw [(hs j).1]; exact hB.1 j hj,
      fun hv => by rw [(hs i).1]; exact hB.2 hv⟩)
    (fun r p1 _ hA => by
      obtain ⟨q1, e, hfr, hcell, hlit⟩ := update_optimal_step_spec i 1 0 r p1 (by omega) hi2
        (le_refl 1) hi1
      refine ⟨q1, e, ⟨fun j hj => ?_, fun hv => ?_⟩, fun j r2 hr => hfr j r2 (Or.inr hr)⟩
      · rw [(hfr j r (Or.inl hj)).1]; exact hA j
      · have hprev : (p1.optimals (i - 1)).bits r = 8 + 9 * (i - 1) := by rw [hA]; exact hv
        have hne : (p1.optimals (i - 1)).bits r ≠ INF := by rw [hprev, hI]; omega
        have hle := hlit rfl rfl hne
        rcases hcell with hc | hc
        · have e1 : (q1.optimals i).bits r = INF := by
            rw [hc.1, hA]; exact h.2 i r (le_refl i)
          rw [e1, hprev, hI] at hle
          omega
        · rw [hc.2.2.1, tokenCost_lit, hprev]; ring)
    nbr.toNat p (fun r _ _ j => rfl)
  refine ⟨q, hq, ?_, ?_⟩
  · intro j r hj0 hj1 hr0 hr1
    obtain ⟨b1, b2⟩ := hb r hr0 (by omega)
    by_cases hj : j = i
    · rw [hj]
      exact b2 (h.1 (i - 1) r (by omega) (by omega) hr0 hr1)
    · rw [b1 j hj]
      exact h.1 j r hj0 (by omega) hr0 hr1
  · intro j r hj
    by_cases hr : 0 ≤ r ∧ r < (nbr.toNat : Int)
    · rw [(hb r hr.1 hr.2).1 j (by omega)]
      exact h.2 j r (by omega)
    · rw [(hf j r (by omega)).1]
      exact h.2 j r (by omega)

theorem update_optimal_first_exact (nbr : Int) (p : Parse)
    (h : ∀ j r, (p.optimals j).bits r = INF) :
    ∃ q, update_optimal nbr 0 1 0 p = some q ∧ LitInv nbr q 1 := by
  obtain ⟨q, hq, hb, hf⟩ := update_optimal_loop_spec 0 1 0
    (fun r p1 => ∀ j, (p1.optimals j).bits r = INF)
    (fun r q1 => (∀ j, j ≠ 0 → (q1.optimals j).bits r = INF) ∧ (q1.optimals 0).bits r = 8)
    (fun r p1 q1 hs hA j => by rw [(hs j).1]; exact hA j)
    (fun r p1 q1 hs hB => ⟨fun j hj => by rw [(hs j).1]; exact hB.1 j hj,
      by rw [(hs 0).1]; exact hB.2⟩)
    (fun r p1 _ hA => by
      obtain ⟨pb, pm, po⟩ := p1
      refine ⟨_, update_optimal_step_zero r _, ⟨fun j hj => ?_, ?_⟩, fun j r2 hr => ?_⟩
      · rw [(store_same pb pm po 0 r 8 0 1 pb pm j r (Or.inl hj)).1]; exact hA j
      · exact (store_at pb pm po 0 r 8 0 1).1
      · exact store_same pb pm po 0 r 8 0 1 pb pm j r2 (Or.inr hr))
    nbr.toNat p (fun r _ _ j => h j r)
  refine ⟨q, hq, ?_, ?_⟩
  · intro j r hj0 hj1 hr0 hr1
    have hj : j = 0 := by omega
    rw [hj]
    simpa using (hb r hr0 (by omega)).2
  · intro j r hj
    by_cases hr : 0 ≤ r ∧ r < (nbr.toNat : Int)
    · exact (hb r hr.1 hr.2).1 j (by omega)
    · rw [(hf j r (by omega)).1]
      exact h j r

theorem golomb_gamma_bits_two : golomb_gamma_bits 2 = 2 := by decide

theorem count_bits_far (b3 offset : Int) (ho : MAX_OFFSET2 < offset) :
    count_bits b3 offset 2 = 5 + b3 := by
  unfold count_bits
  simp only [golomb_gamma_bits_two, if_neg (show ¬ ((2 : Int) = 1) by omega),
    if_pos (show offset > MAX_OFFSET2 from ho)]
  ring

theorem far_step (index offset r : Int) (p : Parse) (h0 : 2 ≤ index) (h1 : index < MAX)
    (ho1 : 2336 < offset) (ho2 : offset ≤ 4384) (ho3 : offset ≤ index) (hr : 0 ≤ r)
    (ha : (p.optimals (index - 2)).bits r = 8 + 9 * (index - 2))
    (hb : (p.optimals index).bits r = 8 + 9 * index) :
    ∃ q, update_optimal_step index 2 offset r p = some q ∧
      (q.optimals index).bits r = (if r = 3 then 8 + 9 * index - 1 else 8 + 9 * index) ∧
      ∀ j r2, r2 ≠ r → SameCell p q j r2 := by
  have hM := MAX_eq
  have hI := INF_eq
  obtain ⟨pb, pm, po⟩ := p
  simp only at ha hb
  unfold update_optimal_step
  have c0 : ¬ (index < 0 ∨ index ≥ MAX) := by omega
  have c1 : ¬ (offset = 0) := by omega
  have c2 : ¬ (offset > index) := by omega
  have c3 : ¬ (index - 2 < 0 ∨ index - 2 ≥ MAX) := by omega
  have c4 : ¬ (po (index - 2)).bits r = INF := by rw [ha, hI]; omega
  have c5 : offset > MAX_OFFSET1 := by
    have : MAX_OFFSET1 = 32 := by decide
    omega
  simp only [if_neg c0, if_neg c1, if_neg c2, if_neg c3, if_neg c4, if_pos c5, set_BIT_OFFSET3]
  have hmin : BIT_OFFSET_MIN = 9 := by decide
  have hm2 : MAX_OFFSET2 = 288 := by decide
  by_cases hr3 : r < 3
  · have hpow : (2 : Int) ^ (BIT_OFFSET_MIN + r).toNat + MAX_OFFSET2 ≤ 2336 := by
      rw [hmin, hm2]
      have hr' : r = 0 ∨ r = 1 ∨ r = 2 := by omega
      rcases hr' with e | e | e <;> subst e <;> decide
    have c6 : offset > MAX_OFFSET1 ∧ offset > (2 : Int) ^ (BIT_OFFSET_MIN + r).toNat + MAX_OFFSET2 :=
      ⟨c5, by omega⟩
    simp only [if_pos c6]
    refine ⟨_, rfl, ?_, fun j r2 _ => ⟨rfl, rfl, rfl⟩⟩
    simp only [if_neg (show ¬ r = 3 by omega)]
    exact hb
  · have hpow : (4384 : Int) ≤ (2 : Int) ^ (BIT_OFFSET_MIN + r).toNat + MAX_OFFSET2 := by
      rw [hmin, hm2]
      have h12 : 12 ≤ ((9 : Int) + r).toNat := by omega
      have := Nat.pow_le_pow_right (show 0 < 2 by norm_num) h12
      have h2 : (2 : Int) ^ 12 ≤ (2 : Int) ^ ((9 : Int) + r).toNat := by exact_mod_cast this
      norm_num at h2
      omega
    have c6 : ¬ (offset > MAX_OFFSET1 ∧
        offset > (2 : Int) ^ (BIT_OFFSET_MIN + r).toNat + MAX_OFFSET2) := by
      intro hc; omega
    simp only [if_neg c6]
    rw [count_bits_far _ _ (by rw [hm2]; omega), ha, hb, hmin]
    by_cases hr4 : r = 3
    · have c7 : 8 + 9 * index > 8 + 9 * (index - 2) + (5 + (9 + r)) := by omega
      simp only [if_pos c7, if_pos hr4]
      refine ⟨_, rfl, ?_, fun j r2 h2 => ?_⟩
      · rw [(store_at _ _ po index r _ offset 2).1]; omega
      · exact store_same _ _ po index r _ offset 2 _ _ j r2 (Or.inr h2)
    · have c7 : ¬ (8 + 9 * index > 8 + 9 * (index - 2) + (5 + (9 + r))) := by omega
      simp only [if_neg c7, if_neg hr4]
      exact ⟨_, rfl, hb, fun j r2 _ => ⟨rfl, rfl, rfl⟩⟩

theorem update_optimal_far_exact (nbr i offset : Int) (p : Parse) (h : LitInv nbr p (i + 1))
    (hi1 : 2 ≤ i) (hi2 : i < MAX) (ho1 : 2336 < offset) (ho2 : offset ≤ 4384)
    (ho3 : offset ≤ i) :
    ∃ q, update_optimal nbr i 2 offset p = some q ∧
      ∀ r, 0 ≤ r → r < nbr →
        (q.optimals i).bits r = (if r = 3 then 8 + 9 * i - 1 else 8 + 9 * i) := by
  obtain ⟨q, hq, hb, _⟩ := update_optimal_loop_spec i 2 offset
    (fun r p1 => (p1.optimals (i - 2)).bits r = 8 + 9 * (i - 2) ∧
      (p1.optimals i).bits r = 8 + 9 * i)
    (fun r q1 => (q1.optimals i).bits r = (if r = 3 then 8 + 9 * i - 1 else 8 + 9 * i))
    (fun r p1 q1 hs hA => ⟨by rw [(hs (i - 2)).1]; exact hA.1, by rw [(hs i).1]; exact hA.2⟩)
    (fun r p1 q1 hs hB => by
      show (q1.optimals i).bits r = _
      rw [(hs i).1]; exact hB)
    (fun r p1 hr hA => far_step i offset r p1 hi1 hi2 ho1 ho2 ho3 hr hA.1 hA.2)
    nbr.toNat p
    (fun r hr0 hr1 => ⟨h.1 (i - 2) r (by omega) (by omega) hr0 (by omega),
      h.1 i r (by omega) (by omega) hr0 (by omega)⟩)
  exact ⟨q, hq, fun r hr0 hr1 => hb r hr0 (by omega)⟩

theorem len1_loop_quiet (src : Int → Nat) (nbr i : Int) (hi2 : i < MAX) :
    ∀ (c : Nat) (k : Int) (p : Parse), 1 ≤ k → k + c ≤ i + 1 →
      (∀ k2, k ≤ k2 → k2 < k + c → src i ≠ src (i - k2)) →
      len1_loop src nbr i c k p = some p := by
  intro c
  induction c with
  | zero => intro k p _ _ _; rfl
  | succ c ih =>
    intro k p hk hc hne
    unfold len1_loop
    have g1 : ¬ (i < 0 ∨ i ≥ MAX ∨ i - k < 0 ∨ i - k ≥ MAX) := by
      push_cast at hc
      omega
    have g2 : ¬ (src i = src (i - k)) := hne k (le_refl k) (by push_cast; omega)
    simp only [if_neg g1, if_neg g2]
    exact ih (k + 1) p (by omega) (by push_cast at hc; omega)
      (fun k2 h1 h2 => hne k2 (by omega) (by push_cast; omega))

theorem scan_step_quiet (src : Int → Nat) (nbr i : Int) (s : ScanState)
    (hi1 : 1 ≤ i) (hi2 : i < MAX) (hL : LitInv nbr s.parse i)
    (hC : ChainInv src s.matches_ i)
    (hnear : ∀ k, 1 ≤ k → k ≤ 3 → k ≤ i → src i ≠ src (i - k))
    (hfresh : ∀ a, 1 ≤ a → a < i → key_of src a ≠ key_of src i) :
    ∃ t, scan_step src nbr 0 0 i s = some t ∧ LitInv nbr t.parse (i + 1) ∧
      ChainInv src t.matches_ (i + 1) := by
  unfold scan_step
  obtain ⟨p1, hp1, hinv1⟩ := update_optimal_lit_exact nbr i s.parse hL hi1 hi2
  rw [hp1]
  simp only
  have hR : ¬ ((0 : Int) ≠ 0 ∧ i ≥ RAW_MIN) := fun h => h.1 rfl
  simp only [if_neg hR]
  have hO : MAX_OFFSET0 = 3 := by decide
  rw [len1_loop_quiet src nbr i hi2 (if MAX_OFFSET0 > i then i else MAX_OFFSET0).toNat 1 p1
    (le_refl 1) (by rw [hO]; split <;> omega)
    (fun k2 h1 h2 => hnear k2 h1 (by rw [hO] at h2; split at h2 <;> omega)
      (by rw [hO] at h2; split at h2 <;> omega))]
  simp only
  have g1 : ¬ (i - 1 < 0 ∨ i ≥ MAX) := by omega
  simp only [if_neg g1]
  have hf : ¬ (s.prev_match_index = (((src (i - 1) <<< 8 ||| src i &&& 255 : Nat) : Int))
      ∧ (0 : Int) = TRUE ∧ (p1.optimals (i - 1)).offset 0 = 1 ∧ (p1.optimals (i - 1)).len 0 > 2) :=
    fun h => absurd h.2.1 (by decide)
  simp only [if_neg hf]
  have hm : s.matches_ (((src (i - 1) <<< 8 ||| src i &&& 255 : Nat) : Int)) = [-1] := by
    rcases hC (key_of src i) with ⟨hm, _⟩ | ⟨a, ha1, ha2, hk, _⟩
    · exact hm
    · exact absurd hk (hfresh a ha1 ha2)
  rw [hm]
  refine ⟨_, rfl, hinv1, ?_⟩
  intro key
  show (setAt s.matches_ (key_of src i) (insert_match [-1] i) key = [-1] ∧ _) ∨
    (∃ a, 1 ≤ a ∧ a < i + 1 ∧ key_of src a = key ∧
      setAt s.matches_ (key_of src i) (insert_match [-1] i) key = [a, -1])
  by_cases hk : key = key_of src i
  · right
    refine ⟨i, hi1, by omega, hk.symm, ?_⟩
    simp [setAt, hk, insert_match]
  · have e : setAt s.matches_ (key_of src i) (insert_match [-1] i) key = s.matches_ key := by
      simp [setAt, hk]
    rw [e]
    rcases hC key with ⟨hm1, hall⟩ | ⟨a, ha1, ha2, hka, hm1⟩
    · left
      refine ⟨hm1, fun a ha1 ha2 => ?_⟩
      by_cases ha : a = i
      · rw [ha]; exact fun h => hk h.symm
      · exact hall a ha1 (by omega)
    · right
      exact ⟨a, ha1, by omega, hka, hm1⟩

theorem scan_loop_quiet (src : Int → Nat) (nbr m : Int) (hm : m ≤ MAX)
    (hnear : ∀ i k, 1 ≤ k → k ≤ 3 → k ≤ i → i < m → src i ≠ src (i - k))
    (hkeys : ∀ a b, 1 ≤ a → a < b → b < m → key_of src a ≠ key_of src b) :
    ∀ (c : Nat) (i : Int) (s : ScanState), 1 ≤ i → i + c ≤ m → LitInv nbr s.parse i →
      ChainInv src s.matches_ i →
      ∃ t, scan_loop src nbr 0 0 c i s = some t ∧ LitInv nbr t.parse (i + c) ∧
        ChainInv src t.matches_ (i + c) := by
  intro c
  induction c with
  | zero =>
    intro i s _ _ hL hC
    exact ⟨s, rfl, by simpa using hL, by simpa using hC⟩
  | succ c ih =>
    intro i s hi1 hi2 hL hC
    push_cast at hi2
    obtain ⟨s1, hs1, hL1, hC1⟩ := scan_step_quiet src nbr i s hi1 (by omega) hL hC
      (fun k h1 h2 h3 => hnear i k h1 h2 h3 (by omega))
      (fun a h1 h2 => hkeys a i h1 h2 (by omega))
    obtain ⟨t, ht, hLt, hCt⟩ := ih (i + 1) s1 (by omega) (by omega) hL1 hC1
    refine ⟨t, ?_, ?_, ?_⟩
    · unfold scan_loop
      rw [hs1]
      exact ht
    · have e : i + ((c + 1 : Nat) : Int) = i + 1 + (c : Int) := by push_cast; ring
      rw [e]; exact hLt
    · have e : i + ((c + 1 : Nat) : Int) = i + 1 + (c : Int) := by push_cast; ring
      rw [e]; exact hCt

theorem scan_loop_last (src : Int → Nat) (nbr bRLE bFAST : Int) :
    ∀ (c : Nat) (i : Int) (s : ScanState),
      scan_loop src nbr bRLE bFAST (c + 1) i s =
        (scan_loop src nbr bRLE bFAST c i s).bind
          (fun t => scan_step src nbr bRLE bFAST (i + c) t) := by
  intro c
  induction c with
  | zero =>
    intro i s
    simp only [scan_loop, Nat.cast_zero, add_zero, Option.some_bind]
    cases scan_step src nbr bRLE bFAST i s <;> rfl
  | succ c ih =>
    intro i s
    rw [scan_loop]
    cases h : scan_step src nbr bRLE bFAST i s with
    | none => simp only [scan_loop, h, Option.none_bind]
    | some s1 =>
      simp only
      rw [ih (i + 1) s1]
      have e : i + ((c + 1 : Nat) : Int) = i + 1 + (c : Int) := by push_cast; ring
      rw [e]
      conv_rhs => rw [scan_loop, h]

theorem scan_step_far (src : Int → Nat) (nbr i : Int) (s : ScanState)
    (hi1 : 2338 < i) (hi2 : i ≤ 4386) (hL : LitInv nbr s.parse i)
    (hC : ChainInv src s.matches_ i)
    (hnear : ∀ k, 1 ≤ k → k ≤ 3 → k ≤ i → src i ≠ src (i - k))
    (hkeys : ∀ a b, 1 ≤ a → a < b → b < i → key_of src a ≠ key_of src b)
    (hlast : key_of src i = key_of src 2)
    (htail : src (i - 2) ≠ src 0) :
    ∃ t, scan_step src nbr 0 0 i s = some t ∧
      ∀ r, 0 ≤ r → r < nbr →
        (t.parse.optimals i).bits r = (if r = 3 then 8 + 9 * i - 1 else 8 + 9 * i) := by
  have hM := MAX_eq
  unfold scan_step
  obtain ⟨p1, hp1, hinv1⟩ := update_optimal_lit_exact nbr i s.parse hL (by omega) (by omega)
  rw [hp1]
  simp only
  have hR : ¬ ((0 : Int) ≠ 0 ∧ i ≥ RAW_MIN) := fun h => h.1 rfl
  simp only [if_neg hR]
  have hO : MAX_OFFSET0 = 3 := by decide
  rw [len1_loop_quiet src nbr i (by omega) (if MAX_OFFSET0 > i then i else MAX_OFFSET0).toNat 1 p1
    (le_refl 1) (by rw [hO]; split <;> omega)
    (fun k2 h1 h2 => hnear k2 h1 (by rw [hO] at h2; split at h2 <;> omega)
      (by rw [hO] at h2; split at h2 <;> omega))]
  simp only
  have g1 : ¬ (i - 1 < 0 ∨ i ≥ MAX) := by omega
  simp only [if_neg g1]
  have hf : ¬ (s.prev_match_index = (((src (i - 1) <<< 8 ||| src i &&& 255 : Nat) : Int))
      ∧ (0 : Int) = TRUE ∧ (p1.optimals (i - 1)).offset 0 = 1 ∧ (p1.optimals (i - 1)).len 0 > 2) :=
    fun h => absurd h.2.1 (by decide)
  simp only [if_neg hf]
  have hm : s.matches_ (((src (i - 1) <<< 8 ||| src i &&& 255 : Nat) : Int)) = [2, -1] := by
    rcases hC (key_of src i) with ⟨_, hall⟩ | ⟨a, ha1, ha2, hk, hm⟩
    · exact absurd hlast.symm (hall 2 (by omega) (by omega))
    · have ha : a = 2 := by
        by_contra hne
        rcases lt_or_gt_of_ne hne with h | h
        · exact hkeys a 2 ha1 h (by omega) (by rw [hk, hlast])
        · exact hkeys 2 a (by omega) h ha2 (by rw [hk, hlast])
      rw [ha] at hm
      exact hm
  rw [hm]
  obtain ⟨q, hq, hbits⟩ := update_optimal_far_exact nbr i (i - 2) p1 hinv1 (by omega) (by omega)
    (by omega) (by omega) (by omega)
  have hG : MAX_GAMMA = 254 := by decide
  have hMO : MAX_OFFSET = 65824 := by decide
  have hlen : match_len_loop src nbr i (i - 2) 253 2 1 p1 = some (2, q) := by
    unfold match_len_loop
    have c1 : (2 : Int) ≤ MAX_GAMMA := by rw [hG]; omega
    have c2 : ¬ (i - 2 < 0 ∨ i - 2 - (i - 2) < 0 ∨ i - 2 ≥ MAX ∨ i - 2 - (i - 2) ≥ MAX) := by omega
    have e0 : i - 2 - (i - 2) = 0 := by ring
    have c3 : i < i - 2 + 2 ∨ src (i - 2) ≠ src (i - 2 - (i - 2)) := Or.inr (by rw [e0]; exact htail)
    simp only [if_pos c1, if_neg c2, hq, if_pos c3]
  have hwalk : match_walk src nbr 0 i [2, -1] 1 p1 = some ([2, -1], q) := by
    unfold match_walk
    have d1 : ¬ (i - 2 > MAX_OFFSET) := by rw [hMO]; omega
    have d2 : ¬ (i - 2 ≤ 0 ∨ i - (i - 2) < 0) := by omega
    have d3 : ¬ ((0 : Int) ≠ 0 ∧ (2 : Int) > 255) := fun h => h.1 rfl
    simp only [if_neg d1, if_neg d2, hlen, if_neg d3]
    rfl
  rw [hwalk]
  exact ⟨_, rfl, hbits⟩

/-! ### The size of the output -/

theorem mask_shift (m : Nat)
    (hm : m = 1 ∨ m = 2 ∨ m = 4 ∨ m = 8 ∨ m = 16 ∨ m = 32 ∨ m = 64) :
    m >>> 1 = 0 ∨ (m >>> 1 = 1 ∨ m >>> 1 = 2 ∨ m >>> 1 = 4 ∨ m >>> 1 = 8 ∨ m >>> 1 = 16 ∨
      m >>> 1 = 32 ∨ m >>> 1 = 64) := by
  rcases hm with e | e | e | e | e | e | e <;> subst e <;> decide

theorem mask_fresh (m : Nat) (hm : m = 128 >>> 1) :
    m = 1 ∨ m = 2 ∨ m = 4 ∨ m = 8 ∨ m = 16 ∨ m = 32 ∨ m = 64 := by
  subst hm; decide

theorem write_byte_cursor (v : Nat) (b : Buffers) (h : BitCursorOK b) (hM : b.index_dest < MAX) :
    ∃ b2, write_byte v b = some b2 ∧ BitCursorOK b2 ∧ b2.index_dest = b.index_dest + 1 ∧
      b2.bit_mask = b.bit_mask := by
  obtain ⟨h0, hm⟩ := h
  have c : ¬ (b.index_dest < 0 ∨ b.index_dest ≥ MAX) := by omega
  unfold write_byte
  rw [if_neg c]
  refine ⟨_, rfl, ⟨?_, ?_⟩, rfl, rfl⟩
  · show 0 ≤ b.index_dest + 1
    omega
  · rcases hm with hm | ⟨hm, h1, h2⟩
    · exact Or.inl hm
    · exact Or.inr ⟨hm, h1, by show b.bit_index < b.index_dest + 1; omega⟩

theorem write_bit_cursor (v : Int) (b : Buffers) (h : BitCursorOK b) (hM : b.index_dest < MAX) :
    ∃ b2, write_bit v b = some b2 ∧ BitCursorOK b2 ∧
      8 * b2.index_dest - bitsLeft b2.bit_mask = 8 * b.index_dest - bitsLeft b.bit_mask + 1 ∧
      b2.index_dest ≤ b.index_dest + 1 := by
  obtain ⟨h0, hm⟩ := h
  have c : ¬ (b.index_dest < 0 ∨ b.index_dest ≥ MAX) := by omega
  rcases hm with hm | ⟨hm, h1, h2⟩
  · unfold write_bit write_byte
    simp only [hm, if_true, if_neg c]
    refine ⟨_, rfl, ⟨?_, ?_⟩, ?_, ?_⟩
    · show 0 ≤ b.index_dest + 1
      omega
    · exact Or.inr ⟨mask_fresh _ rfl, h0, by show b.index_dest < b.index_dest + 1; omega⟩
    · show 8 * (b.index_dest + 1) - bitsLeft (128 >>> 1) = 8 * b.index_dest - bitsLeft 0 + 1
      have e1 : bitsLeft (128 >>> 1) = 7 := by decide
      have e2 : bitsLeft 0 = 0 := by decide
      rw [e1, e2]; ring
    · show b.index_dest + 1 ≤ b.index_dest + 1
      omega
  · have c1 : ¬ (b.bit_mask = 0) := by omega
    have c2 : ¬ (b.bit_index < 0 ∨ b.bit_index ≥ MAX) := by omega
    unfold write_bit
    simp only [if_neg c1, if_neg c2]
    refine ⟨_, rfl, ⟨h0, ?_⟩, ?_, ?_⟩
    · rcases mask_shift _ hm with e | e
      · exact Or.inl e
      · exact Or.inr ⟨e, h1, h2⟩
    · show 8 * b.index_dest - bitsLeft (b.bit_mask >>> 1) = 8 * b.index_dest - bitsLeft b.bit_mask + 1
      have e3 : bitsLeft (b.bit_mask >>> 1) = bitsLeft b.bit_mask - 1 := by
        rcases hm with e | e | e | e | e | e | e <;> rw [e] <;> decide
      rw [e3]; ring
    · show b.index_dest ≤ b.index_dest + 1
      omega

theorem bitsLeft_range (b : Buffers) (h : BitCursorOK b) :
    0 ≤ bitsLeft b.bit_mask ∧ bitsLeft b.bit_mask ≤ 7 := by
  rcases h.2 with e | ⟨e, _, _⟩
  · rw [e]; decide
  · rcases e with e | e | e | e | e | e | e <;> rw [e] <;> decide

theorem opsBits_length (ops : List WOp) : (ops.length : Int) ≤ opsBits ops := by
  induction ops with
  | nil => simp [opsBits]
  | cons op ops ih =>
    simp only [List.length_cons, opsBits]
    push_cast
    cases op <;> simp only [opBits] <;> omega

theorem runOps_cursor : ∀ (ops : List WOp) (b : Buffers), BitCursorOK b →
    b.index_dest + ops.length ≤ MAX →
    ∃ b2, runOps ops b = some b2 ∧ BitCursorOK b2 ∧
      8 * b2.index_dest - bitsLeft b2.bit_mask =
        8 * b.index_dest - bitsLeft b.bit_mask + opsBits ops := by
  intro ops
  induction ops with
  | nil =>
    intro b h _
    exact ⟨b, rfl, h, by simp [opsBits]⟩
  | cons op ops ih =>
    intro b h hM
    simp only [List.length_cons] at hM
    push_cast at hM
    cases op with
    | bit v =>
      obtain ⟨b1, e1, k1, q1, l1⟩ := write_bit_cursor v b h (by omega)
      obtain ⟨b2, e2, k2, q2⟩ := ih b1 k1 (by omega)
      refine ⟨b2, ?_, k2, ?_⟩
      · rw [runOps_bit, e1]; exact e2
      · rw [q2, q1]; simp only [opsBits, opBits]; ring
    | byte v =>
      obtain ⟨b1, e1, k1, i1, m1⟩ := write_byte_cursor v b h (by omega)
      obtain ⟨b2, e2, k2, q2⟩ := ih b1 k1 (by omega)
      refine ⟨b2, ?_, k2, ?_⟩
      · rw [runOps_byte, e1]; exact e2
      · rw [q2, i1, m1]; simp only [opsBits, opBits]; ring

theorem opsBits_end_ops : opsBits end_ops = 9 := by decide

theorem dan3_encode_eq (src : List Nat) (max_bits rle_enabled fast_mode : Int)
    (out : Int → Nat) (g : Globals) (hlen : (src.length : Int) ≤ MAX) :
    dan3_encode src out (set_dan3_options max_bits rle_enabled fast_mode g) =
      (lzss_slow (encode_entry src max_bits rle_enabled fast_mode g)).bind
        (fun r => if r.1 ≥ 0 then
            (if r.1 > MAX then some (-1, out, r.2)
             else some (r.1, memcpy out r.2.buf.data_dest r.1, r.2))
          else some (r.1, out, r.2)) := by
  unfold dan3_encode encode_entry
  simp only [if_neg (show ¬ ((src.length : Int) > MAX) by omega)]
  cases lzss_slow _ with
  | none => rfl
  | some r => rfl

/-- The size that `encode` returns: the bits of the selector, of the first byte
with the tokens, and of the end marker, rounded up to whole bytes. -/
theorem encode_size (src : List Nat) (max_bits : Int) (out : Int → Nat) (g : Globals)
    (s : ScanState) (v : Int)
    (h1 : 1 ≤ (src.length : Int)) (h2 : (src.length : Int) ≤ 100000)
    (hs : lzss_scan (encode_entry src max_bits 0 0 g) = some s)
    (hv1 : 8 * v - 7 ≤ (s.parse.optimals ((src.length : Int) - 1)).bits
        (chosen_subset (encode_entry src max_bits 0 0 g) s) +
        chosen_subset (encode_entry src max_bits 0 0 g) s + 10)
    (hv2 : (s.parse.optimals ((src.length : Int) - 1)).bits
        (chosen_subset (encode_entry src max_bits 0 0 g) s) +
        chosen_subset (encode_entry src max_bits 0 0 g) s + 10 ≤ 8 * v) :
    ∃ bytes, encode src max_bits 0 0 out g = Seen.returned v bytes := by
  have hM := MAX_eq
  obtain ⟨hn1, hn8⟩ := options_nbr max_bits 0 0 g
  obtain ⟨s2, hs2, hinv, ⟨hc0, hc1⟩, hsel, _, hw, hcost⟩ := lzss_slow_spec
    (encode_entry src max_bits 0 0 g) hn1 hn8 h1 (by show (src.length : Int) ≤ MAX; omega)
  have es : s2 = s := by rw [hs] at hs2; exact (Option.some.inj hs2).symm
  subst es
  have hidx : (encode_entry src max_bits 0 0 g).buf.index_src = (src.length : Int) := rfl
  rw [hidx] at hcost
  have hle := ((hinv _ hc0 hc1).2.1 ((src.length : Int) - 1))
  have hub : (s2.parse.optimals ((src.length : Int) - 1)).bits
      (chosen_subset (encode_entry src max_bits 0 0 g) s2) ≤ 8 + 9 * ((src.length : Int) - 1) := by
    by_cases h0 : (src.length : Int) - 1 = 0
    · rw [h0, (hinv _ hc0 hc1).1.1]; omega
    · exact (hle (by omega) (by rw [hidx]; omega)).2.2.2.2.2
  have hr7 : chosen_subset (encode_entry src max_bits 0 0 g) s2 ≤ 7 := by
    have h3 : chosen_subset (encode_entry src max_bits 0 0 g) s2 <
        (set_dan3_options max_bits 0 0 g).BIT_OFFSET_NBR_ALLOWED := hc1
    omega
  have hlenBits : opsBits (bits_ops 254
        (chosen_subset (encode_entry src max_bits 0 0 g) s2 + 1).toNat ++
        (WOp.byte ((encode_entry src max_bits 0 0 g).buf.data_src 0) ::
          emitted_tokens (encode_entry src max_bits 0 0 g) s2) ++ end_ops) =
      chosen_subset (encode_entry src max_bits 0 0 g) s2 + 1 +
        (s2.parse.optimals ((src.length : Int) - 1)).bits
          (chosen_subset (encode_entry src max_bits 0 0 g) s2) + 9 := by
    rw [opsBits_append, opsBits_append, opsBits_bits_ops, hcost, opsBits_end_ops]
    have : (((chosen_subset (encode_entry src max_bits 0 0 g) s2 + 1).toNat : Nat) : Int) =
        chosen_subset (encode_entry src max_bits 0 0 g) s2 + 1 := by omega
    rw [this]
  obtain ⟨b3, e3, k3, q3⟩ := runOps_cursor
    (bits_ops 254 (chosen_subset (encode_entry src max_bits 0 0 g) s2 + 1).toNat ++
      (WOp.byte ((encode_entry src max_bits 0 0 g).buf.data_src 0) ::
        emitted_tokens (encode_entry src max_bits 0 0 g) s2) ++ end_ops)
    { (encode_entry src max_bits 0 0 g).buf with index_dest := 0, bit_mask := 0, bit_index := 0 }
    ⟨le_refl 0, Or.inl rfl⟩
    (by
      have h5 := opsBits_length (bits_ops 254
        (chosen_subset (encode_entry src max_bits 0 0 g) s2 + 1).toNat ++
        (WOp.byte ((encode_entry src max_bits 0 0 g).buf.data_src 0) ::
          emitted_tokens (encode_entry src max_bits 0 0 g) s2) ++ end_ops)
      rw [hlenBits] at h5
      show (0 : Int) + _ ≤ MAX
      omega)
  rw [hlenBits] at q3
  have hr := bitsLeft_range b3 k3
  have e0 : bitsLeft 0 = 0 := by decide
  have q4 : 8 * b3.index_dest - bitsLeft b3.bit_mask =
      chosen_subset (encode_entry src max_bits 0 0 g) s2 + 1 +
        (s2.parse.optimals ((src.length : Int) - 1)).bits
          (chosen_subset (encode_entry src max_bits 0 0 g) s2) + 9 := by
    have h6 : (8 : Int) * 0 - bitsLeft 0 = 0 := by rw [e0]; ring
    rw [q3]
    show (8 : Int) * 0 - bitsLeft 0 + _ = _
    rw [h6]; ring
  have hv : b3.index_dest = v := by omega
  have hslow := lzss_slow_eq _ s2 hs h1 hsel
  rw [hw, e3] at hslow
  simp only [Option.map_some'] at hslow
  unfold encode
  rw [dan3_encode_eq src max_bits 0 0 out g (by omega), hslow]
  simp only [Option.some_bind]
  rw [hv]
  have hv0 : v ≥ 0 := by have := k3.1; omega
  have hvM : ¬ (v > MAX) := by omega
  simp only [if_pos hv0, if_neg hvM]
  exact ⟨_, rfl⟩

theorem lzss_scan_far (g : Globals) (n : Int) (hn : g.buf.index_src = n) (hR : g.bRLE = 0)
    (hF : g.bFAST = 0) (hn1 : 2339 < n) (hn2 : n ≤ 4387)
    (hnear : ∀ i k, 1 ≤ k → k ≤ 3 → k ≤ i → i < n →
      g.buf.data_src i ≠ g.buf.data_src (i - k))
    (hkeys : ∀ a b, 1 ≤ a → a < b → b < n - 1 →
      key_of g.buf.data_src a ≠ key_of g.buf.data_src b)
    (hlast : key_of g.buf.data_src (n - 1) = key_of g.buf.data_src 2)
    (htail : g.buf.data_src (n - 3) ≠ g.buf.data_src 0) :
    ∃ s, lzss_scan g = some s ∧ ∀ r, 0 ≤ r → r < g.BIT_OFFSET_NBR_ALLOWED →
      (s.parse.optimals (n - 1)).bits r = (if r = 3 then 9 * n - 2 else 9 * n - 1) := by
  have hM := MAX_eq
  unfold lzss_scan
  obtain ⟨p0, hp0, hL0⟩ := update_optimal_first_exact g.BIT_OFFSET_NBR_ALLOWED
    { g.parse with optimals := init_optimals g.parse.optimals } (fun j r => rfl)
  rw [hp0]
  simp only
  rw [hR, hF, hn]
  have e : (n - 1).toNat = (n - 2).toNat + 1 := by omega
  rw [e, scan_loop_last]
  obtain ⟨t, ht, hLt, hCt⟩ := scan_loop_quiet g.buf.data_src g.BIT_OFFSET_NBR_ALLOWED (n - 1)
    (by omega) (fun i k h1 h2 h3 h4 => hnear i k h1 h2 h3 (by omega)) hkeys
    (n - 2).toNat 1 { parse := p0, matches_ := reset_matches g.matches_, prev_match_index := -1 }
    (le_refl 1) (by omega) hL0
    (fun key => Or.inl ⟨rfl, fun a h1 h2 => absurd h2 (by omega)⟩)
  rw [ht]
  simp only [Option.some_bind]
  have e2 : (1 : Int) + ((n - 2).toNat : Int) = n - 1 := by omega
  rw [e2] at hLt hCt ⊢
  have e3 : n - 1 - 2 = n - 3 := by ring
  obtain ⟨u, hu, hbits⟩ := scan_step_far g.buf.data_src g.BIT_OFFSET_NBR_ALLOWED (n - 1) t
    (by omega) (by omega) hLt hCt (fun k h1 h2 h3 => hnear (n - 1) k h1 h2 h3 (by omega))
    hkeys hlast (by rw [e3]; exact htail)
  refine ⟨u, hu, fun r h0 h1 => ?_⟩
  rw [hbits r h0 h1]
  split <;> ring

/-! ### The input `far_src` -/

theorem far_src_length : (far_src.length : Int) = 2559 := by
  simp [far_src]

theorem far_data (max_bits rle_enabled fast_mode : Int) (g : Globals) (i : Int)
    (h0 : 0 ≤ i) (h1 : i < 2559) :
    (encode_entry far_src max_bits rle_enabled fast_mode g).buf.data_src i =
      far_src_at i.toNat := by
  show memcpy _ (bufferOf far_src) (far_src.length : Int) i = _
  rw [far_src_length]
  have h2 : i.toNat < 2559 := by omega
  simp [memcpy, bufferOf, far_src, h0, h1, h2]

set_option maxRecDepth 100000 in
theorem far_pos_key_blocks : ∀ b < 10, ∀ j < 256, 1 ≤ 256 * b + j → 256 * b + j < 2558 →
    far_pos (far_key (256 * b + j)) = 256 * b + j := by
  decide!

theorem far_pos_key (k : Nat) (h1 : 1 ≤ k) (h2 : k < 2558) : far_pos (far_key k) = k := by
  have h := far_pos_key_blocks (k / 256) (by omega) (k % 256) (by omega)
  rw [Nat.div_add_mod] at h
  exact h h1 h2

set_option maxRecDepth 100000 in
theorem far_near_blocks : ∀ b < 10, ∀ j < 256, far_near_ok (256 * b + j) = true := by
  decide!

theorem far_near (i k : Nat) (h1 : 1 ≤ k) (h2 : k ≤ 3) (h3 : k ≤ i) (h4 : i < 2559) :
    far_src_at i ≠ far_src_at (i - k) := by
  have h := far_near_blocks (i / 256) (by omega) (i % 256) (by omega)
  rw [Nat.div_add_mod] at h
  simp only [far_near_ok, Bool.and_eq_true, Bool.or_eq_true, decide_eq_true_eq, bne_iff_ne] at h
  obtain ⟨e1, e2, e3⟩ := h
  have hk : k = 1 ∨ k = 2 ∨ k = 3 := by omega
  rcases hk with hk | hk | hk
  · subst hk
    rcases e1 with e | e
    · omega
    · exact e
  · subst hk
    rcases e2 with e | e
    · omega
    · exact e
  · subst hk
    rcases e3 with e | e
    · omega
    · exact e

theorem far_key_last : far_key 2558 = far_key 2 := by decide

theorem far_tail : far_src_at 2556 ≠ far_src_at 0 := by decide

theorem far_key_of (max_bits rle_enabled fast_mode : Int) (g : Globals) (a : Int)
    (h0 : 1 ≤ a) (h1 : a < 2559) :
    key_of (encode_entry far_src max_bits rle_enabled fast_mode g).buf.data_src a =
      ((far_key a.toNat : Nat) : Int) := by
  unfold key_of far_key
  rw [far_data _ _ _ _ (a - 1) (by omega) (by omega), far_data _ _ _ _ a (by omega) h1]
  have e : (a - 1).toNat = a.toNat - 1 := by omega
  rw [e]

/-- The scan of `lzss_slow` on `far_src`: the last position costs `9 * 2559 - 1`
bits in every subset but subset 3, where the distant pair saves one bit. -/
theorem far_scan (max_bits : Int) (g : Globals) :
    ∃ s, lzss_scan (encode_entry far_src max_bits 0 0 g) = some s ∧
      ∀ r, 0 ≤ r → r < (encode_entry far_src max_bits 0 0 g).BIT_OFFSET_NBR_ALLOWED →
        (s.parse.optimals 2558).bits r = (if r = 3 then 23029 else 23030) := by
  obtain ⟨s, hs, hb⟩ := lzss_scan_far (encode_entry far_src max_bits 0 0 g) 2559
    far_src_length rfl rfl (by omega) (by omega)
    (fun i k h1 h2 h3 h4 => by
      rw [far_data _ _ _ _ i (by omega) h4, far_data _ _ _ _ (i - k) (by omega) (by omega)]
      have e : (i - k).toNat = i.toNat - k.toNat := by omega
      rw [e]
      exact far_near i.toNat k.toNat (by omega) (by omega) (by omega) (by omega))
    (fun a b h1 h2 h3 => by
      rw [far_key_of _ _ _ _ a h1 (by omega), far_key_of _ _ _ _ b (by omega) (by omega)]
      intro hc
      have hc2 : far_key a.toNat = far_key b.toNat := by exact_mod_cast hc
      have ha := far_pos_key a.toNat (by omega) (by omega)
      have hb := far_pos_key b.toNat (by omega) (by omega)
      rw [hc2, hb] at ha
      omega)
    (by
      rw [far_key_of _ _ _ _ (2559 - 1) (by omega) (by omega),
        far_key_of _ _ _ _ 2 (by omega) (by omega)]
      have := far_key_last
      exact_mod_cast this)
    (by
      rw [far_data _ _ _ _ (2559 - 3) (by omega) (by omega),
        far_data _ _ _ _ 0 (by omega) (by omega)]
      exact far_tail)
  refine ⟨s, hs, fun r h0 h1 => ?_⟩
  have := hb r h0 h1
  norm_num at this
  exact this

theorem far_index (max_bits : Int) (g : Globals) :
    (encode_entry far_src max_bits 0 0 g).buf.index_src = 2559 := far_src_length

theorem far_chosen_9 (g : Globals) (s : ScanState)
    (h0 : (s.parse.optimals 2558).bits 0 = 23030) :
    chosen_subset (encode_entry far_src 9 0 0 g) s = 0 := by
  unfold chosen_subset select_best
  rw [far_index]
  have hn : (encode_entry far_src 9 0 0 g).BIT_OFFSET_NBR_ALLOWED = 1 := rfl
  have e1 : (1 : Int).toNat = 0 + 1 := rfl
  have e2 : (2559 : Int) - 1 = 2558 := by norm_num
  rw [hn, e1, e2]
  simp only [select_loop, h0, INF]
  norm_num

theorem far_chosen_12 (g : Globals) (s : ScanState)
    (h0 : (s.parse.optimals 2558).bits 0 = 23030) (h1 : (s.parse.optimals 2558).bits 1 = 23030)
    (h2 : (s.parse.optimals 2558).bits 2 = 23030) (h3 : (s.parse.optimals 2558).bits 3 = 23029) :
    chosen_subset (encode_entry far_src 12 0 0 g) s = 3 := by
  unfold chosen_subset select_best
  rw [far_index]
  have hn : (encode_entry far_src 12 0 0 g).BIT_OFFSET_NBR_ALLOWED = 4 := rfl
  have e1 : (4 : Int).toNat = 3 + 1 := rfl
  have e2 : (2559 : Int) - 1 = 2558 := by norm_num
  rw [hn, e1, e2]
  simp only [select_loop, h0, INF]
  norm_num [h1, h2, h3]

/-- With `max_bits = 9`, `encode` of `far_src` returns 2880 bytes. -/
theorem far_encode_9 (out : Int → Nat) (g : Globals) :
    ∃ bytes, encode far_src 9 0 0 out g = Seen.returned 2880 bytes := by
  obtain ⟨s, hs, hb⟩ := far_scan 9 g
  have hn : (encode_entry far_src 9 0 0 g).BIT_OFFSET_NBR_ALLOWED = 1 := rfl
  rw [hn] at hb
  have h0 := hb 0 (by omega) (by omega)
  norm_num at h0
  have hc := far_chosen_9 g s h0
  apply encode_size far_src 9 out g s 2880 (by rw [far_src_length]; omega)
    (by rw [far_src_length]; omega) hs
  · rw [hc, far_src_length]; norm_num; rw [h0]; omega
  · rw [hc, far_src_length]; norm_num; rw [h0]; omega

/-- With `max_bits = 12`, `encode` of `far_src` returns 2881 bytes. -/
theorem far_encode_12 (out : Int → Nat) (g : Globals) :
    ∃ bytes, encode far_src 12 0 0 out g = Seen.returned 2881 bytes := by
  obtain ⟨s, hs, hb⟩ := far_scan 12 g
  have hn : (encode_entry far_src 12 0 0 g).BIT_OFFSET_NBR_ALLOWED = 4 := rfl
  rw [hn] at hb
  have h0 := hb 0 (by omega) (by omega)
  have h1 := hb 1 (by omega) (by omega)
  have h2 := hb 2 (by omega) (by omega)
  have h3 := hb 3 (by omega) (by omega)
  norm_num at h0 h1 h2 h3
  have hc := far_chosen_12 g s h0 h1 h2 h3
  apply encode_size far_src 12 out g s 2881 (by rw [far_src_length]; omega)
    (by rw [far_src_length]; omega) hs
  · rw [hc, far_src_length]; norm_num; rw [h3]; omega
  · rw [hc, far_src_length]; norm_num; rw [h3]; omega

/-! ### One scan with more subsets than another -/

theorem SameCell.symm_ {p q : Parse} {j r : Int} (h : SameCell p q j r) : SameCell q p j r :=
  ⟨h.1.symm, h.2.1.symm, h.2.2.symm⟩

theorem update_optimal_step_frame (index len offset i : Int) (p : Parse) (j r2 : Int)
    (hne : r2 ≠ i) :
    ∀ q, update_optimal_step index len offset i p = some q → SameCell p q j r2 := by
  obtain ⟨pb, pm, po⟩ := p
  have keep : ∀ b m q, some (⟨b, m, po⟩ : Parse) = some q → SameCell ⟨pb, pm, po⟩ q j r2 := by
    intro b m q hq
    cases hq
    exact ⟨rfl, rfl, rfl⟩
  have sto : ∀ b m c o l q, some (store ⟨b, m, po⟩ index i c o l) = some q →
      SameCell ⟨pb, pm, po⟩ q j r2 := by
    intro b m c o l q hq
    cases hq
    exact store_same pb pm po index i c o l b m j r2 (Or.inr hne)
  have non : ∀ q, (none : Option Parse) = some q → SameCell ⟨pb, pm, po⟩ q j r2 := by
    intro q hq
    cases hq
  unfold update_optimal_step
  by_cases c0 : index < 0 ∨ index ≥ MAX
  · simp only [c0, if_true]; exact non
  simp only [c0, if_false]
  by_cases c1 : offset = 0
  · simp only [c1, if_true]
    by_cases c2 : index > 0
    · simp only [c2, if_true]
      by_cases c3 : index - 1 < 0 ∨ index - 1 ≥ MAX
      · simp only [c3, if_true]; exact non
      simp only [c3, if_false]
      by_cases c4 : (po (index - 1)).bits i = INF
      · simp only [c4, if_true]; exact keep _ _
      simp only [c4, if_false]
      by_cases c5 : len = 1
      · simp only [c5, if_true]
        by_cases c6 : (po index).bits i > (po (index - 1)).bits i + 1 + 8
        · simp only [c6, if_true]; exact sto _ _ _ _ _
        · simp only [c6, if_false]; exact keep _ _
      simp only [c5, if_false]
      by_cases c7 : index - len < 0 ∨ index - len ≥ MAX
      · simp only [c7, if_true]; exact non
      simp only [c7, if_false]
      by_cases c8 : (po (index - len)).bits i = INF
      · simp only [c8, if_true]; exact keep _ _
      simp only [c8, if_false]
      by_cases c9 : (po index).bits i > (po (index - len)).bits i + 1 + BIT_GOLOMG_MAX + 1 + 8 + len * 8
      · simp only [c9, if_true]; exact sto _ _ _ _ _
      · simp only [c9, if_false]; exact keep _ _
    · simp only [c2, if_false]; exact sto _ _ _ _ _
  simp only [c1, if_false]
  by_cases d1 : offset > index
  · simp only [d1, if_true]; exact keep _ _
  simp only [d1, if_false]
  by_cases d2 : index - len < 0 ∨ index - len ≥ MAX
  · simp only [d2, if_true]; exact non
  simp only [d2, if_false]
  by_cases d3 : (po (index - len)).bits i = INF
  · simp only [d3, if_true]; exact keep _ _
  simp only [d3, if_false]
  by_cases h32 : offset > MAX_OFFSET1
  · simp only [h32, if_true, true_and, set_BIT_OFFSET3]
    by_cases d4 : offset > 2 ^ (BIT_OFFSET_MIN + i).toNat + MAX_OFFSET2
    · simp only [d4, if_true]; exact keep _ _
    simp only [d4, if_false]
    by_cases d5 : (po index).bits i >
        (po (index - len)).bits i + count_bits (BIT_OFFSET_MIN + i) offset len
    · simp only [d5, if_true]; exact sto _ _ _ _ _
    · simp only [d5, if_false]; exact keep _ _
  · simp only [h32, if_false, false_and]
    by_cases d5 : (po index).bits i > (po (index - len)).bits i + count_bits pb offset len
    · simp only [d5, if_true]; exact sto _ _ _ _ _
    · simp only [d5, if_false]; exact keep _ _

theorem store_col (b m b2 m2 : Int) (po qo : Int → t_optimal) (index i cost offset len : Int)
    (h : ∀ j, SameCell ⟨b, m, po⟩ ⟨b2, m2, qo⟩ j i) :
    ∀ j, SameCell (store ⟨b, m, po⟩ index i cost offset len)
      (store ⟨b2, m2, qo⟩ index i cost offset len) j i := by
  intro j
  by_cases hj : j = index
  · simp [SameCell, store, setAt, hj]
  · have := h j
    simp only [SameCell] at this ⊢
    simpa [store, setAt, hj] using this

theorem update_optimal_step_col (index len offset i : Int) (p q : Parse)
    (h : ∀ j, SameCell p q j i) :
    OptRel (fun p1 q1 => ∀ j, SameCell p1 q1 j i) (update_optimal_step index len offset i p)
      (update_optimal_step index len offset i q) := by
  obtain ⟨pb, pm, po⟩ := p
  obtain ⟨qb, qm, qo⟩ := q
  have e1 : (qo (index - 1)).bits i = (po (index - 1)).bits i := (h (index - 1)).1
  have e2 : (qo (index - len)).bits i = (po (index - len)).bits i := (h (index - len)).1
  have e3 : (qo index).bits i = (po index).bits i := (h index).1
  have keep : ∀ b m b2 m2, ∀ j, SameCell ⟨b, m, po⟩ ⟨b2, m2, qo⟩ j i := fun _ _ _ _ j => h j
  unfold update_optimal_step
  simp only [e1, e2, e3]
  by_cases c0 : index < 0 ∨ index ≥ MAX
  · simp only [c0, if_true]; trivial
  simp only [c0, if_false]
  by_cases c1 : offset = 0
  · simp only [c1, if_true]
    by_cases c2 : index > 0
    · simp only [c2, if_true]
      by_cases c3 : index - 1 < 0 ∨ index - 1 ≥ MAX
      · simp only [c3, if_true]; trivial
      simp only [c3, if_false]
      by_cases c4 : (po (index - 1)).bits i = INF
      · simp only [c4, if_true]; exact keep _ _ _ _
      simp only [c4, if_false]
      by_cases c5 : len = 1
      · simp only [c5, if_true]
        by_cases c6 : (po index).bits i > (po (index - 1)).bits i + 1 + 8
        · simp only [c6, if_true]; exact store_col _ _ _ _ po qo _ _ _ _ _ (keep _ _ _ _)
        · simp only [c6, if_false]; exact keep _ _ _ _
      simp only [c5, if_false]
      by_cases c7 : index - len < 0 ∨ index - len ≥ MAX
      · simp only [c7, if_true]; trivial
      simp only [c7, if_false]
      by_cases c8 : (po (index - len)).bits i = INF
      · simp only [c8, if_true]; exact keep _ _ _ _
      simp only [c8, if_false]
      by_cases c9 : (po index).bits i > (po (index - len)).bits i + 1 + BIT_GOLOMG_MAX + 1 + 8 + len * 8
      · simp only [c9, if_true]; exact store_col _ _ _ _ po qo _ _ _ _ _ (keep _ _ _ _)
      · simp only [c9, if_false]; exact keep _ _ _ _
    · simp only [c2, if_false]; exact store_col _ _ _ _ po qo _ _ _ _ _ (keep _ _ _ _)
  simp only [c1, if_false]
  by_cases d1 : offset > index
  · simp only [d1, if_true]; exact keep _ _ _ _
  simp only [d1, if_false]
  by_cases d2 : index - len < 0 ∨ index - len ≥ MAX
  · simp only [d2, if_true]; trivial
  simp only [d2, if_false]
  by_cases d3 : (po (index - len)).bits i = INF
  · simp only [d3, if_true]; exact keep _ _ _ _
  simp only [d3, if_false]
  by_cases h32 : offset > MAX_OFFSET1
  · simp only [h32, if_true, true_and, set_BIT_OFFSET3]
    by_cases d4 : offset > 2 ^ (BIT_OFFSET_MIN + i).toNat + MAX_OFFSET2
    · simp only [d4, if_true]; exact keep _ _ _ _
    simp only [d4, if_false, e2, e3]
    by_cases d5 : (po index).bits i >
        (po (index - len)).bits i + count_bits (BIT_OFFSET_MIN + i) offset len
    · simp only [d5, if_true]; exact store_col _ _ _ _ po qo _ _ _ _ _ (keep _ _ _ _)
    · simp only [d5, if_false]; exact keep _ _ _ _
  · have hc : count_bits pb offset len = count_bits qb offset len :=
      count_bits_small _ _ _ _ (by simp only [MAX_OFFSET1, MAX_OFFSET2] at *; omega)
    simp only [h32, if_false, false_and, e2, e3]
    rw [hc]
    by_cases d5 : (po index).bits i > (po (index - len)).bits i + count_bits qb offset len
    · simp only [d5, if_true]; exact store_col _ _ _ _ po qo _ _ _ _ _ (keep _ _ _ _)
    · simp only [d5, if_false]; exact keep _ _ _ _

theorem update_optimal_loop_high (index len offset : Int) (K : Nat) :
    ∀ (d : Nat) (p q : Parse), update_optimal_loop index len offset (K + d) p = some q →
      ∃ p1, update_optimal_loop index len offset K p1 = some q ∧
        ∀ j r, r < (K : Int) → SameCell p p1 j r := by
  intro d
  induction d with
  | zero =>
    intro p q h
    exact ⟨p, h, fun j r _ => SameCell.rfl_ p j r⟩
  | succ d ih =>
    intro p q h
    have e : K + (d + 1) = (K + d) + 1 := by omega
    rw [e] at h
    unfold update_optimal_loop at h
    cases hx : update_optimal_step index len offset ((K + d : Nat) : Int) p with
    | none => rw [hx] at h; exact absurd h (by simp)
    | some p2 =>
      rw [hx] at h
      simp only at h
      obtain ⟨p1, h1, hf⟩ := ih p2 q h
      refine ⟨p1, h1, fun j r hr => ?_⟩
      have hfr := update_optimal_step_frame index len offset ((K + d : Nat) : Int) p j r
        (by push_cast; omega) p2 hx
      exact hfr.trans_ (hf j r hr)

theorem update_optimal_loop_lock (index len offset K : Int) :
    ∀ (k : Nat) (p q p1 q1 : Parse), (k : Int) ≤ K → ColsEq K p q →
      update_optimal_loop index len offset k p = some p1 →
      update_optimal_loop index len offset k q = some q1 → ColsEq K p1 q1 := by
  intro k
  induction k with
  | zero =>
    intro p q p1 q1 _ h hp hq
    cases hp
    cases hq
    exact h
  | succ k ih =>
    intro p q p1 q1 hk h hp hq
    push_cast at hk
    unfold update_optimal_loop at hp hq
    have hcol := update_optimal_step_col index len offset (k : Int) p q
      (h (k : Int) (by omega) (by omega))
    cases hx : update_optimal_step index len offset (k : Int) p with
    | none => rw [hx] at hp; exact absurd hp (by simp)
    | some p2 =>
      cases hy : update_optimal_step index len offset (k : Int) q with
      | none => rw [hy] at hq; exact absurd hq (by simp)
      | some q2 =>
        rw [hx] at hp
        rw [hy] at hq
        simp only at hp hq
        rw [hx, hy] at hcol
        refine ih p2 q2 p1 q1 (by omega) ?_ hp hq
        intro r hr0 hr1 j
        by_cases hr : r = (k : Int)
        · rw [hr]; exact hcol j
        · have f1 := update_optimal_step_frame index len offset (k : Int) p j r hr p2 hx
          have f2 := update_optimal_step_frame index len offset (k : Int) q j r hr q2 hy
          exact (f1.symm_.trans_ (h r hr0 hr1 j)).trans_ f2

theorem update_optimal_cross (na nb index len offset : Int) (hab : na ≤ nb)
    (p q p1 q1 : Parse) (h : ColsEq na p q)
    (hp : update_optimal nb index len offset p = some p1)
    (hq : update_optimal na index len offset q = some q1) : ColsEq na p1 q1 := by
  unfold update_optimal at hp hq
  have e : nb.toNat = na.toNat + (nb.toNat - na.toNat) := by omega
  rw [e] at hp
  obtain ⟨p2, h2, hf⟩ := update_optimal_loop_high index len offset na.toNat _ p p1 hp
  by_cases hna : 0 ≤ na
  · have e2 : ((na.toNat : Nat) : Int) = na := by omega
    apply update_optimal_loop_lock index len offset na na.toNat p2 q p1 q1 (by omega) _ h2 hq
    intro r hr0 hr1 j
    exact (hf j r (by omega)).symm_.trans_ (h r hr0 hr1 j)
  · intro r hr0 hr1
    omega

theorem rle_loop_cross (na nb i : Int) (hab : na ≤ nb) :
    ∀ (c : Nat) (k : Int) (p q p1 q1 : Parse), ColsEq na p q →
      rle_loop nb i c k p = some p1 → rle_loop na i c k q = some q1 → ColsEq na p1 q1 := by
  intro c
  induction c with
  | zero =>
    intro k p q p1 q1 h hp hq
    cases hp
    cases hq
    exact h
  | succ c ih =>
    intro k p q p1 q1 h hp hq
    unfold rle_loop at hp hq
    cases hx : update_optimal nb i k 0 p with
    | none => rw [hx] at hp; exact absurd hp (by simp)
    | some p2 =>
      cases hy : update_optimal na i k 0 q with
      | none => rw [hy] at hq; exact absurd hq (by simp)
      | some q2 =>
        rw [hx] at hp
        rw [hy] at hq
        simp only at hp hq
        exact ih (k - 1) p2 q2 p1 q1 (update_optimal_cross na nb i k 0 hab p q p2 q2 h hx hy) hp hq

theorem len1_loop_cross (src : Int → Nat) (na nb i : Int) (hab : na ≤ nb) :
    ∀ (c : Nat) (k : Int) (p q p1 q1 : Parse), ColsEq na p q →
      len1_loop src nb i c k p = some p1 → len1_loop src na i c k q = some q1 →
      ColsEq na p1 q1 := by
  intro c
  induction c with
  | zero =>
    intro k p q p1 q1 h hp hq
    cases hp
    cases hq
    exact h
  | succ c ih =>
    intro k p q p1 q1 h hp hq
    unfold len1_loop at hp hq
    by_cases g1 : i < 0 ∨ i ≥ MAX ∨ i - k < 0 ∨ i - k ≥ MAX
    · simp only [if_pos g1] at hp
      exact absurd hp (by simp)
    · simp only [if_neg g1] at hp hq
      by_cases g2 : src i = src (i - k)
      · simp only [if_pos g2] at hp hq
        cases hx : update_optimal nb i 1 k p with
        | none => rw [hx] at hp; exact absurd hp (by simp)
        | some p2 =>
          cases hy : update_optimal na i 1 k q with
          | none => rw [hy] at hq; exact absurd hq (by simp)
          | some q2 =>
            rw [hx] at hp
            rw [hy] at hq
            simp only at hp hq
            exact ih (k + 1) p2 q2 p1 q1
              (update_optimal_cross na nb i 1 k hab p q p2 q2 h hx hy) hp hq
      · simp only [if_neg g2] at hp hq
        exact ih (k + 1) p q p1 q1 h hp hq

theorem match_len_loop_cross (src : Int → Nat) (na nb i offset : Int) (hab : na ≤ nb) :
    ∀ (f : Nat) (len best : Int) (p q : Parse) (r1 r2 : Int × Parse), ColsEq na p q →
      match_len_loop src nb i offset f len best p = some r1 →
      match_len_loop src na i offset f len best q = some r2 →
      r1.1 = r2.1 ∧ ColsEq na r1.2 r2.2 := by
  intro f
  induction f with
  | zero =>
    intro len best p q r1 r2 h hp hq
    cases hp
    cases hq
    exact ⟨rfl, h⟩
  | succ f ih =>
    intro len best p q r1 r2 h hp hq
    unfold match_len_loop at hp hq
    by_cases g0 : len ≤ MAX_GAMMA
    · simp only [if_pos g0] at hp hq
      by_cases g1 : i - len < 0 ∨ i - len - offset < 0 ∨ i - len ≥ MAX ∨ i - len - offset ≥ MAX
      · simp only [if_pos g1] at hp hq
        cases hp
        cases hq
        exact ⟨rfl, h⟩
      · simp only [if_neg g1] at hp hq
        cases hx : update_optimal nb i len offset p with
        | none => rw [hx] at hp; exact absurd hp (by simp)
        | some p2 =>
          cases hy : update_optimal na i len offset q with
          | none => rw [hy] at hq; exact absurd hq (by simp)
          | some q2 =>
            rw [hx] at hp
            rw [hy] at hq
            simp only at hp hq
            have h2 := update_optimal_cross na nb i len offset hab p q p2 q2 h hx hy
            by_cases g2 : i < offset + len ∨ src (i - len) ≠ src (i - len - offset)
            · simp only [if_pos g2] at hp hq
              cases hp
              cases hq
              exact ⟨rfl, h2⟩
            · simp only [if_neg g2] at hp hq
              exact ih (len + 1) len p2 q2 r1 r2 h2 hp hq
    · simp only [if_neg g0] at hp hq
      cases hp
      cases hq
      exact ⟨rfl, h⟩

theorem match_walk_cross (src : Int → Nat) (na nb bFAST i : Int) (hab : na ≤ nb) :
    ∀ (chain : List Int) (best : Int) (p q : Parse) (r1 r2 : List Int × Parse),
      ColsEq na p q →
      match_walk src nb bFAST i chain best p = some r1 →
      match_walk src na bFAST i chain best q = some r2 →
      r1.1 = r2.1 ∧ ColsEq na r1.2 r2.2 := by
  intro chain
  induction chain with
  | nil =>
    intro best p q r1 r2 h hp hq
    simp only [match_walk] at hp hq
    cases hp
    cases hq
    exact ⟨rfl, h⟩
  | cons a rest ih =>
    intro best p q r1 r2 h hp hq
    cases rest with
    | nil =>
      simp only [match_walk] at hp hq
      cases hp
      cases hq
      exact ⟨rfl, h⟩
    | cons b rest =>
      unfold match_walk at hp hq
      simp only at hp hq
      by_cases h1 : i - a > MAX_OFFSET
      · simp only [if_pos h1] at hp hq
        cases hp
        cases hq
        exact ⟨rfl, h⟩
      · simp only [if_neg h1] at hp hq
        by_cases h2 : i - a ≤ 0 ∨ i - (i - a) < 0
        · simp only [if_pos h2] at hp hq
          cases hx : match_walk src nb bFAST i (b :: rest) best p with
          | none => rw [hx] at hp; exact absurd hp (by simp)
          | some x =>
            cases hy : match_walk src na bFAST i (b :: rest) best q with
            | none => rw [hy] at hq; exact absurd hq (by simp)
            | some y =>
              rw [hx] at hp
              rw [hy] at hq
              simp only [Option.map_some'] at hp hq
              cases hp
              cases hq
              obtain ⟨e1, e2⟩ := ih best p q x y h hx hy
              exact ⟨by simp only [e1], e2⟩
        · simp only [if_neg h2] at hp hq
          cases hx : match_len_loop src nb i (i - a) 253 2 best p with
          | none => rw [hx] at hp; exact absurd hp (by simp)
          | some x =>
            cases hy : match_len_loop src na i (i - a) 253 2 best q with
            | none => rw [hy] at hq; exact absurd hq (by simp)
            | some y =>
              rw [hx] at hp
              rw [hy] at hq
              simp only at hp hq
              obtain ⟨e1, e2⟩ := match_len_loop_cross src na nb i (i - a) hab 253 2 best p q x y h
                hx hy
              obtain ⟨bl, p1⟩ := x
              obtain ⟨bl2, q1⟩ := y
              simp only at e1 e2 hp hq
              subst e1
              by_cases h3 : bFAST ≠ 0 ∧ bl > 255
              · simp only [if_pos h3] at hp hq
                cases hp
                cases hq
                exact ⟨rfl, e2⟩
              · simp only [if_neg h3] at hp hq
                cases hx2 : match_walk src nb bFAST i (b :: rest) bl p1 with
                | none => rw [hx2] at hp; exact absurd hp (by simp)
                | some x2 =>
                  cases hy2 : match_walk src na bFAST i (b :: rest) bl q1 with
                  | none => rw [hy2] at hq; exact absurd hq (by simp)
                  | some y2 =>
                    rw [hx2] at hp
                    rw [hy2] at hq
                    simp only [Option.map_some'] at hp hq
                    cases hp
                    cases hq
                    obtain ⟨e3, e4⟩ := ih bl p1 q1 x2 y2 e2 hx2 hy2
                    exact ⟨by simp only [e3], e4⟩

theorem scan_step_cross (src : Int → Nat) (na nb bRLE bFAST i : Int) (hab : na ≤ nb)
    (hna : 1 ≤ na) (s t s1 t1 : ScanState) (h : ScanCols na s t)
    (hs : scan_step src nb bRLE bFAST i s = some s1)
    (ht : scan_step src na bRLE bFAST i t = some t1) : ScanCols na s1 t1 := by
  obtain ⟨sp, sm, spi⟩ := s
  obtain ⟨tp, tm, tpi⟩ := t
  obtain ⟨hp, hm, hpi⟩ := h
  simp only at hp hm hpi
  subst hm hpi
  unfold scan_step at hs ht
  simp only at hs ht
  cases hx1 : update_optimal nb i 1 0 sp with
  | none => rw [hx1] at hs; exact absurd hs (by simp)
  | some p1 =>
  cases hy1 : update_optimal na i 1 0 tp with
  | none => rw [hy1] at ht; exact absurd ht (by simp)
  | some q1 =>
  rw [hx1] at hs
  rw [hy1] at ht
  simp only at hs ht
  have c1 := update_optimal_cross na nb i 1 0 hab sp tp p1 q1 hp hx1 hy1
  cases hx2 : (if bRLE ≠ 0 ∧ i ≥ RAW_MIN then
      rle_loop nb i ((if RAW_MAX > i then i else RAW_MAX) - RAW_MIN).toNat
        (if RAW_MAX > i then i else RAW_MAX) p1 else some p1) with
  | none => rw [hx2] at hs; exact absurd hs (by simp)
  | some p2 =>
  cases hy2 : (if bRLE ≠ 0 ∧ i ≥ RAW_MIN then
      rle_loop na i ((if RAW_MAX > i then i else RAW_MAX) - RAW_MIN).toNat
        (if RAW_MAX > i then i else RAW_MAX) q1 else some q1) with
  | none => rw [hy2] at ht; exact absurd ht (by simp)
  | some q2 =>
  rw [hx2] at hs
  rw [hy2] at ht
  simp only at hs ht
  have c2 : ColsEq na p2 q2 := by
    by_cases hr : bRLE ≠ 0 ∧ i ≥ RAW_MIN
    · rw [if_pos hr] at hx2 hy2
      exact rle_loop_cross na nb i hab _ _ p1 q1 p2 q2 c1 hx2 hy2
    · rw [if_neg hr] at hx2 hy2
      cases hx2
      cases hy2
      exact c1
  cases hx3 : len1_loop src nb i (if MAX_OFFSET0 > i then i else MAX_OFFSET0).toNat 1 p2 with
  | none => rw [hx3] at hs; exact absurd hs (by simp)
  | some p3 =>
  cases hy3 : len1_loop src na i (if MAX_OFFSET0 > i then i else MAX_OFFSET0).toNat 1 q2 with
  | none => rw [hy3] at ht; exact absurd ht (by simp)
  | some q3 =>
  rw [hx3] at hs
  rw [hy3] at ht
  simp only at hs ht
  have c3 := len1_loop_cross src na nb i hab _ 1 p2 q2 p3 q3 c2 hx3 hy3
  by_cases h1 : i - 1 < 0 ∨ i ≥ MAX
  · simp only [if_pos h1] at hs ht
    cases hs
    cases ht
    exact ⟨c3, rfl, rfl⟩
  · simp only [if_neg h1] at hs ht
    have e1 : (q3.optimals (i - 1)).offset 0 = (p3.optimals (i - 1)).offset 0 :=
      (c3 0 (le_refl 0) (by omega) (i - 1)).2.1
    have e2 : (q3.optimals (i - 1)).len 0 = (p3.optimals (i - 1)).len 0 :=
      (c3 0 (le_refl 0) (by omega) (i - 1)).2.2
    simp only [e1, e2] at ht
    by_cases hf : spi = (((src (i - 1) <<< 8 ||| src i &&& 255 : Nat) : Int)) ∧ bFAST = TRUE ∧
        (p3.optimals (i - 1)).offset 0 = 1 ∧ (p3.optimals (i - 1)).len 0 > 2
    · simp only [if_pos hf] at hs ht
      cases hx4 : (if (p3.optimals (i - 1)).len 0 < MAX_GAMMA ∧
          (i ≥ (p3.optimals (i - 1)).len 0 ∧ i - (p3.optimals (i - 1)).len 0 ≥ 0 ∧
            i - (p3.optimals (i - 1)).len 0 < MAX)
          then update_optimal nb i ((p3.optimals (i - 1)).len 0 + 1) 1 p3 else some p3) with
      | none => rw [hx4] at hs; exact absurd hs (by simp)
      | some p4 =>
      cases hy4 : (if (p3.optimals (i - 1)).len 0 < MAX_GAMMA ∧
          (i ≥ (p3.optimals (i - 1)).len 0 ∧ i - (p3.optimals (i - 1)).len 0 ≥ 0 ∧
            i - (p3.optimals (i - 1)).len 0 < MAX)
          then update_optimal na i ((p3.optimals (i - 1)).len 0 + 1) 1 q3 else some q3) with
      | none => rw [hy4] at ht; exact absurd ht (by simp)
      | some q4 =>
      rw [hx4] at hs
      rw [hy4] at ht
      simp only at hs ht
      have c4 : ColsEq na p4 q4 := by
        by_cases hc : (p3.optimals (i - 1)).len 0 < MAX_GAMMA ∧
          (i ≥ (p3.optimals (i - 1)).len 0 ∧ i - (p3.optimals (i - 1)).len 0 ≥ 0 ∧
            i - (p3.optimals (i - 1)).len 0 < MAX)
        · rw [if_pos hc] at hx4 hy4
          exact update_optimal_cross na nb i _ 1 hab p3 q3 p4 q4 c3 hx4 hy4
        · rw [if_neg hc] at hx4 hy4
          cases hx4
          cases hy4
          exact c3
      cases hs
      cases ht
      exact ⟨c4, rfl, rfl⟩
    · simp only [if_neg hf] at hs ht
      cases hx4 : match_walk src nb bFAST i
          (sm (((src (i - 1) <<< 8 ||| src i &&& 255 : Nat) : Int))) 1 p3 with
      | none => rw [hx4] at hs; exact absurd hs (by simp)
      | some x =>
      cases hy4 : match_walk src na bFAST i
          (sm (((src (i - 1) <<< 8 ||| src i &&& 255 : Nat) : Int))) 1 q3 with
      | none => rw [hy4] at ht; exact absurd ht (by simp)
      | some y =>
      rw [hx4] at hs
      rw [hy4] at ht
      simp only at hs ht
      obtain ⟨e3, c4⟩ := match_walk_cross src na nb bFAST i hab _ 1 p3 q3 x y c3 hx4 hy4
      obtain ⟨ch, p4⟩ := x
      obtain ⟨ch2, q4⟩ := y
      simp only at e3 c4 hs ht
      subst e3
      cases hs
      cases ht
      exact ⟨c4, rfl, rfl⟩

theorem scan_loop_cross (src : Int → Nat) (na nb bRLE bFAST : Int) (hab : na ≤ nb)
    (hna : 1 ≤ na) :
    ∀ (c : Nat) (i : Int) (s t s1 t1 : ScanState), ScanCols na s t →
      scan_loop src nb bRLE bFAST c i s = some s1 →
      scan_loop src na bRLE bFAST c i t = some t1 → ScanCols na s1 t1 := by
  intro c
  induction c with
  | zero =>
    intro i s t s1 t1 h hs ht
    cases hs
    cases ht
    exact h
  | succ c ih =>
    intro i s t s1 t1 h hs ht
    unfold scan_loop at hs ht
    cases hx : scan_step src nb bRLE bFAST i s with
    | none => rw [hx] at hs; exact absurd hs (by simp)
    | some s2 =>
      cases hy : scan_step src na bRLE bFAST i t with
      | none => rw [hy] at ht; exact absurd ht (by simp)
      | some t2 =>
        rw [hx] at hs
        rw [hy] at ht
        simp only at hs ht
        exact ih (i + 1) s2 t2 s1 t1 (scan_step_cross src na nb bRLE bFAST i hab hna s t s2 t2 h
          hx hy) hs ht

theorem lzss_scan_cross (ga gb : Globals) (hd : gb.buf.data_src = ga.buf.data_src)
    (hi : gb.buf.index_src = ga.buf.index_src) (hR : gb.bRLE = ga.bRLE)
    (hF : gb.bFAST = ga.bFAST) (hab : ga.BIT_OFFSET_NBR_ALLOWED ≤ gb.BIT_OFFSET_NBR_ALLOWED)
    (hna : 1 ≤ ga.BIT_OFFSET_NBR_ALLOWED) (sa sb : ScanState)
    (hsb : lzss_scan gb = some sb) (hsa : lzss_scan ga = some sa) :
    ColsEq ga.BIT_OFFSET_NBR_ALLOWED sb.parse sa.parse := by
  unfold lzss_scan at hsa hsb
  rw [hd, hi, hR, hF] at hsb
  cases hx : update_optimal gb.BIT_OFFSET_NBR_ALLOWED 0 1 0
      { gb.parse with optimals := init_optimals gb.parse.optimals } with
  | none => rw [hx] at hsb; exact absurd hsb (by simp)
  | some p0 =>
    cases hy : update_optimal ga.BIT_OFFSET_NBR_ALLOWED 0 1 0
        { ga.parse with optimals := init_optimals ga.parse.optimals } with
    | none => rw [hy] at hsa; exact absurd hsa (by simp)
    | some q0 =>
      rw [hx] at hsb
      rw [hy] at hsa
      simp only at hsa hsb
      have c0 := update_optimal_cross ga.BIT_OFFSET_NBR_ALLOWED gb.BIT_OFFSET_NBR_ALLOWED 0 1 0 hab
        { gb.parse with optimals := init_optimals gb.parse.optimals }
        { ga.parse with optimals := init_optimals ga.parse.optimals }
        p0 q0 (fun r _ _ j => ⟨rfl, rfl, rfl⟩) hx hy
      exact (scan_loop_cross ga.buf.data_src ga.BIT_OFFSET_NBR_ALLOWED gb.BIT_OFFSET_NBR_ALLOWED
        ga.bRLE ga.bFAST hab hna (ga.buf.index_src - 1).toNat 1
        { parse := p0, matches_ := reset_matches gb.matches_, prev_match_index := -1 }
        { parse := q0, matches_ := reset_matches ga.matches_, prev_match_index := -1 }
        sb sa ⟨c0, rfl, rfl⟩ hsb hsa).1

theorem select_loop_min (last : t_optimal) :
    ∀ (c : Nat) (i : Int) (r : Int × Int),
      (select_loop last c i r).1 ≤ r.1 ∧
      ∀ x, i ≤ x → x < i + c → last.bits x ≠ INF → (select_loop last c i r).1 ≤ last.bits x := by
  intro c
  induction c with
  | zero =>
    intro i r
    exact ⟨le_refl _, fun x h1 h2 _ => absurd h2 (by push_cast; omega)⟩
  | succ c ih =>
    intro i r
    unfold select_loop
    by_cases h1 : last.bits i = INF
    · simp only [if_pos h1]
      obtain ⟨a, b⟩ := ih (i + 1) r
      refine ⟨a, fun x hx1 hx2 hx3 => ?_⟩
      by_cases hx : x = i
      · rw [hx] at hx3; exact absurd h1 hx3
      · exact b x (by omega) (by push_cast at hx2; omega) hx3
    · simp only [if_neg h1]
      by_cases h2 : last.bits i < r.1
      · simp only [if_pos h2]
        obtain ⟨a, b⟩ := ih (i + 1) (last.bits i, i)
        simp only at a
        refine ⟨by omega, fun x hx1 hx2 hx3 => ?_⟩
        by_cases hx : x = i
        · rw [hx]; exact a
        · exact b x (by omega) (by push_cast at hx2; omega) hx3
      · simp only [if_neg h2]
        obtain ⟨a, b⟩ := ih (i + 1) r
        refine ⟨a, fun x hx1 hx2 hx3 => ?_⟩
        by_cases hx : x = i
        · rw [hx]; omega
        · exact b x (by omega) (by push_cast at hx2; omega) hx3

theorem options_nbr_mono (a b rle_enabled fast_mode : Int) (g1 g2 : Globals) (hab : a ≤ b) :
    (set_dan3_options a rle_enabled fast_mode g1).BIT_OFFSET_NBR_ALLOWED ≤
      (set_dan3_options b rle_enabled fast_mode g2).BIT_OFFSET_NBR_ALLOWED := by
  simp only [set_dan3_options, BIT_OFFSET_MAX, BIT_OFFSET_MIN]
  split_ifs <;> omega

/-! ### Small streams through the decoder -/

theorem memcpy_zero (dst src : Int → Nat) : memcpy dst src 0 = dst := by
  funext i
  simp only [memcpy]
  split
  · omega
  · rfl

theorem bytesOf_zero (a : Int → Nat) : bytesOf a 0 = [] := by
  simp [bytesOf]

theorem bytesOf_neg (a : Int → Nat) : bytesOf a (-1) = [] := by
  simp [bytesOf]

theorem decode_nil (out : Int → Nat) (g : Globals) : decode [] out g = Seen.returned 0 [] := by
  simp [decode, dan3_decode, delzss, load_src, MAX, memcpy_zero, bytesOf_zero]

theorem decode_one_byte (x : Nat) (out : Int → Nat) (g : Globals) :
    decode [x] out g = Seen.returned (-1) [] := by
  by_cases h : x &&& 128 = 0 <;>
  simp [decode, dan3_decode, delzss, load_src, MAX, memcpy, bufferOf, read_subset, read_bit,
    BIT_OFFSET_NBR, bytesOf_neg, h]

theorem decode_00_41_00 (out : Int → Nat) (g : Globals) :
    decode [0, 0x41, 0] out g = Seen.returned (-1) [] := by
  simp [decode, dan3_decode, delzss, load_src, MAX, memcpy, bufferOf, read_subset, read_bit,
    read_byte, write_byte, delzss_loop, delzss_token, read_golomb_gamma, read_golomb_zeros,
    read_golomb_value, BIT_OFFSET_NBR, bytesOf, setAt, List.range, List.range.loop]

theorem decode_00_41_00_00 (out : Int → Nat) (g : Globals) :
    decode [0, 0x41, 0, 0] out g = Seen.returned 1 [0x41] := by
  simp [decode, dan3_decode, delzss, load_src, MAX, memcpy, bufferOf, read_subset, read_bit,
    read_byte, write_byte, delzss_loop, delzss_token, read_golomb_gamma, read_golomb_zeros,
    read_golomb_value, BIT_OFFSET_NBR, bytesOf, setAt, List.range, List.range.loop]

theorem decode_00_41 (out : Int → Nat) (g : Globals) :
    decode [0, 0x41] out g = Seen.returned 1 [0x41] := by
  simp [decode, dan3_decode, delzss, load_src, MAX, memcpy, bufferOf, read_subset, read_bit,
    read_byte, write_byte, delzss_loop, delzss_token, read_golomb_gamma, read_golomb_zeros,
    read_golomb_value, BIT_OFFSET_NBR, bytesOf, setAt, List.range, List.range.loop]

/-! ### The selected subset -/

theorem select_loop_first (last : t_optimal) :
    ∀ (c : Nat) (i : Int) (r : Int × Int), r.2 ≤ i →
      (∀ x, 0 ≤ x → x < r.2 → last.bits x ≠ INF → r.1 < last.bits x) →
      (∀ x, r.2 ≤ x → x < i → last.bits x ≠ INF → r.1 ≤ last.bits x) →
      ∀ x, 0 ≤ x → x < (select_loop last c i r).2 → last.bits x ≠ INF →
        (select_loop last c i r).1 < last.bits x := by
  intro c
  induction c with
  | zero => intro i r _ h1 _ x hx0 hx1 hx2; exact h1 x hx0 hx1 hx2
  | succ c ih =>
    intro i r hr h1 h2
    unfold select_loop
    by_cases c1 : last.bits i = INF
    · simp only [if_pos c1]
      refine ih (i + 1) r (by omega) h1 (fun x hx0 hx1 hx2 => ?_)
      by_cases hx : x = i
      · rw [hx] at hx2; exact absurd c1 hx2
      · exact h2 x hx0 (by omega) hx2
    · simp only [if_neg c1]
      by_cases c2 : last.bits i < r.1
      · simp only [if_pos c2]
        refine ih (i + 1) (last.bits i, i) (by simp) (fun x hx0 hx1 hx2 => ?_)
          (fun x hx0 hx1 hx2 => ?_)
        · simp only at hx1 ⊢
          by_cases hx : x < r.2
          · have := h1 x hx0 hx hx2
            omega
          · have := h2 x (by omega) hx1 hx2
            omega
        · simp only at hx0 hx1 ⊢
          have hx : x = i := by omega
          rw [hx]
      · simp only [if_neg c2]
        refine ih (i + 1) r (by omega) h1 (fun x hx0 hx1 hx2 => ?_)
        by_cases hx : x = i
        · rw [hx]; omega
        · exact h2 x hx0 (by omega) hx2

theorem write_byte_index (v : Nat) (b b2 : Buffers) (h : write_byte v b = some b2) :
    b2.index_dest = b.index_dest + 1 := by
  unfold write_byte at h
  split at h
  · exact absurd h (by simp)
  · cases h; rfl

theorem write_bit_index (v : Int) (b b2 : Buffers) (h : write_bit v b = some b2) :
    b.index_dest ≤ b2.index_dest := by
  unfold write_bit at h
  by_cases c1 : b.bit_mask = 0
  · simp only [if_pos c1] at h
    by_cases c2 : b.index_dest < 0 ∨ b.index_dest ≥ MAX
    · simp only [if_pos c2] at h
      exact absurd h (by simp)
    · simp only [if_neg c2, write_byte] at h
      have e := Option.some.inj h
      rw [← e]
      show b.index_dest ≤ b.index_dest + 1
      omega
  · simp only [if_neg c1] at h
    by_cases c2 : b.bit_index < 0 ∨ b.bit_index ≥ MAX
    · simp only [if_pos c2] at h
      exact absurd h (by simp)
    · simp only [if_neg c2] at h
      have e := Option.some.inj h
      rw [← e]

theorem runOps_index_mono : ∀ (ops : List WOp) (b b2 : Buffers), runOps ops b = some b2 →
    b.index_dest ≤ b2.index_dest := by
  intro ops
  induction ops with
  | nil => intro b b2 h; cases h; exact le_refl _
  | cons op ops ih =>
    intro b b2 h
    rw [runOps_cons] at h
    cases hx : runOp op b with
    | none => rw [hx] at h; exact absurd h (by simp)
    | some b1 =>
      rw [hx] at h
      simp only [Option.some_bind] at h
      have h1 := ih b1 b2 h
      cases op with
      | bit v => have := write_bit_index v b b1 hx; omega
      | byte v => have := write_byte_index v b b1 hx; omega

/-! ### Properties of the table that every call of `update_optimal` keeps -/

theorem update_optimal_loop_pres (P : Parse → Prop)
    (hstep : ∀ index len offset i p q, update_optimal_step index len offset i p = some q →
      P p → P q) (index len offset : Int) :
    ∀ (k : Nat) (p q : Parse), update_optimal_loop index len offset k p = some q → P p → P q := by
  intro k
  induction k with
  | zero => intro p q h hp; cases h; exact hp
  | succ k ih =>
    intro p q h hp
    unfold update_optimal_loop at h
    cases hx : update_optimal_step index len offset (k : Int) p with
    | none => rw [hx] at h; exact absurd h (by simp)
    | some p1 =>
      rw [hx] at h
      exact ih p1 q h (hstep index len offset (k : Int) p p1 hx hp)

theorem update_optimal_pres (P : Parse → Prop)
    (hstep : ∀ index len offset i p q, update_optimal_step index len offset i p = some q →
      P p → P q) (nbr index len offset : Int) (p q : Parse)
    (h : update_optimal nbr index len offset p = some q) (hp : P p) : P q :=
  update_optimal_loop_pres P hstep index len offset _ p q h hp

theorem rle_loop_pres (P : Parse → Prop)
    (hstep : ∀ index len offset i p q, update_optimal_step index len offset i p = some q →
      P p → P q) (nbr i : Int) :
    ∀ (c : Nat) (k : Int) (p q : Parse), rle_loop nbr i c k p = some q → P p → P q := by
  intro c
  induction c with
  | zero => intro k p q h hp; cases h; exact hp
  | succ c ih =>
    intro k p q h hp
    unfold rle_loop at h
    cases hx : update_optimal nbr i k 0 p with
    | none => rw [hx] at h; exact absurd h (by simp)
    | some p1 =>
      rw [hx] at h
      exact ih (k - 1) p1 q h (update_optimal_pres P hstep nbr i k 0 p p1 hx hp)

theorem len1_loop_pres (P : Parse → Prop)
    (hstep : ∀ index len offset i p q, update_optimal_step index len offset i p = some q →
      P p → P q) (src : Int → Nat) (nbr i : Int) :
    ∀ (c : Nat) (k : Int) (p q : Parse), len1_loop src nbr i c k p = some q → P p → P q := by
  intro c
  induction c with
  | zero => intro k p q h hp; cases h; exact hp
  | succ c ih =>
    intro k p q h hp
    unfold len1_loop at h
    by_cases g1 : i < 0 ∨ i ≥ MAX ∨ i - k < 0 ∨ i - k ≥ MAX
    · simp only [if_pos g1] at h
      exact absurd h (by simp)
    · simp only [if_neg g1] at h
      by_cases g2 : src i = src (i - k)
      · simp only [if_pos g2] at h
        cases hx : update_optimal nbr i 1 k p with
        | none => rw [hx] at h; exact absurd h (by simp)
        | some p1 =>
          rw [hx] at h
          exact ih (k + 1) p1 q h (update_optimal_pres P hstep nbr i 1 k p p1 hx hp)
      · simp only [if_neg g2] at h
        exact ih (k + 1) p q h hp

theorem match_len_loop_pres (P : Parse → Prop)
    (hstep : ∀ index len offset i p q, update_optimal_step index len offset i p = some q →
      P p → P q) (src : Int → Nat) (nbr i offset : Int) :
    ∀ (f : Nat) (len best : Int) (p : Parse) (r : Int × Parse),
      match_len_loop src nbr i offset f len best p = some r → P p → P r.2 := by
  intro f
  induction f with
  | zero => intro len best p r h hp; cases h; exact hp
  | succ f ih =>
    intro len best p r h hp
    unfold match_len_loop at h
    by_cases g0 : len ≤ MAX_GAMMA
    · simp only [if_pos g0] at h
      by_cases g1 : i - len < 0 ∨ i - len - offset < 0 ∨ i - len ≥ MAX ∨ i - len - offset ≥ MAX
      · simp only [if_pos g1] at h
        cases h
        exact hp
      · simp only [if_neg g1] at h
        cases hx : update_optimal nbr i len offset p with
        | none => rw [hx] at h; exact absurd h (by simp)
        | some p1 =>
          rw [hx] at h
          simp only at h
          have h1 := update_optimal_pres P hstep nbr i len offset p p1 hx hp
          by_cases g2 : i < offset + len ∨ src (i - len) ≠ src (i - len - offset)
          · simp only [if_pos g2] at h
            cases h
            exact h1
          · simp only [if_neg g2] at h
            exact ih (len + 1) len p1 r h h1
    · simp only [if_neg g0] at h
      cases h
      exact hp

theorem match_walk_pres (P : Parse → Prop)
    (hstep : ∀ index len offset i p q, update_optimal_step index len offset i p = some q →
      P p → P q) (src : Int → Nat) (nbr bFAST i : Int) :
    ∀ (chain : List Int) (best : Int) (p : Parse) (r : List Int × Parse),
      match_walk src nbr bFAST i chain best p = some r → P p → P r.2 := by
  intro chain
  induction chain with
  | nil =>
    intro best p r h hp
    simp only [match_walk] at h
    cases h
    exact hp
  | cons a rest ih =>
    intro best p r h hp
    cases rest with
    | nil =>
      simp only [match_walk] at h
      cases h
      exact hp
    | cons b rest =>
      unfold match_walk at h
      simp only at h
      by_cases h1 : i - a > MAX_OFFSET
      · simp only [if_pos h1] at h
        cases h
        exact hp
      · simp only [if_neg h1] at h
        by_cases h2 : i - a ≤ 0 ∨ i - (i - a) < 0
        · simp only [if_pos h2] at h
          cases hx : match_walk src nbr bFAST i (b :: rest) best p with
          | none => rw [hx] at h; exact absurd h (by simp)
          | some x =>
            rw [hx] at h
            simp only [Option.map_some'] at h
            cases h
            exact ih best p x hx hp
        · simp only [if_neg h2] at h
          cases hx : match_len_loop src nbr i (i - a) 253 2 best p with
          | none => rw [hx] at h; exact absurd h (by simp)
          | some x =>
            rw [hx] at h
            simp only at h
            have e2 := match_len_loop_pres P hstep src nbr i (i - a) 253 2 best p x hx hp
            obtain ⟨bl, p1⟩ := x
            simp only at e2 h
            by_cases h3 : bFAST ≠ 0 ∧ bl > 255
            · simp only [if_pos h3] at h
              cases h
              exact e2
            · simp only [if_neg h3] at h
              cases hx2 : match_walk src nbr bFAST i (b :: rest) bl p1 with
              | none => rw [hx2] at h; exact absurd h (by simp)
              | some x2 =>
                rw [hx2] at h
                simp only [Option.map_some'] at h
                cases h
                exact ih bl p1 x2 hx2 e2

theorem scan_step_pres (P : Parse → Prop)
    (hstep : ∀ index len offset i p q, update_optimal_step index len offset i p = some q →
      P p → P q) (src : Int → Nat) (nbr bRLE bFAST i : Int) (s s1 : ScanState)
    (hs : scan_step src nbr bRLE bFAST i s = some s1) (hp : P s.parse) : P s1.parse := by
  obtain ⟨sp, sm, spi⟩ := s
  simp only at hp
  unfold scan_step at hs
  simp only at hs
  cases hx1 : update_optimal nbr i 1 0 sp with
  | none => rw [hx1] at hs; exact absurd hs (by simp)
  | some p1 =>
  rw [hx1] at hs
  simp only at hs
  have c1 := update_optimal_pres P hstep nbr i 1 0 sp p1 hx1 hp
  cases hx2 : (if bRLE ≠ 0 ∧ i ≥ RAW_MIN then
      rle_loop nbr i ((if RAW_MAX > i then i else RAW_MAX) - RAW_MIN).toNat
        (if RAW_MAX > i then i else RAW_MAX) p1 else some p1) with
  | none => rw [hx2] at hs; exact absurd hs (by simp)
  | some p2 =>
  rw [hx2] at hs
  simp only at hs
  have c2 : P p2 := by
    by_cases hr : bRLE ≠ 0 ∧ i ≥ RAW_MIN
    · rw [if_pos hr] at hx2
      exact rle_loop_pres P hstep nbr i _ _ p1 p2 hx2 c1
    · rw [if_neg hr] at hx2
      cases hx2
      exact c1
  cases hx3 : len1_loop src nbr i (if MAX_OFFSET0 > i then i else MAX_OFFSET0).toNat 1 p2 with
  | none => rw [hx3] at hs; exact absurd hs (by simp)
  | some p3 =>
  rw [hx3] at hs
  simp only at hs
  have c3 := len1_loop_pres P hstep src nbr i _ 1 p2 p3 hx3 c2
  by_cases h1 : i - 1 < 0 ∨ i ≥ MAX
  · simp only [if_pos h1] at hs
    cases hs
    exact c3
  · simp only [if_neg h1] at hs
    by_cases hf : spi = (((src (i - 1) <<< 8 ||| src i &&& 255 : Nat) : Int)) ∧ bFAST = TRUE ∧
        (p3.optimals (i - 1)).offset 0 = 1 ∧ (p3.optimals (i - 1)).len 0 > 2
    · simp only [if_pos hf] at hs
      cases hx4 : (if (p3.optimals (i - 1)).len 0 < MAX_GAMMA ∧
          (i ≥ (p3.optimals (i - 1)).len 0 ∧ i - (p3.optimals (i - 1)).len 0 ≥ 0 ∧
            i - (p3.optimals (i - 1)).len 0 < MAX)
          then update_optimal nbr i ((p3.optimals (i - 1)).len 0 + 1) 1 p3 else some p3) with
      | none => rw [hx4] at hs; exact absurd hs (by simp)
      | some p4 =>
      rw [hx4] at hs
      simp only at hs
      have c4 : P p4 := by
        by_cases hc : (p3.optimals (i - 1)).len 0 < MAX_GAMMA ∧
          (i ≥ (p3.optimals (i - 1)).len 0 ∧ i - (p3.optimals (i - 1)).len 0 ≥ 0 ∧
            i - (p3.optimals (i - 1)).len 0 < MAX)
        · rw [if_pos hc] at hx4
          exact update_optimal_pres P hstep nbr i _ 1 p3 p4 hx4 c3
        · rw [if_neg hc] at hx4
          cases hx4
          exact c3
      cases hs
      exact c4
    · simp only [if_neg hf] at hs
      cases hx4 : match_walk src nbr bFAST i
          (sm (((src (i - 1) <<< 8 ||| src i &&& 255 : Nat) : Int))) 1 p3 with
      | none => rw [hx4] at hs; exact absurd hs (by simp)
      | some x =>
      rw [hx4] at hs
      simp only at hs
      have c4 := match_walk_pres P hstep src nbr bFAST i _ 1 p3 x hx4 c3
      cases hs
      exact c4

theorem scan_loop_pres (P : Parse → Prop)
    (hstep : ∀ index len offset i p q, update_optimal_step index len offset i p = some q →
      P p → P q) (src : Int → Nat) (nbr bRLE bFAST : Int) :
    ∀ (c : Nat) (i : Int) (s s1 : ScanState),
      scan_loop src nbr bRLE bFAST c i s = some s1 → P s.parse → P s1.parse := by
  intro c
  induction c with
  | zero => intro i s s1 h hp; cases h; exact hp
  | succ c ih =>
    intro i s s1 h hp
    unfold scan_loop at h
    cases hx : scan_step src nbr bRLE bFAST i s with
    | none => rw [hx] at h; exact absurd h (by simp)
    | some s2 =>
      rw [hx] at h
      exact ih (i + 1) s2 s1 h (scan_step_pres P hstep src nbr bRLE bFAST i s s2 hx hp)

theorem lzss_scan_pres (P : Parse → Prop)
    (hstep : ∀ index len offset i p q, update_optimal_step index len offset i p = some q →
      P p → P q) (g : Globals) (s : ScanState) (h : lzss_scan g = some s)
    (hp : P { g.parse with optimals := init_optimals g.parse.optimals }) : P s.parse := by
  unfold lzss_scan at h
  cases hx : update_optimal g.BIT_OFFSET_NBR_ALLOWED 0 1 0
      { g.parse with optimals := init_optimals g.parse.optimals } with
  | none => rw [hx] at h; exact absurd h (by simp)
  | some p0 =>
    rw [hx] at h
    simp only at h
    exact scan_loop_pres P hstep g.buf.data_src g.BIT_OFFSET_NBR_ALLOWED g.bRLE g.bFAST
      (g.buf.index_src - 1).toNat 1
      { parse := p0, matches_ := reset_matches g.matches_, prev_match_index := -1 } s h
      (update_optimal_pres P hstep g.BIT_OFFSET_NBR_ALLOWED 0 1 0 _ p0 hx hp)

theorem store_offset_inv (b m b2 m2 : Int) (po : Int → t_optimal) (index i cost o l : Int)
    (h : OffsetInv ⟨b, m, po⟩) (ho : o ≤ 2 ^ (BIT_OFFSET_MIN + i).toNat + MAX_OFFSET2) :
    OffsetInv (store ⟨b2, m2, po⟩ index i cost o l) := by
  intro j r
  by_cases hc : j = index ∧ r = i
  · rw [hc.1, hc.2, (store_at b2 m2 po index i cost o l).2.1]
    exact ho
  · have hs := store_same b m po index i cost o l b2 m2 j r (by
      by_cases hj : j = index
      · exact Or.inr (fun hr => hc ⟨hj, hr⟩)
      · exact Or.inl hj)
    rw [hs.2.1]
    exact h j r

theorem offset_bound_pos (i : Int) : (0 : Int) ≤ 2 ^ (BIT_OFFSET_MIN + i).toNat + MAX_OFFSET2 := by
  have h1 : (0 : Int) ≤ 2 ^ (BIT_OFFSET_MIN + i).toNat := pow_nonneg (by norm_num) _
  have h2 : MAX_OFFSET2 = 288 := by decide
  omega

theorem update_optimal_step_offset (index len offset i : Int) (p : Parse) (hp : OffsetInv p) :
    ∀ q, update_optimal_step index len offset i p = some q → OffsetInv q := by
  obtain ⟨pb, pm, po⟩ := p
  have h2 : MAX_OFFSET2 = 288 := by decide
  have h1 : MAX_OFFSET1 = 32 := by decide
  have hpos := offset_bound_pos i
  have keep : ∀ b m q, some (⟨b, m, po⟩ : Parse) = some q → OffsetInv q := by
    intro b m q hq
    cases hq
    exact hp
  have sto : ∀ b m c o l, o ≤ 2 ^ (BIT_OFFSET_MIN + i).toNat + MAX_OFFSET2 →
      ∀ q, some (store ⟨b, m, po⟩ index i c o l) = some q → OffsetInv q := by
    intro b m c o l ho q hq
    cases hq
    exact store_offset_inv pb pm b m po index i c o l hp ho
  have non : ∀ q, (none : Option Parse) = some q → OffsetInv q := by
    intro q hq
    cases hq
  unfold update_optimal_step
  by_cases c0 : index < 0 ∨ index ≥ MAX
  · simp only [c0, if_true]; exact non
  simp only [c0, if_false]
  by_cases c1 : offset = 0
  · simp only [c1, if_true]
    by_cases c2 : index > 0
    · simp only [c2, if_true]
      by_cases c3 : index - 1 < 0 ∨ index - 1 ≥ MAX
      · simp only [c3, if_true]; exact non
      simp only [c3, if_false]
      by_cases c4 : (po (index - 1)).bits i = INF
      · simp only [c4, if_true]; exact keep _ _
      simp only [c4, if_false]
      by_cases c5 : len = 1
      · simp only [c5, if_true]
        by_cases c6 : (po index).bits i > (po (index - 1)).bits i + 1 + 8
        · simp only [c6, if_true]; exact sto _ _ _ 0 _ hpos
        · simp only [c6, if_false]; exact keep _ _
      simp only [c5, if_false]
      by_cases c7 : index - len < 0 ∨ index - len ≥ MAX
      · simp only [c7, if_true]; exact non
      simp only [c7, if_false]
      by_cases c8 : (po (index - len)).bits i = INF
      · simp only [c8, if_true]; exact keep _ _
      simp only [c8, if_false]
      by_cases c9 : (po index).bits i > (po (index - len)).bits i + 1 + BIT_GOLOMG_MAX + 1 + 8 + len * 8
      · simp only [c9, if_true]; exact sto _ _ _ 0 _ hpos
      · simp only [c9, if_false]; exact keep _ _
    · simp only [c2, if_false]; exact sto _ _ _ 0 _ hpos
  simp only [c1, if_false]
  by_cases d1 : offset > index
  · simp only [d1, if_true]; exact keep _ _
  simp only [d1, if_false]
  by_cases d2 : index - len < 0 ∨ index - len ≥ MAX
  · simp only [d2, if_true]; exact non
  simp only [d2, if_false]
  by_cases d3 : (po (index - len)).bits i = INF
  · simp only [d3, if_true]; exact keep _ _
  simp only [d3, if_false]
  by_cases h32 : offset > MAX_OFFSET1
  · simp only [h32, if_true, true_and, set_BIT_OFFSET3]
    by_cases d4 : offset > 2 ^ (BIT_OFFSET_MIN + i).toNat + MAX_OFFSET2
    · simp only [d4, if_true]; exact keep _ _
    simp only [d4, if_false]
    by_cases d5 : (po index).bits i >
        (po (index - len)).bits i + count_bits (BIT_OFFSET_MIN + i) offset len
    · simp only [d5, if_true]; exact sto _ _ _ offset _ (by omega)
    · simp only [d5, if_false]; exact keep _ _
  · simp only [h32, if_false, false_and]
    have hb : offset ≤ 2 ^ (BIT_OFFSET_MIN + i).toNat + MAX_OFFSET2 := by
      have h3 : (0 : Int) ≤ 2 ^ (BIT_OFFSET_MIN + i).toNat := pow_nonneg (by norm_num) _
      omega
    by_cases d5 : (po index).bits i > (po (index - len)).bits i + count_bits pb offset len
    · simp only [d5, if_true]; exact sto _ _ _ offset _ hb
    · simp only [d5, if_false]; exact keep _ _

theorem lzss_scan_offset (g : Globals) (s : ScanState) (h : lzss_scan g = some s) :
    OffsetInv s.parse :=
  lzss_scan_pres OffsetInv
    (fun index len offset i p q hq hp => update_optimal_step_offset index len offset i p hp q hq)
    g s h (fun j r => offset_bound_pos r)

theorem options_max (max_bits rle_enabled fast_mode : Int) (g : Globals) :
    BIT_OFFSET_MIN ≤ (set_dan3_options max_bits rle_enabled fast_mode g).BIT_OFFSET_MAX_ALLOWED ∧
    (set_dan3_options max_bits rle_enabled fast_mode g).BIT_OFFSET_MAX_ALLOWED ≤ BIT_OFFSET_MAX ∧
    (set_dan3_options max_bits rle_enabled fast_mode g).BIT_OFFSET_NBR_ALLOWED =
      (set_dan3_options max_bits rle_enabled fast_mode g).BIT_OFFSET_MAX_ALLOWED
        - BIT_OFFSET_MIN + 1 ∧
    (set_dan3_options max_bits rle_enabled fast_mode g).BIT_OFFSET_MAX_ALLOWED =
      (if max_bits > 16 then 16 else if max_bits < 9 then 9 else max_bits) := by
  simp only [set_dan3_options, BIT_OFFSET_MAX, BIT_OFFSET_MIN]
  refine ⟨?_, ?_, trivial, ?_⟩ <;> split_ifs <;> omega

/-! ### `read_golomb_gamma` on a sequence of bits -/

theorem read_bit_le (b b1 : Buffers) (bit : Nat) (h : read_bit b = some (bit, b1)) :
    bit = 0 ∨ bit = 1 := by
  unfold read_bit at h
  by_cases c1 : b.bit_mask = 0
  · simp only [if_pos c1] at h
    by_cases c2 : b.index_src < 0 ∨ b.index_src ≥ MAX
    · simp only [if_pos c2] at h
      exact absurd h (by simp)
    · simp only [if_neg c2] at h
      have e := (Prod.mk.inj (Option.some.inj h)).1
      rw [← e]
      split <;> simp
  · simp only [if_neg c1] at h
    by_cases c2 : b.bit_index < 0 ∨ b.bit_index ≥ MAX
    · simp only [if_pos c2] at h
      exact absurd h (by simp)
    · simp only [if_neg c2] at h
      have e := (Prod.mk.inj (Option.some.inj h)).1
      rw [← e]
      split <;> simp

theorem read_bits_cons (k : Nat) (b b2 : Buffers) (x : Nat) (l : List Nat) :
    read_bits (k + 1) b = some (x :: l, b2) ↔
      ∃ b1, read_bit b = some (x, b1) ∧ read_bits k b1 = some (l, b2) := by
  simp only [read_bits]
  cases h1 : read_bit b with
  | none => simp
  | some r =>
    obtain ⟨bit, b1⟩ := r
    simp only
    cases h2 : read_bits k b1 with
    | none =>
      constructor
      · intro h
        exact absurd h (by simp)
      · rintro ⟨b3, h3, h4⟩
        have e := Prod.mk.inj (Option.some.inj h3)
        rw [← e.2, h2] at h4
        exact absurd h4 (by simp)
    | some r2 =>
      obtain ⟨l2, b3⟩ := r2
      simp only [Option.some.injEq, Prod.mk.injEq, List.cons.injEq]
      constructor
      · rintro ⟨⟨e1, e2⟩, e3⟩
        exact ⟨b1, ⟨e1, rfl⟩, by rw [h2, e2, e3]⟩
      · rintro ⟨b4, ⟨e1, e2⟩, e3⟩
        rw [← e2, h2] at e3
        have e4 := Prod.mk.inj (Option.some.inj e3)
        exact ⟨⟨e1, e4.1⟩, e4.2⟩

theorem read_bits_nil (b b2 : Buffers) (l : List Nat) (h : read_bits 0 b = some (l, b2)) :
    l = [] ∧ b2 = b := by
  simp only [read_bits, Option.some.injEq, Prod.mk.injEq] at h
  exact ⟨h.1.symm, h.2.symm⟩

theorem read_golomb_zeros_list :
    ∀ (k j : Nat) (l : List Nat) (b b2 : Buffers) (j2 : Nat) (l1 : List Nat),
      read_bits l.length b = some (l, b2) → bits_zeros k j l = some (j2, l1) →
      ∃ b1, read_golomb_zeros k j b = some (j2, b1) ∧ read_bits l1.length b1 = some (l1, b2) := by
  intro k
  induction k with
  | zero =>
    intro j l b b2 j2 l1 hr hz
    simp only [bits_zeros, Option.some.injEq, Prod.mk.injEq] at hz
    rw [← hz.1, ← hz.2]
    exact ⟨b, rfl, hr⟩
  | succ k ih =>
    intro j l b b2 j2 l1 hr hz
    cases l with
    | nil => simp [bits_zeros] at hz
    | cons bit l =>
      simp only [List.length_cons] at hr
      obtain ⟨b1, h1, h2⟩ := (read_bits_cons _ _ _ _ _).1 hr
      unfold read_golomb_zeros
      rw [h1]
      simp only [bits_zeros] at hz ⊢
      by_cases hb : bit = 0
      · simp only [if_pos hb] at hz ⊢
        exact ih (j + 1) l b1 b2 j2 l1 h2 hz
      · simp only [if_neg hb, Option.some.injEq, Prod.mk.injEq] at hz ⊢
        rw [← hz.1, ← hz.2]
        exact ⟨b1, ⟨rfl, rfl⟩, h2⟩

theorem read_golomb_value_list :
    ∀ (k v : Nat) (l : List Nat) (b b2 : Buffers) (v2 : Nat) (l1 : List Nat),
      read_bits l.length b = some (l, b2) → bits_value k v l = some (v2, l1) →
      ∃ b1, read_golomb_value k v b = some (v2, b1) ∧ read_bits l1.length b1 = some (l1, b2) := by
  intro k
  induction k with
  | zero =>
    intro v l b b2 v2 l1 hr hz
    simp only [bits_value, Option.some.injEq, Prod.mk.injEq] at hz
    rw [← hz.1, ← hz.2]
    exact ⟨b, rfl, hr⟩
  | succ k ih =>
    intro v l b b2 v2 l1 hr hz
    cases l with
    | nil => simp [bits_value] at hz
    | cons bit l =>
      simp only [List.length_cons] at hr
      obtain ⟨b1, h1, h2⟩ := (read_bits_cons _ _ _ _ _).1 hr
      unfold read_golomb_value
      rw [h1]
      simp only [bits_value] at hz ⊢
      exact ih _ l b1 b2 v2 l1 h2 hz

theorem read_golomb_gamma_list (l : List Nat) (b b2 : Buffers) (v : Int) (l2 : List Nat)
    (hr : read_bits l.length b = some (l, b2)) (hg : gamma_of_bits l = some (v, l2)) :
    ∃ b1, read_golomb_gamma b = some (v, b1) ∧ read_bits l2.length b1 = some (l2, b2) := by
  unfold gamma_of_bits at hg
  cases hz : bits_zeros 7 0 l with
  | none => rw [hz] at hg; exact absurd hg (by simp)
  | some r =>
    obtain ⟨j, l1⟩ := r
    rw [hz] at hg
    simp only at hg
    obtain ⟨b1, h1, h2⟩ := read_golomb_zeros_list 7 0 l b b2 j l1 hr hz
    unfold read_golomb_gamma
    rw [h1]
    simp only
    by_cases hj : j < 7
    · simp only [if_pos hj] at hg ⊢
      cases hv : bits_value (j + 1) 1 l1 with
      | none => rw [hv] at hg; exact absurd hg (by simp)
      | some r2 =>
        obtain ⟨val, l3⟩ := r2
        rw [hv] at hg
        simp only [Option.some.injEq, Prod.mk.injEq] at hg
        obtain ⟨b3, h3, h4⟩ := read_golomb_value_list (j + 1) 1 l1 b1 b2 val l3 h2 hv
        rw [h3]
        simp only
        rw [← hg.1, ← hg.2]
        exact ⟨b3, rfl, h4⟩
    · simp only [if_neg hj, Option.some.injEq, Prod.mk.injEq] at hg ⊢
      rw [← hg.1, ← hg.2]
      exact ⟨b1, ⟨rfl, rfl⟩, h2⟩

set_option maxRecDepth 1000000 in
theorem gamma_code_blocks : ∀ a < 16, ∀ c < 16, 16 * a + c = 0 ∨ 255 ≤ 16 * a + c ∨
    gamma_of_bits (wire_bits (golomb_gamma_ops ((16 * a + c : Nat) : Int))) =
      some (((16 * a + c : Nat) : Int), []) := by
  decide

theorem gamma_code (n : Nat) (h1 : 1 ≤ n) (h2 : n < 255) :
    gamma_of_bits (wire_bits (golomb_gamma_ops (n : Int))) = some ((n : Int), []) := by
  have h := gamma_code_blocks (n / 16) (by omega) (n % 16) (by omega)
  rw [Nat.div_add_mod] at h
  rcases h with h | h | h
  · omega
  · omega
  · exact h

theorem read_golomb_value_ge :
    ∀ (k v : Nat) (b b2 : Buffers) (v2 : Nat), read_golomb_value k v b = some (v2, b2) →
      v * 2 ^ k ≤ v2 := by
  intro k
  induction k with
  | zero =>
    intro v b b2 v2 h
    simp only [read_golomb_value, Option.some.injEq, Prod.mk.injEq] at h
    rw [← h.1]; simp
  | succ k ih =>
    intro v b b2 v2 h
    unfold read_golomb_value at h
    cases h1 : read_bit b with
    | none => rw [h1] at h; exact absurd h (by simp)
    | some r =>
      obtain ⟨bit, b1⟩ := r
      rw [h1] at h
      simp only at h
      have h3 := ih _ b1 b2 v2 h
      have hb := read_bit_le b b1 bit h1
      have e : (v <<< 1) ||| bit = 2 * v + bit := by
        rw [Nat.shiftLeft_eq, pow_one, Nat.mul_comm v 2]
        have := Nat.mul_add_lt_is_or (show bit < 2 ^ 1 by omega) v
        rw [pow_one] at this
        exact this.symm
      rw [e] at h3
      have h4 : 2 * v * 2 ^ k ≤ (2 * v + bit) * 2 ^ k := Nat.mul_le_mul_right _ (by omega)
      rw [pow_succ]
      calc v * (2 ^ k * 2) = 2 * v * 2 ^ k := by ring
        _ ≤ (2 * v + bit) * 2 ^ k := h4
        _ ≤ v2 := h3

theorem read_golomb_zeros_le :
    ∀ (k j : Nat) (b b2 : Buffers) (j2 : Nat), read_golomb_zeros k j b = some (j2, b2) →
      j2 ≤ j + k := by
  intro k
  induction k with
  | zero =>
    intro j b b2 j2 h
    simp only [read_golomb_zeros, Option.some.injEq, Prod.mk.injEq] at h
    omega
  | succ k ih =>
    intro j b b2 j2 h
    unfold read_golomb_zeros at h
    cases h1 : read_bit b with
    | none => rw [h1] at h; exact absurd h (by simp)
    | some r =>
      obtain ⟨bit, b1⟩ := r
      rw [h1] at h
      simp only at h
      by_cases hb : bit = 0
      · simp only [if_pos hb] at h
        have := ih (j + 1) b1 b2 j2 h
        omega
      · simp only [if_neg hb, Option.some.injEq, Prod.mk.injEq] at h
        omega

theorem read_golomb_zeros_full :
    ∀ (k j : Nat) (b b2 : Buffers), read_golomb_zeros k j b = some (j + k, b2) →
      read_bits k b = some (List.replicate k 0, b2) := by
  intro k
  induction k with
  | zero =>
    intro j b b2 h
    simp only [read_golomb_zeros, Option.some.injEq, Prod.mk.injEq] at h
    simp only [read_bits, List.replicate, h.2]
  | succ k ih =>
    intro j b b2 h
    unfold read_golomb_zeros at h
    cases h1 : read_bit b with
    | none => rw [h1] at h; exact absurd h (by simp)
    | some r =>
      obtain ⟨bit, b1⟩ := r
      rw [h1] at h
      simp only at h
      by_cases hb : bit = 0
      · simp only [if_pos hb] at h
        have e : j + (k + 1) = (j + 1) + k := by omega
        rw [e] at h
        have h2 := ih (j + 1) b1 b2 h
        rw [List.replicate_succ]
        exact (read_bits_cons _ _ _ _ _).2 ⟨b1, by rw [h1, hb], h2⟩
      · simp only [if_neg hb, Option.some.injEq, Prod.mk.injEq] at h
        omega

theorem read_golomb_zeros_of_zeros :
    ∀ (k j : Nat) (b b2 : Buffers), read_bits k b = some (List.replicate k 0, b2) →
      read_golomb_zeros k j b = some (j + k, b2) := by
  intro k
  induction k with
  | zero =>
    intro j b b2 h
    have := read_bits_nil b b2 _ h
    simp only [read_golomb_zeros, this.2, Nat.add_zero]
  | succ k ih =>
    intro j b b2 h
    rw [List.replicate_succ] at h
    obtain ⟨b1, h1, h2⟩ := (read_bits_cons _ _ _ _ _).1 h
    unfold read_golomb_zeros
    rw [h1]
    simp only [if_true]
    rw [ih (j + 1) b1 b2 h2]
    have e : j + 1 + k = j + (k + 1) := by omega
    rw [e]

theorem read_golomb_gamma_values (b b2 : Buffers) (v : Int)
    (h : read_golomb_gamma b = some (v, b2)) :
    (v = -1 ∧ read_golomb_zeros 7 0 b = some (7, b2)) ∨ 1 ≤ v := by
  unfold read_golomb_gamma at h
  cases hz : read_golomb_zeros 7 0 b with
  | none => rw [hz] at h; exact absurd h (by simp)
  | some r =>
    obtain ⟨j, b1⟩ := r
    rw [hz] at h
    simp only at h
    have hle := read_golomb_zeros_le 7 0 b b1 j hz
    by_cases hj : j < 7
    · simp only [if_pos hj] at h
      cases hv : read_golomb_value (j + 1) 1 b1 with
      | none => rw [hv] at h; exact absurd h (by simp)
      | some r2 =>
        obtain ⟨val, b3⟩ := r2
        rw [hv] at h
        simp only [Option.some.injEq, Prod.mk.injEq] at h
        have hge := read_golomb_value_ge (j + 1) 1 b1 b3 val hv
        have h2 : 2 ≤ 2 ^ (j + 1) := by
          have := Nat.pow_le_pow_right (show 0 < 2 by norm_num) (show 1 ≤ j + 1 by omega)
          simpa using this
        right
        rw [← h.1]
        omega
    · simp only [if_neg hj, Option.some.injEq, Prod.mk.injEq] at h
      left
      have hj7 : j = 7 := by omega
      refine ⟨by rw [← h.1]; norm_num, ?_⟩
      rw [← h.2, hj7]

/-! ### The decoder's reads leave the output alone -/

theorem read_bit_dest (b b1 : Buffers) (bit : Nat) (h : read_bit b = some (bit, b1)) :
    b1.index_dest = b.index_dest ∧ b1.data_dest = b.data_dest := by
  unfold read_bit at h
  by_cases c1 : b.bit_mask = 0
  · simp only [if_pos c1] at h
    by_cases c2 : b.index_src < 0 ∨ b.index_src ≥ MAX
    · simp only [if_pos c2] at h
      exact absurd h (by simp)
    · simp only [if_neg c2] at h
      have e := (Prod.mk.inj (Option.some.inj h)).2
      rw [← e]
      exact ⟨rfl, rfl⟩
  · simp only [if_neg c1] at h
    by_cases c2 : b.bit_index < 0 ∨ b.bit_index ≥ MAX
    · simp only [if_pos c2] at h
      exact absurd h (by simp)
    · simp only [if_neg c2] at h
      have e := (Prod.mk.inj (Option.some.inj h)).2
      rw [← e]
      exact ⟨rfl, rfl⟩

theorem read_byte_dest (b b1 : Buffers) (c : Nat) (h : read_byte b = some (c, b1)) :
    b1.index_dest = b.index_dest ∧ b1.data_dest = b.data_dest := by
  unfold read_byte at h
  split at h
  · exact absurd h (by simp)
  · have e := (Prod.mk.inj (Option.some.inj h)).2
    rw [← e]
    exact ⟨rfl, rfl⟩

theorem read_golomb_zeros_dest :
    ∀ (k j : Nat) (b b2 : Buffers) (j2 : Nat), read_golomb_zeros k j b = some (j2, b2) →
      b2.index_dest = b.index_dest ∧ b2.data_dest = b.data_dest := by
  intro k
  induction k with
  | zero =>
    intro j b b2 j2 h
    simp only [read_golomb_zeros, Option.some.injEq, Prod.mk.injEq] at h
    rw [← h.2]
    exact ⟨rfl, rfl⟩
  | succ k ih =>
    intro j b b2 j2 h
    unfold read_golomb_zeros at h
    cases h1 : read_bit b with
    | none => rw [h1] at h; exact absurd h (by simp)
    | some r =>
      obtain ⟨bit, b1⟩ := r
      rw [h1] at h
      simp only at h
      have d1 := read_bit_dest b b1 bit h1
      by_cases hb : bit = 0
      · simp only [if_pos hb] at h
        have d2 := ih (j + 1) b1 b2 j2 h
        exact ⟨d2.1.trans d1.1, d2.2.trans d1.2⟩
      · simp only [if_neg hb, Option.some.injEq, Prod.mk.injEq] at h
        rw [← h.2]
        exact d1

theorem read_golomb_value_dest :
    ∀ (k v : Nat) (b b2 : Buffers) (v2 : Nat), read_golomb_value k v b = some (v2, b2) →
      b2.index_dest = b.index_dest ∧ b2.data_dest = b.data_dest := by
  intro k
  induction k with
  | zero =>
    intro v b b2 v2 h
    simp only [read_golomb_value, Option.some.injEq, Prod.mk.injEq] at h
    rw [← h.2]
    exact ⟨rfl, rfl⟩
  | succ k ih =>
    intro v b b2 v2 h
    unfold read_golomb_value at h
    cases h1 : read_bit b with
    | none => rw [h1] at h; exact absurd h (by simp)
    | some r =>
      obtain ⟨bit, b1⟩ := r
      rw [h1] at h
      simp only at h
      have d1 := read_bit_dest b b1 bit h1
      have d2 := ih _ b1 b2 v2 h
      exact ⟨d2.1.trans d1.1, d2.2.trans d1.2⟩

theorem read_golomb_gamma_dest (b b2 : Buffers) (v : Int)
    (h : read_golomb_gamma b = some (v, b2)) :
    b2.index_dest = b.index_dest ∧ b2.data_dest = b.data_dest := by
  unfold read_golomb_gamma at h
  cases hz : read_golomb_zeros 7 0 b with
  | none => rw [hz] at h; exact absurd h (by simp)
  | some r =>
    obtain ⟨j, b1⟩ := r
    rw [hz] at h
    simp only at h
    have d1 := read_golomb_zeros_dest 7 0 b b1 j hz
    by_cases hj : j < 7
    · simp only [if_pos hj] at h
      cases hv : read_golomb_value (j + 1) 1 b1 with
      | none => rw [hv] at h; exact absurd h (by simp)
      | some r2 =>
        obtain ⟨val, b3⟩ := r2
        rw [hv] at h
        simp only [Option.some.injEq, Prod.mk.injEq] at h
        have d2 := read_golomb_value_dest (j + 1) 1 b1 b3 val hv
        rw [← h.2]
        exact ⟨d2.1.trans d1.1, d2.2.trans d1.2⟩
    · simp only [if_neg hj, Option.some.injEq, Prod.mk.injEq] at h
      rw [← h.2]
      exact d1

theorem read_offset_bits_dest :
    ∀ (k : Nat) (old : Int) (o : Nat) (b : Buffers) (o2 : Nat) (b2 : Buffers),
      read_offset_bits old k o b = some (Flow.cont (o2, b2)) →
      b2.index_dest = b.index_dest ∧ b2.data_dest = b.data_dest := by
  intro k
  induction k with
  | zero =>
    intro old o b o2 b2 h
    simp only [read_offset_bits, Option.some.injEq, Flow.cont.injEq, Prod.mk.injEq] at h
    rw [← h.2]
    exact ⟨rfl, rfl⟩
  | succ k ih =>
    intro old o b o2 b2 h
    unfold read_offset_bits at h
    by_cases c : b.index_src ≥ old
    · simp only [if_pos c] at h
      exact absurd h (by simp)
    · simp only [if_neg c] at h
      cases h1 : read_bit b with
      | none => rw [h1] at h; exact absurd h (by simp)
      | some r =>
        obtain ⟨bit, b1⟩ := r
        rw [h1] at h
        simp only at h
        have d1 := read_bit_dest b b1 bit h1
        have d2 := ih old _ b1 o2 b2 h
        exact ⟨d2.1.trans d1.1, d2.2.trans d1.2⟩

theorem read_offset_dest (subset old len : Int) (b b3 : Buffers) (offset : Nat)
    (h : read_offset subset old len b = some (Flow.cont (offset, b3))) :
    (b3.index_dest = b.index_dest ∧ b3.data_dest = b.data_dest) ∧ (len = 1 → offset ≤ 2) := by
  unfold read_offset at h
  by_cases cl : len = 1
  · simp only [if_pos cl] at h
    by_cases c : b.index_src ≥ old
    · simp only [if_pos c] at h
      exact absurd h (by simp)
    · simp only [if_neg c] at h
      cases h1 : read_bit b with
      | none => rw [h1] at h; exact absurd h (by simp)
      | some r =>
        obtain ⟨bit, b1⟩ := r
        rw [h1] at h
        simp only at h
        have d1 := read_bit_dest b b1 bit h1
        by_cases hb : bit ≠ 0
        · simp only [if_pos hb] at h
          cases h2 : read_bit b1 with
          | none => rw [h2] at h; exact absurd h (by simp)
          | some r2 =>
            obtain ⟨bit2, b2⟩ := r2
            rw [h2] at h
            simp only [Option.some.injEq, Flow.cont.injEq, Prod.mk.injEq] at h
            have d2 := read_bit_dest b1 b2 bit2 h2
            have hle := read_bit_le b1 b2 bit2 h2
            rw [← h.2, ← h.1]
            exact ⟨⟨d2.1.trans d1.1, d2.2.trans d1.2⟩, fun _ => by omega⟩
        · simp only [if_neg hb, Option.some.injEq, Flow.cont.injEq, Prod.mk.injEq] at h
          rw [← h.2, ← h.1]
          exact ⟨d1, fun _ => by omega⟩
  · simp only [if_neg cl] at h
    refine ⟨?_, fun e => absurd e cl⟩
    by_cases c : b.index_src ≥ old
    · simp only [if_pos c] at h
      exact absurd h (by simp)
    · simp only [if_neg c] at h
      cases h1 : read_bit b with
      | none => rw [h1] at h; exact absurd h (by simp)
      | some r =>
        obtain ⟨bit, b1⟩ := r
        rw [h1] at h
        simp only at h
        have d1 := read_bit_dest b b1 bit h1
        by_cases hb : bit = 0
        · simp only [if_pos hb] at h
          by_cases c1 : b1.index_src ≥ old
          · simp only [if_pos c1] at h
            exact absurd h (by simp)
          · simp only [if_neg c1] at h
            cases h2 : read_byte b1 with
            | none => rw [h2] at h; exact absurd h (by simp)
            | some r2 =>
              obtain ⟨c2, b2⟩ := r2
              rw [h2] at h
              simp only [Option.some.injEq, Flow.cont.injEq, Prod.mk.injEq] at h
              have d2 := read_byte_dest b1 b2 c2 h2
              rw [← h.2]
              exact ⟨d2.1.trans d1.1, d2.2.trans d1.2⟩
        · simp only [if_neg hb] at h
          by_cases c1 : b1.index_src ≥ old
          · simp only [if_pos c1] at h
            exact absurd h (by simp)
          · simp only [if_neg c1] at h
            cases h2 : read_bit b1 with
            | none => rw [h2] at h; exact absurd h (by simp)
            | some r2 =>
              obtain ⟨bit2, b2⟩ := r2
              rw [h2] at h
              simp only at h
              have d2 := read_bit_dest b1 b2 bit2 h2
              by_cases hb2 : bit2 ≠ 0
              · simp only [if_pos hb2] at h
                cases h3 : read_offset_bits old (subset + BIT_OFFSET_MIN - 8).toNat 0 b2 with
                | none => rw [h3] at h; exact absurd h (by simp)
                | some r3 =>
                  rw [h3] at h
                  cases r3 with
                  | cont p =>
                    obtain ⟨o3, b4⟩ := p
                    simp only at h
                    have d3 := read_offset_bits_dest _ old 0 b2 o3 b4 h3
                    by_cases c4 : b4.index_src ≥ old
                    · simp only [if_pos c4] at h
                      exact absurd h (by simp)
                    · simp only [if_neg c4] at h
                      cases h5 : read_byte b4 with
                      | none => rw [h5] at h; exact absurd h (by simp)
                      | some r5 =>
                        obtain ⟨c5, b5⟩ := r5
                        rw [h5] at h
                        simp only [Option.some.injEq, Flow.cont.injEq, Prod.mk.injEq] at h
                        have d5 := read_byte_dest b4 b5 c5 h5
                        rw [← h.2]
                        exact ⟨d5.1.trans (d3.1.trans (d2.1.trans d1.1)),
                          d5.2.trans (d3.2.trans (d2.2.trans d1.2))⟩
                  | stop p => simp only at h; exact absurd h (by simp)
                  | leave v p => simp only at h; exact absurd h (by simp)
              · simp only [if_neg hb2] at h
                have d3 := read_offset_bits_dest _ old 0 b2 offset b3 h
                exact ⟨d3.1.trans (d2.1.trans d1.1), d3.2.trans (d2.2.trans d1.2)⟩

/-! ### The copy loop of a match -/

theorem copy_match_loop_spec (src dst : Int) :
    ∀ (k : Nat) (i : Int) (d : Int → Nat), 0 ≤ i → src + i + k ≤ dst →
      ∀ j, copy_match_loop src dst k i d j =
        if dst + i ≤ j ∧ j < dst + i + k then d (src + (j - dst)) else d j := by
  intro k
  induction k with
  | zero =>
    intro i d _ _ j
    have c : ¬ (dst + i ≤ j ∧ j < dst + i + ((0 : Nat) : Int)) := by
      push_cast
      omega
    rw [if_neg c]
    rfl
  | succ k ih =>
    intro i d hi hk j
    push_cast at hk
    show copy_match_loop src dst k (i + 1) (setAt d (dst + i) (d (src + i))) j = _
    rw [ih (i + 1) _ (by omega) (by omega) j]
    by_cases c1 : dst + (i + 1) ≤ j ∧ j < dst + (i + 1) + (k : Int)
    · have c2 : dst + i ≤ j ∧ j < dst + i + ((k + 1 : Nat) : Int) := by
        push_cast
        omega
      rw [if_pos c1, if_pos c2]
      unfold setAt
      rw [if_neg (by omega)]
    · rw [if_neg c1]
      unfold setAt
      by_cases c3 : j = dst + i
      · have c2 : dst + i ≤ j ∧ j < dst + i + ((k + 1 : Nat) : Int) := by
          push_cast
          omega
        rw [if_pos c3, if_pos c2, c3]
        congr 1
        omega
      · have c2 : ¬ (dst + i ≤ j ∧ j < dst + i + ((k + 1 : Nat) : Int)) := by
          push_cast
          omega
        rw [if_neg c3, if_neg c2]

/-! ### One back-reference token -/

theorem delzss_token_match (subset old : Int) (b b1 b2 b3 : Buffers) (len : Int) (offset : Nat)
    (h0 : b.index_src < old) (h1 : read_bit b = some (0, b1))
    (h2 : read_golomb_gamma b1 = some (len, b2)) (h3 : len ≠ -1)
    (h4 : read_offset subset old len b2 = some (Flow.cont (offset, b3))) :
    b3.index_dest = b.index_dest ∧ b3.data_dest = b.data_dest ∧
    delzss_token subset old b =
      if b.index_dest - (offset : Int) - 1 < 0 ∨
          b.index_dest - (offset : Int) - 1 + len > b.index_dest then none
      else if b.index_dest + len > MAX then none
      else some (Flow.cont { b3 with
        data_dest := copy_match_loop (b.index_dest - (offset : Int) - 1) b.index_dest len.toNat 0
          b.data_dest,
        index_dest := b.index_dest + len }) := by
  have d1 := read_bit_dest b b1 0 h1
  have d2 := read_golomb_gamma_dest b1 b2 len h2
  have d4 := (read_offset_dest subset old len b2 b3 offset h4).1
  have e1 : b3.index_dest = b.index_dest := d4.1.trans (d2.1.trans d1.1)
  have e2 : b3.data_dest = b.data_dest := d4.2.trans (d2.2.trans d1.2)
  refine ⟨e1, e2, ?_⟩
  have c0 : ¬ (b.index_src ≥ old) := by omega
  unfold delzss_token
  rw [if_neg c0, h1]
  simp only [ne_eq, not_true_eq_false, if_false]
  rw [h2]
  simp only [if_neg h3]
  rw [h4]
  simp only [e1, e2]

theorem delzss_loop_abort (subset old : Int) :
    ∀ (n f : Nat) (b b0 : Buffers), delzss_tokens subset old n b = some b0 →
      b0.index_src < old → delzss_token subset old b0 = none → n < f →
      delzss_loop subset old f b = none := by
  intro n
  induction n with
  | zero =>
    intro f b b0 hn h0 ht hf
    simp only [delzss_tokens, Option.some.injEq] at hn
    rw [hn]
    obtain ⟨f1, rfl⟩ : ∃ f1, f = f1 + 1 := ⟨f - 1, by omega⟩
    unfold delzss_loop
    rw [if_pos h0, ht]
  | succ n ih =>
    intro f b b0 hn h0 ht hf
    obtain ⟨f1, rfl⟩ : ∃ f1, f = f1 + 1 := ⟨f - 1, by omega⟩
    unfold delzss_tokens at hn
    by_cases c : b.index_src < old
    · rw [if_pos c] at hn
      unfold delzss_loop
      rw [if_pos c]
      cases ht1 : delzss_token subset old b with
      | none => simp [ht1] at hn
      | some r =>
        rw [ht1] at hn
        cases r with
        | cont b1 =>
          simp only at hn
          exact ih f1 b1 b0 hn h0 ht (by omega)
        | stop b1 => simp at hn
        | leave v b1 => simp at hn
    · rw [if_neg c] at hn
      exact absurd hn (by simp)

/-! ### The header of the stream -/

theorem setAt_ne (a : Int → Nat) (i : Int) (v : Nat) (j : Int) (h : j ≠ i) :
    setAt a i v j = a j := by
  simp only [setAt, if_neg h]

theorem setAt_same (a : Int → Nat) (i : Int) (v : Nat) : setAt a i v i = v := by
  simp only [setAt, if_true]

theorem or_shift (d m k : Nat) (hd : d < 256) (hm : m < 2 ^ k) (hk : k ≤ 7) :
    ((d ||| m) % 256) >>> k = d >>> k ∧ (d ||| m) % 256 < 256 := by
  have hm8 : m < 2 ^ 8 :=
    lt_of_lt_of_le hm (Nat.pow_le_pow_right (by norm_num) (by omega))
  have hlt : d ||| m < 2 ^ 8 := Nat.or_lt_two_pow (by norm_num; exact hd) hm8
  have e : (d ||| m) % 256 = d ||| m := Nat.mod_eq_of_lt (by norm_num at hlt; exact hlt)
  rw [e]
  refine ⟨?_, by norm_num at hlt; exact hlt⟩
  apply Nat.eq_of_testBit_eq
  intro i
  have hmi : m < 2 ^ (k + i) :=
    lt_of_lt_of_le hm (Nat.pow_le_pow_right (by norm_num) (by omega))
  rw [Nat.testBit_shiftRight, Nat.testBit_shiftRight, Nat.testBit_or,
    Nat.testBit_lt_two_pow hmi, Bool.or_false]

theorem write_byte_header (r c v : Nat) (b b2 : Buffers) (hi : HeaderInv r c b)
    (h : write_byte v b = some b2) : HeaderInv r c b2 := by
  obtain ⟨h1, h2, h3, h4, h5⟩ := hi
  unfold write_byte at h
  by_cases c2 : b.index_dest < 0 ∨ b.index_dest ≥ MAX
  · simp only [if_pos c2] at h
    exact absurd h (by simp)
  · simp only [if_neg c2] at h
    have e := Option.some.inj h
    rw [← e]
    have k0 : setAt b.data_dest b.index_dest (v % 256) 0 = b.data_dest 0 := by
      unfold setAt; rw [if_neg (by omega)]
    have k1 : setAt b.data_dest b.index_dest (v % 256) 1 = b.data_dest 1 := by
      unfold setAt; rw [if_neg (by omega)]
    refine ⟨?_, ?_, ?_, ?_, ?_⟩
    · show 2 ≤ b.index_dest + 1
      omega
    · show setAt b.data_dest b.index_dest (v % 256) 0 < 256
      rw [k0]; exact h2
    · show setAt b.data_dest b.index_dest (v % 256) 0 >>> (7 - r) = _
      rw [k0]; exact h3
    · show setAt b.data_dest b.index_dest (v % 256) 1 = _
      rw [k1]; exact h4
    · exact h5

theorem write_bit_header (r c : Nat) (hr : r ≤ 7) (v : Int) (b b2 : Buffers)
    (hi : HeaderInv r c b) (h : write_bit v b = some b2) : HeaderInv r c b2 := by
  obtain ⟨h1, h2, h3, h4, h5⟩ := hi
  unfold write_bit at h
  by_cases c1 : b.bit_mask = 0
  · simp only [if_pos c1] at h
    by_cases c2 : b.index_dest < 0 ∨ b.index_dest ≥ MAX
    · simp only [if_pos c2] at h
      exact absurd h (by simp)
    · simp only [if_neg c2, write_byte] at h
      have e := Option.some.inj h
      have key : ∀ j, j < 2 → b2.data_dest j = b.data_dest j := by
        rw [← e]
        intro j hj
        dsimp only
        by_cases hv : v ≠ 0
        · rw [if_pos hv, setAt_ne _ _ _ _ (by omega), setAt_ne _ _ _ _ (by omega)]
        · rw [if_neg hv, setAt_ne _ _ _ _ (by omega)]
      have e1 : b2.index_dest = b.index_dest + 1 := by rw [← e]
      have e2 : b2.bit_index = b.index_dest := by rw [← e]
      refine ⟨by omega, ?_, ?_, ?_, Or.inr (Or.inr (by omega))⟩
      · rw [key 0 (by omega)]; exact h2
      · rw [key 0 (by omega)]; exact h3
      · rw [key 1 (by omega)]; exact h4
  · simp only [if_neg c1] at h
    by_cases c2 : b.bit_index < 0 ∨ b.bit_index ≥ MAX
    · simp only [if_pos c2] at h
      exact absurd h (by simp)
    · simp only [if_neg c2] at h
      have e := Option.some.inj h
      have hsh : b.bit_mask >>> 1 ≤ b.bit_mask := by
        rw [Nat.shiftRight_eq_div_pow]
        exact Nat.div_le_self _ _
      have e1 : b2.index_dest = b.index_dest := by rw [← e]
      have e2 : b2.bit_index = b.bit_index := by rw [← e]
      have e3 : b2.bit_mask = b.bit_mask >>> 1 := by rw [← e]
      rcases h5 with h5 | ⟨h5, h6⟩ | h5
      · exact absurd h5 c1
      · have hos := or_shift (b.data_dest 0) b.bit_mask (7 - r) h2 h6 (by omega)
        have k0 : b2.data_dest 0 =
            if v ≠ 0 then (b.data_dest 0 ||| b.bit_mask) % 256 else b.data_dest 0 := by
          rw [← e]
          dsimp only
          rw [h5]
          by_cases hv : v ≠ 0
          · rw [if_pos hv, if_pos hv, setAt_same]
          · rw [if_neg hv, if_neg hv]
        have k1 : b2.data_dest 1 = b.data_dest 1 := by
          rw [← e]
          dsimp only
          rw [h5]
          by_cases hv : v ≠ 0
          · rw [if_pos hv, setAt_ne _ _ _ _ (by omega)]
          · rw [if_neg hv]
        refine ⟨by omega, ?_, ?_, ?_, Or.inr (Or.inl ⟨by omega, ?_⟩)⟩
        · rw [k0]
          split_ifs
          · exact hos.2
          · exact h2
        · rw [k0]
          split_ifs
          · rw [hos.1]; exact h3
          · exact h3
        · rw [k1]; exact h4
        · rw [e3]; exact lt_of_le_of_lt hsh h6
      · have key : ∀ j, j < 2 → b2.data_dest j = b.data_dest j := by
          rw [← e]
          intro j hj
          dsimp only
          by_cases hv : v ≠ 0
          · rw [if_pos hv, setAt_ne _ _ _ _ (by omega)]
          · rw [if_neg hv]
        refine ⟨by omega, ?_, ?_, ?_, Or.inr (Or.inr (by omega))⟩
        · rw [key 0 (by omega)]; exact h2
        · rw [key 0 (by omega)]; exact h3
        · rw [key 1 (by omega)]; exact h4

theorem runOps_header (r c : Nat) (hr : r ≤ 7) :
    ∀ (ops : List WOp) (b b2 : Buffers), HeaderInv r c b → runOps ops b = some b2 →
      HeaderInv r c b2 := by
  intro ops
  induction ops with
  | nil => intro b b2 hi h; cases h; exact hi
  | cons op ops ih =>
    intro b b2 hi h
    rw [runOps_cons] at h
    cases hx : runOp op b with
    | none => rw [hx] at h; exact absurd h (by simp)
    | some b1 =>
      rw [hx] at h
      simp only [Option.some_bind] at h
      cases op with
      | bit v => exact ih b1 b2 (write_bit_header r c hr v b b1 hi hx) h
      | byte v => exact ih b1 b2 (write_byte_header r c v b b1 hi hx) h

theorem selector_closed : ∀ r < 8,
    (runOps (bits_ops 254 (r + 1)) initial.buf).map
        (fun b1 => (b1.index_dest, b1.data_dest 0, b1.bit_index, b1.bit_mask)) =
      some ((1 : Int), (2 ^ (r + 1) - 2) * 2 ^ (7 - r), (0 : Int), 128 >>> (r + 1)) := by
  decide

theorem selector_state (b : Buffers) (r : Nat) (hr : r < 8) :
    ∃ b1, runOps (bits_ops 254 (r + 1))
        { b with index_dest := 0, bit_mask := 0, bit_index := 0 } = some b1 ∧
      b1.index_dest = 1 ∧ b1.data_dest 0 = (2 ^ (r + 1) - 2) * 2 ^ (7 - r) ∧
      b1.bit_mask = 128 >>> (r + 1) ∧ (b1.bit_mask ≠ 0 → b1.bit_index = 0) := by
  have hrel : WRel { b with index_dest := 0, bit_mask := 0, bit_index := 0 } initial.buf :=
    ⟨rfl, rfl, fun h => absurd rfl h, fun x hx0 hx1 => absurd hx1 (by
      show ¬ (x < 0)
      omega)⟩
  have hr2 := runOps_rel (bits_ops 254 (r + 1)) hrel
  have hc := selector_closed r hr
  cases hx : runOps (bits_ops 254 (r + 1)) initial.buf with
  | none => rw [hx] at hc; exact absurd hc (by simp)
  | some c1 =>
    rw [hx] at hc hr2
    simp only [Option.map_some', Option.some.injEq, Prod.mk.injEq] at hc
    obtain ⟨q1, q2, q3, q4⟩ := hc
    cases hy : runOps (bits_ops 254 (r + 1))
        { b with index_dest := 0, bit_mask := 0, bit_index := 0 } with
    | none => rw [hy] at hr2; exact hr2.elim
    | some b1 =>
      rw [hy] at hr2
      obtain ⟨w1, w2, w3, w4⟩ := hr2
      refine ⟨b1, rfl, by rw [w1, q1], ?_, by rw [w2, q4], ?_⟩
      · rw [w4 0 (le_refl 0) (by rw [w1, q1]; norm_num), q2]
      · intro hm
        rw [(w3 hm).1, q3]

theorem bytesOf_getD (d : Int → Nat) (n : Int) (k : Nat) (hk : (k : Int) < n) :
    (bytesOf d n).getD k 0 = d k := by
  have hk2 : k < n.toNat := by omega
  simp [bytesOf, List.getD_eq_getElem?_getD, List.getElem?_range hk2, hk2]

/-! ### Reading back what was written -/

theorem and_two_pow_ne_zero (x k : Nat) : x &&& 2 ^ k ≠ 0 ↔ x.testBit k = true := by
  constructor
  · intro h
    by_contra hc
    apply h
    apply Nat.eq_of_testBit_eq
    intro i
    rw [Nat.testBit_and, Nat.testBit_two_pow, Nat.zero_testBit]
    by_cases hi : k = i
    · subst hi
      simp only [Bool.not_eq_true] at hc
      rw [hc]
      rfl
    · simp [hi]
  · intro h hc
    have e : (x &&& 2 ^ k).testBit k = false := by rw [hc, Nat.zero_testBit]
    rw [Nat.testBit_and, Nat.testBit_two_pow_self, h] at e
    exact absurd e (by decide)

theorem write_byte_facts (v : Nat) (b b1 : Buffers) (h : write_byte v b = some b1) :
    ¬ (b.index_dest < 0 ∨ b.index_dest ≥ MAX) ∧ b1.index_dest = b.index_dest + 1 ∧
    b1.bit_index = b.bit_index ∧ b1.bit_mask = b.bit_mask ∧
    b1.data_dest b.index_dest = v % 256 ∧
    ∀ x, x ≠ b.index_dest → b1.data_dest x = b.data_dest x := by
  unfold write_byte at h
  by_cases c2 : b.index_dest < 0 ∨ b.index_dest ≥ MAX
  · simp only [if_pos c2] at h
    exact absurd h (by simp)
  · simp only [if_neg c2] at h
    have e := Option.some.inj h
    rw [← e]
    exact ⟨c2, rfl, rfl, rfl, setAt_same _ _ _, fun x hx => setAt_ne _ _ _ _ hx⟩

theorem write_bit_fresh (v : Int) (b b1 : Buffers) (hm : b.bit_mask = 0)
    (h : write_bit v b = some b1) :
    ¬ (b.index_dest < 0 ∨ b.index_dest ≥ MAX) ∧ b1.index_dest = b.index_dest + 1 ∧
    b1.bit_index = b.index_dest ∧ b1.bit_mask = 64 ∧
    b1.data_dest b.index_dest = (if v ≠ 0 then 128 else 0) ∧
    ∀ x, x ≠ b.index_dest → b1.data_dest x = b.data_dest x := by
  unfold write_bit at h
  simp only [if_pos hm] at h
  by_cases c2 : b.index_dest < 0 ∨ b.index_dest ≥ MAX
  · simp only [if_pos c2] at h
    exact absurd h (by simp)
  · simp only [if_neg c2, write_byte] at h
    have e := Option.some.inj h
    rw [← e]
    refine ⟨c2, rfl, rfl, rfl, ?_, ?_⟩
    · dsimp only
      by_cases hv : v ≠ 0
      · rw [if_pos hv, if_pos hv, setAt_same, setAt_same]
        rfl
      · rw [if_neg hv, if_neg hv, setAt_same]
    · intro x hx
      dsimp only
      by_cases hv : v ≠ 0
      · rw [if_pos hv, setAt_ne _ _ _ _ hx, setAt_ne _ _ _ _ hx]
      · rw [if_neg hv, setAt_ne _ _ _ _ hx]

theorem write_bit_open (v : Int) (b b1 : Buffers) (hm : b.bit_mask ≠ 0)
    (h : write_bit v b = some b1) :
    ¬ (b.bit_index < 0 ∨ b.bit_index ≥ MAX) ∧ b1.index_dest = b.index_dest ∧
    b1.bit_index = b.bit_index ∧ b1.bit_mask = b.bit_mask >>> 1 ∧
    b1.data_dest b.bit_index =
      (if v ≠ 0 then (b.data_dest b.bit_index ||| b.bit_mask) % 256
        else b.data_dest b.bit_index) ∧
    ∀ x, x ≠ b.bit_index → b1.data_dest x = b.data_dest x := by
  unfold write_bit at h
  simp only [if_neg hm] at h
  by_cases c2 : b.bit_index < 0 ∨ b.bit_index ≥ MAX
  · simp only [if_pos c2] at h
    exact absurd h (by simp)
  · simp only [if_neg c2] at h
    have e := Option.some.inj h
    rw [← e]
    refine ⟨c2, rfl, rfl, rfl, ?_, ?_⟩
    · dsimp only
      by_cases hv : v ≠ 0
      · rw [if_pos hv, if_pos hv, setAt_same]
      · rw [if_neg hv, if_neg hv]
    · intro x hx
      dsimp only
      by_cases hv : v ≠ 0
      · rw [if_pos hv, setAt_ne _ _ _ _ hx]
      · rw [if_neg hv]

theorem read_byte_facts (R : Buffers) (h : ¬ (R.index_src < 0 ∨ R.index_src ≥ MAX)) :
    read_byte R = some (R.data_src R.index_src, { R with index_src := R.index_src + 1 }) := by
  unfold read_byte
  rw [if_neg h]

theorem read_bit_fresh (R : Buffers) (hm : R.bit_mask = 0)
    (h : ¬ (R.index_src < 0 ∨ R.index_src ≥ MAX)) :
    read_bit R = some (if R.data_src R.index_src &&& 128 ≠ 0 then 1 else 0,
      { R with bit_mask := 64, bit_index := R.index_src, index_src := R.index_src + 1 }) := by
  unfold read_bit
  simp only [if_pos hm, if_neg h]
  rfl

theorem read_bit_open (R : Buffers) (hm : R.bit_mask ≠ 0)
    (h : ¬ (R.bit_index < 0 ∨ R.bit_index ≥ MAX)) :
    read_bit R = some (if R.data_src R.bit_index &&& R.bit_mask ≠ 0 then 1 else 0,
      { R with bit_mask := R.bit_mask >>> 1 }) := by
  unfold read_bit
  simp only [if_neg hm, if_neg h]

/-! Bytes and bits that are written stay as they are. -/

theorem write_byte_byte_done (v : Nat) (b b1 : Buffers) (x : Int) (hd : ByteDone b x)
    (h : write_byte v b = some b1) : b1.data_dest x = b.data_dest x ∧ ByteDone b1 x := by
  obtain ⟨_, f1, f2, f3, _, f5⟩ := write_byte_facts v b b1 h
  obtain ⟨d1, d2⟩ := hd
  refine ⟨f5 x (by omega), by omega, ?_⟩
  rw [f3, f2]
  exact d2

theorem write_bit_byte_done (v : Int) (b b1 : Buffers) (x : Int) (hd : ByteDone b x)
    (h : write_bit v b = some b1) : b1.data_dest x = b.data_dest x ∧ ByteDone b1 x := by
  obtain ⟨d1, d2⟩ := hd
  by_cases hm : b.bit_mask = 0
  · obtain ⟨_, f1, f2, f3, _, f5⟩ := write_bit_fresh v b b1 hm h
    refine ⟨f5 x (by omega), by omega, ?_⟩
    intro _
    rw [f2]
    omega
  · obtain ⟨_, f1, f2, f3, _, f5⟩ := write_bit_open v b b1 hm h
    refine ⟨f5 x (d2 hm), by omega, ?_⟩
    intro _
    rw [f2]
    exact d2 hm

theorem runOps_byte_done : ∀ (ops : List WOp) (b b1 : Buffers) (x : Int), ByteDone b x →
    runOps ops b = some b1 → b1.data_dest x = b.data_dest x ∧ ByteDone b1 x := by
  intro ops
  induction ops with
  | nil => intro b b1 x hd h; cases h; exact ⟨rfl, hd⟩
  | cons op ops ih =>
    intro b b1 x hd h
    rw [runOps_cons] at h
    cases hx : runOp op b with
    | none => rw [hx] at h; exact absurd h (by simp)
    | some b2 =>
      rw [hx] at h
      simp only [Option.some_bind] at h
      have h2 : b2.data_dest x = b.data_dest x ∧ ByteDone b2 x := by
        cases op with
        | bit v => exact write_bit_byte_done v b b2 x hd hx
        | byte v => exact write_byte_byte_done v b b2 x hd hx
      have h3 := ih b2 b1 x h2.2 h
      exact ⟨h3.1.trans h2.1, h3.2⟩

theorem write_byte_bit_done (v : Nat) (b b1 : Buffers) (x : Int) (j : Nat) (hd : BitDone b x j)
    (h : write_byte v b = some b1) :
    (b1.data_dest x).testBit j = (b.data_dest x).testBit j ∧ BitDone b1 x j := by
  obtain ⟨_, f1, f2, f3, _, f5⟩ := write_byte_facts v b b1 h
  obtain ⟨d1, d2, d3⟩ := hd
  refine ⟨by rw [f5 x (by omega)], by omega, d2, ?_⟩
  rw [f3, f2]
  exact d3

theorem write_bit_bit_done (v : Int) (b b1 : Buffers) (x : Int) (j : Nat) (hd : BitDone b x j)
    (h : write_bit v b = some b1) :
    (b1.data_dest x).testBit j = (b.data_dest x).testBit j ∧ BitDone b1 x j := by
  obtain ⟨d1, d2, d3⟩ := hd
  by_cases hm : b.bit_mask = 0
  · obtain ⟨_, f1, f2, f3, _, f5⟩ := write_bit_fresh v b b1 hm h
    refine ⟨by rw [f5 x (by omega)], by omega, d2, ?_⟩
    intro _ hx
    rw [f2] at hx
    omega
  · obtain ⟨_, f1, f2, f3, f4, f5⟩ := write_bit_open v b b1 hm h
    have hsh : b.bit_mask >>> 1 ≤ b.bit_mask := by
      rw [Nat.shiftRight_eq_div_pow]
      exact Nat.div_le_self _ _
    by_cases hx : x = b.bit_index
    · have hlt := d3 hm hx
      refine ⟨?_, by omega, d2, ?_⟩
      · rw [hx, f4]
        by_cases hv : v ≠ 0
        · rw [if_pos hv, show (256 : Nat) = 2 ^ 8 from rfl, Nat.testBit_mod_two_pow,
            Nat.testBit_or, Nat.testBit_lt_two_pow hlt, Bool.or_false]
          simp [d2]
        · rw [if_neg hv]
      · intro _ _
        rw [f3]
        omega
    · refine ⟨by rw [f5 x hx], by omega, d2, ?_⟩
      intro _ hx2
      rw [f2] at hx2
      exact absurd hx2 hx

theorem runOps_bit_done : ∀ (ops : List WOp) (b b1 : Buffers) (x : Int) (j : Nat),
    BitDone b x j → runOps ops b = some b1 →
    (b1.data_dest x).testBit j = (b.data_dest x).testBit j ∧ BitDone b1 x j := by
  intro ops
  induction ops with
  | nil => intro b b1 x j hd h; cases h; exact ⟨rfl, hd⟩
  | cons op ops ih =>
    intro b b1 x j hd h
    rw [runOps_cons] at h
    cases hx : runOp op b with
    | none => rw [hx] at h; exact absurd h (by simp)
    | some b2 =>
      rw [hx] at h
      simp only [Option.some_bind] at h
      have h2 : (b2.data_dest x).testBit j = (b.data_dest x).testBit j ∧ BitDone b2 x j := by
        cases op with
        | bit v => exact write_bit_bit_done v b b2 x j hd hx
        | byte v => exact write_byte_bit_done v b b2 x j hd hx
      have h3 := ih b2 b1 x j h2.2 h
      exact ⟨h3.1.trans h2.1, h3.2⟩

theorem two_pow_succ_shift (k : Nat) : 2 ^ (k + 1) >>> 1 = 2 ^ k := by
  rw [Nat.shiftRight_eq_div_pow, pow_succ, pow_one, Nat.mul_div_cancel _ (by norm_num)]

theorem mirror_bit (lo : Int) (v : Int) (b b1 R : Buffers) (hw : WriterOK lo b)
    (hs : InSync b R) (h : write_bit v b = some b1) :
    WriterOK lo b1 ∧ ∃ pos k, lo ≤ pos ∧ BitDone b1 pos k ∧
      (b1.data_dest pos).testBit k = decide (v ≠ 0) ∧
      ∃ R1, read_bit R = some (if R.data_src pos &&& 2 ^ k ≠ 0 then 1 else 0, R1) ∧
        InSync b1 R1 ∧ R1.data_src = R.data_src := by
  obtain ⟨w0, w1, w2⟩ := hw
  obtain ⟨s1, s2, s3⟩ := hs
  by_cases hm : b.bit_mask = 0
  · obtain ⟨f0, f1, f2, f3, f4, f5⟩ := write_bit_fresh v b b1 hm h
    have hRm : R.bit_mask = 0 := by rw [s2]; exact hm
    have hRr : ¬ (R.index_src < 0 ∨ R.index_src ≥ MAX) := by rw [s1]; exact f0
    have hread := read_bit_fresh R hRm hRr
    rw [s1] at hread
    refine ⟨⟨w0, by omega, Or.inr ⟨6, le_refl 6, by rw [f3]; rfl, by omega, by omega, ?_⟩⟩,
      b.index_dest, 7, w1, ⟨by omega, by norm_num, ?_⟩, ?_, _, hread, ⟨?_, ?_, ?_⟩, rfl⟩
    · intro j hj
      rw [f2, f4]
      by_cases hv : v ≠ 0
      · rw [if_pos hv, show (128 : Nat) = 2 ^ 7 from rfl,
          Nat.testBit_two_pow_of_ne (by omega)]
      · rw [if_neg hv, Nat.zero_testBit]
    · intro _ _
      rw [f3]
      norm_num
    · rw [f4]
      by_cases hv : v ≠ 0
      · rw [if_pos hv, show (128 : Nat) = 2 ^ 7 from rfl, Nat.testBit_two_pow_self]
        simp [hv]
      · rw [if_neg hv, Nat.zero_testBit]
        simp [hv]
    · show b.index_dest + 1 = b1.index_dest
      omega
    · show 64 = b1.bit_mask
      rw [f3]
    · intro _
      show b.index_dest = b1.bit_index
      rw [f2]
  · obtain ⟨f0, f1, f2, f3, f4, f5⟩ := write_bit_open v b b1 hm h
    rcases w2 with w2 | ⟨k, k6, km, kl, ki, kz⟩
    · exact absurd w2 hm
    · have hRm : R.bit_mask ≠ 0 := by rw [s2]; exact hm
      have hRr : ¬ (R.bit_index < 0 ∨ R.bit_index ≥ MAX) := by rw [s3 hm]; exact f0
      have hread := read_bit_open R hRm hRr
      rw [s3 hm, s2, km] at hread
      have hnew : ∀ j, j < 8 → (b1.data_dest b.bit_index).testBit j =
          ((b.data_dest b.bit_index).testBit j || (decide (v ≠ 0) && decide (k = j))) := by
        intro j hj
        rw [f4]
        by_cases hv : v ≠ 0
        · rw [if_pos hv, show (256 : Nat) = 2 ^ 8 from rfl, Nat.testBit_mod_two_pow,
            Nat.testBit_or, km, Nat.testBit_two_pow]
          simp [hj, hv]
        · rw [if_neg hv]
          simp [hv]
      have hlt : b.bit_mask >>> 1 < 2 ^ k := by
        rw [km, Nat.shiftRight_eq_div_pow, pow_one]
        exact Nat.div_lt_self (Nat.pos_pow_of_pos k (by norm_num)) (by norm_num)
      refine ⟨⟨w0, by omega, ?_⟩, b.bit_index, k, kl, ⟨by omega, by omega, ?_⟩, ?_, _, hread,
        ⟨?_, ?_, ?_⟩, rfl⟩
      · cases k with
        | zero =>
          left
          rw [f3, km]
          rfl
        | succ k2 =>
          right
          refine ⟨k2, by omega, by rw [f3, km, two_pow_succ_shift], by omega, by omega, ?_⟩
          intro j hj
          rw [f2, hnew j (by omega), kz j (by omega)]
          have : ¬ (k2 + 1 = j) := by omega
          simp [this]
      · intro _ _
        rw [f3]
        exact hlt
      · rw [hnew k (by omega), kz k (le_refl k)]
        simp
      · show R.index_src = b1.index_dest
        omega
      · show 2 ^ k >>> 1 = b1.bit_mask
        rw [f3, km]
      · intro _
        show b.bit_index = b1.bit_index
        rw [f2]

theorem mirror_byte (lo : Int) (v : Nat) (b b1 R : Buffers) (hw : WriterOK lo b)
    (hs : InSync b R) (h : write_byte v b = some b1) :
    WriterOK lo b1 ∧ lo ≤ b.index_dest ∧ ByteDone b1 b.index_dest ∧
      b1.data_dest b.index_dest = v % 256 ∧
      ∃ R1, read_byte R = some (R.data_src b.index_dest, R1) ∧
        InSync b1 R1 ∧ R1.data_src = R.data_src := by
  obtain ⟨w0, w1, w2⟩ := hw
  obtain ⟨s1, s2, s3⟩ := hs
  obtain ⟨f0, f1, f2, f3, f4, f5⟩ := write_byte_facts v b b1 h
  have hRr : ¬ (R.index_src < 0 ∨ R.index_src ≥ MAX) := by rw [s1]; exact f0
  have hread := read_byte_facts R hRr
  rw [s1] at hread
  refine ⟨⟨w0, by omega, ?_⟩, w1, ⟨by omega, ?_⟩, f4, _, hread, ⟨?_, ?_, ?_⟩, rfl⟩
  · rcases w2 with w2 | ⟨k, k6, km, kl, ki, kz⟩
    · left
      rw [f3]; exact w2
    · right
      refine ⟨k, k6, by rw [f3]; exact km, by omega, by omega, ?_⟩
      intro j hj
      rw [f2, f5 _ (by omega)]
      exact kz j hj
  · intro hm1
    rw [f3] at hm1
    rcases w2 with w2 | ⟨k, k6, km, kl, ki, kz⟩
    · exact absurd w2 hm1
    · rw [f2]
      omega
  · show b.index_dest + 1 = b1.index_dest
    omega
  · show R.bit_mask = b1.bit_mask
    rw [f3, s2]
  · intro hm1
    show R.bit_index = b1.bit_index
    rw [f3] at hm1
    rw [f2, s3 hm1]

theorem mirror_ops (lo : Int) (rest : List WOp) (b3 : Buffers) :
    ∀ (ops : List WOp) (b b1 R : Buffers), WriterOK lo b → InSync b R →
      runOps ops b = some b1 → runOps rest b1 = some b3 →
      (∀ x, lo ≤ x → x < b3.index_dest → R.data_src x = b3.data_dest x) →
      ∃ R1, readOps ops R = some (ops.map wireVal, R1) ∧ InSync b1 R1 ∧ WriterOK lo b1 ∧
        R1.data_src = R.data_src := by
  intro ops
  induction ops with
  | nil =>
    intro b b1 R hw hs h _ _
    cases h
    exact ⟨R, rfl, hs, hw, rfl⟩
  | cons op ops ih =>
    intro b b1 R hw hs h hrest hd
    rw [runOps_cons] at h
    cases hx : runOp op b with
    | none => rw [hx] at h; exact absurd h (by simp)
    | some b2 =>
      rw [hx] at h
      simp only [Option.some_bind] at h
      have hall : runOps (ops ++ rest) b2 = some b3 := by
        rw [runOps_append, h]
        exact hrest
      have hmono := runOps_index_mono (ops ++ rest) b2 b3 hall
      cases op with
      | bit v =>
        obtain ⟨hw2, pos, k, hlo, hbd, htb, R1, hread, hs2, hdata⟩ :=
          mirror_bit lo v b b2 R hw hs hx
        have hstab := (runOps_bit_done (ops ++ rest) b2 b3 pos k hbd hall).1
        have hval : (if R.data_src pos &&& 2 ^ k ≠ 0 then 1 else 0) = wire_bit v := by
          rw [hd pos hlo (by have := hbd.1; omega)]
          unfold wire_bit
          by_cases hv : v ≠ 0
          · have ht : (b3.data_dest pos).testBit k = true := by
              rw [hstab, htb]
              simp [hv]
            rw [if_pos ((and_two_pow_ne_zero _ _).2 ht), if_pos hv]
          · have ht : ¬ ((b3.data_dest pos).testBit k = true) := by
              rw [hstab, htb]
              simp [hv]
            rw [if_neg (fun hc => ht ((and_two_pow_ne_zero _ _).1 hc)), if_neg hv]
        rw [hval] at hread
        obtain ⟨R2, hr2, hs3, hw3, hdata2⟩ := ih b2 b1 R1 hw2 hs2 h hrest (by
          intro x hx0 hx1
          rw [hdata]
          exact hd x hx0 hx1)
        refine ⟨R2, ?_, hs3, hw3, hdata2.trans hdata⟩
        simp only [readOps, hread, hr2, List.map_cons, wireVal]
      | byte v =>
        obtain ⟨hw2, hlo, hbd, hval, R1, hread, hs2, hdata⟩ := mirror_byte lo v b b2 R hw hs hx
        have hstab := (runOps_byte_done (ops ++ rest) b2 b3 b.index_dest hbd hall).1
        rw [hd _ hlo (by have := hbd.1; omega), hstab, hval] at hread
        obtain ⟨R2, hr2, hs3, hw3, hdata2⟩ := ih b2 b1 R1 hw2 hs2 h hrest (by
          intro x hx0 hx1
          rw [hdata]
          exact hd x hx0 hx1)
        refine ⟨R2, ?_, hs3, hw3, hdata2.trans hdata⟩
        simp only [readOps, hread, hr2, List.map_cons, wireVal]

theorem all_bits_append (a c : List WOp) :
    all_bits (a ++ c) = (all_bits a && all_bits c) := by
  induction a with
  | nil => simp [all_bits]
  | cons op ops ih =>
    cases op with
    | bit v => simpa [all_bits] using ih
    | byte v => simp [all_bits]

theorem readOps_all_bits : ∀ (ops : List WOp) (R : Buffers), all_bits ops = true →
    readOps ops R = read_bits ops.length R ∧ ops.map wireVal = wire_bits ops := by
  intro ops
  induction ops with
  | nil => intro R _; exact ⟨rfl, rfl⟩
  | cons op ops ih =>
    intro R h
    cases op with
    | bit v =>
      have h2 : all_bits ops = true := h
      constructor
      · simp only [readOps, List.length_cons, read_bits]
        cases read_bit R with
        | none => rfl
        | some r =>
          obtain ⟨x, R1⟩ := r
          simp only [(ih R1 h2).1]
      · simp only [List.map_cons, wireVal, wire_bits, (ih R h2).2]
    | byte v => exact absurd h (by simp [all_bits])

theorem golomb_zeros_all_bits (value : Int) :
    ∀ (f : Nat) (i : Int), all_bits (golomb_zeros_ops value f i) = true := by
  intro f
  induction f with
  | zero => intro i; rfl
  | succ f ih =>
    intro i
    simp only [golomb_zeros_ops]
    split
    · exact ih _
    · rfl

theorem golomb_digits_all_bits (value : Int) :
    ∀ (f : Nat) (i : Int), all_bits (golomb_digits_ops value f i) = true := by
  intro f
  induction f with
  | zero => intro i; rfl
  | succ f ih =>
    intro i
    simp only [golomb_digits_ops]
    split
    · exact ih _
    · rfl

theorem golomb_gamma_all_bits (value : Int) : all_bits (golomb_gamma_ops value) = true := by
  unfold golomb_gamma_ops
  rw [all_bits_append, golomb_zeros_all_bits, golomb_digits_all_bits]
  rfl

theorem selector_bits : ∀ r < 8, (2 ^ (r + 1) - 2) * 2 ^ (7 - r) < 256 ∧
    ((2 ^ (r + 1) - 2) * 2 ^ (7 - r)) >>> (7 - r) = 2 ^ (r + 1) - 2 ∧
    128 >>> (r + 1) < 2 ^ (7 - r) := by
  decide

theorem entry_first_byte (src : List Nat) (max_bits rle_enabled fast_mode : Int) (g : Globals)
    (h : 1 ≤ (src.length : Int)) :
    (encode_entry src max_bits rle_enabled fast_mode g).buf.data_src 0 = src.getD 0 0 := by
  show memcpy _ (bufferOf src) (src.length : Int) 0 = _
  unfold memcpy bufferOf
  rw [if_pos ⟨le_refl 0, by omega⟩]
  rfl

theorem header_after_first_byte (r c : Nat) (hr : r < 8) (b1 b2 : Buffers)
    (h1 : b1.index_dest = 1) (h2 : b1.data_dest 0 = (2 ^ (r + 1) - 2) * 2 ^ (7 - r))
    (h3 : b1.bit_mask = 128 >>> (r + 1)) (h4 : b1.bit_mask ≠ 0 → b1.bit_index = 0)
    (hw : write_byte c b1 = some b2) : HeaderInv r (c % 256) b2 := by
  obtain ⟨s1, s2, s3⟩ := selector_bits r hr
  unfold write_byte at hw
  by_cases c2 : b1.index_dest < 0 ∨ b1.index_dest ≥ MAX
  · simp only [if_pos c2] at hw
    exact absurd hw (by simp)
  · simp only [if_neg c2] at hw
    have e := Option.some.inj hw
    have e1 : b2.index_dest = b1.index_dest + 1 := by rw [← e]
    have e2 : b2.data_dest = setAt b1.data_dest b1.index_dest (c % 256) := by rw [← e]
    have e3 : b2.bit_mask = b1.bit_mask := by rw [← e]
    have e4 : b2.bit_index = b1.bit_index := by rw [← e]
    have k0 : b2.data_dest 0 = b1.data_dest 0 := by
      rw [e2, setAt_ne _ _ _ _ (by omega)]
    have k1 : b2.data_dest 1 = c % 256 := by
      rw [e2, h1, setAt_same]
    refine ⟨by omega, by rw [k0, h2]; exact s1, by rw [k0, h2]; exact s2, k1, ?_⟩
    by_cases hm : b1.bit_mask = 0
    · left
      rw [e3]; exact hm
    · right; left
      exact ⟨by rw [e4]; exact h4 hm, by rw [e3, h3]; exact s3⟩


/-! ### One pass of the loop of `update_optimal` -/

theorem store_stored (pb pm b m : Int) (po : Int → t_optimal) (index i c offset len : Int)
    (hc : c = (po (index - len)).bits i + tokenCost i len offset)
    (hpred : (po (index - len)).bits i ≠ INF) (hlt : c < (po index).bits i) :
    Stored ⟨pb, pm, po⟩ (store ⟨b, m, po⟩ index i c offset len) index i len offset := by
  obtain ⟨e1, e2, e3⟩ := store_at b m po index i c offset len
  exact ⟨e3, e2, by rw [e1]; exact hc, hpred, by rw [e1]; exact hlt⟩

theorem update_optimal_step_post (index len offset i : Int) (p : Parse) :
    ∀ q, update_optimal_step index len offset i p = some q → StepPost index len offset i p q := by
  obtain ⟨pb, pm, po⟩ := p
  have h2 : MAX_OFFSET2 = 288 := by decide
  have h1 : MAX_OFFSET1 = 32 := by decide
  have hG : BIT_GOLOMG_MAX = 7 := by decide
  have non : ∀ q, (none : Option Parse) = some q →
      StepPost index len offset i ⟨pb, pm, po⟩ q := by
    intro q hq
    cases hq
  unfold update_optimal_step
  by_cases c0 : index < 0 ∨ index ≥ MAX
  · simp only [c0, if_true]; exact non
  simp only [c0, if_false]
  have i0 : 0 ≤ index := by omega
  have i1 : index < MAX := by omega
  have keep : ∀ (b m : Int),
      (0 < index → (po (index - len)).bits i ≠ INF →
        (offset = 0 → (po (index - 1)).bits i ≠ INF) →
        (offset ≠ 0 → offset ≤ index ∧
          offset ≤ 2 ^ (BIT_OFFSET_MIN + i).toNat + MAX_OFFSET2) →
        (po index).bits i ≤ (po (index - len)).bits i + tokenCost i len offset) →
      ∀ q, some (⟨b, m, po⟩ : Parse) = some q → StepPost index len offset i ⟨pb, pm, po⟩ q := by
    intro b m hle q hq
    cases hq
    exact ⟨i0, i1, fun j r _ => ⟨rfl, rfl, rfl⟩, Or.inl ⟨rfl, rfl, rfl⟩, hle⟩
  have sto : ∀ b m c,
      c = (po (index - len)).bits i + tokenCost i len offset →
      (po (index - len)).bits i ≠ INF → c < (po index).bits i → 0 ≤ index - len →
      (offset = 0 → 0 < index ∧ (po (index - 1)).bits i ≠ INF) →
      (offset ≠ 0 → offset ≤ index ∧
        offset ≤ 2 ^ (BIT_OFFSET_MIN + i).toNat + MAX_OFFSET2) →
      ∀ q, some (store ⟨b, m, po⟩ index i c offset len) = some q →
        StepPost index len offset i ⟨pb, pm, po⟩ q := by
    intro b m c hc hpred hlt hrange hlit hoff q hq
    cases hq
    have hst := store_stored pb pm b m po index i c offset len hc hpred hlt
    refine ⟨i0, i1, fun j r hne => store_same pb pm po index i c offset len b m j r hne,
      Or.inr (Or.inr ⟨hst, hrange, hlit, hoff⟩), ?_⟩
    intro _ _ _ _
    rw [hst.2.2.1]
  by_cases c1 : offset = 0
  · subst c1
    simp only [if_true]
    by_cases c2 : index > 0
    · simp only [c2, if_true]
      by_cases c3 : index - 1 < 0 ∨ index - 1 ≥ MAX
      · simp only [c3, if_true]; exact non
      simp only [c3, if_false]
      by_cases c4 : (po (index - 1)).bits i = INF
      · simp only [c4, if_true]
        exact keep _ _ (fun _ _ h _ => absurd c4 (h rfl))
      simp only [c4, if_false]
      by_cases c5 : len = 1
      · subst c5
        simp only [if_true]
        have tc : tokenCost i 1 0 = 9 := tokenCost_lit i
        by_cases c6 : (po index).bits i > (po (index - 1)).bits i + 1 + 8
        · simp only [c6, if_true]
          exact sto _ _ _ (by rw [tc]; ring) c4 (by omega) (by omega) (fun _ => ⟨c2, c4⟩)
            (fun h => absurd rfl h)
        · simp only [c6, if_false]
          exact keep _ _ (fun _ _ _ _ => by rw [tc]; omega)
      simp only [c5, if_false]
      by_cases c7 : index - len < 0 ∨ index - len ≥ MAX
      · simp only [c7, if_true]; exact non
      simp only [c7, if_false]
      have tc : tokenCost i len 0 = 1 + BIT_GOLOMG_MAX + 1 + 8 + len * 8 := tokenCost_rle i len c5
      by_cases c8 : (po (index - len)).bits i = INF
      · simp only [c8, if_true]
        exact keep _ _ (fun _ h _ _ => absurd c8 h)
      simp only [c8, if_false]
      by_cases c9 : (po index).bits i > (po (index - len)).bits i + 1 + BIT_GOLOMG_MAX + 1 + 8 + len * 8
      · simp only [c9, if_true]
        exact sto _ _ _ (by rw [tc]; ring) c8 (by omega) (by omega) (fun _ => ⟨c2, c4⟩)
          (fun h => absurd rfl h)
      · simp only [c9, if_false]
        exact keep _ _ (fun _ _ _ _ => by rw [tc]; omega)
    · simp only [c2, if_false]
      intro q hq
      cases hq
      have e0 : index = 0 := by omega
      obtain ⟨e1, e2, e3⟩ := store_at pb pm po index i 8 0 1
      exact ⟨i0, i1, fun j r hne => store_same pb pm po index i 8 0 1 pb pm j r hne,
        Or.inr (Or.inl ⟨e0, rfl, e1, e2, e3⟩), fun h => absurd h c2⟩
  simp only [c1, if_false]
  have tc : tokenCost i len offset = count_bits (BIT_OFFSET_MIN + i) offset len :=
    tokenCost_match i len offset c1
  by_cases d1 : offset > index
  · simp only [d1, if_true]
    exact keep _ _ (fun _ _ _ h => absurd (h c1).1 (by omega))
  simp only [d1, if_false]
  by_cases d2 : index - len < 0 ∨ index - len ≥ MAX
  · simp only [d2, if_true]; exact non
  simp only [d2, if_false]
  by_cases d3 : (po (index - len)).bits i = INF
  · simp only [d3, if_true]
    exact keep _ _ (fun _ h _ _ => absurd d3 h)
  simp only [d3, if_false]
  by_cases h32 : offset > MAX_OFFSET1
  · simp only [h32, if_true, true_and, set_BIT_OFFSET3]
    by_cases d4 : offset > 2 ^ (BIT_OFFSET_MIN + i).toNat + MAX_OFFSET2
    · simp only [d4, if_true]
      exact keep _ _ (fun _ _ _ h => absurd (h c1).2 (by omega))
    simp only [d4, if_false]
    by_cases d5 : (po index).bits i >
        (po (index - len)).bits i + count_bits (BIT_OFFSET_MIN + i) offset len
    · simp only [d5, if_true]
      exact sto _ _ _ (by rw [tc]) d3 (by omega) (by omega)
        (fun h => absurd h c1) (fun _ => ⟨by omega, by omega⟩)
    · simp only [d5, if_false]
      exact keep _ _ (fun _ _ _ _ => by rw [tc]; omega)
  · simp only [h32, if_false, false_and]
    have hb : offset ≤ 2 ^ (BIT_OFFSET_MIN + i).toNat + MAX_OFFSET2 := by
      have h3 : (0 : Int) ≤ 2 ^ (BIT_OFFSET_MIN + i).toNat := pow_nonneg (by norm_num) _
      omega
    have tc2 : count_bits pb offset len = count_bits (BIT_OFFSET_MIN + i) offset len :=
      count_bits_small _ _ _ _ (by omega)
    by_cases d5 : (po index).bits i > (po (index - len)).bits i + count_bits pb offset len
    · simp only [d5, if_true]
      exact sto _ _ _ (by rw [tc, tc2]) d3 (by omega) (by omega)
        (fun h => absurd h c1) (fun _ => ⟨by omega, hb⟩)
    · simp only [d5, if_false]
      exact keep _ _ (fun _ _ _ _ => by rw [tc, ← tc2]; omega)

/-! ### The offset on the wire -/

theorem write_bit_congr (v w : Int) (h : v ≠ 0 ↔ w ≠ 0) (b : Buffers) :
    write_bit v b = write_bit w b := by
  unfold write_bit
  by_cases hv : v ≠ 0
  · have hw := h.1 hv
    simp only [if_pos hv, if_pos hw]
  · have hw : ¬ w ≠ 0 := fun hc => hv (h.2 hc)
    simp only [if_neg hv, if_neg hw]

theorem land_natCast (n m : Nat) : Int.land (n : Int) (m : Int) = ((n &&& m : Nat) : Int) := rfl

theorem land_two_pow (x : Int) (hx : 0 ≤ x) (k : Nat) :
    Int.land x (2 ^ k) ≠ 0 ↔ x / 2 ^ k % 2 ≠ 0 := by
  obtain ⟨n, rfl⟩ := Int.eq_ofNat_of_zero_le hx
  have e1 : ((2 : Int) ^ k) = (((2 ^ k : Nat) : Nat) : Int) := by push_cast; rfl
  rw [e1, land_natCast]
  have e2 : (n : Int) / ((2 ^ k : Nat) : Int) % 2 = ((n / 2 ^ k % 2 : Nat) : Int) := by
    push_cast
    rfl
  rw [e2]
  have h3 := and_two_pow_ne_zero n k
  rw [Nat.testBit_to_div_mod] at h3
  simp only [decide_eq_true_eq] at h3
  constructor
  · intro h
    have h4 : n &&& 2 ^ k ≠ 0 := fun hc => h (by rw [hc]; rfl)
    have h5 := h3.1 h4
    rw [h5]
    norm_num
  · intro h hc
    have h4 : n / 2 ^ k % 2 ≠ 0 := fun hz => h (by rw [hz]; rfl)
    have h5 : n / 2 ^ k % 2 = 1 := by omega
    have h6 := h3.2 h5
    exact h6 (by exact_mod_cast hc)

theorem runOps_bits_in (x : Int) (hx : 0 ≤ x) (rest : List WOp) :
    ∀ (k : Nat) (b : Buffers), runOps (bits_ops x k ++ rest) b = runOps (in_bits x k ++ rest) b := by
  intro k
  induction k with
  | zero => intro b; rfl
  | succ k ih =>
    intro b
    simp only [bits_ops, in_bits, List.cons_append, runOps_cons, runOp]
    rw [write_bit_congr _ _ (land_two_pow x hx k) b]
    cases write_bit (x / 2 ^ k % 2) b with
    | none => rfl
    | some b1 => exact ih b1

theorem land_255 (x : Int) (hx : 0 ≤ x) : Int.land x 0xFF = x % 256 := by
  obtain ⟨n, rfl⟩ := Int.eq_ofNat_of_zero_le hx
  have e1 : (0xFF : Int) = ((255 : Nat) : Int) := rfl
  rw [e1, land_natCast]
  have h := Nat.and_pow_two_sub_one_eq_mod n 8
  norm_num at h
  rw [h]
  push_cast
  rfl

theorem shift_8 (x : Int) : x >>> (8 : Nat) = x / 256 := by
  rw [Int.shiftRight_eq_div_pow]
  norm_num

theorem offset_ops_format (r offset len : Int) (ho : 1 ≤ offset) (b : Buffers) :
    runOps (offset_ops (BIT_OFFSET_MIN + r) offset len) b =
      runOps (offset_format r (offset - 1) len) b := by
  have h0 : MAX_OFFSET00 = 1 := by decide
  have h1 : MAX_OFFSET1 = 32 := by decide
  have h2 : MAX_OFFSET2 = 288 := by decide
  have b0 : BIT_OFFSET0.toNat = 1 := by decide
  have b00 : BIT_OFFSET00.toNat = 0 := by decide
  have b1 : BIT_OFFSET1.toNat = 5 := by decide
  have b2 : BIT_OFFSET2 = 8 := by decide
  unfold offset_ops offset_format
  simp only [h0, h1, h2, b0, b00, b1, b2]
  by_cases c1 : len = 1
  · simp only [if_pos c1]
    by_cases c2 : offset - 1 ≥ 1
    · rw [if_pos c2, if_neg (show ¬ (offset - 1 = 0) by omega)]
      have := runOps_bits_in (offset - 1 - 1) (by omega) [] 1
      simp only [List.append_nil] at this
      rw [runOps_cons, runOps_cons]
      cases runOp (WOp.bit 1) b with
      | none => rfl
      | some b3 => exact this b3
    · rw [if_neg c2, if_pos (show offset - 1 = 0 by omega)]
      rfl
  · simp only [if_neg c1]
    by_cases c3 : offset - 1 ≥ 288
    · rw [if_pos c3, if_neg (show ¬ (offset - 1 < 32) by omega),
        if_neg (show ¬ (offset - 1 < 288) by omega), land_255 _ (by omega), shift_8]
      have := runOps_bits_in ((offset - 1 - 288) / 256) (Int.ediv_nonneg (by omega) (by norm_num))
        [WOp.byte ((offset - 1 - 288) % 256).toNat] (BIT_OFFSET_MIN + r - 8).toNat
      rw [runOps_cons, runOps_cons]
      cases runOp (WOp.bit 1) b with
      | none => rfl
      | some b3 =>
        simp only [Option.some_bind]
        rw [runOps_cons, runOps_cons]
        cases runOp (WOp.bit 1) b3 with
        | none => rfl
        | some b4 => exact this b4
    · rw [if_neg c3]
      by_cases c4 : offset - 1 ≥ 32
      · rw [if_pos c4, if_neg (show ¬ (offset - 1 < 32) by omega),
          if_pos (show offset - 1 < 288 by omega), land_255 _ (by omega)]
      · rw [if_neg c4, if_pos (show offset - 1 < 32 by omega)]
        have := runOps_bits_in (offset - 1) (by omega) [] 5
        simp only [List.append_nil] at this
        rw [runOps_cons, runOps_cons]
        cases runOp (WOp.bit 1) b with
        | none => rfl
        | some b3 =>
          simp only [Option.some_bind]
          rw [runOps_cons, runOps_cons]
          cases runOp (WOp.bit 0) b3 with
          | none => rfl
          | some b4 => exact this b4

/-! ### The size of the Golomb-gamma code -/

set_option maxRecDepth 1000000 in
theorem gamma_bits_blocks : ∀ a < 16, ∀ c < 16, 16 * a + c = 0 ∨ 255 ≤ 16 * a + c ∨
    (2 ^ ((golomb_gamma_bits ((16 * a + c : Nat) : Int)).toNat / 2) ≤ 16 * a + c + 1 ∧
      16 * a + c + 1 < 2 ^ ((golomb_gamma_bits ((16 * a + c : Nat) : Int)).toNat / 2 + 1) ∧
      golomb_gamma_bits ((16 * a + c : Nat) : Int) =
        ((2 * ((golomb_gamma_bits ((16 * a + c : Nat) : Int)).toNat / 2) : Nat) : Int) ∧
      (((golomb_gamma_ops ((16 * a + c : Nat) : Int)).length : Nat) : Int) =
        golomb_gamma_bits ((16 * a + c : Nat) : Int)) := by
  decide

theorem gamma_bits_log (n : Nat) (h1 : 1 ≤ n) (h2 : n < 255) :
    golomb_gamma_bits (n : Int) = ((2 * Nat.log 2 (n + 1) : Nat) : Int) ∧
    (((golomb_gamma_ops (n : Int)).length : Nat) : Int) = golomb_gamma_bits (n : Int) := by
  have h := gamma_bits_blocks (n / 16) (by omega) (n % 16) (by omega)
  rw [Nat.div_add_mod] at h
  rcases h with h | h | ⟨q1, q2, q3, q4⟩
  · omega
  · omega
  · have hl := Nat.log_eq_of_pow_le_of_lt_pow q1 q2
    rw [hl]
    exact ⟨q3, q4⟩

/-! ### Back-references start inside the input -/

theorem update_optimal_step_legal (index len offset i : Int) (p q : Parse)
    (hq : update_optimal_step index len offset i p = some q) (hp : LegalInv p) : LegalInv q := by
  obtain ⟨_, _, hframe, hcell, _⟩ := update_optimal_step_post index len offset i p q hq
  have hI := INF_eq
  intro j r
  by_cases hc : j = index ∧ r = i
  · obtain ⟨rfl, rfl⟩ := hc
    rcases hcell with h | ⟨_, _, e1, e2, _⟩ | ⟨hst, _, _, hoff⟩
    · rw [h.1, h.2.1]
      exact hp j r
    · rw [e1, e2]
      exact ⟨fun h => absurd h (by omega), by omega, fun h => absurd h (by omega)⟩
    · obtain ⟨_, s2, _, _, s5⟩ := hst
      have hb := (hp j r).2.1
      rw [s2]
      refine ⟨fun h => (hoff (by omega)).1, by omega, fun h => absurd h (by omega)⟩
  · have hs := hframe j r (by
      by_cases hj : j = index
      · exact Or.inr (fun hr => hc ⟨hj, hr⟩)
      · exact Or.inl hj)
    rw [hs.1, hs.2.1]
    exact hp j r

theorem lzss_scan_legal (g : Globals) (s : ScanState) (h : lzss_scan g = some s) :
    LegalInv s.parse :=
  lzss_scan_pres LegalInv
    (fun index len offset i p q hq hp => update_optimal_step_legal index len offset i p q hq hp)
    g s h (fun j r => ⟨fun h => absurd h (by show ¬ ((0 : Int) > 0); omega), le_refl _,
      fun _ => rfl⟩)

/-! ### The trim pass leaves no token inside another -/

theorem cleanup_loop_no_overlap (r : Int) (hr0 : 0 ≤ r) (hr1 : r < BIT_OFFSET_NBR)
    (orig : Int → t_optimal) (n : Int) (hn : n ≤ MAX)
    (horig : ∀ x, 0 ≤ x → x ≤ 1 → x < n → (orig x).len r ≤ 1) :
    ∀ (f : Nat) (i : Int) (o : Int → t_optimal), i < n → i ≤ f + 1 →
      (∀ x, x ≤ i → o x = orig x) →
      (∀ x, 0 ≤ x → i < x → x < n → (o x).len r > 0 →
        i ≤ x - (o x).len r ∧
          ∀ j, 0 ≤ j → x - (o x).len r < j → j < x → (o j).len r = 0) →
      ∀ x, 0 ≤ x → x < n → (cleanup_loop r f i o x).len r > 0 →
        ∀ j, 0 ≤ j → x - (cleanup_loop r f i o x).len r < j → j < x →
          (cleanup_loop r f i o j).len r = 0 := by
  have base : ∀ (i : Int) (o : Int → t_optimal), i ≤ 1 →
      (∀ x, x ≤ i → o x = orig x) →
      (∀ x, 0 ≤ x → i < x → x < n → (o x).len r > 0 →
        i ≤ x - (o x).len r ∧
          ∀ j, 0 ≤ j → x - (o x).len r < j → j < x → (o j).len r = 0) →
      ∀ x, 0 ≤ x → x < n → (o x).len r > 0 →
        ∀ j, 0 ≤ j → x - (o x).len r < j → j < x → (o j).len r = 0 := by
    intro i o hi ha hb x hx0 hx1 hlen j hj0 hj1 hj2
    by_cases hxi : i < x
    · exact (hb x hx0 hxi hx1 hlen).2 j hj0 hj1 hj2
    · have e := ha x (by omega)
      rw [e] at hj1
      have := horig x hx0 (by omega) hx1
      omega
  intro f
  induction f with
  | zero =>
    intro i o hi1 hi2 ha hb
    exact base i o (by push_cast at hi2; omega) ha hb
  | succ f ih =>
    intro i o hi1 hi2 ha hb
    by_cases h1 : i > 1
    · have h2 : ¬ (i < 0 ∨ i ≥ MAX) := by omega
      have h3 : ¬ (r < 0 ∨ r ≥ BIT_OFFSET_NBR) := by omega
      unfold cleanup_loop
      simp only [if_pos h1, if_neg h2, if_neg h3]
      by_cases h4 : (o i).len r ≤ 0
      · simp only [if_pos h4]
        apply ih (i - 1) o (by omega) (by push_cast at hi2; omega)
          (fun x hx => ha x (by omega))
        intro x hx00 hx0 hx1 hlen
        by_cases hxi : x = i
        · rw [hxi] at hlen
          omega
        · have := hb x hx00 (by omega) hx1 hlen
          exact ⟨by omega, this.2⟩
      · simp only [if_neg h4]
        have hk : (((o i).len r - 1).toNat : Int) = (o i).len r - 1 := by omega
        have above : ∀ x, i - 1 < x →
            cleanup_inner r ((o i).len r - 1).toNat (i - 1) o x = o x :=
          fun x hx => cleanup_inner_above r _ (i - 1) o x hx
        have below : ∀ x, x ≤ i - (o i).len r →
            cleanup_inner r ((o i).len r - 1).toNat (i - 1) o x = o x :=
          fun x hx => cleanup_inner_below r _ (i - 1) o x (by rw [hk]; omega)
        have clear : ∀ x, 0 ≤ x → i - (o i).len r < x → x ≤ i - 1 →
            (cleanup_inner r ((o i).len r - 1).toNat (i - 1) o x).len r = 0 :=
          fun x hx0 hx1 hx2 =>
            cleanup_inner_clear r _ (i - 1) o x (by omega) hx0 (by rw [hk]; omega) hx2
        apply ih (i - (o i).len r) _ (by omega) (by push_cast at hi2; omega)
        · intro x hx
          rw [below x hx]
          exact ha x (by omega)
        · intro x hx00 hx0 hx1 hlen
          by_cases hxi : i < x
          · rw [above x (by omega)] at hlen ⊢
            have := hb x hx00 hxi hx1 hlen
            refine ⟨by omega, ?_⟩
            intro j hj0 hj1 hj2
            rw [above j (by omega)]
            exact this.2 j hj0 hj1 hj2
          · by_cases hxe : x = i
            · rw [hxe, above i (by omega)]
              refine ⟨le_refl _, ?_⟩
              intro j hj0 hj1 hj2
              exact clear j hj0 hj1 (by omega)
            · rw [clear x hx00 hx0 (by omega)] at hlen
              omega
    · rw [cleanup_loop_small r _ i o (by omega)]
      exact base i o (by omega) ha hb

/-! ### The reads that mirror a sequence of writes -/

theorem readOps_bit_inv (v : Int) (ops : List WOp) (R R2 : Buffers) (l : List Nat)
    (h : readOps (WOp.bit v :: ops) R = some (l, R2)) :
    ∃ x R1 l1, read_bit R = some (x, R1) ∧ readOps ops R1 = some (l1, R2) ∧ l = x :: l1 := by
  simp only [readOps] at h
  cases h1 : read_bit R with
  | none => rw [h1] at h; exact absurd h (by simp)
  | some p =>
    obtain ⟨x, R1⟩ := p
    rw [h1] at h
    simp only at h
    cases h2 : readOps ops R1 with
    | none => rw [h2] at h; exact absurd h (by simp)
    | some p2 =>
      obtain ⟨l1, R3⟩ := p2
      rw [h2] at h
      simp only [Option.some.injEq, Prod.mk.injEq] at h
      exact ⟨x, R1, l1, rfl, by rw [← h.2]; exact h2, h.1.symm⟩

theorem readOps_byte_inv (v : Nat) (ops : List WOp) (R R2 : Buffers) (l : List Nat)
    (h : readOps (WOp.byte v :: ops) R = some (l, R2)) :
    ∃ x R1 l1, read_byte R = some (x, R1) ∧ readOps ops R1 = some (l1, R2) ∧ l = x :: l1 := by
  simp only [readOps] at h
  cases h1 : read_byte R with
  | none => rw [h1] at h; exact absurd h (by simp)
  | some p =>
    obtain ⟨x, R1⟩ := p
    rw [h1] at h
    simp only at h
    cases h2 : readOps ops R1 with
    | none => rw [h2] at h; exact absurd h (by simp)
    | some p2 =>
      obtain ⟨l1, R3⟩ := p2
      rw [h2] at h
      simp only [Option.some.injEq, Prod.mk.injEq] at h
      exact ⟨x, R1, l1, rfl, by rw [← h.2]; exact h2, h.1.symm⟩

theorem readOps_bit_val (v : Int) (ops : List WOp) (R R2 : Buffers)
    (h : readOps (WOp.bit v :: ops) R = some ((WOp.bit v :: ops).map wireVal, R2)) :
    ∃ R1, read_bit R = some (wire_bit v, R1) ∧ readOps ops R1 = some (ops.map wireVal, R2) := by
  obtain ⟨x, R1, l1, h1, h2, h3⟩ := readOps_bit_inv v ops R R2 _ h
  simp only [List.map_cons, wireVal, List.cons.injEq] at h3
  rw [← h3.1] at h1
  rw [← h3.2] at h2
  exact ⟨R1, h1, h2⟩

theorem readOps_byte_val (v : Nat) (ops : List WOp) (R R2 : Buffers)
    (h : readOps (WOp.byte v :: ops) R = some ((WOp.byte v :: ops).map wireVal, R2)) :
    ∃ R1, read_byte R = some (v % 256, R1) ∧ readOps ops R1 = some (ops.map wireVal, R2) := by
  obtain ⟨x, R1, l1, h1, h2, h3⟩ := readOps_byte_inv v ops R R2 _ h
  simp only [List.map_cons, wireVal, List.cons.injEq] at h3
  rw [← h3.1] at h1
  rw [← h3.2] at h2
  exact ⟨R1, h1, h2⟩

theorem read_bit_index (R R1 : Buffers) (x : Nat) (h : read_bit R = some (x, R1)) :
    R.index_src ≤ R1.index_src := by
  unfold read_bit at h
  by_cases c1 : R.bit_mask = 0
  · simp only [if_pos c1] at h
    by_cases c2 : R.index_src < 0 ∨ R.index_src ≥ MAX
    · simp only [if_pos c2] at h
      exact absurd h (by simp)
    · simp only [if_neg c2] at h
      have e := (Prod.mk.inj (Option.some.inj h)).2
      rw [← e]
      show R.index_src ≤ R.index_src + 1
      omega
  · simp only [if_neg c1] at h
    by_cases c2 : R.bit_index < 0 ∨ R.bit_index ≥ MAX
    · simp only [if_pos c2] at h
      exact absurd h (by simp)
    · simp only [if_neg c2] at h
      have e := (Prod.mk.inj (Option.some.inj h)).2
      rw [← e]

theorem read_byte_index (R R1 : Buffers) (x : Nat) (h : read_byte R = some (x, R1)) :
    R1.index_src = R.index_src + 1 := by
  unfold read_byte at h
  by_cases c2 : R.index_src < 0 ∨ R.index_src ≥ MAX
  · simp only [if_pos c2] at h
    exact absurd h (by simp)
  · simp only [if_neg c2] at h
    have e := (Prod.mk.inj (Option.some.inj h)).2
    rw [← e]

theorem readOps_index_mono : ∀ (ops : List WOp) (R R2 : Buffers) (l : List Nat),
    readOps ops R = some (l, R2) → R.index_src ≤ R2.index_src := by
  intro ops
  induction ops with
  | nil =>
    intro R R2 l h
    simp only [readOps, Option.some.injEq, Prod.mk.injEq] at h
    rw [h.2]
  | cons op ops ih =>
    intro R R2 l h
    cases op with
    | bit v =>
      obtain ⟨x, R1, l1, h1, h2, _⟩ := readOps_bit_inv v ops R R2 l h
      have := read_bit_index R R1 x h1
      have := ih R1 R2 l1 h2
      omega
    | byte v =>
      obtain ⟨x, R1, l1, h1, h2, _⟩ := readOps_byte_inv v ops R R2 l h
      have := read_byte_index R R1 x h1
      have := ih R1 R2 l1 h2
      omega

theorem wire_bit_land (n k : Nat) : wire_bit (Int.land (n : Int) (2 ^ k)) = n / 2 ^ k % 2 := by
  have h := land_two_pow (n : Int) (Int.natCast_nonneg n) k
  have e2 : (n : Int) / 2 ^ k % 2 = ((n / 2 ^ k % 2 : Nat) : Int) := by
    push_cast
    rfl
  rw [e2] at h
  unfold wire_bit
  by_cases hc : Int.land (n : Int) (2 ^ k) ≠ 0
  · rw [if_pos hc]
    have := h.1 hc
    have h5 : n / 2 ^ k % 2 ≠ 0 := fun hz => this (by rw [hz]; rfl)
    omega
  · rw [if_neg hc]
    have : ¬ (((n / 2 ^ k % 2 : Nat) : Int) ≠ 0) := fun hn => hc (h.2 hn)
    have h5 : n / 2 ^ k % 2 = 0 := by
      by_contra hz
      exact this (by exact_mod_cast hz)
    omega

theorem shift_or_bit (acc bit : Nat) (hb : bit < 2) : (acc <<< 1) ||| bit = 2 * acc + bit := by
  rw [Nat.shiftLeft_eq, pow_one, Nat.mul_comm acc 2]
  have := Nat.mul_add_lt_is_or (show bit < 2 ^ 1 by omega) acc
  rw [pow_one] at this
  exact this.symm

theorem read_offset_bits_of (old : Int) (n : Nat) (tail : List WOp) (R2 : Buffers)
    (hold : R2.index_src < old) :
    ∀ (k acc : Nat) (R : Buffers),
      readOps (bits_ops (n : Int) k ++ tail) R =
        some ((bits_ops (n : Int) k ++ tail).map wireVal, R2) →
      ∃ R1, read_offset_bits old k acc R = some (Flow.cont (acc * 2 ^ k + n % 2 ^ k, R1)) ∧
        readOps tail R1 = some (tail.map wireVal, R2) := by
  intro k
  induction k with
  | zero =>
    intro acc R h
    refine ⟨R, ?_, h⟩
    simp only [read_offset_bits, pow_zero, Nat.mod_one, Nat.mul_one, Nat.add_zero]
  | succ k ih =>
    intro acc R h
    simp only [bits_ops, List.cons_append] at h
    have hm := readOps_index_mono _ R R2 _ h
    obtain ⟨R1, h1, h2⟩ := readOps_bit_val _ _ R R2 h
    rw [wire_bit_land] at h1
    obtain ⟨R3, h3, h4⟩ := ih ((acc <<< 1) ||| (n / 2 ^ k % 2)) R1 h2
    refine ⟨R3, ?_, h4⟩
    unfold read_offset_bits
    rw [if_neg (by omega), h1]
    simp only
    rw [h3, shift_or_bit acc _ (Nat.mod_lt _ (by norm_num)), Nat.mod_pow_succ]
    congr 3
    ring

theorem readOps_nil_inv (R R2 : Buffers) (l : List Nat) (h : readOps [] R = some (l, R2)) :
    R2 = R := by
  simp only [readOps, Option.some.injEq, Prod.mk.injEq] at h
  exact h.2.symm

theorem shift8_or (hi lo : Nat) (hlo : lo < 256) : (hi <<< 8) ||| lo = 256 * hi + lo := by
  rw [Nat.shiftLeft_eq, Nat.mul_comm hi (2 ^ 8)]
  have := Nat.mul_add_lt_is_or (show lo < 2 ^ 8 by norm_num; exact hlo) hi
  rw [← this]

/-- The offset-decoding branch of `delzss` on the reads that mirror the calls of
`write_offset`. -/
theorem read_offset_of (r old offset len : Int) (R R1 : Buffers) (hr0 : 0 ≤ r)
    (ho1 : 1 ≤ offset) (hleg1 : len = 1 → offset ≤ 3)
    (hleg2 : len ≠ 1 → offset ≤ 2 ^ (BIT_OFFSET_MIN + r).toNat + MAX_OFFSET2)
    (h : readOps (offset_ops (BIT_OFFSET_MIN + r) offset len) R =
      some ((offset_ops (BIT_OFFSET_MIN + r) offset len).map wireVal, R1))
    (hold : R1.index_src < old) :
    read_offset r old len R = some (Flow.cont ((offset - 1).toNat, R1)) := by
  have h0 : MAX_OFFSET00 = 1 := by decide
  have h1 : MAX_OFFSET1 = 32 := by decide
  have h2 : MAX_OFFSET2 = 288 := by decide
  have b0 : BIT_OFFSET0.toNat = 1 := by decide
  have b00 : BIT_OFFSET00.toNat = 0 := by decide
  have b1 : BIT_OFFSET1.toNat = 5 := by decide
  have b2 : BIT_OFFSET2 = 8 := by decide
  have hmin : BIT_OFFSET_MIN = 9 := by decide
  have hm := readOps_index_mono _ R R1 _ h
  unfold offset_ops at h
  simp only [h0, h1, h2, b0, b00, b1, b2] at h
  unfold read_offset
  by_cases c1 : len = 1
  · simp only [if_pos c1] at h
    rw [if_pos c1, if_neg (show ¬ (R.index_src ≥ old) by omega)]
    by_cases c2 : offset - 1 ≥ 1
    · rw [if_pos c2] at h
      obtain ⟨Ra, ha, hra⟩ := readOps_bit_val _ _ R R1 h
      have ev : offset - 1 - 1 = (((offset - 1 - 1).toNat : Nat) : Int) := by omega
      rw [ev] at hra
      simp only [bits_ops] at hra
      obtain ⟨Rb, hb, hrb⟩ := readOps_bit_val _ _ Ra R1 hra
      have e := readOps_nil_inv Rb R1 _ hrb
      rw [wire_bit_land] at hb
      rw [ha]
      simp only [wire_bit, if_pos (show (1 : Int) ≠ 0 by norm_num), if_pos (show (1 : Nat) ≠ 0 by norm_num)]
      rw [hb, e]
      have hv := hleg1 c1
      have : (offset - 1 - 1).toNat / 2 ^ 0 % 2 + 1 = (offset - 1).toNat := by
        simp only [pow_zero, Nat.div_one]
        omega
      simp only
      rw [this]
    · rw [if_neg c2] at h
      simp only [bits_ops] at h
      obtain ⟨Ra, ha, hra⟩ := readOps_bit_val _ _ R R1 h
      have e := readOps_nil_inv Ra R1 _ hra
      rw [ha]
      simp only [wire_bit, if_neg (show ¬ ((0 : Int) ≠ 0) by norm_num),
        if_neg (show ¬ ((0 : Nat) ≠ 0) by norm_num)]
      rw [e]
      have : (offset - 1).toNat = 0 := by omega
      rw [this]
  · simp only [if_neg c1] at h
    rw [if_neg c1, if_neg (show ¬ (R.index_src ≥ old) by omega)]
    have hub := hleg2 c1
    rw [h2] at hub
    by_cases c3 : offset - 1 ≥ 288
    · rw [if_pos c3] at h
      obtain ⟨Ra, ha, hra⟩ := readOps_bit_val _ _ R R1 h
      obtain ⟨Rb, hb, hrb⟩ := readOps_bit_val _ _ Ra R1 hra
      have ev : (offset - 1 - 288) / 256 = ((((offset - 1 - 288) / 256).toNat : Nat) : Int) := by
        have : 0 ≤ (offset - 1 - 288) / 256 := Int.ediv_nonneg (by omega) (by norm_num)
        omega
      rw [ev] at hrb
      have hma := readOps_index_mono _ Ra R1 _ hra
      obtain ⟨Rc, hc, hrc⟩ := read_offset_bits_of old _ _ R1 hold _ 0 Rb hrb
      obtain ⟨Rd, hd, hrd⟩ := readOps_byte_val _ _ Rc R1 hrc
      have e := readOps_nil_inv Rd R1 _ hrd
      have hmc := readOps_index_mono _ Rc R1 _ hrc
      rw [ha]
      simp only [wire_bit, if_pos (show (1 : Int) ≠ 0 by norm_num),
        if_neg (show ¬ ((1 : Nat) = 0) by norm_num)]
      rw [if_neg (show ¬ (Ra.index_src ≥ old) by omega), hb]
      simp only [wire_bit, if_pos (show (1 : Int) ≠ 0 by norm_num),
        if_pos (show (1 : Nat) ≠ 0 by norm_num)]
      have ek : (r + BIT_OFFSET_MIN - 8).toNat = (BIT_OFFSET_MIN + r - 8).toNat := by
        rw [Int.add_comm]
      rw [ek, hc]
      simp only
      rw [if_neg (show ¬ (Rc.index_src ≥ old) by omega), hd]
      simp only
      rw [e]
      have hk : (BIT_OFFSET_MIN + r - 8).toNat = (BIT_OFFSET_MIN + r).toNat - 8 := by
        rw [hmin]; omega
      have hp : (2 : Int) ^ (BIT_OFFSET_MIN + r).toNat =
          256 * 2 ^ ((BIT_OFFSET_MIN + r).toNat - 8) := by
        have : (BIT_OFFSET_MIN + r).toNat = 8 + ((BIT_OFFSET_MIN + r).toNat - 8) := by
          rw [hmin]; omega
        conv_lhs => rw [this, pow_add]
        norm_num
      have hlo : ((offset - 1 - 288) % 256).toNat % 256 = ((offset - 1 - 288) % 256).toNat := by
        apply Nat.mod_eq_of_lt
        omega
      have hhi : ((offset - 1 - 288) / 256).toNat < 2 ^ (BIT_OFFSET_MIN + r - 8).toNat := by
        rw [hk]
        have h5 : (offset - 1 - 288) / 256 < 2 ^ ((BIT_OFFSET_MIN + r).toNat - 8) := by
          apply Int.ediv_lt_of_lt_mul (by norm_num)
          rw [hp] at hub
          linarith
        have h6 : 0 ≤ (offset - 1 - 288) / 256 := Int.ediv_nonneg (by omega) (by norm_num)
        have h7 : ((((offset - 1 - 288) / 256).toNat : Nat) : Int) <
            (((2 ^ ((BIT_OFFSET_MIN + r).toNat - 8) : Nat) : Nat) : Int) := by
          push_cast
          omega
        exact_mod_cast h7
      rw [hlo, Nat.zero_mul, Nat.zero_add, Nat.mod_eq_of_lt hhi,
        shift8_or _ _ (by omega)]
      congr 3
      have h8 := Int.ediv_add_emod (offset - 1 - 288) 256
      have h9 : 0 ≤ (offset - 1 - 288) / 256 := Int.ediv_nonneg (by omega) (by norm_num)
      omega
    · rw [if_neg c3] at h
      by_cases c4 : offset - 1 ≥ 32
      · rw [if_pos c4] at h
        obtain ⟨Ra, ha, hra⟩ := readOps_bit_val _ _ R R1 h
        obtain ⟨Rb, hb, hrb⟩ := readOps_byte_val _ _ Ra R1 hra
        have e := readOps_nil_inv Rb R1 _ hrb
        have hma := readOps_index_mono _ Ra R1 _ hra
        rw [ha]
        simp only [wire_bit, if_neg (show ¬ ((0 : Int) ≠ 0) by norm_num), if_true]
        rw [if_neg (show ¬ (Ra.index_src ≥ old) by omega), hb]
        simp only
        rw [e]
        congr 3
        omega
      · rw [if_neg c4] at h
        obtain ⟨Ra, ha, hra⟩ := readOps_bit_val _ _ R R1 h
        obtain ⟨Rb, hb, hrb⟩ := readOps_bit_val _ _ Ra R1 hra
        have ev : offset - 1 = (((offset - 1).toNat : Nat) : Int) := by omega
        rw [ev] at hrb
        have hma := readOps_index_mono _ Ra R1 _ hra
        have hrb2 : readOps (bits_ops (((offset - 1).toNat : Nat) : Int) 5 ++ []) Rb =
            some ((bits_ops (((offset - 1).toNat : Nat) : Int) 5 ++ []).map wireVal, R1) := by
          rw [List.append_nil]
          exact hrb
        obtain ⟨Rc, hc, hrc⟩ := read_offset_bits_of old _ _ R1 hold _ 0 Rb hrb2
        have e := readOps_nil_inv Rc R1 _ hrc
        rw [ha]
        simp only [wire_bit, if_pos (show (1 : Int) ≠ 0 by norm_num),
          if_neg (show ¬ ((1 : Nat) = 0) by norm_num)]
        rw [if_neg (show ¬ (Ra.index_src ≥ old) by omega), hb]
        simp only [wire_bit, if_neg (show ¬ ((0 : Int) ≠ 0) by norm_num),
          if_neg (show ¬ ((0 : Nat) ≠ 0) by norm_num)]
        rw [hc, e]
        congr 3
        rw [Nat.zero_mul, Nat.zero_add]
        apply Nat.mod_eq_of_lt
        norm_num
        omega

/-! ### Properties kept by the calls of `update_optimal` for one position -/

theorem update_optimal_loop_at (P : Parse → Prop) (index len offset : Int)
    (hstep : ∀ r p q, update_optimal_step index len offset r p = some q → P p → P q) :
    ∀ (k : Nat) (p q : Parse), update_optimal_loop index len offset k p = some q → P p → P q := by
  intro k
  induction k with
  | zero => intro p q h hp; cases h; exact hp
  | succ k ih =>
    intro p q h hp
    unfold update_optimal_loop at h
    cases hx : update_optimal_step index len offset (k : Int) p with
    | none => rw [hx] at h; exact absurd h (by simp)
    | some p1 =>
      rw [hx] at h
      exact ih p1 q h (hstep (k : Int) p p1 hx hp)

theorem update_optimal_at (P : Parse → Prop) (index len offset : Int)
    (hstep : ∀ r p q, update_optimal_step index len offset r p = some q → P p → P q)
    (nbr : Int) (p q : Parse)
    (h : update_optimal nbr index len offset p = some q) (hp : P p) : P q :=
  update_optimal_loop_at P index len offset hstep _ p q h hp

theorem rle_loop_at (P : Parse → Prop) (i : Int)
    (hstep : ∀ len r p q, update_optimal_step i len 0 r p = some q → P p → P q) (nbr : Int) :
    ∀ (c : Nat) (k : Int) (p q : Parse), rle_loop nbr i c k p = some q → P p → P q := by
  intro c
  induction c with
  | zero => intro k p q h hp; cases h; exact hp
  | succ c ih =>
    intro k p q h hp
    unfold rle_loop at h
    cases hx : update_optimal nbr i k 0 p with
    | none => rw [hx] at h; exact absurd h (by simp)
    | some p1 =>
      rw [hx] at h
      exact ih (k - 1) p1 q h (update_optimal_at P i k 0 (hstep k) nbr p p1 hx hp)

theorem len1_loop_at (P : Parse → Prop) (i : Int)
    (hstep : ∀ k r p q, update_optimal_step i 1 k r p = some q → P p → P q)
    (src : Int → Nat) (nbr : Int) :
    ∀ (c : Nat) (k : Int) (p q : Parse), len1_loop src nbr i c k p = some q → P p → P q := by
  intro c
  induction c with
  | zero => intro k p q h hp; cases h; exact hp
  | succ c ih =>
    intro k p q h hp
    unfold len1_loop at h
    by_cases g1 : i < 0 ∨ i ≥ MAX ∨ i - k < 0 ∨ i - k ≥ MAX
    · simp only [if_pos g1] at h
      exact absurd h (by simp)
    · simp only [if_neg g1] at h
      by_cases g2 : src i = src (i - k)
      · simp only [if_pos g2] at h
        cases hx : update_optimal nbr i 1 k p with
        | none => rw [hx] at h; exact absurd h (by simp)
        | some p1 =>
          rw [hx] at h
          exact ih (k + 1) p1 q h (update_optimal_at P i 1 k (hstep k) nbr p p1 hx hp)
      · simp only [if_neg g2] at h
        exact ih (k + 1) p q h hp

theorem match_len_loop_at (P : Parse → Prop) (i : Int)
    (hstep : ∀ len offset r p q, update_optimal_step i len offset r p = some q → P p → P q)
    (src : Int → Nat) (nbr offset : Int) :
    ∀ (f : Nat) (len best : Int) (p : Parse) (r : Int × Parse),
      match_len_loop src nbr i offset f len best p = some r → P p → P r.2 := by
  intro f
  induction f with
  | zero => intro len best p r h hp; cases h; exact hp
  | succ f ih =>
    intro len best p r h hp
    unfold match_len_loop at h
    by_cases g0 : len ≤ MAX_GAMMA
    · simp only [if_pos g0] at h
      by_cases g1 : i - len < 0 ∨ i - len - offset < 0 ∨ i - len ≥ MAX ∨ i - len - offset ≥ MAX
      · simp only [if_pos g1] at h
        cases h
        exact hp
      · simp only [if_neg g1] at h
        cases hx : update_optimal nbr i len offset p with
        | none => rw [hx] at h; exact absurd h (by simp)
        | some p1 =>
          rw [hx] at h
          simp only at h
          have h1 := update_optimal_at P i len offset (hstep len offset) nbr p p1 hx hp
          by_cases g2 : i < offset + len ∨ src (i - len) ≠ src (i - len - offset)
          · simp only [if_pos g2] at h
            cases h
            exact h1
          · simp only [if_neg g2] at h
            exact ih (len + 1) len p1 r h h1
    · simp only [if_neg g0] at h
      cases h
      exact hp

theorem match_walk_at (P : Parse → Prop) (i : Int)
    (hstep : ∀ len offset r p q, update_optimal_step i len offset r p = some q → P p → P q)
    (src : Int → Nat) (nbr bFAST : Int) :
    ∀ (chain : List Int) (best : Int) (p : Parse) (r : List Int × Parse),
      match_walk src nbr bFAST i chain best p = some r → P p → P r.2 := by
  intro chain
  induction chain with
  | nil =>
    intro best p r h hp
    simp only [match_walk] at h
    cases h
    exact hp
  | cons a rest ih =>
    intro best p r h hp
    cases rest with
    | nil =>
      simp only [match_walk] at h
      cases h
      exact hp
    | cons b rest =>
      unfold match_walk at h
      simp only at h
      by_cases h1 : i - a > MAX_OFFSET
      · simp only [if_pos h1] at h
        cases h
        exact hp
      · simp only [if_neg h1] at h
        by_cases h2 : i - a ≤ 0 ∨ i - (i - a) < 0
        · simp only [if_pos h2] at h
          cases hx : match_walk src nbr bFAST i (b :: rest) best p with
          | none => rw [hx] at h; exact absurd h (by simp)
          | some x =>
            rw [hx] at h
            simp only [Option.map_some'] at h
            cases h
            exact ih best p x hx hp
        · simp only [if_neg h2] at h
          cases hx : match_len_loop src nbr i (i - a) 253 2 best p with
          | none => rw [hx] at h; exact absurd h (by simp)
          | some x =>
            rw [hx] at h
            simp only at h
            have e2 := match_len_loop_at P i hstep src nbr (i - a) 253 2 best p x hx hp
            obtain ⟨bl, p1⟩ := x
            simp only at e2 h
            by_cases h3 : bFAST ≠ 0 ∧ bl > 255
            · simp only [if_pos h3] at h
              cases h
              exact e2
            · simp only [if_neg h3] at h
              cases hx2 : match_walk src nbr bFAST i (b :: rest) bl p1 with
              | none => rw [hx2] at h; exact absurd h (by simp)
              | some x2 =>
                rw [hx2] at h
                simp only [Option.map_some'] at h
                cases h
                exact ih bl p1 x2 hx2 e2

/-! ### Costs only go down -/

theorem update_optimal_step_mono (index len offset r : Int) (p q : Parse) (hi : 0 < index)
    (h : update_optimal_step index len offset r p = some q) (j r1 : Int) :
    (q.optimals j).bits r1 ≤ (p.optimals j).bits r1 := by
  obtain ⟨_, _, hfr, hcell, _⟩ := update_optimal_step_post index len offset r p q h
  by_cases hc : j ≠ index ∨ r1 ≠ r
  · exact le_of_eq (hfr j r1 hc).1
  · have hj : j = index := by
      by_contra hne
      exact hc (Or.inl hne)
    have hr : r1 = r := by
      by_contra hne
      exact hc (Or.inr hne)
    subst hj
    subst hr
    rcases hcell with hs | hz | hst
    · exact le_of_eq hs.1
    · omega
    · exact le_of_lt hst.1.2.2.2.2

theorem dom_mono_right {p q q1 : Parse} (hd : Dom p q)
    (hm : ∀ j r, (q1.optimals j).bits r ≤ (q.optimals j).bits r) : Dom p q1 :=
  fun j r => ⟨le_trans (hm j r) (hd j r).1, (hd j r).2⟩

theorem update_optimal_step_dom (index len offset r : Int) (pF pS qF qS : Parse) (hi : 0 < index)
    (hd : Dom pF pS) (hF : update_optimal_step index len offset r pF = some qF)
    (hS : update_optimal_step index len offset r pS = some qS) : Dom qF qS := by
  obtain ⟨_, _, hfrF, hcellF, _⟩ := update_optimal_step_post index len offset r pF qF hF
  obtain ⟨_, _, hfrS, _, hfwd⟩ := update_optimal_step_post index len offset r pS qS hS
  have hmS := update_optimal_step_mono index len offset r pS qS hi hS
  intro j r1
  by_cases hc : j ≠ index ∨ r1 ≠ r
  · rw [(hfrF j r1 hc).1, (hfrS j r1 hc).1]
    exact hd j r1
  · have hj : j = index := by
      by_contra hne
      exact hc (Or.inl hne)
    have hr : r1 = r := by
      by_contra hne
      exact hc (Or.inr hne)
    subst hj
    subst hr
    rcases hcellF with hs | hz | hst
    · rw [hs.1]
      exact ⟨le_trans (hmS j r1) (hd j r1).1, (hd j r1).2⟩
    · omega
    · obtain ⟨⟨_, _, hb, hne, hlt⟩, _, h0, hn0⟩ := hst
      have hI := (hd j r1).2
      have hpre := hd (j - len) r1
      have hS1 : (pS.optimals (j - len)).bits r1 ≠ INF := by
        have := hpre.1
        have := hpre.2
        omega
      have h3 : offset = 0 → (pS.optimals (j - 1)).bits r1 ≠ INF := by
        intro ho
        have h4 := (h0 ho).2
        have h5 := hd (j - 1) r1
        have := h5.1
        have := h5.2
        omega
      have hle := hfwd hi hS1 h3 hn0
      constructor
      · rw [hb]
        have := hpre.1
        omega
      · omega

theorem update_optimal_loop_dom (index len offset : Int) (hi : 0 < index) :
    ∀ (k : Nat) (pF pS qF qS : Parse), Dom pF pS →
      update_optimal_loop index len offset k pF = some qF →
      update_optimal_loop index len offset k pS = some qS → Dom qF qS := by
  intro k
  induction k with
  | zero =>
    intro pF pS qF qS hd hF hS
    cases hF
    cases hS
    exact hd
  | succ k ih =>
    intro pF pS qF qS hd hF hS
    unfold update_optimal_loop at hF hS
    cases hx : update_optimal_step index len offset (k : Int) pF with
    | none => rw [hx] at hF; exact absurd hF (by simp)
    | some p1 =>
      cases hy : update_optimal_step index len offset (k : Int) pS with
      | none => rw [hy] at hS; exact absurd hS (by simp)
      | some p2 =>
        rw [hx] at hF
        rw [hy] at hS
        exact ih p1 p2 qF qS (update_optimal_step_dom index len offset k pF pS p1 p2 hi hd hx hy)
          hF hS

theorem update_optimal_dom (nbr index len offset : Int) (hi : 0 < index)
    (pF pS qF qS : Parse) (hd : Dom pF pS)
    (hF : update_optimal nbr index len offset pF = some qF)
    (hS : update_optimal nbr index len offset pS = some qS) : Dom qF qS :=
  update_optimal_loop_dom index len offset hi _ pF pS qF qS hd hF hS

theorem update_optimal_mono (nbr index len offset : Int) (hi : 0 < index) (p q : Parse)
    (h : update_optimal nbr index len offset p = some q) (j r : Int) :
    (q.optimals j).bits r ≤ (p.optimals j).bits r :=
  update_optimal_at (fun x => ∀ j r, (x.optimals j).bits r ≤ (p.optimals j).bits r)
    index len offset
    (fun r1 p1 q1 h1 hp j r =>
      le_trans (update_optimal_step_mono index len offset r1 p1 q1 hi h1 j r) (hp j r))
    nbr p q h (fun _ _ => le_refl _) j r

theorem match_len_loop_mono (src : Int → Nat) (nbr i offset : Int) (hi : 0 < i)
    (f : Nat) (len best : Int) (p : Parse) (x : Int × Parse)
    (h : match_len_loop src nbr i offset f len best p = some x) (j r : Int) :
    (x.2.optimals j).bits r ≤ (p.optimals j).bits r :=
  match_len_loop_at (fun x => ∀ j r, (x.optimals j).bits r ≤ (p.optimals j).bits r) i
    (fun len offset r1 p1 q1 h1 hp j r =>
      le_trans (update_optimal_step_mono i len offset r1 p1 q1 hi h1 j r) (hp j r))
    src nbr offset f len best p x h (fun _ _ => le_refl _) j r

theorem match_walk_mono (src : Int → Nat) (nbr bFAST i : Int) (hi : 0 < i)
    (chain : List Int) (best : Int) (p : Parse) (x : List Int × Parse)
    (h : match_walk src nbr bFAST i chain best p = some x) (j r : Int) :
    (x.2.optimals j).bits r ≤ (p.optimals j).bits r :=
  match_walk_at (fun x => ∀ j r, (x.optimals j).bits r ≤ (p.optimals j).bits r) i
    (fun len offset r1 p1 q1 h1 hp j r =>
      le_trans (update_optimal_step_mono i len offset r1 p1 q1 hi h1 j r) (hp j r))
    src nbr bFAST chain best p x h (fun _ _ => le_refl _) j r

theorem rle_loop_dom (nbr i : Int) (hi : 0 < i) :
    ∀ (c : Nat) (k : Int) (pF pS qF qS : Parse), Dom pF pS →
      rle_loop nbr i c k pF = some qF → rle_loop nbr i c k pS = some qS → Dom qF qS := by
  intro c
  induction c with
  | zero =>
    intro k pF pS qF qS hd hF hS
    cases hF
    cases hS
    exact hd
  | succ c ih =>
    intro k pF pS qF qS hd hF hS
    unfold rle_loop at hF hS
    cases hx : update_optimal nbr i k 0 pF with
    | none => rw [hx] at hF; exact absurd hF (by simp)
    | some p1 =>
      cases hy : update_optimal nbr i k 0 pS with
      | none => rw [hy] at hS; exact absurd hS (by simp)
      | some p2 =>
        rw [hx] at hF
        rw [hy] at hS
        exact ih (k - 1) p1 p2 qF qS (update_optimal_dom nbr i k 0 hi pF pS p1 p2 hd hx hy) hF hS

theorem len1_loop_dom (src : Int → Nat) (nbr i : Int) (hi : 0 < i) :
    ∀ (c : Nat) (k : Int) (pF pS qF qS : Parse), Dom pF pS →
      len1_loop src nbr i c k pF = some qF → len1_loop src nbr i c k pS = some qS →
      Dom qF qS := by
  intro c
  induction c with
  | zero =>
    intro k pF pS qF qS hd hF hS
    cases hF
    cases hS
    exact hd
  | succ c ih =>
    intro k pF pS qF qS hd hF hS
    unfold len1_loop at hF hS
    by_cases g1 : i < 0 ∨ i ≥ MAX ∨ i - k < 0 ∨ i - k ≥ MAX
    · simp only [if_pos g1] at hF
      exact absurd hF (by simp)
    · simp only [if_neg g1] at hF hS
      by_cases g2 : src i = src (i - k)
      · simp only [if_pos g2] at hF hS
        cases hx : update_optimal nbr i 1 k pF with
        | none => rw [hx] at hF; exact absurd hF (by simp)
        | some p1 =>
          cases hy : update_optimal nbr i 1 k pS with
          | none => rw [hy] at hS; exact absurd hS (by simp)
          | some p2 =>
            rw [hx] at hF
            rw [hy] at hS
            exact ih (k + 1) p1 p2 qF qS (update_optimal_dom nbr i 1 k hi pF pS p1 p2 hd hx hy)
              hF hS
      · simp only [if_neg g2] at hF hS
        exact ih (k + 1) pF pS qF qS hd hF hS

theorem match_len_loop_dom (src : Int → Nat) (nbr i offset : Int) (hi : 0 < i) :
    ∀ (f : Nat) (len bF bS : Int) (pF pS : Parse) (xF xS : Int × Parse), Dom pF pS →
      bF ≤ MAX_GAMMA →
      match_len_loop src nbr i offset f len bF pF = some xF →
      match_len_loop src nbr i offset f len bS pS = some xS →
      Dom xF.2 xS.2 ∧ xF.1 ≤ MAX_GAMMA := by
  intro f
  induction f with
  | zero =>
    intro len bF bS pF pS xF xS hd hb hF hS
    cases hF
    cases hS
    exact ⟨hd, hb⟩
  | succ f ih =>
    intro len bF bS pF pS xF xS hd hb hF hS
    unfold match_len_loop at hF hS
    by_cases g0 : len ≤ MAX_GAMMA
    · simp only [if_pos g0] at hF hS
      by_cases g1 : i - len < 0 ∨ i - len - offset < 0 ∨ i - len ≥ MAX ∨ i - len - offset ≥ MAX
      · simp only [if_pos g1] at hF hS
        cases hF
        cases hS
        exact ⟨hd, hb⟩
      · simp only [if_neg g1] at hF hS
        cases hx : update_optimal nbr i len offset pF with
        | none => rw [hx] at hF; exact absurd hF (by simp)
        | some p1 =>
          cases hy : update_optimal nbr i len offset pS with
          | none => rw [hy] at hS; exact absurd hS (by simp)
          | some p2 =>
            rw [hx] at hF
            rw [hy] at hS
            simp only at hF hS
            have h1 := update_optimal_dom nbr i len offset hi pF pS p1 p2 hd hx hy
            by_cases g2 : i < offset + len ∨ src (i - len) ≠ src (i - len - offset)
            · simp only [if_pos g2] at hF hS
              cases hF
              cases hS
              exact ⟨h1, g0⟩
            · simp only [if_neg g2] at hF hS
              exact ih (len + 1) len len p1 p2 xF xS h1 g0 hF hS
    · simp only [if_neg g0] at hF hS
      cases hF
      cases hS
      exact ⟨hd, hb⟩

/-! ### The chains of the two scans -/

theorem chainSim_refl (i : Int) : ∀ c : List Int, ChainSim i c c := by
  intro c
  induction c with
  | nil => simp only [ChainSim]
  | cons a t ih => exact ⟨rfl, Or.inr ih⟩

theorem chainSim_mono (i i1 : Int) (h : i ≤ i1) :
    ∀ cF cS : List Int, ChainSim i cF cS → ChainSim i1 cF cS := by
  intro cF
  induction cF with
  | nil =>
    intro cS hs
    cases cS with
    | nil => simp only [ChainSim]
    | cons b t => simp only [ChainSim] at hs
  | cons a tF ih =>
    intro cS hs
    cases cS with
    | nil => simp only [ChainSim] at hs
    | cons b tS =>
      simp only [ChainSim] at hs ⊢
      refine ⟨hs.1, ?_⟩
      rcases hs.2 with h1 | h1
      · left
        omega
      · exact Or.inr (ih tS h1)

theorem chainOK_mono (src : Int → Nat) (k i i1 : Int) (h : i ≤ i1) :
    ∀ c : List Int, ChainOK src k i c → ChainOK src k i1 c := by
  intro c
  induction c with
  | nil => intro _; simp only [ChainOK]
  | cons a t ih =>
    intro hc
    cases t with
    | nil => simp only [ChainOK]
    | cons b rest =>
      simp only [ChainOK] at hc ⊢
      exact ⟨⟨hc.1.1, hc.1.2.1, by omega⟩, ih hc.2⟩

theorem match_walk_nonempty (src : Int → Nat) (nbr bFAST i : Int) :
    ∀ (chain : List Int) (best : Int) (p : Parse) (x : List Int × Parse),
      match_walk src nbr bFAST i chain best p = some x → chain ≠ [] → x.1 ≠ [] := by
  intro chain
  induction chain with
  | nil => intro best p x _ hne; exact absurd rfl hne
  | cons a rest ih =>
    intro best p x h _
    cases rest with
    | nil =>
      simp only [match_walk] at h
      cases h
      simp
    | cons b rest =>
      unfold match_walk at h
      simp only at h
      by_cases h1 : i - a > MAX_OFFSET
      · simp only [if_pos h1] at h
        cases h
        simp
      · simp only [if_neg h1] at h
        by_cases h2 : i - a ≤ 0 ∨ i - (i - a) < 0
        · simp only [if_pos h2] at h
          cases hx : match_walk src nbr bFAST i (b :: rest) best p with
          | none => rw [hx] at h; exact absurd h (by simp)
          | some y =>
            rw [hx] at h
            simp only [Option.map_some'] at h
            cases h
            simp
        · simp only [if_neg h2] at h
          cases hx : match_len_loop src nbr i (i - a) 253 2 best p with
          | none => rw [hx] at h; exact absurd h (by simp)
          | some y =>
            rw [hx] at h
            obtain ⟨bl, p1⟩ := y
            simp only at h
            by_cases h3 : bFAST ≠ 0 ∧ bl > 255
            · simp only [if_pos h3] at h
              cases h
              simp
            · simp only [if_neg h3] at h
              cases hx2 : match_walk src nbr bFAST i (b :: rest) bl p1 with
              | none => rw [hx2] at h; exact absurd h (by simp)
              | some x2 =>
                rw [hx2] at h
                simp only [Option.map_some'] at h
                cases h
                simp

/-- The walk of the chain by one scan only: the chain it leaves is still related
to the chain of the other scan. -/
theorem match_walk_sim_one (src : Int → Nat) (nbr bFAST i : Int) :
    ∀ (cS cF : List Int) (best : Int) (p : Parse) (x : List Int × Parse),
      match_walk src nbr bFAST i cS best p = some x → ChainSim i cF cS → ChainSim i cF x.1 := by
  intro cS
  induction cS with
  | nil =>
    intro cF best p x h hs
    simp only [match_walk] at h
    cases h
    exact hs
  | cons a rest ih =>
    intro cF best p x h hs
    cases rest with
    | nil =>
      simp only [match_walk] at h
      cases h
      exact hs
    | cons b rest =>
      cases cF with
      | nil => simp only [ChainSim] at hs
      | cons a1 tF =>
        simp only [ChainSim] at hs
        obtain ⟨ha, hs2⟩ := hs
        subst ha
        unfold match_walk at h
        simp only at h
        by_cases h1 : i - a1 > MAX_OFFSET
        · simp only [if_pos h1] at h
          cases h
          simp only [ChainSim]
          exact ⟨trivial, Or.inl h1⟩
        · simp only [if_neg h1] at h
          have hs3 : ChainSim i tF (b :: rest) := by
            rcases hs2 with h4 | h4
            · exact absurd h4 h1
            · exact h4
          by_cases h2 : i - a1 ≤ 0 ∨ i - (i - a1) < 0
          · simp only [if_pos h2] at h
            cases hx : match_walk src nbr bFAST i (b :: rest) best p with
            | none => rw [hx] at h; exact absurd h (by simp)
            | some y =>
              rw [hx] at h
              simp only [Option.map_some'] at h
              cases h
              have := ih tF best p y hx hs3
              cases hy : y.1 with
              | nil =>
                rw [hy] at this
                cases tF with
                | nil => simp only [ChainSim] at hs3
                | cons _ _ => simp only [ChainSim] at this
              | cons c t =>
                rw [hy] at this
                simp only [ChainSim]
                exact ⟨trivial, Or.inr this⟩
          · simp only [if_neg h2] at h
            cases hx : match_len_loop src nbr i (i - a1) 253 2 best p with
            | none => rw [hx] at h; exact absurd h (by simp)
            | some y =>
              rw [hx] at h
              obtain ⟨bl, p1⟩ := y
              simp only at h
              by_cases h3 : bFAST ≠ 0 ∧ bl > 255
              · simp only [if_pos h3] at h
                cases h
                simp only [ChainSim]
                exact ⟨trivial, Or.inr hs3⟩
              · simp only [if_neg h3] at h
                cases hx2 : match_walk src nbr bFAST i (b :: rest) bl p1 with
                | none => rw [hx2] at h; exact absurd h (by simp)
                | some x2 =>
                  rw [hx2] at h
                  simp only [Option.map_some'] at h
                  cases h
                  have := ih tF bl p1 x2 hx2 hs3
                  cases hy : x2.1 with
                  | nil =>
                    rw [hy] at this
                    cases tF with
                    | nil => simp only [ChainSim] at hs3
                    | cons _ _ => simp only [ChainSim] at this
                  | cons c t =>
                    rw [hy] at this
                    simp only [ChainSim]
                    exact ⟨trivial, Or.inr this⟩

theorem chainSim_cons (i a : Int) (cF cS : List Int) (h : ChainSim i cF cS) :
    ChainSim i (a :: cF) (a :: cS) := by
  cases cF with
  | nil =>
    cases cS with
    | nil => simp only [ChainSim]; exact ⟨trivial, Or.inr trivial⟩
    | cons _ _ => simp only [ChainSim] at h
  | cons x t =>
    cases cS with
    | nil => simp only [ChainSim] at h
    | cons y u =>
      simp only [ChainSim] at h ⊢
      exact ⟨trivial, Or.inr h⟩

/-- The walk of related chains by both scans, the second with `bFAST = 0`: the
costs stay related and so do the chains. -/
theorem match_walk_dom (src : Int → Nat) (nbr bFAST i : Int) (hi : 0 < i) :
    ∀ (cF cS : List Int) (bF bS : Int) (pF pS : Parse) (xF xS : List Int × Parse),
      ChainSim i cF cS → Dom pF pS → bF ≤ MAX_GAMMA →
      match_walk src nbr bFAST i cF bF pF = some xF →
      match_walk src nbr 0 i cS bS pS = some xS →
      Dom xF.2 xS.2 ∧ ChainSim i xF.1 xS.1 := by
  intro cF
  induction cF with
  | nil =>
    intro cS bF bS pF pS xF xS hs hd hb hF hS
    cases cS with
    | cons _ _ => simp only [ChainSim] at hs
    | nil =>
      simp only [match_walk] at hF hS
      cases hF
      cases hS
      exact ⟨hd, hs⟩
  | cons a tF ih =>
    intro cS bF bS pF pS xF xS hs hd hb hF hS
    cases cS with
    | nil => simp only [ChainSim] at hs
    | cons a1 tS =>
      simp only [ChainSim] at hs
      obtain ⟨ha, hs2⟩ := hs
      subst ha
      by_cases h1 : i - a > MAX_OFFSET
      · have eF : xF = ([a], pF) := by
          cases tF with
          | nil => simp only [match_walk] at hF; cases hF; rfl
          | cons b rest =>
            unfold match_walk at hF
            simp only [if_pos h1] at hF
            cases hF
            rfl
        have eS : xS = ([a], pS) := by
          cases tS with
          | nil => simp only [match_walk] at hS; cases hS; rfl
          | cons b rest =>
            unfold match_walk at hS
            simp only [if_pos h1] at hS
            cases hS
            rfl
        subst eF
        subst eS
        exact ⟨hd, chainSim_refl i [a]⟩
      · have hs3 : ChainSim i tF tS := by
          rcases hs2 with h4 | h4
          · exact absurd h4 h1
          · exact h4
        cases tF with
        | nil =>
          cases tS with
          | cons _ _ => simp only [ChainSim] at hs3
          | nil =>
            simp only [match_walk] at hF hS
            cases hF
            cases hS
            exact ⟨hd, chainSim_refl i [a]⟩
        | cons b rest =>
          cases tS with
          | nil => simp only [ChainSim] at hs3
          | cons b1 rest1 =>
            unfold match_walk at hF hS
            simp only [if_neg h1] at hF hS
            by_cases h2 : i - a ≤ 0 ∨ i - (i - a) < 0
            · simp only [if_pos h2] at hF hS
              cases hx : match_walk src nbr bFAST i (b :: rest) bF pF with
              | none => rw [hx] at hF; exact absurd hF (by simp)
              | some yF =>
                cases hy : match_walk src nbr 0 i (b1 :: rest1) bS pS with
                | none => rw [hy] at hS; exact absurd hS (by simp)
                | some yS =>
                  rw [hx] at hF
                  rw [hy] at hS
                  simp only [Option.map_some'] at hF hS
                  cases hF
                  cases hS
                  obtain ⟨k1, k2⟩ := ih (b1 :: rest1) bF bS pF pS yF yS hs3 hd hb hx hy
                  exact ⟨k1, chainSim_cons i a _ _ k2⟩
            · simp only [if_neg h2] at hF hS
              cases hx : match_len_loop src nbr i (i - a) 253 2 bF pF with
              | none => rw [hx] at hF; exact absurd hF (by simp)
              | some yF =>
                cases hy : match_len_loop src nbr i (i - a) 253 2 bS pS with
                | none => rw [hy] at hS; exact absurd hS (by simp)
                | some yS =>
                  rw [hx] at hF
                  rw [hy] at hS
                  obtain ⟨k1, k2⟩ := match_len_loop_dom src nbr i (i - a) hi 253 2 bF bS pF pS
                    yF yS hd hb hx hy
                  obtain ⟨blF, p1F⟩ := yF
                  obtain ⟨blS, p1S⟩ := yS
                  simp only at hF hS k1 k2
                  have h3 : ¬ (bFAST ≠ 0 ∧ blF > 255) := by
                    have : MAX_GAMMA = 254 := by decide
                    omega
                  have h4 : ¬ ((0 : Int) ≠ 0 ∧ blS > 255) := by simp
                  simp only [if_neg h3] at hF
                  simp only [if_neg h4] at hS
                  cases hx2 : match_walk src nbr bFAST i (b :: rest) blF p1F with
                  | none => rw [hx2] at hF; exact absurd hF (by simp)
                  | some zF =>
                    cases hy2 : match_walk src nbr 0 i (b1 :: rest1) blS p1S with
                    | none => rw [hy2] at hS; exact absurd hS (by simp)
                    | some zS =>
                      rw [hx2] at hF
                      rw [hy2] at hS
                      simp only [Option.map_some'] at hF hS
                      cases hF
                      cases hS
                      obtain ⟨k3, k4⟩ := ih (b1 :: rest1) blF blS p1F p1S zF zS hs3 k1 k2 hx2 hy2
                      exact ⟨k3, chainSim_cons i a _ _ k4⟩

/-! ### Recorded matches repeat bytes of the input -/

theorem key_of_eq (src : Int → Nat) (a b : Int) (h1 : src a < 256) (h2 : src b < 256)
    (h : key_of src a = key_of src b) : src (a - 1) = src (b - 1) ∧ src a = src b := by
  unfold key_of at h
  have e : ∀ y : Nat, y < 256 → y &&& 255 = y := by
    intro y hy
    have := Nat.and_pow_two_sub_one_eq_mod y 8
    norm_num at this
    rw [this]
    exact Nat.mod_eq_of_lt hy
  rw [e _ h1, e _ h2, shift8_or _ _ h1, shift8_or _ _ h2] at h
  have h3 : 256 * src (a - 1) + src a = 256 * src (b - 1) + src b := by exact_mod_cast h
  omega

theorem update_optimal_step_real (src : Int → Nat) (index len offset r : Int) (p q : Parse)
    (hc : RealCand src index len offset)
    (h : update_optimal_step index len offset r p = some q) (hp : RealInv src p) :
    RealInv src q := by
  obtain ⟨_, _, hfr, hcell, _⟩ := update_optimal_step_post index len offset r p q h
  intro j r1
  by_cases hx : j ≠ index ∨ r1 ≠ r
  · rw [(hfr j r1 hx).2.1, (hfr j r1 hx).2.2]
    exact hp j r1
  · have hj : j = index := by
      by_contra hne
      exact hx (Or.inl hne)
    have hr : r1 = r := by
      by_contra hne
      exact hx (Or.inr hne)
    subst hj
    subst hr
    rcases hcell with hs | hz | hst
    · rw [hs.2.1, hs.2.2]
      exact hp j r1
    · rw [hz.2.2.2.1, hz.2.2.2.2]
      exact ⟨fun _ => by decide, fun ho => absurd ho (by omega)⟩
    · rw [hst.1.1, hst.1.2.1]
      exact hc

theorem update_optimal_real (src : Int → Nat) (nbr index len offset : Int) (p q : Parse)
    (hc : RealCand src index len offset)
    (h : update_optimal nbr index len offset p = some q) (hp : RealInv src p) :
    RealInv src q :=
  update_optimal_at (RealInv src) index len offset
    (fun r p1 q1 h1 hp1 => update_optimal_step_real src index len offset r p1 q1 hc h1 hp1)
    nbr p q h hp

theorem rle_loop_real (src : Int → Nat) (nbr i : Int) :
    ∀ (c : Nat) (k : Int) (p q : Parse), k ≤ RAW_MAX →
      rle_loop nbr i c k p = some q → RealInv src p → RealInv src q := by
  intro c
  induction c with
  | zero => intro k p q _ h hp; cases h; exact hp
  | succ c ih =>
    intro k p q hk h hp
    unfold rle_loop at h
    cases hx : update_optimal nbr i k 0 p with
    | none => rw [hx] at h; exact absurd h (by simp)
    | some p1 =>
      rw [hx] at h
      exact ih (k - 1) p1 q (by omega) h
        (update_optimal_real src nbr i k 0 p p1
          ⟨fun _ => hk, fun ho => absurd ho (by omega)⟩ hx hp)

theorem len1_loop_real (src : Int → Nat) (nbr i : Int) :
    ∀ (c : Nat) (k : Int) (p q : Parse), 1 ≤ k → k + c ≤ MAX_OFFSET0 + 1 →
      len1_loop src nbr i c k p = some q → RealInv src p → RealInv src q := by
  intro c
  induction c with
  | zero => intro k p q _ _ h hp; cases h; exact hp
  | succ c ih =>
    intro k p q hk1 hk2 h hp
    push_cast at hk2
    unfold len1_loop at h
    by_cases g1 : i < 0 ∨ i ≥ MAX ∨ i - k < 0 ∨ i - k ≥ MAX
    · simp only [if_pos g1] at h
      exact absurd h (by simp)
    · simp only [if_neg g1] at h
      by_cases g2 : src i = src (i - k)
      · simp only [if_pos g2] at h
        cases hx : update_optimal nbr i 1 k p with
        | none => rw [hx] at h; exact absurd h (by simp)
        | some p1 =>
          rw [hx] at h
          refine ih (k + 1) p1 q (by omega) (by omega) h
            (update_optimal_real src nbr i 1 k p p1 ?_ hx hp)
          refine ⟨fun h0 => absurd h0 (by omega), fun _ => ⟨fun _ => by omega,
            fun h2 => absurd h2 (by omega), ?_⟩⟩
          intro t ht0 ht1
          have : t = 0 := by omega
          subst this
          rw [sub_zero]
          exact g2
      · simp only [if_neg g2] at h
        exact ih (k + 1) p q (by omega) (by omega) h hp

theorem match_len_loop_real (src : Int → Nat) (nbr i offset : Int) (ho : 0 < offset) :
    ∀ (f : Nat) (len best : Int) (p : Parse) (x : Int × Parse),
      match_len_loop src nbr i offset f len best p = some x → 2 ≤ len →
      (∀ t, 0 ≤ t → t < len → src (i - t) = src (i - t - offset)) →
      RealInv src p → RealInv src x.2 := by
  intro f
  induction f with
  | zero => intro len best p x h _ _ hp; cases h; exact hp
  | succ f ih =>
    intro len best p x h hl2 hm hp
    unfold match_len_loop at h
    by_cases g0 : len ≤ MAX_GAMMA
    · simp only [if_pos g0] at h
      by_cases g1 : i - len < 0 ∨ i - len - offset < 0 ∨ i - len ≥ MAX ∨ i - len - offset ≥ MAX
      · simp only [if_pos g1] at h
        cases h
        exact hp
      · simp only [if_neg g1] at h
        cases hx : update_optimal nbr i len offset p with
        | none => rw [hx] at h; exact absurd h (by simp)
        | some p1 =>
          rw [hx] at h
          simp only at h
          have h1 : RealInv src p1 :=
            update_optimal_real src nbr i len offset p p1
              ⟨fun h0 => absurd h0 (by omega), fun _ => ⟨fun h1 => absurd h1 (by omega),
                fun _ => by omega, hm⟩⟩ hx hp
          by_cases g2 : i < offset + len ∨ src (i - len) ≠ src (i - len - offset)
          · simp only [if_pos g2] at h
            cases h
            exact h1
          · simp only [if_neg g2] at h
            refine ih (len + 1) len p1 x h (by omega) ?_ h1
            intro t ht0 ht
            by_cases htl : t < len
            · exact hm t ht0 htl
            · have : t = len := by omega
              subst this
              by_contra hne
              exact g2 (Or.inr hne)
    · simp only [if_neg g0] at h
      cases h
      exact hp

theorem chainOK_cons (src : Int → Nat) (k i a : Int) (c : List Int)
    (ha : key_of src a = k ∧ 1 ≤ a ∧ a < i) (h : ChainOK src k i c) :
    ChainOK src k i (a :: c) := by
  cases c with
  | nil => simp only [ChainOK]
  | cons b t =>
    simp only [ChainOK]
    exact ⟨ha, h⟩

theorem match_walk_real (src : Int → Nat) (nbr bFAST i : Int)
    (hb : ∀ x, 1 ≤ x → x ≤ i → src x < 256) :
    ∀ (chain : List Int) (best : Int) (p : Parse) (x : List Int × Parse),
      match_walk src nbr bFAST i chain best p = some x →
      ChainOK src (key_of src i) i chain → RealInv src p →
      RealInv src x.2 ∧ ChainOK src (key_of src i) i x.1 := by
  intro chain
  induction chain with
  | nil =>
    intro best p x h hc hp
    simp only [match_walk] at h
    cases h
    exact ⟨hp, hc⟩
  | cons a rest ih =>
    intro best p x h hc hp
    cases rest with
    | nil =>
      simp only [match_walk] at h
      cases h
      exact ⟨hp, hc⟩
    | cons b rest =>
      simp only [ChainOK] at hc
      obtain ⟨⟨hk, ha1, ha2⟩, hc2⟩ := hc
      unfold match_walk at h
      simp only at h
      by_cases h1 : i - a > MAX_OFFSET
      · simp only [if_pos h1] at h
        cases h
        exact ⟨hp, by simp only [ChainOK]⟩
      · simp only [if_neg h1] at h
        by_cases h2 : i - a ≤ 0 ∨ i - (i - a) < 0
        · simp only [if_pos h2] at h
          cases hx : match_walk src nbr bFAST i (b :: rest) best p with
          | none => rw [hx] at h; exact absurd h (by simp)
          | some y =>
            rw [hx] at h
            simp only [Option.map_some'] at h
            cases h
            obtain ⟨k1, k2⟩ := ih best p y hx hc2 hp
            exact ⟨k1, chainOK_cons src _ i a _ ⟨hk, ha1, ha2⟩ k2⟩
        · simp only [if_neg h2] at h
          cases hx : match_len_loop src nbr i (i - a) 253 2 best p with
          | none => rw [hx] at h; exact absurd h (by simp)
          | some y =>
            rw [hx] at h
            have hke := key_of_eq src a i (hb a ha1 (by omega)) (hb i (by omega) (le_refl _)) hk
            have e2 : RealInv src y.2 := by
              refine match_len_loop_real src nbr i (i - a) (by omega) 253 2 best p y hx
                (le_refl _) ?_ hp
              intro t ht0 ht2
              have ht : t = 0 ∨ t = 1 := by omega
              rcases ht with rfl | rfl
              · have : i - 0 - (i - a) = a := by ring
                rw [this, sub_zero]
                exact hke.2.symm
              · have : i - 1 - (i - a) = a - 1 := by ring
                rw [this]
                exact hke.1.symm
            obtain ⟨bl, p1⟩ := y
            simp only at h e2
            by_cases h3 : bFAST ≠ 0 ∧ bl > 255
            · simp only [if_pos h3] at h
              cases h
              exact ⟨e2, by simp only [ChainOK]; exact ⟨⟨hk, ha1, ha2⟩, hc2⟩⟩
            · simp only [if_neg h3] at h
              cases hx2 : match_walk src nbr bFAST i (b :: rest) bl p1 with
              | none => rw [hx2] at h; exact absurd h (by simp)
              | some x2 =>
                rw [hx2] at h
                simp only [Option.map_some'] at h
                cases h
                obtain ⟨k1, k2⟩ := ih bl p1 x2 hx2 hc2 e2
                exact ⟨k1, chainOK_cons src _ i a _ ⟨hk, ha1, ha2⟩ k2⟩

/-! ### The candidate of the fast path is one of the candidates of the walk -/

/-- The loop over the lengths for offset 1 reaches length `T` when the `T` bytes
before position `i` are equal, and its call `update_optimal(i, T, 1)` keeps the
costs at or below those of a table on which the same call was made alone. -/
theorem match_len_loop_hit (src : Int → Nat) (nbr i T : Int) (hi : 0 < i) (hi2 : i < MAX)
    (hT : T ≤ MAX_GAMMA) (hTi : 0 ≤ i - T - 1) (pF qF : Parse)
    (hF : update_optimal nbr i T 1 pF = some qF) :
    ∀ (f : Nat) (len best : Int) (pS : Parse) (x : Int × Parse),
      match_len_loop src nbr i 1 f len best pS = some x →
      Dom pF pS → 2 ≤ len → len ≤ T → (f : Int) + len = 255 →
      (∀ l, len ≤ l → l < T → src (i - l) = src (i - l - 1)) →
      Dom qF x.2 := by
  have hG : MAX_GAMMA = 254 := by decide
  intro f
  induction f with
  | zero =>
    intro len best pS x _ _ _ h2 h3 _
    simp only [Nat.cast_zero] at h3
    omega
  | succ f ih =>
    intro len best pS x h hd hl hlT hfl hm
    unfold match_len_loop at h
    have g0 : len ≤ MAX_GAMMA := by omega
    simp only [if_pos g0] at h
    have g1 : ¬ (i - len < 0 ∨ i - len - 1 < 0 ∨ i - len ≥ MAX ∨ i - len - 1 ≥ MAX) := by
      omega
    simp only [if_neg g1] at h
    cases hx : update_optimal nbr i len 1 pS with
    | none => rw [hx] at h; exact absurd h (by simp)
    | some p1 =>
      rw [hx] at h
      simp only at h
      by_cases hlt : len = T
      · subst hlt
        have h1 : Dom qF p1 := update_optimal_dom nbr i len 1 hi pF pS qF p1 hd hF hx
        by_cases g2 : i < 1 + len ∨ src (i - len) ≠ src (i - len - 1)
        · simp only [if_pos g2] at h
          cases h
          exact h1
        · simp only [if_neg g2] at h
          exact dom_mono_right h1 (match_len_loop_mono src nbr i 1 hi f (len + 1) len p1 x h)
      · have h1 : Dom pF p1 := dom_mono_right hd (update_optimal_mono nbr i len 1 hi pS p1 hx)
        have g2 : ¬ (i < 1 + len ∨ src (i - len) ≠ src (i - len - 1)) := by
          have := hm len (le_refl _) (by omega)
          intro hcon
          rcases hcon with hc | hc
          · omega
          · exact hc this
        simp only [if_neg g2] at h
        refine ih (len + 1) len p1 x h h1 (by omega) (by omega) (by push_cast at hfl ⊢; omega) ?_
        intro l hl1 hl2
        exact hm l (by omega) hl2

/-! ### One position of the scan, with and without the fast path -/

theorem setAt_other {α : Type} (a : Int → α) (i : Int) (v : α) (j : Int) (h : j ≠ i) :
    setAt a i v j = a j := by
  simp only [setAt, if_neg h]

theorem setAt_self {α : Type} (a : Int → α) (i : Int) (v : α) : setAt a i v i = v := by
  simp only [setAt, if_true]

/-- The stages of `scan_step` at a position `1 <= i < MAX`. -/
theorem scan_step_split (src : Int → Nat) (nbr bRLE bFAST i : Int) (s t : ScanState)
    (hi1 : 1 ≤ i) (hi2 : i < MAX) (h : scan_step src nbr bRLE bFAST i s = some t) :
    ∃ p1 p2 p3, update_optimal nbr i 1 0 s.parse = some p1 ∧
      (if bRLE ≠ 0 ∧ i ≥ RAW_MIN then
        rle_loop nbr i ((if RAW_MAX > i then i else RAW_MAX) - RAW_MIN).toNat
          (if RAW_MAX > i then i else RAW_MAX) p1 else some p1) = some p2 ∧
      len1_loop src nbr i (if MAX_OFFSET0 > i then i else MAX_OFFSET0).toNat 1 p2 = some p3 ∧
      (((s.prev_match_index = key_of src i ∧ bFAST = TRUE ∧
          (p3.optimals (i - 1)).offset 0 = 1 ∧ (p3.optimals (i - 1)).len 0 > 2) ∧
        ∃ p4, (if (p3.optimals (i - 1)).len 0 < MAX_GAMMA ∧
                (i ≥ (p3.optimals (i - 1)).len 0 ∧ i - (p3.optimals (i - 1)).len 0 ≥ 0 ∧
                  i - (p3.optimals (i - 1)).len 0 < MAX)
              then update_optimal nbr i ((p3.optimals (i - 1)).len 0 + 1) 1 p3
              else some p3) = some p4 ∧
          t = { parse := p4,
                matches_ := setAt s.matches_ (key_of src i)
                  (insert_match (s.matches_ (key_of src i)) i),
                prev_match_index := key_of src i }) ∨
       (¬ (s.prev_match_index = key_of src i ∧ bFAST = TRUE ∧
          (p3.optimals (i - 1)).offset 0 = 1 ∧ (p3.optimals (i - 1)).len 0 > 2) ∧
        ∃ chain p4, match_walk src nbr bFAST i (s.matches_ (key_of src i)) 1 p3 =
            some (chain, p4) ∧
          t = { parse := p4,
                matches_ := setAt s.matches_ (key_of src i) (insert_match chain i),
                prev_match_index := key_of src i })) := by
  unfold scan_step at h
  simp only at h
  cases hx1 : update_optimal nbr i 1 0 s.parse with
  | none => rw [hx1] at h; exact absurd h (by simp)
  | some p1 =>
    rw [hx1] at h
    simp only at h
    cases hx2 : (if bRLE ≠ 0 ∧ i ≥ RAW_MIN then
        rle_loop nbr i ((if RAW_MAX > i then i else RAW_MAX) - RAW_MIN).toNat
          (if RAW_MAX > i then i else RAW_MAX) p1 else some p1) with
    | none => rw [hx2] at h; exact absurd h (by simp)
    | some p2 =>
      rw [hx2] at h
      simp only at h
      cases hx3 : len1_loop src nbr i (if MAX_OFFSET0 > i then i else MAX_OFFSET0).toNat 1 p2 with
      | none => rw [hx3] at h; exact absurd h (by simp)
      | some p3 =>
        rw [hx3] at h
        simp only at h
        have g0 : ¬ (i - 1 < 0 ∨ i ≥ MAX) := by omega
        simp only [if_neg g0] at h
        refine ⟨p1, p2, p3, rfl, hx2, hx3, ?_⟩
        by_cases g1 : s.prev_match_index = key_of src i ∧ bFAST = TRUE ∧
            (p3.optimals (i - 1)).offset 0 = 1 ∧ (p3.optimals (i - 1)).len 0 > 2
        · left
          refine ⟨g1, ?_⟩
          have g1c := g1
          unfold key_of at g1c
          simp only [if_pos g1c] at h
          cases hx4 : (if (p3.optimals (i - 1)).len 0 < MAX_GAMMA ∧
                (i ≥ (p3.optimals (i - 1)).len 0 ∧ i - (p3.optimals (i - 1)).len 0 ≥ 0 ∧
                  i - (p3.optimals (i - 1)).len 0 < MAX)
              then update_optimal nbr i ((p3.optimals (i - 1)).len 0 + 1) 1 p3
              else some p3) with
          | none => rw [hx4] at h; exact absurd h (by simp)
          | some p4 =>
            rw [hx4] at h
            simp only [Option.some.injEq] at h
            exact ⟨p4, rfl, h.symm⟩
        · right
          refine ⟨g1, ?_⟩
          have g1c := g1
          unfold key_of at g1c
          simp only [if_neg g1c] at h
          cases hx4 : match_walk src nbr bFAST i (s.matches_ (key_of src i)) 1 p3 with
          | none =>
            unfold key_of at hx4
            rw [hx4] at h
            exact absurd h (by simp)
          | some x =>
            obtain ⟨chain, p4⟩ := x
            have hx5 := hx4
            unfold key_of at hx5
            rw [hx5] at h
            simp only [Option.some.injEq] at h
            exact ⟨chain, p4, rfl, h.symm⟩

/-- The first three stages of `scan_step` keep the costs of two scans related. -/
theorem scan_front_dom (src : Int → Nat) (nbr bRLE i : Int) (hi : 0 < i)
    (pF pS p1F p1S p2F p2S p3F p3S : Parse) (hd : Dom pF pS)
    (a1 : update_optimal nbr i 1 0 pF = some p1F) (b1 : update_optimal nbr i 1 0 pS = some p1S)
    (a2 : (if bRLE ≠ 0 ∧ i ≥ RAW_MIN then
        rle_loop nbr i ((if RAW_MAX > i then i else RAW_MAX) - RAW_MIN).toNat
          (if RAW_MAX > i then i else RAW_MAX) p1F else some p1F) = some p2F)
    (b2 : (if bRLE ≠ 0 ∧ i ≥ RAW_MIN then
        rle_loop nbr i ((if RAW_MAX > i then i else RAW_MAX) - RAW_MIN).toNat
          (if RAW_MAX > i then i else RAW_MAX) p1S else some p1S) = some p2S)
    (a3 : len1_loop src nbr i (if MAX_OFFSET0 > i then i else MAX_OFFSET0).toNat 1 p2F = some p3F)
    (b3 : len1_loop src nbr i (if MAX_OFFSET0 > i then i else MAX_OFFSET0).toNat 1 p2S =
      some p3S) : Dom p3F p3S := by
  have d1 := update_optimal_dom nbr i 1 0 hi pF pS p1F p1S hd a1 b1
  have d2 : Dom p2F p2S := by
    by_cases g : bRLE ≠ 0 ∧ i ≥ RAW_MIN
    · simp only [if_pos g] at a2 b2
      exact rle_loop_dom nbr i hi _ _ p1F p1S p2F p2S d1 a2 b2
    · simp only [if_neg g] at a2 b2
      cases a2
      cases b2
      exact d1
  exact len1_loop_dom src nbr i hi _ _ p2F p2S p3F p3S d2 a3 b3

/-- The first three stages of `scan_step` record no match of two or more bytes. -/
theorem scan_front_real (src : Int → Nat) (nbr bRLE i : Int)
    (pF p1F p2F p3F : Parse) (hr : RealInv src pF)
    (a1 : update_optimal nbr i 1 0 pF = some p1F)
    (a2 : (if bRLE ≠ 0 ∧ i ≥ RAW_MIN then
        rle_loop nbr i ((if RAW_MAX > i then i else RAW_MAX) - RAW_MIN).toNat
          (if RAW_MAX > i then i else RAW_MAX) p1F else some p1F) = some p2F)
    (a3 : len1_loop src nbr i (if MAX_OFFSET0 > i then i else MAX_OFFSET0).toNat 1 p2F = some p3F) :
    RealInv src p3F := by
  have hR : RAW_MAX = 256 := by decide
  have hO : MAX_OFFSET0 = 3 := by decide
  have d1 := update_optimal_real src nbr i 1 0 pF p1F
    ⟨fun _ => by omega, fun ho => absurd ho (by omega)⟩ a1 hr
  have d2 : RealInv src p2F := by
    by_cases g : bRLE ≠ 0 ∧ i ≥ RAW_MIN
    · simp only [if_pos g] at a2
      exact rle_loop_real src nbr i _ _ p1F p2F (by split_ifs <;> omega) a2 d1
    · simp only [if_neg g] at a2
      cases a2
      exact d1
  refine len1_loop_real src nbr i _ _ p2F p3F (le_refl _) ?_ a3 d2
  split_ifs <;> omega

/-- The states after position `i` are related when the tables and the chains of
the bucket of `i` are. -/
theorem fast_sim_finish (src : Int → Nat) (i : Int) (hi : 1 ≤ i) (sF sS : ScanState)
    (hsim : FastSim src i sF sS) (p4F p4S : Parse) (cF cS : List Int)
    (hd : Dom p4F p4S) (hr : RealInv src p4F) (hok : ChainOK src (key_of src i) i cF)
    (hcs : ChainSim i cF cS) (hne : cS ≠ []) :
    FastSim src (i + 1)
      { parse := p4F, matches_ := setAt sF.matches_ (key_of src i) (insert_match cF i),
        prev_match_index := key_of src i }
      { parse := p4S, matches_ := setAt sS.matches_ (key_of src i) (insert_match cS i),
        prev_match_index := key_of src i } := by
  obtain ⟨_, _, hOK, hCS, hNE, _, _⟩ := hsim
  refine ⟨hd, hr, ?_, ?_, ?_, rfl, ?_⟩
  · intro k
    show ChainOK src k (i + 1) (setAt sF.matches_ (key_of src i) (insert_match cF i) k)
    by_cases hk : k = key_of src i
    · subst hk
      rw [setAt_self]
      exact chainOK_cons src _ (i + 1) i cF ⟨rfl, hi, by omega⟩
        (chainOK_mono src _ i (i + 1) (by omega) cF hok)
    · rw [setAt_other _ _ _ _ hk]
      exact chainOK_mono src k i (i + 1) (by omega) _ (hOK k)
  · intro k
    show ChainSim (i + 1) (setAt sF.matches_ (key_of src i) (insert_match cF i) k)
      (setAt sS.matches_ (key_of src i) (insert_match cS i) k)
    by_cases hk : k = key_of src i
    · subst hk
      rw [setAt_self, setAt_self]
      exact chainSim_cons (i + 1) i cF cS (chainSim_mono i (i + 1) (by omega) cF cS hcs)
    · rw [setAt_other _ _ _ _ hk, setAt_other _ _ _ _ hk]
      exact chainSim_mono i (i + 1) (by omega) _ _ (hCS k)
  · intro k
    show setAt sS.matches_ (key_of src i) (insert_match cS i) k ≠ []
    by_cases hk : k = key_of src i
    · subst hk
      rw [setAt_self]
      simp [insert_match]
    · rw [setAt_other _ _ _ _ hk]
      exact hNE k
  · right
    have e : i + 1 - 1 = i := by ring
    rw [e]
    refine ⟨rfl, ?_⟩
    show ∃ b rest, setAt sS.matches_ (key_of src i) (insert_match cS i) (key_of src i) = _
    rw [setAt_self]
    cases cS with
    | nil => exact absurd rfl hne
    | cons b rest => exact ⟨b, rest, rfl⟩

theorem key_of_nonneg (src : Int → Nat) (i : Int) : 0 ≤ key_of src i := by
  unfold key_of
  exact Int.natCast_nonneg _

/-- One position of the scan: the state of a scan with any setting of `bFAST`
stays related to the state of the scan with `bFAST = 0`. -/
theorem scan_step_sim (src : Int → Nat) (nbr bRLE bFAST i : Int) (hi1 : 1 ≤ i) (hi2 : i < MAX)
    (hb : ∀ x, 1 ≤ x → x ≤ i → src x < 256) (sF sS tF tS : ScanState)
    (hsim : FastSim src i sF sS)
    (hF : scan_step src nbr bRLE bFAST i sF = some tF)
    (hS : scan_step src nbr bRLE 0 i sS = some tS) : FastSim src (i + 1) tF tS := by
  have hG : MAX_GAMMA = 254 := by decide
  have hMO : MAX_OFFSET = 65824 := by decide
  obtain ⟨p1F, p2F, p3F, a1, a2, a3, a4⟩ := scan_step_split src nbr bRLE bFAST i sF tF hi1 hi2 hF
  obtain ⟨p1S, p2S, p3S, b1, b2, b3, b4⟩ := scan_step_split src nbr bRLE 0 i sS tS hi1 hi2 hS
  have hsim0 := hsim
  obtain ⟨hD, hR, hOK, hCS, hNE, hprev, hhead⟩ := hsim
  have d3 : Dom p3F p3S :=
    scan_front_dom src nbr bRLE i (by omega) sF.parse sS.parse p1F p1S p2F p2S p3F p3S hD
      a1 b1 a2 b2 a3 b3
  have r3 : RealInv src p3F := scan_front_real src nbr bRLE i sF.parse p1F p2F p3F hR a1 a2 a3
  rcases b4 with ⟨⟨_, hT, _⟩, _⟩ | ⟨_, cS, p4S, hwS, rfl⟩
  · exact absurd hT (by decide)
  have hneS := match_walk_nonempty src nbr 0 i _ 1 p3S (cS, p4S) hwS (hNE _)
  rcases a4 with ⟨⟨c1, c2, c3, c4⟩, p4F, hu, rfl⟩ | ⟨_, cF, p4F, hwF, rfl⟩
  · -- the fast path
    have hcs1 := match_walk_sim_one src nbr 0 i _ (sF.matches_ (key_of src i)) 1 p3S (cS, p4S)
      hwS (hCS _)
    have hreal := (r3 (i - 1) 0).2 (by omega)
    rw [c3] at hreal
    obtain ⟨_, hre0, hre2⟩ := hreal
    have hre1 := hre0 (by omega)
    have hkey : key_of src (i - 1) = key_of src i ∧
        ∃ b rest, sS.matches_ (key_of src i) = (i - 1) :: b :: rest := by
      rcases hhead with h0 | ⟨h1, b, rest, h2⟩
      · have := key_of_nonneg src i
        omega
      · have e : key_of src (i - 1) = key_of src i := by rw [← h1, ← hprev, c1]
        rw [e] at h2
        exact ⟨e, b, rest, h2⟩
    obtain ⟨hk1, b, rest, hch⟩ := hkey
    have hi2' : 2 ≤ i := by omega
    have hke := key_of_eq src (i - 1) i (hb (i - 1) (by omega) (by omega))
      (hb i hi1 (le_refl _)) hk1
    refine fast_sim_finish src i hi1 sF sS hsim0 p4F p4S _ cS ?_ ?_ (hOK _) hcs1 hneS
    · -- the costs
      by_cases g : (p3F.optimals (i - 1)).len 0 < MAX_GAMMA ∧
          (i ≥ (p3F.optimals (i - 1)).len 0 ∧ i - (p3F.optimals (i - 1)).len 0 ≥ 0 ∧
            i - (p3F.optimals (i - 1)).len 0 < MAX)
      · simp only [if_pos g] at hu
        rw [hch] at hwS
        unfold match_walk at hwS
        have e1 : i - (i - 1) = 1 := by ring
        simp only [e1] at hwS
        have g1 : ¬ ((1 : Int) > MAX_OFFSET) := by omega
        have g2 : ¬ ((1 : Int) ≤ 0 ∨ i - 1 < 0) := by omega
        simp only [if_neg g1, if_neg g2] at hwS
        cases hx : match_len_loop src nbr i 1 253 2 1 p3S with
        | none => rw [hx] at hwS; exact absurd hwS (by simp)
        | some y =>
          rw [hx] at hwS
          have hhit := match_len_loop_hit src nbr i ((p3F.optimals (i - 1)).len 0 + 1)
            (by omega) hi2 (by omega) (by omega) p3F p4F hu 253 2 1 p3S y hx d3 (le_refl _)
            (by omega) (by norm_num) (by
              intro l hl1 hl2
              have := hre2 (l - 1) (by omega) (by omega)
              have e2 : i - 1 - (l - 1) = i - l := by ring
              rw [e2] at this
              exact this)
          obtain ⟨bl, p1⟩ := y
          simp only at hwS hhit
          have g3 : ¬ ((0 : Int) ≠ 0 ∧ bl > 255) := by simp
          simp only [if_neg g3] at hwS
          cases hx2 : match_walk src nbr 0 i (b :: rest) bl p1 with
          | none => rw [hx2] at hwS; exact absurd hwS (by simp)
          | some z =>
            rw [hx2] at hwS
            simp only [Option.map_some', Option.some.injEq, Prod.mk.injEq] at hwS
            rw [← hwS.2]
            exact dom_mono_right hhit (match_walk_mono src nbr 0 i (by omega) _ bl p1 z hx2)
      · simp only [if_neg g] at hu
        cases hu
        exact dom_mono_right d3 (match_walk_mono src nbr 0 i (by omega) _ 1 p3S (cS, p4S) hwS)
    · -- the recorded matches
      by_cases g : (p3F.optimals (i - 1)).len 0 < MAX_GAMMA ∧
          (i ≥ (p3F.optimals (i - 1)).len 0 ∧ i - (p3F.optimals (i - 1)).len 0 ≥ 0 ∧
            i - (p3F.optimals (i - 1)).len 0 < MAX)
      · simp only [if_pos g] at hu
        refine update_optimal_real src nbr i _ 1 p3F p4F ?_ hu r3
        refine ⟨fun h0 => absurd h0 (by omega), fun _ => ⟨fun h1 => absurd h1 (by omega),
          fun _ => by omega, ?_⟩⟩
        intro t ht0 ht1
        by_cases h0 : t = 0
        · subst h0
          rw [sub_zero]
          exact hke.2.symm
        · have := hre2 (t - 1) (by omega) (by omega)
          have e2 : i - 1 - (t - 1) = i - t := by ring
          rw [e2] at this
          exact this
      · simp only [if_neg g] at hu
        cases hu
        exact r3
  · -- the walk of the chain
    obtain ⟨k1, k2⟩ := match_walk_dom src nbr bFAST i (by omega) _ _ 1 1 p3F p3S (cF, p4F)
      (cS, p4S) (hCS _) d3 (by omega) hwF hwS
    obtain ⟨k3, k4⟩ := match_walk_real src nbr bFAST i hb _ 1 p3F (cF, p4F) hwF (hOK _) r3
    exact fast_sim_finish src i hi1 sF sS hsim0 p4F p4S cF cS k1 k3 k4 k2 hneS

theorem scan_loop_sim (src : Int → Nat) (nbr bRLE bFAST : Int) :
    ∀ (c : Nat) (i : Int) (sF sS tF tS : ScanState), 1 ≤ i → i + c ≤ MAX →
      (∀ x, 1 ≤ x → x < i + c → src x < 256) → FastSim src i sF sS →
      scan_loop src nbr bRLE bFAST c i sF = some tF →
      scan_loop src nbr bRLE 0 c i sS = some tS → FastSim src (i + c) tF tS := by
  intro c
  induction c with
  | zero =>
    intro i sF sS tF tS _ _ _ hsim hF hS
    cases hF
    cases hS
    simpa using hsim
  | succ c ih =>
    intro i sF sS tF tS hi1 hi2 hb hsim hF hS
    unfold scan_loop at hF hS
    push_cast at hi2 hb
    cases hx : scan_step src nbr bRLE bFAST i sF with
    | none => rw [hx] at hF; exact absurd hF (by simp)
    | some s1 =>
      cases hy : scan_step src nbr bRLE 0 i sS with
      | none => rw [hy] at hS; exact absurd hS (by simp)
      | some s2 =>
        rw [hx] at hF
        rw [hy] at hS
        have h1 := scan_step_sim src nbr bRLE bFAST i hi1 (by omega)
          (fun x hx1 hx2 => hb x hx1 (by omega)) sF sS s1 s2 hsim hx hy
        have := ih (i + 1) s1 s2 tF tS (by omega) (by omega)
          (fun x hx1 hx2 => hb x hx1 (by omega)) h1 hF hS
        have e : i + 1 + (c : Int) = i + ((c + 1 : Nat) : Int) := by push_cast; ring
        rw [e] at this
        exact this

/-! ### The whole scan, with and without the fast path -/

theorem lzss_scan_sim (gF gS : Globals) (sF sS : ScanState)
    (hparse : gF.parse = gS.parse) (hbuf : gF.buf = gS.buf)
    (hnbr : gF.BIT_OFFSET_NBR_ALLOWED = gS.BIT_OFFSET_NBR_ALLOWED) (hrle : gF.bRLE = gS.bRLE)
    (hfast : gS.bFAST = 0) (h1 : 1 ≤ gF.buf.index_src) (h2 : gF.buf.index_src ≤ MAX)
    (hb : ∀ x, 1 ≤ x → x < gF.buf.index_src → gF.buf.data_src x < 256)
    (hF : lzss_scan gF = some sF) (hS : lzss_scan gS = some sS) :
    FastSim gF.buf.data_src gF.buf.index_src sF sS := by
  unfold lzss_scan at hF hS
  rw [← hparse, ← hbuf, ← hnbr, ← hrle, hfast] at hS
  cases hx : update_optimal gF.BIT_OFFSET_NBR_ALLOWED 0 1 0
      { gF.parse with optimals := init_optimals gF.parse.optimals } with
  | none => rw [hx] at hF; exact absurd hF (by simp)
  | some p0 =>
    rw [hx] at hF hS
    simp only at hF hS
    have hleg : LegalInv p0 :=
      update_optimal_pres LegalInv
        (fun index len offset i p q hq hp => update_optimal_step_legal index len offset i p q hq hp)
        gF.BIT_OFFSET_NBR_ALLOWED 0 1 0 _ p0 hx
        (fun j r => ⟨fun h => absurd h (by show ¬ ((0 : Int) > 0); omega), le_refl _,
          fun _ => rfl⟩)
    have hreal : RealInv gF.buf.data_src p0 :=
      update_optimal_real gF.buf.data_src gF.BIT_OFFSET_NBR_ALLOWED 0 1 0 _ p0
        ⟨fun _ => by decide, fun ho => absurd ho (by omega)⟩ hx
        (fun j r => ⟨fun _ => by show (0 : Int) ≤ RAW_MAX; decide,
          fun ho => absurd ho (by show ¬ ((0 : Int) > 0); omega)⟩)
    have h0 : FastSim gF.buf.data_src 1
        { parse := p0, matches_ := reset_matches gF.matches_, prev_match_index := -1 }
        { parse := p0, matches_ := reset_matches gS.matches_, prev_match_index := -1 } := by
      refine ⟨fun j r => ⟨le_refl _, (hleg j r).2.1⟩, hreal, ?_, ?_, ?_, rfl, Or.inl rfl⟩
      · intro k
        show ChainOK _ k 1 [-1]
        simp only [ChainOK]
      · intro k
        exact chainSim_refl 1 [-1]
      · intro k
        show ([-1] : List Int) ≠ []
        simp
    have := scan_loop_sim gF.buf.data_src gF.BIT_OFFSET_NBR_ALLOWED gF.bRLE gF.bFAST
      (gF.buf.index_src - 1).toNat 1 _ _ sF sS (le_refl _) (by omega)
      (fun x hx1 hx2 => hb x hx1 (by omega)) h0 hF hS
    have e : 1 + (((gF.buf.index_src - 1).toNat : Nat) : Int) = gF.buf.index_src := by omega
    rw [e] at this
    exact this

theorem entry_data_lt (src : List Nat) (max_bits rle_enabled fast_mode : Int) (g : Globals)
    (hb : ∀ x ∈ src, x < 256) (x : Int) (h0 : 0 ≤ x) (h1 : x < (src.length : Int)) :
    (encode_entry src max_bits rle_enabled fast_mode g).buf.data_src x < 256 := by
  show memcpy _ (bufferOf src) (src.length : Int) x < 256
  simp only [memcpy, if_pos (And.intro h0 h1), bufferOf]
  have h2 : x.toNat < src.length := by omega
  rw [List.getD_eq_getElem _ _ h2]
  exact hb _ (List.getElem_mem _)

/-! ### The cursor of the writer counts the bits -/

theorem bitsLeft_pow (k : Nat) (hk : k ≤ 6) :
    bitsLeft (2 ^ k) = (k : Int) + 1 ∧ bitsLeft (2 ^ k >>> 1) = (k : Int) := by
  interval_cases k <;> exact ⟨by decide, by decide⟩

theorem inSync_self (b : Buffers) : InSync b { b with index_src := b.index_dest } :=
  ⟨rfl, rfl, fun _ => rfl⟩

theorem runOp_count (lo : Int) (op : WOp) (b b1 : Buffers) (hw : WriterOK lo b)
    (h : runOp op b = some b1) :
    WriterOK lo b1 ∧
      8 * b1.index_dest - bitsLeft b1.bit_mask =
        8 * b.index_dest - bitsLeft b.bit_mask + opBits op := by
  cases op with
  | bit v =>
    have h1 : write_bit v b = some b1 := h
    refine ⟨(mirror_bit lo v b b1 _ hw (inSync_self b) h1).1, ?_⟩
    show _ = _ + 1
    by_cases hm : b.bit_mask = 0
    · obtain ⟨_, e1, _, e2, _⟩ := write_bit_fresh v b b1 hm h1
      rw [e1, e2, hm]
      have : bitsLeft 64 = 7 := by decide
      have : bitsLeft 0 = 0 := by decide
      omega
    · obtain ⟨_, e1, _, e2, _⟩ := write_bit_open v b b1 hm h1
      rcases hw.2.2 with h0 | ⟨k, hk, hk2, _⟩
      · exact absurd h0 hm
      · rw [e1, e2, hk2]
        obtain ⟨c1, c2⟩ := bitsLeft_pow k hk
        omega
  | byte v =>
    have h1 : write_byte v b = some b1 := h
    refine ⟨(mirror_byte lo v b b1 _ hw (inSync_self b) h1).1, ?_⟩
    obtain ⟨_, e1, _, e2, _⟩ := write_byte_facts v b b1 h1
    show _ = _ + 8
    rw [e1, e2]
    omega

theorem runOps_count (lo : Int) :
    ∀ (ops : List WOp) (b b1 : Buffers), WriterOK lo b → runOps ops b = some b1 →
      WriterOK lo b1 ∧
        8 * b1.index_dest - bitsLeft b1.bit_mask =
          8 * b.index_dest - bitsLeft b.bit_mask + opsBits ops := by
  intro ops
  induction ops with
  | nil =>
    intro b b1 hw h
    simp only [runOps, Option.some.injEq] at h
    subst h
    exact ⟨hw, by simp [opsBits]⟩
  | cons op ops ih =>
    intro b b1 hw h
    rw [runOps_cons] at h
    cases hx : runOp op b with
    | none => rw [hx] at h; simp at h
    | some b2 =>
      rw [hx] at h
      simp only [Option.some_bind] at h
      obtain ⟨w2, e2⟩ := runOp_count lo op b b2 hw hx
      obtain ⟨w3, e3⟩ := ih b2 b1 w2 h
      refine ⟨w3, ?_⟩
      simp only [opsBits]
      omega

theorem writerOK_left (lo : Int) (b : Buffers) (hw : WriterOK lo b) :
    0 ≤ bitsLeft b.bit_mask ∧ bitsLeft b.bit_mask ≤ 7 := by
  rcases hw.2.2 with h0 | ⟨k, hk, hk2, _⟩
  · rw [h0]
    exact ⟨by decide, by decide⟩
  · rw [hk2]
    have := (bitsLeft_pow k hk).1
    omega

/-- Eight or more bits that are still to be written need a new byte. -/
theorem runOps_grows (lo : Int) (ops : List WOp) (b b1 : Buffers) (hw : WriterOK lo b)
    (h : runOps ops b = some b1) (h8 : 8 ≤ opsBits ops) : b.index_dest < b1.index_dest := by
  obtain ⟨w1, e1⟩ := runOps_count lo ops b b1 hw h
  have := writerOK_left lo b hw
  have := writerOK_left lo b1 w1
  omega

/-! ### Reads that mirror a sequence of calls of the writer -/

theorem readOps_append_val :
    ∀ (a c : List WOp) (R R2 : Buffers),
      readOps (a ++ c) R = some ((a ++ c).map wireVal, R2) →
      ∃ Rm, readOps a R = some (a.map wireVal, Rm) ∧ readOps c Rm = some (c.map wireVal, R2) := by
  intro a
  induction a with
  | nil =>
    intro c R R2 h
    exact ⟨R, rfl, h⟩
  | cons op a ih =>
    intro c R R2 h
    cases op with
    | bit v =>
      obtain ⟨R1, h1, h2⟩ := readOps_bit_val v (a ++ c) R R2 h
      obtain ⟨Rm, h3, h4⟩ := ih c R1 R2 h2
      refine ⟨Rm, ?_, h4⟩
      simp only [readOps, h1, h3, List.map_cons, wireVal]
    | byte v =>
      obtain ⟨R1, h1, h2⟩ := readOps_byte_val v (a ++ c) R R2 h
      obtain ⟨Rm, h3, h4⟩ := ih c R1 R2 h2
      refine ⟨Rm, ?_, h4⟩
      simp only [readOps, h1, h3, List.map_cons, wireVal]

theorem readOps_dest : ∀ (ops : List WOp) (R R2 : Buffers) (l : List Nat),
    readOps ops R = some (l, R2) →
    R2.index_dest = R.index_dest ∧ R2.data_dest = R.data_dest := by
  intro ops
  induction ops with
  | nil =>
    intro R R2 l h
    rw [readOps_nil_inv R R2 l h]
    exact ⟨rfl, rfl⟩
  | cons op ops ih =>
    intro R R2 l h
    cases op with
    | bit v =>
      obtain ⟨x, R1, l1, h1, h2, _⟩ := readOps_bit_inv v ops R R2 l h
      obtain ⟨e1, e2⟩ := read_bit_dest R R1 x h1
      obtain ⟨e3, e4⟩ := ih R1 R2 l1 h2
      exact ⟨by rw [e3, e1], by rw [e4, e2]⟩
    | byte v =>
      obtain ⟨x, R1, l1, h1, h2, _⟩ := readOps_byte_inv v ops R R2 l h
      obtain ⟨e1, e2⟩ := read_byte_dest R R1 x h1
      obtain ⟨e3, e4⟩ := ih R1 R2 l1 h2
      exact ⟨by rw [e3, e1], by rw [e4, e2]⟩

/-- The reads of `read_golomb_gamma` on the bits of `write_golomb_gamma(v)`. -/
theorem read_gamma_of (v : Int) (h1 : 1 ≤ v) (h2 : v ≤ MAX_GAMMA) (R R1 : Buffers)
    (h : readOps (golomb_gamma_ops v) R = some ((golomb_gamma_ops v).map wireVal, R1)) :
    read_golomb_gamma R = some (v, R1) := by
  have hG : MAX_GAMMA = 254 := by decide
  obtain ⟨e1, e2⟩ := readOps_all_bits (golomb_gamma_ops v) R (golomb_gamma_all_bits v)
  rw [e1, e2] at h
  have hlen : (wire_bits (golomb_gamma_ops v)).length = (golomb_gamma_ops v).length := by
    rw [← e2, List.length_map]
  rw [← hlen] at h
  have hv : v = ((v.toNat : Nat) : Int) := by omega
  have hc := gamma_code v.toNat (by omega) (by omega)
  rw [← hv] at hc
  obtain ⟨b1, k1, k2⟩ := read_golomb_gamma_list _ R R1 v [] h hc
  simp only [List.length_nil, read_bits, Option.some.injEq, Prod.mk.injEq, true_and] at k2
  rw [k1, k2]

/-- The flag bit 0 and the seven zero bits that start a literal run and the end
marker: `read_golomb_gamma` returns `-1`. -/
theorem read_marker_of (tail : List WOp) (R R2 : Buffers)
    (h : readOps (WOp.bit 0 :: (bits_ops 0 BIT_GOLOMG_MAX.toNat ++ tail)) R =
      some ((WOp.bit 0 :: (bits_ops 0 BIT_GOLOMG_MAX.toNat ++ tail)).map wireVal, R2)) :
    ∃ Ra Rb, read_bit R = some (0, Ra) ∧ read_golomb_gamma Ra = some (-1, Rb) ∧
      readOps tail Rb = some (tail.map wireVal, R2) := by
  obtain ⟨Ra, a1, a2⟩ := readOps_bit_val 0 _ R R2 h
  obtain ⟨Rb, b1, b2⟩ := readOps_append_val _ tail Ra R2 a2
  refine ⟨Ra, Rb, a1, ?_, b2⟩
  have e7 : BIT_GOLOMG_MAX.toNat = 7 := by decide
  rw [e7] at b1
  have hz : readOps (bits_ops 0 7) Ra = read_bits 7 Ra ∧
      (bits_ops 0 7).map wireVal = List.replicate 7 0 := by
    obtain ⟨e1, e2⟩ := readOps_all_bits (bits_ops 0 7) Ra (by decide)
    exact ⟨e1, by decide⟩
  rw [hz.1, hz.2] at b1
  have := read_golomb_zeros_of_zeros 7 0 Ra Rb b1
  unfold read_golomb_gamma
  rw [this]
  simp

/-! ### The decoder on the tokens of the encoder -/

theorem inSync_dest (W R R1 : Buffers) (hs : InSync W R) (h1 : R1.index_src = R.index_src)
    (h2 : R1.bit_mask = R.bit_mask) (h3 : R1.bit_index = R.bit_index) : InSync W R1 :=
  ⟨by rw [h1]; exact hs.1, by rw [h2]; exact hs.2.1, fun h => by rw [h3]; exact hs.2.2 h⟩

/-- A literal: flag bit 1 and the byte. -/
theorem decode_literal (r : Int) (c : Nat) (hc : c < 256) (rest : List WOp)
    (W W1 W3 R : Buffers) (hw : WriterOK 0 W) (hs : InSync W R)
    (hrun : runOps [WOp.bit 1, WOp.byte c] W = some W1) (hrest : runOps rest W1 = some W3)
    (hdata : ∀ x, 0 ≤ x → x < W3.index_dest → R.data_src x = W3.data_dest x) :
    delzss_token r W3.index_dest R = none ∨
    ∃ R1, delzss_token r W3.index_dest R = some (Flow.cont R1) ∧ InSync W1 R1 ∧
      WriterOK 0 W1 ∧ R1.data_src = R.data_src ∧ R1.index_dest = R.index_dest + 1 ∧
      R1.data_dest R.index_dest = c ∧ ∀ x, x ≠ R.index_dest → R1.data_dest x = R.data_dest x := by
  obtain ⟨R2, hread, hs2, hw2, hsrc⟩ := mirror_ops 0 rest W3 _ W W1 R hw hs hrun hrest hdata
  obtain ⟨Ra, a1, a2⟩ := readOps_bit_val 1 _ R R2 hread
  obtain ⟨Rb, b1, b2⟩ := readOps_byte_val c [] Ra R2 a2
  have e := readOps_nil_inv Rb R2 _ b2
  subst e
  have i1 := read_bit_index R Ra _ a1
  have i2 := read_byte_index Ra R2 _ b1
  have i3 := runOps_index_mono rest W1 W3 hrest
  have i4 := hs2.1
  have d1 := read_bit_dest R Ra _ a1
  have d2 := read_byte_dest Ra R2 _ b1
  have hwb : wire_bit 1 = 1 := by decide
  rw [hwb] at a1
  rw [Nat.mod_eq_of_lt hc] at b1
  unfold delzss_token
  have g0 : ¬ (R.index_src ≥ W3.index_dest) := by omega
  have g1 : ¬ (Ra.index_src ≥ W3.index_dest) := by omega
  simp only [if_neg g0, a1, if_neg g1, b1, ne_eq, one_ne_zero, not_false_eq_true, if_true]
  cases hx : write_byte c R2 with
  | none => left; rfl
  | some R1 =>
    right
    obtain ⟨_, f1, f2, f3, f4, f5⟩ := write_byte_facts c R2 R1 hx
    obtain ⟨f6, f7⟩ := write_byte_src hx
    refine ⟨R1, rfl, inSync_dest W1 R2 R1 hs2 f7 f3 f2, hw2, by rw [f6, hsrc], ?_, ?_, ?_⟩
    · rw [f1, d2.1, d1.1]
    · rw [← d1.1, ← d2.1, f4, Nat.mod_eq_of_lt hc]
    · intro x hx
      rw [f5 x (by rw [d2.1, d1.1]; exact hx), d2.2, d1.2]

/-- A match: flag bit 0, the length and the offset. -/
theorem decode_match (r len offset : Int) (hr0 : 0 ≤ r) (hl1 : 1 ≤ len)
    (hl2 : len ≤ MAX_GAMMA) (ho1 : 1 ≤ offset) (hleg1 : len = 1 → offset ≤ 3)
    (hleg2 : len ≠ 1 → offset ≤ 2 ^ (BIT_OFFSET_MIN + r).toNat + MAX_OFFSET2)
    (rest : List WOp) (W W1 W3 R : Buffers) (hw : WriterOK 0 W) (hs : InSync W R)
    (hrun : runOps (doublet_ops (BIT_OFFSET_MIN + r) len offset) W = some W1)
    (hrest : runOps rest W1 = some W3) (h8 : 8 ≤ opsBits rest)
    (hdata : ∀ x, 0 ≤ x → x < W3.index_dest → R.data_src x = W3.data_dest x) :
    delzss_token r W3.index_dest R = none ∨
    ∃ R1, delzss_token r W3.index_dest R = some (Flow.cont R1) ∧ InSync W1 R1 ∧
      WriterOK 0 W1 ∧ R1.data_src = R.data_src ∧ R1.index_dest = R.index_dest + len ∧
      0 ≤ R.index_dest - offset ∧ len ≤ offset ∧
      ∀ j, R1.data_dest j =
        if R.index_dest ≤ j ∧ j < R.index_dest + len then R.data_dest (j - offset)
        else R.data_dest j := by
  obtain ⟨R2, hread, hs2, hw2, hsrc⟩ := mirror_ops 0 rest W3 _ W W1 R hw hs hrun hrest hdata
  unfold doublet_ops at hread
  obtain ⟨Ra, a1, a2⟩ := readOps_bit_val 0 _ R R2 hread
  obtain ⟨Rb, b1, b2⟩ := readOps_append_val _ _ Ra R2 a2
  have hgam := read_gamma_of len hl1 hl2 Ra Rb b1
  have i3 := runOps_grows 0 rest W1 W3 hw2 hrest h8
  have i4 := hs2.1
  have hoff := read_offset_of r W3.index_dest offset len Rb R2 hr0 ho1 hleg1 hleg2 b2 (by omega)
  have i1 := read_bit_index R Ra _ a1
  have i2 := readOps_index_mono _ Ra Rb _ b1
  have i5 := readOps_index_mono _ Rb R2 _ b2
  have hwb : wire_bit 0 = 0 := by decide
  rw [hwb] at a1
  obtain ⟨e1, e2, e3⟩ := delzss_token_match r W3.index_dest R Ra Rb R2 len (offset - 1).toNat
    (by omega) a1 hgam (by omega) hoff
  have eo : (((offset - 1).toNat : Nat) : Int) = offset - 1 := by omega
  rw [eo] at e3
  by_cases g1 : R.index_dest - (offset - 1) - 1 < 0 ∨
      R.index_dest - (offset - 1) - 1 + len > R.index_dest
  · left
    rw [e3, if_pos g1]
  · rw [if_neg g1] at e3
    by_cases g2 : R.index_dest + len > MAX
    · left
      rw [e3, if_pos g2]
    · rw [if_neg g2] at e3
      right
      refine ⟨_, e3, ⟨hs2.1, hs2.2.1, hs2.2.2⟩, hw2, hsrc, rfl, by omega, by omega, ?_⟩
      intro j
      show copy_match_loop (R.index_dest - (offset - 1) - 1) R.index_dest len.toNat 0
        R.data_dest j = _
      rw [copy_match_loop_spec _ _ len.toNat 0 R.data_dest (le_refl _) (by omega) j]
      have el : ((len.toNat : Nat) : Int) = len := by omega
      rw [el, add_zero]
      by_cases hj : R.index_dest ≤ j ∧ j < R.index_dest + len
      · rw [if_pos hj, if_pos hj]
        congr 1
        ring
      · rw [if_neg hj, if_neg hj]

/-- The bytes of a literal run. -/
theorem copy_raw_of (src : Int → Nat) (index : Int) (rest : List WOp) (W3 : Buffers) :
    ∀ (k : Nat) (j : Int) (W W1 R : Buffers), WriterOK 0 W → InSync W R →
      runOps (raw_ops src index k j) W = some W1 → runOps rest W1 = some W3 →
      (∀ x, 0 ≤ x → x < W3.index_dest → R.data_src x = W3.data_dest x) →
      (∀ t : Int, 0 ≤ t → t < k → src (index + j + t) < 256) →
      copy_raw_loop W3.index_dest k R = none ∨
      ∃ R1, copy_raw_loop W3.index_dest k R = some (Flow.cont R1) ∧ InSync W1 R1 ∧
        WriterOK 0 W1 ∧ R1.data_src = R.data_src ∧ R1.index_dest = R.index_dest + k ∧
        (∀ t : Int, 0 ≤ t → t < k → R1.data_dest (R.index_dest + t) = src (index + j + t)) ∧
        ∀ x, x < R.index_dest → R1.data_dest x = R.data_dest x := by
  intro k
  induction k with
  | zero =>
    intro j W W1 R hw hs hrun hrest hdata hb
    right
    simp only [raw_ops, runOps, Option.some.injEq] at hrun
    subst hrun
    refine ⟨R, rfl, hs, hw, rfl, by simp, ?_, fun _ _ => rfl⟩
    intro t h0 h1
    simp only [Nat.cast_zero] at h1
    omega
  | succ k ih =>
    intro j W W1 R hw hs hrun hrest hdata hb
    simp only [raw_ops] at hrun
    rw [runOps_cons] at hrun
    cases hx : runOp (WOp.byte (src (index + j))) W with
    | none => rw [hx] at hrun; simp at hrun
    | some Wa =>
      rw [hx] at hrun
      simp only [Option.some_bind] at hrun
      have hrest2 : runOps (raw_ops src index k (j + 1) ++ rest) Wa = some W3 := by
        rw [runOps_append, hrun, Option.some_bind, hrest]
      have hx1 : runOps [WOp.byte (src (index + j))] W = some Wa := by
        rw [runOps_cons, hx, Option.some_bind]
        rfl
      obtain ⟨R2, hread, hs2, hw2, hsrc⟩ := mirror_ops 0 _ W3 _ W Wa R hw hs hx1 hrest2 hdata
      obtain ⟨Ra, a1, a2⟩ := readOps_byte_val _ [] R R2 hread
      have e := readOps_nil_inv Ra R2 _ a2
      subst e
      have hc : src (index + j) < 256 := by
        have := hb 0 (le_refl _) (by push_cast; omega)
        rw [add_zero] at this
        exact this
      rw [Nat.mod_eq_of_lt hc] at a1
      have i1 := read_byte_index R R2 _ a1
      have i2 := hs2.1
      have i3 := runOps_index_mono _ Wa W3 hrest2
      have d1 := read_byte_dest R R2 _ a1
      unfold copy_raw_loop
      have g0 : ¬ (R.index_src ≥ W3.index_dest) := by omega
      simp only [if_neg g0, a1]
      cases hy : write_byte (src (index + j)) R2 with
      | none => left; rfl
      | some Rb =>
        obtain ⟨_, f1, f2, f3, f4, f5⟩ := write_byte_facts _ R2 Rb hy
        obtain ⟨f6, f7⟩ := write_byte_src hy
        have hsb : InSync Wa Rb := inSync_dest Wa R2 Rb hs2 f7 f3 f2
        have hdb : ∀ x, 0 ≤ x → x < W3.index_dest → Rb.data_src x = W3.data_dest x := by
          intro x h0 h1
          rw [f6, hsrc]
          exact hdata x h0 h1
        have hbb : ∀ t : Int, 0 ≤ t → t < k → src (index + (j + 1) + t) < 256 := by
          intro t h0 h1
          have := hb (t + 1) (by omega) (by push_cast; omega)
          have e : index + j + (t + 1) = index + (j + 1) + t := by ring
          rw [e] at this
          exact this
        rcases ih (j + 1) Wa W1 Rb hw2 hsb hrun hrest hdb hbb with h0 | ⟨R1, k1, k2, k3, k4, k5, k6, k7⟩
        · left
          exact h0
        · right
          refine ⟨R1, k1, k2, k3, by rw [k4, f6, hsrc], ?_, ?_, ?_⟩
          · rw [k5, f1, d1.1]
            push_cast
            ring
          · intro t h0 h1
            by_cases ht : t = 0
            · subst ht
              rw [add_zero, add_zero, k7 _ (by rw [f1, d1.1]; omega), ← d1.1, f4,
                Nat.mod_eq_of_lt hc]
            · have := k6 (t - 1) (by omega) (by push_cast at h1; omega)
              have e1 : Rb.index_dest + (t - 1) = R.index_dest + t := by
                rw [f1, d1.1]
                ring
              have e2 : index + (j + 1) + (t - 1) = index + j + t := by ring
              rw [e1, e2] at this
              exact this
          · intro x hx
            rw [k7 x (by rw [f1, d1.1]; omega), f5 x (by rw [d1.1]; omega), d1.2]

/-- A literal run: flag bit 0, the marker, bit 1, the count and the bytes. -/
theorem decode_run (r len : Int) (src : Int → Nat) (index : Int) (hl1 : 2 ≤ len)
    (hl2 : len ≤ RAW_MAX) (hb : ∀ t : Int, 0 ≤ t → t < len → src (index + t) < 256)
    (rest : List WOp) (W W1 W3 R : Buffers) (hw : WriterOK 0 W) (hs : InSync W R)
    (hrun : runOps (literals_length_ops len ++ raw_ops src index len.toNat 0) W = some W1)
    (hrest : runOps rest W1 = some W3)
    (hdata : ∀ x, 0 ≤ x → x < W3.index_dest → R.data_src x = W3.data_dest x) :
    delzss_token r W3.index_dest R = none ∨
    ∃ R1, delzss_token r W3.index_dest R = some (Flow.cont R1) ∧ InSync W1 R1 ∧
      WriterOK 0 W1 ∧ R1.data_src = R.data_src ∧ R1.index_dest = R.index_dest + len ∧
      (∀ t : Int, 0 ≤ t → t < len → R1.data_dest (R.index_dest + t) = src (index + t)) ∧
      ∀ x, x < R.index_dest → R1.data_dest x = R.data_dest x := by
  have hR : RAW_MAX = 256 := by decide
  have hRm : RAW_MIN = 1 := by decide
  rw [runOps_append] at hrun
  cases hx : runOps (literals_length_ops len) W with
  | none => rw [hx] at hrun; simp at hrun
  | some Wm =>
    rw [hx] at hrun
    simp only [Option.some_bind] at hrun
    have hrest2 : runOps (raw_ops src index len.toNat 0 ++ rest) Wm = some W3 := by
      rw [runOps_append, hrun, Option.some_bind, hrest]
    obtain ⟨Rm, hread, hs2, hw2, hsrc⟩ := mirror_ops 0 _ W3 _ W Wm R hw hs hx hrest2 hdata
    have hd := readOps_dest _ R Rm _ hread
    unfold literals_length_ops at hread
    obtain ⟨Ra, Rb, a1, a2, a3⟩ := read_marker_of _ R Rm hread
    obtain ⟨Rc, c1, c2⟩ := readOps_bit_val 1 _ Rb Rm a3
    obtain ⟨Rd, d1, d2⟩ := readOps_byte_val _ [] Rc Rm c2
    have e := readOps_nil_inv Rd Rm _ d2
    subst e
    have hwb : wire_bit 1 = 1 := by decide
    rw [hwb] at c1
    have ec : ((len - RAW_MIN) % 256).toNat % 256 = ((len - RAW_MIN) % 256).toNat := by
      omega
    rw [ec] at d1
    have ek : ((len - RAW_MIN) % 256).toNat + 1 = len.toNat := by omega
    have i0 := read_bit_index R Ra _ a1
    have i1 : Ra.index_src ≤ Rb.index_src := by
      have := read_golomb_gamma_values Ra Rb (-1) a2
      rcases this with ⟨_, hz⟩ | h1
      · have hz2 := read_golomb_zeros_full 7 0 Ra Rb (by simpa using hz)
        have e7 : (bits_ops 0 7).length = 7 := by decide
        have hro := (readOps_all_bits (bits_ops 0 7) Ra (by decide)).1
        rw [e7] at hro
        rw [← hro] at hz2
        exact readOps_index_mono _ Ra Rb _ hz2
      · omega
    have i2 := read_bit_index Rb Rc _ c1
    have i3 := read_byte_index Rc Rm _ d1
    have i4 := hs2.1
    have i5 := runOps_index_mono _ Wm W3 hrest2
    unfold delzss_token
    have g0 : ¬ (R.index_src ≥ W3.index_dest) := by omega
    have g1 : ¬ (Rb.index_src ≥ W3.index_dest) := by omega
    have g2 : ¬ (Rc.index_src ≥ W3.index_dest) := by omega
    simp only [if_neg g0, a1, a2, if_neg g1, c1, if_neg g2, d1, ne_eq, not_true_eq_false,
      if_false, if_true, one_ne_zero, ek]
    have hbb : ∀ t : Int, 0 ≤ t → t < (len.toNat : Nat) → src (index + 0 + t) < 256 := by
      intro t h0 h1
      rw [add_zero]
      exact hb t h0 (by omega)
    have hdm : ∀ x, 0 ≤ x → x < W3.index_dest → Rm.data_src x = W3.data_dest x := by
      intro x h0 h1
      rw [hsrc]
      exact hdata x h0 h1
    rcases copy_raw_of src index rest W3 len.toNat 0 Wm W1 Rm hw2 hs2 hrun hrest hdm hbb with
      h0 | ⟨R1, k1, k2, k3, k4, k5, k6, k7⟩
    · left
      exact h0
    · right
      have el : ((len.toNat : Nat) : Int) = len := by omega
      refine ⟨R1, k1, k2, k3, by rw [k4, hsrc], by rw [k5, hd.1, el], ?_, ?_⟩
      · intro t h0 h1
        have := k6 t h0 (by omega)
        rw [hd.1, add_zero] at this
        exact this
      · intro x hx
        rw [k7 x (by rw [hd.1]; exact hx), hd.2]

/-- The end marker: flag bit 0, the marker and bit 0. -/
theorem decode_end (r : Int) (W W3 R : Buffers) (hw : WriterOK 0 W) (hs : InSync W R)
    (hrun : runOps end_ops W = some W3)
    (hdata : ∀ x, 0 ≤ x → x < W3.index_dest → R.data_src x = W3.data_dest x) :
    R.index_src < W3.index_dest ∧
    ((∃ Rb, delzss_token r W3.index_dest R = some (Flow.leave (-1) Rb)) ∨
      ∃ Rc, delzss_token r W3.index_dest R = some (Flow.stop Rc) ∧
        Rc.index_dest = R.index_dest ∧ Rc.data_dest = R.data_dest) := by
  have hg := runOps_grows 0 end_ops W W3 hw hrun (by rw [opsBits_end_ops]; omega)
  have i0 := hs.1
  refine ⟨by omega, ?_⟩
  obtain ⟨Rm, hread, hs2, hw2, hsrc⟩ := mirror_ops 0 [] W3 _ W W3 R hw hs hrun rfl hdata
  have hd := readOps_dest _ R Rm _ hread
  unfold end_ops at hread
  obtain ⟨Ra, Rb, a1, a2, a3⟩ := read_marker_of _ R Rm hread
  obtain ⟨Rc, c1, c2⟩ := readOps_bit_val 0 [] Rb Rm a3
  have e := readOps_nil_inv Rc Rm _ c2
  subst e
  have hwb : wire_bit 0 = 0 := by decide
  rw [hwb] at c1
  unfold delzss_token
  have g0 : ¬ (R.index_src ≥ W3.index_dest) := by omega
  simp only [if_neg g0, a1, a2, ne_eq, not_true_eq_false, if_false, if_true]
  by_cases g1 : Rb.index_src ≥ W3.index_dest
  · left
    exact ⟨Rb, by simp only [if_pos g1]⟩
  · right
    refine ⟨Rm, ?_, hd.1, hd.2⟩
    simp only [if_neg g1, c1, if_true]

/-! ### The tokens left by `cleanup_optimals` tile the input -/

theorem cleanup_loop_tiled (r : Int) (hr0 : 0 ≤ r) (hr1 : r < BIT_OFFSET_NBR) :
    ∀ (f : Nat) (i : Int) (o : Int → t_optimal), 0 ≤ i → i ≤ f → i < MAX →
      (∀ x, 1 ≤ x → x ≤ i → 1 ≤ (o x).len r ∧ (o x).len r ≤ x) →
      Tiled (cleanup_loop r f i o) r i := by
  intro f
  induction f with
  | zero =>
    intro i o h0 h1 _ _
    have : i = 0 := by
      simp only [Nat.cast_zero] at h1
      omega
    subst this
    exact Tiled.zero
  | succ f ih =>
    intro i o h0 h1 hM ho
    push_cast at h1
    by_cases hi : i > 1
    · obtain ⟨l1, l2⟩ := ho i (by omega) (le_refl _)
      have g1 : ¬ (i < 0 ∨ i ≥ MAX) := by omega
      have g2 : ¬ (r < 0 ∨ r ≥ BIT_OFFSET_NBR) := by omega
      have g3 : ¬ ((o i).len r ≤ 0) := by omega
      have e : cleanup_loop r (f + 1) i o =
          cleanup_loop r f (i - (o i).len r)
            (cleanup_inner r ((o i).len r - 1).toNat (i - 1) o) := by
        simp only [cleanup_loop, if_pos hi, if_neg g1, if_neg g2, if_neg g3]
      rw [e]
      have hk : ((((o i).len r - 1).toNat : Nat) : Int) = (o i).len r - 1 := by omega
      have hprev := ih (i - (o i).len r)
        (cleanup_inner r ((o i).len r - 1).toNat (i - 1) o) (by omega) (by omega) (by omega)
        (by
          intro x hx1 hx2
          rw [cleanup_inner_below r _ _ o x (by rw [hk]; omega)]
          exact ho x hx1 (by omega))
      have hcell : cleanup_loop r f (i - (o i).len r)
          (cleanup_inner r ((o i).len r - 1).toNat (i - 1) o) i = o i := by
        rw [cleanup_loop_frame r f _ _ i (by omega), cleanup_inner_above r _ _ o i (by omega)]
      refine Tiled.tok i (by omega) (by rw [hcell]; exact l1) (by rw [hcell]; exact l2) ?_ ?_
      · intro x hx1 hx2
        rw [hcell] at hx1
        rw [cleanup_loop_frame r f _ _ x (by omega)]
        exact cleanup_inner_clear r _ _ o x (by omega) (by omega) (by rw [hk]; omega) (by omega)
      · rw [hcell]
        exact hprev
    · rw [cleanup_loop_small r (f + 1) i o (by omega)]
      by_cases hi0 : i = 0
      · subst hi0
        exact Tiled.zero
      · have hi1 : i = 1 := by omega
        subst hi1
        obtain ⟨l1, l2⟩ := ho 1 (le_refl _) (le_refl _)
        have hl : (o 1).len r = 1 := by omega
        refine Tiled.tok 1 (by omega) l1 l2 ?_ ?_
        · intro x hx1 hx2
          omega
        · rw [hl]
          exact Tiled.zero

theorem opsBits_nonneg (ops : List WOp) : 0 ≤ opsBits ops := by
  have := opsBits_length ops
  omega

theorem opsBits_token_pos (src : Int → Nat) (r : Int) (T : Parse) (i : Int)
    (h : 1 ≤ (T.optimals i).len r) : 1 ≤ opsBits (token_ops src r T i) := by
  unfold token_ops
  have h0 : (T.optimals i).len r > 0 := by omega
  simp only [if_pos h0]
  split_ifs
  · simp only [opsBits, opBits]
    omega
  · unfold literals_length_ops
    rw [opsBits_append]
    have := opsBits_nonneg (raw_ops src (i - (T.optimals i).len r + 1)
      ((T.optimals i).len r).toNat 0)
    simp only [opsBits, opBits]
    have := opsBits_nonneg (bits_ops 0 BIT_GOLOMG_MAX.toNat ++
      [WOp.bit 1, WOp.byte (((T.optimals i).len r - RAW_MIN) % 256).toNat])
    omega
  · unfold doublet_ops
    simp only [opsBits, opBits]
    have := opsBits_nonneg (golomb_gamma_ops ((T.optimals i).len r) ++
      offset_ops T.BIT_OFFSET3 ((T.optimals i).offset r) ((T.optimals i).len r))
    omega

/-- One token of the encoder through the body of the main loop of `delzss`. -/
theorem token_decode (src : Int → Nat) (r : Int) (T : Parse) (i : Int)
    (hB : T.BIT_OFFSET3 = BIT_OFFSET_MIN + r) (hr0 : 0 ≤ r)
    (hl1 : 1 ≤ (T.optimals i).len r) (hl2 : (T.optimals i).len r ≤ i)
    (hcell : CellDec src T r i) (hbytes : ∀ x, 0 ≤ x → x ≤ i → src x < 256)
    (rest : List WOp) (W W1 W3 R : Buffers) (hw : WriterOK 0 W) (hs : InSync W R)
    (hrun : runOps (token_ops src r T i) W = some W1) (hrest : runOps rest W1 = some W3)
    (h8 : 8 ≤ opsBits rest)
    (hdata : ∀ x, 0 ≤ x → x < W3.index_dest → R.data_src x = W3.data_dest x)
    (hout : R.index_dest = i - (T.optimals i).len r + 1)
    (hgood : ∀ x, 0 ≤ x → x ≤ i - (T.optimals i).len r → R.data_dest x = src x) :
    delzss_token r W3.index_dest R = none ∨
    ∃ R1, delzss_token r W3.index_dest R = some (Flow.cont R1) ∧ InSync W1 R1 ∧
      WriterOK 0 W1 ∧ R1.data_src = R.data_src ∧ R1.index_dest = i + 1 ∧
      ∀ x, 0 ≤ x → x ≤ i → R1.data_dest x = src x := by
  have hO : MAX_OFFSET0 = 3 := by decide
  obtain ⟨c0, c1, c2⟩ := hcell
  unfold token_ops at hrun
  have h0 : (T.optimals i).len r > 0 := by omega
  simp only [if_pos h0] at hrun
  by_cases hd : (T.optimals i).offset r = 0
  · simp only [if_pos hd] at hrun
    by_cases hl : (T.optimals i).len r = 1
    · simp only [if_pos hl] at hrun
      rw [hl] at hout hgood hrun
      have ei : i - 1 + 1 = i := by ring
      rw [ei] at hrun hout
      rcases decode_literal r (src i) (hbytes i (by omega) (le_refl _)) rest W W1 W3 R hw hs
        hrun hrest hdata with h | ⟨R1, k1, k2, k3, k4, k5, k6, k7⟩
      · exact Or.inl h
      · right
        refine ⟨R1, k1, k2, k3, k4, by rw [k5, hout], ?_⟩
        intro x hx0 hx1
        by_cases hx : x = i
        · rw [hx, ← hout, k6, hout]
        · rw [k7 x (by rw [hout]; exact hx)]
          exact hgood x hx0 (by omega)
    · simp only [if_neg hl] at hrun
      rcases decode_run r _ src (i - (T.optimals i).len r + 1) (by omega) (c1 hd)
        (fun t ht0 ht1 => hbytes _ (by omega) (by omega)) rest W W1 W3 R hw hs hrun hrest
        hdata with h | ⟨R1, k1, k2, k3, k4, k5, k6, k7⟩
      · exact Or.inl h
      · right
        refine ⟨R1, k1, k2, k3, k4, by rw [k5, hout]; ring, ?_⟩
        intro x hx0 hx1
        by_cases hx : x < R.index_dest
        · rw [k7 x hx]
          exact hgood x hx0 (by omega)
        · have := k6 (x - R.index_dest) (by omega) (by omega)
          have e1 : R.index_dest + (x - R.index_dest) = x := by ring
          have e2 : i - (T.optimals i).len r + 1 + (x - R.index_dest) = x := by
            rw [hout]
            ring
          rw [e1, e2] at this
          exact this
  · simp only [if_neg hd] at hrun
    rw [hB] at hrun
    obtain ⟨m1, m2, m3, m4⟩ := c2 (by omega)
    rcases decode_match r _ _ hr0 hl1 m1 (by omega) (fun h => by have := m2 h; omega)
      (fun _ => m3) rest W W1 W3 R hw hs hrun hrest h8 hdata with
      h | ⟨R1, k1, k2, k3, k4, k5, k6, k7, k8⟩
    · exact Or.inl h
    · right
      refine ⟨R1, k1, k2, k3, k4, by rw [k5, hout]; ring, ?_⟩
      intro x hx0 hx1
      rw [k8 x]
      by_cases hx : R.index_dest ≤ x ∧ x < R.index_dest + (T.optimals i).len r
      · rw [if_pos hx, hgood _ (by omega) (by omega)]
        have := m4 (i - x) (by omega) (by omega)
        have e1 : i - (i - x) = x := by ring
        rw [e1] at this
        exact this.symm
      · rw [if_neg hx]
        exact hgood x hx0 (by omega)

/-! ### The main loop of `delzss` on the tokens of the encoder -/

theorem lz_ops_last (src : Int → Nat) (r : Int) (T : Parse) (n i : Int) (h0 : 0 < i)
    (hn : i < n) (hl1 : 1 ≤ (T.optimals i).len r) (hl2 : (T.optimals i).len r ≤ i)
    (hclear : ∀ x, i - (T.optimals i).len r < x → x < i → (T.optimals x).len r = 0) :
    lz_ops src r T (n - 1 - (i - (T.optimals i).len r)).toNat (i - (T.optimals i).len r + 1) =
      token_ops src r T i ++ lz_ops src r T (n - 1 - i).toNat (i + 1) := by
  have e1 : (n - 1 - (i - (T.optimals i).len r)).toNat =
      ((T.optimals i).len r - 1).toNat + ((n - 1 - i).toNat + 1) := by omega
  rw [e1, lz_ops_append]
  have e2 : lz_ops src r T ((T.optimals i).len r - 1).toNat (i - (T.optimals i).len r + 1) =
      [] := by
    apply lz_ops_zero
    intro x hx1 hx2
    exact hclear x (by omega) (by omega)
  have e3 : i - (T.optimals i).len r + 1 + ((((T.optimals i).len r - 1).toNat : Nat) : Int) =
      i := by omega
  rw [e2, e3, List.nil_append]
  rfl

/-- The main loop of `delzss` follows the tokens of the encoder up to position
`i`, unless it has returned `-1` before. -/
theorem decode_prefix (src : Int → Nat) (r : Int) (T : Parse) (n : Int) (W3 : Buffers)
    (o : Outcome Buffers) (hB : T.BIT_OFFSET3 = BIT_OFFSET_MIN + r) (hr0 : 0 ≤ r)
    (hcell : ∀ i, 1 ≤ i → i < n → 1 ≤ (T.optimals i).len r → CellDec src T r i)
    (hbytes : ∀ x, 0 ≤ x → x < n → src x < 256) (W0 R0 : Buffers) (f0 : Nat)
    (hstart : DecAt src r T n W3 o 0 W0 R0 f0) :
    ∀ i, Tiled T.optimals r i → i < n →
      (∃ Rf, o = Outcome.ret (-1) Rf) ∨ ∃ W R f, DecAt src r T n W3 o i W R f := by
  intro i ht
  induction ht with
  | zero =>
    intro _
    exact Or.inr ⟨W0, R0, f0, hstart⟩
  | tok i hi hl1 hl2 hclear _ ih =>
    intro hn
    rcases ih (by omega) with hbad | ⟨W, R, f, a1, a2, a3, a4, a5, a6, a7, a8⟩
    · exact Or.inl hbad
    · rw [lz_ops_last src r T n i hi hn hl1 hl2 hclear, List.append_assoc] at a3 a7
      have a3c := a3
      rw [runOps_append] at a3
      cases hx : runOps (token_ops src r T i) W with
      | none => rw [hx] at a3; simp at a3
      | some W1 =>
        rw [hx] at a3
        simp only [Option.some_bind] at a3
        rw [opsBits_append] at a7
        have hpos := opsBits_token_pos src r T i hl1
        have hrest9 : 9 ≤ opsBits (lz_ops src r T (n - 1 - i).toNat (i + 1) ++ end_ops) := by
          rw [opsBits_append, opsBits_end_ops]
          have := opsBits_nonneg (lz_ops src r T (n - 1 - i).toNat (i + 1))
          omega
        have hgrow := runOps_grows 0 _ W W3 a1 a3c (by rw [opsBits_append]; omega)
        have hidx := a2.1
        cases f with
        | zero =>
          simp only [Nat.cast_zero] at a7
          omega
        | succ f =>
          unfold delzss_loop at a8
          have g0 : R.index_src < W3.index_dest := by omega
          simp only [if_pos g0] at a8
          rcases token_decode src r T i hB hr0 hl1 hl2 (hcell i (by omega) hn hl1)
            (fun x hx0 hx1 => hbytes x hx0 (by omega)) _ W W1 W3 R a1 a2 hx a3 (by omega) a4
            (by rw [a5]) (fun x hx0 hx1 => a6 x hx0 hx1) with hnone | ⟨R1, k1, k2, k3, k4, k5, k6⟩
          · rw [hnone] at a8
            simp at a8
          · rw [k1] at a8
            simp only at a8
            right
            refine ⟨W1, R1, f, k3, k2, a3, ?_, k5, k6, ?_, a8⟩
            · intro x hx0 hx1
              rw [k4]
              exact a4 x hx0 hx1
            · push_cast at a7
              omega

/-- The end of the main loop of `delzss` once the tokens of all positions are
decoded: it returns `-1`, or the number of bytes of the input with these bytes in
the output. -/
theorem decode_last (src : Int → Nat) (r : Int) (T : Parse) (n : Int) (W3 : Buffers)
    (o : Outcome Buffers) (W R : Buffers) (f : Nat)
    (h : DecAt src r T n W3 o (n - 1) W R f) :
    (∃ Rf, o = Outcome.ret (-1) Rf) ∨
    ∃ Rf, o = Outcome.ret n Rf ∧ ∀ x, 0 ≤ x → x < n → Rf.data_dest x = src x := by
  obtain ⟨a1, a2, a3, a4, a5, a6, a7, a8⟩ := h
  have e : (n - 1 - (n - 1)).toNat = 0 := by omega
  rw [e] at a3 a7
  simp only [lz_ops, List.nil_append] at a3 a7
  rw [opsBits_end_ops] at a7
  obtain ⟨g0, hres⟩ := decode_end r W W3 R a1 a2 a3 a4
  cases f with
  | zero =>
    simp only [Nat.cast_zero] at a7
    omega
  | succ f =>
    unfold delzss_loop at a8
    simp only [if_pos g0] at a8
    rcases hres with ⟨Rb, hb⟩ | ⟨Rc, hc, c1, c2⟩
    · rw [hb] at a8
      simp only [Option.some.injEq] at a8
      exact Or.inl ⟨Rb, a8.symm⟩
    · rw [hc] at a8
      simp only [Option.some.injEq] at a8
      right
      refine ⟨Rc, ?_, ?_⟩
      · rw [← a8, c1, a5]
        congr 1
        ring
      · intro x hx0 hx1
        rw [c2]
        exact a6 x hx0 (by omega)

/-! ### The header of the stream through `delzss` -/

theorem wire_bit_254 (k : Nat) (h1 : 1 ≤ k) (h2 : k ≤ 7) :
    wire_bit (Int.land 254 (2 ^ k)) = 1 := by
  have := wire_bit_land 254 k
  simp only [Nat.cast_ofNat] at this
  rw [this]
  interval_cases k <;> rfl

theorem wire_bit_254_zero : wire_bit (Int.land 254 (2 ^ 0)) = 0 := by decide

/-- The loop of `delzss` that reads the selector, on the selector of subset `k`. -/
theorem read_subset_of (rest : List WOp) (W3 : Buffers) :
    ∀ (k : Nat) (subset : Int) (f : Nat) (W W1 R : Buffers), k ≤ 7 → k + 1 ≤ f →
      WriterOK 0 W → InSync W R → runOps (bits_ops 254 (k + 1)) W = some W1 →
      runOps rest W1 = some W3 →
      (∀ x, 0 ≤ x → x < W3.index_dest → R.data_src x = W3.data_dest x) →
      (∃ x, read_subset W3.index_dest f subset R = some (Outcome.ret (-1) x)) ∨
      ∃ R1, read_subset W3.index_dest f subset R = some (Outcome.ret 0 (subset + k, R1)) ∧
        InSync W1 R1 ∧ WriterOK 0 W1 ∧ R1.data_src = R.data_src ∧
        R1.index_dest = R.index_dest ∧ R1.data_dest = R.data_dest := by
  intro k
  induction k with
  | zero =>
    intro subset f W W1 R _ hf hw hs hrun hrest hdata
    obtain ⟨R2, hread, hs2, hw2, hsrc⟩ := mirror_ops 0 rest W3 _ W W1 R hw hs hrun hrest hdata
    have hd := readOps_dest _ R R2 _ hread
    simp only [bits_ops] at hread
    obtain ⟨Ra, a1, a2⟩ := readOps_bit_val _ [] R R2 hread
    have e := readOps_nil_inv Ra R2 _ a2
    subst e
    rw [wire_bit_254_zero] at a1
    right
    cases f with
    | zero => omega
    | succ f =>
      refine ⟨R2, ?_, hs2, hw2, hsrc, hd.1, hd.2⟩
      unfold read_subset
      simp only [a1, ne_eq, not_true_eq_false, if_false, Nat.cast_zero, add_zero]
  | succ k ih =>
    intro subset f W W1 R hk hf hw hs hrun hrest hdata
    simp only [bits_ops] at hrun
    rw [runOps_cons] at hrun
    cases hx : runOp (WOp.bit (Int.land 254 (2 ^ (k + 1)))) W with
    | none => rw [hx] at hrun; simp at hrun
    | some Wa =>
      rw [hx] at hrun
      simp only [Option.some_bind] at hrun
      have hrun' : runOps (bits_ops 254 (k + 1)) Wa = some W1 := hrun
      have hrest2 : runOps (bits_ops 254 (k + 1) ++ rest) Wa = some W3 := by
        rw [runOps_append, hrun', Option.some_bind, hrest]
      have hx1 : runOps [WOp.bit (Int.land 254 (2 ^ (k + 1)))] W = some Wa := by
        rw [runOps_cons, hx, Option.some_bind]
        rfl
      obtain ⟨R2, hread, hs2, hw2, hsrc⟩ := mirror_ops 0 _ W3 _ W Wa R hw hs hx1 hrest2 hdata
      have hd := readOps_dest _ R R2 _ hread
      obtain ⟨Ra, a1, a2⟩ := readOps_bit_val _ [] R R2 hread
      have e := readOps_nil_inv Ra R2 _ a2
      subst e
      rw [wire_bit_254 (k + 1) (by omega) hk] at a1
      cases f with
      | zero => omega
      | succ f =>
        unfold read_subset
        simp only [a1, ne_eq, one_ne_zero, not_false_eq_true, if_true]
        by_cases g : subset + 1 > BIT_OFFSET_NBR ∨ R2.index_src ≥ W3.index_dest
        · left
          exact ⟨(subset + 1, R2), by simp only [if_pos g]⟩
        · simp only [if_neg g]
          have hdata2 : ∀ x, 0 ≤ x → x < W3.index_dest → R2.data_src x = W3.data_dest x := by
            intro x h0 h1
            rw [hsrc]
            exact hdata x h0 h1
          rcases ih (subset + 1) f Wa W1 R2 (by omega) (by omega) hw2 hs2 hrun' hrest hdata2
            with hbad | ⟨R1, k1, k2, k3, k4, k5, k6⟩
          · exact Or.inl hbad
          · right
            refine ⟨R1, ?_, k2, k3, by rw [k4, hsrc], by rw [k5, hd.1], by rw [k6, hd.2]⟩
            rw [k1]
            congr 3
            push_cast
            ring

theorem bytesOf_bufferOf (l : List Nat) : bytesOf (bufferOf l) (l.length : Int) = l := by
  apply List.ext_getElem
  · simp [bytesOf]
  · intro k h1 h2
    simp [bytesOf, bufferOf, List.getD_eq_getElem, h2]

/-- Every token that the scan records can be decoded, with and without the fast
path. -/
theorem lzss_scan_real (g : Globals) (s : ScanState) (hn : 0 < g.BIT_OFFSET_NBR_ALLOWED)
    (h1 : 1 ≤ g.buf.index_src) (h2 : g.buf.index_src ≤ MAX)
    (hb : ∀ x, 1 ≤ x → x < g.buf.index_src → g.buf.data_src x < 256)
    (h : lzss_scan g = some s) : RealInv g.buf.data_src s.parse := by
  obtain ⟨sS, hS, _⟩ := lzss_scan_inv { g with bFAST := 0 } hn h1 h2
  exact (lzss_scan_sim g { g with bFAST := 0 } s sS rfl rfl rfl rfl rfl h1 h2 hb h hS).2.1

/-! ### `delzss` on the stream of the encoder -/

/-- On the stream that the writer produces for the tokens of a table whose
tokens tile the input and can be decoded, `delzss` calls `abort()`, returns
`-1`, or returns the length of the input with the bytes of the input in the
output. -/
theorem delzss_on_encoded (src : Int → Nat) (r : Int) (T : Parse) (n : Int) (hn : 1 ≤ n)
    (Wi W3 B : Buffers) (hr0 : 0 ≤ r) (hr7 : r ≤ 7)
    (hB : T.BIT_OFFSET3 = BIT_OFFSET_MIN + r)
    (hcell : ∀ i, 1 ≤ i → i < n → 1 ≤ (T.optimals i).len r → CellDec src T r i)
    (hbytes : ∀ x, 0 ≤ x → x < n → src x < 256) (htile : Tiled T.optimals r (n - 1))
    (hWi1 : Wi.index_dest = 0) (hWi2 : Wi.bit_mask = 0)
    (hrun : runOps (bits_ops 254 (r.toNat + 1) ++
        (WOp.byte (src 0) :: lz_ops src r T (n - 1).toNat 1) ++ end_ops) Wi = some W3)
    (hBi : B.index_src = W3.index_dest)
    (hdata : ∀ x, 0 ≤ x → x < W3.index_dest → B.data_src x = W3.data_dest x)
    (o : Outcome Buffers) (h : delzss B = some o) :
    (∃ Rf, o = Outcome.ret (-1) Rf) ∨
    ∃ Rf, o = Outcome.ret n Rf ∧ ∀ x, 0 ≤ x → x < n → Rf.data_dest x = src x := by
  have hwi : WriterOK 0 Wi := ⟨le_refl _, by rw [hWi1], Or.inl hWi2⟩
  have hrun0 := hrun
  rw [List.append_assoc, List.cons_append] at hrun
  have hcount := runOps_count 0 _ Wi W3 hwi hrun
  have hc2 : opsBits (WOp.byte (src 0) :: (lz_ops src r T (n - 1).toNat 1 ++ end_ops)) =
      8 + opsBits (lz_ops src r T (n - 1).toNat 1 ++ end_ops) := rfl
  rw [opsBits_append, hc2, hWi1, hWi2] at hcount
  have hbl0 : bitsLeft 0 = 0 := by decide
  rw [hbl0] at hcount
  have hA := opsBits_nonneg (bits_ops 254 (r.toNat + 1))
  have hL9 : 9 ≤ opsBits (lz_ops src r T (n - 1).toNat 1 ++ end_ops) := by
    rw [opsBits_append, opsBits_end_ops]
    have := opsBits_nonneg (lz_ops src r T (n - 1).toNat 1)
    omega
  have hleft3 := writerOK_left 0 W3 hcount.1
  have hold : 0 < W3.index_dest := by omega
  rw [runOps_append] at hrun
  cases hx1 : runOps (bits_ops 254 (r.toNat + 1)) Wi with
  | none => rw [hx1] at hrun; simp at hrun
  | some W1 =>
    rw [hx1] at hrun
    simp only [Option.some_bind] at hrun
    have hrest1 := hrun
    rw [runOps_cons] at hrun
    cases hx2 : runOp (WOp.byte (src 0)) W1 with
    | none => rw [hx2] at hrun; simp at hrun
    | some W2 =>
      rw [hx2] at hrun
      simp only [Option.some_bind] at hrun
      have hx2' : runOps [WOp.byte (src 0)] W1 = some W2 := by
        rw [runOps_cons, hx2, Option.some_bind]
        rfl
      unfold delzss at h
      simp only at h
      rw [hBi] at h
      have g0 : ¬ (W3.index_dest ≤ 0) := by omega
      have g1 : ¬ ((0 : Int) ≥ W3.index_dest) := by omega
      simp only [if_neg g0, if_neg g1] at h
      have hs0 : InSync Wi { B with index_src := 0, bit_mask := 0, bit_index := 0 } :=
        ⟨hWi1.symm, hWi2.symm, fun hne => absurd hWi2 hne⟩
      rcases read_subset_of _ W3 r.toNat 0 9 Wi W1
        { B with index_src := 0, bit_mask := 0, bit_index := 0 } (by omega) (by omega) hwi hs0
        hx1 hrest1 hdata with ⟨x, hbad⟩ | ⟨R1, k1, k2, k3, k4, k5, k6⟩
      · rw [hbad] at h
        simp only [ne_eq, Int.reduceNeg, neg_eq_zero, one_ne_zero, not_false_eq_true,
          if_true, Option.some.injEq] at h
        exact Or.inl ⟨_, h.symm⟩
      · rw [k1] at h
        simp only [ne_eq, not_true_eq_false, if_false] at h
        by_cases g2 : R1.index_src ≥ W3.index_dest
        · simp only [if_pos g2, Option.some.injEq] at h
          exact Or.inl ⟨_, h.symm⟩
        · simp only [if_neg g2] at h
          have hs1 : InSync W1 { R1 with index_dest := 0 } := ⟨k2.1, k2.2.1, k2.2.2⟩
          have hd1 : ∀ x, 0 ≤ x → x < W3.index_dest →
              ({ R1 with index_dest := 0 } : Buffers).data_src x = W3.data_dest x := by
            intro x h0 h1
            show R1.data_src x = _
            rw [k4]
            exact hdata x h0 h1
          obtain ⟨R2, hread, hs2, hw2, hsrc2⟩ := mirror_ops 0 _ W3 _ W1 W2
            { R1 with index_dest := 0 } k3 hs1 hx2' hrun hd1
          obtain ⟨Ra, a1, a2⟩ := readOps_byte_val _ [] _ R2 hread
          have e := readOps_nil_inv Ra R2 _ a2
          subst e
          have hc0 := hbytes 0 (le_refl _) (by omega)
          rw [Nat.mod_eq_of_lt hc0] at a1
          have d1 := read_byte_dest _ R2 _ a1
          rw [a1] at h
          simp only at h
          cases hx3 : write_byte (src 0) R2 with
          | none => rw [hx3] at h; simp at h
          | some R4 =>
            rw [hx3] at h
            simp only at h
            obtain ⟨_, f1, f2, f3, f4, f5⟩ := write_byte_facts _ R2 R4 hx3
            obtain ⟨f6, f7⟩ := write_byte_src hx3
            have er : (0 : Int) + ((r.toNat : Nat) : Int) = r := by omega
            rw [er] at h
            have hstart : DecAt src r T n W3 o 0 W2 R4 (8 * W3.index_dest.toNat) := by
              unfold DecAt
              have e1 : n - 1 - 0 = n - 1 := by ring
              have e2 : (0 : Int) + 1 = 1 := by ring
              rw [e1, e2]
              refine ⟨hw2, inSync_dest W2 R2 R4 hs2 f7 f3 f2, hrun, ?_, ?_, ?_, ?_, h⟩
              · intro x h0 h1
                rw [f6, hsrc2]
                exact hd1 x h0 h1
              · rw [f1, d1.1]
                rfl
              · intro x h0 h1
                have hx0 : x = 0 := by omega
                subst hx0
                have : R2.index_dest = 0 := d1.1
                rw [this] at f4
                rw [f4, Nat.mod_eq_of_lt hc0]
              · push_cast
                omega
            rcases decode_prefix src r T n W3 o hB hr0 hcell hbytes W2 R4 _ hstart (n - 1) htile
              (by omega) with hbad | ⟨W, R, f, hlast⟩
            · exact Or.inl hbad
            · exact decode_last src r T n W3 o W R f hlast

/-! ### The table that `write_lz` emits -/

theorem encode_nil (max_bits rle_enabled fast_mode : Int) (out : Int → Nat) (g : Globals) :
    encode [] max_bits rle_enabled fast_mode out g = Seen.returned 0 [] := by
  simp [encode, dan3_encode, lzss_slow, load_src, MAX, memcpy_zero, bytesOf_zero]

/-- The tokens of the chosen subset in the trimmed table can be decoded. -/
theorem trimmed_cell_dec (g : Globals) (s : ScanState) (hn1 : 1 ≤ g.BIT_OFFSET_NBR_ALLOWED)
    (h1 : 1 ≤ g.buf.index_src) (h2 : g.buf.index_src ≤ MAX)
    (hb : ∀ x, 1 ≤ x → x < g.buf.index_src → g.buf.data_src x < 256)
    (hs : lzss_scan g = some s)
    (hinv : ScanInvAll g.BIT_OFFSET_NBR_ALLOWED s.parse g.buf.index_src)
    (hc0 : 0 ≤ chosen_subset g s) (hc1 : chosen_subset g s < g.BIT_OFFSET_NBR_ALLOWED)
    (i : Int) (hi1 : 1 ≤ i) (hi2 : i < g.buf.index_src)
    (hl : 1 ≤ ((trimmed g s).optimals i).len (chosen_subset g s)) :
    CellDec g.buf.data_src (trimmed g s) (chosen_subset g s) i := by
  have hcell : (trimmed g s).optimals i = s.parse.optimals i := by
    rcases trimmed_cells g s i with h0 | h0
    · omega
    · exact h0
  obtain ⟨_, hcells, _⟩ := hinv _ hc0 hc1
  obtain ⟨c1, c2, c3, c4, _, _⟩ := hcells i hi1 hi2
  have hoff := lzss_scan_offset g s hs i (chosen_subset g s)
  have hreal := lzss_scan_real g s (by omega) h1 h2 hb hs i (chosen_subset g s)
  unfold CellDec
  rw [hcell]
  refine ⟨c3, hreal.1, ?_⟩
  intro ho
  obtain ⟨r1, _, r3⟩ := hreal.2 ho
  exact ⟨c4 ho, r1, hoff, r3⟩

/-- The tokens of the chosen subset in the trimmed table tile the input. -/
theorem trimmed_tiled (g : Globals) (s : ScanState)
    (h1 : 1 ≤ g.buf.index_src) (h2 : g.buf.index_src ≤ MAX)
    (hinv : ScanInvAll g.BIT_OFFSET_NBR_ALLOWED s.parse g.buf.index_src)
    (hc0 : 0 ≤ chosen_subset g s) (hc1 : chosen_subset g s < g.BIT_OFFSET_NBR_ALLOWED)
    (hc7 : chosen_subset g s ≤ 7) :
    Tiled (trimmed g s).optimals (chosen_subset g s) (g.buf.index_src - 1) := by
  obtain ⟨_, hcells, _⟩ := hinv _ hc0 hc1
  show Tiled (cleanup_loop (chosen_subset g s) g.buf.index_src.toNat (g.buf.index_src - 1)
    s.parse.optimals) (chosen_subset g s) (g.buf.index_src - 1)
  refine cleanup_loop_tiled _ hc0 (by have : BIT_OFFSET_NBR = 8 := by decide
                                      omega) _ _ _ (by omega) (by omega) (by omega) ?_
  intro x hx1 hx2
  obtain ⟨c1, c2, _⟩ := hcells x hx1 (by omega)
  exact ⟨c1, c2⟩

/-! ### A value of `bFAST` other than `TRUE` leaves the scan as it is with `bFAST = 0` -/

theorem match_len_loop_best (src : Int → Nat) (nbr i offset : Int) :
    ∀ (f : Nat) (len best : Int) (p : Parse) (x : Int × Parse),
      match_len_loop src nbr i offset f len best p = some x → best ≤ MAX_GAMMA →
      x.1 ≤ MAX_GAMMA := by
  intro f
  induction f with
  | zero => intro len best p x h hb; cases h; exact hb
  | succ f ih =>
    intro len best p x h hb
    unfold match_len_loop at h
    by_cases g0 : len ≤ MAX_GAMMA
    · simp only [if_pos g0] at h
      by_cases g1 : i - len < 0 ∨ i - len - offset < 0 ∨ i - len ≥ MAX ∨ i - len - offset ≥ MAX
      · simp only [if_pos g1] at h
        cases h
        exact hb
      · simp only [if_neg g1] at h
        cases hx : update_optimal nbr i len offset p with
        | none => rw [hx] at h; exact absurd h (by simp)
        | some p1 =>
          rw [hx] at h
          simp only at h
          by_cases g2 : i < offset + len ∨ src (i - len) ≠ src (i - len - offset)
          · simp only [if_pos g2] at h
            cases h
            exact g0
          · simp only [if_neg g2] at h
            exact ih (len + 1) len p1 x h g0
    · simp only [if_neg g0] at h
      cases h
      exact hb

/-- The early exit `if (bFAST && best_len > 255) break;` never fires: the walk of
a chain does the same for every value of `bFAST`. -/
theorem match_walk_any_fast (src : Int → Nat) (nbr bFAST i : Int) :
    ∀ (chain : List Int) (best : Int) (p : Parse), best ≤ MAX_GAMMA →
      match_walk src nbr bFAST i chain best p = match_walk src nbr 0 i chain best p := by
  have hG : MAX_GAMMA = 254 := by decide
  intro chain
  induction chain with
  | nil =>
    intro best p _
    simp only [match_walk]
  | cons a rest ih =>
    intro best p hb
    cases rest with
    | nil => simp only [match_walk]
    | cons b rest =>
      unfold match_walk
      simp only
      by_cases h1 : i - a > MAX_OFFSET
      · simp only [if_pos h1]
      · simp only [if_neg h1]
        by_cases h2 : i - a ≤ 0 ∨ i - (i - a) < 0
        · simp only [if_pos h2]
          rw [ih best p hb]
        · simp only [if_neg h2]
          cases hx : match_len_loop src nbr i (i - a) 253 2 best p with
          | none => rfl
          | some x =>
            obtain ⟨bl, p1⟩ := x
            have hbl := match_len_loop_best src nbr i (i - a) 253 2 best p (bl, p1) hx hb
            simp only at hbl
            have h3 : ¬ (bFAST ≠ 0 ∧ bl > 255) := by omega
            have h4 : ¬ ((0 : Int) ≠ 0 ∧ bl > 255) := by omega
            simp only [if_neg h3, if_neg h4]
            rw [ih bl p1 hbl]

theorem scan_step_not_fast (src : Int → Nat) (nbr bRLE bFAST i : Int) (s : ScanState)
    (hF : bFAST ≠ TRUE) :
    scan_step src nbr bRLE bFAST i s = scan_step src nbr bRLE 0 i s := by
  unfold scan_step
  simp only
  cases hx1 : update_optimal nbr i 1 0 s.parse with
  | none => rfl
  | some p1 =>
    simp only
    cases hx2 : (if bRLE ≠ 0 ∧ i ≥ RAW_MIN then
        rle_loop nbr i ((if RAW_MAX > i then i else RAW_MAX) - RAW_MIN).toNat
          (if RAW_MAX > i then i else RAW_MAX) p1 else some p1) with
    | none => rfl
    | some p2 =>
      simp only
      cases hx3 : len1_loop src nbr i (if MAX_OFFSET0 > i then i else MAX_OFFSET0).toNat 1 p2 with
      | none => rfl
      | some p3 =>
        simp only
        by_cases g0 : i - 1 < 0 ∨ i ≥ MAX
        · simp only [if_pos g0]
        · simp only [if_neg g0]
          have hT : ¬ ((0 : Int) = TRUE) := by decide
          have c1 : ¬ (s.prev_match_index = (((src (i - 1) <<< 8 ||| src i &&& 255 : Nat)) : Int) ∧
              bFAST = TRUE ∧ (p3.optimals (i - 1)).offset 0 = 1 ∧
              (p3.optimals (i - 1)).len 0 > 2) := fun h => hF h.2.1
          have c2 : ¬ (s.prev_match_index = (((src (i - 1) <<< 8 ||| src i &&& 255 : Nat)) : Int) ∧
              (0 : Int) = TRUE ∧ (p3.optimals (i - 1)).offset 0 = 1 ∧
              (p3.optimals (i - 1)).len 0 > 2) := fun h => hT h.2.1
          simp only [if_neg c1, if_neg c2]
          rw [match_walk_any_fast src nbr bFAST i _ 1 p3 (by decide)]

theorem scan_loop_not_fast (src : Int → Nat) (nbr bRLE bFAST : Int) (hF : bFAST ≠ TRUE) :
    ∀ (c : Nat) (i : Int) (s : ScanState),
      scan_loop src nbr bRLE bFAST c i s = scan_loop src nbr bRLE 0 c i s := by
  intro c
  induction c with
  | zero => intro i s; rfl
  | succ c ih =>
    intro i s
    unfold scan_loop
    rw [scan_step_not_fast src nbr bRLE bFAST i s hF]
    cases hx : scan_step src nbr bRLE 0 i s with
    | none => rfl
    | some s1 =>
      simp only
      exact ih (i + 1) s1

theorem lzss_scan_not_fast (g : Globals) (hF : g.bFAST ≠ TRUE) :
    lzss_scan g = lzss_scan { g with bFAST := 0 } := by
  unfold lzss_scan
  simp only
  cases hx : update_optimal g.BIT_OFFSET_NBR_ALLOWED 0 1 0
      { g.parse with optimals := init_optimals g.parse.optimals } with
  | none => rfl
  | some p0 =>
    simp only
    exact scan_loop_not_fast g.buf.data_src g.BIT_OFFSET_NBR_ALLOWED g.bRLE g.bFAST hF _ _ _

/-- `lzss_slow` returns the same size and leaves the same buffers for every value
of `bFAST` other than `TRUE`. -/
theorem lzss_slow_not_fast (g : Globals) (hF : g.bFAST ≠ TRUE) :
    (lzss_slow g).map (fun r => (r.1, r.2.buf)) =
      (lzss_slow { g with bFAST := 0 }).map (fun r => (r.1, r.2.buf)) := by
  unfold lzss_slow
  rw [lzss_scan_not_fast g hF]
  simp only
  by_cases h0 : g.buf.index_src > 0
  · simp only [if_pos h0]
    cases hs : lzss_scan { g with bFAST := 0 } with
    | none => rfl
    | some s =>
      simp only
      by_cases h1 : (select_best g.BIT_OFFSET_NBR_ALLOWED g.buf.index_src s.parse).1 = INF
      · simp only [if_pos h1, Option.map_some']
      · simp only [if_neg h1]
        cases hw : write_lz (select_best g.BIT_OFFSET_NBR_ALLOWED g.buf.index_src s.parse).2
            (trim (select_best g.BIT_OFFSET_NBR_ALLOWED g.buf.index_src s.parse).2
              g.buf.index_src s.parse) g.buf with
        | none => rfl
        | some x => rfl
  · simp only [if_neg h0, Option.map_some']

theorem encode_not_fast (src : List Nat) (max_bits rle_enabled fast_mode : Int)
    (out : Int → Nat) (g : Globals) (hF : fast_mode ≠ TRUE) :
    encode src max_bits rle_enabled fast_mode out g =
      encode src max_bits rle_enabled 0 out g := by
  unfold encode dan3_encode
  simp only
  by_cases hl : (src.length : Int) > MAX
  · simp only [if_pos hl]
  · simp only [if_neg hl]
    have h := lzss_slow_not_fast
      { set_dan3_options max_bits rle_enabled fast_mode g with
        buf := load_src src (set_dan3_options max_bits rle_enabled fast_mode g).buf } hF
    have e : ({ ({ set_dan3_options max_bits rle_enabled fast_mode g with
        buf := load_src src (set_dan3_options max_bits rle_enabled fast_mode g).buf } : Globals)
          with bFAST := 0 } : Globals) =
        { set_dan3_options max_bits rle_enabled 0 g with
          buf := load_src src (set_dan3_options max_bits rle_enabled 0 g).buf } := rfl
    rw [e] at h
    cases h1 : lzss_slow { set_dan3_options max_bits rle_enabled fast_mode g with
        buf := load_src src (set_dan3_options max_bits rle_enabled fast_mode g).buf } with
    | none =>
      rw [h1] at h
      cases h0 : lzss_slow { set_dan3_options max_bits rle_enabled 0 g with
          buf := load_src src (set_dan3_options max_bits rle_enabled 0 g).buf } with
      | none => rfl
      | some y => rw [h0] at h; simp at h
    | some x =>
      rw [h1] at h
      cases h0 : lzss_slow { set_dan3_options max_bits rle_enabled 0 g with
          buf := load_src src (set_dan3_options max_bits rle_enabled 0 g).buf } with
      | none => rw [h0] at h; simp at h
      | some y =>
        rw [h0] at h
        simp only [Option.map_some', Option.some.injEq, Prod.mk.injEq] at h
        obtain ⟨x1, x2⟩ := x
        obtain ⟨y1, y2⟩ := y
        simp only at h
        obtain ⟨e1, e2⟩ := h
        subst e1
        simp only
        by_cases hv : x1 ≥ 0
        · simp only [if_pos hv]
          by_cases hM : x1 > MAX
          · simp only [if_pos hM]
          · simp only [if_neg hM, e2]
        · simp only [if_neg hv]

/-! ### The chain of the positions at which tokens end -/

/-- The scan reaches every position `i` below `MAX`, and the first three stages
of the scan at `i` do not reach `abort()`. -/
theorem scan_prefix_front (src : Int → Nat) (nbr bRLE bFAST : Int) (hn : 0 < nbr)
    (s0 : ScanState) (hinv0 : ScanInvAll nbr s0.parse 1) (i : Int) (hi1 : 1 ≤ i)
    (hi2 : i < MAX) :
    ∃ s p1 p2 p3, scan_loop src nbr bRLE bFAST (i - 1).toNat 1 s0 = some s ∧
      update_optimal nbr i 1 0 s.parse = some p1 ∧
      (if bRLE ≠ 0 ∧ i ≥ RAW_MIN then
        rle_loop nbr i ((if RAW_MAX > i then i else RAW_MAX) - RAW_MIN).toNat
          (if RAW_MAX > i then i else RAW_MAX) p1 else some p1) = some p2 ∧
      len1_loop src nbr i (if MAX_OFFSET0 > i then i else MAX_OFFSET0).toNat 1 p2 = some p3 ∧
      ScanInvAll nbr p3 (i + 1) := by
  have hR : RAW_MAX = 256 := by decide
  have hRm : RAW_MIN = 1 := by decide
  have hO : MAX_OFFSET0 = 3 := by decide
  obtain ⟨s, hs, hinv⟩ := scan_loop_inv src nbr bRLE bFAST hn (i - 1).toNat 1 s0 (le_refl _)
    (by omega) hinv0
  have e : (1 : Int) + (((i - 1).toNat : Nat) : Int) = i := by omega
  rw [e] at hinv
  obtain ⟨p1, h1, inv1⟩ := update_optimal_lit_inv nbr i s.parse hinv hi1 hi2
  have hR2 : ∃ p2, (if bRLE ≠ 0 ∧ i ≥ RAW_MIN then
        rle_loop nbr i ((if RAW_MAX > i then i else RAW_MAX) - RAW_MIN).toNat
          (if RAW_MAX > i then i else RAW_MAX) p1 else some p1) = some p2 ∧
      ScanInvAll nbr p2 (i + 1) := by
    by_cases g : bRLE ≠ 0 ∧ i ≥ RAW_MIN
    · simp only [if_pos g]
      exact rle_loop_inv nbr i hi1 hi2 _ _ p1 inv1 (by split_ifs <;> omega)
        (by split_ifs <;> omega)
    · simp only [if_neg g]
      exact ⟨p1, rfl, inv1⟩
  obtain ⟨p2, h2, inv2⟩ := hR2
  obtain ⟨p3, h3, inv3⟩ := len1_loop_inv src nbr i hi1 hi2
    (if MAX_OFFSET0 > i then i else MAX_OFFSET0).toNat 1 p2 inv2 (le_refl _)
    (by split_ifs <;> omega)
  exact ⟨s, p1, p2, p3, hs, h1, h2, h3, inv3⟩

theorem entry_data_eq (src : List Nat) (max_bits rle_enabled fast_mode : Int) (g : Globals)
    (x : Int) (h0 : 0 ≤ x) (h1 : x < (src.length : Int)) :
    (encode_entry src max_bits rle_enabled fast_mode g).buf.data_src x = bufferOf src x := by
  show memcpy _ (bufferOf src) (src.length : Int) x = _
  simp only [memcpy, if_pos (And.intro h0 h1)]

/-! ### The token that the scan records for the distant pair of `far_src` -/

theorem far_step_cell (index offset : Int) (p : Parse) (h0 : 2 ≤ index) (h1 : index < MAX)
    (ho1 : 2336 < offset) (ho2 : offset ≤ 4384) (ho3 : offset ≤ index)
    (ha : (p.optimals (index - 2)).bits 3 = 8 + 9 * (index - 2))
    (hb : (p.optimals index).bits 3 = 8 + 9 * index) :
    ∃ q, update_optimal_step index 2 offset 3 p = some q ∧
      (q.optimals index).len 3 = 2 ∧ (q.optimals index).offset 3 = offset := by
  have hM := MAX_eq
  have hI := INF_eq
  obtain ⟨pb, pm, po⟩ := p
  simp only at ha hb
  unfold update_optimal_step
  have c0 : ¬ (index < 0 ∨ index ≥ MAX) := by omega
  have c1 : ¬ (offset = 0) := by omega
  have c2 : ¬ (offset > index) := by omega
  have c3 : ¬ (index - 2 < 0 ∨ index - 2 ≥ MAX) := by omega
  have c4 : ¬ (po (index - 2)).bits 3 = INF := by rw [ha, hI]; omega
  have c5 : offset > MAX_OFFSET1 := by
    have : MAX_OFFSET1 = 32 := by decide
    omega
  simp only [if_neg c0, if_neg c1, if_neg c2, if_neg c3, if_neg c4, if_pos c5, set_BIT_OFFSET3]
  have hmin : BIT_OFFSET_MIN = 9 := by decide
  have hm2 : MAX_OFFSET2 = 288 := by decide
  have hpow : (2 : Int) ^ (BIT_OFFSET_MIN + 3).toNat + MAX_OFFSET2 = 4384 := by decide
  have c6 : ¬ (offset > MAX_OFFSET1 ∧
      offset > (2 : Int) ^ (BIT_OFFSET_MIN + 3).toNat + MAX_OFFSET2) := by
    intro hc; omega
  simp only [if_neg c6]
  rw [count_bits_far _ _ (by rw [hm2]; omega), ha, hb, hmin]
  have c7 : 8 + 9 * index > 8 + 9 * (index - 2) + (5 + (9 + 3)) := by omega
  simp only [if_pos c7]
  exact ⟨_, rfl, (store_at _ _ po index 3 _ offset 2).2.2, (store_at _ _ po index 3 _ offset 2).2.1⟩

theorem update_optimal_far_cell (nbr i offset : Int) (p : Parse) (h : LitInv nbr p (i + 1))
    (hi1 : 2 ≤ i) (hi2 : i < MAX) (ho1 : 2336 < offset) (ho2 : offset ≤ 4384)
    (ho3 : offset ≤ i) (h3 : 3 < nbr) :
    ∃ q, update_optimal nbr i 2 offset p = some q ∧
      (q.optimals i).len 3 = 2 ∧ (q.optimals i).offset 3 = offset := by
  obtain ⟨q, hq, hb, _⟩ := update_optimal_loop_spec i 2 offset
    (fun r p1 => (p1.optimals (i - 2)).bits r = 8 + 9 * (i - 2) ∧
      (p1.optimals i).bits r = 8 + 9 * i)
    (fun r q1 => r = 3 → (q1.optimals i).len r = 2 ∧ (q1.optimals i).offset r = offset)
    (fun r p1 q1 hs hA => ⟨by rw [(hs (i - 2)).1]; exact hA.1, by rw [(hs i).1]; exact hA.2⟩)
    (fun r p1 q1 hs hB hr => by
      show (q1.optimals i).len r = 2 ∧ (q1.optimals i).offset r = offset
      rw [(hs i).2.2, (hs i).2.1]; exact hB hr)
    (fun r p1 hr hA => by
      by_cases h3 : r = 3
      · subst h3
        obtain ⟨q1, e1, c1, c2⟩ := far_step_cell i offset p1 hi1 hi2 ho1 ho2 ho3 hA.1 hA.2
        obtain ⟨q2, e2, _, f2⟩ := far_step i offset 3 p1 hi1 hi2 ho1 ho2 ho3 hr hA.1 hA.2
        rw [e1] at e2
        have e3 : q1 = q2 := Option.some.inj e2
        subst e3
        exact ⟨q1, e1, fun _ => ⟨c1, c2⟩, f2⟩
      · obtain ⟨q2, e2, _, f2⟩ := far_step i offset r p1 hi1 hi2 ho1 ho2 ho3 hr hA.1 hA.2
        exact ⟨q2, e2, fun hc => absurd hc h3, f2⟩)
    nbr.toNat p
    (fun r hr0 hr1 => ⟨h.1 (i - 2) r (by omega) (by omega) hr0 (by omega),
      h.1 i r (by omega) (by omega) hr0 (by omega)⟩)
  exact ⟨q, hq, hb 3 (by omega) (by omega) rfl⟩

theorem scan_step_far_cell (src : Int → Nat) (nbr i : Int) (s : ScanState)
    (hi1 : 2338 < i) (hi2 : i ≤ 4386) (hL : LitInv nbr s.parse i)
    (hC : ChainInv src s.matches_ i)
    (hnear : ∀ k, 1 ≤ k → k ≤ 3 → k ≤ i → src i ≠ src (i - k))
    (hkeys : ∀ a b, 1 ≤ a → a < b → b < i → key_of src a ≠ key_of src b)
    (hlast : key_of src i = key_of src 2)
    (htail : src (i - 2) ≠ src 0) (h3 : 3 < nbr) :
    ∃ t, scan_step src nbr 0 0 i s = some t ∧
      (t.parse.optimals i).len 3 = 2 ∧ (t.parse.optimals i).offset 3 = i - 2 := by
  have hM := MAX_eq
  unfold scan_step
  obtain ⟨p1, hp1, hinv1⟩ := update_optimal_lit_exact nbr i s.parse hL (by omega) (by omega)
  rw [hp1]
  simp only
  have hR : ¬ ((0 : Int) ≠ 0 ∧ i ≥ RAW_MIN) := fun h => h.1 rfl
  simp only [if_neg hR]
  have hO : MAX_OFFSET0 = 3 := by decide
  rw [len1_loop_quiet src nbr i (by omega) (if MAX_OFFSET0 > i then i else MAX_OFFSET0).toNat 1 p1
    (le_refl 1) (by rw [hO]; split <;> omega)
    (fun k2 h1 h2 => hnear k2 h1 (by rw [hO] at h2; split at h2 <;> omega)
      (by rw [hO] at h2; split at h2 <;> omega))]
  simp only
  have g1 : ¬ (i - 1 < 0 ∨ i ≥ MAX) := by omega
  simp only [if_neg g1]
  have hf : ¬ (s.prev_match_index = (((src (i - 1) <<< 8 ||| src i &&& 255 : Nat) : Int))
      ∧ (0 : Int) = TRUE ∧ (p1.optimals (i - 1)).offset 0 = 1 ∧ (p1.optimals (i - 1)).len 0 > 2) :=
    fun h => absurd h.2.1 (by decide)
  simp only [if_neg hf]
  have hm : s.matches_ (((src (i - 1) <<< 8 ||| src i &&& 255 : Nat) : Int)) = [2, -1] := by
    rcases hC (key_of src i) with ⟨_, hall⟩ | ⟨a, ha1, ha2, hk, hm⟩
    · exact absurd hlast.symm (hall 2 (by omega) (by omega))
    · have ha : a = 2 := by
        by_contra hne
        rcases lt_or_gt_of_ne hne with h | h
        · exact hkeys a 2 ha1 h (by omega) (by rw [hk, hlast])
        · exact hkeys 2 a (by omega) h ha2 (by rw [hk, hlast])
      rw [ha] at hm
      exact hm
  rw [hm]
  obtain ⟨q, hq, hc1, hc2⟩ := update_optimal_far_cell nbr i (i - 2) p1 hinv1 (by omega) (by omega)
    (by omega) (by omega) (by omega) h3
  have hG : MAX_GAMMA = 254 := by decide
  have hMO : MAX_OFFSET = 65824 := by decide
  have hlen : match_len_loop src nbr i (i - 2) 253 2 1 p1 = some (2, q) := by
    unfold match_len_loop
    have c1 : (2 : Int) ≤ MAX_GAMMA := by rw [hG]; omega
    have c2 : ¬ (i - 2 < 0 ∨ i - 2 - (i - 2) < 0 ∨ i - 2 ≥ MAX ∨ i - 2 - (i - 2) ≥ MAX) := by omega
    have e0 : i - 2 - (i - 2) = 0 := by ring
    have c3 : i < i - 2 + 2 ∨ src (i - 2) ≠ src (i - 2 - (i - 2)) := Or.inr (by rw [e0]; exact htail)
    simp only [if_pos c1, if_neg c2, hq, if_pos c3]
  have hwalk : match_walk src nbr 0 i [2, -1] 1 p1 = some ([2, -1], q) := by
    unfold match_walk
    have d1 : ¬ (i - 2 > MAX_OFFSET) := by rw [hMO]; omega
    have d2 : ¬ (i - 2 ≤ 0 ∨ i - (i - 2) < 0) := by omega
    have d3 : ¬ ((0 : Int) ≠ 0 ∧ (2 : Int) > 255) := fun h => h.1 rfl
    simp only [if_neg d1, if_neg d2, hlen, if_neg d3]
    rfl
  rw [hwalk]
  exact ⟨_, rfl, hc1, hc2⟩

theorem lzss_scan_far_cell (g : Globals) (n : Int) (hn : g.buf.index_src = n) (hR : g.bRLE = 0)
    (hF : g.bFAST = 0) (hn1 : 2339 < n) (hn2 : n ≤ 4387)
    (hnear : ∀ i k, 1 ≤ k → k ≤ 3 → k ≤ i → i < n →
      g.buf.data_src i ≠ g.buf.data_src (i - k))
    (hkeys : ∀ a b, 1 ≤ a → a < b → b < n - 1 →
      key_of g.buf.data_src a ≠ key_of g.buf.data_src b)
    (hlast : key_of g.buf.data_src (n - 1) = key_of g.buf.data_src 2)
    (htail : g.buf.data_src (n - 3) ≠ g.buf.data_src 0)
    (h3 : 3 < g.BIT_OFFSET_NBR_ALLOWED) :
    ∃ s, lzss_scan g = some s ∧ (s.parse.optimals (n - 1)).len 3 = 2 ∧
      (s.parse.optimals (n - 1)).offset 3 = n - 3 := by
  have hM := MAX_eq
  unfold lzss_scan
  obtain ⟨p0, hp0, hL0⟩ := update_optimal_first_exact g.BIT_OFFSET_NBR_ALLOWED
    { g.parse with optimals := init_optimals g.parse.optimals } (fun j r => rfl)
  rw [hp0]
  simp only
  rw [hR, hF, hn]
  have e : (n - 1).toNat = (n - 2).toNat + 1 := by omega
  rw [e, scan_loop_last]
  obtain ⟨t, ht, hLt, hCt⟩ := scan_loop_quiet g.buf.data_src g.BIT_OFFSET_NBR_ALLOWED (n - 1)
    (by omega) (fun i k h1 h2 h3 h4 => hnear i k h1 h2 h3 (by omega)) hkeys
    (n - 2).toNat 1 { parse := p0, matches_ := reset_matches g.matches_, prev_match_index := -1 }
    (le_refl 1) (by omega) hL0
    (fun key => Or.inl ⟨rfl, fun a h1 h2 => absurd h2 (by omega)⟩)
  rw [ht]
  simp only [Option.some_bind]
  have e2 : (1 : Int) + ((n - 2).toNat : Int) = n - 1 := by omega
  rw [e2] at hLt hCt ⊢
  have e3 : n - 1 - 2 = n - 3 := by ring
  obtain ⟨u, hu, hc1, hc2⟩ := scan_step_far_cell g.buf.data_src g.BIT_OFFSET_NBR_ALLOWED (n - 1) t
    (by omega) (by omega) hLt hCt (fun k h1 h2 h3 => hnear (n - 1) k h1 h2 h3 (by omega))
    hkeys hlast (by rw [e3]; exact htail) h3
  exact ⟨u, hu, hc1, by rw [hc2, e3]⟩

/-- The scan of `lzss_slow` on `far_src` with at least four subsets: in subset 3
the last position records the distant pair, a match of 2 bytes at distance 2556. -/
theorem far_scan_cell (max_bits : Int) (g : Globals)
    (h3 : 3 < (encode_entry far_src max_bits 0 0 g).BIT_OFFSET_NBR_ALLOWED) :
    ∃ s, lzss_scan (encode_entry far_src max_bits 0 0 g) = some s ∧
      (s.parse.optimals 2558).len 3 = 2 ∧ (s.parse.optimals 2558).offset 3 = 2556 := by
  obtain ⟨s, hs, hb⟩ := lzss_scan_far_cell (encode_entry far_src max_bits 0 0 g) 2559
    far_src_length rfl rfl (by omega) (by omega)
    (fun i k h1 h2 h3 h4 => by
      rw [far_data _ _ _ _ i (by omega) h4, far_data _ _ _ _ (i - k) (by omega) (by omega)]
      have e : (i - k).toNat = i.toNat - k.toNat := by omega
      rw [e]
      exact far_near i.toNat k.toNat (by omega) (by omega) (by omega) (by omega))
    (fun a b h1 h2 h3 => by
      rw [far_key_of _ _ _ _ a h1 (by omega), far_key_of _ _ _ _ b (by omega) (by omega)]
      intro hc
      have hc2 : far_key a.toNat = far_key b.toNat := by exact_mod_cast hc
      have ha := far_pos_key a.toNat (by omega) (by omega)
      have hb := far_pos_key b.toNat (by omega) (by omega)
      rw [hc2, hb] at ha
      omega)
    (by
      rw [far_key_of _ _ _ _ (2559 - 1) (by omega) (by omega),
        far_key_of _ _ _ _ 2 (by omega) (by omega)]
      have := far_key_last
      exact_mod_cast this)
    (by
      rw [far_data _ _ _ _ (2559 - 3) (by omega) (by omega),
        far_data _ _ _ _ 0 (by omega) (by omega)]
      exact far_tail)
    h3
  refine ⟨s, hs, ?_, ?_⟩
  · have := hb.1
    norm_num at this
    exact this
  · have := hb.2
    norm_num at this
    exact this

/-! ### The last entry of the trimmed table and the chosen subset -/

/-- The trim pass keeps the entry of the last position. -/
theorem trimmed_last (g : Globals) (s : ScanState)
    (h1 : 2 ≤ g.buf.index_src) (h2 : g.buf.index_src ≤ MAX)
    (hinv : ScanInvAll g.BIT_OFFSET_NBR_ALLOWED s.parse g.buf.index_src)
    (hc0 : 0 ≤ chosen_subset g s) (hc1 : chosen_subset g s < g.BIT_OFFSET_NBR_ALLOWED)
    (hc7 : chosen_subset g s ≤ 7) :
    (trimmed g s).optimals (g.buf.index_src - 1) = s.parse.optimals (g.buf.index_src - 1) := by
  have ht := trimmed_tiled g s (by omega) h2 hinv hc0 hc1 hc7
  rcases trimmed_cells g s (g.buf.index_src - 1) with h | h
  · generalize hi : g.buf.index_src - 1 = i at ht h
    cases ht with
    | zero => omega
    | tok _ hi hl1 hl2 hclear hrest => omega
  · exact h

/-! ### Facts for the examples of the claims -/

theorem far_src_ne : far_src ≠ [] := by
  intro h
  have := far_src_length
  rw [h] at this
  simp at this

theorem far_src_le : (far_src.length : Int) ≤ MAX := by
  rw [far_src_length, MAX_eq]
  omega

/-- With one allowed subset the selection takes subset 0. -/
theorem chosen_subset_one (g : Globals) (s : ScanState) (h : g.BIT_OFFSET_NBR_ALLOWED = 1) :
    chosen_subset g s = 0 := by
  obtain ⟨_, h0, h1⟩ := select_best_spec g.BIT_OFFSET_NBR_ALLOWED g.buf.index_src s.parse
    (by omega)
  unfold chosen_subset
  omega

theorem far_chosen_16 (g : Globals) (s : ScanState)
    (h0 : (s.parse.optimals 2558).bits 0 = 23030) (h1 : (s.parse.optimals 2558).bits 1 = 23030)
    (h2 : (s.parse.optimals 2558).bits 2 = 23030) (h3 : (s.parse.optimals 2558).bits 3 = 23029)
    (h4 : (s.parse.optimals 2558).bits 4 = 23030) (h5 : (s.parse.optimals 2558).bits 5 = 23030)
    (h6 : (s.parse.optimals 2558).bits 6 = 23030) (h7 : (s.parse.optimals 2558).bits 7 = 23030) :
    chosen_subset (encode_entry far_src 16 0 0 g) s = 3 := by
  unfold chosen_subset select_best
  rw [far_index]
  have hn : (encode_entry far_src 16 0 0 g).BIT_OFFSET_NBR_ALLOWED = 8 := rfl
  have e1 : (8 : Int).toNat = 7 + 1 := rfl
  have e2 : (2559 : Int) - 1 = 2558 := by norm_num
  rw [hn, e1, e2]
  simp only [select_loop, h0, INF]
  norm_num [h1, h2, h3, h4, h5, h6, h7]

set_option maxRecDepth 100000 in
/-- The scan of `9 1 2 3 1 2 3` with one subset, no literal runs and no fast path:
the last position records the match of 3 bytes at distance 3, at a cost of 47 bits,
and the two positions before it record matches of one byte. -/
theorem scan_match_example :
    (lzss_scan (encode_entry [9, 1, 2, 3, 1, 2, 3] 9 0 0 initial)).map
      (fun s => ((s.parse.optimals 6).bits 0, (s.parse.optimals 6).len 0,
        (s.parse.optimals 6).offset 0, (s.parse.optimals 5).len 0,
        (s.parse.optimals 4).len 0)) = some (47, 3, 3, 1, 1) := by
  decide

set_option maxRecDepth 100000 in
/-- The scan of seven equal bytes with the fast path: position 5 records a match
of 4 bytes at distance 1, so the test of the fast path holds at position 6, which
records the match of 5 bytes at distance 1. -/
theorem scan_run_example_fast :
    (lzss_scan (encode_entry [7, 7, 7, 7, 7, 7, 7] 9 0 TRUE initial)).map
      (fun s => ((s.parse.optimals 5).offset 0, (s.parse.optimals 5).len 0,
        (s.parse.optimals 6).bits 0, (s.parse.optimals 6).offset 0,
        (s.parse.optimals 6).len 0, s.prev_match_index)) = some (1, 4, 24, 1, 5, 1799) := by
  decide

set_option maxRecDepth 100000 in
theorem scan_run_example_slow :
    (lzss_scan (encode_entry [7, 7, 7, 7, 7, 7, 7] 9 0 0 initial)).map
      (fun s => ((s.parse.optimals 6).bits 0, (s.parse.optimals 6).offset 0,
        (s.parse.optimals 6).len 0)) = some (24, 1, 5) := by
  decide

/-! ### The stream of the input `41 42` -/

theorem bytesOf_take (a : Int → Nat) (l : List Nat) (m : Nat) (hm : m ≤ l.length)
    (h : ∀ x : Int, 0 ≤ x → x < (m : Int) → a x = bufferOf l x) :
    bytesOf a (m : Int) = l.take m := by
  apply List.ext_getElem
  · simp only [bytesOf, List.length_map, List.length_range, Int.toNat_ofNat, List.length_take]
    omega
  · intro i h1 h2
    simp only [bytesOf, List.length_map, List.length_range, Int.toNat_ofNat] at h1
    simp only [bytesOf, List.getElem_map, List.getElem_range, List.getElem_take]
    rw [h (i : Int) (by omega) (by omega)]
    simp only [bufferOf, Int.toNat_ofNat]
    rw [List.getD_eq_getElem _ _ (by omega)]

set_option maxRecDepth 100000 in
theorem scan_41_42 :
    (lzss_scan (encode_entry [0x41, 0x42] 9 0 0 initial)).map
      (fun s => ((s.parse.optimals 1).len 0, (s.parse.optimals 1).offset 0)) = some (1, 0) := by
  decide

set_option maxRecDepth 100000 in
theorem run_41_42 :
    (runOps (bits_ops 254 ((0 : Int) + 1).toNat ++
        (WOp.byte 0x41 :: ([WOp.bit 1, WOp.byte 0x42] ++ [])) ++ end_ops)
      { load_src [0x41, 0x42] initial.buf with index_dest := 0, bit_mask := 0, bit_index := 0 }).map
      (fun b3 => (b3.index_dest, bytesOf b3.data_dest b3.index_dest)) =
      some (4, [0x40, 0x41, 0x42, 0x00]) := by
  decide

/-- For the input `41 42`, with one subset and without literal runs, `encode`
returns the four bytes `40 41 42 00`: the selector bit, the flag of the literal
and six bits of the end marker in byte 0, the two bytes of the input, and the
rest of the end marker. -/
theorem encode_41_42 (out : Int → Nat) (g : Globals) :
    encode [0x41, 0x42] 9 0 0 out g = Seen.returned 4 [0x40, 0x41, 0x42, 0x00] := by
  rw [encode_indep [0x41, 0x42] 9 0 0 out (fun _ => 0) g initial]
  have hlen : (1 : Int) ≤ (encode_entry [0x41, 0x42] 9 0 0 initial).buf.index_src := by decide
  have hmax : (encode_entry [0x41, 0x42] 9 0 0 initial).buf.index_src ≤ MAX := by decide
  obtain ⟨s, hs, hinv, ⟨hc0, hc1⟩, hsel, _, hw, _⟩ := lzss_slow_spec
    (encode_entry [0x41, 0x42] 9 0 0 initial) (by decide) (by decide) hlen hmax
  have hch := chosen_subset_one (encode_entry [0x41, 0x42] 9 0 0 initial) s rfl
  have hle := lzss_slow_eq _ s hs hlen hsel
  rw [hw, hch] at hle
  have hd := scan_41_42
  rw [hs] at hd
  simp only [Option.map_some', Option.some.injEq, Prod.mk.injEq] at hd
  have hlast := trimmed_last (encode_entry [0x41, 0x42] 9 0 0 initial) s (by decide) hmax hinv
    (by rw [hch]) (by rw [hch]; decide) (by rw [hch]; omega)
  have e1 : (encode_entry [0x41, 0x42] 9 0 0 initial).buf.index_src - 1 = 1 := by decide
  rw [e1] at hlast
  have etok : emitted_tokens (encode_entry [0x41, 0x42] 9 0 0 initial) s =
      [WOp.bit 1, WOp.byte 0x42] ++ [] := by
    unfold emitted_tokens
    rw [hch, e1]
    have e2 : (1 : Int).toNat = 0 + 1 := rfl
    rw [e2]
    simp only [lz_ops]
    congr 1
    unfold token_ops
    rw [hlast, hd.1, hd.2]
    simp only [show ((1 : Int) > 0) by omega, if_true]
    rfl
  have ebuf : (encode_entry [0x41, 0x42] 9 0 0 initial).buf
      = load_src [0x41, 0x42] initial.buf := rfl
  have esrc : (encode_entry [0x41, 0x42] 9 0 0 initial).buf.data_src 0 = 0x41 := rfl
  rw [etok] at hle
  rw [esrc, ebuf] at hle
  have hG := dan3_encode_eq [0x41, 0x42] 9 0 0 (fun _ => 0) initial (by decide)
  unfold encode
  rw [hG, hle]
  have hrun := run_41_42
  revert hrun
  cases runOps (bits_ops 254 ((0 : Int) + 1).toNat ++
        (WOp.byte 0x41 :: ([WOp.bit 1, WOp.byte 0x42] ++ [])) ++ end_ops)
      { load_src [0x41, 0x42] initial.buf with index_dest := 0, bit_mask := 0, bit_index := 0 } with
  | none => intro hrun; simp at hrun
  | some b3 =>
    intro hrun
    simp only [Option.map_some', Option.some.injEq, Prod.mk.injEq] at hrun
    obtain ⟨e1, e2⟩ := hrun
    simp only [Option.map_some', Option.some_bind, e1]
    simp only [show ((4 : Int) ≥ 0) from by omega, if_true,
      if_neg (show ¬ ((4 : Int) > MAX) by rw [MAX_eq]; omega), bytesOf_memcpy]
    rw [e1] at e2
    rw [e2]

set_option maxRecDepth 100000 in
theorem decode_40_41 :
    decode [0x40, 0x41] (fun _ => 0) initial = Seen.returned 1 [0x41] := by
  decide

/-! ### The reads of a stream that is cut short -/

theorem read_bit_live (k : Int) (D : Int → Nat) (R : Buffers) (h : Live k D R)
    (hs : R.index_src < k ∨ R.bit_mask ≠ 0) :
    read_bit (withSrc D R) = (read_bit R).map (fun x => (x.1, withSrc D x.2)) ∧
    ∀ bit R1, read_bit R = some (bit, R1) →
      Live k D R1 ∧ (R.index_src < k → R1.index_src < k ∨ R1.bit_mask ≠ 0) := by
  obtain ⟨h1, h2, h3⟩ := h
  by_cases hm : R.bit_mask = 0
  · have hlt : R.index_src < k := by
      rcases hs with hs | hs
      · exact hs
      · exact absurd hm hs
    by_cases c : R.index_src < 0 ∨ R.index_src ≥ MAX
    · have e1 : read_bit R = none := by
        unfold read_bit
        simp only [if_pos hm, if_pos c]
      have e2 : read_bit (withSrc D R) = none := by
        unfold read_bit
        have hm2 : (withSrc D R).bit_mask = 0 := hm
        have c2 : (withSrc D R).index_src < 0 ∨ (withSrc D R).index_src ≥ MAX := c
        simp only [if_pos hm2, if_pos c2]
      rw [e1, e2]
      exact ⟨rfl, fun bit R1 hc => absurd hc (by simp)⟩
    · have e1 := read_bit_fresh R hm c
      have e2 := read_bit_fresh (withSrc D R) hm c
      rw [e1, e2]
      refine ⟨?_, ?_⟩
      · simp only [Option.map_some', Option.some.injEq, Prod.mk.injEq]
        refine ⟨?_, rfl⟩
        show (if D R.index_src &&& 128 ≠ 0 then 1 else 0) = _
        rw [h3 R.index_src (by omega) hlt]
      · intro bit R1 hc
        have e := (Prod.mk.inj (Option.some.inj hc)).2
        rw [← e]
        refine ⟨⟨?_, ?_, h3⟩, fun _ => Or.inr ?_⟩
        · show R.index_src + 1 ≤ k
          omega
        · intro _
          exact hlt
        · show (64 : Nat) ≠ 0
          decide
  · have hb := h2 hm
    by_cases c : R.bit_index < 0 ∨ R.bit_index ≥ MAX
    · have e1 : read_bit R = none := by
        unfold read_bit
        simp only [if_neg hm, if_pos c]
      have e2 : read_bit (withSrc D R) = none := by
        unfold read_bit
        have hm2 : ¬ (withSrc D R).bit_mask = 0 := hm
        have c2 : (withSrc D R).bit_index < 0 ∨ (withSrc D R).bit_index ≥ MAX := c
        simp only [if_neg hm2, if_pos c2]
      rw [e1, e2]
      exact ⟨rfl, fun bit R1 hc => absurd hc (by simp)⟩
    · have e1 := read_bit_open R hm c
      have e2 := read_bit_open (withSrc D R) hm c
      rw [e1, e2]
      refine ⟨?_, ?_⟩
      · simp only [Option.map_some', Option.some.injEq, Prod.mk.injEq]
        refine ⟨?_, rfl⟩
        show (if D R.bit_index &&& R.bit_mask ≠ 0 then 1 else 0) = _
        rw [h3 R.bit_index (by omega) hb]
      · intro bit R1 hc
        have e := (Prod.mk.inj (Option.some.inj hc)).2
        rw [← e]
        refine ⟨⟨h1, fun _ => hb, h3⟩, fun hlt => Or.inl hlt⟩

theorem read_bit_any (k : Int) (D : Int → Nat) (R : Buffers)
    (h : Live k D R ∨ k < R.index_src) (bit : Nat) (R1 : Buffers)
    (hr : read_bit R = some (bit, R1)) :
    k < R1.index_src ∨ (Live k D R1 ∧ read_bit (withSrc D R) = some (bit, withSrc D R1)) := by
  rcases h with h | h
  · by_cases hs : R.index_src < k ∨ R.bit_mask ≠ 0
    · obtain ⟨e, hl⟩ := read_bit_live k D R h hs
      right
      refine ⟨(hl bit R1 hr).1, ?_⟩
      rw [e, hr]
      rfl
    · left
      have hm : R.bit_mask = 0 := by
        by_contra hc
        exact hs (Or.inr hc)
      have hk : ¬ (R.index_src < k) := fun hc => hs (Or.inl hc)
      by_cases c : R.index_src < 0 ∨ R.index_src ≥ MAX
      · unfold read_bit at hr
        simp only [if_pos hm, if_pos c] at hr
        exact absurd hr (by simp)
      · rw [read_bit_fresh R hm c] at hr
        have e := (Prod.mk.inj (Option.some.inj hr)).2
        rw [← e]
        show k < R.index_src + 1
        omega
  · left
    have := read_bit_index R R1 bit hr
    omega

theorem read_golomb_zeros_index :
    ∀ (m i : Nat) (A B : Buffers) (i1 : Nat),
      read_golomb_zeros m i A = some (i1, B) → A.index_src ≤ B.index_src := by
  intro m
  induction m with
  | zero =>
    intro i A B i1 hh
    simp only [read_golomb_zeros, Option.some.injEq, Prod.mk.injEq] at hh
    rw [hh.2]
  | succ m ihm =>
    intro i A B i1 hh
    simp only [read_golomb_zeros] at hh
    cases hy : read_bit A with
    | none => rw [hy] at hh; exact absurd hh (by simp)
    | some y =>
      obtain ⟨b2, A2⟩ := y
      rw [hy] at hh
      simp only at hh
      have := read_bit_index A A2 b2 hy
      by_cases hb2 : b2 = 0
      · simp only [if_pos hb2] at hh
        have := ihm _ _ _ _ hh
        omega
      · simp only [if_neg hb2, Option.some.injEq, Prod.mk.injEq] at hh
        rw [← hh.2]
        omega

theorem read_golomb_value_index :
    ∀ (m i : Nat) (A B : Buffers) (i1 : Nat),
      read_golomb_value m i A = some (i1, B) → A.index_src ≤ B.index_src := by
  intro m
  induction m with
  | zero =>
    intro i A B i1 hh
    simp only [read_golomb_value, Option.some.injEq, Prod.mk.injEq] at hh
    rw [hh.2]
  | succ m ihm =>
    intro i A B i1 hh
    simp only [read_golomb_value] at hh
    cases hy : read_bit A with
    | none => rw [hy] at hh; exact absurd hh (by simp)
    | some y =>
      obtain ⟨b2, A2⟩ := y
      rw [hy] at hh
      simp only at hh
      have := read_bit_index A A2 b2 hy
      have := ihm _ _ _ _ hh
      omega

theorem read_golomb_zeros_any (k : Int) (D : Int → Nat) :
    ∀ (n j : Nat) (R : Buffers), Live k D R →
      ∀ (j1 : Nat) (R1 : Buffers), read_golomb_zeros n j R = some (j1, R1) →
      k < R1.index_src ∨
        (Live k D R1 ∧ read_golomb_zeros n j (withSrc D R) = some (j1, withSrc D R1)) := by
  intro n
  induction n with
  | zero =>
    intro j R h j1 R1 hr
    simp only [read_golomb_zeros, Option.some.injEq, Prod.mk.injEq] at hr
    obtain ⟨e1, e2⟩ := hr
    subst e1 e2
    exact Or.inr ⟨h, rfl⟩
  | succ n ih =>
    intro j R h j1 R1 hr
    simp only [read_golomb_zeros] at hr
    cases hx : read_bit R with
    | none => rw [hx] at hr; exact absurd hr (by simp)
    | some x =>
      obtain ⟨bit, R2⟩ := x
      rw [hx] at hr
      simp only at hr
      rcases read_bit_any k D R (Or.inl h) bit R2 hx with hd | ⟨hl, e⟩
      · left
        by_cases hb : bit = 0
        · simp only [if_pos hb] at hr
          have := read_golomb_zeros_index n (j + 1) R2 R1 j1 hr
          omega
        · simp only [if_neg hb, Option.some.injEq, Prod.mk.injEq] at hr
          rw [← hr.2]
          exact hd
      · by_cases hb : bit = 0
        · simp only [if_pos hb] at hr
          rcases ih (j + 1) R2 hl j1 R1 hr with q | q
          · exact Or.inl q
          · right
            refine ⟨q.1, ?_⟩
            simp only [read_golomb_zeros, e, if_pos hb]
            exact q.2
        · simp only [if_neg hb, Option.some.injEq, Prod.mk.injEq] at hr
          right
          rw [← hr.2, ← hr.1]
          refine ⟨hl, ?_⟩
          simp only [read_golomb_zeros, e, if_neg hb]

theorem read_golomb_value_any (k : Int) (D : Int → Nat) :
    ∀ (n v : Nat) (R : Buffers), Live k D R →
      ∀ (v1 : Nat) (R1 : Buffers), read_golomb_value n v R = some (v1, R1) →
      k < R1.index_src ∨
        (Live k D R1 ∧ read_golomb_value n v (withSrc D R) = some (v1, withSrc D R1)) := by
  intro n
  induction n with
  | zero =>
    intro v R h v1 R1 hr
    simp only [read_golomb_value, Option.some.injEq, Prod.mk.injEq] at hr
    obtain ⟨e1, e2⟩ := hr
    subst e1 e2
    exact Or.inr ⟨h, rfl⟩
  | succ n ih =>
    intro v R h v1 R1 hr
    simp only [read_golomb_value] at hr
    cases hx : read_bit R with
    | none => rw [hx] at hr; exact absurd hr (by simp)
    | some x =>
      obtain ⟨bit, R2⟩ := x
      rw [hx] at hr
      simp only at hr
      rcases read_bit_any k D R (Or.inl h) bit R2 hx with hd | ⟨hl, e⟩
      · left
        have := read_golomb_value_index n _ R2 R1 v1 hr
        omega
      · rcases ih _ R2 hl v1 R1 hr with q | q
        · exact Or.inl q
        · right
          refine ⟨q.1, ?_⟩
          simp only [read_golomb_value, e]
          exact q.2

theorem read_golomb_gamma_any (k : Int) (D : Int → Nat) (R : Buffers) (h : Live k D R)
    (v : Int) (R1 : Buffers) (hr : read_golomb_gamma R = some (v, R1)) :
    k < R1.index_src ∨
      (Live k D R1 ∧ read_golomb_gamma (withSrc D R) = some (v, withSrc D R1)) := by
  unfold read_golomb_gamma at hr
  cases hz : read_golomb_zeros 7 0 R with
  | none => rw [hz] at hr; exact absurd hr (by simp)
  | some x =>
    obtain ⟨j, R2⟩ := x
    rw [hz] at hr
    simp only at hr
    rcases read_golomb_zeros_any k D 7 0 R h j R2 hz with hd | ⟨hl, e⟩
    · left
      by_cases hj : j < 7
      · simp only [if_pos hj] at hr
        cases hv : read_golomb_value (j + 1) 1 R2 with
        | none => rw [hv] at hr; exact absurd hr (by simp)
        | some y =>
          obtain ⟨val, R3⟩ := y
          rw [hv] at hr
          simp only [Option.some.injEq, Prod.mk.injEq] at hr
          have := read_golomb_value_index _ _ R2 R3 val hv
          rw [← hr.2]
          omega
      · simp only [if_neg hj, Option.some.injEq, Prod.mk.injEq] at hr
        rw [← hr.2]
        exact hd
    · by_cases hj : j < 7
      · simp only [if_pos hj] at hr
        cases hv : read_golomb_value (j + 1) 1 R2 with
        | none => rw [hv] at hr; exact absurd hr (by simp)
        | some y =>
          obtain ⟨val, R3⟩ := y
          rw [hv] at hr
          simp only [Option.some.injEq, Prod.mk.injEq] at hr
          rcases read_golomb_value_any k D (j + 1) 1 R2 hl val R3 hv with q | q
          · left
            rw [← hr.2]
            exact q
          · right
            rw [← hr.2, ← hr.1]
            refine ⟨q.1, ?_⟩
            unfold read_golomb_gamma
            simp only [e, if_pos hj, q.2]
      · simp only [if_neg hj, Option.some.injEq, Prod.mk.injEq] at hr
        right
        rw [← hr.2, ← hr.1]
        refine ⟨hl, ?_⟩
        unfold read_golomb_gamma
        simp only [e, if_neg hj]

theorem read_byte_live (k : Int) (D : Int → Nat) (R : Buffers) (h : Live k D R)
    (hs : R.index_src < k) :
    read_byte (withSrc D R) = (read_byte R).map (fun x => (x.1, withSrc D x.2)) ∧
    ∀ c R1, read_byte R = some (c, R1) → Live k D R1 := by
  obtain ⟨h1, h2, h3⟩ := h
  by_cases c : R.index_src < 0 ∨ R.index_src ≥ MAX
  · have e1 : read_byte R = none := by
      unfold read_byte
      simp only [if_pos c]
    have e2 : read_byte (withSrc D R) = none := by
      unfold read_byte
      have c2 : (withSrc D R).index_src < 0 ∨ (withSrc D R).index_src ≥ MAX := c
      simp only [if_pos c2]
    rw [e1, e2]
    exact ⟨rfl, fun c R1 hc => absurd hc (by simp)⟩
  · have e1 := read_byte_facts R c
    have e2 := read_byte_facts (withSrc D R) c
    rw [e1, e2]
    refine ⟨?_, ?_⟩
    · simp only [Option.map_some', Option.some.injEq, Prod.mk.injEq]
      refine ⟨?_, rfl⟩
      show D R.index_src = _
      rw [h3 R.index_src (by omega) hs]
    · intro c1 R1 hc
      have e := (Prod.mk.inj (Option.some.inj hc)).2
      rw [← e]
      exact ⟨by show R.index_src + 1 ≤ k; omega, h2, h3⟩

theorem write_byte_with (D : Int → Nat) (c : Nat) (R : Buffers) :
    write_byte c (withSrc D R) = (write_byte c R).map (withSrc D) := by
  unfold write_byte
  by_cases g : R.index_dest < 0 ∨ R.index_dest ≥ MAX
  · have g2 : (withSrc D R).index_dest < 0 ∨ (withSrc D R).index_dest ≥ MAX := g
    simp only [if_pos g, if_pos g2, Option.map_none']
  · have g2 : ¬ ((withSrc D R).index_dest < 0 ∨ (withSrc D R).index_dest ≥ MAX) := g
    simp only [if_neg g, if_neg g2, Option.map_some']
    rfl

theorem write_byte_live (k : Int) (D : Int → Nat) (c : Nat) (R R1 : Buffers) (h : Live k D R)
    (hw : write_byte c R = some R1) : Live k D R1 := by
  obtain ⟨_, _, f2, f3, _, _⟩ := write_byte_facts c R R1 hw
  obtain ⟨f6, f7⟩ := write_byte_src hw
  obtain ⟨h1, h2, h3⟩ := h
  exact ⟨by rw [f7]; exact h1, by rw [f3, f2]; exact h2, by rw [f6]; exact h3⟩

theorem copy_raw_loop_live (k v : Int) (hkv : k ≤ v) (D : Int → Nat) :
    ∀ (n : Nat) (R : Buffers), Live k D R → ∀ res, copy_raw_loop k n R = some res →
      (∃ Rb, res = Flow.leave (-1) Rb) ∨
      ∃ R1, res = Flow.cont R1 ∧ Live k D R1 ∧
        copy_raw_loop v n (withSrc D R) = some (Flow.cont (withSrc D R1)) := by
  intro n
  induction n with
  | zero =>
    intro R h res hr
    simp only [copy_raw_loop, Option.some.injEq] at hr
    exact Or.inr ⟨R, hr.symm, h, rfl⟩
  | succ n ih =>
    intro R h res hr
    simp only [copy_raw_loop] at hr
    by_cases g : R.index_src ≥ k
    · simp only [if_pos g, Option.some.injEq] at hr
      exact Or.inl ⟨R, hr.symm⟩
    · simp only [if_neg g] at hr
      obtain ⟨e, hl⟩ := read_byte_live k D R h (by omega)
      cases hx : read_byte R with
      | none => rw [hx] at hr; exact absurd hr (by simp)
      | some x =>
        obtain ⟨c, R2⟩ := x
        rw [hx] at hr
        simp only at hr
        rw [hx] at e
        simp only [Option.map_some'] at e
        cases hw : write_byte c R2 with
        | none => rw [hw] at hr; exact absurd hr (by simp)
        | some R3 =>
          rw [hw] at hr
          simp only at hr
          have hl3 := write_byte_live k D c R2 R3 (hl c R2 hx) hw
          rcases ih R3 hl3 res hr with q | ⟨R1, q1, q2, q3⟩
          · exact Or.inl q
          · right
            refine ⟨R1, q1, q2, ?_⟩
            have g2 : ¬ ((withSrc D R).index_src ≥ v) := by
              show ¬ (R.index_src ≥ v)
              omega
            simp only [copy_raw_loop, if_neg g2, e, write_byte_with, hw, Option.map_some']
            exact q3

theorem read_offset_bits_live (k v : Int) (hkv : k ≤ v) (D : Int → Nat) :
    ∀ (n off : Nat) (R : Buffers), Live k D R → ∀ res, read_offset_bits k n off R = some res →
      (∃ x, res = Flow.leave (-1) x) ∨
      ∃ off1 R1, res = Flow.cont (off1, R1) ∧ Live k D R1 ∧
        read_offset_bits v n off (withSrc D R) = some (Flow.cont (off1, withSrc D R1)) := by
  intro n
  induction n with
  | zero =>
    intro off R h res hr
    simp only [read_offset_bits, Option.some.injEq] at hr
    exact Or.inr ⟨off, R, hr.symm, h, rfl⟩
  | succ n ih =>
    intro off R h res hr
    simp only [read_offset_bits] at hr
    by_cases g : R.index_src ≥ k
    · simp only [if_pos g, Option.some.injEq] at hr
      exact Or.inl ⟨_, hr.symm⟩
    · simp only [if_neg g] at hr
      obtain ⟨e, hl⟩ := read_bit_live k D R h (Or.inl (by omega))
      cases hx : read_bit R with
      | none => rw [hx] at hr; exact absurd hr (by simp)
      | some x =>
        obtain ⟨bit, R2⟩ := x
        rw [hx] at hr
        simp only at hr
        rw [hx] at e
        simp only [Option.map_some'] at e
        rcases ih _ R2 (hl bit R2 hx).1 res hr with q | ⟨off1, R1, q1, q2, q3⟩
        · exact Or.inl q
        · right
          refine ⟨off1, R1, q1, q2, ?_⟩
          have g2 : ¬ ((withSrc D R).index_src ≥ v) := by
            show ¬ (R.index_src ≥ v)
            omega
          simp only [read_offset_bits, if_neg g2, e]
          exact q3

theorem read_offset_live (r k v len : Int) (hkv : k ≤ v) (D : Int → Nat) (R : Buffers)
    (h : Live k D R ∨ k < R.index_src) (res : Flow (Nat × Buffers))
    (hr : read_offset r k len R = some res) :
    (∃ x, res = Flow.leave (-1) x) ∨
    ∃ off R1, res = Flow.cont (off, R1) ∧ Live k D R1 ∧
      read_offset r v len (withSrc D R) = some (Flow.cont (off, withSrc D R1)) := by
  by_cases g : R.index_src ≥ k
  · left
    unfold read_offset at hr
    by_cases hl1 : len = 1
    · simp only [if_pos hl1, if_pos g, Option.some.injEq] at hr
      exact ⟨_, hr.symm⟩
    · simp only [if_neg hl1, if_pos g, Option.some.injEq] at hr
      exact ⟨_, hr.symm⟩
  · have hlive : Live k D R := by
      rcases h with h | h
      · exact h
      · omega
    have g2 : ¬ ((withSrc D R).index_src ≥ v) := by
      show ¬ (R.index_src ≥ v)
      omega
    unfold read_offset at hr
    obtain ⟨e, hl⟩ := read_bit_live k D R hlive (Or.inl (by omega))
    by_cases hl1 : len = 1
    · simp only [if_pos hl1, if_neg g] at hr
      cases hx : read_bit R with
      | none => rw [hx] at hr; exact absurd hr (by simp)
      | some x =>
        obtain ⟨bit, R2⟩ := x
        rw [hx] at hr e
        simp only at hr
        simp only [Option.map_some'] at e
        obtain ⟨hl2, hsafe⟩ := hl bit R2 hx
        by_cases hb : bit ≠ 0
        · simp only [if_pos hb] at hr
          obtain ⟨e2, hl3⟩ := read_bit_live k D R2 hl2 (hsafe (by omega))
          cases hy : read_bit R2 with
          | none => rw [hy] at hr; exact absurd hr (by simp)
          | some y =>
            obtain ⟨bit2, R3⟩ := y
            rw [hy] at hr e2
            simp only [Option.some.injEq] at hr
            simp only [Option.map_some'] at e2
            right
            refine ⟨bit2 + 1, R3, hr.symm, (hl3 bit2 R3 hy).1, ?_⟩
            unfold read_offset
            simp only [if_pos hl1, if_neg g2, e, if_pos hb, e2]
        · simp only [if_neg hb, Option.some.injEq] at hr
          right
          refine ⟨0, R2, hr.symm, hl2, ?_⟩
          unfold read_offset
          simp only [if_pos hl1, if_neg g2, e, if_neg hb]
    · simp only [if_neg hl1, if_neg g] at hr
      cases hx : read_bit R with
      | none => rw [hx] at hr; exact absurd hr (by simp)
      | some x =>
        obtain ⟨bit, R2⟩ := x
        rw [hx] at hr e
        simp only at hr
        simp only [Option.map_some'] at e
        obtain ⟨hl2, hsafe⟩ := hl bit R2 hx
        by_cases hb : bit = 0
        · simp only [if_pos hb] at hr
          by_cases g3 : R2.index_src ≥ k
          · simp only [if_pos g3, Option.some.injEq] at hr
            exact Or.inl ⟨_, hr.symm⟩
          · simp only [if_neg g3] at hr
            have g4 : ¬ ((withSrc D R2).index_src ≥ v) := by
              show ¬ (R2.index_src ≥ v)
              omega
            obtain ⟨e2, hl3⟩ := read_byte_live k D R2 hl2 (by omega)
            cases hy : read_byte R2 with
            | none => rw [hy] at hr; exact absurd hr (by simp)
            | some y =>
              obtain ⟨c, R3⟩ := y
              rw [hy] at hr e2
              simp only [Option.some.injEq] at hr
              simp only [Option.map_some'] at e2
              right
              refine ⟨c + 32, R3, hr.symm, hl3 c R3 hy, ?_⟩
              unfold read_offset
              simp only [if_neg hl1, if_neg g2, e, if_pos hb, if_neg g4, e2]
        · simp only [if_neg hb] at hr
          by_cases g3 : R2.index_src ≥ k
          · simp only [if_pos g3, Option.some.injEq] at hr
            exact Or.inl ⟨_, hr.symm⟩
          · simp only [if_neg g3] at hr
            have g4 : ¬ ((withSrc D R2).index_src ≥ v) := by
              show ¬ (R2.index_src ≥ v)
              omega
            obtain ⟨e2, hl3⟩ := read_bit_live k D R2 hl2 (Or.inl (by omega))
            cases hy : read_bit R2 with
            | none => rw [hy] at hr; exact absurd hr (by simp)
            | some y =>
              obtain ⟨bit2, R3⟩ := y
              rw [hy] at hr e2
              simp only at hr
              simp only [Option.map_some'] at e2
              have hl4 := (hl3 bit2 R3 hy).1
              by_cases hb2 : bit2 ≠ 0
              · simp only [if_pos hb2] at hr
                cases hz : read_offset_bits k (r + BIT_OFFSET_MIN - 8).toNat 0 R3 with
                | none => rw [hz] at hr; exact absurd hr (by simp)
                | some z =>
                  rw [hz] at hr
                  rcases read_offset_bits_live k v hkv D _ 0 R3 hl4 z hz with
                    ⟨x, q⟩ | ⟨off1, R4, q1, q2, q3⟩
                  · subst q
                    simp only [Option.some.injEq] at hr
                    exact Or.inl ⟨_, hr.symm⟩
                  · subst q1
                    simp only at hr
                    by_cases g5 : R4.index_src ≥ k
                    · simp only [if_pos g5, Option.some.injEq] at hr
                      exact Or.inl ⟨_, hr.symm⟩
                    · simp only [if_neg g5] at hr
                      have g6 : ¬ ((withSrc D R4).index_src ≥ v) := by
                        show ¬ (R4.index_src ≥ v)
                        omega
                      obtain ⟨e3, hl5⟩ := read_byte_live k D R4 q2 (by omega)
                      cases hu : read_byte R4 with
                      | none => rw [hu] at hr; exact absurd hr (by simp)
                      | some u =>
                        obtain ⟨c, R5⟩ := u
                        rw [hu] at hr e3
                        simp only [Option.some.injEq] at hr
                        simp only [Option.map_some'] at e3
                        right
                        refine ⟨_, R5, hr.symm, hl5 c R5 hu, ?_⟩
                        unfold read_offset
                        simp only [if_neg hl1, if_neg g2, e, if_neg hb, if_neg g4, e2, if_pos hb2,
                          q3, if_neg g6, e3]
              · simp only [if_neg hb2] at hr
                rcases read_offset_bits_live k v hkv D 5 0 R3 hl4 res hr with
                  q | ⟨off1, R4, q1, q2, q3⟩
                · exact Or.inl q
                · right
                  refine ⟨off1, R4, q1, q2, ?_⟩
                  unfold read_offset
                  simp only [if_neg hl1, if_neg g2, e, if_neg hb, if_neg g4, e2, if_neg hb2]
                  exact q3

/-- One pass of the main loop of `delzss` on a stream cut after `k` bytes: it
calls `abort()`, returns `-1`, or does what the pass on the whole stream does. -/
theorem delzss_token_live (r k v : Int) (hkv : k ≤ v) (D : Int → Nat) (R : Buffers)
    (h : Live k D R) (hs : R.index_src < k) (res : Flow Buffers)
    (hr : delzss_token r k R = some res) :
    (∃ Rb, res = Flow.leave (-1) Rb) ∨
    (∃ R1, res = Flow.cont R1 ∧ Live k D R1 ∧
      delzss_token r v (withSrc D R) = some (Flow.cont (withSrc D R1))) ∨
    (∃ R1, res = Flow.stop R1 ∧
      delzss_token r v (withSrc D R) = some (Flow.stop (withSrc D R1))) := by
  have g0 : ¬ (R.index_src ≥ k) := by omega
  have g0' : ¬ ((withSrc D R).index_src ≥ v) := by
    show ¬ (R.index_src ≥ v)
    omega
  unfold delzss_token at hr
  simp only [if_neg g0] at hr
  obtain ⟨e, hl⟩ := read_bit_live k D R h (Or.inl hs)
  cases hx : read_bit R with
  | none => rw [hx] at hr; exact absurd hr (by simp)
  | some x =>
    obtain ⟨bit, R2⟩ := x
    rw [hx] at hr e
    simp only at hr
    simp only [Option.map_some'] at e
    obtain ⟨hl2, _⟩ := hl bit R2 hx
    by_cases hb : bit ≠ 0
    · simp only [if_pos hb] at hr
      by_cases g1 : R2.index_src ≥ k
      · simp only [if_pos g1, Option.some.injEq] at hr
        exact Or.inl ⟨_, hr.symm⟩
      · simp only [if_neg g1] at hr
        have g1' : ¬ ((withSrc D R2).index_src ≥ v) := by
          show ¬ (R2.index_src ≥ v)
          omega
        obtain ⟨e2, hl3⟩ := read_byte_live k D R2 hl2 (by omega)
        cases hy : read_byte R2 with
        | none => rw [hy] at hr; exact absurd hr (by simp)
        | some y =>
          obtain ⟨c, R3⟩ := y
          rw [hy] at hr e2
          simp only at hr
          simp only [Option.map_some'] at e2
          cases hw : write_byte c R3 with
          | none => rw [hw] at hr; exact absurd hr (by simp)
          | some R4 =>
            rw [hw] at hr
            simp only [Option.map_some', Option.some.injEq] at hr
            right
            left
            refine ⟨R4, hr.symm, write_byte_live k D c R3 R4 (hl3 c R3 hy) hw, ?_⟩
            unfold delzss_token
            simp only [if_neg g0', e, if_pos hb, if_neg g1', e2, write_byte_with, hw,
              Option.map_some']
    · simp only [if_neg hb] at hr
      cases hg : read_golomb_gamma R2 with
      | none => rw [hg] at hr; exact absurd hr (by simp)
      | some y =>
        obtain ⟨len, R3⟩ := y
        rw [hg] at hr
        simp only at hr
        rcases read_golomb_gamma_any k D R2 hl2 len R3 hg with hd | ⟨hl3, e2⟩
        · -- a byte from position `k` on was read: the next test of the cursor fails
          left
          by_cases hlen : len = -1
          · have g2 : R3.index_src ≥ k := by omega
            simp only [if_pos hlen, if_pos g2, Option.some.injEq] at hr
            exact ⟨_, hr.symm⟩
          · simp only [if_neg hlen] at hr
            cases ho : read_offset r k len R3 with
            | none => rw [ho] at hr; exact absurd hr (by simp)
            | some z =>
              rw [ho] at hr
              rcases read_offset_live r k v len hkv D R3 (Or.inr hd) z ho with
                ⟨x, q⟩ | ⟨off, R4, q1, q2, _⟩
              · subst q
                obtain ⟨x1, x2⟩ := x
                simp only [Option.some.injEq] at hr
                exact ⟨_, hr.symm⟩
              · exfalso
                subst q1
                unfold read_offset at ho
                have g2 : R3.index_src ≥ k := by omega
                by_cases hl1 : len = 1
                · simp only [if_pos hl1, if_pos g2, Option.some.injEq] at ho
                  exact absurd ho (by simp)
                · simp only [if_neg hl1, if_pos g2, Option.some.injEq] at ho
                  exact absurd ho (by simp)
        · by_cases hlen : len = -1
          · simp only [if_pos hlen] at hr
            by_cases g2 : R3.index_src ≥ k
            · simp only [if_pos g2, Option.some.injEq] at hr
              exact Or.inl ⟨_, hr.symm⟩
            · simp only [if_neg g2] at hr
              have g2' : ¬ ((withSrc D R3).index_src ≥ v) := by
                show ¬ (R3.index_src ≥ v)
                omega
              obtain ⟨e3, hl4⟩ := read_bit_live k D R3 hl3 (Or.inl (by omega))
              cases hz : read_bit R3 with
              | none => rw [hz] at hr; exact absurd hr (by simp)
              | some z =>
                obtain ⟨bit2, R4⟩ := z
                rw [hz] at hr e3
                simp only at hr
                simp only [Option.map_some'] at e3
                by_cases hb2 : bit2 = 0
                · simp only [if_pos hb2, Option.some.injEq] at hr
                  right
                  right
                  refine ⟨R4, hr.symm, ?_⟩
                  unfold delzss_token
                  simp only [if_neg g0', e, if_neg hb, e2, if_pos hlen, if_neg g2', e3, if_pos hb2]
                · simp only [if_neg hb2] at hr
                  by_cases g3 : R4.index_src ≥ k
                  · simp only [if_pos g3, Option.some.injEq] at hr
                    exact Or.inl ⟨_, hr.symm⟩
                  · simp only [if_neg g3] at hr
                    have g3' : ¬ ((withSrc D R4).index_src ≥ v) := by
                      show ¬ (R4.index_src ≥ v)
                      omega
                    obtain ⟨e4, hl5⟩ := read_byte_live k D R4 (hl4 bit2 R4 hz).1 (by omega)
                    cases hu : read_byte R4 with
                    | none => rw [hu] at hr; exact absurd hr (by simp)
                    | some u =>
                      obtain ⟨c, R5⟩ := u
                      rw [hu] at hr e4
                      simp only at hr
                      simp only [Option.map_some'] at e4
                      rcases copy_raw_loop_live k v hkv D (c + 1) R5 (hl5 c R5 hu) res hr with
                        q | ⟨R6, q1, q2, q3⟩
                      · exact Or.inl q
                      · right
                        left
                        refine ⟨R6, q1, q2, ?_⟩
                        unfold delzss_token
                        simp only [if_neg g0', e, if_neg hb, e2, if_pos hlen, if_neg g2', e3,
                          if_neg hb2, if_neg g3', e4]
                        exact q3
          · simp only [if_neg hlen] at hr
            cases ho : read_offset r k len R3 with
            | none => rw [ho] at hr; exact absurd hr (by simp)
            | some z =>
              rw [ho] at hr
              rcases read_offset_live r k v len hkv D R3 (Or.inl hl3) z ho with
                ⟨x, q⟩ | ⟨off, R4, q1, q2, q3⟩
              · subst q
                obtain ⟨x1, x2⟩ := x
                simp only [Option.some.injEq] at hr
                exact Or.inl ⟨_, hr.symm⟩
              · subst q1
                simp only at hr
                by_cases c1 : R4.index_dest - (off : Int) - 1 < 0 ∨
                    R4.index_dest - (off : Int) - 1 + len > R4.index_dest
                · simp only [if_pos c1] at hr
                  exact absurd hr (by simp)
                · simp only [if_neg c1] at hr
                  by_cases c2 : R4.index_dest + len > MAX
                  · simp only [if_pos c2] at hr
                    exact absurd hr (by simp)
                  · simp only [if_neg c2, Option.some.injEq] at hr
                    right
                    left
                    refine ⟨_, hr.symm, ⟨q2.1, q2.2.1, q2.2.2⟩, ?_⟩
                    have c1' : ¬ ((withSrc D R4).index_dest - (off : Int) - 1 < 0 ∨
                        (withSrc D R4).index_dest - (off : Int) - 1 + len >
                          (withSrc D R4).index_dest) := c1
                    have c2' : ¬ ((withSrc D R4).index_dest + len > MAX) := c2
                    unfold delzss_token
                    simp only [if_neg g0', e, if_neg hb, e2, if_neg hlen, q3, if_neg c1',
                      if_neg c2']
                    rfl

/-! ### The main loop of `delzss` on a stream of the encoder that is cut short -/

theorem truncAt_stop (src : Int → Nat) (r : Int) (T : Parse) (n : Int) (W3 : Buffers) (k : Int)
    (o : Outcome Buffers) (i : Int) (W R : Buffers) (f : Nat) (hi0 : 0 ≤ i) (hi : i < n)
    (h : TruncAt src r T n W3 k o i W R f) (hk : ¬ (R.index_src < k)) :
    TruncGood src n o := by
  obtain ⟨a1, a2, a3, a4, a5, a6, a7, a8⟩ := h
  have ho : o = Outcome.ret R.index_dest R := by
    cases f with
    | zero =>
      unfold delzss_loop at a8
      simp only [if_neg hk, Option.some.injEq] at a8
      exact a8.symm
    | succ f =>
      unfold delzss_loop at a8
      simp only [if_neg hk, Option.some.injEq] at a8
      exact a8.symm
  right
  exact ⟨R.index_dest, R, ho, by omega, by omega, fun x hx0 hx1 => a6 x hx0 (by omega)⟩

theorem truncAt_fuel (src : Int → Nat) (r : Int) (T : Parse) (n : Int) (W3 : Buffers) (k : Int)
    (o : Outcome Buffers) (i : Int) (W R : Buffers) (f : Nat)
    (h : TruncAt src r T n W3 k o i W R f) (hk : R.index_src < k) : 1 ≤ f := by
  obtain ⟨a1, a2, a3, a4, a5, a6, a7, a8⟩ := h
  have h1 := writerOK_left 0 W a1
  have h2 := a2.1
  by_contra hc
  have hf : f = 0 := by omega
  subst hf
  simp only [Nat.cast_zero] at a7
  omega

/-- The main loop of `delzss` on the first `k` bytes of the stream follows the
tokens of the encoder up to position `i`, unless it has ended before without
harm. -/
theorem trunc_prefix (src : Int → Nat) (r : Int) (T : Parse) (n : Int) (W3 : Buffers) (k : Int)
    (o : Outcome Buffers) (hk : k ≤ W3.index_dest)
    (hB : T.BIT_OFFSET3 = BIT_OFFSET_MIN + r) (hr0 : 0 ≤ r)
    (hcell : ∀ i, 1 ≤ i → i < n → 1 ≤ (T.optimals i).len r → CellDec src T r i)
    (hbytes : ∀ x, 0 ≤ x → x < n → src x < 256) (W0 R0 : Buffers) (f0 : Nat)
    (hstart : TruncAt src r T n W3 k o 0 W0 R0 f0) :
    ∀ i, Tiled T.optimals r i → i < n →
      TruncGood src n o ∨ ∃ W R f, TruncAt src r T n W3 k o i W R f := by
  intro i ht
  induction ht with
  | zero =>
    intro _
    exact Or.inr ⟨W0, R0, f0, hstart⟩
  | tok i hi hl1 hl2 hclear _ ih =>
    intro hn
    rcases ih (by omega) with hbad | ⟨W, R, f, hat⟩
    · exact Or.inl hbad
    · by_cases hlt : R.index_src < k
      · have hf := truncAt_fuel src r T n W3 k o _ W R f hat hlt
        obtain ⟨a1, a2, a3, a4, a5, a6, a7, a8⟩ := hat
        rw [lz_ops_last src r T n i hi hn hl1 hl2 hclear, List.append_assoc] at a3
        have a3c := a3
        rw [runOps_append] at a3
        cases hx : runOps (token_ops src r T i) W with
        | none => rw [hx] at a3; simp at a3
        | some W1 =>
          rw [hx] at a3
          simp only [Option.some_bind] at a3
          have hpos := opsBits_token_pos src r T i hl1
          have hrest9 : 9 ≤ opsBits (lz_ops src r T (n - 1 - i).toNat (i + 1) ++ end_ops) := by
            rw [opsBits_append, opsBits_end_ops]
            have := opsBits_nonneg (lz_ops src r T (n - 1 - i).toNat (i + 1))
            omega
          obtain ⟨_, hcount⟩ := runOps_count 0 _ W W1 a1 hx
          obtain ⟨f1, ef⟩ : ∃ f1, f = f1 + 1 := ⟨f - 1, by omega⟩
          subst ef
          unfold delzss_loop at a8
          simp only [if_pos hlt] at a8
          cases ht : delzss_token r k R with
          | none => rw [ht] at a8; simp at a8
          | some res =>
            rw [ht] at a8
            have hfull := token_decode src r T i hB hr0 hl1 hl2 (hcell i (by omega) hn hl1)
              (fun x hx0 hx1 => hbytes x hx0 (by omega)) _ W W1 W3 (withSrc W3.data_dest R) a1 a2
              hx a3 (by omega) (fun x _ _ => rfl) a5 (fun x hx0 hx1 => a6 x hx0 hx1)
            rcases delzss_token_live r k W3.index_dest hk W3.data_dest R a4 hlt res ht with
              ⟨Rb, q⟩ | ⟨R1, q1, q2, q3⟩ | ⟨R1, q1, q3⟩
            · subst q
              simp only [Option.some.injEq] at a8
              exact Or.inl (Or.inl ⟨Rb, a8.symm⟩)
            · subst q1
              simp only at a8
              rcases hfull with hnone | ⟨R1f, k1, k2, k3, k4, k5, k6⟩
              · rw [hnone] at q3
                exact absurd q3 (by simp)
              · rw [k1] at q3
                have e1 : R1f = withSrc W3.data_dest R1 := Flow.cont.inj (Option.some.inj q3)
                subst e1
                right
                refine ⟨W1, R1, f1, k3, k2, a3, q2, k5, k6, ?_, a8⟩
                push_cast at a7
                omega
            · exfalso
              rcases hfull with hnone | ⟨R1f, k1, _⟩
              · rw [hnone] at q3
                exact absurd q3 (by simp)
              · rw [k1] at q3
                exact absurd (Option.some.inj q3) (by simp)
      · exact Or.inl (truncAt_stop src r T n W3 k o _ W R f (by omega) (by omega) hat hlt)

/-- The end of the main loop of `delzss` on the first `k` bytes of the stream
once the tokens of all positions are decoded. -/
theorem trunc_last (src : Int → Nat) (r : Int) (T : Parse) (n : Int) (hn : 1 ≤ n) (W3 : Buffers)
    (k : Int) (o : Outcome Buffers) (hk : k ≤ W3.index_dest) (W R : Buffers) (f : Nat)
    (h : TruncAt src r T n W3 k o (n - 1) W R f) :
    TruncGood src n o := by
  by_cases hlt : R.index_src < k
  · have hf := truncAt_fuel src r T n W3 k o _ W R f h hlt
    obtain ⟨a1, a2, a3, a4, a5, a6, a7, a8⟩ := h
    have e : (n - 1 - (n - 1)).toNat = 0 := by omega
    rw [e] at a3
    simp only [lz_ops, List.nil_append] at a3
    obtain ⟨_, hres⟩ := decode_end r W W3 (withSrc W3.data_dest R) a1 a2 a3 (fun x _ _ => rfl)
    obtain ⟨f1, ef⟩ : ∃ f1, f = f1 + 1 := ⟨f - 1, by omega⟩
    subst ef
    unfold delzss_loop at a8
    simp only [if_pos hlt] at a8
    cases ht : delzss_token r k R with
    | none => rw [ht] at a8; simp at a8
    | some res =>
      rw [ht] at a8
      rcases delzss_token_live r k W3.index_dest hk W3.data_dest R a4 hlt res ht with
        ⟨Rb, q⟩ | ⟨R1, q1, q2, q3⟩ | ⟨R1, q1, q3⟩
      · subst q
        simp only [Option.some.injEq] at a8
        exact Or.inl ⟨Rb, a8.symm⟩
      · exfalso
        rcases hres with ⟨Rb, hb⟩ | ⟨Rc, hc, _⟩
        · rw [hb] at q3
          exact absurd (Option.some.inj q3) (by simp)
        · rw [hc] at q3
          exact absurd (Option.some.inj q3) (by simp)
      · subst q1
        simp only [Option.some.injEq] at a8
        rcases hres with ⟨Rb, hb⟩ | ⟨Rc, hc, c1, c2⟩
        · rw [hb] at q3
          exact absurd (Option.some.inj q3) (by simp)
        · rw [hc] at q3
          have e1 : Rc = withSrc W3.data_dest R1 := Flow.stop.inj (Option.some.inj q3)
          subst e1
          have d1 : R1.index_dest = R.index_dest := c1
          have d2 : R1.data_dest = R.data_dest := c2
          right
          refine ⟨R1.index_dest, R1, a8.symm, by omega, by omega, fun x hx0 hx1 => ?_⟩
          rw [d2]
          exact a6 x hx0 (by omega)
  · exact truncAt_stop src r T n W3 k o _ W R f (by omega) (by omega) h hlt

theorem read_subset_live (k v : Int) (hkv : k ≤ v) (D : Int → Nat) :
    ∀ (f : Nat) (s : Int) (R : Buffers), Live k D R → R.index_src < k →
      ∀ res, read_subset k f s R = some res →
      (∃ x, res = Outcome.ret (-1) x) ∨
      (res = Outcome.nofuel ∧ read_subset v f s (withSrc D R) = some Outcome.nofuel) ∨
      ∃ s1 R1, res = Outcome.ret 0 (s1, R1) ∧ Live k D R1 ∧
        read_subset v f s (withSrc D R) = some (Outcome.ret 0 (s1, withSrc D R1)) := by
  intro f
  induction f with
  | zero =>
    intro s R h hs res hr
    simp only [read_subset, Option.some.injEq] at hr
    exact Or.inr (Or.inl ⟨hr.symm, rfl⟩)
  | succ f ih =>
    intro s R h hs res hr
    simp only [read_subset] at hr
    obtain ⟨e, hl⟩ := read_bit_live k D R h (Or.inl hs)
    cases hx : read_bit R with
    | none => rw [hx] at hr; exact absurd hr (by simp)
    | some x =>
      obtain ⟨bit, R2⟩ := x
      rw [hx] at hr e
      simp only at hr
      simp only [Option.map_some'] at e
      obtain ⟨hl2, _⟩ := hl bit R2 hx
      by_cases hb : bit ≠ 0
      · simp only [if_pos hb] at hr
        by_cases g : s + 1 > BIT_OFFSET_NBR ∨ R2.index_src ≥ k
        · simp only [if_pos g, Option.some.injEq] at hr
          exact Or.inl ⟨_, hr.symm⟩
        · simp only [if_neg g] at hr
          have g' : ¬ (s + 1 > BIT_OFFSET_NBR ∨ (withSrc D R2).index_src ≥ v) := by
            intro hc
            rcases hc with hc | hc
            · exact g (Or.inl hc)
            · have hc2 : R2.index_src ≥ v := hc
              exact g (Or.inr (by omega))
          rcases ih (s + 1) R2 hl2 (by omega) res hr with q | ⟨q1, q2⟩ | ⟨s1, R1, q1, q2, q3⟩
          · exact Or.inl q
          · right
            left
            refine ⟨q1, ?_⟩
            simp only [read_subset, e, if_pos hb, if_neg g']
            exact q2
          · right
            right
            refine ⟨s1, R1, q1, q2, ?_⟩
            simp only [read_subset, e, if_pos hb, if_neg g']
            exact q3
      · simp only [if_neg hb, Option.some.injEq] at hr
        right
        right
        refine ⟨s, R2, hr.symm, hl2, ?_⟩
        simp only [read_subset, e, if_neg hb]

/-! ### `delzss` on a stream of the encoder that is cut short -/

/-- On the first `k` bytes of the stream that the writer produces for the tokens
of a table whose tokens tile the input and can be decoded, `delzss` calls
`abort()`, returns `-1`, or returns a number `m` of bytes of the input with these
bytes in the output. -/
theorem delzss_truncated (src : Int → Nat) (r : Int) (T : Parse) (n : Int) (hn : 1 ≤ n)
    (Wi W3 B : Buffers) (hr0 : 0 ≤ r) (hr7 : r ≤ 7)
    (hB : T.BIT_OFFSET3 = BIT_OFFSET_MIN + r)
    (hcell : ∀ i, 1 ≤ i → i < n → 1 ≤ (T.optimals i).len r → CellDec src T r i)
    (hbytes : ∀ x, 0 ≤ x → x < n → src x < 256) (htile : Tiled T.optimals r (n - 1))
    (hWi1 : Wi.index_dest = 0) (hWi2 : Wi.bit_mask = 0)
    (hrun : runOps (bits_ops 254 (r.toNat + 1) ++
        (WOp.byte (src 0) :: lz_ops src r T (n - 1).toNat 1) ++ end_ops) Wi = some W3)
    (k : Int) (hk : k ≤ W3.index_dest) (hBi : B.index_src = k)
    (hdata : ∀ x, 0 ≤ x → x < k → B.data_src x = W3.data_dest x)
    (o : Outcome Buffers) (h : delzss B = some o) :
    TruncGood src n o := by
  have hwi : WriterOK 0 Wi := ⟨le_refl _, by rw [hWi1], Or.inl hWi2⟩
  rw [List.append_assoc, List.cons_append] at hrun
  rw [runOps_append] at hrun
  cases hx1 : runOps (bits_ops 254 (r.toNat + 1)) Wi with
  | none => rw [hx1] at hrun; simp at hrun
  | some W1 =>
    rw [hx1] at hrun
    simp only [Option.some_bind] at hrun
    have hrest1 := hrun
    rw [runOps_cons] at hrun
    cases hx2 : runOp (WOp.byte (src 0)) W1 with
    | none => rw [hx2] at hrun; simp at hrun
    | some W2 =>
      rw [hx2] at hrun
      simp only [Option.some_bind] at hrun
      have hx2' : runOps [WOp.byte (src 0)] W1 = some W2 := by
        rw [runOps_cons, hx2, Option.some_bind]
        rfl
      unfold delzss at h
      simp only at h
      rw [hBi] at h
      by_cases g0 : k ≤ 0
      · simp only [if_pos g0, Option.some.injEq] at h
        right
        exact ⟨0, _, h.symm, le_refl 0, by omega, fun x hx0 hx1 => absurd hx1 (by omega)⟩
      · have g1 : ¬ ((0 : Int) ≥ k) := by omega
        simp only [if_neg g0, if_neg g1] at h
        have hs0 : InSync Wi (withSrc W3.data_dest
            { B with index_src := 0, bit_mask := 0, bit_index := 0 }) :=
          ⟨hWi1.symm, hWi2.symm, fun hne => absurd hWi2 hne⟩
        have hl0 : Live k W3.data_dest { B with index_src := 0, bit_mask := 0, bit_index := 0 } :=
          ⟨by show (0 : Int) ≤ k; omega, fun hc => absurd rfl hc, hdata⟩
        have hfull := read_subset_of _ W3 r.toNat 0 9 Wi W1
          (withSrc W3.data_dest { B with index_src := 0, bit_mask := 0, bit_index := 0 })
          (by omega) (by omega) hwi hs0 hx1 hrest1 (fun x _ _ => rfl)
        cases hsub : read_subset k 9 0 { B with index_src := 0, bit_mask := 0, bit_index := 0 } with
        | none => rw [hsub] at h; simp at h
        | some res =>
          rw [hsub] at h
          rcases read_subset_live k W3.index_dest hk W3.data_dest 9 0 _ hl0
            (by show (0 : Int) < k; omega) res hsub with
            ⟨x, q⟩ | ⟨q1, q2⟩ | ⟨s1, R1, q1, q2, q3⟩
          · subst q
            obtain ⟨x1, x2⟩ := x
            simp only [ne_eq, Int.reduceNeg, neg_eq_zero, one_ne_zero, not_false_eq_true,
              if_true, Option.some.injEq] at h
            exact Or.inl ⟨_, h.symm⟩
          · exfalso
            rcases hfull with ⟨x, hbad⟩ | ⟨R1f, k1, _⟩
            · rw [hbad] at q2
              exact absurd (Option.some.inj q2) (by simp)
            · rw [k1] at q2
              exact absurd (Option.some.inj q2) (by simp)
          · subst q1
            simp only [ne_eq, not_true_eq_false, if_false] at h
            rcases hfull with ⟨x, hbad⟩ | ⟨R1f, k1, k2, k3, k4, k5, k6⟩
            · rw [hbad] at q3
              have := Outcome.ret.inj (Option.some.inj q3)
              omega
            · rw [k1] at q3
              obtain ⟨_, e2⟩ := Outcome.ret.inj (Option.some.inj q3)
              obtain ⟨es, eR⟩ := Prod.mk.inj e2
              subst eR
              by_cases g2 : R1.index_src ≥ k
              · simp only [if_pos g2, Option.some.injEq] at h
                exact Or.inl ⟨_, h.symm⟩
              · simp only [if_neg g2] at h
                have hs1 : InSync W1 (withSrc W3.data_dest { R1 with index_dest := 0 }) :=
                  ⟨k2.1, k2.2.1, k2.2.2⟩
                have hl1 : Live k W3.data_dest { R1 with index_dest := 0 } :=
                  ⟨q2.1, q2.2.1, q2.2.2⟩
                obtain ⟨R2f, hread, hs2, hw2, hsrc2⟩ := mirror_ops 0 _ W3 _ W1 W2
                  (withSrc W3.data_dest { R1 with index_dest := 0 }) k3 hs1 hx2' hrun
                  (fun x _ _ => rfl)
                obtain ⟨Ra, a1, a2⟩ := readOps_byte_val _ [] _ R2f hread
                have e := readOps_nil_inv Ra R2f _ a2
                subst e
                have hc0 := hbytes 0 (le_refl _) (by omega)
                rw [Nat.mod_eq_of_lt hc0] at a1
                obtain ⟨eb, hlb⟩ := read_byte_live k W3.data_dest { R1 with index_dest := 0 } hl1
                  (by show R1.index_src < k; omega)
                cases hrb : read_byte { R1 with index_dest := 0 } with
                | none => rw [hrb] at h; simp at h
                | some y =>
                  obtain ⟨c, R2⟩ := y
                  rw [hrb] at h eb
                  simp only at h
                  simp only [Option.map_some'] at eb
                  rw [eb] at a1
                  obtain ⟨ec, eR2⟩ := Prod.mk.inj (Option.some.inj a1)
                  subst eR2
                  subst ec
                  have d1 := read_byte_dest _ R2 _ hrb
                  cases hx3 : write_byte (src 0) R2 with
                  | none => rw [hx3] at h; simp at h
                  | some R4 =>
                    rw [hx3] at h
                    simp only at h
                    obtain ⟨_, f1, f2, f3, f4, f5⟩ := write_byte_facts _ R2 R4 hx3
                    obtain ⟨f6, f7⟩ := write_byte_src hx3
                    have er : (0 : Int) + ((r.toNat : Nat) : Int) = r := by omega
                    rw [← es, er] at h
                    obtain ⟨_, hcount⟩ := runOps_count 0 _ Wi W2 hwi
                      (show runOps (bits_ops 254 (r.toNat + 1) ++ [WOp.byte (src 0)]) Wi = some W2 by
                        rw [runOps_append, hx1]
                        exact hx2')
                    have hA := opsBits_nonneg (bits_ops 254 (r.toNat + 1) ++ [WOp.byte (src 0)])
                    have hbl0 : bitsLeft 0 = 0 := by decide
                    rw [hWi1, hWi2, hbl0] at hcount
                    have hstart : TruncAt src r T n W3 k o 0 W2 R4 (8 * k.toNat) := by
                      unfold TruncAt
                      have e1 : n - 1 - 0 = n - 1 := by ring
                      have e2 : (0 : Int) + 1 = 1 := by ring
                      rw [e1, e2]
                      have hs2' : InSync W2 R2 := ⟨hs2.1, hs2.2.1, hs2.2.2⟩
                      refine ⟨hw2, inSync_dest W2 R2 R4 hs2' f7 f3 f2, hrun,
                        write_byte_live k W3.data_dest _ R2 R4 (hlb _ R2 hrb) hx3, ?_, ?_, ?_, h⟩
                      · rw [f1, d1.1]
                        rfl
                      · intro x h0 h1
                        have hx0 : x = 0 := by omega
                        subst hx0
                        have : R2.index_dest = 0 := d1.1
                        rw [this] at f4
                        rw [f4, Nat.mod_eq_of_lt hc0]
                      · push_cast
                        omega
                    rcases trunc_prefix src r T n W3 k o hk hB hr0 hcell hbytes W2 R4 _ hstart
                      (n - 1) htile (by omega) with hbad | ⟨W, R, f, hlast⟩
                    · exact hbad
                    · exact trunc_last src r T n hn W3 k o hk W R f hlast

/-! ### What the scan offers to `update_optimal` bounds the cost -/

theorem frameAt_step (i len offset r : Int) (p0 p q : Parse)
    (h : update_optimal_step i len offset r p = some q) (hf : FrameAt i p0 p) :
    FrameAt i p0 q := by
  obtain ⟨_, _, hfr, _, _⟩ := update_optimal_step_post i len offset r p q h
  intro j r1 hj
  rw [(hfr j r1 (Or.inl hj)).1]
  exact hf j r1 hj

theorem update_optimal_loop_cover (i len offset : Int) (hi : 0 < i) (hl : 1 ≤ len) :
    ∀ (k : Nat) (p q : Parse), update_optimal_loop i len offset k p = some q →
      ∀ r, 0 ≤ r → r < (k : Int) → (p.optimals (i - len)).bits r ≠ INF →
        (offset = 0 → (p.optimals (i - 1)).bits r ≠ INF) →
        (offset ≠ 0 → offset ≤ i ∧ offset ≤ 2 ^ (BIT_OFFSET_MIN + r).toNat + MAX_OFFSET2) →
        (q.optimals i).bits r ≤ (p.optimals (i - len)).bits r + tokenCost r len offset := by
  intro k
  induction k with
  | zero =>
    intro p q _ r h0 h1
    simp only [Nat.cast_zero] at h1
    omega
  | succ k ih =>
    intro p q h r h0 h1 hA hB hC
    unfold update_optimal_loop at h
    cases hx : update_optimal_step i len offset (k : Int) p with
    | none => rw [hx] at h; exact absurd h (by simp)
    | some p1 =>
      rw [hx] at h
      simp only at h
      obtain ⟨_, _, hfr, _, hfwd⟩ := update_optimal_step_post i len offset k p p1 hx
      by_cases hr : r = (k : Int)
      · subst hr
        have h2 := hfwd hi hA hB hC
        have h3 := update_optimal_loop_at
          (fun x => (x.optimals i).bits (k : Int) ≤ (p1.optimals i).bits (k : Int)) i len offset
          (fun r1 x y hxy hp =>
            le_trans (update_optimal_step_mono i len offset r1 x y hi hxy i (k : Int)) hp)
          k p1 q h (le_refl _)
        omega
      · have e1 := (hfr (i - len) r (Or.inr hr)).1
        have e2 := (hfr (i - 1) r (Or.inr hr)).1
        have h2 := ih p1 q h r h0 (by push_cast at h1; omega) (by rw [e1]; exact hA)
          (fun ho => by rw [e2]; exact hB ho) hC
        rw [e1] at h2
        exact h2

theorem covered_mono (nbr i : Int) (p0 q q1 : Parse) (len offset : Int)
    (h : Covered nbr i p0 q len offset)
    (hm : ∀ r, (q1.optimals i).bits r ≤ (q.optimals i).bits r) : Covered nbr i p0 q1 len offset :=
  fun r h0 h1 h2 => le_trans (hm r) (h r h0 h1 h2)

/-- One call `update_optimal(i, len, offset)` during the handling of position
`i`: afterwards position `i` costs at most the offered token. -/
theorem update_optimal_cover (nbr i len offset : Int) (hi : 0 < i) (hl1 : 1 ≤ len)
    (hl2 : len ≤ i) (ho1 : 0 ≤ offset) (ho2 : offset ≤ i) (p0 p q : Parse) (hf : FrameAt i p0 p)
    (hfin : ∀ j r, 0 ≤ j → j < i → 0 ≤ r → r < nbr → (p0.optimals j).bits r ≠ INF)
    (h : update_optimal nbr i len offset p = some q) : Covered nbr i p0 q len offset := by
  intro r h0 h1 h2
  have e1 := hf (i - len) r (by omega)
  have e2 := hf (i - 1) r (by omega)
  have h3 := update_optimal_loop_cover i len offset hi hl1 nbr.toNat p q h r h0 (by omega)
    (by rw [e1]; exact hfin _ r (by omega) (by omega) h0 h1)
    (fun _ => by rw [e2]; exact hfin _ r (by omega) (by omega) h0 h1)
    (fun _ => ⟨ho2, h2⟩)
  rw [e1] at h3
  exact h3

theorem update_optimal_frame (nbr i len offset : Int) (p0 p q : Parse) (hf : FrameAt i p0 p)
    (h : update_optimal nbr i len offset p = some q) : FrameAt i p0 q :=
  update_optimal_at (FrameAt i p0) i len offset
    (fun r x y hxy hp => frameAt_step i len offset r p0 x y hxy hp) nbr p q h hf

theorem rle_loop_mono (nbr i : Int) (hi : 0 < i) (c : Nat) (k : Int) (p q : Parse)
    (h : rle_loop nbr i c k p = some q) (j r : Int) :
    (q.optimals j).bits r ≤ (p.optimals j).bits r :=
  rle_loop_at (fun x => ∀ j r, (x.optimals j).bits r ≤ (p.optimals j).bits r) i
    (fun len r1 p1 q1 h1 hp j r =>
      le_trans (update_optimal_step_mono i len 0 r1 p1 q1 hi h1 j r) (hp j r))
    nbr c k p q h (fun _ _ => le_refl _) j r

theorem len1_loop_mono (src : Int → Nat) (nbr i : Int) (hi : 0 < i) (c : Nat) (k : Int)
    (p q : Parse) (h : len1_loop src nbr i c k p = some q) (j r : Int) :
    (q.optimals j).bits r ≤ (p.optimals j).bits r :=
  len1_loop_at (fun x => ∀ j r, (x.optimals j).bits r ≤ (p.optimals j).bits r) i
    (fun k1 r1 p1 q1 h1 hp j r =>
      le_trans (update_optimal_step_mono i 1 k1 r1 p1 q1 hi h1 j r) (hp j r))
    src nbr c k p q h (fun _ _ => le_refl _) j r

theorem rle_loop_frame (nbr i : Int) (p0 : Parse) (c : Nat) (k : Int) (p q : Parse)
    (h : rle_loop nbr i c k p = some q) (hf : FrameAt i p0 p) : FrameAt i p0 q :=
  rle_loop_at (FrameAt i p0) i
    (fun len r x y hxy hp => frameAt_step i len 0 r p0 x y hxy hp) nbr c k p q h hf

theorem len1_loop_frame (src : Int → Nat) (nbr i : Int) (p0 : Parse) (c : Nat) (k : Int)
    (p q : Parse) (h : len1_loop src nbr i c k p = some q) (hf : FrameAt i p0 p) :
    FrameAt i p0 q :=
  len1_loop_at (FrameAt i p0) i
    (fun k1 r x y hxy hp => frameAt_step i 1 k1 r p0 x y hxy hp) src nbr c k p q h hf

theorem match_len_loop_frame (src : Int → Nat) (nbr i offset : Int) (p0 : Parse) (f : Nat)
    (len best : Int) (p : Parse) (x : Int × Parse)
    (h : match_len_loop src nbr i offset f len best p = some x) (hf : FrameAt i p0 p) :
    FrameAt i p0 x.2 :=
  match_len_loop_at (FrameAt i p0) i
    (fun len1 off r a b hab hp => frameAt_step i len1 off r p0 a b hab hp) src nbr offset f len
    best p x h hf

theorem match_walk_frame (src : Int → Nat) (nbr bFAST i : Int) (p0 : Parse) (chain : List Int)
    (best : Int) (p : Parse) (x : List Int × Parse)
    (h : match_walk src nbr bFAST i chain best p = some x) (hf : FrameAt i p0 p) :
    FrameAt i p0 x.2 :=
  match_walk_at (FrameAt i p0) i
    (fun len1 off r a b hab hp => frameAt_step i len1 off r p0 a b hab hp) src nbr bFAST chain
    best p x h hf

/-- The loop over the lengths of literal runs offers every length that it
passes. -/
theorem rle_loop_cover (nbr i : Int) (hi : 0 < i) (p0 : Parse)
    (hfin : ∀ j r, 0 ≤ j → j < i → 0 ≤ r → r < nbr → (p0.optimals j).bits r ≠ INF) :
    ∀ (c : Nat) (k : Int) (p q : Parse), rle_loop nbr i c k p = some q → FrameAt i p0 p →
      k ≤ i → (c : Int) < k →
      ∀ len, k - c < len → len ≤ k → Covered nbr i p0 q len 0 := by
  intro c
  induction c with
  | zero =>
    intro k p q _ _ _ _ len h1 h2
    simp only [Nat.cast_zero] at h1
    omega
  | succ c ih =>
    intro k p q h hf hk hc len h1 h2
    unfold rle_loop at h
    cases hx : update_optimal nbr i k 0 p with
    | none => rw [hx] at h; exact absurd h (by simp)
    | some p1 =>
      rw [hx] at h
      simp only at h
      push_cast at hc h1
      by_cases hlen : len = k
      · subst hlen
        have hc1 := update_optimal_cover nbr i len 0 hi (by omega) hk (le_refl 0) (by omega)
          p0 p p1 hf hfin hx
        exact covered_mono nbr i p0 p1 q len 0 hc1
          (fun r => rle_loop_mono nbr i hi c (len - 1) p1 q h i r)
      · exact ih (k - 1) p1 q h (update_optimal_frame nbr i k 0 p0 p p1 hf hx) (by omega)
          (by omega) len (by omega) (by omega)

/-- The loop over the matches of one byte offers every distance that it passes
and at which the byte of position `i` repeats. -/
theorem len1_loop_cover (src : Int → Nat) (nbr i : Int) (hi : 0 < i) (p0 : Parse)
    (hfin : ∀ j r, 0 ≤ j → j < i → 0 ≤ r → r < nbr → (p0.optimals j).bits r ≠ INF) :
    ∀ (c : Nat) (k : Int) (p q : Parse), len1_loop src nbr i c k p = some q → FrameAt i p0 p →
      1 ≤ k → k + c ≤ i + 1 →
      ∀ k2, k ≤ k2 → k2 < k + c → src i = src (i - k2) → Covered nbr i p0 q 1 k2 := by
  intro c
  induction c with
  | zero =>
    intro k p q _ _ _ _ k2 h1 h2
    simp only [Nat.cast_zero] at h2
    omega
  | succ c ih =>
    intro k p q h hf hk hc k2 h1 h2 hsrc
    unfold len1_loop at h
    push_cast at hc h2
    by_cases g1 : i < 0 ∨ i ≥ MAX ∨ i - k < 0 ∨ i - k ≥ MAX
    · simp only [if_pos g1] at h
      exact absurd h (by simp)
    · simp only [if_neg g1] at h
      by_cases g2 : src i = src (i - k)
      · simp only [if_pos g2] at h
        cases hx : update_optimal nbr i 1 k p with
        | none => rw [hx] at h; exact absurd h (by simp)
        | some p1 =>
          rw [hx] at h
          simp only at h
          by_cases hk2 : k2 = k
          · subst hk2
            have hc1 := update_optimal_cover nbr i 1 k2 hi (le_refl 1) (by omega) (by omega)
              (by omega) p0 p p1 hf hfin hx
            exact covered_mono nbr i p0 p1 q 1 k2 hc1
              (fun r => len1_loop_mono src nbr i hi c (k2 + 1) p1 q h i r)
          · exact ih (k + 1) p1 q h (update_optimal_frame nbr i 1 k p0 p p1 hf hx) (by omega)
              (by omega) k2 (by omega) (by omega) hsrc
      · simp only [if_neg g2] at h
        have hk2 : k2 ≠ k := by
          intro hc2
          rw [hc2] at hsrc
          exact g2 hsrc
        exact ih (k + 1) p q h hf (by omega) (by omega) k2 (by omega) (by omega) hsrc

/-- The loop over the lengths of a match at one distance offers every length
from the current one on up to which the bytes repeat and the source stays at
position 1 or later. -/
theorem match_len_loop_cover (src : Int → Nat) (nbr i offset : Int) (hi : 0 < i) (hi2 : i < MAX)
    (ho : 1 ≤ offset) (p0 : Parse)
    (hfin : ∀ j r, 0 ≤ j → j < i → 0 ≤ r → r < nbr → (p0.optimals j).bits r ≠ INF)
    (T : Int) (hT : T ≤ MAX_GAMMA) (hTi : 0 ≤ i - T - offset)
    (hm : ∀ t, 0 ≤ t → t < T → src (i - t) = src (i - t - offset)) :
    ∀ (f : Nat) (len best : Int) (p : Parse) (x : Int × Parse),
      match_len_loop src nbr i offset f len best p = some x → FrameAt i p0 p →
      2 ≤ len → len ≤ T → (f : Int) + len = 255 → Covered nbr i p0 x.2 T offset := by
  have hG : MAX_GAMMA = 254 := by decide
  intro f
  induction f with
  | zero =>
    intro len best p x _ _ _ h2 h3
    simp only [Nat.cast_zero] at h3
    omega
  | succ f ih =>
    intro len best p x h hf hl hlT hfl
    unfold match_len_loop at h
    have g0 : len ≤ MAX_GAMMA := by omega
    simp only [if_pos g0] at h
    have g1 : ¬ (i - len < 0 ∨ i - len - offset < 0 ∨ i - len ≥ MAX ∨ i - len - offset ≥ MAX) := by
      omega
    simp only [if_neg g1] at h
    cases hx : update_optimal nbr i len offset p with
    | none => rw [hx] at h; exact absurd h (by simp)
    | some p1 =>
      rw [hx] at h
      simp only at h
      by_cases hlt : len = T
      · subst hlt
        have hc1 := update_optimal_cover nbr i len offset hi (by omega) (by omega) (by omega)
          (by omega) p0 p p1 hf hfin hx
        by_cases g2 : i < offset + len ∨ src (i - len) ≠ src (i - len - offset)
        · simp only [if_pos g2] at h
          cases h
          exact hc1
        · simp only [if_neg g2] at h
          exact covered_mono nbr i p0 p1 x.2 len offset hc1
            (fun r => match_len_loop_mono src nbr i offset hi f (len + 1) len p1 x h i r)
      · have g2 : ¬ (i < offset + len ∨ src (i - len) ≠ src (i - len - offset)) := by
          have := hm len (by omega) (by omega)
          intro hcon
          rcases hcon with hc | hc
          · omega
          · exact hc this
        simp only [if_neg g2] at h
        exact ih (len + 1) len p1 x h (update_optimal_frame nbr i len offset p0 p p1 hf hx)
          (by omega) (by omega) (by push_cast at hfl ⊢; omega)

/-! ### The walk over a chain offers every match of its nodes -/

theorem dropLast_cons2 (a b : Int) (l : List Int) :
    (a :: b :: l).dropLast = a :: (b :: l).dropLast := rfl

/-- The walk over the chain of a bucket, without the fast path: it offers every
match of 2 to `MAX_GAMMA` bytes at the distance of a node that is at most
`MAX_OFFSET` behind `i`, it leaves a chain that starts like the old one, and it
keeps every such node as a node that a later walk visits. -/
theorem match_walk_cover (src : Int → Nat) (nbr i : Int) (hi : 0 < i) (hi2 : i < MAX)
    (p0 : Parse)
    (hfin : ∀ j r, 0 ≤ j → j < i → 0 ≤ r → r < nbr → (p0.optimals j).bits r ≠ INF) :
    ∀ (L : List Int) (best : Int) (p : Parse) (x : List Int × Parse),
      match_walk src nbr 0 i L best p = some x → FrameAt i p0 p →
      List.Pairwise (fun a b => b < a) L →
      (∀ a ∈ L.dropLast, 1 ≤ i - a → i - a ≤ MAX_OFFSET → ∀ T, 2 ≤ T → T ≤ MAX_GAMMA →
        0 ≤ i - T - (i - a) → (∀ t, 0 ≤ t → t < T → src (i - t) = src (i - t - (i - a))) →
        Covered nbr i p0 x.2 T (i - a)) ∧
      x.1 <+: L ∧ (∀ a ∈ L.dropLast, i - a ≤ MAX_OFFSET → a ∈ x.1.dropLast) := by
  intro L
  induction L with
  | nil =>
    intro best p x h _ _
    simp only [match_walk, Option.some.injEq] at h
    subst h
    exact ⟨fun a ha => absurd ha (by simp), List.prefix_refl _, fun a ha => absurd ha (by simp)⟩
  | cons a tl ih =>
    intro best p x h hf hs
    cases tl with
    | nil =>
      simp only [match_walk, Option.some.injEq] at h
      subst h
      exact ⟨fun a ha => absurd ha (by simp), List.prefix_refl _, fun a ha => absurd ha (by simp)⟩
    | cons b rest =>
      obtain ⟨hsa, hsr⟩ := List.pairwise_cons.mp hs
      have hbelow : ∀ a2 ∈ (b :: rest).dropLast, a2 < a :=
        fun a2 ha2 => hsa a2 (List.mem_of_mem_dropLast ha2)
      unfold match_walk at h
      simp only at h
      by_cases g1 : i - a > MAX_OFFSET
      · simp only [if_pos g1, Option.some.injEq] at h
        subst h
        refine ⟨?_, ?_, ?_⟩
        · intro a2 ha2 _ h2
          rw [dropLast_cons2] at ha2
          rcases List.mem_cons.mp ha2 with e | e
          · subst e; omega
          · have := hbelow a2 e
            omega
        · exact ⟨b :: rest, rfl⟩
        · intro a2 ha2 h2
          rw [dropLast_cons2] at ha2
          rcases List.mem_cons.mp ha2 with e | e
          · subst e; omega
          · have := hbelow a2 e
            omega
      · simp only [if_neg g1] at h
        by_cases g2 : i - a ≤ 0 ∨ i - (i - a) < 0
        · simp only [if_pos g2] at h
          cases hx : match_walk src nbr 0 i (b :: rest) best p with
          | none => rw [hx] at h; exact absurd h (by simp)
          | some y =>
            rw [hx] at h
            simp only [Option.map_some', Option.some.injEq] at h
            subst h
            obtain ⟨c1, c2, c3⟩ := ih best p y hx hf hsr
            have hne := match_walk_nonempty src nbr 0 i (b :: rest) best p y hx (by simp)
            obtain ⟨y1h, y1t, ey⟩ := List.exists_cons_of_ne_nil hne
            refine ⟨?_, ?_, ?_⟩
            · intro a2 ha2 h1 h2 T hT1 hT2 hT3 hm
              rw [dropLast_cons2] at ha2
              rcases List.mem_cons.mp ha2 with e | e
              · subst e
                exfalso
                rcases g2 with g | g
                · omega
                · omega
              · exact c1 a2 e h1 h2 T hT1 hT2 hT3 hm
            · exact (List.prefix_cons_inj a).mpr c2
            · intro a2 ha2 h2
              rw [dropLast_cons2] at ha2
              show a2 ∈ (a :: y.1).dropLast
              rw [ey, dropLast_cons2, ← ey]
              rcases List.mem_cons.mp ha2 with e | e
              · rw [e]; exact List.mem_cons_self _ _
              · exact List.mem_cons_of_mem _ (c3 a2 e h2)
        · simp only [if_neg g2] at h
          cases hx : match_len_loop src nbr i (i - a) 253 2 best p with
          | none => rw [hx] at h; exact absurd h (by simp)
          | some z =>
            obtain ⟨best1, p1⟩ := z
            rw [hx] at h
            simp only at h
            have g3 : ¬ ((0 : Int) ≠ 0 ∧ best1 > 255) := fun hc => hc.1 rfl
            simp only [if_neg g3] at h
            cases hy : match_walk src nbr 0 i (b :: rest) best1 p1 with
            | none => rw [hy] at h; exact absurd h (by simp)
            | some y =>
              rw [hy] at h
              simp only [Option.map_some', Option.some.injEq] at h
              subst h
              have hf1 : FrameAt i p0 p1 :=
                match_len_loop_frame src nbr i (i - a) p0 253 2 best p (best1, p1) hx hf
              obtain ⟨c1, c2, c3⟩ := ih best1 p1 y hy hf1 hsr
              have hne := match_walk_nonempty src nbr 0 i (b :: rest) best1 p1 y hy (by simp)
              obtain ⟨y1h, y1t, ey⟩ := List.exists_cons_of_ne_nil hne
              refine ⟨?_, ?_, ?_⟩
              · intro a2 ha2 h1 h2 T hT1 hT2 hT3 hm
                rw [dropLast_cons2] at ha2
                rcases List.mem_cons.mp ha2 with e | e
                · subst e
                  have hc := match_len_loop_cover src nbr i (i - a2) hi hi2 (by omega) p0 hfin T
                    hT2 hT3 hm 253 2 best p (best1, p1) hx hf (le_refl 2) hT1 (by norm_num)
                  exact covered_mono nbr i p0 p1 y.2 T (i - a2) hc
                    (fun r => match_walk_mono src nbr 0 i hi (b :: rest) best1 p1 y hy i r)
                · exact c1 a2 e h1 h2 T hT1 hT2 hT3 hm
              · exact (List.prefix_cons_inj a).mpr c2
              · intro a2 ha2 h2
                rw [dropLast_cons2] at ha2
                show a2 ∈ (a :: y.1).dropLast
                rw [ey, dropLast_cons2, ← ey]
                rcases List.mem_cons.mp ha2 with e | e
                · rw [e]; exact List.mem_cons_self _ _
                · exact List.mem_cons_of_mem _ (c3 a2 e h2)

/-- The chains after the handling of position `i` by a walk that left `chain`
in the bucket of `i`. -/
theorem chainFull_step (src : Int → Nat) (i : Int) (m : Int → List Int) (chain : List Int)
    (hm : ∀ k, ChainFull src k i (m k))
    (hp : chain <+: m (key_of src i)) (hne : chain ≠ [])
    (hc : ∀ a ∈ (m (key_of src i)).dropLast, i - a ≤ MAX_OFFSET → a ∈ chain.dropLast) :
    ∀ k, ChainFull src k (i + 1) (setAt m (key_of src i) (insert_match chain i) k) := by
  intro k
  by_cases hk : k = key_of src i
  · subst hk
    have e : setAt m (key_of src i) (insert_match chain i) (key_of src i) = i :: chain := by
      simp [setAt, insert_match]
    rw [e]
    obtain ⟨_, h2, h3, h4⟩ := hm (key_of src i)
    obtain ⟨ch, ct, ec⟩ := List.exists_cons_of_ne_nil hne
    refine ⟨by simp, ?_, ?_, ?_⟩
    · refine List.pairwise_cons.mpr ⟨fun a ha => h3 a (hp.subset ha), ?_⟩
      exact h2.sublist hp.sublist
    · intro a ha
      rcases List.mem_cons.mp ha with e1 | e1
      · omega
      · have := h3 a (hp.subset e1)
        omega
    · intro a ha1 ha2 hka hoff
      rw [ec, dropLast_cons2, ← ec]
      by_cases hai : a = i
      · rw [hai]; exact List.mem_cons_self _ _
      · exact List.mem_cons_of_mem _ (hc a (h4 a ha1 (by omega) hka (by omega)) (by omega))
  · have e : setAt m (key_of src i) (insert_match chain i) k = m k := by
      simp [setAt, hk]
    rw [e]
    obtain ⟨h1, h2, h3, h4⟩ := hm k
    refine ⟨h1, h2, fun a ha => by have := h3 a ha; omega, ?_⟩
    intro a ha1 ha2 hka hoff
    have hai : a ≠ i := by
      intro hc2
      rw [hc2] at hka
      exact hk hka.symm
    exact h4 a ha1 (by omega) hka (by omega)

/-! ### The scan leaves no token sequence cheaper than its costs -/

theorem scanParse_nonneg (src : Int → Nat) (rle : Prop) (r : Int) :
    ∀ (j c : Int), ScanParse src rle r j c → 0 ≤ j := by
  intro j c h
  induction h with
  | first => exact le_refl 0
  | literal i c _ ih => omega
  | run i c len _ h1 _ _ ih => omega
  | ref1 i c offset _ _ _ _ _ ih => omega
  | ref i c len offset h1 _ _ _ _ _ _ ih => omega

/-- The last token of a token sequence. -/
theorem scanParse_last (src : Int → Nat) (rle : Prop) (r j c : Int)
    (h : ScanParse src rle r j c) :
    (j = 0 ∧ c = 8) ∨
    (∃ c1, ScanParse src rle r (j - 1) c1 ∧ c = c1 + tokenCost r 1 0) ∨
    (∃ c1 len, rle ∧ 2 ≤ len ∧ len ≤ 256 ∧ ScanParse src rle r (j - len) c1 ∧
      c = c1 + tokenCost r len 0) ∨
    (∃ c1 offset, 1 ≤ offset ∧ offset ≤ 3 ∧ offset ≤ j ∧ src j = src (j - offset) ∧
      ScanParse src rle r (j - 1) c1 ∧ c = c1 + tokenCost r 1 offset) ∨
    (∃ c1 len offset, 2 ≤ len ∧ len ≤ 254 ∧ 1 ≤ offset ∧ offset ≤ j - len ∧
      offset ≤ 2 ^ (BIT_OFFSET_MIN + r).toNat + MAX_OFFSET2 ∧
      (∀ t, 0 ≤ t → t < len → src (j - t) = src (j - t - offset)) ∧
      ScanParse src rle r (j - len) c1 ∧ c = c1 + tokenCost r len offset) := by
  cases h with
  | first => exact Or.inl ⟨rfl, rfl⟩
  | literal i c1 h1 =>
    right; left
    exact ⟨c1, by rw [show i + 1 - 1 = i by ring]; exact h1, rfl⟩
  | run i c1 len hr h1 h2 h3 =>
    right; right; left
    exact ⟨c1, len, hr, h1, h2, by rw [show i + len - len = i by ring]; exact h3, rfl⟩
  | ref1 i c1 offset h1 h2 h3 h4 h5 =>
    right; right; right; left
    exact ⟨c1, offset, h1, h2, h3, h4, by rw [show i + 1 - 1 = i by ring]; exact h5, rfl⟩
  | ref i c1 len offset h1 h2 h3 h4 h5 h6 h7 =>
    right; right; right; right
    refine ⟨c1, len, offset, h1, h2, h3, by omega, h5, ?_,
      by rw [show i + len - len = i by ring]; exact h7, rfl⟩
    intro t ht0 ht1
    have := h6 (len - 1 - t) (by omega) (by omega)
    rw [show i + 1 + (len - 1 - t) = i + len - t by ring] at this
    exact this

theorem key_of_congr (src : Int → Nat) (a b : Int) (h1 : src a = src b)
    (h2 : src (a - 1) = src (b - 1)) : key_of src a = key_of src b := by
  unfold key_of
  rw [h1, h2]

theorem max_offset3_le (r : Int) (h0 : 0 ≤ r) (h7 : r ≤ 7) :
    (2 : Int) ^ (BIT_OFFSET_MIN + r).toNat + MAX_OFFSET2 ≤ MAX_OFFSET := by
  have hr : r = 0 ∨ r = 1 ∨ r = 2 ∨ r = 3 ∨ r = 4 ∨ r = 5 ∨ r = 6 ∨ r = 7 := by omega
  rcases hr with e | e | e | e | e | e | e | e <;> subst e <;> decide

theorem max_offset3_nonneg (r : Int) : (0 : Int) ≤ 2 ^ (BIT_OFFSET_MIN + r).toNat + MAX_OFFSET2 := by
  have h1 : (0 : Int) ≤ 2 ^ (BIT_OFFSET_MIN + r).toNat := by positivity
  have h2 : MAX_OFFSET2 = 288 := by decide
  omega

/-- The handling of position `i` without the fast path keeps the chains complete
and leaves position `i` at most as expensive as every token sequence for it. -/
theorem scan_step_lower (src : Int → Nat) (nbr bRLE i : Int) (s t : ScanState)
    (hn8 : nbr ≤ 8) (hi1 : 1 ≤ i) (hi2 : i < MAX)
    (hinv : ScanInvAll nbr s.parse i) (hch : ∀ k, ChainFull src k i (s.matches_ k))
    (hlow : LowerInv src (bRLE ≠ 0) nbr i s.parse)
    (h : scan_step src nbr bRLE 0 i s = some t) :
    (∀ k, ChainFull src k (i + 1) (t.matches_ k)) ∧
    LowerInv src (bRLE ≠ 0) nbr (i + 1) t.parse := by
  have hM := MAX_eq
  have hfin : ∀ j r, 0 ≤ j → j < i → 0 ≤ r → r < nbr → (s.parse.optimals j).bits r ≠ INF :=
    fun j r hj0 hj1 hr0 hr1 => (hinv r hr0 hr1).bits_ne_INF hj0 hj1 (by omega)
  obtain ⟨p1, p2, p3, e1, e2, e3, hbr⟩ := scan_step_split src nbr bRLE 0 i s t hi1 hi2 h
  rcases hbr with ⟨⟨_, hF, _⟩, _⟩ | ⟨_, chain, p4, e4, et⟩
  · exact absurd hF (by decide)
  have hi0 : 0 < i := by omega
  have f0 : FrameAt i s.parse s.parse := fun _ _ _ => rfl
  have f1 := update_optimal_frame nbr i 1 0 s.parse s.parse p1 f0 e1
  have c1 := update_optimal_cover nbr i 1 0 hi0 (le_refl 1) hi1 (le_refl 0) (by omega) s.parse
    s.parse p1 f0 hfin e1
  have hR : RAW_MAX = 256 := by decide
  have hR1 : RAW_MIN = 1 := by decide
  have hO : MAX_OFFSET0 = 3 := by decide
  have f2 : FrameAt i s.parse p2 ∧ (∀ r, (p2.optimals i).bits r ≤ (p1.optimals i).bits r) ∧
      (bRLE ≠ 0 → ∀ len, 2 ≤ len → len ≤ 256 → len ≤ i → Covered nbr i s.parse p2 len 0) := by
    by_cases g : bRLE ≠ 0 ∧ i ≥ RAW_MIN
    · simp only [if_pos g] at e2
      refine ⟨rle_loop_frame nbr i s.parse _ _ p1 p2 e2 f1,
        fun r => rle_loop_mono nbr i hi0 _ _ p1 p2 e2 i r, ?_⟩
      intro _ len hl1 hl2 hl3
      refine rle_loop_cover nbr i hi0 s.parse hfin _ _ p1 p2 e2 f1 ?_ ?_ len ?_ ?_
      · rw [hR]; split <;> omega
      · rw [hR, hR1]; split <;> omega
      · rw [hR, hR1]; split <;> omega
      · rw [hR]; split <;> omega
    · simp only [if_neg g, Option.some.injEq] at e2
      subst e2
      refine ⟨f1, fun r => le_refl _, fun hb => ?_⟩
      exact absurd ⟨hb, by rw [hR1]; omega⟩ g
  obtain ⟨f2a, m2, c2⟩ := f2
  have f3 := len1_loop_frame src nbr i s.parse _ _ p2 p3 e3 f2a
  have m3 : ∀ r, (p3.optimals i).bits r ≤ (p2.optimals i).bits r :=
    fun r => len1_loop_mono src nbr i hi0 _ _ p2 p3 e3 i r
  have c3 : ∀ k2, 1 ≤ k2 → k2 ≤ 3 → k2 ≤ i → src i = src (i - k2) →
      Covered nbr i s.parse p3 1 k2 := by
    intro k2 h1 h2 h3 hsrc
    refine len1_loop_cover src nbr i hi0 s.parse hfin _ 1 p2 p3 e3 f2a (le_refl 1) ?_ k2 h1 ?_
      hsrc
    · rw [hO]; split <;> omega
    · rw [hO]; split <;> omega
  obtain ⟨hc1, hc2, hc3, hc4⟩ := hch (key_of src i)
  obtain ⟨c4, pre4, keep4⟩ := match_walk_cover src nbr i hi0 hi2 s.parse hfin
    (s.matches_ (key_of src i)) 1 p3 (chain, p4) e4 f3 hc2
  have f4 := match_walk_frame src nbr 0 i s.parse _ 1 p3 (chain, p4) e4 f3
  have m4 : ∀ r, (p4.optimals i).bits r ≤ (p3.optimals i).bits r :=
    fun r => match_walk_mono src nbr 0 i hi0 _ 1 p3 (chain, p4) e4 i r
  have hne4 := match_walk_nonempty src nbr 0 i _ 1 p3 (chain, p4) e4 hc1
  subst et
  refine ⟨chainFull_step src i s.matches_ chain hch pre4 hne4 keep4, ?_⟩
  intro j r c hj0 hj1 hr0 hr1 hp
  show (p4.optimals j).bits r ≤ c
  by_cases hji : j = i
  · subst hji
    have hpos := max_offset3_nonneg r
    rcases scanParse_last src _ r j c hp with ⟨e, _⟩ | ⟨c1', q1, q2⟩ |
      ⟨c1', len, qr, q1, q2, q3, q4⟩ | ⟨c1', offset, q1, q2, q3, q4, q5, q6⟩ |
      ⟨c1', len, offset, q1, q2, q3, q4, q5, q6, q7, q8⟩
    · omega
    · have hb := hlow (j - 1) r c1' (by omega) (by omega) hr0 hr1 q1
      have hcv := c1 r hr0 hr1 hpos
      have := m2 r
      have := m3 r
      have := m4 r
      omega
    · have hnn := scanParse_nonneg src _ r _ _ q3
      have hb := hlow (j - len) r c1' hnn (by omega) hr0 hr1 q3
      have hcv := c2 qr len q1 q2 (by omega) r hr0 hr1 hpos
      have := m3 r
      have := m4 r
      omega
    · have hb := hlow (j - 1) r c1' (by omega) (by omega) hr0 hr1 q5
      have hcv := c3 offset q1 q2 q3 q4 r hr0 hr1 (by
        have : MAX_OFFSET2 = 288 := by decide
        have h1 : (0 : Int) ≤ 2 ^ (BIT_OFFSET_MIN + r).toNat := by positivity
        omega)
      have := m4 r
      omega
    · have hnn := scanParse_nonneg src _ r _ _ q7
      have hb := hlow (j - len) r c1' hnn (by omega) hr0 hr1 q7
      have hG : MAX_GAMMA = 254 := by decide
      have hk : key_of src (j - offset) = key_of src j := by
        apply key_of_congr
        · have := q6 0 (le_refl 0) (by omega)
          simp only [sub_zero] at this
          exact this.symm
        · have := q6 1 (by omega) (by omega)
          rw [show j - offset - 1 = j - 1 - offset by ring]
          exact this.symm
      have hmem := hc4 (j - offset) (by omega) (by omega) hk
        (by have := max_offset3_le r hr0 (by omega); omega)
      have e5 : j - (j - offset) = offset := by ring
      have hcv := c4 (j - offset) hmem (by omega)
        (by have := max_offset3_le r hr0 (by omega); omega) len q1 (by omega)
        (by rw [e5]; omega) (by rw [e5]; exact q6)
      rw [e5] at hcv
      have hcv2 : (p4.optimals j).bits r ≤
          (s.parse.optimals (j - len)).bits r + tokenCost r len offset := hcv r hr0 hr1 q5
      omega
  · rw [f4 j r hji]
    exact hlow j r c hj0 (by omega) hr0 hr1 hp

theorem scan_loop_lower (src : Int → Nat) (nbr bRLE : Int) (hn : 0 < nbr) (hn8 : nbr ≤ 8) :
    ∀ (c : Nat) (i : Int) (s t : ScanState), 1 ≤ i → i + c ≤ MAX →
      ScanInvAll nbr s.parse i → (∀ k, ChainFull src k i (s.matches_ k)) →
      LowerInv src (bRLE ≠ 0) nbr i s.parse →
      scan_loop src nbr bRLE 0 c i s = some t →
      LowerInv src (bRLE ≠ 0) nbr (i + c) t.parse := by
  intro c
  induction c with
  | zero =>
    intro i s t _ _ _ _ hlow h
    simp only [scan_loop, Option.some.injEq] at h
    subst h
    simpa using hlow
  | succ c ih =>
    intro i s t hi1 hi2 hinv hch hlow h
    push_cast at hi2
    obtain ⟨s1, hs1, hinv1⟩ := scan_step_inv src nbr bRLE 0 i s hn hi1 (by omega) hinv
    unfold scan_loop at h
    rw [hs1] at h
    simp only at h
    obtain ⟨hch1, hlow1⟩ := scan_step_lower src nbr bRLE i s s1 hn8 hi1 (by omega) hinv hch hlow
      hs1
    have := ih (i + 1) s1 t (by omega) (by omega) hinv1 hch1 hlow1 h
    have e : i + ((c + 1 : Nat) : Int) = i + 1 + (c : Int) := by push_cast; ring
    rw [e]
    exact this

/-- After the scan without the fast path no token sequence for a position of the
input is cheaper than the cost that the table holds for it. -/
theorem lzss_scan_lower (g : Globals) (s : ScanState) (hn1 : 1 ≤ g.BIT_OFFSET_NBR_ALLOWED)
    (hn8 : g.BIT_OFFSET_NBR_ALLOWED ≤ 8) (h1 : 1 ≤ g.buf.index_src)
    (h2 : g.buf.index_src ≤ MAX) (hF : g.bFAST = 0) (hs : lzss_scan g = some s) :
    LowerInv g.buf.data_src (g.bRLE ≠ 0) g.BIT_OFFSET_NBR_ALLOWED g.buf.index_src s.parse := by
  unfold lzss_scan at hs
  obtain ⟨p0, hp0, hinv0⟩ := update_optimal_first g.BIT_OFFSET_NBR_ALLOWED
    { g.parse with optimals := init_optimals g.parse.optimals } (fun j r _ => rfl)
  rw [hp0] at hs
  simp only at hs
  rw [hF] at hs
  have hlow0 : LowerInv g.buf.data_src (g.bRLE ≠ 0) g.BIT_OFFSET_NBR_ALLOWED 1 p0 := by
    intro j r c hj0 hj1 hr0 hr1 hp
    have hj : j = 0 := by omega
    subst hj
    rw [(hinv0 r hr0 hr1).1.1]
    rcases scanParse_last _ _ r 0 c hp with ⟨_, e⟩ | ⟨c1, q1, _⟩ | ⟨c1, len, _, q1, _, q3, _⟩ |
      ⟨c1, offset, _, _, _, _, q5, _⟩ | ⟨c1, len, offset, q1, _, _, _, _, _, q7, _⟩
    · omega
    · have := scanParse_nonneg _ _ r _ _ q1
      omega
    · have := scanParse_nonneg _ _ r _ _ q3
      omega
    · have := scanParse_nonneg _ _ r _ _ q5
      omega
    · have := scanParse_nonneg _ _ r _ _ q7
      omega
  have hch0 : ∀ k, ChainFull g.buf.data_src k 1
      (({ parse := p0, matches_ := reset_matches g.matches_, prev_match_index := -1 } :
        ScanState).matches_ k) := by
    intro k
    show ChainFull g.buf.data_src k 1 [-1]
    refine ⟨by simp, List.pairwise_singleton _ _, ?_, ?_⟩
    · intro a ha
      simp only [List.mem_singleton] at ha
      omega
    · intro a ha1 ha2
      omega
  have := scan_loop_lower g.buf.data_src g.BIT_OFFSET_NBR_ALLOWED g.bRLE (by omega) hn8
    (g.buf.index_src - 1).toNat 1
    { parse := p0, matches_ := reset_matches g.matches_, prev_match_index := -1 } s
    (le_refl 1) (by omega) hinv0 hch0 hlow0 hs
  have e : (1 : Int) + ((g.buf.index_src - 1).toNat : Int) = g.buf.index_src := by omega
  rw [e] at this
  exact this

/-! ### Literal runs are recorded only when the option allows them -/

theorem runInv_step (bRLE i len offset r : Int) (p q : Parse) (hlo : offset = 0 → len ≤ 1)
    (h : update_optimal_step i len offset r p = some q) (hp : RunInv bRLE p) : RunInv bRLE q := by
  obtain ⟨_, _, hfr, hcell, _⟩ := update_optimal_step_post i len offset r p q h
  intro j r1 ho hl
  by_cases hc : j ≠ i ∨ r1 ≠ r
  · obtain ⟨_, e2, e3⟩ := hfr j r1 hc
    rw [e2] at ho
    rw [e3] at hl
    exact hp j r1 ho hl
  · have hj : j = i := by
      by_contra hne
      exact hc (Or.inl hne)
    have hr : r1 = r := by
      by_contra hne
      exact hc (Or.inr hne)
    subst hj
    subst hr
    rcases hcell with hs | hz | hst
    · rw [hs.2.1] at ho
      rw [hs.2.2] at hl
      exact hp j r1 ho hl
    · omega
    · obtain ⟨⟨e1, e2, _⟩, _⟩ := hst
      rw [e2] at ho
      rw [e1] at hl
      have := hlo ho
      omega

theorem match_len_loop_run (src : Int → Nat) (bRLE nbr i offset : Int) (ho : 0 < offset) :
    ∀ (f : Nat) (len best : Int) (p : Parse) (x : Int × Parse),
      match_len_loop src nbr i offset f len best p = some x → RunInv bRLE p →
      RunInv bRLE x.2 := by
  intro f
  induction f with
  | zero =>
    intro len best p x h hp
    simp only [match_len_loop, Option.some.injEq] at h
    subst h
    exact hp
  | succ f ih =>
    intro len best p x h hp
    unfold match_len_loop at h
    by_cases g0 : len ≤ MAX_GAMMA
    · simp only [if_pos g0] at h
      by_cases g1 : i - len < 0 ∨ i - len - offset < 0 ∨ i - len ≥ MAX ∨ i - len - offset ≥ MAX
      · simp only [if_pos g1, Option.some.injEq] at h
        subst h
        exact hp
      · simp only [if_neg g1] at h
        cases hx : update_optimal nbr i len offset p with
        | none => rw [hx] at h; exact absurd h (by simp)
        | some p1 =>
          rw [hx] at h
          simp only at h
          have hp1 : RunInv bRLE p1 := update_optimal_at (RunInv bRLE) i len offset
            (fun r a b hab ha => runInv_step bRLE i len offset r a b (fun hc => by omega) hab ha)
            nbr p p1 hx hp
          by_cases g2 : i < offset + len ∨ src (i - len) ≠ src (i - len - offset)
          · simp only [if_pos g2, Option.some.injEq] at h
            subst h
            exact hp1
          · simp only [if_neg g2] at h
            exact ih (len + 1) len p1 x h hp1
    · simp only [if_neg g0, Option.some.injEq] at h
      subst h
      exact hp

theorem match_walk_run (src : Int → Nat) (bRLE nbr bFAST i : Int) :
    ∀ (L : List Int) (best : Int) (p : Parse) (x : List Int × Parse),
      match_walk src nbr bFAST i L best p = some x → RunInv bRLE p → RunInv bRLE x.2 := by
  intro L
  induction L with
  | nil =>
    intro best p x h hp
    simp only [match_walk, Option.some.injEq] at h
    subst h
    exact hp
  | cons a tl ih =>
    intro best p x h hp
    cases tl with
    | nil =>
      simp only [match_walk, Option.some.injEq] at h
      subst h
      exact hp
    | cons b rest =>
      unfold match_walk at h
      simp only at h
      by_cases g1 : i - a > MAX_OFFSET
      · simp only [if_pos g1, Option.some.injEq] at h
        subst h
        exact hp
      · simp only [if_neg g1] at h
        by_cases g2 : i - a ≤ 0 ∨ i - (i - a) < 0
        · simp only [if_pos g2] at h
          cases hx : match_walk src nbr bFAST i (b :: rest) best p with
          | none => rw [hx] at h; exact absurd h (by simp)
          | some y =>
            rw [hx] at h
            simp only [Option.map_some', Option.some.injEq] at h
            subst h
            exact ih best p y hx hp
        · simp only [if_neg g2] at h
          cases hx : match_len_loop src nbr i (i - a) 253 2 best p with
          | none => rw [hx] at h; exact absurd h (by simp)
          | some z =>
            obtain ⟨best1, p1⟩ := z
            rw [hx] at h
            simp only at h
            have hp1 : RunInv bRLE p1 :=
              match_len_loop_run src bRLE nbr i (i - a) (by omega) 253 2 best p (best1, p1) hx hp
            by_cases g3 : bFAST ≠ 0 ∧ best1 > 255
            · simp only [if_pos g3, Option.some.injEq] at h
              subst h
              exact hp1
            · simp only [if_neg g3] at h
              cases hy : match_walk src nbr bFAST i (b :: rest) best1 p1 with
              | none => rw [hy] at h; exact absurd h (by simp)
              | some y =>
                rw [hy] at h
                simp only [Option.map_some', Option.some.injEq] at h
                subst h
                exact ih best1 p1 y hy hp1

theorem scan_step_run (src : Int → Nat) (nbr i : Int) (s t : ScanState) (hi1 : 1 ≤ i)
    (hi2 : i < MAX) (h : scan_step src nbr 0 0 i s = some t) (hp : RunInv 0 s.parse) :
    RunInv 0 t.parse := by
  obtain ⟨p1, p2, p3, e1, e2, e3, hbr⟩ := scan_step_split src nbr 0 0 i s t hi1 hi2 h
  rcases hbr with ⟨⟨_, hF, _⟩, _⟩ | ⟨_, chain, p4, e4, et⟩
  · exact absurd hF (by decide)
  have r1 : RunInv 0 p1 := update_optimal_at (RunInv 0) i 1 0
    (fun r a b hab ha => runInv_step 0 i 1 0 r a b (fun _ => le_refl 1) hab ha) nbr _ p1 e1 hp
  have g : ¬ ((0 : Int) ≠ 0 ∧ i ≥ RAW_MIN) := fun hc => hc.1 rfl
  simp only [if_neg g, Option.some.injEq] at e2
  subst e2
  have r3 : RunInv 0 p3 := len1_loop_at (RunInv 0) i
    (fun k r a b hab ha => runInv_step 0 i 1 k r a b (fun _ => le_refl 1) hab ha) src nbr _ _ p1 p3
    e3 r1
  subst et
  exact match_walk_run src 0 nbr 0 i _ 1 p3 (chain, p4) e4 r3

theorem scan_loop_run (src : Int → Nat) (nbr : Int) :
    ∀ (c : Nat) (i : Int) (s t : ScanState), 1 ≤ i → i + c ≤ MAX →
      scan_loop src nbr 0 0 c i s = some t → RunInv 0 s.parse → RunInv 0 t.parse := by
  intro c
  induction c with
  | zero =>
    intro i s t _ _ h hp
    simp only [scan_loop, Option.some.injEq] at h
    subst h
    exact hp
  | succ c ih =>
    intro i s t hi1 hi2 h hp
    push_cast at hi2
    unfold scan_loop at h
    cases hx : scan_step src nbr 0 0 i s with
    | none => rw [hx] at h; exact absurd h (by simp)
    | some s1 =>
      rw [hx] at h
      simp only at h
      exact ih (i + 1) s1 t (by omega) (by omega) h
        (scan_step_run src nbr i s s1 hi1 (by omega) hx hp)

/-- After the scan without the fast path every literal run in the table is
allowed by the option `bRLE`. -/
theorem lzss_scan_run (g : Globals) (s : ScanState) (h2 : g.buf.index_src ≤ MAX)
    (hF : g.bFAST = 0) (hs : lzss_scan g = some s) : RunInv g.bRLE s.parse := by
  by_cases hR : g.bRLE = 0
  · rw [hR]
    unfold lzss_scan at hs
    cases hx : update_optimal g.BIT_OFFSET_NBR_ALLOWED 0 1 0
        { g.parse with optimals := init_optimals g.parse.optimals } with
    | none => rw [hx] at hs; exact absurd hs (by simp)
    | some p0 =>
      rw [hx] at hs
      simp only at hs
      rw [hR, hF] at hs
      have r0 : RunInv 0 p0 := update_optimal_at (RunInv 0) 0 1 0
        (fun r a b hab ha => runInv_step 0 0 1 0 r a b (fun _ => le_refl 1) hab ha) _ _ p0 hx
        (fun j r _ hl => absurd hl (by show ¬ ((2 : Int) ≤ 0); omega))
      by_cases hn : g.buf.index_src - 1 ≤ 0
      · have e : (g.buf.index_src - 1).toNat = 0 := by omega
        rw [e] at hs
        simp only [scan_loop, Option.some.injEq] at hs
        subst hs
        exact r0
      · exact scan_loop_run g.buf.data_src g.BIT_OFFSET_NBR_ALLOWED _ 1 _ s (le_refl 1)
          (by omega) hs r0
  · exact fun _ _ _ _ => hR

/-- A token sequence for position `j` reads the input only at the positions
`0..j`. -/
theorem scanParse_congr (src1 src2 : Int → Nat) (rle : Prop) (r N : Int)
    (hs : ∀ x, 0 ≤ x → x ≤ N → src1 x = src2 x) :
    ∀ (j c : Int), ScanParse src1 rle r j c → j ≤ N → ScanParse src2 rle r j c := by
  intro j c h
  induction h with
  | first => exact fun _ => ScanParse.first
  | literal i c1 _ ih => exact fun hN => ScanParse.literal i c1 (ih (by omega))
  | run i c1 len hr h1 h2 _ ih =>
    exact fun hN => ScanParse.run i c1 len hr h1 h2 (ih (by omega))
  | ref1 i c1 offset h1 h2 h3 h4 h5 ih =>
    intro hN
    have := scanParse_nonneg _ _ r _ _ h5
    refine ScanParse.ref1 i c1 offset h1 h2 h3 ?_ (ih (by omega))
    rw [← hs (i + 1) (by omega) hN, ← hs (i + 1 - offset) (by omega) (by omega)]
    exact h4
  | ref i c1 len offset h1 h2 h3 h4 h5 h6 h7 ih =>
    intro hN
    have := scanParse_nonneg _ _ r _ _ h7
    refine ScanParse.ref i c1 len offset h1 h2 h3 h4 h5 ?_ (ih (by omega))
    intro k hk0 hk1
    rw [← hs (i + 1 + k) (by omega) (by omega), ← hs (i + 1 + k - offset) (by omega) (by omega)]
    exact h6 k hk0 hk1

/-- The cost that the table holds for a position is the cost of a token sequence
for that position. -/
theorem scanParse_of_table (src : Int → Nat) (bRLE nbr n r : Int) (p : Parse)
    (hr0 : 0 ≤ r) (hr1 : r < nbr) (hinv : ScanInvAll nbr p n) (hreal : RealInv src p)
    (hlegal : LegalInv p) (hoff : OffsetInv p) (hrun : RunInv bRLE p) :
    ∀ (m : Nat) (j : Int), j = (m : Int) → j < n →
      ScanParse src (bRLE ≠ 0) r j ((p.optimals j).bits r) := by
  intro m
  induction m using Nat.strong_induction_on with
  | _ m ih =>
    intro j hj hjn
    obtain ⟨⟨a1, _, _⟩, hcells, _⟩ := hinv r hr0 hr1
    by_cases h0 : j = 0
    · rw [h0, a1]
      exact ScanParse.first
    · obtain ⟨c1, c2, c3, c4, c5, _⟩ := hcells j (by omega) hjn
      have hprev := ih (j - (p.optimals j).len r).toNat (by omega) (j - (p.optimals j).len r)
        (by omega) (by omega)
      obtain ⟨q1, q2⟩ := hreal j r
      have hR : RAW_MAX = 256 := by decide
      have hG : MAX_GAMMA = 254 := by decide
      have hO : MAX_OFFSET0 = 3 := by decide
      rw [c5]
      by_cases ho : (p.optimals j).offset r = 0
      · by_cases hl : (p.optimals j).len r = 1
        · have := ScanParse.literal (j - (p.optimals j).len r) _ hprev
          rw [hl] at this ⊢
          rw [ho]
          rw [show j - 1 + 1 = j by ring] at this
          exact this
        · have := ScanParse.run (j - (p.optimals j).len r) _ ((p.optimals j).len r)
            (hrun j r ho (by omega)) (by omega) (by have := q1 ho; omega) hprev
          rw [show j - (p.optimals j).len r + (p.optimals j).len r = j by ring] at this
          rw [ho]
          exact this
      · have hpos : (p.optimals j).offset r > 0 := by omega
        obtain ⟨t1, t2, t3⟩ := q2 hpos
        by_cases hl : (p.optimals j).len r = 1
        · have := ScanParse.ref1 (j - (p.optimals j).len r) _ ((p.optimals j).offset r)
            (by omega) (by have := t1 hl; omega)
            (by have := (hlegal j r).1 hpos; omega)
            (by
              have e := t3 0 (le_refl 0) (by omega)
              simp only [sub_zero] at e
              rw [hl, show j - 1 + 1 = j by ring]
              exact e) hprev
          rw [hl] at this ⊢
          rw [show j - 1 + 1 = j by ring] at this
          exact this
        · have := ScanParse.ref (j - (p.optimals j).len r) _ ((p.optimals j).len r)
            ((p.optimals j).offset r) (by omega) (by have := c4 hpos; omega) (by omega)
            (by have := t2 (by omega); omega) (hoff j r)
            (by
              intro k hk0 hk1
              have e := t3 ((p.optimals j).len r - 1 - k) (by omega) (by omega)
              rw [show j - ((p.optimals j).len r - 1 - k) =
                j - (p.optimals j).len r + 1 + k by ring] at e
              exact e) hprev
          rw [show j - (p.optimals j).len r + (p.optimals j).len r = j by ring] at this
          exact this

/-- The scan of `lzss_slow` without the fast path: every cost in the table is the
cost of a token sequence for its position, and no token sequence is cheaper. -/
theorem lzss_scan_minimum (g : Globals) (hn1 : 1 ≤ g.BIT_OFFSET_NBR_ALLOWED)
    (hn8 : g.BIT_OFFSET_NBR_ALLOWED ≤ 8) (h1 : 1 ≤ g.buf.index_src)
    (h2 : g.buf.index_src ≤ MAX) (hF : g.bFAST = 0)
    (hb : ∀ x, 1 ≤ x → x < g.buf.index_src → g.buf.data_src x < 256) :
    ∃ s, lzss_scan g = some s ∧
      ∀ i r, 0 ≤ i → i < g.buf.index_src → 0 ≤ r → r < g.BIT_OFFSET_NBR_ALLOWED →
        ScanParse g.buf.data_src (g.bRLE ≠ 0) r i ((s.parse.optimals i).bits r) ∧
        ∀ c, ScanParse g.buf.data_src (g.bRLE ≠ 0) r i c → (s.parse.optimals i).bits r ≤ c := by
  obtain ⟨s, hs, hinv⟩ := lzss_scan_inv g (by omega) h1 h2
  refine ⟨s, hs, ?_⟩
  intro i r hi0 hi1 hr0 hr1
  have hlow := lzss_scan_lower g s hn1 hn8 h1 h2 hF hs
  refine ⟨?_, fun c hc => hlow i r c hi0 hi1 hr0 hr1 hc⟩
  exact scanParse_of_table g.buf.data_src g.bRLE g.BIT_OFFSET_NBR_ALLOWED g.buf.index_src r
    s.parse hr0 hr1 hinv (lzss_scan_real g s (by omega) h1 h2 hb hs) (lzss_scan_legal g s hs)
    (lzss_scan_offset g s hs) (lzss_scan_run g s h2 hF hs) i.toNat i (by omega) hi1

theorem scan_example_41 :
    (lzss_scan (encode_entry [1, 2, 3, 1, 2, 3] 9 0 0 initial)).map
      (fun s => (s.parse.optimals 5).bits 0) = some 41 := by
  set_option maxRecDepth 100000 in decide

/-! ### The claims -/

/-- C1: the round trip does not hold on the code.  For the one-byte input `[0x41]`, with
every option setting and from every state, `encode` returns the three bytes `00 41 00`, and
`decode` of these three bytes returns `-1`: `delzss` tests the byte cursor against the stream
length before it reads the end-marker flag, a bit of a byte that is already loaded. -/
theorem round_trip_single_byte (max_bits rle_enabled fast_mode : Int) (out1 out2 : Int → Nat)
    (g1 g2 : Globals) :
    encode [0x41] max_bits rle_enabled fast_mode out1 g1 = Seen.returned 3 [0x00, 0x41, 0x00] ∧
    decode [0x00, 0x41, 0x00] out2 g2 = Seen.returned (-1) [] :=
  ⟨encode_single_41 max_bits rle_enabled fast_mode out1 g1, decode_00_41_00 out2 g2⟩

/-- C2, as stated, fails: `encode` of `[0x41]` does not return the bytes `20 80 00`. -/
theorem encode_single_not_20_80_00 :
    encode [0x41] 16 1 0 (fun _ => 0) initial ≠ Seen.returned 3 [0x20, 0x80, 0x00] := by
  rw [encode_single_41]
  decide

/-- C2, amended: for the one-byte input `[0x41]`, every option setting and every state,
`encode` returns exactly the three bytes `00 41 00`: the selector bit opens a byte of bits,
the data byte follows as a whole byte, and the nine bits of the end marker fill the byte of
bits and open one more. -/
theorem encode_single_is_00_41_00 (max_bits rle_enabled fast_mode : Int) (out : Int → Nat)
    (g : Globals) :
    encode [0x41] max_bits rle_enabled fast_mode out g = Seen.returned 3 [0x00, 0x41, 0x00] :=
  encode_single_41 max_bits rle_enabled fast_mode out g

/-- C3: for every option setting, `dan3_encode` of the empty input returns 0 and leaves the
output buffer as it was, and `dan3_decode` of the empty stream returns 0 in the same way. -/
theorem empty_input_returns_zero (max_bits rle_enabled fast_mode : Int) (output_buf : Int → Nat)
    (g : Globals) :
    (∃ g1, dan3_encode [] output_buf (set_dan3_options max_bits rle_enabled fast_mode g)
        = some (0, output_buf, g1)) ∧
    encode [] max_bits rle_enabled fast_mode output_buf g = Seen.returned 0 [] ∧
    (∃ g1, dan3_decode [] output_buf g = some (Outcome.ret 0 (output_buf, g1))) ∧
    decode [] output_buf g = Seen.returned 0 [] := by
  refine ⟨?_, ?_, ?_, ?_⟩
  · simp [dan3_encode, lzss_slow, load_src, MAX, memcpy_zero]
  · simp [encode, dan3_encode, lzss_slow, load_src, MAX, memcpy_zero, bytesOf_zero]
  · simp [dan3_decode, delzss, load_src, MAX, memcpy_zero]
  · exact decode_nil output_buf g

/-- C4: for an input longer than `MAX`, `dan3_encode` and `dan3_decode` return `-1` and
leave the output buffer and every global (source and destination buffers, bit cursor) as
they were. -/
theorem input_too_large (input_buf : List Nat) (output_buf : Int → Nat) (g : Globals)
    (h : MAX < (input_buf.length : Int)) :
    dan3_encode input_buf output_buf g = some (-1, output_buf, g) ∧
    dan3_decode input_buf output_buf g = some (Outcome.ret (-1) (output_buf, g)) := by
  constructor
  · simp [dan3_encode, h]
  · simp [dan3_decode, h]

theorem len_big : MAX < ((List.replicate 1048577 0).length : Int) := by
  rw [List.length_replicate]; decide

/-- C4 at an input of `MAX + 1` bytes. -/
theorem input_too_large_witness :
    MAX < ((List.replicate 1048577 0).length : Int) ∧
    dan3_encode (List.replicate 1048577 0) (fun _ => 0) initial
      = some (-1, fun _ => 0, initial) ∧
    dan3_decode (List.replicate 1048577 0) (fun _ => 0) initial
      = some (Outcome.ret (-1) (fun _ => 0, initial)) :=
  ⟨len_big, input_too_large (List.replicate 1048577 0) (fun _ => 0) initial len_big⟩

/-- C5, as stated, fails: of the stream `00 41 00` that `encode` returns for `[0x41]`, the
proper prefix `00 41` decodes to length 1 with the byte `0x41`, and the empty prefix
decodes to length 0. -/
theorem truncated_stream_accepted :
    encode [0x41] 16 1 0 (fun _ => 0) initial = Seen.returned 3 [0x00, 0x41, 0x00] ∧
    [0x00, 0x41] <+: [0x00, 0x41, 0x00] ∧ [0x00, 0x41] ≠ [0x00, 0x41, 0x00] ∧
    decode [0x00, 0x41] (fun _ => 0) initial = Seen.returned 1 [0x41] ∧
    ([] : List Nat) <+: [0x00, 0x41, 0x00] ∧
    decode [] (fun _ => 0) initial = Seen.returned 0 [] :=
  ⟨encode_single_41 16 1 0 (fun _ => 0) initial, by decide, by decide,
    decode_00_41 (fun _ => 0) initial, by decide, decode_nil (fun _ => 0) initial⟩

/-- C5, amended: for every input of bytes, every option setting and every prefix
`p` (proper or not) of the stream that `encode` returns, `decode` of `p` calls
`abort()`, returns `-1`, or returns a length `m` of at most the length of the
input together with exactly the first `m` bytes of the input; the empty prefix
gives length 0 and a prefix of one byte gives `-1`. -/
theorem truncated_stream_safe (src : List Nat) (max_bits rle_enabled fast_mode : Int)
    (out1 out2 : Int → Nat) (g1 g2 : Globals) (v : Int) (stream p : List Nat)
    (hb : ∀ x ∈ src, x < 256)
    (he : encode src max_bits rle_enabled fast_mode out1 g1 = Seen.returned v stream)
    (hp : p <+: stream) :
    (decode p out2 g2 = Seen.aborted ∨ decode p out2 g2 = Seen.returned (-1) [] ∨
      ∃ m : Nat, m ≤ src.length ∧ decode p out2 g2 = Seen.returned (m : Int) (src.take m)) ∧
    (p = [] → decode p out2 g2 = Seen.returned 0 []) ∧
    (p.length = 1 → decode p out2 g2 = Seen.returned (-1) []) := by
  refine ⟨?_, fun h => by rw [h]; exact decode_nil out2 g2, fun h => ?_⟩
  swap
  · match p, h with
    | [x], _ => exact decode_one_byte x out2 g2
  by_cases hpe : p = []
  · right
    right
    refine ⟨0, Nat.zero_le _, ?_⟩
    rw [hpe]
    exact decode_nil out2 g2
  have hsne : stream ≠ [] := by
    intro hc
    rw [hc] at hp
    exact hpe (List.prefix_nil.mp hp)
  have hne : src ≠ [] := by
    intro hc
    rw [hc, encode_nil] at he
    exact hsne (Seen.returned.inj he).2.symm
  have hmax : (src.length : Int) ≤ MAX := by
    by_contra hcon
    have hgt : (src.length : Int) > MAX := by omega
    unfold encode at he
    simp only [dan3_encode, if_pos hgt] at he
    obtain ⟨e1, e2⟩ := Seen.returned.inj he
    exact hsne (by rw [← e2]; exact bytesOf_neg _)
  have hlen : 1 ≤ (src.length : Int) := by
    cases src with
    | nil => exact absurd rfl hne
    | cons a l => simp only [List.length_cons]; push_cast; omega
  obtain ⟨hn1, hn8⟩ := options_nbr max_bits rle_enabled fast_mode g1
  obtain ⟨s, hs, hinv, ⟨hc0, hc1⟩, hsel, _, hw, _⟩ := lzss_slow_spec
    (encode_entry src max_bits rle_enabled fast_mode g1) hn1 hn8 hlen hmax
  have hr7 : chosen_subset (encode_entry src max_bits rle_enabled fast_mode g1) s ≤ 7 := by
    have h3 : chosen_subset (encode_entry src max_bits rle_enabled fast_mode g1) s <
        (set_dan3_options max_bits rle_enabled fast_mode g1).BIT_OFFSET_NBR_ALLOWED := hc1
    omega
  have hrn : (chosen_subset (encode_entry src max_bits rle_enabled fast_mode g1) s + 1).toNat =
      (chosen_subset (encode_entry src max_bits rle_enabled fast_mode g1) s).toNat + 1 := by
    omega
  have hslow := lzss_slow_eq _ s hs hlen hsel
  rw [hw, hrn] at hslow
  unfold encode at he
  rw [dan3_encode_eq src max_bits rle_enabled fast_mode out1 g1 hmax, hslow] at he
  cases hrun : runOps (bits_ops 254
        ((chosen_subset (encode_entry src max_bits rle_enabled fast_mode g1) s).toNat + 1) ++
      (WOp.byte ((encode_entry src max_bits rle_enabled fast_mode g1).buf.data_src 0) ::
        emitted_tokens (encode_entry src max_bits rle_enabled fast_mode g1) s) ++ end_ops)
      { (encode_entry src max_bits rle_enabled fast_mode g1).buf with
        index_dest := 0, bit_mask := 0, bit_index := 0 } with
  | none =>
    rw [hrun] at he
    simp at he
  | some b3 =>
    rw [hrun] at he
    simp only [Option.map_some', Option.some_bind] at he
    have hge : b3.index_dest ≥ 0 := by
      have := runOps_index_mono _ _ b3 hrun
      exact this
    simp only [if_pos hge] at he
    by_cases hM : b3.index_dest > MAX
    · simp only [if_pos hM] at he
      obtain ⟨e1, e2⟩ := Seen.returned.inj he
      exact absurd (by rw [← e2]; exact bytesOf_neg _) hsne
    · simp only [if_neg hM] at he
      obtain ⟨ev, eb⟩ := Seen.returned.inj he
      rw [bytesOf_memcpy] at eb
      have hsl : (stream.length : Int) = b3.index_dest := by
        rw [← eb]
        simp only [bytesOf, List.length_map, List.length_range]
        omega
      have hpl : p.length ≤ stream.length := hp.length_le
      have hbytes : ∀ x, 0 ≤ x → x < (src.length : Int) →
          (encode_entry src max_bits rle_enabled fast_mode g1).buf.data_src x < 256 :=
        fun x h0 h1 => entry_data_lt src max_bits rle_enabled fast_mode g1 hb x h0 h1
      have hdz := delzss_truncated
        (encode_entry src max_bits rle_enabled fast_mode g1).buf.data_src
        (chosen_subset (encode_entry src max_bits rle_enabled fast_mode g1) s)
        (trimmed (encode_entry src max_bits rle_enabled fast_mode g1) s)
        (src.length : Int) hlen _ b3 (load_src p g2.buf) hc0 hr7 rfl
        (fun i hi1 hi2 hl => trimmed_cell_dec
          (encode_entry src max_bits rle_enabled fast_mode g1) s hn1 hlen hmax
          (fun x hx1 hx2 => hbytes x (by omega) hx2) hs hinv hc0 hc1 i hi1 hi2 hl)
        hbytes (trimmed_tiled (encode_entry src max_bits rle_enabled fast_mode g1) s hlen hmax
          hinv hc0 hc1 hr7) rfl rfl hrun (p.length : Int) (by omega) rfl
        (by
          intro x h0 h1
          show memcpy _ (bufferOf p) (p.length : Int) x = _
          simp only [memcpy, if_pos (And.intro h0 h1), bufferOf]
          have hx : x.toNat < p.length := by omega
          rw [List.getD_eq_getElem _ _ hx, hp.getElem hx, ← List.getD_eq_getElem _ 0 (by omega)]
          rw [← eb]
          have := bytesOf_getD b3.data_dest b3.index_dest x.toNat (by omega)
          rw [this]
          congr 1
          omega)
      have hsM : ¬ ((p.length : Int) > MAX) := by omega
      unfold decode dan3_decode
      simp only [if_neg hsM]
      cases hd : delzss (load_src p g2.buf) with
      | none => left; rfl
      | some o =>
        right
        rcases hdz o hd with ⟨Rf, ho⟩ | ⟨m, Rf, ho, hm0, hm1, hout⟩
        · left
          subst ho
          simp [bytesOf_neg]
        · right
          subst ho
          have hm0' : m ≥ 0 := hm0
          have hnM : ¬ (m > MAX) := by omega
          refine ⟨m.toNat, by omega, ?_⟩
          simp only [if_pos hm0', if_neg hnM, bytesOf_memcpy]
          have em : ((m.toNat : Nat) : Int) = m := Int.toNat_of_nonneg hm0
          rw [em]
          congr 1
          rw [← em]
          apply bytesOf_take _ src m.toNat (by omega)
          intro x hx0 hx1
          rw [hout x hx0 (by omega)]
          exact entry_data_eq src max_bits rle_enabled fast_mode g1 x hx0 (by omega)

/-- C5, amended, at the input `41 42`, whose stream is `40 41 42 00`.  The prefix
`40 41` ends between the first byte and the literal: `decode` returns length 1
with the first byte of the input.  The prefix `40` is rejected with `-1`. -/
theorem truncated_stream_safe_example :
    (∀ x ∈ ([0x41, 0x42] : List Nat), x < 256) ∧
    encode [0x41, 0x42] 9 0 0 (fun _ => 0) initial = Seen.returned 4 [0x40, 0x41, 0x42, 0x00] ∧
    ([0x40, 0x41] : List Nat) <+: [0x40, 0x41, 0x42, 0x00] ∧
    decode [0x40, 0x41] (fun _ => 0) initial = Seen.returned 1 [0x41] ∧
    (decode [0x40, 0x41] (fun _ => 0) initial = Seen.aborted ∨
      decode [0x40, 0x41] (fun _ => 0) initial = Seen.returned (-1) [] ∨
      ∃ m : Nat, m ≤ ([0x41, 0x42] : List Nat).length ∧
        decode [0x40, 0x41] (fun _ => 0) initial =
          Seen.returned (m : Int) (([0x41, 0x42] : List Nat).take m)) ∧
    ([0x40] : List Nat) <+: [0x40, 0x41, 0x42, 0x00] ∧
    decode [0x40] (fun _ => 0) initial = Seen.returned (-1) [] :=
  ⟨by decide, encode_41_42 (fun _ => 0) initial, by decide, decode_40_41,
    (truncated_stream_safe [0x41, 0x42] 9 0 0 (fun _ => 0) (fun _ => 0) initial initial 4
      [0x40, 0x41, 0x42, 0x00] [0x40, 0x41] (by decide) (encode_41_42 (fun _ => 0) initial)
      (by decide)).1, by decide,
    (truncated_stream_safe [0x41, 0x42] 9 0 0 (fun _ => 0) (fun _ => 0) initial initial 4
      [0x40, 0x41, 0x42, 0x00] [0x40] (by decide) (encode_41_42 (fun _ => 0) initial)
      (by decide)).2.2 rfl⟩

set_option maxRecDepth 100000 in
/-- C6 does not hold on the code: the stream `FF 00 41` begins with eight one-bits, and
`decode` returns length 1 with the byte `0x41`.  The selector loop of `delzss` tests
`subset > BIT_OFFSET_NBR`, so a selector of eight one-bits passes. -/
theorem eight_one_bits_accepted :
    decode [0xFF, 0x00, 0x41] (fun _ => 0) initial = Seen.returned 1 [0x41] := by
  decide

/-- C7 does not hold on the code: `encode` of `[0x41]` returns `00 41 00`; `decode` of this
stream returns `-1`, and `decode` of the stream followed by one more byte returns length 1
with the byte `0x41`. -/
theorem trailing_byte_changes_result (max_bits rle_enabled fast_mode : Int)
    (out1 out2 out3 : Int → Nat) (g1 g2 g3 : Globals) :
    encode [0x41] max_bits rle_enabled fast_mode out1 g1 = Seen.returned 3 [0x00, 0x41, 0x00] ∧
    decode [0x00, 0x41, 0x00] out2 g2 = Seen.returned (-1) [] ∧
    decode ([0x00, 0x41, 0x00] ++ [0x00]) out3 g3 = Seen.returned 1 [0x41] :=
  ⟨encode_single_41 max_bits rle_enabled fast_mode out1 g1, decode_00_41_00 out2 g2,
    decode_00_41_00_00 out3 g3⟩

/-- C8, as stated, fails: for the input `far_src` of 2559 bytes, without literal
runs and without the fast path, `encode` returns 2880 bytes with `max_bits = 9`
and 2881 bytes with `max_bits = 12`. -/
theorem wider_offsets_larger_output :
    (∃ bytes, encode far_src 9 0 0 (fun _ => 0) initial = Seen.returned 2880 bytes) ∧
    (∃ bytes, encode far_src 12 0 0 (fun _ => 0) initial = Seen.returned 2881 bytes) :=
  ⟨far_encode_9 (fun _ => 0) initial, far_encode_12 (fun _ => 0) initial⟩

/-- C8, amended: for every non-empty input of at most `MAX` bytes, every setting of
`rle_enabled` and `fast_mode` and every pair `a ≤ b` of `max_bits`, both scans end
without abort, and the first byte with the tokens that `write_lz` emits with
`max_bits = b` take at most as many bits as with `max_bits = a`; these are the
costs `bits[n-1][subset]` of the selected subsets.  The bits of the selector are
not part of this count. -/
theorem wider_offsets_parse_bits (src : List Nat) (a b rle_enabled fast_mode : Int)
    (g : Globals) (hne : src ≠ []) (hmax : (src.length : Int) ≤ MAX) (hab : a ≤ b) :
    ∃ sa sb, lzss_scan (encode_entry src a rle_enabled fast_mode g) = some sa ∧
      lzss_scan (encode_entry src b rle_enabled fast_mode g) = some sb ∧
      opsBits (WOp.byte ((encode_entry src b rle_enabled fast_mode g).buf.data_src 0) ::
          emitted_tokens (encode_entry src b rle_enabled fast_mode g) sb) ≤
        opsBits (WOp.byte ((encode_entry src a rle_enabled fast_mode g).buf.data_src 0) ::
          emitted_tokens (encode_entry src a rle_enabled fast_mode g) sa) ∧
      (sb.parse.optimals ((src.length : Int) - 1)).bits
          (chosen_subset (encode_entry src b rle_enabled fast_mode g) sb) ≤
        (sa.parse.optimals ((src.length : Int) - 1)).bits
          (chosen_subset (encode_entry src a rle_enabled fast_mode g) sa) := by
  have hlen : 1 ≤ (src.length : Int) := by
    cases src with
    | nil => exact absurd rfl hne
    | cons x l => simp only [List.length_cons]; push_cast; omega
  obtain ⟨ha1, ha8⟩ := options_nbr a rle_enabled fast_mode g
  obtain ⟨hb1, hb8⟩ := options_nbr b rle_enabled fast_mode g
  obtain ⟨sa, hsa, _, ⟨hca0, hca1⟩, hsela, hvala, _, hcosta⟩ := lzss_slow_spec
    (encode_entry src a rle_enabled fast_mode g) ha1 ha8 hlen hmax
  obtain ⟨sb, hsb, _, _, _, hvalb, _, hcostb⟩ := lzss_slow_spec
    (encode_entry src b rle_enabled fast_mode g) hb1 hb8 hlen hmax
  have hmono := options_nbr_mono a b rle_enabled fast_mode g g hab
  have hcols := lzss_scan_cross (encode_entry src a rle_enabled fast_mode g)
    (encode_entry src b rle_enabled fast_mode g) rfl rfl rfl rfl hmono ha1 sa sb hsb hsa
  have hidxa : (encode_entry src a rle_enabled fast_mode g).buf.index_src = (src.length : Int) :=
    rfl
  have hidxb : (encode_entry src b rle_enabled fast_mode g).buf.index_src = (src.length : Int) :=
    rfl
  rw [hidxa] at hcosta hvala hsela
  rw [hidxb] at hcostb hvalb
  have hcell := (hcols (chosen_subset (encode_entry src a rle_enabled fast_mode g) sa) hca0 hca1
    ((src.length : Int) - 1)).1
  have hmin := (select_loop_min (sb.parse.optimals ((src.length : Int) - 1))
    (encode_entry src b rle_enabled fast_mode g).BIT_OFFSET_NBR_ALLOWED.toNat 0
    ((sb.parse.optimals ((src.length : Int) - 1)).bits 0, 0)).2
    (chosen_subset (encode_entry src a rle_enabled fast_mode g) sa) hca0
    (by
      have h3 : chosen_subset (encode_entry src a rle_enabled fast_mode g) sa <
          (set_dan3_options a rle_enabled fast_mode g).BIT_OFFSET_NBR_ALLOWED := hca1
      have h4 : ((encode_entry src b rle_enabled fast_mode g).BIT_OFFSET_NBR_ALLOWED.toNat : Int) =
          (set_dan3_options b rle_enabled fast_mode g).BIT_OFFSET_NBR_ALLOWED := by
        show (((set_dan3_options b rle_enabled fast_mode g).BIT_OFFSET_NBR_ALLOWED.toNat : Nat) :
          Int) = _
        omega
      rw [h4]
      omega)
    (by rw [← hcell, ← hvala]; exact hsela)
  have hfin : (sb.parse.optimals ((src.length : Int) - 1)).bits
      (chosen_subset (encode_entry src b rle_enabled fast_mode g) sb) ≤
      (sa.parse.optimals ((src.length : Int) - 1)).bits
        (chosen_subset (encode_entry src a rle_enabled fast_mode g) sa) := by
    rw [← hvalb, hcell]
    exact hmin
  refine ⟨sa, sb, hsa, hsb, ?_, hfin⟩
  rw [hcosta, hcostb]
  exact hfin

/-- C8, amended, at the input `far_src` with `max_bits` 9 and 12: with 9 bits the
scan selects subset 0, whose parse takes 23030 bits, with 12 bits it selects
subset 3, whose parse takes 23029 bits. -/
theorem wider_offsets_parse_bits_far_src :
    far_src ≠ [] ∧ (far_src.length : Int) ≤ MAX ∧ (9 : Int) ≤ 12 ∧
    ∃ sa sb, lzss_scan (encode_entry far_src 9 0 0 initial) = some sa ∧
      lzss_scan (encode_entry far_src 12 0 0 initial) = some sb ∧
      chosen_subset (encode_entry far_src 9 0 0 initial) sa = 0 ∧
      chosen_subset (encode_entry far_src 12 0 0 initial) sb = 3 ∧
      (sa.parse.optimals 2558).bits 0 = 23030 ∧ (sb.parse.optimals 2558).bits 3 = 23029 ∧
      opsBits (WOp.byte ((encode_entry far_src 12 0 0 initial).buf.data_src 0) ::
          emitted_tokens (encode_entry far_src 12 0 0 initial) sb) ≤
        opsBits (WOp.byte ((encode_entry far_src 9 0 0 initial).buf.data_src 0) ::
          emitted_tokens (encode_entry far_src 9 0 0 initial) sa) ∧
      (sb.parse.optimals ((far_src.length : Int) - 1)).bits
          (chosen_subset (encode_entry far_src 12 0 0 initial) sb) ≤
        (sa.parse.optimals ((far_src.length : Int) - 1)).bits
          (chosen_subset (encode_entry far_src 9 0 0 initial) sa) := by
  refine ⟨far_src_ne, far_src_le, by decide, ?_⟩
  obtain ⟨sa, sb, ha, hb, h1, h2⟩ := wider_offsets_parse_bits far_src 9 12 0 0 initial far_src_ne
    far_src_le (by decide)
  obtain ⟨s9, e9, b9⟩ := far_scan 9 initial
  obtain ⟨s12, e12, b12⟩ := far_scan 12 initial
  rw [ha] at e9
  rw [hb] at e12
  have q9 : sa = s9 := Option.some.inj e9
  have q12 : sb = s12 := Option.some.inj e12
  subst q9 q12
  have n9 : (encode_entry far_src 9 0 0 initial).BIT_OFFSET_NBR_ALLOWED = 1 := rfl
  have n12 : (encode_entry far_src 12 0 0 initial).BIT_OFFSET_NBR_ALLOWED = 4 := rfl
  rw [n9] at b9
  rw [n12] at b12
  have a0 := b9 0 (by omega) (by omega)
  have c0 := b12 0 (by omega) (by omega)
  have c1 := b12 1 (by omega) (by omega)
  have c2 := b12 2 (by omega) (by omega)
  have c3 := b12 3 (by omega) (by omega)
  norm_num at a0 c0 c1 c2 c3
  exact ⟨sa, sb, ha, hb, far_chosen_9 initial sa a0, far_chosen_12 initial sb c0 c1 c2 c3,
    a0, c3, h1, h2⟩

/-- C9: the result of `encode` (the returned length with the returned bytes, or the abort)
is the same from any two states of the globals and any two output buffers. -/
theorem encode_deterministic (src : List Nat) (max_bits rle_enabled fast_mode : Int)
    (out1 out2 : Int → Nat) (g1 g2 : Globals) :
    encode src max_bits rle_enabled fast_mode out1 g1 =
      encode src max_bits rle_enabled fast_mode out2 g2 :=
  encode_indep src max_bits rle_enabled fast_mode out1 out2 g1 g2

/-- C10: for every non-empty input of at most `MAX` bytes, every option setting (so also
with `fast_mode = 0`) and every state, the scan of `lzss_slow` ends without abort, `lzss_slow`
then runs `write_lz` for the selected subset on the trimmed table, `write_lz` makes the
writes of the selector, the first byte, the tokens and the end marker in this order, and the
first byte with the tokens, at 8 bits for a `write_byte` and 1 bit for a `write_bit`, add up
to `bits[n-1][subset]` as the scan computed it. -/
theorem emitted_bits_eq_parser_bits (src : List Nat) (max_bits rle_enabled fast_mode : Int)
    (g : Globals) (hne : src ≠ []) (hmax : (src.length : Int) ≤ MAX) :
    ∃ s, lzss_scan (encode_entry src max_bits rle_enabled fast_mode g) = some s ∧
      lzss_slow (encode_entry src max_bits rle_enabled fast_mode g) =
        (write_lz (chosen_subset (encode_entry src max_bits rle_enabled fast_mode g) s)
          (trimmed (encode_entry src max_bits rle_enabled fast_mode g) s)
          (encode_entry src max_bits rle_enabled fast_mode g).buf).map
          (fun rb => (rb.1, { encode_entry src max_bits rle_enabled fast_mode g with
            parse := trimmed (encode_entry src max_bits rle_enabled fast_mode g) s,
            matches_ := s.matches_, buf := rb.2 })) ∧
      write_lz (chosen_subset (encode_entry src max_bits rle_enabled fast_mode g) s)
          (trimmed (encode_entry src max_bits rle_enabled fast_mode g) s)
          (encode_entry src max_bits rle_enabled fast_mode g).buf =
        (runOps (bits_ops 254
              (chosen_subset (encode_entry src max_bits rle_enabled fast_mode g) s + 1).toNat ++
            (WOp.byte ((encode_entry src max_bits rle_enabled fast_mode g).buf.data_src 0) ::
              emitted_tokens (encode_entry src max_bits rle_enabled fast_mode g) s) ++ end_ops)
          { (encode_entry src max_bits rle_enabled fast_mode g).buf with
            index_dest := 0, bit_mask := 0, bit_index := 0 }).map
          (fun b3 => (b3.index_dest, b3)) ∧
      opsBits (WOp.byte ((encode_entry src max_bits rle_enabled fast_mode g).buf.data_src 0) ::
          emitted_tokens (encode_entry src max_bits rle_enabled fast_mode g) s) =
        (s.parse.optimals ((src.length : Int) - 1)).bits
          (chosen_subset (encode_entry src max_bits rle_enabled fast_mode g) s) := by
  obtain ⟨hn1, hn8⟩ := options_nbr max_bits rle_enabled fast_mode g
  have hlen : 1 ≤ (src.length : Int) := by
    cases src with
    | nil => exact absurd rfl hne
    | cons a l => simp only [List.length_cons]; push_cast; omega
  obtain ⟨s, hs, _, _, hsel, _, hw, hc⟩ := lzss_slow_spec
    (encode_entry src max_bits rle_enabled fast_mode g) hn1 hn8 hlen hmax
  exact ⟨s, hs, lzss_slow_eq _ s hs hlen hsel, hw, hc⟩

/-- C10 at the input `9 1 2 3 1 2 3` with `max_bits = 9`, without literal runs and
fast path: the scan prices the last position at 47 bits (the first byte, three
literals and a match of 3 bytes at distance 3), and the first byte with the tokens
that `write_lz` emits take 47 bits. -/
theorem emitted_bits_eq_parser_bits_example :
    ([9, 1, 2, 3, 1, 2, 3] : List Nat) ≠ [] ∧
    (([9, 1, 2, 3, 1, 2, 3] : List Nat).length : Int) ≤ MAX ∧
    ∃ s, lzss_scan (encode_entry [9, 1, 2, 3, 1, 2, 3] 9 0 0 initial) = some s ∧
      chosen_subset (encode_entry [9, 1, 2, 3, 1, 2, 3] 9 0 0 initial) s = 0 ∧
      (s.parse.optimals 6).bits 0 = 47 ∧ (s.parse.optimals 6).len 0 = 3 ∧
      (s.parse.optimals 6).offset 0 = 3 ∧
      opsBits (WOp.byte ((encode_entry [9, 1, 2, 3, 1, 2, 3] 9 0 0 initial).buf.data_src 0) ::
          emitted_tokens (encode_entry [9, 1, 2, 3, 1, 2, 3] 9 0 0 initial) s) = 47 := by
  refine ⟨by decide, by decide, ?_⟩
  obtain ⟨s, hs, _, _, hc⟩ := emitted_bits_eq_parser_bits [9, 1, 2, 3, 1, 2, 3] 9 0 0 initial
    (by decide) (by decide)
  have hd := scan_match_example
  rw [hs] at hd
  simp only [Option.map_some', Option.some.injEq, Prod.mk.injEq] at hd
  have h0 := chosen_subset_one (encode_entry [9, 1, 2, 3, 1, 2, 3] 9 0 0 initial) s rfl
  rw [h0] at hc
  have e6 : ((([9, 1, 2, 3, 1, 2, 3] : List Nat).length : Int) - 1) = 6 := by decide
  rw [e6, hd.1] at hc
  exact ⟨s, hs, h0, hd.1, hd.2.1, hd.2.2.1, hc⟩

/-- C11, counterexample: on the input `01 02 03 01 02 03` the scan leaves
`bits[5][0] = 41` (the raw first byte, two literals and three length-1
back-references), although the
tokens raw byte, literal, literal, back-reference of length 3 at distance 3 have
the total cost 38 and reproduce the input: the stream `64 01 02 03 84 00 00`
made of them decodes to the six bytes.  The loop over the match lengths leaves
with `break` when `i - len - offset < 0`, before `update_optimal`, so a match
whose source starts at position 0 is never entered in the table. -/
theorem scan_misses_match_at_start :
    (lzss_scan (encode_entry [1, 2, 3, 1, 2, 3] 9 0 0 initial)).map
        (fun s => (s.parse.optimals 5).bits 0) = some 41 ∧
    SpecParse (bufferOf [1, 2, 3, 1, 2, 3]) False 0 5 38 ∧
    decode [0x64, 0x01, 0x02, 0x03, 0x84, 0x00, 0x00] (fun _ => 0) initial =
      Seen.returned 6 [1, 2, 3, 1, 2, 3] := by
  refine ⟨by decide, ?_, by decide⟩
  have p0 : SpecParse (bufferOf [1, 2, 3, 1, 2, 3]) False 0 0 8 := SpecParse.first
  have p1 := SpecParse.literal 0 8 p0
  have p2 := SpecParse.literal _ _ p1
  have p3 := SpecParse.ref _ _ 3 3 (by decide) (by decide) (by decide) (by decide) (by decide)
    (by
      intro k hk0 hk1
      have hk : k = 0 ∨ k = 1 ∨ k = 2 := by omega
      rcases hk with rfl | rfl | rfl <;> rfl) p2
  exact p3

/-- C11, amended: with `fast = 0`, for every non-empty input of at most `MAX`
bytes (each below 256), every `maxOffsetBits` and `rle` setting, the scan succeeds
and for every position `i < n` and every allowed regime `r` the cost `bits[i][r]`
is the cost of a token sequence of `ScanParse` for `src[0..=i]` and no such
sequence costs less: the raw first byte (8 bits), literals, literal runs of 2 to
256 bytes when `rle` is on, back-references of length 1 at a distance of 1 to 3,
and back-references of length 2 to 254 at a distance of at most `MAX_OFFSET3(r)`
that may overlap the bytes they produce and whose source starts at position 1 or
later (`i - len - offset >= 0` for a token that ends at `i`). -/
theorem scan_cost_is_minimum (src : List Nat) (max_bits rle_enabled : Int) (g : Globals)
    (hne : src ≠ []) (hmax : (src.length : Int) ≤ MAX) (hb : ∀ x ∈ src, x < 256) :
    ∃ s, lzss_scan (encode_entry src max_bits rle_enabled 0 g) = some s ∧
      ∀ i r, 0 ≤ i → i < (src.length : Int) → 0 ≤ r →
        r < (encode_entry src max_bits rle_enabled 0 g).BIT_OFFSET_NBR_ALLOWED →
        ScanParse (bufferOf src) (rle_enabled ≠ 0) r i ((s.parse.optimals i).bits r) ∧
        ∀ c, ScanParse (bufferOf src) (rle_enabled ≠ 0) r i c →
          (s.parse.optimals i).bits r ≤ c := by
  have hlen : 1 ≤ (src.length : Int) := by
    cases src with
    | nil => exact absurd rfl hne
    | cons a l => simp only [List.length_cons]; push_cast; omega
  obtain ⟨hn1, hn8⟩ := options_nbr max_bits rle_enabled 0 g
  have hidx : (encode_entry src max_bits rle_enabled 0 g).buf.index_src =
      (src.length : Int) := rfl
  obtain ⟨s, hs, h⟩ := lzss_scan_minimum (encode_entry src max_bits rle_enabled 0 g) hn1 hn8
    hlen hmax rfl
    (fun x hx0 hx1 => entry_data_lt src max_bits rle_enabled 0 g hb x (by omega)
      (by rw [hidx] at hx1; exact hx1))
  refine ⟨s, hs, ?_⟩
  intro i r hi0 hi1 hr0 hr1
  obtain ⟨ha, hm⟩ := h i r hi0 (by rw [hidx]; exact hi1) hr0 hr1
  have hsame : ∀ x, 0 ≤ x → x ≤ i →
      (encode_entry src max_bits rle_enabled 0 g).buf.data_src x = bufferOf src x :=
    fun x hx0 hx1 => entry_data_eq src max_bits rle_enabled 0 g x hx0 (by omega)
  refine ⟨scanParse_congr _ _ _ r i hsame i _ ha (le_refl i), ?_⟩
  intro c hc
  exact hm c (scanParse_congr _ _ _ r i (fun x hx0 hx1 => (hsame x hx0 hx1).symm) i c hc
    (le_refl i))

/-- C11, amended, at two inputs with `maxOffsetBits = 9` and `rle` off.  On
`09 01 02 03 01 02 03` the cost 47 of position 6 (raw byte, three literals, a
back-reference of length 3 at distance 3) is the cost of a token sequence and
the least one.  On `01 02 03 01 02 03` the cost 41 of position 5 is the least
one: the back-reference of length 3 at distance 3 would start at position 0. -/
theorem scan_cost_is_minimum_example :
    (([9, 1, 2, 3, 1, 2, 3] : List Nat) ≠ [] ∧
      (([9, 1, 2, 3, 1, 2, 3] : List Nat).length : Int) ≤ MAX ∧
      (∀ x ∈ ([9, 1, 2, 3, 1, 2, 3] : List Nat), x < 256) ∧
      ScanParse (bufferOf [9, 1, 2, 3, 1, 2, 3]) ((0 : Int) ≠ 0) 0 6 47 ∧
      ∀ c, ScanParse (bufferOf [9, 1, 2, 3, 1, 2, 3]) ((0 : Int) ≠ 0) 0 6 c → 47 ≤ c) ∧
    (([1, 2, 3, 1, 2, 3] : List Nat) ≠ [] ∧
      (([1, 2, 3, 1, 2, 3] : List Nat).length : Int) ≤ MAX ∧
      (∀ x ∈ ([1, 2, 3, 1, 2, 3] : List Nat), x < 256) ∧
      ScanParse (bufferOf [1, 2, 3, 1, 2, 3]) ((0 : Int) ≠ 0) 0 5 41 ∧
      ∀ c, ScanParse (bufferOf [1, 2, 3, 1, 2, 3]) ((0 : Int) ≠ 0) 0 5 c → 41 ≤ c) := by
  constructor
  · refine ⟨by decide, by decide, by decide, ?_⟩
    obtain ⟨s, hs, h⟩ := scan_cost_is_minimum [9, 1, 2, 3, 1, 2, 3] 9 0 initial (by decide)
      (by decide) (by decide)
    have hv := scan_match_example
    rw [hs] at hv
    simp only [Option.map_some', Option.some.injEq, Prod.mk.injEq] at hv
    have := h 6 0 (by decide) (by decide) (by decide) (by decide)
    rw [hv.1] at this
    exact this
  · refine ⟨by decide, by decide, by decide, ?_⟩
    obtain ⟨s, hs, h⟩ := scan_cost_is_minimum [1, 2, 3, 1, 2, 3] 9 0 initial (by decide)
      (by decide) (by decide)
    have hv := scan_example_41
    rw [hs] at hv
    simp only [Option.map_some', Option.some.injEq] at hv
    have := h 5 0 (by decide) (by decide) (by decide) (by decide)
    rw [hv] at this
    exact this

/-- C12: for every non-empty input of at most `MAX` bytes, every option setting and
every state, the scan ends, `lzss_slow` trims and emits with the subset `chosen_subset`,
this subset is allowed, its cost `bits[n-1][subset]` is at most the cost of every allowed
subset, and every allowed subset below it costs strictly more. -/
theorem subset_is_first_argmin (src : List Nat) (max_bits rle_enabled fast_mode : Int)
    (g : Globals) (hne : src ≠ []) (hmax : (src.length : Int) ≤ MAX) :
    ∃ s, lzss_scan (encode_entry src max_bits rle_enabled fast_mode g) = some s ∧
      lzss_slow (encode_entry src max_bits rle_enabled fast_mode g) =
        (write_lz (chosen_subset (encode_entry src max_bits rle_enabled fast_mode g) s)
          (trimmed (encode_entry src max_bits rle_enabled fast_mode g) s)
          (encode_entry src max_bits rle_enabled fast_mode g).buf).map
          (fun rb => (rb.1, { encode_entry src max_bits rle_enabled fast_mode g with
            parse := trimmed (encode_entry src max_bits rle_enabled fast_mode g) s,
            matches_ := s.matches_, buf := rb.2 })) ∧
      0 ≤ chosen_subset (encode_entry src max_bits rle_enabled fast_mode g) s ∧
      chosen_subset (encode_entry src max_bits rle_enabled fast_mode g) s <
        (encode_entry src max_bits rle_enabled fast_mode g).BIT_OFFSET_NBR_ALLOWED ∧
      (∀ r, 0 ≤ r → r < (encode_entry src max_bits rle_enabled fast_mode g).BIT_OFFSET_NBR_ALLOWED →
        (s.parse.optimals ((src.length : Int) - 1)).bits
            (chosen_subset (encode_entry src max_bits rle_enabled fast_mode g) s) ≤
          (s.parse.optimals ((src.length : Int) - 1)).bits r) ∧
      (∀ r, 0 ≤ r → r < chosen_subset (encode_entry src max_bits rle_enabled fast_mode g) s →
        (s.parse.optimals ((src.length : Int) - 1)).bits
            (chosen_subset (encode_entry src max_bits rle_enabled fast_mode g) s) <
          (s.parse.optimals ((src.length : Int) - 1)).bits r) := by
  have hlen : 1 ≤ (src.length : Int) := by
    cases src with
    | nil => exact absurd rfl hne
    | cons a l => simp only [List.length_cons]; push_cast; omega
  obtain ⟨hn1, hn8⟩ := options_nbr max_bits rle_enabled fast_mode g
  obtain ⟨s, hs, hinv, ⟨hc0, hc1⟩, hsel, hval, _, _⟩ := lzss_slow_spec
    (encode_entry src max_bits rle_enabled fast_mode g) hn1 hn8 hlen hmax
  have hidx : (encode_entry src max_bits rle_enabled fast_mode g).buf.index_src =
      (src.length : Int) := rfl
  rw [hidx] at hval hsel hinv
  have hfin : ∀ r, 0 ≤ r →
      r < (encode_entry src max_bits rle_enabled fast_mode g).BIT_OFFSET_NBR_ALLOWED →
      (s.parse.optimals ((src.length : Int) - 1)).bits r ≠ INF :=
    fun r h0 h1 => (hinv r h0 h1).bits_ne_INF (by omega) (by omega) hmax
  have hnat : (((encode_entry src max_bits rle_enabled fast_mode g).BIT_OFFSET_NBR_ALLOWED.toNat :
      Nat) : Int) = (encode_entry src max_bits rle_enabled fast_mode g).BIT_OFFSET_NBR_ALLOWED := by
    have h3 : 1 ≤ (encode_entry src max_bits rle_enabled fast_mode g).BIT_OFFSET_NBR_ALLOWED := hn1
    omega
  refine ⟨s, hs, lzss_slow_eq _ s hs hlen (by rw [hidx]; exact hsel), hc0, hc1, ?_, ?_⟩
  · intro r h0 h1
    rw [← hval]
    exact (select_loop_min (s.parse.optimals ((src.length : Int) - 1))
      (encode_entry src max_bits rle_enabled fast_mode g).BIT_OFFSET_NBR_ALLOWED.toNat 0
      ((s.parse.optimals ((src.length : Int) - 1)).bits 0, 0)).2 r h0
      (by rw [hnat]; omega) (hfin r h0 h1)
  · intro r h0 h1
    rw [← hval]
    exact select_loop_first (s.parse.optimals ((src.length : Int) - 1))
      (encode_entry src max_bits rle_enabled fast_mode g).BIT_OFFSET_NBR_ALLOWED.toNat 0
      ((s.parse.optimals ((src.length : Int) - 1)).bits 0, 0) (le_refl 0)
      (fun x hx0 hx1 _ => absurd hx1 (by simp only; omega))
      (fun x hx0 hx1 _ => absurd hx1 (by simp only at hx0; omega))
      r h0 h1 (hfin r h0 (by omega))

/-- C12 at the input `far_src` with `max_bits = 12`: the four allowed subsets cost
23030, 23030, 23030 and 23029 bits at the last position, and the scan selects
subset 3, the only one with the least cost. -/
theorem subset_is_first_argmin_far_src :
    far_src ≠ [] ∧ (far_src.length : Int) ≤ MAX ∧
    ∃ s, lzss_scan (encode_entry far_src 12 0 0 initial) = some s ∧
      (encode_entry far_src 12 0 0 initial).BIT_OFFSET_NBR_ALLOWED = 4 ∧
      (s.parse.optimals 2558).bits 0 = 23030 ∧ (s.parse.optimals 2558).bits 1 = 23030 ∧
      (s.parse.optimals 2558).bits 2 = 23030 ∧ (s.parse.optimals 2558).bits 3 = 23029 ∧
      chosen_subset (encode_entry far_src 12 0 0 initial) s = 3 ∧
      (∀ r, 0 ≤ r → r < (encode_entry far_src 12 0 0 initial).BIT_OFFSET_NBR_ALLOWED →
        (s.parse.optimals ((far_src.length : Int) - 1)).bits
            (chosen_subset (encode_entry far_src 12 0 0 initial) s) ≤
          (s.parse.optimals ((far_src.length : Int) - 1)).bits r) ∧
      (∀ r, 0 ≤ r → r < chosen_subset (encode_entry far_src 12 0 0 initial) s →
        (s.parse.optimals ((far_src.length : Int) - 1)).bits
            (chosen_subset (encode_entry far_src 12 0 0 initial) s) <
          (s.parse.optimals ((far_src.length : Int) - 1)).bits r) := by
  refine ⟨far_src_ne, far_src_le, ?_⟩
  obtain ⟨s, hs, _, _, _, h1, h2⟩ := subset_is_first_argmin far_src 12 0 0 initial far_src_ne
    far_src_le
  obtain ⟨s12, e12, b12⟩ := far_scan 12 initial
  rw [hs] at e12
  have q12 : s = s12 := Option.some.inj e12
  subst q12
  have n12 : (encode_entry far_src 12 0 0 initial).BIT_OFFSET_NBR_ALLOWED = 4 := rfl
  rw [n12] at b12
  have c0 := b12 0 (by omega) (by omega)
  have c1 := b12 1 (by omega) (by omega)
  have c2 := b12 2 (by omega) (by omega)
  have c3 := b12 3 (by omega) (by omega)
  norm_num at c0 c1 c2 c3
  exact ⟨s, hs, n12, c0, c1, c2, c3, far_chosen_12 initial s c0 c1 c2 c3, h1, h2⟩

/-- C13: for every non-empty input of at most `MAX` bytes and every `max_bits`,
`set_dan3_options` clamps `max_bits` into 9..16, the subset of the selector is at most the
clamped value minus 9, `write_lz` emits the selector of this subset before the tokens, and
no token that it emits (an entry of the trimmed table with a positive length) has a
distance above `2^max_bits + 288` for the clamped `max_bits`. -/
theorem subset_within_max_bits (src : List Nat) (max_bits rle_enabled fast_mode : Int)
    (g : Globals) (hne : src ≠ []) (hmax : (src.length : Int) ≤ MAX) :
    ∃ s, lzss_scan (encode_entry src max_bits rle_enabled fast_mode g) = some s ∧
      (encode_entry src max_bits rle_enabled fast_mode g).BIT_OFFSET_MAX_ALLOWED =
        (if max_bits > 16 then 16 else if max_bits < 9 then 9 else max_bits) ∧
      0 ≤ chosen_subset (encode_entry src max_bits rle_enabled fast_mode g) s ∧
      chosen_subset (encode_entry src max_bits rle_enabled fast_mode g) s ≤
        (encode_entry src max_bits rle_enabled fast_mode g).BIT_OFFSET_MAX_ALLOWED - 9 ∧
      write_lz (chosen_subset (encode_entry src max_bits rle_enabled fast_mode g) s)
          (trimmed (encode_entry src max_bits rle_enabled fast_mode g) s)
          (encode_entry src max_bits rle_enabled fast_mode g).buf =
        (runOps (bits_ops 254
              (chosen_subset (encode_entry src max_bits rle_enabled fast_mode g) s + 1).toNat ++
            (WOp.byte ((encode_entry src max_bits rle_enabled fast_mode g).buf.data_src 0) ::
              emitted_tokens (encode_entry src max_bits rle_enabled fast_mode g) s) ++ end_ops)
          { (encode_entry src max_bits rle_enabled fast_mode g).buf with
            index_dest := 0, bit_mask := 0, bit_index := 0 }).map
          (fun b3 => (b3.index_dest, b3)) ∧
      ∀ x, ((trimmed (encode_entry src max_bits rle_enabled fast_mode g) s).optimals x).len
            (chosen_subset (encode_entry src max_bits rle_enabled fast_mode g) s) > 0 →
        ((trimmed (encode_entry src max_bits rle_enabled fast_mode g) s).optimals x).offset
            (chosen_subset (encode_entry src max_bits rle_enabled fast_mode g) s) ≤
          2 ^ (encode_entry src max_bits rle_enabled fast_mode g).BIT_OFFSET_MAX_ALLOWED.toNat
            + 288 := by
  have hlen : 1 ≤ (src.length : Int) := by
    cases src with
    | nil => exact absurd rfl hne
    | cons a l => simp only [List.length_cons]; push_cast; omega
  obtain ⟨hn1, hn8⟩ := options_nbr max_bits rle_enabled fast_mode g
  obtain ⟨hm1, hm2, hm3, hm4⟩ := options_max max_bits rle_enabled fast_mode g
  obtain ⟨s, hs, _, ⟨hc0, hc1⟩, _, _, hw, _⟩ := lzss_slow_spec
    (encode_entry src max_bits rle_enabled fast_mode g) hn1 hn8 hlen hmax
  have hmin : BIT_OFFSET_MIN = 9 := by decide
  have h288 : MAX_OFFSET2 = 288 := by decide
  have hmaxa : (encode_entry src max_bits rle_enabled fast_mode g).BIT_OFFSET_MAX_ALLOWED =
      (set_dan3_options max_bits rle_enabled fast_mode g).BIT_OFFSET_MAX_ALLOWED := rfl
  have hnbr : (encode_entry src max_bits rle_enabled fast_mode g).BIT_OFFSET_NBR_ALLOWED =
      (set_dan3_options max_bits rle_enabled fast_mode g).BIT_OFFSET_NBR_ALLOWED := rfl
  rw [hnbr, hm3, hmin] at hc1
  refine ⟨s, hs, by rw [hmaxa]; exact hm4, hc0, by rw [hmaxa]; omega, hw, ?_⟩
  intro x hx
  rcases trimmed_cells (encode_entry src max_bits rle_enabled fast_mode g) s x with h | h
  · rw [h] at hx; exact absurd hx (by omega)
  · rw [h]
    have hoff := lzss_scan_offset _ s hs x
      (chosen_subset (encode_entry src max_bits rle_enabled fast_mode g) s)
    have hle : (BIT_OFFSET_MIN +
          chosen_subset (encode_entry src max_bits rle_enabled fast_mode g) s).toNat ≤
        (encode_entry src max_bits rle_enabled fast_mode g).BIT_OFFSET_MAX_ALLOWED.toNat := by
      rw [hmaxa, hmin]; omega
    have hpow := Nat.pow_le_pow_right (show 0 < 2 by norm_num) hle
    have hpow2 : (2 : Int) ^ (BIT_OFFSET_MIN +
          chosen_subset (encode_entry src max_bits rle_enabled fast_mode g) s).toNat ≤
        (2 : Int) ^ (encode_entry src max_bits rle_enabled fast_mode g).BIT_OFFSET_MAX_ALLOWED.toNat := by
      exact_mod_cast hpow
    rw [h288] at hoff
    omega

/-- C13 at the input `far_src`.  With `max_bits = 12` subset 3 = 12 - 9 is selected,
and the token of the last position is a match at distance 2556, below
`2^12 + 288`.  With `max_bits = 3`, which `set_dan3_options` clamps to 9, only
subset 0 is allowed and selected. -/
theorem subset_within_max_bits_far_src :
    far_src ≠ [] ∧ (far_src.length : Int) ≤ MAX ∧
    (∃ s, lzss_scan (encode_entry far_src 12 0 0 initial) = some s ∧
      (encode_entry far_src 12 0 0 initial).BIT_OFFSET_MAX_ALLOWED = 12 ∧
      chosen_subset (encode_entry far_src 12 0 0 initial) s = 3 ∧
      chosen_subset (encode_entry far_src 12 0 0 initial) s ≤
        (encode_entry far_src 12 0 0 initial).BIT_OFFSET_MAX_ALLOWED - 9 ∧
      ((trimmed (encode_entry far_src 12 0 0 initial) s).optimals 2558).len 3 = 2 ∧
      ((trimmed (encode_entry far_src 12 0 0 initial) s).optimals 2558).offset 3 = 2556 ∧
      ((trimmed (encode_entry far_src 12 0 0 initial) s).optimals 2558).offset
          (chosen_subset (encode_entry far_src 12 0 0 initial) s) ≤
        2 ^ (encode_entry far_src 12 0 0 initial).BIT_OFFSET_MAX_ALLOWED.toNat + 288) ∧
    (∃ s, lzss_scan (encode_entry far_src 3 0 0 initial) = some s ∧
      (encode_entry far_src 3 0 0 initial).BIT_OFFSET_MAX_ALLOWED = 9 ∧
      chosen_subset (encode_entry far_src 3 0 0 initial) s = 0 ∧
      chosen_subset (encode_entry far_src 3 0 0 initial) s ≤
        (encode_entry far_src 3 0 0 initial).BIT_OFFSET_MAX_ALLOWED - 9) := by
  refine ⟨far_src_ne, far_src_le, ?_, ?_⟩
  · obtain ⟨s, hs, hm, hc0, hle, _, htok⟩ := subset_within_max_bits far_src 12 0 0 initial
      far_src_ne far_src_le
    obtain ⟨s12, e12, b12⟩ := far_scan 12 initial
    obtain ⟨t12, f12, l12, o12⟩ := far_scan_cell 12 initial (by decide)
    rw [hs] at e12 f12
    have q12 : s = s12 := Option.some.inj e12
    have r12 : s = t12 := Option.some.inj f12
    subst q12
    subst r12
    have n12 : (encode_entry far_src 12 0 0 initial).BIT_OFFSET_NBR_ALLOWED = 4 := rfl
    rw [n12] at b12
    have c0 := b12 0 (by omega) (by omega)
    have c1 := b12 1 (by omega) (by omega)
    have c2 := b12 2 (by omega) (by omega)
    have c3 := b12 3 (by omega) (by omega)
    norm_num at c0 c1 c2 c3
    have hch := far_chosen_12 initial s c0 c1 c2 c3
    obtain ⟨s2, hs2, hinv2⟩ := lzss_scan_inv (encode_entry far_src 12 0 0 initial) (by decide)
      (by rw [far_index]; omega) (by rw [far_index, MAX_eq]; omega)
    rw [hs] at hs2
    have q2 : s = s2 := Option.some.inj hs2
    subst q2
    have hlast := trimmed_last (encode_entry far_src 12 0 0 initial) s
      (by rw [far_index]; omega) (by rw [far_index, MAX_eq]; omega) hinv2
      (by rw [hch]; omega) (by rw [hch, n12]; omega) (by rw [hch]; omega)
    rw [far_index] at hlast
    have e2 : (2559 : Int) - 1 = 2558 := by norm_num
    rw [e2] at hlast
    have hl : ((trimmed (encode_entry far_src 12 0 0 initial) s).optimals 2558).len 3 = 2 := by
      rw [hlast]; exact l12
    refine ⟨s, hs, rfl, hch, hle, hl, by rw [hlast]; exact o12, ?_⟩
    exact htok 2558 (by rw [hch, hl]; omega)
  · obtain ⟨s, hs, hm, hc0, hle, _, _⟩ := subset_within_max_bits far_src 3 0 0 initial
      far_src_ne far_src_le
    exact ⟨s, hs, rfl,
      chosen_subset_one (encode_entry far_src 3 0 0 initial) s rfl, hle⟩

/-- C14: when `encode` of a non-empty input of at most `MAX` bytes returns `v >= 0`
with the bytes `bytes`, the scan has chosen a subset `r` in 0..7, at least two
bytes are returned, the top `r + 1` bits of byte 0 are `r` one-bits and a zero bit
(byte 0 shifted right by `7 - r` is `2^(r+1) - 2`), and byte 1 is the first byte
of the input (as an `unsigned char`). -/
theorem stream_header (src : List Nat) (max_bits rle_enabled fast_mode : Int) (out : Int → Nat)
    (g : Globals) (v : Int) (bytes : List Nat) (hne : src ≠ [])
    (hmax : (src.length : Int) ≤ MAX)
    (he : encode src max_bits rle_enabled fast_mode out g = Seen.returned v bytes)
    (hv : 0 ≤ v) :
    ∃ s, lzss_scan (encode_entry src max_bits rle_enabled fast_mode g) = some s ∧
      0 ≤ chosen_subset (encode_entry src max_bits rle_enabled fast_mode g) s ∧
      chosen_subset (encode_entry src max_bits rle_enabled fast_mode g) s ≤ 7 ∧
      2 ≤ v ∧ bytes.getD 0 0 < 256 ∧
      bytes.getD 0 0 >>>
          (7 - (chosen_subset (encode_entry src max_bits rle_enabled fast_mode g) s).toNat) =
        2 ^ ((chosen_subset (encode_entry src max_bits rle_enabled fast_mode g) s).toNat + 1) - 2 ∧
      bytes.getD 1 0 = src.getD 0 0 % 256 := by
  have hlen : 1 ≤ (src.length : Int) := by
    cases src with
    | nil => exact absurd rfl hne
    | cons a l => simp only [List.length_cons]; push_cast; omega
  obtain ⟨hn1, hn8⟩ := options_nbr max_bits rle_enabled fast_mode g
  obtain ⟨s, hs, _, ⟨hc0, hc1⟩, hsel, _, hw, _⟩ := lzss_slow_spec
    (encode_entry src max_bits rle_enabled fast_mode g) hn1 hn8 hlen hmax
  have hr7 : chosen_subset (encode_entry src max_bits rle_enabled fast_mode g) s ≤ 7 := by
    have h3 : chosen_subset (encode_entry src max_bits rle_enabled fast_mode g) s <
        (set_dan3_options max_bits rle_enabled fast_mode g).BIT_OFFSET_NBR_ALLOWED := hc1
    omega
  have hrn : (chosen_subset (encode_entry src max_bits rle_enabled fast_mode g) s + 1).toNat =
      (chosen_subset (encode_entry src max_bits rle_enabled fast_mode g) s).toNat + 1 := by
    omega
  have hr8 : (chosen_subset (encode_entry src max_bits rle_enabled fast_mode g) s).toNat < 8 := by
    omega
  refine ⟨s, hs, hc0, hr7, ?_⟩
  have hslow := lzss_slow_eq _ s hs hlen hsel
  rw [hw, hrn] at hslow
  unfold encode at he
  rw [dan3_encode_eq src max_bits rle_enabled fast_mode out g hmax, hslow] at he
  obtain ⟨b1, hb1, q1, q2, q3, q4⟩ := selector_state
    (encode_entry src max_bits rle_enabled fast_mode g).buf _ hr8
  cases hrun : runOps (bits_ops 254
        ((chosen_subset (encode_entry src max_bits rle_enabled fast_mode g) s).toNat + 1) ++
      (WOp.byte ((encode_entry src max_bits rle_enabled fast_mode g).buf.data_src 0) ::
        emitted_tokens (encode_entry src max_bits rle_enabled fast_mode g) s) ++ end_ops)
      { (encode_entry src max_bits rle_enabled fast_mode g).buf with
        index_dest := 0, bit_mask := 0, bit_index := 0 } with
  | none =>
    rw [hrun] at he
    simp at he
  | some b3 =>
    rw [hrun] at he
    simp only [Option.map_some', Option.some_bind] at he
    rw [List.append_assoc, List.cons_append, runOps_append, hb1, Option.some_bind,
      runOps_byte] at hrun
    cases hwb : write_byte ((encode_entry src max_bits rle_enabled fast_mode g).buf.data_src 0)
        b1 with
    | none => rw [hwb] at hrun; simp at hrun
    | some b2 =>
      rw [hwb] at hrun
      simp only [Option.some_bind] at hrun
      have hi2 := header_after_first_byte _ _ hr8 b1 b2 q1 q2 q3 q4 hwb
      obtain ⟨i1, i2, i3, i4, _⟩ := runOps_header _ _ (by omega) _ b2 b3 hi2 hrun
      have hge : b3.index_dest ≥ 0 := by omega
      simp only [if_pos hge] at he
      by_cases hM : b3.index_dest > MAX
      · simp only [if_pos hM] at he
        have := (Seen.returned.inj he).1
        omega
      · simp only [if_neg hM] at he
        obtain ⟨ev, eb⟩ := Seen.returned.inj he
        rw [bytesOf_memcpy] at eb
        rw [← ev, ← eb, bytesOf_getD _ _ 0 (by push_cast; omega),
          bytesOf_getD _ _ 1 (by push_cast; omega)]
        refine ⟨i1, i2, i3, ?_⟩
        rw [show ((1 : Nat) : Int) = 1 from rfl, i4,
          entry_first_byte src max_bits rle_enabled fast_mode g hlen]

/-- C14 at the input `[0x41]`: the bytes are `00 41 00`, the subset is 0. -/
theorem stream_header_witness :
    ∃ s, lzss_scan (encode_entry [0x41] 16 1 0 initial) = some s ∧
      0 ≤ chosen_subset (encode_entry [0x41] 16 1 0 initial) s ∧
      chosen_subset (encode_entry [0x41] 16 1 0 initial) s ≤ 7 ∧
      (2 : Int) ≤ 3 ∧ ([0x00, 0x41, 0x00] : List Nat).getD 0 0 < 256 ∧
      ([0x00, 0x41, 0x00] : List Nat).getD 0 0 >>>
          (7 - (chosen_subset (encode_entry [0x41] 16 1 0 initial) s).toNat) =
        2 ^ ((chosen_subset (encode_entry [0x41] 16 1 0 initial) s).toNat + 1) - 2 ∧
      ([0x00, 0x41, 0x00] : List Nat).getD 1 0 = ([0x41] : List Nat).getD 0 0 % 256 :=
  stream_header [0x41] 16 1 0 (fun _ => 0) initial 3 [0x00, 0x41, 0x00] (by decide) (by decide)
    (encode_single_41 16 1 0 (fun _ => 0) initial) (by decide)

/-- C15: the decoder calls `abort()` on an overlapping back-reference.  The stream
`38 61 00 00` holds the selector 0, the first byte `0x61` and a back-reference
with length 2 and wire offset 0 (source position 0, one byte produced).  The
encoder itself emits such tokens: `encode` of six bytes `0x61` returns
`21 61 60 00 00`, whose second token has length 4 and wire offset 0, and
`decode` of these bytes calls `abort()` as well. -/
theorem overlapping_match_aborts :
    decode [0x38, 0x61, 0x00, 0x00] (fun _ => 0) initial = Seen.aborted ∧
    encode [0x61, 0x61, 0x61, 0x61, 0x61, 0x61] 9 0 0 (fun _ => 0) initial =
      Seen.returned 5 [0x21, 0x61, 0x60, 0x00, 0x00] ∧
    decode [0x21, 0x61, 0x60, 0x00, 0x00] (fun _ => 0) initial = Seen.aborted := by
  decide

/-- C16, counterexample: in the stream `5C 61 62 10 00 00` the back-reference that
follows the first byte and one literal carries the Golomb-gamma value 2 (the bits
`1 1`) and the wire offset 1; the decoder copies 2 bytes, not 3, and returns 4
bytes in all. -/
theorem gamma_value_two_copies_two :
    (read_golomb_gamma (decoder_at [0x5C, 0x61, 0x62, 0x10, 0x00, 0x00] [0x61, 0x62] 3 16 0)).map
        Prod.fst = some 2 ∧
    decode [0x5C, 0x61, 0x62, 0x10, 0x00, 0x00] (fun _ => 0) initial =
      Seen.returned 4 [0x61, 0x62, 0x61, 0x62] := by
  decide

/-- C16, amended: when the decoder has read the flag bit 0 of a back-reference,
the Golomb-gamma value `len` (not the end marker) and the wire offset `offset`,
with the source inside the produced output and not overlapping the copy, then
`len` is at least 1, a token with `len = 1` has an offset of the length-1 table
(0..2), and the token appends exactly `len` bytes, the `k`-th being the byte at
`index_dest - offset - 1 + k`, and leaves the earlier output as it was. -/
theorem match_token_length (subset old : Int) (b b1 b2 b3 : Buffers) (len : Int) (offset : Nat)
    (h0 : b.index_src < old) (h1 : read_bit b = some (0, b1))
    (h2 : read_golomb_gamma b1 = some (len, b2)) (h3 : len ≠ -1)
    (h4 : read_offset subset old len b2 = some (Flow.cont (offset, b3)))
    (h5 : 0 ≤ b.index_dest - (offset : Int) - 1) (h6 : len ≤ (offset : Int) + 1)
    (h7 : b.index_dest + len ≤ MAX) :
    1 ≤ len ∧ (len = 1 → offset ≤ 2) ∧
    ∃ b4, delzss_token subset old b = some (Flow.cont b4) ∧
      b4.index_dest = b.index_dest + len ∧
      (∀ k, 0 ≤ k → k < len →
        b4.data_dest (b.index_dest + k) = b.data_dest (b.index_dest - (offset : Int) - 1 + k)) ∧
      (∀ j, j < b.index_dest → b4.data_dest j = b.data_dest j) := by
  have hlen : 1 ≤ len := by
    rcases read_golomb_gamma_values b1 b2 len h2 with ⟨e, _⟩ | e
    · exact absurd e h3
    · exact e
  obtain ⟨_, _, ht⟩ := delzss_token_match subset old b b1 b2 b3 len offset h0 h1 h2 h3 h4
  rw [if_neg (by omega), if_neg (by omega)] at ht
  have hl : ((len.toNat : Nat) : Int) = len := Int.toNat_of_nonneg (by omega)
  have hs := copy_match_loop_spec (b.index_dest - (offset : Int) - 1) b.index_dest len.toNat 0
    b.data_dest (le_refl 0) (by omega)
  refine ⟨hlen, (read_offset_dest subset old len b2 b3 offset h4).2, _, ht, rfl, ?_, ?_⟩
  · intro k hk0 hk
    show copy_match_loop _ _ _ _ _ _ = _
    rw [hs, if_pos (by omega)]
    congr 1
    omega
  · intro j hj
    show copy_match_loop _ _ _ _ _ _ = _
    rw [hs, if_neg (by omega)]

/-- C16, amended, on the stream `5C 61 62 10 00 00`: after the first byte and one
literal, the token with the Golomb-gamma value 2 and the wire offset 1 appends the
two bytes at positions 0 and 1. -/
theorem match_token_length_witness :
    (1 : Int) ≤ 2 ∧ ((2 : Int) = 1 → 1 ≤ 2) ∧
    ∃ b4, delzss_token 0 6 (decoder_at [0x5C, 0x61, 0x62, 0x10, 0x00, 0x00] [0x61, 0x62] 3 32 0) =
        some (Flow.cont b4) ∧
      b4.index_dest =
        (decoder_at [0x5C, 0x61, 0x62, 0x10, 0x00, 0x00] [0x61, 0x62] 3 32 0).index_dest + 2 ∧
      (∀ k, 0 ≤ k → k < 2 →
        b4.data_dest
            ((decoder_at [0x5C, 0x61, 0x62, 0x10, 0x00, 0x00] [0x61, 0x62] 3 32 0).index_dest + k) =
          (decoder_at [0x5C, 0x61, 0x62, 0x10, 0x00, 0x00] [0x61, 0x62] 3 32 0).data_dest
            ((decoder_at [0x5C, 0x61, 0x62, 0x10, 0x00, 0x00] [0x61, 0x62] 3 32 0).index_dest -
              ((1 : Nat) : Int) - 1 + k)) ∧
      (∀ j, j < (decoder_at [0x5C, 0x61, 0x62, 0x10, 0x00, 0x00] [0x61, 0x62] 3 32 0).index_dest →
        b4.data_dest j =
          (decoder_at [0x5C, 0x61, 0x62, 0x10, 0x00, 0x00] [0x61, 0x62] 3 32 0).data_dest j) :=
  match_token_length 0 6 (decoder_at [0x5C, 0x61, 0x62, 0x10, 0x00, 0x00] [0x61, 0x62] 3 32 0)
    (decoder_at [0x5C, 0x61, 0x62, 0x10, 0x00, 0x00] [0x61, 0x62] 3 16 0)
    (decoder_at [0x5C, 0x61, 0x62, 0x10, 0x00, 0x00] [0x61, 0x62] 3 4 0)
    (decoder_at [0x5C, 0x61, 0x62, 0x10, 0x00, 0x00] [0x61, 0x62] 4 8 3)
    2 1 (by decide) rfl rfl (by decide) rfl (by decide) (by decide) (by decide)

/-- C17, counterexample: the stream `38 61 20 00` holds the selector 0, the first
byte `0x61` and a back-reference with length 2 and wire offset 1, so that
`index_dest - offset - 1 = -1`; the decoder calls `abort()`: the caller gets no
return value at all. -/
theorem backref_before_start_no_return :
    decode [0x38, 0x61, 0x20, 0x00] (fun _ => 0) initial = Seen.aborted := by
  decide

/-- C17, amended: when, after `n` tokens of the main loop of `delzss`, a
back-reference token is read whose wire offset gives `index_dest - offset - 1 < 0`,
that token reaches `abort()`, and so does the main loop for every budget of more
than `n` tokens: no value is returned to the caller. -/
theorem backref_before_start_aborts (subset old : Int) (n : Nat) (b b0 b1 b2 b3 : Buffers)
    (len : Int) (offset : Nat)
    (hn : delzss_tokens subset old n b = some b0)
    (h0 : b0.index_src < old) (h1 : read_bit b0 = some (0, b1))
    (h2 : read_golomb_gamma b1 = some (len, b2)) (h3 : len ≠ -1)
    (h4 : read_offset subset old len b2 = some (Flow.cont (offset, b3)))
    (h5 : b0.index_dest - (offset : Int) - 1 < 0) :
    delzss_token subset old b0 = none ∧
    ∀ f, n < f → delzss_loop subset old f b = none := by
  obtain ⟨_, _, ht⟩ := delzss_token_match subset old b0 b1 b2 b3 len offset h0 h1 h2 h3 h4
  rw [if_pos (Or.inl h5)] at ht
  exact ⟨ht, fun f hf => delzss_loop_abort subset old n f b b0 hn h0 ht hf⟩

/-- C17, amended, on the stream `38 61 20 00`: after the first byte, the token with
length 2 and wire offset 1 reaches `abort()`. -/
theorem backref_before_start_aborts_witness :
    delzss_token 0 4 (decoder_at [0x38, 0x61, 0x20, 0x00] [0x61] 2 64 0) = none ∧
    ∀ f, 0 < f → delzss_loop 0 4 f (decoder_at [0x38, 0x61, 0x20, 0x00] [0x61] 2 64 0) = none :=
  backref_before_start_aborts 0 4 0 (decoder_at [0x38, 0x61, 0x20, 0x00] [0x61] 2 64 0)
    (decoder_at [0x38, 0x61, 0x20, 0x00] [0x61] 2 64 0)
    (decoder_at [0x38, 0x61, 0x20, 0x00] [0x61] 2 32 0)
    (decoder_at [0x38, 0x61, 0x20, 0x00] [0x61] 2 8 0)
    (decoder_at [0x38, 0x61, 0x20, 0x00] [0x61] 3 16 2)
    2 1 rfl (by decide) rfl rfl (by decide) rfl (by decide)

/-- C18: for every non-empty input of at most `MAX` bytes and every option setting
(`set_dan3_options` gives between 1 and 8 allowed subsets), the scan ends, `bits[n-1][r]` is
not `0x7FFFFFFF` for any allowed subset `r`, the selected minimum is not `0x7FFFFFFF`, and
`lzss_slow` goes on to `write_lz`; a value that it returns is the size written, never `-1`. -/
theorem last_position_reachable (src : List Nat) (max_bits rle_enabled fast_mode : Int)
    (g : Globals) (hne : src ≠ []) (hmax : (src.length : Int) ≤ MAX) :
    (1 ≤ (encode_entry src max_bits rle_enabled fast_mode g).BIT_OFFSET_NBR_ALLOWED ∧
      (encode_entry src max_bits rle_enabled fast_mode g).BIT_OFFSET_NBR_ALLOWED ≤ 8) ∧
    ∃ s, lzss_scan (encode_entry src max_bits rle_enabled fast_mode g) = some s ∧
      (∀ r, 0 ≤ r → r < (encode_entry src max_bits rle_enabled fast_mode g).BIT_OFFSET_NBR_ALLOWED →
        (s.parse.optimals ((src.length : Int) - 1)).bits r ≠ INF) ∧
      (select_best (encode_entry src max_bits rle_enabled fast_mode g).BIT_OFFSET_NBR_ALLOWED
        (src.length : Int) s.parse).1 ≠ INF ∧
      lzss_slow (encode_entry src max_bits rle_enabled fast_mode g) =
        (write_lz (chosen_subset (encode_entry src max_bits rle_enabled fast_mode g) s)
          (trimmed (encode_entry src max_bits rle_enabled fast_mode g) s)
          (encode_entry src max_bits rle_enabled fast_mode g).buf).map
          (fun rb => (rb.1, { encode_entry src max_bits rle_enabled fast_mode g with
            parse := trimmed (encode_entry src max_bits rle_enabled fast_mode g) s,
            matches_ := s.matches_, buf := rb.2 })) ∧
      ∀ v g2, lzss_slow (encode_entry src max_bits rle_enabled fast_mode g) = some (v, g2) →
        0 ≤ v := by
  have hlen : 1 ≤ (src.length : Int) := by
    cases src with
    | nil => exact absurd rfl hne
    | cons a l => simp only [List.length_cons]; push_cast; omega
  obtain ⟨hn1, hn8⟩ := options_nbr max_bits rle_enabled fast_mode g
  obtain ⟨s, hs, hinv, _, hsel, _, hw, _⟩ := lzss_slow_spec
    (encode_entry src max_bits rle_enabled fast_mode g) hn1 hn8 hlen hmax
  have hidx : (encode_entry src max_bits rle_enabled fast_mode g).buf.index_src =
      (src.length : Int) := rfl
  have hslow := lzss_slow_eq _ s hs hlen hsel
  rw [hidx] at hsel hinv
  refine ⟨⟨hn1, hn8⟩, s, hs,
    fun r h0 h1 => (hinv r h0 h1).bits_ne_INF (by omega) (by omega) hmax, hsel, hslow, ?_⟩
  intro v g2 hv
  rw [hslow, hw] at hv
  cases hr : runOps (bits_ops 254
        (chosen_subset (encode_entry src max_bits rle_enabled fast_mode g) s + 1).toNat ++
      (WOp.byte ((encode_entry src max_bits rle_enabled fast_mode g).buf.data_src 0) ::
        emitted_tokens (encode_entry src max_bits rle_enabled fast_mode g) s) ++ end_ops)
      { (encode_entry src max_bits rle_enabled fast_mode g).buf with
        index_dest := 0, bit_mask := 0, bit_index := 0 } with
  | none => rw [hr] at hv; exact absurd hv (by simp)
  | some b3 =>
    rw [hr] at hv
    simp only [Option.map_some', Option.some.injEq, Prod.mk.injEq] at hv
    have hm := runOps_index_mono _ _ b3 hr
    rw [← hv.1]
    exact hm

/-- C18 at the input `far_src` with `max_bits = 16`: the eight subsets cost 23030
bits at the last position, subset 3 costs 23029, and none is `0x7FFFFFFF`. -/
theorem last_position_reachable_far_src :
    far_src ≠ [] ∧ (far_src.length : Int) ≤ MAX ∧
    (encode_entry far_src 16 0 0 initial).BIT_OFFSET_NBR_ALLOWED = 8 ∧
    ∃ s, lzss_scan (encode_entry far_src 16 0 0 initial) = some s ∧
      (∀ r, 0 ≤ r → r < 8 →
        (s.parse.optimals 2558).bits r = (if r = 3 then 23029 else 23030)) ∧
      (∀ r, 0 ≤ r → r < (encode_entry far_src 16 0 0 initial).BIT_OFFSET_NBR_ALLOWED →
        (s.parse.optimals ((far_src.length : Int) - 1)).bits r ≠ INF) ∧
      (select_best (encode_entry far_src 16 0 0 initial).BIT_OFFSET_NBR_ALLOWED
        (far_src.length : Int) s.parse).1 ≠ INF := by
  refine ⟨far_src_ne, far_src_le, rfl, ?_⟩
  obtain ⟨_, s, hs, h1, h2, _⟩ := last_position_reachable far_src 16 0 0 initial far_src_ne
    far_src_le
  obtain ⟨s16, e16, b16⟩ := far_scan 16 initial
  rw [hs] at e16
  have q16 : s = s16 := Option.some.inj e16
  subst q16
  have n16 : (encode_entry far_src 16 0 0 initial).BIT_OFFSET_NBR_ALLOWED = 8 := rfl
  rw [n16] at b16
  exact ⟨s, hs, b16, h1, h2⟩

/-- C19, counterexample: `write_golomb_gamma(0)` from a fresh cursor makes the
two calls `write_bit(0)`, `write_bit(1)` and leaves the byte `0x40` with mask 32;
`read_golomb_gamma` from a fresh cursor on that byte (followed by zero bits)
counts one zero, then reads two more bits: it returns 3, not 0, and has
consumed four bits (mask 8), not two. -/
theorem gamma_zero_not_read_back :
    wire_bits (golomb_gamma_ops 0) = [0, 1] ∧
    (write_golomb_gamma 0 initial.buf).map
        (fun b => (bytesOf b.data_dest b.index_dest, b.bit_mask)) = some ([0x40], 32) ∧
    (read_golomb_gamma { initial.buf with data_src := bufferOf [0x40, 0x00] }).map
        (fun r => (r.1, r.2.bit_mask)) = some (3, 8) := by
  decide

/-- C19, amended: for every value `v` in `1..MAX_GAMMA`, when `write_golomb_gamma(v)`
is called at a fresh bit cursor (`bit_mask = 0`) and any further calls `rest` of
`write_bit` and `write_byte` follow, then a reader at a fresh bit cursor at the same
position of the produced bytes gets `v` from `read_golomb_gamma`; it has read exactly
the bits of the calls of `write_bit` that `write_golomb_gamma(v)` made, and its cursor
is where the cursor of the writer was after `write_golomb_gamma(v)`. -/
theorem gamma_round_trip (v : Int) (h1 : 1 ≤ v) (h2 : v ≤ MAX_GAMMA) (rest : List WOp)
    (b b1 b3 R : Buffers) (hfresh : b.bit_mask = 0) (h0 : 0 ≤ b.index_dest)
    (hw : write_golomb_gamma v b = some b1) (hrest : runOps rest b1 = some b3)
    (hRm : R.bit_mask = 0) (hRi : R.index_src = b.index_dest)
    (hRd : ∀ x, b.index_dest ≤ x → x < b3.index_dest → R.data_src x = b3.data_dest x) :
    ∃ R1, read_golomb_gamma R = some (v, R1) ∧
      read_bits (golomb_gamma_ops v).length R = some (wire_bits (golomb_gamma_ops v), R1) ∧
      InSync b1 R1 := by
  rw [write_golomb_gamma_eq] at hw
  obtain ⟨R1, hr, hs, _, _⟩ := mirror_ops b.index_dest rest b3 (golomb_gamma_ops v) b b1 R
    ⟨h0, le_refl _, Or.inl hfresh⟩ ⟨hRi, by rw [hRm, hfresh], fun hm => absurd hfresh hm⟩
    hw hrest hRd
  obtain ⟨e1, e2⟩ := readOps_all_bits (golomb_gamma_ops v) R (golomb_gamma_all_bits v)
  rw [e1, e2] at hr
  have hlen : (wire_bits (golomb_gamma_ops v)).length = (golomb_gamma_ops v).length := by
    rw [← e2, List.length_map]
  have hM : MAX_GAMMA = 254 := by decide
  rw [hM] at h2
  have hv : ((v.toNat : Nat) : Int) = v := Int.toNat_of_nonneg (by omega)
  have hg := gamma_code v.toNat (by omega) (by omega)
  rw [hv] at hg
  obtain ⟨R2, q1, q2⟩ := read_golomb_gamma_list _ R R1 v [] (by rw [hlen]; exact hr) hg
  have q3 := read_bits_nil R2 R1 [] q2
  rw [← q3.2] at q1
  exact ⟨R1, q1, hr, hs⟩

/-- C19, amended, at `v = 5`: the writer at the start of an empty output leaves the
byte `0x60` (the four bits `0 1 1 0`); the reader of this byte gets 5 back. -/
theorem gamma_round_trip_witness :
    ∃ b1 R1, write_golomb_gamma 5 initial.buf = some b1 ∧
      read_golomb_gamma { initial.buf with data_src := bufferOf [0x60] } = some (5, R1) ∧
      read_bits (golomb_gamma_ops 5).length { initial.buf with data_src := bufferOf [0x60] } =
        some (wire_bits (golomb_gamma_ops 5), R1) ∧
      InSync b1 R1 := by
  have hc : (write_golomb_gamma 5 initial.buf).map (fun b => (b.index_dest, b.data_dest 0)) =
      some (1, 0x60) := by decide
  cases hw : write_golomb_gamma 5 initial.buf with
  | none => rw [hw] at hc; exact absurd hc (by simp)
  | some b1 =>
    rw [hw] at hc
    simp only [Option.map_some', Option.some.injEq, Prod.mk.injEq] at hc
    obtain ⟨R1, q⟩ := gamma_round_trip 5 (by decide) (by decide) [] initial.buf b1 b1
      { initial.buf with data_src := bufferOf [0x60] } rfl (le_refl 0) hw rfl rfl rfl (by
        intro x hx0 hx1
        rw [hc.1] at hx1
        have hx : x = 0 := by
          have h3 : (0 : Int) ≤ x := hx0
          omega
        rw [hx, hc.2]
        rfl)
    exact ⟨b1, R1, rfl, q⟩

/-- C20: `read_golomb_gamma` returns `-1` in a state `b2` exactly when the next
seven bits are read as zeros and reading them leaves the state `b2`; it never
returns the value 0. -/
theorem gamma_sentinel (b : Buffers) :
    (∀ b2, read_golomb_gamma b = some (-1, b2) ↔
      read_bits 7 b = some ([0, 0, 0, 0, 0, 0, 0], b2)) ∧
    (∀ b2, read_golomb_gamma b ≠ some (0, b2)) := by
  constructor
  · intro b2
    constructor
    · intro h
      rcases read_golomb_gamma_values b b2 (-1) h with ⟨_, h2⟩ | h2
      · exact read_golomb_zeros_full 7 0 b b2 h2
      · omega
    · intro h
      have h2 := read_golomb_zeros_of_zeros 7 0 b b2 h
      unfold read_golomb_gamma
      rw [h2]
      rfl
  · intro b2 h
    rcases read_golomb_gamma_values b b2 0 h with ⟨h1, _⟩ | h2
    · omega
    · omega

/-- C21: for every regime `r` in 0..7 and every offset of at least 1, the calls of
`write_offset(offset, len)` with `BIT_OFFSET3 = 9 + r` write exactly what the
format `offset_format r (offset - 1) len` of the specification says, from every
state of the output. -/
theorem offset_wire_format (r offset len : Int) (hr0 : 0 ≤ r) (hr7 : r ≤ 7) (ho : 1 ≤ offset)
    (b : Buffers) :
    write_offset (BIT_OFFSET_MIN + r) offset len b =
      runOps (offset_format r (offset - 1) len) b := by
  rw [write_offset_eq]
  exact offset_ops_format r offset len ho b

/-- C21 for regime 3, offset 1000 and length 5: bits 1,1, then `711 >> 8 = 2` in
4 bits and the byte `711 & 0xFF = 199`, which gives the bytes `C8 C7`. -/
theorem offset_wire_format_witness :
    (0 : Int) ≤ 3 ∧ (3 : Int) ≤ 7 ∧ (1 : Int) ≤ 1000 ∧
    write_offset (BIT_OFFSET_MIN + 3) 1000 5 initial.buf =
      runOps (offset_format 3 (1000 - 1) 5) initial.buf ∧
    (runOps (offset_format 3 (1000 - 1) 5) initial.buf).map
      (fun b => bytesOf b.data_dest b.index_dest) = some [0xC8, 0xC7] :=
  ⟨by decide, by decide, by decide,
    offset_wire_format 3 1000 5 (by decide) (by decide) (by decide) initial.buf, by decide⟩

/-- C22: for every regime `r >= 0`, every length and every offset legal for it
(1..3 for a length-1 token, `1..2^(9+r) + 288` otherwise), when
`write_offset(offset, len)` with `BIT_OFFSET3 = 9 + r` is called in a state of the
output that the reader `R` has reached too, further writes follow, and the
stream goes on after the bytes of the offset (`index_dest < old_index_src`), the
offset-decoding branch of `delzss` with `subset = r` yields the wire value
`offset - 1`, with the reader where the writer was after `write_offset`; so the
copy starts at `outPos - offset`. -/
theorem offset_round_trip (r len offset : Int) (hr0 : 0 ≤ r) (ho1 : 1 ≤ offset)
    (hleg1 : len = 1 → offset ≤ 3) (hleg2 : len ≠ 1 → offset ≤ 2 ^ (9 + r).toNat + 288)
    (lo old : Int) (rest : List WOp) (b b1 b3 R : Buffers)
    (hw : WriterOK lo b) (hs : InSync b R)
    (hwr : write_offset (BIT_OFFSET_MIN + r) offset len b = some b1)
    (hrest : runOps rest b1 = some b3)
    (hRd : ∀ x, lo ≤ x → x < b3.index_dest → R.data_src x = b3.data_dest x)
    (hold : b1.index_dest < old) :
    ∃ R1, read_offset r old len R = some (Flow.cont ((offset - 1).toNat, R1)) ∧
      InSync b1 R1 ∧
      ∀ outPos : Int, outPos - (((offset - 1).toNat : Nat) : Int) - 1 = outPos - offset := by
  rw [write_offset_eq] at hwr
  obtain ⟨R1, hr, hs1, _, _⟩ := mirror_ops lo rest b3 _ b b1 R hw hs hwr hrest hRd
  have hmin : BIT_OFFSET_MIN = 9 := by decide
  have h288 : MAX_OFFSET2 = 288 := by decide
  refine ⟨R1, ?_, hs1, fun outPos => by omega⟩
  exact read_offset_of r old offset len R R1 hr0 ho1 hleg1
    (by rw [hmin, h288]; exact hleg2) hr (by rw [hs1.1]; exact hold)

/-- C22 for regime 3, length 5 and offset 1000 at the start of an output: the
bytes `C8 C7` are read back as the wire value 999. -/
theorem offset_round_trip_witness :
    ∃ b1 R1, write_offset (BIT_OFFSET_MIN + 3) 1000 5 initial.buf = some b1 ∧
      read_offset 3 3 5 { initial.buf with data_src := bufferOf [0xC8, 0xC7] } =
        some (Flow.cont (((1000 : Int) - 1).toNat, R1)) ∧
      InSync b1 R1 := by
  have hc : (write_offset (BIT_OFFSET_MIN + 3) 1000 5 initial.buf).map
      (fun b => (b.index_dest, b.data_dest 0, b.data_dest 1)) = some (2, 0xC8, 0xC7) := by
    decide
  cases hw : write_offset (BIT_OFFSET_MIN + 3) 1000 5 initial.buf with
  | none => rw [hw] at hc; exact absurd hc (by simp)
  | some b1 =>
    rw [hw] at hc
    simp only [Option.map_some', Option.some.injEq, Prod.mk.injEq] at hc
    obtain ⟨R1, q1, q2, _⟩ := offset_round_trip 3 5 1000 (by decide) (by decide)
      (by decide) (by decide) 0 3 [] initial.buf b1 b1
      { initial.buf with data_src := bufferOf [0xC8, 0xC7] }
      ⟨le_refl 0, le_refl 0, Or.inl rfl⟩ ⟨rfl, rfl, fun hm => absurd rfl hm⟩ hw rfl
      (by
        intro x hx0 hx1
        rw [hc.1] at hx1
        have hx : x = 0 ∨ x = 1 := by omega
        rcases hx with rfl | rfl
        · rw [hc.2.1]; rfl
        · rw [hc.2.2]; rfl)
      (by rw [hc.1]; decide)
    exact ⟨b1, R1, rfl, q1, q2⟩

/-- C23: for every `v` in `1..MAX_GAMMA`, `golomb_gamma_bits(v)` is twice the
integer part of the binary logarithm of `v + 1`, and `write_golomb_gamma(v)`
makes exactly that many calls, all of them calls of `write_bit`. -/
theorem gamma_bit_count (v : Int) (h1 : 1 ≤ v) (h2 : v ≤ MAX_GAMMA) :
    golomb_gamma_bits v = ((2 * Nat.log 2 (v.toNat + 1) : Nat) : Int) ∧
    (∀ b, write_golomb_gamma v b = runOps (golomb_gamma_ops v) b) ∧
    all_bits (golomb_gamma_ops v) = true ∧
    (((golomb_gamma_ops v).length : Nat) : Int) = golomb_gamma_bits v := by
  have hM : MAX_GAMMA = 254 := by decide
  rw [hM] at h2
  have hv : ((v.toNat : Nat) : Int) = v := Int.toNat_of_nonneg (by omega)
  have h := gamma_bits_log v.toNat (by omega) (by omega)
  rw [hv] at h
  exact ⟨h.1, fun b => write_golomb_gamma_eq v b, golomb_gamma_all_bits v, h.2⟩

/-- C23 at `v = 5`: four bits, twice the logarithm of 6. -/
theorem gamma_bit_count_witness :
    golomb_gamma_bits 5 = ((2 * Nat.log 2 ((5 : Int).toNat + 1) : Nat) : Int) ∧
    (∀ b, write_golomb_gamma 5 b = runOps (golomb_gamma_ops 5) b) ∧
    all_bits (golomb_gamma_ops 5) = true ∧
    (((golomb_gamma_ops 5).length : Nat) : Int) = golomb_gamma_bits 5 :=
  gamma_bit_count 5 (by decide) (by decide)

/-- C24: for every regime `r` in 0..7, every length in `1..MAX_GAMMA` and every
offset, `count_bits(offset, len)` with `BIT_OFFSET3 = 9 + r` is the size of the
calls of `write_doublet(len, offset)` (1 per `write_bit`, 8 per `write_byte`), and
it is `1 + golomb_gamma_bits(len)` plus 1 or 2 for a length-1 token, 7 for an
offset up to 32, 9 up to 288 and `2 + BIT_OFFSET3` above. -/
theorem cost_matches_emitter (r len offset : Int) (hr0 : 0 ≤ r) (hr7 : r ≤ 7) (hl1 : 1 ≤ len)
    (hl2 : len ≤ MAX_GAMMA) :
    (∀ b, write_doublet (BIT_OFFSET_MIN + r) len offset b =
      runOps (doublet_ops (BIT_OFFSET_MIN + r) len offset) b) ∧
    opsBits (doublet_ops (BIT_OFFSET_MIN + r) len offset) =
      count_bits (BIT_OFFSET_MIN + r) offset len ∧
    count_bits (BIT_OFFSET_MIN + r) offset len =
      1 + golomb_gamma_bits len +
        (if len = 1 then (if offset ≤ 1 then 1 else 2)
         else if offset ≤ 32 then 7 else if offset ≤ 288 then 9
         else 2 + (BIT_OFFSET_MIN + r)) := by
  have hmin : BIT_OFFSET_MIN = 9 := by decide
  refine ⟨fun b => write_doublet_eq _ len offset b,
    opsBits_doublet_ops _ len offset (by omega) hl1 hl2, ?_⟩
  simp only [count_bits, MAX_OFFSET00, MAX_OFFSET1, MAX_OFFSET2, BIT_OFFSET0, BIT_OFFSET00,
    BIT_OFFSET1, BIT_OFFSET2]
  split_ifs <;> omega

/-- C24 for regime 3, length 5 and offset 1000: 1 + 4 + 2 + 12 = 19 bits. -/
theorem cost_matches_emitter_witness :
    opsBits (doublet_ops (BIT_OFFSET_MIN + 3) 5 1000) = count_bits (BIT_OFFSET_MIN + 3) 1000 5 ∧
    count_bits (BIT_OFFSET_MIN + 3) 1000 5 = 19 :=
  ⟨(cost_matches_emitter 3 5 1000 (by decide) (by decide) (by decide) (by decide)).2.1,
    by decide⟩

/-- C25: when a sequence of calls of `write_bit` and `write_byte` is made from a
reset cursor (`index_dest = 0`, `bit_mask = 0`) and none of them leaves the
buffer, the same sequence of calls of `read_bit` and `read_byte` from a reset
cursor on the produced bytes returns the written bits and bytes in order, and
ends where the writer ended.  A `write_byte` while a byte of bits is open leaves
that byte and the bit cursor as they are. -/
theorem bit_io_mirror (ops : List WOp) (b b1 R : Buffers) (hb1 : b.index_dest = 0)
    (hb2 : b.bit_mask = 0) (hw : runOps ops b = some b1) (hR1 : R.index_src = 0)
    (hR2 : R.bit_mask = 0)
    (hRd : ∀ x, 0 ≤ x → x < b1.index_dest → R.data_src x = b1.data_dest x) :
    (∃ R1, readOps ops R = some (ops.map wireVal, R1) ∧ InSync b1 R1) ∧
    (wireVal (WOp.bit 0) = 0 ∧ wireVal (WOp.bit 1) = 1 ∧ ∀ v, v < 256 → wireVal (WOp.byte v) = v) ∧
    (∀ v c c1, c.bit_mask ≠ 0 → c.bit_index < c.index_dest → write_byte v c = some c1 →
      c1.bit_mask = c.bit_mask ∧ c1.bit_index = c.bit_index ∧
      c1.data_dest c.bit_index = c.data_dest c.bit_index ∧
      c1.data_dest c.index_dest = v % 256) := by
  refine ⟨?_, ⟨rfl, rfl, fun v hv => Nat.mod_eq_of_lt hv⟩, ?_⟩
  · obtain ⟨R1, h1, h2, _, _⟩ := mirror_ops 0 [] b1 ops b b1 R
      ⟨le_refl 0, by omega, Or.inl hb2⟩ ⟨by rw [hR1, hb1], by rw [hR2, hb2],
        fun hm => absurd hb2 hm⟩ hw rfl hRd
    exact ⟨R1, h1, h2⟩
  · intro v c c1 hm hi hc
    obtain ⟨_, _, f2, f3, f4, f5⟩ := write_byte_facts v c c1 hc
    exact ⟨f3, f2, f5 _ (by omega), f4⟩

/-- C25 on the calls bit 1, byte `0x41`, bit 0, bit 1: the bytes `A0 41` are read
back as 1, `0x41`, 0, 1. -/
theorem bit_io_mirror_witness :
    ∃ b1 R1, runOps [WOp.bit 1, WOp.byte 0x41, WOp.bit 0, WOp.bit 1] initial.buf = some b1 ∧
      readOps [WOp.bit 1, WOp.byte 0x41, WOp.bit 0, WOp.bit 1]
        { initial.buf with data_src := bufferOf [0xA0, 0x41] } = some ([1, 0x41, 0, 1], R1) ∧
      InSync b1 R1 := by
  have hc : (runOps [WOp.bit 1, WOp.byte 0x41, WOp.bit 0, WOp.bit 1] initial.buf).map
      (fun b => (b.index_dest, b.data_dest 0, b.data_dest 1)) = some (2, 0xA0, 0x41) := by
    decide
  cases hw : runOps [WOp.bit 1, WOp.byte 0x41, WOp.bit 0, WOp.bit 1] initial.buf with
  | none => rw [hw] at hc; exact absurd hc (by simp)
  | some b1 =>
    rw [hw] at hc
    simp only [Option.map_some', Option.some.injEq, Prod.mk.injEq] at hc
    obtain ⟨⟨R1, q1, q2⟩, _⟩ := bit_io_mirror [WOp.bit 1, WOp.byte 0x41, WOp.bit 0, WOp.bit 1]
      initial.buf b1 { initial.buf with data_src := bufferOf [0xA0, 0x41] } rfl rfl hw rfl rfl
      (by
        intro x hx0 hx1
        rw [hc.1] at hx1
        have hx : x = 0 ∨ x = 1 := by omega
        rcases hx with rfl | rfl
        · rw [hc.2.1]; rfl
        · rw [hc.2.2]; rfl)
    exact ⟨b1, R1, rfl, q1, q2⟩

/-- C26: for every non-empty input of at most `MAX` bytes and every option
setting the scan succeeds, and for every allowed subset `r` the table has
`bits[0][r] = 8` and, at every position `0 < i < n`, a finite cost that is the
cost at `i - len[i][r]` plus the cost of the recorded token: 9 for a literal,
`17 + 8 * len` for a literal run, `count_bits(offset, len)` with
`BIT_OFFSET3 = 9 + r` for a back-reference. -/
theorem cost_table_recurrence (src : List Nat) (max_bits rle_enabled fast_mode : Int)
    (g : Globals) (hne : src ≠ []) (hmax : (src.length : Int) ≤ MAX) :
    ∃ s, lzss_scan (encode_entry src max_bits rle_enabled fast_mode g) = some s ∧
      ∀ r, 0 ≤ r → r < (encode_entry src max_bits rle_enabled fast_mode g).BIT_OFFSET_NBR_ALLOWED →
        (s.parse.optimals 0).bits r = 8 ∧
        ∀ i, 0 < i → i < (src.length : Int) →
          (s.parse.optimals i).bits r ≠ INF ∧
          1 ≤ (s.parse.optimals i).len r ∧ (s.parse.optimals i).len r ≤ i ∧
          (s.parse.optimals i).bits r =
            (s.parse.optimals (i - (s.parse.optimals i).len r)).bits r +
              (if (s.parse.optimals i).offset r = 0 then
                (if (s.parse.optimals i).len r = 1 then 9
                 else 17 + 8 * (s.parse.optimals i).len r)
               else count_bits (BIT_OFFSET_MIN + r) ((s.parse.optimals i).offset r)
                 ((s.parse.optimals i).len r)) := by
  have hlen : 1 ≤ (src.length : Int) := by
    cases src with
    | nil => exact absurd rfl hne
    | cons a l => simp only [List.length_cons]; push_cast; omega
  obtain ⟨hn1, _⟩ := options_nbr max_bits rle_enabled fast_mode g
  obtain ⟨s, hs, hinv⟩ := lzss_scan_inv (encode_entry src max_bits rle_enabled fast_mode g)
    (by have : 1 ≤ (encode_entry src max_bits rle_enabled fast_mode g).BIT_OFFSET_NBR_ALLOWED :=
          hn1
        omega) hlen hmax
  refine ⟨s, hs, ?_⟩
  intro r hr0 hr1
  obtain ⟨⟨a1, _, _⟩, hcells, _⟩ := hinv r hr0 hr1
  refine ⟨a1, ?_⟩
  intro i hi0 hi1
  obtain ⟨c1, c2, _, _, c5, c6⟩ := hcells i (by omega) hi1
  have hI := INF_eq
  have hM := MAX_eq
  have hG : BIT_GOLOMG_MAX = 7 := by decide
  have hidx : (encode_entry src max_bits rle_enabled fast_mode g).buf.index_src =
      (src.length : Int) := rfl
  refine ⟨by omega, c1, c2, ?_⟩
  rw [c5]
  congr 1
  unfold tokenCost
  split_ifs <;> omega

/-- C26 at the input `[0x41, 0x42]`. -/
theorem cost_table_recurrence_witness :
    ∃ s, lzss_scan (encode_entry [0x41, 0x42] 16 1 0 initial) = some s ∧
      (s.parse.optimals 0).bits 0 = 8 ∧ (s.parse.optimals 1).bits 0 ≠ INF := by
  obtain ⟨s, hs, h⟩ := cost_table_recurrence [0x41, 0x42] 16 1 0 initial (by decide) (by decide)
  obtain ⟨h1, h2⟩ := h 0 (by decide) (by decide)
  exact ⟨s, hs, h1, (h2 1 (by decide) (by decide)).1⟩

/-- C27: for every non-empty input of at most `MAX` bytes and every option
setting, in the table that `cleanup_optimals` leaves for the selected subset
every position `i < n` that still records a token (`len > 0`) has `len = 0` at
every position `j` with `i - len < j < i`. -/
theorem no_overlap_after_trim (src : List Nat) (max_bits rle_enabled fast_mode : Int)
    (g : Globals) (hne : src ≠ []) (hmax : (src.length : Int) ≤ MAX) :
    ∃ s, lzss_scan (encode_entry src max_bits rle_enabled fast_mode g) = some s ∧
      ∀ i j, 0 ≤ i → i < (src.length : Int) → 0 ≤ j →
        ((trimmed (encode_entry src max_bits rle_enabled fast_mode g) s).optimals i).len
          (chosen_subset (encode_entry src max_bits rle_enabled fast_mode g) s) > 0 →
        i - ((trimmed (encode_entry src max_bits rle_enabled fast_mode g) s).optimals i).len
          (chosen_subset (encode_entry src max_bits rle_enabled fast_mode g) s) < j →
        j < i →
        ((trimmed (encode_entry src max_bits rle_enabled fast_mode g) s).optimals j).len
          (chosen_subset (encode_entry src max_bits rle_enabled fast_mode g) s) = 0 := by
  have hlen : 1 ≤ (src.length : Int) := by
    cases src with
    | nil => exact absurd rfl hne
    | cons a l => simp only [List.length_cons]; push_cast; omega
  obtain ⟨hn1, hn8⟩ := options_nbr max_bits rle_enabled fast_mode g
  obtain ⟨s, hs, hinv, ⟨hc0, hc1⟩, _⟩ := lzss_slow_spec
    (encode_entry src max_bits rle_enabled fast_mode g) hn1 hn8 hlen hmax
  have hr8 : chosen_subset (encode_entry src max_bits rle_enabled fast_mode g) s <
      BIT_OFFSET_NBR := by
    have h3 : chosen_subset (encode_entry src max_bits rle_enabled fast_mode g) s <
        (set_dan3_options max_bits rle_enabled fast_mode g).BIT_OFFSET_NBR_ALLOWED := hc1
    have h8 : BIT_OFFSET_NBR = 8 := by decide
    omega
  obtain ⟨⟨_, _, a3⟩, hcells, _⟩ := hinv _ hc0 hc1
  have hidx : (encode_entry src max_bits rle_enabled fast_mode g).buf.index_src =
      (src.length : Int) := rfl
  refine ⟨s, hs, ?_⟩
  intro i j hi0 hi1 hj0 hl hj1 hj2
  have key := cleanup_loop_no_overlap
    (chosen_subset (encode_entry src max_bits rle_enabled fast_mode g) s) hc0 hr8
    s.parse.optimals (src.length : Int) hmax
    (by
      intro x hx0 hx1 hx2
      by_cases hx : x = 0
      · rw [hx, a3]
      · have := (hcells x (by omega) (by rw [hidx]; exact hx2)).2.1
        omega)
    (src.length : Int).toNat ((src.length : Int) - 1) s.parse.optimals (by omega) (by omega)
    (fun x _ => rfl) (fun x hx0 hx1 hx2 => absurd hx2 (by omega))
  exact key i hi0 hi1 hl j hj0 hj1 hj2

/-- C27 at the input `9 1 2 3 1 2 3` with `max_bits = 9`, without literal runs and
fast path.  The scan records a match of 3 bytes at position 6 and matches of one
byte at the positions 5 and 4; the trimmed table keeps the token of position 6,
and the positions 5 and 4, which this token covers, have length 0. -/
theorem no_overlap_after_trim_example :
    ∃ s, lzss_scan (encode_entry [9, 1, 2, 3, 1, 2, 3] 9 0 0 initial) = some s ∧
      chosen_subset (encode_entry [9, 1, 2, 3, 1, 2, 3] 9 0 0 initial) s = 0 ∧
      (s.parse.optimals 5).len 0 = 1 ∧ (s.parse.optimals 4).len 0 = 1 ∧
      ((trimmed (encode_entry [9, 1, 2, 3, 1, 2, 3] 9 0 0 initial) s).optimals 6).len 0 = 3 ∧
      ((trimmed (encode_entry [9, 1, 2, 3, 1, 2, 3] 9 0 0 initial) s).optimals 5).len 0 = 0 ∧
      ((trimmed (encode_entry [9, 1, 2, 3, 1, 2, 3] 9 0 0 initial) s).optimals 4).len 0 = 0 := by
  obtain ⟨s, hs, h⟩ := no_overlap_after_trim [9, 1, 2, 3, 1, 2, 3] 9 0 0 initial (by decide)
    (by decide)
  have hd := scan_match_example
  rw [hs] at hd
  simp only [Option.map_some', Option.some.injEq, Prod.mk.injEq] at hd
  have h0 := chosen_subset_one (encode_entry [9, 1, 2, 3, 1, 2, 3] 9 0 0 initial) s rfl
  obtain ⟨s2, hs2, hinv2⟩ := lzss_scan_inv (encode_entry [9, 1, 2, 3, 1, 2, 3] 9 0 0 initial)
    (by decide) (by decide) (by decide)
  rw [hs] at hs2
  have q2 : s = s2 := Option.some.inj hs2
  subst q2
  have hlast := trimmed_last (encode_entry [9, 1, 2, 3, 1, 2, 3] 9 0 0 initial) s
    (by decide) (by decide) hinv2 (by rw [h0]) (by rw [h0]; decide) (by rw [h0]; omega)
  have e6 : (encode_entry [9, 1, 2, 3, 1, 2, 3] 9 0 0 initial).buf.index_src - 1 = 6 := by decide
  rw [e6] at hlast
  rw [h0] at h
  have hl : ((trimmed (encode_entry [9, 1, 2, 3, 1, 2, 3] 9 0 0 initial) s).optimals 6).len 0
      = 3 := by
    rw [hlast]; exact hd.2.1
  refine ⟨s, hs, h0, hd.2.2.2.1, hd.2.2.2.2, hl, ?_, ?_⟩
  · exact h 6 5 (by decide) (by decide) (by decide) (by rw [hl]; decide) (by rw [hl]; decide)
      (by decide)
  · exact h 6 4 (by decide) (by decide) (by decide) (by rw [hl]; decide) (by rw [hl]; decide)
      (by decide)

/-- C28: for every non-empty input of at most `MAX` bytes and every option
setting the scan succeeds, and every entry of the table that records a
back-reference (`offset > 0`), at every position `i` and for every allowed subset
`r`, has `offset <= i`, `offset <= 2^(9+r) + 288` and `len <= MAX_GAMMA`. -/
theorem legal_back_references (src : List Nat) (max_bits rle_enabled fast_mode : Int)
    (g : Globals) (hne : src ≠ []) (hmax : (src.length : Int) ≤ MAX) :
    ∃ s, lzss_scan (encode_entry src max_bits rle_enabled fast_mode g) = some s ∧
      ∀ i r, 0 ≤ r →
        r < (encode_entry src max_bits rle_enabled fast_mode g).BIT_OFFSET_NBR_ALLOWED →
        (s.parse.optimals i).offset r > 0 →
        (s.parse.optimals i).offset r ≤ i ∧
        (s.parse.optimals i).offset r ≤ 2 ^ (9 + r).toNat + 288 ∧
        (s.parse.optimals i).len r ≤ MAX_GAMMA := by
  have hlen : 1 ≤ (src.length : Int) := by
    cases src with
    | nil => exact absurd rfl hne
    | cons a l => simp only [List.length_cons]; push_cast; omega
  obtain ⟨hn1, _⟩ := options_nbr max_bits rle_enabled fast_mode g
  obtain ⟨s, hs, hinv⟩ := lzss_scan_inv (encode_entry src max_bits rle_enabled fast_mode g)
    (by have : 1 ≤ (encode_entry src max_bits rle_enabled fast_mode g).BIT_OFFSET_NBR_ALLOWED :=
          hn1
        omega) hlen hmax
  have hleg := lzss_scan_legal _ s hs
  have hoff := lzss_scan_offset _ s hs
  refine ⟨s, hs, ?_⟩
  intro i r hr0 hr1 hpos
  obtain ⟨l1, _, l3⟩ := hleg i r
  have hi := l1 hpos
  have hb := hoff i r
  have hmin : BIT_OFFSET_MIN = 9 := by decide
  have h288 : MAX_OFFSET2 = 288 := by decide
  rw [hmin, h288] at hb
  refine ⟨hi, hb, ?_⟩
  obtain ⟨_, hcells, hrest⟩ := hinv r hr0 hr1
  by_cases hin : i < (encode_entry src max_bits rle_enabled fast_mode g).buf.index_src
  · exact (hcells i (by omega) hin).2.2.2.1 hpos
  · have := l3 (hrest i (by omega))
    omega

/-- C28 at the input `[0x41, 0x41, 0x41]`. -/
theorem legal_back_references_witness :
    ∃ s, lzss_scan (encode_entry [0x41, 0x41, 0x41] 16 1 0 initial) = some s ∧
      ((s.parse.optimals 2).offset 0 > 0 → (s.parse.optimals 2).offset 0 ≤ 2) := by
  obtain ⟨s, hs, h⟩ := legal_back_references [0x41, 0x41, 0x41] 16 1 0 initial (by decide)
    (by decide)
  exact ⟨s, hs, fun hp => (h 2 0 (by decide) (by decide) hp).1⟩

/-- C29: for every non-empty input of at most `MAX` bytes, every setting of the
RLE option and of `max_bits`, the scan succeeds with the fast path enabled
(`bFAST = TRUE`) and with `bFAST = 0`, and for every subset `r` the final cost
`bits[n-1][r]` with the fast path is greater than or equal to the one without. -/
theorem fast_path_only_loses (src : List Nat) (max_bits rle_enabled : Int) (g : Globals)
    (hne : src ≠ []) (hmax : (src.length : Int) ≤ MAX) (hb : ∀ x ∈ src, x < 256) :
    ∃ sF sS, lzss_scan (encode_entry src max_bits rle_enabled TRUE g) = some sF ∧
      lzss_scan (encode_entry src max_bits rle_enabled 0 g) = some sS ∧
      ∀ r, (sS.parse.optimals ((src.length : Int) - 1)).bits r ≤
        (sF.parse.optimals ((src.length : Int) - 1)).bits r := by
  have hlen : 1 ≤ (src.length : Int) := by
    cases src with
    | nil => exact absurd rfl hne
    | cons a l => simp only [List.length_cons]; push_cast; omega
  obtain ⟨sF, hF, _⟩ := lzss_scan_inv (encode_entry src max_bits rle_enabled TRUE g)
    (by have : 1 ≤ (encode_entry src max_bits rle_enabled TRUE g).BIT_OFFSET_NBR_ALLOWED :=
          (options_nbr max_bits rle_enabled TRUE g).1
        omega) hlen hmax
  obtain ⟨sS, hS, _⟩ := lzss_scan_inv (encode_entry src max_bits rle_enabled 0 g)
    (by have : 1 ≤ (encode_entry src max_bits rle_enabled 0 g).BIT_OFFSET_NBR_ALLOWED :=
          (options_nbr max_bits rle_enabled 0 g).1
        omega) hlen hmax
  have hsim := lzss_scan_sim (encode_entry src max_bits rle_enabled TRUE g)
    (encode_entry src max_bits rle_enabled 0 g) sF sS rfl rfl rfl rfl rfl hlen hmax
    (fun x hx1 hx2 => entry_data_lt src max_bits rle_enabled TRUE g hb x (by omega) hx2) hF hS
  exact ⟨sF, sS, hF, hS, fun r => (hsim.1 _ r).1⟩

/-- C29 at the input of seven bytes `7` with `max_bits = 9` and without literal
runs.  With the fast path position 5 records a match of 4 bytes at distance 1 and
position 6 has the bucket of position 5, so the scan takes the fast path at
position 6 and offers only the match of 5 bytes at distance 1; both scans price the
last position at 24 bits. -/
theorem fast_path_only_loses_example :
    ∃ sF sS, lzss_scan (encode_entry [7, 7, 7, 7, 7, 7, 7] 9 0 TRUE initial) = some sF ∧
      lzss_scan (encode_entry [7, 7, 7, 7, 7, 7, 7] 9 0 0 initial) = some sS ∧
      (sF.parse.optimals 5).offset 0 = 1 ∧ (sF.parse.optimals 5).len 0 = 4 ∧
      (sF.parse.optimals 6).offset 0 = 1 ∧ (sF.parse.optimals 6).len 0 = 5 ∧
      (sF.parse.optimals 6).bits 0 = 24 ∧ (sS.parse.optimals 6).bits 0 = 24 ∧
      ∀ r, (sS.parse.optimals 6).bits r ≤ (sF.parse.optimals 6).bits r := by
  obtain ⟨sF, sS, hF, hS, h⟩ := fast_path_only_loses [7, 7, 7, 7, 7, 7, 7] 9 0 initial
    (by decide) (by decide) (by decide)
  have hdF := scan_run_example_fast
  have hdS := scan_run_example_slow
  rw [hF] at hdF
  rw [hS] at hdS
  simp only [Option.map_some', Option.some.injEq, Prod.mk.injEq] at hdF hdS
  have e6 : ((([7, 7, 7, 7, 7, 7, 7] : List Nat).length : Int) - 1) = 6 := by decide
  rw [e6] at h
  exact ⟨sF, sS, hF, hS, hdF.1, hdF.2.1, hdF.2.2.2.1, hdF.2.2.2.2.1, hdF.2.2.1, hdS.1, h⟩

/-- C30: when `encode` succeeds on an input of bytes, with any options, `decode`
applied to the stream it returns calls `abort()`, returns `-1`, or returns the
length of the input with exactly the bytes of the input: it never returns
successfully with other bytes, and the main loop of `delzss` ends within its
budget of tokens. -/
theorem no_silent_corruption (src : List Nat) (max_bits rle_enabled fast_mode : Int)
    (out1 out2 : Int → Nat) (g1 g2 : Globals) (v : Int) (stream : List Nat)
    (hb : ∀ x ∈ src, x < 256)
    (he : encode src max_bits rle_enabled fast_mode out1 g1 = Seen.returned v stream)
    (hv : 0 ≤ v) :
    decode stream out2 g2 = Seen.aborted ∨
    decode stream out2 g2 = Seen.returned (-1) [] ∨
    decode stream out2 g2 = Seen.returned (src.length : Int) src := by
  by_cases hne : src = []
  · subst hne
    rw [encode_nil] at he
    obtain ⟨_, e2⟩ := Seen.returned.inj he
    rw [← e2]
    right
    right
    exact decode_nil out2 g2
  have hmax : (src.length : Int) ≤ MAX := by
    by_contra hcon
    have hgt : (src.length : Int) > MAX := by omega
    unfold encode at he
    simp only [dan3_encode, if_pos hgt] at he
    have := (Seen.returned.inj he).1
    omega
  have hlen : 1 ≤ (src.length : Int) := by
    cases src with
    | nil => exact absurd rfl hne
    | cons a l => simp only [List.length_cons]; push_cast; omega
  obtain ⟨hn1, hn8⟩ := options_nbr max_bits rle_enabled fast_mode g1
  obtain ⟨s, hs, hinv, ⟨hc0, hc1⟩, hsel, _, hw, _⟩ := lzss_slow_spec
    (encode_entry src max_bits rle_enabled fast_mode g1) hn1 hn8 hlen hmax
  have hr7 : chosen_subset (encode_entry src max_bits rle_enabled fast_mode g1) s ≤ 7 := by
    have h3 : chosen_subset (encode_entry src max_bits rle_enabled fast_mode g1) s <
        (set_dan3_options max_bits rle_enabled fast_mode g1).BIT_OFFSET_NBR_ALLOWED := hc1
    omega
  have hrn : (chosen_subset (encode_entry src max_bits rle_enabled fast_mode g1) s + 1).toNat =
      (chosen_subset (encode_entry src max_bits rle_enabled fast_mode g1) s).toNat + 1 := by
    omega
  have hslow := lzss_slow_eq _ s hs hlen hsel
  rw [hw, hrn] at hslow
  unfold encode at he
  rw [dan3_encode_eq src max_bits rle_enabled fast_mode out1 g1 hmax, hslow] at he
  cases hrun : runOps (bits_ops 254
        ((chosen_subset (encode_entry src max_bits rle_enabled fast_mode g1) s).toNat + 1) ++
      (WOp.byte ((encode_entry src max_bits rle_enabled fast_mode g1).buf.data_src 0) ::
        emitted_tokens (encode_entry src max_bits rle_enabled fast_mode g1) s) ++ end_ops)
      { (encode_entry src max_bits rle_enabled fast_mode g1).buf with
        index_dest := 0, bit_mask := 0, bit_index := 0 } with
  | none =>
    rw [hrun] at he
    simp at he
  | some b3 =>
    rw [hrun] at he
    simp only [Option.map_some', Option.some_bind] at he
    have hge : b3.index_dest ≥ 0 := by
      have := runOps_index_mono _ _ b3 hrun
      exact this
    simp only [if_pos hge] at he
    by_cases hM : b3.index_dest > MAX
    · simp only [if_pos hM] at he
      have := (Seen.returned.inj he).1
      omega
    · simp only [if_neg hM] at he
      obtain ⟨ev, eb⟩ := Seen.returned.inj he
      rw [bytesOf_memcpy] at eb
      have hsl : (stream.length : Int) = b3.index_dest := by
        rw [← eb]
        simp only [bytesOf, List.length_map, List.length_range]
        omega
      have hbytes : ∀ x, 0 ≤ x → x < (src.length : Int) →
          (encode_entry src max_bits rle_enabled fast_mode g1).buf.data_src x < 256 :=
        fun x h0 h1 => entry_data_lt src max_bits rle_enabled fast_mode g1 hb x h0 h1
      have hdz := delzss_on_encoded
        (encode_entry src max_bits rle_enabled fast_mode g1).buf.data_src
        (chosen_subset (encode_entry src max_bits rle_enabled fast_mode g1) s)
        (trimmed (encode_entry src max_bits rle_enabled fast_mode g1) s)
        (src.length : Int) hlen _ b3 (load_src stream g2.buf) hc0 hr7 rfl
        (fun i hi1 hi2 hl => trimmed_cell_dec
          (encode_entry src max_bits rle_enabled fast_mode g1) s hn1 hlen hmax
          (fun x hx1 hx2 => hbytes x (by omega) hx2) hs hinv hc0 hc1 i hi1 hi2 hl)
        hbytes (trimmed_tiled (encode_entry src max_bits rle_enabled fast_mode g1) s hlen hmax
          hinv hc0 hc1 hr7) rfl rfl hrun hsl
        (by
          intro x h0 h1
          show memcpy _ (bufferOf stream) (stream.length : Int) x = _
          have h2 : x < (stream.length : Int) := by omega
          simp only [memcpy, if_pos (And.intro h0 h2), bufferOf]
          rw [← eb]
          have := bytesOf_getD b3.data_dest b3.index_dest x.toNat (by omega)
          rw [this]
          congr 1
          omega)
      have hsM : ¬ ((stream.length : Int) > MAX) := by omega
      unfold decode dan3_decode
      simp only [if_neg hsM]
      cases hd : delzss (load_src stream g2.buf) with
      | none => left; rfl
      | some o =>
        right
        rcases hdz o hd with ⟨Rf, ho⟩ | ⟨Rf, ho, hout⟩
        · left
          subst ho
          simp [bytesOf_neg]
        · right
          subst ho
          have hn0 : (src.length : Int) ≥ 0 := by omega
          have hnM : ¬ ((src.length : Int) > MAX) := by omega
          simp only [if_pos hn0, if_neg hnM, bytesOf_memcpy]
          congr 1
          rw [bytesOf_congr hout]
          show bytesOf (memcpy _ (bufferOf src) (src.length : Int)) (src.length : Int) = src
          rw [bytesOf_memcpy, bytesOf_bufferOf]

/-- C30 at the input `[0x41]`, whose stream is `00 41 00`. -/
theorem no_silent_corruption_witness :
    (∀ x ∈ [0x41], x < 256) ∧
    encode [0x41] 16 1 0 (fun _ => 0) initial = Seen.returned 3 [0x00, 0x41, 0x00] ∧
    (decode [0x00, 0x41, 0x00] (fun _ => 0) initial = Seen.aborted ∨
      decode [0x00, 0x41, 0x00] (fun _ => 0) initial = Seen.returned (-1) [] ∨
      decode [0x00, 0x41, 0x00] (fun _ => 0) initial =
        Seen.returned (([0x41] : List Nat).length : Int) [0x41]) :=
  ⟨by decide, encode_single_41 16 1 0 (fun _ => 0) initial,
    no_silent_corruption [0x41] 16 1 0 (fun _ => 0) (fun _ => 0) initial initial 3
      [0x00, 0x41, 0x00] (by decide) (encode_single_41 16 1 0 (fun _ => 0) initial)
      (by decide)⟩

/-- C32: for every non-empty input of at most `MAX` bytes and every option
setting (fast path on or off), every entry of the table after the scan that
records a back-reference (`offset = d > 0`, `len = L`), at every position `i` and
for every allowed subset, lies at a position `1 <= i < n`, has `L >= 1`, a copy
source inside the input (`i - L + 1 - d >= 0`), and repeats the input:
`src[i - t] = src[i - t - d]` for every `t` in `0..L-1`. -/
theorem recorded_matches_are_real (src : List Nat) (max_bits rle_enabled fast_mode : Int)
    (g : Globals) (hne : src ≠ []) (hmax : (src.length : Int) ≤ MAX)
    (hb : ∀ x ∈ src, x < 256) :
    ∃ s, lzss_scan (encode_entry src max_bits rle_enabled fast_mode g) = some s ∧
      ∀ i r, 0 ≤ r →
        r < (encode_entry src max_bits rle_enabled fast_mode g).BIT_OFFSET_NBR_ALLOWED →
        (s.parse.optimals i).offset r > 0 →
        (1 ≤ i ∧ i < (src.length : Int)) ∧ 1 ≤ (s.parse.optimals i).len r ∧
        0 ≤ i - (s.parse.optimals i).len r + 1 - (s.parse.optimals i).offset r ∧
        ∀ t, 0 ≤ t → t < (s.parse.optimals i).len r →
          bufferOf src (i - t) = bufferOf src (i - t - (s.parse.optimals i).offset r) := by
  have hlen : 1 ≤ (src.length : Int) := by
    cases src with
    | nil => exact absurd rfl hne
    | cons a l => simp only [List.length_cons]; push_cast; omega
  obtain ⟨hn1, _⟩ := options_nbr max_bits rle_enabled fast_mode g
  obtain ⟨s, hs, hinv⟩ := lzss_scan_inv (encode_entry src max_bits rle_enabled fast_mode g)
    (by have : 1 ≤ (encode_entry src max_bits rle_enabled fast_mode g).BIT_OFFSET_NBR_ALLOWED :=
          hn1
        omega) hlen hmax
  have hleg := lzss_scan_legal _ s hs
  have hreal := lzss_scan_real (encode_entry src max_bits rle_enabled fast_mode g) s
    (by have : 1 ≤ (encode_entry src max_bits rle_enabled fast_mode g).BIT_OFFSET_NBR_ALLOWED :=
          hn1
        omega) hlen hmax
    (fun x hx1 hx2 => entry_data_lt src max_bits rle_enabled fast_mode g hb x (by omega) hx2) hs
  refine ⟨s, hs, ?_⟩
  intro i r hr0 hr1 hpos
  obtain ⟨l1, _, l3⟩ := hleg i r
  obtain ⟨_, hcells, hinf⟩ := hinv r hr0 hr1
  have hidx : (encode_entry src max_bits rle_enabled fast_mode g).buf.index_src =
      (src.length : Int) := rfl
  rw [hidx] at hcells hinf
  have hle := l1 hpos
  have hin : i < (src.length : Int) := by
    by_contra hcon
    have := l3 (hinf i (by omega))
    omega
  obtain ⟨c1, c2, _⟩ := hcells i (by omega) hin
  obtain ⟨_, r2, r3⟩ := (hreal i r).2 hpos
  refine ⟨⟨by omega, hin⟩, c1, ?_, ?_⟩
  · by_cases h2 : (s.parse.optimals i).len r ≥ 2
    · have := r2 h2
      omega
    · omega
  · intro t ht0 ht1
    have := r3 t ht0 ht1
    rw [entry_data_eq src max_bits rle_enabled fast_mode g _ (by omega) (by omega)] at this
    by_cases h2 : (s.parse.optimals i).len r ≥ 2
    · have hb2 := r2 h2
      rw [entry_data_eq src max_bits rle_enabled fast_mode g _ (by omega) (by omega)] at this
      exact this
    · rw [entry_data_eq src max_bits rle_enabled fast_mode g _ (by omega) (by omega)] at this
      exact this

/-- C32 at the input `[0x41, 0x41, 0x41]`, position 2 and subset 0. -/
theorem recorded_matches_are_real_witness :
    ∃ s, lzss_scan (encode_entry [0x41, 0x41, 0x41] 16 1 0 initial) = some s ∧
      ((s.parse.optimals 2).offset 0 > 0 →
        0 ≤ 2 - (s.parse.optimals 2).len 0 + 1 - (s.parse.optimals 2).offset 0) := by
  obtain ⟨s, hs, h⟩ := recorded_matches_are_real [0x41, 0x41, 0x41] 16 1 0 initial (by decide)
    (by decide) (by decide)
  exact ⟨s, hs, fun hp => (h 2 0 (by decide) (by decide) hp).2.2.1⟩

/-- C33: `TRUE` is `-1`, so `fast_mode = 1` does not enable the fast path: for
every input and every setting of the other options the scan of `lzss_slow` gives
the same result with `fast_mode = 1` and with `fast_mode = 0`, and `encode`
returns the same value and the same bytes. -/
theorem fast_mode_one_is_slow (src : List Nat) (max_bits rle_enabled : Int) (out : Int → Nat)
    (g : Globals) :
    TRUE = -1 ∧
    lzss_scan (encode_entry src max_bits rle_enabled 1 g) =
      lzss_scan (encode_entry src max_bits rle_enabled 0 g) ∧
    encode src max_bits rle_enabled 1 out g = encode src max_bits rle_enabled 0 out g :=
  ⟨rfl, lzss_scan_not_fast (encode_entry src max_bits rle_enabled 1 g)
    (show (1 : Int) ≠ TRUE by decide),
    encode_not_fast src max_bits rle_enabled 1 out g (by decide)⟩

/-- C34: when `encode` succeeds on a non-empty input, the size it returns is the
number of bits of the stream, rounded up to whole bytes: the cost
`bits[n-1][r]` of the selected subset `r`, the `r + 1` bits of the selector and
the 9 bits of the end marker. -/
theorem compressed_size (src : List Nat) (max_bits rle_enabled fast_mode : Int)
    (out : Int → Nat) (g : Globals) (v : Int) (bytes : List Nat) (hne : src ≠ [])
    (he : encode src max_bits rle_enabled fast_mode out g = Seen.returned v bytes)
    (hv : 0 ≤ v) :
    ∃ s, lzss_scan (encode_entry src max_bits rle_enabled fast_mode g) = some s ∧
      v = ((s.parse.optimals ((src.length : Int) - 1)).bits
            (chosen_subset (encode_entry src max_bits rle_enabled fast_mode g) s) +
          (chosen_subset (encode_entry src max_bits rle_enabled fast_mode g) s + 1) + 9 + 7) / 8 ∧
      v = ⌈((((s.parse.optimals ((src.length : Int) - 1)).bits
            (chosen_subset (encode_entry src max_bits rle_enabled fast_mode g) s) +
          (chosen_subset (encode_entry src max_bits rle_enabled fast_mode g) s + 1) + 9 : Int) :
            ℚ) / 8)⌉ ∧
      (bytes.length : Int) = v := by
  have hmax : (src.length : Int) ≤ MAX := by
    by_contra hcon
    have hgt : (src.length : Int) > MAX := by omega
    unfold encode at he
    simp only [dan3_encode, if_pos hgt] at he
    have := (Seen.returned.inj he).1
    omega
  have hlen : 1 ≤ (src.length : Int) := by
    cases src with
    | nil => exact absurd rfl hne
    | cons a l => simp only [List.length_cons]; push_cast; omega
  obtain ⟨hn1, hn8⟩ := options_nbr max_bits rle_enabled fast_mode g
  obtain ⟨s, hs, hinv, ⟨hc0, hc1⟩, hsel, _, hw, hbits⟩ := lzss_slow_spec
    (encode_entry src max_bits rle_enabled fast_mode g) hn1 hn8 hlen hmax
  have hrn : (chosen_subset (encode_entry src max_bits rle_enabled fast_mode g) s + 1).toNat =
      (chosen_subset (encode_entry src max_bits rle_enabled fast_mode g) s).toNat + 1 := by
    omega
  have hslow := lzss_slow_eq _ s hs hlen hsel
  rw [hw, hrn] at hslow
  unfold encode at he
  rw [dan3_encode_eq src max_bits rle_enabled fast_mode out g hmax, hslow] at he
  cases hrun : runOps (bits_ops 254
        ((chosen_subset (encode_entry src max_bits rle_enabled fast_mode g) s).toNat + 1) ++
      (WOp.byte ((encode_entry src max_bits rle_enabled fast_mode g).buf.data_src 0) ::
        emitted_tokens (encode_entry src max_bits rle_enabled fast_mode g) s) ++ end_ops)
      { (encode_entry src max_bits rle_enabled fast_mode g).buf with
        index_dest := 0, bit_mask := 0, bit_index := 0 } with
  | none =>
    rw [hrun] at he
    simp at he
  | some b3 =>
    rw [hrun] at he
    simp only [Option.map_some', Option.some_bind] at he
    have hge : b3.index_dest ≥ 0 := runOps_index_mono _ _ b3 hrun
    simp only [if_pos hge] at he
    by_cases hM : b3.index_dest > MAX
    · simp only [if_pos hM] at he
      have := (Seen.returned.inj he).1
      omega
    · simp only [if_neg hM] at he
      obtain ⟨ev, eb⟩ := Seen.returned.inj he
      have hcount := runOps_count 0 _ _ b3 ⟨le_refl _, le_refl _, Or.inl rfl⟩ hrun
      rw [opsBits_append, opsBits_append, opsBits_bits_ops, opsBits_end_ops, hbits] at hcount
      have hbl0 : bitsLeft 0 = 0 := by decide
      have hleft := writerOK_left 0 b3 hcount.1
      have hcnt := hcount.2
      simp only [hbl0] at hcnt
      have hidx : (encode_entry src max_bits rle_enabled fast_mode g).buf.index_src =
          (src.length : Int) := rfl
      rw [hidx] at hcnt
      push_cast at hcnt
      have hr : (((chosen_subset (encode_entry src max_bits rle_enabled fast_mode g) s).toNat :
          Nat) : Int) = chosen_subset (encode_entry src max_bits rle_enabled fast_mode g) s := by
        omega
      rw [hr, ev] at hcnt
      refine ⟨s, hs, by omega, ?_, ?_⟩
      · symm
        rw [Int.ceil_eq_iff]
        constructor
        · rw [lt_div_iff₀ (by norm_num)]
          have h1 : (v - 1) * 8 < (s.parse.optimals ((src.length : Int) - 1)).bits
              (chosen_subset (encode_entry src max_bits rle_enabled fast_mode g) s) +
              (chosen_subset (encode_entry src max_bits rle_enabled fast_mode g) s + 1) + 9 := by
            omega
          exact_mod_cast h1
        · rw [div_le_iff₀ (by norm_num)]
          have h1 : (s.parse.optimals ((src.length : Int) - 1)).bits
              (chosen_subset (encode_entry src max_bits rle_enabled fast_mode g) s) +
              (chosen_subset (encode_entry src max_bits rle_enabled fast_mode g) s + 1) + 9 ≤
              v * 8 := by omega
          exact_mod_cast h1
      · rw [← eb]
        simp only [bytesOf, List.length_map, List.length_range]
        omega

/-- C34 at the input `[0x41]`: cost 8, subset 0, `8 + 1 + 9 = 18` bits, 3 bytes. -/
theorem compressed_size_witness :
    ∃ s, lzss_scan (encode_entry [0x41] 16 1 0 initial) = some s ∧
      (3 : Int) = ((s.parse.optimals 0).bits (chosen_subset (encode_entry [0x41] 16 1 0 initial) s) +
          (chosen_subset (encode_entry [0x41] 16 1 0 initial) s + 1) + 9 + 7) / 8 := by
  obtain ⟨s, hs, h, _⟩ := compressed_size [0x41] 16 1 0 (fun _ => 0) initial 3 [0x00, 0x41, 0x00]
    (by decide) (encode_single_41 16 1 0 (fun _ => 0) initial) (by decide)
  exact ⟨s, hs, h⟩

/-- C35: for every non-empty input of at most `MAX` bytes and every option
setting (fast path on or off) the scan of `lzss_slow` ends without `abort()`;
the scan reaches every position `1 <= i < n`, the three stages before the
matches of two or more bytes do not reach `abort()` there, and when the table
holds a length above 2 for position `i - 1` and subset 0, as the test of the fast
path asks, then `i - len - 1 >= 0` and the call `update_optimal(i, len + 1, 1)`
that the fast path makes for `len < MAX_GAMMA` does not reach `abort()`. -/
theorem scan_never_aborts (src : List Nat) (max_bits rle_enabled fast_mode : Int)
    (g : Globals) (hne : src ≠ []) (hmax : (src.length : Int) ≤ MAX) :
    (∃ s, lzss_scan (encode_entry src max_bits rle_enabled fast_mode g) = some s) ∧
    ∃ p0, update_optimal (encode_entry src max_bits rle_enabled fast_mode g).BIT_OFFSET_NBR_ALLOWED
        0 1 0 { (encode_entry src max_bits rle_enabled fast_mode g).parse with
          optimals := init_optimals
            (encode_entry src max_bits rle_enabled fast_mode g).parse.optimals } = some p0 ∧
      ∀ i, 1 ≤ i → i < (src.length : Int) →
        ∃ s p1 p2 p3,
          scan_loop (encode_entry src max_bits rle_enabled fast_mode g).buf.data_src
            (encode_entry src max_bits rle_enabled fast_mode g).BIT_OFFSET_NBR_ALLOWED
            rle_enabled fast_mode (i - 1).toNat 1
            { parse := p0,
              matches_ := reset_matches
                (encode_entry src max_bits rle_enabled fast_mode g).matches_,
              prev_match_index := -1 } = some s ∧
          update_optimal
            (encode_entry src max_bits rle_enabled fast_mode g).BIT_OFFSET_NBR_ALLOWED
            i 1 0 s.parse = some p1 ∧
          (if rle_enabled ≠ 0 ∧ i ≥ RAW_MIN then
            rle_loop (encode_entry src max_bits rle_enabled fast_mode g).BIT_OFFSET_NBR_ALLOWED i
              ((if RAW_MAX > i then i else RAW_MAX) - RAW_MIN).toNat
              (if RAW_MAX > i then i else RAW_MAX) p1 else some p1) = some p2 ∧
          len1_loop (encode_entry src max_bits rle_enabled fast_mode g).buf.data_src
            (encode_entry src max_bits rle_enabled fast_mode g).BIT_OFFSET_NBR_ALLOWED i
            (if MAX_OFFSET0 > i then i else MAX_OFFSET0).toNat 1 p2 = some p3 ∧
          ((p3.optimals (i - 1)).len 0 > 2 →
            0 ≤ i - (p3.optimals (i - 1)).len 0 - 1 ∧
            ((p3.optimals (i - 1)).len 0 < MAX_GAMMA →
              ∃ p4, update_optimal
                (encode_entry src max_bits rle_enabled fast_mode g).BIT_OFFSET_NBR_ALLOWED
                i ((p3.optimals (i - 1)).len 0 + 1) 1 p3 = some p4)) := by
  have hlen : 1 ≤ (src.length : Int) := by
    cases src with
    | nil => exact absurd rfl hne
    | cons a l => simp only [List.length_cons]; push_cast; omega
  obtain ⟨hn1, _⟩ := options_nbr max_bits rle_enabled fast_mode g
  have hn0 : 0 < (encode_entry src max_bits rle_enabled fast_mode g).BIT_OFFSET_NBR_ALLOWED := by
    have : 1 ≤ (encode_entry src max_bits rle_enabled fast_mode g).BIT_OFFSET_NBR_ALLOWED := hn1
    omega
  obtain ⟨s, hs, _⟩ := lzss_scan_inv (encode_entry src max_bits rle_enabled fast_mode g) hn0
    hlen hmax
  refine ⟨⟨s, hs⟩, ?_⟩
  obtain ⟨p0, hp0, hinv0⟩ := update_optimal_first
    (encode_entry src max_bits rle_enabled fast_mode g).BIT_OFFSET_NBR_ALLOWED
    { (encode_entry src max_bits rle_enabled fast_mode g).parse with
      optimals := init_optimals
        (encode_entry src max_bits rle_enabled fast_mode g).parse.optimals } (fun j r _ => rfl)
  refine ⟨p0, hp0, ?_⟩
  intro i hi1 hi2
  obtain ⟨t, p1, p2, p3, h0, h1, h2, h3, inv3⟩ := scan_prefix_front
    (encode_entry src max_bits rle_enabled fast_mode g).buf.data_src
    (encode_entry src max_bits rle_enabled fast_mode g).BIT_OFFSET_NBR_ALLOWED
    rle_enabled fast_mode hn0
    { parse := p0,
      matches_ := reset_matches (encode_entry src max_bits rle_enabled fast_mode g).matches_,
      prev_match_index := -1 } hinv0 i hi1 (by omega)
  refine ⟨t, p1, p2, p3, h0, h1, h2, h3, ?_⟩
  intro hgt
  obtain ⟨⟨_, _, z3⟩, hcells, _⟩ := inv3 0 (le_refl _) hn0
  have hi : 2 ≤ i := by
    by_contra hcon
    have e : i - 1 = 0 := by omega
    rw [e, z3] at hgt
    omega
  obtain ⟨c1, c2, _⟩ := hcells (i - 1) (by omega) (by omega)
  refine ⟨by omega, ?_⟩
  intro hlt
  obtain ⟨p4, h4, _⟩ := update_optimal_gen_inv
    (encode_entry src max_bits rle_enabled fast_mode g).BIT_OFFSET_NBR_ALLOWED i
    ((p3.optimals (i - 1)).len 0 + 1) 1 p3 inv3 hi1 (by omega) (by omega) (by omega)
    (by omega) (fun _ => by omega)
  exact ⟨p4, h4⟩

/-- C35 at the input `[0x41, 0x41, 0x41]` with the fast path on. -/
theorem scan_never_aborts_witness :
    ∃ s, lzss_scan (encode_entry [0x41, 0x41, 0x41] 16 1 TRUE initial) = some s :=
  (scan_never_aborts [0x41, 0x41, 0x41] 16 1 TRUE initial (by decide) (by decide)).1

end DAN3
